import Mathlib

/-! # index_edge: grammar-compressed hypergraphs

A shallow embedding of the parts of the C sources that the verified
properties talk about.  Machine integers are natural numbers (the values
that occur are far below 2^64 unless a definition says otherwise), C
arrays are lists, and every way the C code can stop abnormally is a value
of `Err`:

* `Err.panic`      the code calls `panic(...)`
* `Err.assertion`  an `assert(...)` fails
* `Err.undefined`  the code would read memory it does not own
                   (a NULL pointer or an index past an allocation)
* `Err.fuel`       a loop of the embedding ran out of its step budget
* `Err.failed`     the function reports failure through its return value
                   (`-1` or `NULL`)
* `Err.unmodelled` the code takes a path the embedding does not cover
                   (a hash bin is converted into a red-black tree)
-/

namespace IndexEdge

inductive Err where
  | panic
  | assertion
  | undefined
  | fuel
  | failed
  | unmodelled
deriving DecidableEq, Repr

deriving instance DecidableEq for Except

/-- Reading `a[i]` from a C array of `a.length` elements. -/
def arr_get {α : Type} (a : List α) (i : Nat) : Except Err α :=
  match a.get? i with
  | some x => .ok x
  | none => .error .undefined

/-- The value of `(uint64_t) -1`. -/
def U64_MINUS_ONE : Nat := 18446744073709551615

/-- Arithmetic on `uint64_t`. -/
def u64 (x : Int) : Nat := (x % 18446744073709551616).toNat

/-! ## hgraph.h / hgraph.c -/

/-- A hyperedge: `label`, `rank` and the `nodes` array of the C struct `HEdge`. -/
structure HEdge where
  label : Nat
  rank : Nat
  nodes : List Nat
deriving DecidableEq, Repr

/-- The C struct `HGraph`: `edges` may hold NULL entries (holes), `rank` is the
declared rank (`RANK_NONE = -1` for the start symbol). -/
structure HGraph where
  edges : List (Option HEdge)
  rank : Int
deriving DecidableEq, Repr

def RANK_NONE : Int := -1

def hgraph_init (rank : Int) : HGraph := { edges := [], rank := rank }

def hgraph_len (g : HGraph) : Nat := g.edges.length

def hgraph_add_edge (g : HGraph) (e : HEdge) : HGraph :=
  { g with edges := g.edges ++ [some e] }

/-- The function `hgraph_edge_get`: asserts `i < len`, returns the stored pointer
(which may be NULL). -/
def hgraph_edge_get (g : HGraph) (i : Nat) : Except Err (Option HEdge) :=
  if h : i < g.edges.length then .ok (g.edges.get ⟨i, h⟩) else .error .assertion

/-- Dereferencing the pointer returned by `hgraph_edge_get`. -/
def hgraph_edge_deref (g : HGraph) (i : Nat) : Except Err HEdge :=
  match hgraph_edge_get g i with
  | .ok (some e) => .ok e
  | .ok none => .error .undefined
  | .error x => .error x

def hgraph_edge_set (g : HGraph) (i : Nat) (e : Option HEdge) : Except Err HGraph :=
  if i < g.edges.length then .ok { g with edges := g.edges.set i e } else .error .assertion

/-- The function `hgraph_edge_replace` (the old edge is freed). -/
def hgraph_edge_replace (g : HGraph) (i : Nat) (e : HEdge) : Except Err HGraph :=
  hgraph_edge_set g i (some e)

/-- The function `hgraph_edge_free`: the slot becomes NULL. -/
def hgraph_edge_free (g : HGraph) (i : Nat) : Except Err HGraph :=
  hgraph_edge_set g i none

def hgraph_fill_holes (g : HGraph) : HGraph :=
  { g with edges := g.edges.filter (fun e => e.isSome) }

/-! ## slhr_grammar.h / slhr_grammar.c -/

def START_SYMBOL : Nat := 0

/-- The C struct `SLHRGrammar`; `rules` has `rules_cap` entries, NULL where no
rule is stored. -/
structure SLHRGrammar where
  min_nt : Nat
  start_symbol : HGraph
  rule_max : Nat
  rules : List (Option HGraph)
deriving DecidableEq, Repr

def slhr_grammar_init (graph : HGraph) (min_nt : Nat) : SLHRGrammar :=
  { min_nt := min_nt, start_symbol := graph, rule_max := 0, rules := [] }

def slhr_grammar_rule_get (g : SLHRGrammar) (symbol : Nat) : Except Err HGraph :=
  if symbol = START_SYMBOL then .ok g.start_symbol
  else if symbol < g.min_nt then .error .assertion
  else if g.rule_max < symbol then .error .assertion
  else
    match g.rules.get? (symbol - g.min_nt) with
    | some (some r) => .ok r
    | some none => .error .assertion
    | none => .error .undefined

/-! ## bitarray.c -/

abbrev BitArray := List Bool

def bitarray_init (len : Nat) : BitArray := List.replicate len false

def bitarray_get (b : BitArray) (i : Nat) : Except Err Bool :=
  if h : i < b.length then .ok (b.get ⟨i, h⟩) else .error .panic

def bitarray_set (b : BitArray) (i : Nat) (bit : Bool) : Except Err BitArray :=
  if i < b.length then .ok (b.set i bit) else .error .panic

/-- The loop of `slhr_grammar_next_rule` looking for the next stored rule from
`r` on. -/
def slhr_grammar_next_scan (g : SLHRGrammar) : Nat → Nat → Option Nat
  | 0, _ => none
  | fuel + 1, r =>
    if r ≤ g.rule_max then
      match g.rules.get? (r - g.min_nt) with
      | some (some _) => some r
      | _ => slhr_grammar_next_scan g fuel (r + 1)
    else none

/-- The symbols `slhr_grammar_next_rule` enumerates after `cur`, in order. -/
def slhr_grammar_rules_from (g : SLHRGrammar) : Nat → Nat → List Nat
  | 0, _ => []
  | fuel + 1, r =>
    match slhr_grammar_next_scan g (g.rule_max + 1 - r) r with
    | some s => s :: slhr_grammar_rules_from g fuel (s + 1)
    | none => []

/-- All symbols a `while(slhr_grammar_next_rule(g, &next, &i))` loop started at
`START_SYMBOL` visits: the start symbol, then the stored rules by ascending id. -/
def slhr_grammar_symbols (g : SLHRGrammar) : List Nat :=
  START_SYMBOL :: slhr_grammar_rules_from g (g.rule_max + 1 - g.min_nt) g.min_nt

/-- The loop of `slhr_grammar_rule_del` that lowers `rule_max`. -/
def slhr_grammar_rule_del_scan (min_nt : Nat) (rules : List (Option HGraph)) : Nat → Nat
  | 0 => 0
  | index + 1 =>
    match rules.get? (index + 1) with
    | some (some _) => index + 1 + min_nt
    | _ => slhr_grammar_rule_del_scan min_nt rules index

def slhr_grammar_rule_del (g : SLHRGrammar) (symbol : Nat) : Except Err SLHRGrammar :=
  if symbol < g.min_nt then .error .assertion
  else if g.rule_max < symbol then .error .assertion
  else
    let index := symbol - g.min_nt
    match g.rules.get? index with
    | some (some _) =>
      let rules := g.rules.set index none
      if symbol = g.rule_max then
        let rm :=
          match slhr_grammar_rule_del_scan g.min_nt rules index with
          | 0 => (match rules.get? 0 with
                  | some (some _) => g.min_nt
                  | _ => 0)
          | v => v
        .ok { g with rules := rules, rule_max := rm }
      else .ok { g with rules := rules }
    | some none => .error .assertion
    | none => .error .undefined

/-- The growth loop of `slhr_grammar_rule_add`: the new capacity. -/
def slhr_grammar_grow_cap (index : Nat) : Nat → Nat → Nat
  | 0, cap => cap
  | fuel + 1, cap =>
    if cap ≤ index then slhr_grammar_grow_cap index fuel (if cap < 8 then 8 else cap + cap / 2)
    else cap

def slhr_grammar_rule_add (g : SLHRGrammar) (symbol : Nat) (graph : HGraph) :
    Except Err SLHRGrammar :=
  if symbol < g.min_nt then .error .assertion
  else
    let index := symbol - g.min_nt
    let cap := slhr_grammar_grow_cap index (index + 1) g.rules.length
    let rules := g.rules ++ List.replicate (cap - g.rules.length) none
    .ok { g with
      rules := rules.set index (some graph)
      rule_max := if symbol > g.rule_max then symbol else g.rule_max }

def slhr_grammar_is_terminal (g : SLHRGrammar) (symbol : Nat) : Bool := symbol < g.min_nt

def slhr_grammar_rank_of_rule (g : SLHRGrammar) (symbol : Nat) : Except Err Int :=
  if symbol < g.min_nt then .ok 3
  else
    match g.rules.get? (symbol - g.min_nt) with
    | some (some r) => .ok r.rank
    | _ => .error .assertion

def slhr_grammar_size_of_rule (g : SLHRGrammar) (symbol : Nat) : Except Err Nat :=
  if symbol < g.min_nt then .ok 3
  else
    match g.rules.get? (symbol - g.min_nt) with
    | some (some rule) =>
      (List.range (hgraph_len rule)).foldlM
        (fun size i => do
          let edge ← hgraph_edge_deref rule i
          pure (size + edge.rank))
        (hgraph_len rule)
    | _ => .error .assertion

/-- The loop of `slhr_grammar_unused_nt`. -/
def slhr_grammar_unused_scan (rules : List (Option HGraph)) : Nat → Nat → Nat
  | 0, i => i
  | fuel + 1, i =>
    match rules.get? i with
    | some (some _) => slhr_grammar_unused_scan rules fuel (i + 1)
    | _ => i

def slhr_grammar_unused_nt (g : SLHRGrammar) : Nat :=
  g.min_nt + slhr_grammar_unused_scan g.rules g.rules.length 0

/-! ## slhr_grammar_writer.c: the non-terminal reachability table -/

/-- The number of rules `slhr_grammar_write_nt_table` and
`slhr_grammar_write_rules` compute from `rule_max` and `min_nt`. -/
def nt_count (g : SLHRGrammar) : Nat :=
  if g.rule_max = 0 then 0 else g.rule_max - g.min_nt + 1

/-- An entry of the edge list handed to `k2_write`. -/
structure K2Edge where
  xval : Nat
  yval : Nat
deriving DecidableEq, Repr

/-- First loop of `slhr_grammar_write_nt_table`, inner part: the edges of rule
`i` mark the columns of their labels. -/
def nt_table_mark_rule (table_width i : Nat) (rule : HGraph) (table : BitArray) :
    Except Err BitArray :=
  (List.range (hgraph_len rule)).foldlM
    (fun t j => do
      let e ← hgraph_edge_deref rule j
      bitarray_set t (i * table_width + e.label) true)
    table

/-- First loop of `slhr_grammar_write_nt_table`. -/
def nt_table_mark (g : SLHRGrammar) (nt_count table_width : Nat) (table : BitArray) :
    Except Err BitArray :=
  (List.range nt_count).foldlM
    (fun t i => do
      let rule ← slhr_grammar_rule_get g (g.min_nt + i)
      nt_table_mark_rule table_width i rule t)
    table

/-- Body of the innermost loop of the transitive closure. -/
def nt_table_closure_step (terminals table_width k i : Nat) (table : BitArray) (j : Nat) :
    Except Err BitArray := do
  let pos_i_j := i * table_width + j
  if !(← bitarray_get table pos_i_j) then
    let pos_i_k := i * table_width + terminals + k
    let pos_k_j := k * table_width + j
    let a ← bitarray_get table pos_i_k
    let v ← if a then bitarray_get table pos_k_j else pure false
    bitarray_set table pos_i_j v
  else
    pure table

/-- The loops over `i` and `j` for one value of `k`. -/
def nt_table_closure_k (terminals nt_count table_width : Nat) (table : BitArray) (k : Nat) :
    Except Err BitArray :=
  (List.range nt_count).foldlM
    (fun t i => (List.range table_width).foldlM (nt_table_closure_step terminals table_width k i) t)
    table

/-- The transitive closure loop nest of `slhr_grammar_write_nt_table`. -/
def nt_table_closure (terminals nt_count table_width : Nat) (table : BitArray) :
    Except Err BitArray :=
  (List.range nt_count).foldlM (nt_table_closure_k terminals nt_count table_width) table

/-- Last loop nest of `slhr_grammar_write_nt_table`, the loop over the terminal
columns `j` of row `i`: a set entry is appended as the pair `(j, i)`. -/
def nt_table_edges_row (terminals table_width : Nat) (table : BitArray) (es : List K2Edge)
    (i : Nat) : Except Err (List K2Edge) :=
  (List.range terminals).foldlM
    (fun es j => do
      if (← bitarray_get table (i * table_width + j)) then
        pure (es ++ [{ xval := j, yval := i }])
      else
        pure es)
    es

/-- Last loop nest of `slhr_grammar_write_nt_table`: the set entries of the
terminal columns become the edge list (`j` and `i` swapped). -/
def nt_table_edges (terminals nt_count table_width : Nat) (table : BitArray) :
    Except Err (List K2Edge) :=
  (List.range nt_count).foldlM (nt_table_edges_row terminals table_width table) []

/-- The function `slhr_grammar_write_nt_table` up to its call of `k2_write`:
the result is the triple `(width, height, edges)` passed to `k2_write`. -/
def slhr_grammar_write_nt_table (g : SLHRGrammar) (terminals : Nat) :
    Except Err (Nat × Nat × List K2Edge) := do
  let table_width := terminals + nt_count g
  let table := bitarray_init (nt_count g * table_width)
  let table ← nt_table_mark g (nt_count g) table_width table
  let table ← nt_table_closure terminals (nt_count g) table_width table
  let edges ← nt_table_edges terminals (nt_count g) table_width table
  pure (terminals, nt_count g, edges)

/-! ## Specification side: what a non-terminal derives -/

/-- An edge labelled `t` occurs in the full derivation of the symbol `A`: either
directly in the rule body of `A`, or in the derivation of a non-terminal edge
of that body. -/
inductive Derives (g : SLHRGrammar) : Nat → Nat → Prop where
  | direct (A t : Nat) (r : HGraph) (e : HEdge) :
      slhr_grammar_rule_get g A = .ok r → some e ∈ r.edges → e.label = t → Derives g A t
  | step (A B t : Nat) (r : HGraph) (e : HEdge) :
      slhr_grammar_rule_get g A = .ok r → some e ∈ r.edges → e.label = B → g.min_nt ≤ B →
      Derives g B t → Derives g A t

/-- A normalized grammar over `terminals` terminal labels: the non-terminals
are `terminals .. rule_max`, each has a rule without holes, and every label in
a rule body is a terminal or one of these non-terminals. -/
def Normalized (g : SLHRGrammar) (terminals : Nat) : Prop :=
  g.min_nt = terminals ∧
  ∀ i, i < nt_count g → ∃ r, slhr_grammar_rule_get g (g.min_nt + i) = .ok r ∧
    ∀ oe ∈ r.edges, ∃ e, oe = some e ∧ e.label < terminals + nt_count g

/-- Monotone growth of a bit table: same length, no set bit is cleared. -/
def TableMono (T T' : BitArray) : Prop :=
  T'.length = T.length ∧ ∀ q, T.getD q false = true → T'.getD q false = true

/-- A chain of table entries from row `i` through the non-terminal rows `p` to
column `c`. -/
def Chain (T : BitArray) (W terminals : Nat) : Nat → List Nat → Nat → Prop
  | i, [], c => T.getD (i * W + c) false = true
  | i, m :: rest, c => T.getD (i * W + (terminals + m)) false = true ∧ Chain T W terminals m rest c

/-- A two-rule grammar over one terminal label: rule 1 is two terminal edges,
rule 2 uses rule 1 twice. -/
def ntTableExample : SLHRGrammar :=
  { min_nt := 1
    start_symbol := { edges := [some ⟨2, 3, [0, 1, 2]⟩], rank := RANK_NONE }
    rule_max := 2
    rules := [some { edges := [some ⟨0, 2, [0, 1]⟩, some ⟨0, 2, [1, 2]⟩], rank := 3 },
              some { edges := [some ⟨1, 3, [0, 1, 2]⟩, some ⟨1, 3, [2, 1, 0]⟩], rank := 3 }] }


/-- Every set entry of the table stands for a derivation: a set entry in the
row `i` and the column `c` means that an edge with the label `c` occurs in the
full derivation of the non-terminal `min_nt + i`. -/
def TableSound (g : SLHRGrammar) (N W : Nat) (T : BitArray) : Prop :=
  T.length = N * W ∧
  ∀ i c, i < N → c < W → T.getD (i * W + c) false = true → Derives g (g.min_nt + i) c

/-! ## hashmap.h / hashmap.c (a port of the JDK `HashMap`)

The table is a list of bins, a bin is the chain of its nodes in `next` order.
For a bin of tree nodes (`tree_node`) the field `trees` holds in addition the
tree that the pointers `left` and `right` and the flags `red` of the nodes of
the bin form; `parent` and `prev` are determined by the tree and the chain.
A tree node is named by its key. -/

/-- The macro `HASH` for an 8 byte value: low word xor high word. -/
def HASH (v : Nat) : Nat := (v % 4294967296) ^^^ (v / 4294967296 % 4294967296)

/-- The macro `HASH_COMBINE` on the 32 bit type `Hash`. -/
def HASH_COMBINE (hash new_hash : Nat) : Nat := (31 * hash + new_hash) % 4294967296

/-- The callbacks a map was created with: `hash` and `cmp`. -/
class KeyHash (K : Type) where
  keyHash : K → Nat
  keyCmp : K → K → Int

/-- The callbacks `cmp_uint_cb` and `cmp_size_cb`: the macro `CMP` on two
unsigned values. -/
def cmp_uint_cb (a b : Nat) : Int := if a > b then 1 else if a < b then -1 else 0

structure HashmapNode (K V : Type) where
  hash : Nat
  key : K
  val : V
deriving DecidableEq, Repr

/-- The pointers `left`, `right` and the flag `red` of the `_HashmapTreeNode`s
reached from a tree node; `nil` is NULL. -/
inductive HashmapTree (K : Type) where
  | nil : HashmapTree K
  | node (left : HashmapTree K) (hash : Nat) (key : K) (red : Bool) (right : HashmapTree K) :
      HashmapTree K
deriving DecidableEq, Repr

/-- An ancestor of a tree node `x` as `x` reaches it through `parent`: its
fields, on which side the way down to `x` leaves it (`dir = true`: through
`right`), and its child on the other side. -/
structure HashmapTreeFrame (K : Type) where
  dir : Bool
  hash : Nat
  key : K
  red : Bool
  other : HashmapTree K
deriving DecidableEq, Repr

structure Hashmap (K V : Type) where
  table : List (List (HashmapNode K V))
  size : Nat
  threshold : Nat
  trees : List (Nat × HashmapTree K) := []
deriving DecidableEq, Repr

def DEFAULT_INITIAL_CAPACITY : Nat := 16
def MAXIMUM_CAPACITY : Nat := 1073741824
def TREEIFY_THRESHOLD : Nat := 8
def UNTREEIFY_THRESHOLD : Nat := 6
def MIN_TREEIFY_CAPACITY : Nat := 64
def SIZE_MAX : Nat := 18446744073709551615

def hashmap_init {K V : Type} : Hashmap K V := { table := [], size := 0, threshold := 0 }

def hashmap_size {K V : Type} (m : Hashmap K V) : Nat := m.size

/-- The function `hash_val`: the callback hash with its high half folded in. -/
def hash_val {K : Type} [KeyHash K] (key : K) : Nat :=
  let h := KeyHash.keyHash key
  h ^^^ (h >>> 16)

/-- The test `e->hash == hash && cmp(key, e->key) == 0`. -/
def hashmap_node_matches {K V : Type} [KeyHash K] (hash : Nat) (key : K)
    (e : HashmapNode K V) : Bool :=
  e.hash == hash && KeyHash.keyCmp key e.key == 0

/-! ### Bins of tree nodes -/

/-- The tree of the bin `i`: `some` when `tab[i]->tree_node`. -/
def hashmap_tree_get {K : Type} (trees : List (Nat × HashmapTree K)) (i : Nat) :
    Option (HashmapTree K) :=
  (trees.find? (fun p => p.1 == i)).map (fun p => p.2)

/-- The trees after the bin `i` got the tree `o`, or became a bin of plain
nodes or empty (`none`). -/
def hashmap_tree_set {K : Type} (trees : List (Nat × HashmapTree K)) (i : Nat)
    (o : Option (HashmapTree K)) : List (Nat × HashmapTree K) :=
  match o with
  | none => trees.filter (fun p => p.1 != i)
  | some t => (i, t) :: trees.filter (fun p => p.1 != i)

/-- The test `p == NULL`. -/
def hashmap_treenode_null {K : Type} : HashmapTree K → Bool
  | .nil => true
  | .node _ _ _ _ _ => false

/-- The test `p != NULL && p->red`. -/
def hashmap_treenode_red {K : Type} : HashmapTree K → Bool
  | .nil => false
  | .node _ _ _ red _ => red

/-- The assignment `p->red = c` for a `p` that is not NULL. -/
def hashmap_treenode_set_red {K : Type} (p : HashmapTree K) (c : Bool) : HashmapTree K :=
  match p with
  | .nil => .nil
  | .node l h k _ r => .node l h k c r

/-- The ancestor of frame `f` as a tree node, with `child` on the side of the
way down. -/
def hashmap_treenode_up {K : Type} (f : HashmapTreeFrame K) (child : HashmapTree K) :
    HashmapTree K :=
  if f.dir then .node f.other f.hash f.key f.red child
  else .node child f.hash f.key f.red f.other

/-- The function `hashmap_treenode_root` for a node `x` with the ancestors
`fs`, the parent first: the root of the tree. -/
def hashmap_treenode_root {K : Type} : List (HashmapTreeFrame K) → HashmapTree K → HashmapTree K
  | [], x => x
  | f :: fs, x => hashmap_treenode_root fs (hashmap_treenode_up f x)

/-- The function `hashmap_treenode_find` from the node `p`: the key of the node
found. -/
def hashmap_treenode_find {K : Type} (cmp : K → K → Int) (h : Nat) (key : K) :
    HashmapTree K → Option K
  | .nil => none
  | .node pl ph pk _ pr =>
    if ph > h then hashmap_treenode_find cmp h key pl
    else if ph < h then hashmap_treenode_find cmp h key pr
    else if cmp key pk = 0 then some pk
    else if hashmap_treenode_null pl then hashmap_treenode_find cmp h key pr
    else if hashmap_treenode_null pr then hashmap_treenode_find cmp h key pl
    else if cmp key pk < 0 then hashmap_treenode_find cmp h key pl
    else hashmap_treenode_find cmp h key pr

/-- The node a pointer to the tree node with the key `key` refers to: the node
and its ancestors, looked for below `p` with the ancestors `fs`. -/
def hashmap_treenode_at {K : Type} [DecidableEq K] (key : K) :
    List (HashmapTreeFrame K) → HashmapTree K →
      Option (List (HashmapTreeFrame K) × HashmapTree K)
  | _, .nil => none
  | fs, .node l h k c r =>
    if k = key then some (fs, .node l h k c r)
    else
      match hashmap_treenode_at key
          ({ dir := false, hash := h, key := k, red := c, other := r } :: fs) l with
      | some res => some res
      | none =>
        hashmap_treenode_at key ({ dir := true, hash := h, key := k, red := c, other := l } :: fs) r

/-- The function `hashmap_treenode_move_root_to_front` on the chain of the bin:
the node of the root is unlinked and becomes the first node. -/
def hashmap_treenode_move_root_to_front {K V : Type} [DecidableEq K]
    (bin : List (HashmapNode K V)) (root : HashmapTree K) : List (HashmapNode K V) :=
  match root with
  | .nil => bin
  | .node _ _ rk _ _ =>
    match bin.findIdx? (fun e => decide (e.key = rk)) with
    | none => bin
    | some idx =>
      if idx = 0 then bin
      else
        match bin.get? idx with
        | some e => e :: bin.eraseIdx idx
        | none => bin

/-- The function `hashmap_treenode_rotate_left(root, p)` for a node `p` with
the ancestors `fs`: the node that takes the place of `p`. -/
def hashmap_treenode_rotate_left {K : Type} (fs : List (HashmapTreeFrame K))
    (p : HashmapTree K) : HashmapTree K :=
  match p with
  | .node pl ph pk pc (.node rl rh rk rc rr) =>
    -- (root = r)->red = false when p has no parent
    .node (.node pl ph pk pc rl) rh rk (if fs.isEmpty then false else rc) rr
  | p => p

/-- The function `hashmap_treenode_rotate_right(root, p)`, the mirror image of
`hashmap_treenode_rotate_left`. -/
def hashmap_treenode_rotate_right {K : Type} (fs : List (HashmapTreeFrame K))
    (p : HashmapTree K) : HashmapTree K :=
  match p with
  | .node (.node ll lh lk lc lr) ph pk pc pr =>
    .node ll lh lk (if fs.isEmpty then false else lc) (.node lr ph pk pc pr)
  | p => p

/-- The pointer `x->left` of a node `x` with ancestors `fs`, with its
ancestors. -/
def hashmap_treenode_left {K : Type} (fs : List (HashmapTreeFrame K)) (x : HashmapTree K) :
    List (HashmapTreeFrame K) × HashmapTree K :=
  match x with
  | .nil => (fs, .nil)
  | .node l h k c r => ({ dir := false, hash := h, key := k, red := c, other := r } :: fs, l)

/-- The pointer `x->right` of a node `x` with ancestors `fs`, with its
ancestors. -/
def hashmap_treenode_right {K : Type} (fs : List (HashmapTreeFrame K)) (x : HashmapTree K) :
    List (HashmapTreeFrame K) × HashmapTree K :=
  match x with
  | .nil => (fs, .nil)
  | .node l h k c r => ({ dir := true, hash := h, key := k, red := c, other := l } :: fs, r)

/-- The loop of `hashmap_treenode_balance_insertion` from the node `x` with the
ancestors `fs`; the result is the root. -/
def hashmap_treenode_balance_insertion_loop {K : Type} :
    Nat → List (HashmapTreeFrame K) → HashmapTree K → HashmapTree K
  | 0, fs, x => hashmap_treenode_root fs x
  | fuel + 1, fs, x =>
    match fs with
    | [] =>
      -- (xp = x->parent) == NULL: x->red = false; return x
      hashmap_treenode_set_red x false
    | xp :: fs1 =>
      if !xp.red then hashmap_treenode_root fs x
      else
        match fs1 with
        | [] => hashmap_treenode_root fs x
        | xpp :: fs2 =>
          if xpp.dir = false then
            -- xp == (xppl = xpp->left)
            if hashmap_treenode_red xpp.other then
              -- xppr->red = false; xp->red = false; xpp->red = true; x = xpp
              hashmap_treenode_balance_insertion_loop fuel fs2
                (hashmap_treenode_up
                  { xpp with red := true, other := hashmap_treenode_set_red xpp.other false }
                  (hashmap_treenode_up { xp with red := false } x))
            else
              -- if(x == xp->right) root = rotate_left(root, x = xp), xp = x->parent,
              -- xpp = xp->parent
              let fx : List (HashmapTreeFrame K) × HashmapTree K :=
                if xp.dir = true then
                  hashmap_treenode_left fs1
                    (hashmap_treenode_rotate_left fs1 (hashmap_treenode_up xp x))
                else (fs, x)
              match fx.1 with
              | p :: g :: up =>
                -- xp->red = false; xpp->red = true; root = rotate_right(root, xpp)
                let fy := hashmap_treenode_left up
                  (hashmap_treenode_rotate_right up
                    (hashmap_treenode_up { g with red := true }
                      (hashmap_treenode_up { p with red := false } fx.2)))
                hashmap_treenode_balance_insertion_loop fuel fy.1 fy.2
              | [p] => hashmap_treenode_balance_insertion_loop fuel [{ p with red := false }] fx.2
              | [] => hashmap_treenode_balance_insertion_loop fuel [] fx.2
          else
            -- xp is the right child of xpp, xppl = xpp->left
            if hashmap_treenode_red xpp.other then
              hashmap_treenode_balance_insertion_loop fuel fs2
                (hashmap_treenode_up
                  { xpp with red := true, other := hashmap_treenode_set_red xpp.other false }
                  (hashmap_treenode_up { xp with red := false } x))
            else
              let fx : List (HashmapTreeFrame K) × HashmapTree K :=
                if xp.dir = false then
                  hashmap_treenode_right fs1
                    (hashmap_treenode_rotate_right fs1 (hashmap_treenode_up xp x))
                else (fs, x)
              match fx.1 with
              | p :: g :: up =>
                let fy := hashmap_treenode_right up
                  (hashmap_treenode_rotate_left up
                    (hashmap_treenode_up { g with red := true }
                      (hashmap_treenode_up { p with red := false } fx.2)))
                hashmap_treenode_balance_insertion_loop fuel fy.1 fy.2
              | [p] => hashmap_treenode_balance_insertion_loop fuel [{ p with red := false }] fx.2
              | [] => hashmap_treenode_balance_insertion_loop fuel [] fx.2

/-- The function `hashmap_treenode_balance_insertion(root, x)` for a node `x`
with the ancestors `fs`; the result is the root.  Every round of the loop
moves `x` up or is the last but one, so the fuel is never used up
(`balance_insertion_fuel`). -/
def hashmap_treenode_balance_insertion {K : Type} (fs : List (HashmapTreeFrame K))
    (x : HashmapTree K) : HashmapTree K :=
  hashmap_treenode_balance_insertion_loop (fs.length + 2) fs (hashmap_treenode_set_red x true)

/-- The descent of `hashmap_treenode_treeify` for the node with hash `h` and key
`key` from the node `p` with ancestors `fs`: the ancestors of the NULL pointer
at which the node is linked (`xp` first). -/
def hashmap_treenode_treeify_descend {K : Type} (cmp : K → K → Int) (h : Nat) (key : K) :
    List (HashmapTreeFrame K) → HashmapTree K → List (HashmapTreeFrame K)
  | fs, .nil => fs
  | fs, .node pl ph pk pc pr =>
    if (if ph > h then -1 else if ph < h then 1 else cmp key pk) ≤ 0 then
      hashmap_treenode_treeify_descend cmp h key
        ({ dir := false, hash := ph, key := pk, red := pc, other := pr } :: fs) pl
    else
      hashmap_treenode_treeify_descend cmp h key
        ({ dir := true, hash := ph, key := pk, red := pc, other := pl } :: fs) pr

/-- One round of the loop of `hashmap_treenode_treeify`: the node `x` of the
chain becomes the root of the empty tree, or is linked below the last node of
its descent from `root` and the tree is balanced. -/
def hashmap_treenode_treeify_step {K V : Type} (cmp : K → K → Int) (root : HashmapTree K)
    (x : HashmapNode K V) : HashmapTree K :=
  match root with
  | .nil => .node .nil x.hash x.key false .nil
  | .node l h k c r =>
    hashmap_treenode_balance_insertion
      (hashmap_treenode_treeify_descend cmp x.hash x.key [] (.node l h k c r))
      (.node .nil x.hash x.key false .nil)

/-- The loop of `hashmap_treenode_treeify` over the chain: the root after the
nodes of the chain were linked into the tree one after the other. -/
def hashmap_treenode_treeify_loop {K V : Type} (cmp : K → K → Int)
    (bin : List (HashmapNode K V)) : HashmapTree K :=
  bin.foldl (hashmap_treenode_treeify_step cmp) .nil

/-- The function `hashmap_treenode_treeify` on the chain that starts at its
argument: the chain after `hashmap_treenode_move_root_to_front`, and the tree. -/
def hashmap_treenode_treeify {K V : Type} [DecidableEq K] (cmp : K → K → Int)
    (bin : List (HashmapNode K V)) : List (HashmapNode K V) × HashmapTree K :=
  (hashmap_treenode_move_root_to_front bin (hashmap_treenode_treeify_loop cmp bin),
    hashmap_treenode_treeify_loop cmp bin)

/-- The descent of `hashmap_treenode_put_tree_val` from the node `p` with
ancestors `fs`: the key of the node that compares equal (the function returns
it), or the ancestors of the NULL pointer at which a new node is linked. -/
def hashmap_treenode_put_descend {K : Type} (cmp : K → K → Int) (h : Nat) (key : K) :
    List (HashmapTreeFrame K) → HashmapTree K → Option K × List (HashmapTreeFrame K)
  | fs, .nil => (none, fs)
  | fs, .node pl ph pk pc pr =>
    if ph > h then
      hashmap_treenode_put_descend cmp h key
        ({ dir := false, hash := ph, key := pk, red := pc, other := pr } :: fs) pl
    else if ph < h then
      hashmap_treenode_put_descend cmp h key
        ({ dir := true, hash := ph, key := pk, red := pc, other := pl } :: fs) pr
    else if cmp key pk = 0 then (some pk, fs)
    else if cmp key pk ≤ 0 then
      hashmap_treenode_put_descend cmp h key
        ({ dir := false, hash := ph, key := pk, red := pc, other := pr } :: fs) pl
    else
      hashmap_treenode_put_descend cmp h key
        ({ dir := true, hash := ph, key := pk, red := pc, other := pl } :: fs) pr

/-- The chain after the new node `x` was linked behind the node with the key
`xpk`: `x->next = xp->next; xp->next = x`. -/
def hashmap_chain_insert_after {K V : Type} [DecidableEq K] (bin : List (HashmapNode K V))
    (xpk : K) (x : HashmapNode K V) : List (HashmapNode K V) :=
  match bin.findIdx? (fun e => decide (e.key = xpk)) with
  | none => bin ++ [x]
  | some idx => bin.take (idx + 1) ++ x :: bin.drop (idx + 1)

/-- The insertion of `hashmap_treenode_put_tree_val`: the new node is linked
below the last node `xp` of the descent and behind it in the chain, the tree
is balanced and its root moved to the front of the chain. -/
def hashmap_treenode_put_new {K V : Type} [DecidableEq K] (bin : List (HashmapNode K V))
    (fs : List (HashmapTreeFrame K)) (x : HashmapNode K V) :
    List (HashmapNode K V) × HashmapTree K :=
  (hashmap_treenode_move_root_to_front
      (match fs with
        | [] => bin ++ [x]
        | xp :: _ => hashmap_chain_insert_after bin xp.key x)
      (hashmap_treenode_balance_insertion fs (.node .nil x.hash x.key false .nil)),
    hashmap_treenode_balance_insertion fs (.node .nil x.hash x.key false .nil))

/-- The function `hashmap_treenode_untreeify`: the nodes of the chain become
plain nodes, in the same order. -/
def hashmap_treenode_untreeify {K V : Type} (bin : List (HashmapNode K V)) :
    List (HashmapNode K V) := bin

/-- The leftmost node below `s` (the loop `while((sl = s->left) != NULL) s = sl`),
with its ancestors. -/
def hashmap_treenode_leftmost {K : Type} :
    List (HashmapTreeFrame K) → HashmapTree K → List (HashmapTreeFrame K) × HashmapTree K
  | fs, .nil => (fs, .nil)
  | fs, .node .nil h k c r => (fs, .node .nil h k c r)
  | fs, .node (.node ll lh lk lc lr) h k c r =>
    hashmap_treenode_leftmost ({ dir := false, hash := h, key := k, red := c, other := r } :: fs)
      (.node ll lh lk lc lr)

/-- The step of `hashmap_treenode_balance_deletion` for a left child with the
parent `xp` (ancestors `rest`) and a red sibling: `xpr->red = false;
xp->red = true; root = rotate_left(root, xp)`.  The result is the parent
with its ancestors afterwards, for every sibling. -/
def hashmap_treenode_red_sibling_right {K : Type} (xp : HashmapTreeFrame K)
    (rest : List (HashmapTreeFrame K)) : HashmapTreeFrame K × List (HashmapTreeFrame K) :=
  match xp.other with
  | .node sl sh sk true sr =>
    ({ xp with red := true, other := sl },
      { dir := false, hash := sh, key := sk, red := false, other := sr } :: rest)
  | _ => (xp, rest)

/-- The step of `hashmap_treenode_balance_deletion` for a right child with the
parent `xp` (ancestors `rest`) and a red sibling: `xpl->red = false;
xp->red = true; root = rotate_right(root, xp)`. -/
def hashmap_treenode_red_sibling_left {K : Type} (xp : HashmapTreeFrame K)
    (rest : List (HashmapTreeFrame K)) : HashmapTreeFrame K × List (HashmapTreeFrame K) :=
  match xp.other with
  | .node sl sh sk true sr =>
    ({ xp with red := true, other := sr },
      { dir := true, hash := sh, key := sk, red := false, other := sl } :: rest)
  | _ => (xp, rest)

/-- The sibling `xpr` of a left child after the steps of
`hashmap_treenode_balance_deletion` for a red nephew: when `sr` is not red,
`sl->red = false; xpr->red = true; root = rotate_right(root, xpr);
xpr = xp->right`; then `xpr->red = xp->red; xpr->right->red = false`.
`fs` are the ancestors of the sibling, `c` is `xp->red`. -/
def hashmap_treenode_nephew_right {K : Type} (fs : List (HashmapTreeFrame K)) (c : Bool)
    (sl : HashmapTree K) (sh : Nat) (sk : K) (sc : Bool) (sr : HashmapTree K) : HashmapTree K :=
  match (if !hashmap_treenode_red sr then
      hashmap_treenode_rotate_right fs (.node (hashmap_treenode_set_red sl false) sh sk true sr)
    else .node sl sh sk sc sr) with
  | .nil => .nil
  | .node l h k _ r => .node l h k c (hashmap_treenode_set_red r false)

/-- The sibling `xpl` of a right child after the steps of
`hashmap_treenode_balance_deletion` for a red nephew: when `sl` is not red,
`sr->red = false; xpl->red = true; root = rotate_left(root, xpl);
xpl = xp->left`; then `xpl->red = xp->red; xpl->left->red = false`. -/
def hashmap_treenode_nephew_left {K : Type} (fs : List (HashmapTreeFrame K)) (c : Bool)
    (sl : HashmapTree K) (sh : Nat) (sk : K) (sc : Bool) (sr : HashmapTree K) : HashmapTree K :=
  match (if !hashmap_treenode_red sl then
      hashmap_treenode_rotate_left fs (.node sl sh sk true (hashmap_treenode_set_red sr false))
    else .node sl sh sk sc sr) with
  | .nil => .nil
  | .node l h k _ r => .node (hashmap_treenode_set_red l false) h k c r

/-- The loop of `hashmap_treenode_balance_deletion` from the node `x` with the
ancestors `fs`; the result is the root. -/
def hashmap_treenode_balance_deletion_loop {K : Type} :
    Nat → List (HashmapTreeFrame K) → HashmapTree K → HashmapTree K
  | 0, fs, x => hashmap_treenode_root fs x
  | fuel + 1, fs, x =>
    match fs with
    | [] =>
      -- x == root
      x
    | xp0 :: rest =>
      if hashmap_treenode_null x then hashmap_treenode_root fs x
      else if hashmap_treenode_red x then
        hashmap_treenode_root fs (hashmap_treenode_set_red x false)
      else if xp0.dir = false then
        -- (xpl = xp->left) == x
        let xu := hashmap_treenode_red_sibling_right xp0 rest
        match xu.1.other with
        | .nil =>
          -- xpr == NULL: x = xp
          hashmap_treenode_balance_deletion_loop fuel xu.2 (hashmap_treenode_up xu.1 x)
        | .node sl sh sk sc sr =>
          if !hashmap_treenode_red sr && !hashmap_treenode_red sl then
            -- xpr->red = true; x = xp
            hashmap_treenode_balance_deletion_loop fuel xu.2
              (hashmap_treenode_up { xu.1 with other := .node sl sh sk true sr } x)
          else
            -- xp->red = false; root = rotate_left(root, xp); x = root
            hashmap_treenode_balance_deletion_loop fuel []
              (hashmap_treenode_root xu.2
                (hashmap_treenode_rotate_left xu.2
                  (hashmap_treenode_up
                    { xu.1 with
                      red := false
                      other := hashmap_treenode_nephew_right (xu.1 :: xu.2) xu.1.red sl sh sk sc sr }
                    x)))
      else
        -- symmetric: x is the right child
        let xu := hashmap_treenode_red_sibling_left xp0 rest
        match xu.1.other with
        | .nil => hashmap_treenode_balance_deletion_loop fuel xu.2 (hashmap_treenode_up xu.1 x)
        | .node sl sh sk sc sr =>
          if !hashmap_treenode_red sl && !hashmap_treenode_red sr then
            hashmap_treenode_balance_deletion_loop fuel xu.2
              (hashmap_treenode_up { xu.1 with other := .node sl sh sk true sr } x)
          else
            hashmap_treenode_balance_deletion_loop fuel []
              (hashmap_treenode_root xu.2
                (hashmap_treenode_rotate_right xu.2
                  (hashmap_treenode_up
                    { xu.1 with
                      red := false
                      other := hashmap_treenode_nephew_left (xu.1 :: xu.2) xu.1.red sl sh sk sc sr }
                    x)))

/-- The function `hashmap_treenode_balance_deletion(root, x)` for a node `x`
with the ancestors `fs`; the result is the root.  Every round of the loop
moves `x` up or is the last but one, so the fuel is never used up
(`balance_deletion_fuel`). -/
def hashmap_treenode_balance_deletion {K : Type} (fs : List (HashmapTreeFrame K))
    (x : HashmapTree K) : HashmapTree K :=
  hashmap_treenode_balance_deletion_loop (fs.length + 2) fs x

/-- The end of `hashmap_treenode_remove_tree_node` for `replacement == p`: the
node with the key `key` is taken off its parent (`pp->left = NULL` or
`pp->right = NULL`); a node without a parent stays. -/
def hashmap_treenode_detach {K : Type} [DecidableEq K] (key : K) (root : HashmapTree K) :
    HashmapTree K :=
  match hashmap_treenode_at key [] root with
  | some (f :: fs, _) => hashmap_treenode_root fs (hashmap_treenode_up f .nil)
  | _ => root

/-- The part of `hashmap_treenode_remove_tree_node` on the tree pointers, for
the node `p` with the key `key` of the tree with the root `root`: `p` changes
places with its successor when it has two children, the replacement takes its
place, the tree is balanced when `p` was black and `p` is detached; the result
is the root `r`. -/
def hashmap_treenode_remove {K : Type} [DecidableEq K] (key : K) (root : HashmapTree K) :
    HashmapTree K :=
  match hashmap_treenode_at key [] root with
  | none => root
  | some (_, .nil) => root
  | some (fs, .node pl ph pk pc pr) =>
    if !hashmap_treenode_null pl && !hashmap_treenode_null pr then
      match hashmap_treenode_leftmost [] pr with
      | (_, .nil) => root
      | (gs, .node _ sh sk sc sr) =>
        -- the colours are swapped; s takes the place of p, p the place of s
        if !hashmap_treenode_null sr then
          -- replacement = sr
          if sc then
            hashmap_treenode_root
              (gs ++ { dir := true, hash := sh, key := sk, red := pc, other := pl } :: fs) sr
          else
            hashmap_treenode_balance_deletion
              (gs ++ { dir := true, hash := sh, key := sk, red := pc, other := pl } :: fs) sr
        else
          -- replacement = p
          hashmap_treenode_detach key
            (if sc then
              hashmap_treenode_root
                (gs ++ { dir := true, hash := sh, key := sk, red := pc, other := pl } :: fs)
                (.node .nil ph pk sc .nil)
            else
              hashmap_treenode_balance_deletion
                (gs ++ { dir := true, hash := sh, key := sk, red := pc, other := pl } :: fs)
                (.node .nil ph pk sc .nil))
    else if !hashmap_treenode_null pl then
      -- replacement = pl; (root = replacement)->red = false when p has no parent
      if pc then
        hashmap_treenode_root fs (if fs.isEmpty then hashmap_treenode_set_red pl false else pl)
      else
        hashmap_treenode_balance_deletion fs
          (if fs.isEmpty then hashmap_treenode_set_red pl false else pl)
    else if !hashmap_treenode_null pr then
      if pc then
        hashmap_treenode_root fs (if fs.isEmpty then hashmap_treenode_set_red pr false else pr)
      else
        hashmap_treenode_balance_deletion fs
          (if fs.isEmpty then hashmap_treenode_set_red pr false else pr)
    else
      -- replacement = p
      hashmap_treenode_detach key
        (if pc then root
        else hashmap_treenode_balance_deletion fs (.node pl ph pk pc pr))

/-- The test of `hashmap_treenode_remove_tree_node` for a tree that is too small:
`root == NULL || (movable && (root->right == NULL || (rl = root->left) == NULL
|| rl->left == NULL))`. -/
def hashmap_treenode_too_small {K : Type} (root : HashmapTree K) (movable : Bool) : Bool :=
  match root with
  | .nil => true
  | .node rl _ _ _ rr =>
    movable && (hashmap_treenode_null rr ||
      (match rl with
        | .nil => true
        | .node rll _ _ _ _ => hashmap_treenode_null rll))

/-- The function `hashmap_treenode_remove_tree_node` for the node at position
`idx` of the chain of a bin with the tree `t`: the chain and the tree of the
bin afterwards (`none`: plain nodes, or no node). -/
def hashmap_treenode_remove_tree_node {K V : Type} [DecidableEq K]
    (bin : List (HashmapNode K V)) (t : HashmapTree K) (idx : Nat) (movable : Bool) :
    List (HashmapNode K V) × Option (HashmapTree K) :=
  match bin.get? idx with
  | none => (bin, some t)
  | some this =>
    if (bin.eraseIdx idx).isEmpty then ([], none)
    else if hashmap_treenode_too_small t movable then
      (hashmap_treenode_untreeify (bin.eraseIdx idx), none)
    else
      (if movable then
          hashmap_treenode_move_root_to_front (bin.eraseIdx idx)
            (hashmap_treenode_remove this.key t)
        else bin.eraseIdx idx,
        some (hashmap_treenode_remove this.key t))

/-- The search of `hashmap_get_node` and `hashmap_remove_node` in a bin of tree
nodes with the tree `t`: the position in the chain of the node found.
`first_matches` is the test `first->hash == hash && cmp(key, first->key) == 0`. -/
def hashmap_treebin_find {K V : Type} [DecidableEq K] (cmp : K → K → Int)
    (first_matches : HashmapNode K V → Bool) (t : HashmapTree K)
    (bin : List (HashmapNode K V)) (hash : Nat) (key : K) : Option Nat :=
  match bin with
  | [] => none
  | first :: rest =>
    if first_matches first then some 0
    else if rest.isEmpty then none
    else
      match hashmap_treenode_find cmp hash key t with
      | none => none
      | some pk => bin.findIdx? (fun e => decide (e.key = pk))

/-- The search for the node of a key in a bin: along the chain of a bin of
plain nodes, in the tree of a bin of tree nodes. -/
def hashmap_bin_find {K V : Type} [DecidableEq K] (cmp : K → K → Int)
    (mt : HashmapNode K V → Bool) (tree : Option (HashmapTree K))
    (bin : List (HashmapNode K V)) (hash : Nat) (key : K) : Option Nat :=
  match tree with
  | none => bin.findIdx? mt
  | some t => hashmap_treebin_find cmp mt t bin hash key

/-- The first part of `hashmap_put` for a bin of tree nodes with the tree `t`:
the position in the chain of the node that compares equal (the first node, or
the node `hashmap_treenode_put_tree_val` returns), or the chain and the tree
after the new node `x` was added. -/
def hashmap_treebin_put {K V : Type} [DecidableEq K] (cmp : K → K → Int)
    (first_matches : HashmapNode K V → Bool) (t : HashmapTree K)
    (bin : List (HashmapNode K V)) (x : HashmapNode K V) :
    Sum Nat (List (HashmapNode K V) × HashmapTree K) :=
  match bin with
  | [] => .inr ([x], .nil)
  | first :: rest =>
    if first_matches first then .inl 0
    else
      match hashmap_treenode_put_descend cmp x.hash x.key [] t with
      | (some pk, _) =>
        .inl (((first :: rest).findIdx? (fun e => decide (e.key = pk))).getD (rest.length + 1))
      | (none, fs) => .inr (hashmap_treenode_put_new (first :: rest) fs x)

def hashmap_get_node {K V : Type} [DecidableEq K] [KeyHash K] (m : Hashmap K V) (key : K) :
    Option (HashmapNode K V) :=
  let n := m.table.length
  if n = 0 then none
  else
    let hash := hash_val key
    match hashmap_tree_get m.trees ((n - 1) &&& hash) with
    | none => (m.table.getD ((n - 1) &&& hash) []).find? (hashmap_node_matches hash key)
    | some t =>
      match hashmap_treebin_find KeyHash.keyCmp (hashmap_node_matches hash key) t
          (m.table.getD ((n - 1) &&& hash) []) hash key with
      | none => none
      | some idx => (m.table.getD ((n - 1) &&& hash) []).get? idx

def hashmap_get {K V : Type} [DecidableEq K] [KeyHash K] (m : Hashmap K V) (key : K) :
    Option V :=
  (hashmap_get_node m key).map (fun e => e.val)

def hashmap_contains_key {K V : Type} [DecidableEq K] [KeyHash K] (m : Hashmap K V) (key : K) :
    Bool :=
  (hashmap_get_node m key).isSome

/-- One step of the redistribution loop of `hashmap_resize`: the bin `j` of
plain nodes of the old table is moved into the new table. -/
def hashmap_resize_bin {K V : Type} (old_cap new_cap : Nat)
    (new_tab : List (List (HashmapNode K V))) (jb : Nat × List (HashmapNode K V)) :
    List (List (HashmapNode K V)) :=
  match jb.2 with
  | [] => new_tab
  | [e] => new_tab.set (e.hash &&& (new_cap - 1)) [e]
  | bin =>
    let lo := bin.filter (fun e => e.hash &&& old_cap == 0)
    let hi := bin.filter (fun e => !(e.hash &&& old_cap == 0))
    let t1 := if lo.isEmpty then new_tab else new_tab.set jb.1 lo
    if hi.isEmpty then t1 else t1.set (jb.1 + old_cap) hi

/-- One half of `hashmap_treenode_split`: the chain `part` of the nodes that go
to the bin `index` of the new table; `rest` is the chain of the other half. -/
def hashmap_treenode_split_half {K V : Type} [DecidableEq K] (cmp : K → K → Int)
    (st : List (List (HashmapNode K V)) × List (Nat × HashmapTree K)) (index : Nat)
    (part rest : List (HashmapNode K V)) (t : HashmapTree K) :
    List (List (HashmapNode K V)) × List (Nat × HashmapTree K) :=
  if part.isEmpty then st
  else if part.length ≤ UNTREEIFY_THRESHOLD then
    (st.1.set index (hashmap_treenode_untreeify part), st.2)
  else if rest.isEmpty then
    -- (else is already treeified)
    (st.1.set index part, hashmap_tree_set st.2 index (some t))
  else
    (st.1.set index (hashmap_treenode_treeify cmp part).1,
      hashmap_tree_set st.2 index (some (hashmap_treenode_treeify cmp part).2))

/-- The function `hashmap_treenode_split` for the bin `index` of tree nodes with
the tree `t`; `bit` is the old capacity. -/
def hashmap_treenode_split {K V : Type} [DecidableEq K] (cmp : K → K → Int) (bit : Nat)
    (st : List (List (HashmapNode K V)) × List (Nat × HashmapTree K)) (index : Nat)
    (bin : List (HashmapNode K V)) (t : HashmapTree K) :
    List (List (HashmapNode K V)) × List (Nat × HashmapTree K) :=
  hashmap_treenode_split_half cmp
    (hashmap_treenode_split_half cmp st index
      (bin.filter (fun e => e.hash &&& bit == 0))
      (bin.filter (fun e => !(e.hash &&& bit == 0))) t)
    (index + bit)
    (bin.filter (fun e => !(e.hash &&& bit == 0)))
    (bin.filter (fun e => e.hash &&& bit == 0)) t

/-- One step of the redistribution loop of `hashmap_resize`: the bin `j` of the
old table, of plain nodes or of tree nodes, is moved into the new table. -/
def hashmap_resize_step {K V : Type} [DecidableEq K] (cmp : K → K → Int)
    (old_trees : List (Nat × HashmapTree K)) (old_cap new_cap : Nat)
    (st : List (List (HashmapNode K V)) × List (Nat × HashmapTree K))
    (jb : Nat × List (HashmapNode K V)) :
    List (List (HashmapNode K V)) × List (Nat × HashmapTree K) :=
  match hashmap_tree_get old_trees jb.1 with
  | none => (hashmap_resize_bin old_cap new_cap st.1 jb, st.2)
  | some t =>
    match jb.2 with
    | [] => st
    | [e] =>
      (st.1.set (e.hash &&& (new_cap - 1)) [e],
        hashmap_tree_set st.2 (e.hash &&& (new_cap - 1)) (some t))
    | bin => hashmap_treenode_split cmp old_cap st jb.1 bin t

/-- The function `hashmap_resize`. -/
def hashmap_resize {K V : Type} [DecidableEq K] [KeyHash K] (m : Hashmap K V) : Hashmap K V :=
  let old_cap := m.table.length
  let old_thr := m.threshold
  if old_cap ≥ MAXIMUM_CAPACITY then { m with threshold := SIZE_MAX }
  else
    let new_cap :=
      if old_cap > 0 then old_cap * 2 else if old_thr > 0 then old_thr
      else DEFAULT_INITIAL_CAPACITY
    let new_thr0 :=
      if old_cap > 0 then
        (if new_cap < MAXIMUM_CAPACITY ∧ old_cap ≥ DEFAULT_INITIAL_CAPACITY then old_thr * 2 else 0)
      else if old_thr > 0 then 0 else 12
    let new_thr :=
      if new_thr0 = 0 then (if new_cap < MAXIMUM_CAPACITY then new_cap * 3 / 4 else SIZE_MAX)
      else new_thr0
    { table := ((m.table.enum).foldl
        (hashmap_resize_step KeyHash.keyCmp m.trees old_cap new_cap)
        (List.replicate new_cap [], [])).1
      size := m.size
      threshold := new_thr
      trees := ((m.table.enum).foldl
        (hashmap_resize_step KeyHash.keyCmp m.trees old_cap new_cap)
        (List.replicate new_cap [], [])).2 }

/-- The function `hashmap_treeify_bin`: a table of less than
`MIN_TREEIFY_CAPACITY` bins is resized, otherwise the nodes of the bin of
`hash` become tree nodes and are linked into a tree. -/
def hashmap_treeify_bin {K V : Type} [DecidableEq K] [KeyHash K] (m : Hashmap K V)
    (hash : Nat) : Hashmap K V :=
  if m.table.length < MIN_TREEIFY_CAPACITY then hashmap_resize m
  else
    match m.table.getD ((m.table.length - 1) &&& hash) [] with
    | [] => m
    | bin =>
      { m with
        table := m.table.set ((m.table.length - 1) &&& hash)
          (hashmap_treenode_treeify KeyHash.keyCmp bin).1
        trees := hashmap_tree_set m.trees ((m.table.length - 1) &&& hash)
          (some (hashmap_treenode_treeify KeyHash.keyCmp bin).2) }

/-- The function `hashmap_put`; the second component is its return value
(1 when an existing mapping was replaced, 0 otherwise). -/
def hashmap_put {K V : Type} [DecidableEq K] [KeyHash K] (m : Hashmap K V) (key : K) (val : V) :
    Except Err (Hashmap K V × Nat) :=
  let m1 := if m.table.length = 0 then hashmap_resize m else m
  let n := m1.table.length
  let hash := hash_val key
  let i := (n - 1) &&& hash
  let bin := m1.table.getD i []
  match hashmap_tree_get m1.trees i with
  | none =>
    match bin.findIdx? (hashmap_node_matches hash key) with
    | some idx =>
      .ok ({ m1 with table := m1.table.set i (bin.modify (fun e => { e with val := val }) idx) }, 1)
    | none =>
      let m2 := { m1 with table := m1.table.set i (bin ++ [{ hash := hash, key := key, val := val }]) }
      let m3 := if TREEIFY_THRESHOLD ≤ bin.length then hashmap_treeify_bin m2 hash else m2
      let m4 := { m3 with size := m3.size + 1 }
      .ok (if m4.size > m4.threshold then hashmap_resize m4 else m4, 0)
  | some t =>
    match hashmap_treebin_put KeyHash.keyCmp (hashmap_node_matches hash key) t bin
        { hash := hash, key := key, val := val } with
    | .inl idx =>
      .ok ({ m1 with table := m1.table.set i (bin.modify (fun e => { e with val := val }) idx) }, 1)
    | .inr r =>
      let m3 := { m1 with
        table := m1.table.set i r.1
        trees := hashmap_tree_set m1.trees i (if bin.isEmpty then none else some r.2) }
      let m4 := { m3 with size := m3.size + 1 }
      .ok (if m4.size > m4.threshold then hashmap_resize m4 else m4, 0)

/-- Writing through the pointer returned by `hashmap_get`: the value of the node
of `key` is replaced in place. -/
def hashmap_set_val {K V : Type} [DecidableEq K] [KeyHash K] (m : Hashmap K V) (key : K)
    (val : V) : Hashmap K V :=
  let n := m.table.length
  if n = 0 then m
  else
    let hash := hash_val key
    let i := (n - 1) &&& hash
    let bin := m.table.getD i []
    match hashmap_bin_find KeyHash.keyCmp (hashmap_node_matches hash key)
        (hashmap_tree_get m.trees i) bin hash key with
    | some idx =>
      { m with table := m.table.set i (bin.modify (fun e => { e with val := val }) idx) }
    | none => m

/-- The function `hashmap_remove_node` with the hash of the key; the second
component is its return value. -/
def hashmap_remove_node {K V : Type} [DecidableEq K] [KeyHash K] (m : Hashmap K V) (key : K)
    (movable : Bool) : Hashmap K V × Nat :=
  let n := m.table.length
  if n = 0 then (m, 0)
  else
    let hash := hash_val key
    let i := (n - 1) &&& hash
    let bin := m.table.getD i []
    match hashmap_tree_get m.trees i with
    | none =>
      match bin.findIdx? (hashmap_node_matches hash key) with
      | some idx => ({ m with table := m.table.set i (bin.eraseIdx idx), size := m.size - 1 }, 1)
      | none => (m, 0)
    | some t =>
      match hashmap_treebin_find KeyHash.keyCmp (hashmap_node_matches hash key) t bin hash key with
      | some idx =>
        ({ m with
            table := m.table.set i (hashmap_treenode_remove_tree_node bin t idx movable).1
            size := m.size - 1
            trees := hashmap_tree_set m.trees i
              (hashmap_treenode_remove_tree_node bin t idx movable).2 }, 1)
      | none => (m, 0)

/-- The function `hashmap_remove`; the second component is its return value. -/
def hashmap_remove {K V : Type} [DecidableEq K] [KeyHash K] (m : Hashmap K V) (key : K) :
    Hashmap K V × Nat :=
  hashmap_remove_node m key true

def hashmap_clear {K V : Type} (m : Hashmap K V) : Hashmap K V :=
  if m.table.length ≠ 0 ∧ m.size > 0 then
    { m with table := List.replicate m.table.length [], size := 0, trees := [] }
  else m

/-- The nodes in the order in which `hashmap_iter` / `hashmap_iter_next` visit
them when the map is not changed during the iteration: bin after bin, each
chain front to back. -/
def hashmap_items {K V : Type} (m : Hashmap K V) : List (HashmapNode K V) :=
  if m.size > 0 then m.table.flatten else []

/-- The struct `HashmapIterator` for loops that change the map while iterating:
`next` and `current` are node pointers, here the keys of the nodes. -/
structure HashmapIterator (K : Type) where
  next : Option K
  current : Option K
  index : Nat
deriving DecidableEq, Repr

/-- The scan `do {} while (it->index < n && (it->next = t[it->index++]) == NULL)`. -/
def hashmap_iter_scan {K V : Type} (table : List (List (HashmapNode K V))) :
    Nat → Nat → Option K × Nat
  | 0, index => (none, index)
  | fuel + 1, index =>
    if index < table.length then
      match table.getD index [] with
      | e :: _ => (some e.key, index + 1)
      | [] => hashmap_iter_scan table fuel (index + 1)
    else (none, index)

def hashmap_iter {K V : Type} (m : Hashmap K V) : HashmapIterator K :=
  if m.table.length ≠ 0 ∧ m.size > 0 then
    let r := hashmap_iter_scan m.table m.table.length 0
    { next := r.1, current := none, index := r.2 }
  else { next := none, current := none, index := 0 }

/-- The function `hashmap_iter_next_node` on the current state of the map. -/
def hashmap_iter_next_node {K V : Type} [DecidableEq K] [KeyHash K] (m : Hashmap K V)
    (it : HashmapIterator K) : Except Err (Option (HashmapNode K V × HashmapIterator K)) :=
  match it.next with
  | none => .ok none
  | some k =>
    let n := m.table.length
    let hash := hash_val k
    let bin := m.table.getD ((n - 1) &&& hash) []
    match bin.findIdx? (hashmap_node_matches hash k) with
    | none => .error .undefined
    | some idx =>
      match bin.get? idx, bin.get? (idx + 1) with
      | some e, some e' => .ok (some (e, { next := some e'.key, current := some k, index := it.index }))
      | some e, none =>
        let r := hashmap_iter_scan m.table m.table.length it.index
        .ok (some (e, { next := r.1, current := some k, index := r.2 }))
      | none, _ => .error .undefined

/-- The function `hashmap_iter_remove`: `hashmap_remove_node` with `movable`
false. -/
def hashmap_iter_remove {K V : Type} [DecidableEq K] [KeyHash K] (m : Hashmap K V)
    (it : HashmapIterator K) : Hashmap K V × HashmapIterator K :=
  match it.current with
  | none => (m, it)
  | some k => ((hashmap_remove_node m k false).1, { it with current := none })

/-! ## hashmap.c: the state of a map between two calls -/

/-- The nodes of a tree in the order left subtree, node, right subtree, each
with its hash and its key. -/
def hashmap_tree_keys {K : Type} : HashmapTree K → List (Nat × K)
  | .nil => []
  | .node l h k _ r => hashmap_tree_keys l ++ (h, k) :: hashmap_tree_keys r

/-- What lies left of a node with the ancestors `fs`, in the order of
`hashmap_tree_keys`. -/
def hashmap_frames_left {K : Type} : List (HashmapTreeFrame K) → List (Nat × K)
  | [] => []
  | f :: fs =>
    if f.dir then hashmap_frames_left fs ++ (hashmap_tree_keys f.other ++ [(f.hash, f.key)])
    else hashmap_frames_left fs

/-- What lies right of a node with the ancestors `fs`, in the order of
`hashmap_tree_keys`. -/
def hashmap_frames_right {K : Type} : List (HashmapTreeFrame K) → List (Nat × K)
  | [] => []
  | f :: fs =>
    if f.dir then hashmap_frames_right fs
    else (f.hash, f.key) :: hashmap_tree_keys f.other ++ hashmap_frames_right fs

/-- The order in which the tree of a bin keeps its nodes: by hash, nodes of
equal hash by the comparison callback. -/
def hashmap_tree_lt {K : Type} (cmp : K → K → Int) (a b : Nat × K) : Prop :=
  a.1 < b.1 ∨ (a.1 = b.1 ∧ cmp a.2 b.2 < 0)

/-- The tree is a search tree for `hashmap_tree_lt`. -/
def HTreeSorted {K : Type} (cmp : K → K → Int) (t : HashmapTree K) : Prop :=
  (hashmap_tree_keys t).Pairwise (hashmap_tree_lt cmp)

/-- The tree of a bin: a search tree of the nodes of the chain. -/
def HTreeOk {K V : Type} (cmp : K → K → Int) (bin : List (HashmapNode K V))
    (t : HashmapTree K) : Prop :=
  HTreeSorted cmp t ∧ (hashmap_tree_keys t).Perm (bin.map (fun e => (e.hash, e.key)))

/-- The tree has a node with the key `k` that has no child. -/
def HTreeLeaf {K : Type} (k : K) : HashmapTree K → Prop
  | .nil => False
  | .node l _ key _ r =>
    (key = k ∧ l = .nil ∧ r = .nil) ∨ HTreeLeaf k l ∨ HTreeLeaf k r

/-- The callback is a three-way comparison: exchanging the arguments exchanges
the sign, and `≤ 0` is transitive. -/
structure CmpOrd {K : Type} (cmp : K → K → Int) : Prop where
  symm : ∀ a b, cmp a b < 0 ↔ 0 < cmp b a
  trans : ∀ a b c, cmp a b ≤ 0 → cmp b c ≤ 0 → cmp a c ≤ 0

/-- The comparison callback of the key type is a three-way comparison. -/
class KeyOrd (K : Type) [KeyHash K] : Prop where
  ord : CmpOrd (KeyHash.keyCmp : K → K → Int)

/-- The comparison callback of the key type is a three-way comparison that
returns 0 for equal keys only. -/
class KeyEq (K : Type) [KeyHash K] extends KeyOrd K : Prop where
  eq : ∀ a b : K, KeyHash.keyCmp a b = 0 → a = b

/-- The chains of a table of hashmap.c as `hashmap_put` keeps them: the table
is empty, or of a power of two bins; every node lies in the bin of its hash,
which is the hash of its key; no key occurs twice; `size` counts the nodes. -/
def HChains {K V : Type} [KeyHash K] (m : Hashmap K V) : Prop :=
  ((m.table.length = 0 ∧ m.threshold = 0) ∨ ∃ t, m.table.length = 2 ^ t) ∧
  (∀ i bin, m.table[i]? = some bin →
    ∀ e ∈ bin, e.hash = hash_val e.key ∧ (m.table.length - 1) &&& e.hash = i) ∧
  (m.table.flatten.map (fun e => e.key)).Nodup ∧ m.size = m.table.flatten.length

/-- A table of hashmap.c as `hashmap_put` and `hashmap_remove` keep it: the
chains are as in `HChains`, and the tree of a bin of tree nodes is a search
tree of the nodes of its chain. -/
def HWf {K V : Type} [KeyHash K] (m : Hashmap K V) : Prop :=
  HChains m ∧
  ∀ i t, hashmap_tree_get m.trees i = some t → HTreeOk KeyHash.keyCmp (m.table.getD i []) t
/-! ## repair_types.h, rule_creator.c -/

structure AdjacencyType where
  label : Nat
  conn_type : Nat
deriving DecidableEq, Repr

structure Digram where
  adj0 : AdjacencyType
  adj1 : AdjacencyType
deriving DecidableEq, Repr

structure Monogram where
  label : Nat
  conn0 : Nat
  conn1 : Nat
deriving DecidableEq, Repr

def hash_adjacency_type (a : AdjacencyType) : Nat :=
  HASH_COMBINE (HASH_COMBINE 0 (HASH a.label)) (HASH a.conn_type)

/-- The function `cmp_adjacency_type`. -/
def cmp_adjacency_type (a1 a2 : AdjacencyType) : Int :=
  if a1.label ≠ a2.label then (if a1.label > a2.label then 1 else -1)
  else if a1.conn_type ≠ a2.conn_type then (if a1.conn_type > a2.conn_type then 1 else -1)
  else 0

/-- The callbacks `hash_adjacency_type_cb` and `cmp_adjacency_type_cb`. -/
instance : KeyHash AdjacencyType := ⟨hash_adjacency_type, cmp_adjacency_type⟩

/-- The callback `cmp_digram_type_cb`. -/
def cmp_digram_type_cb (d1 d2 : Digram) : Int :=
  if cmp_adjacency_type d1.adj0 d2.adj0 ≠ 0 then cmp_adjacency_type d1.adj0 d2.adj0
  else cmp_adjacency_type d1.adj1 d2.adj1

/-- The callbacks `hash_digram_type_cb` and `cmp_digram_type_cb`. -/
instance : KeyHash Digram :=
  ⟨fun d => HASH_COMBINE (HASH_COMBINE 0 (hash_adjacency_type d.adj0)) (hash_adjacency_type d.adj1),
    cmp_digram_type_cb⟩

/-- The callback `cmp_monogram_type_cb`. -/
def cmp_monogram_type_cb (m1 m2 : Monogram) : Int :=
  if m1.label ≠ m2.label then cmp_uint_cb m1.label m2.label
  else if m1.conn0 ≠ m2.conn0 then cmp_uint_cb m1.conn0 m2.conn0
  else cmp_uint_cb m1.conn1 m2.conn1

/-- The callbacks `hash_monogram_type_cb` and `cmp_monogram_type_cb`. -/
instance : KeyHash Monogram :=
  ⟨fun m => HASH_COMBINE (HASH_COMBINE (HASH m.label) (HASH m.conn0)) (HASH m.conn1),
    cmp_monogram_type_cb⟩

/-- The callbacks `hash_uint_cb` and `cmp_uint_cb`, `hash_size_cb` and
`cmp_size_cb`. -/
instance : KeyHash Nat := ⟨HASH, cmp_uint_cb⟩

def digram_build_edge (label connection_type rank_of_rule node_offset : Nat) : HEdge :=
  { label := label
    rank := rank_of_rule
    nodes := (List.range rank_of_rule).map (fun i =>
      if i < connection_type then node_offset + i
      else if i = connection_type then 0
      else node_offset + i - 1) }

/-- The struct `RuleCreator` when it was set up for a digram. -/
structure RuleCreator where
  digram : Digram
  rule_name : Nat
  rule : HGraph
deriving DecidableEq, Repr

/-- The function `rule_creator_digram_init`.  The ranks are stored in `size_t`
variables: with a negative rank `digram_build_edge` would write past its
allocation. -/
def rule_creator_digram_init (g : SLHRGrammar) (digram : Digram) : Except Err RuleCreator := do
  let rank0 ← slhr_grammar_rank_of_rule g digram.adj0.label
  let rank1 ← slhr_grammar_rank_of_rule g digram.adj1.label
  if rank0 < 0 ∨ rank1 < 0 then .error .undefined
  else
    let edge0 := digram_build_edge digram.adj0.label digram.adj0.conn_type rank0.toNat 1
    let edge1 := digram_build_edge digram.adj1.label digram.adj1.conn_type rank1.toNat rank0.toNat
    let graph := hgraph_add_edge (hgraph_add_edge (hgraph_init (rank0 + rank1 - 1)) edge0) edge1
    pure { digram := digram, rule_name := slhr_grammar_unused_nt g, rule := graph }

/-- The copy loop `for(i = 0; i < rank; i++) if(i != conn_type) nodes[index++] = edge->nodes[i]`. -/
def copy_nodes_except (edge : HEdge) (conn_type : Nat) : Except Err (List Nat) :=
  (List.range edge.rank).foldlM
    (fun acc i => if i = conn_type then pure acc else do
      let v ← arr_get edge.nodes i
      pure (acc ++ [v]))
    []

def rule_creator_digram_new_edge (c : RuleCreator) (edge_1 edge_2 : HEdge) : Except Err HEdge := do
  let shared_node ← arr_get edge_1.nodes c.digram.adj0.conn_type
  let rank := edge_1.rank + edge_2.rank - 1
  let n1 ← copy_nodes_except edge_1 c.digram.adj0.conn_type
  let n2 ← copy_nodes_except edge_2 c.digram.adj1.conn_type
  let nodes := shared_node :: (n1 ++ n2)
  if nodes.length = rank then pure { label := c.rule_name, rank := rank, nodes := nodes }
  else .error .undefined

/-- The function `rule_inserter_edges_for_hyperedge`: the body of
`rule_to_insert` replaces the edge `hyperedge` at `index` of `rule`; the first
body edge takes its slot, the others are appended. -/
def rule_inserter_edges_for_hyperedge (rule_to_insert rule : HGraph) (hyperedge : HEdge)
    (index : Nat) : Except Err HGraph :=
  (List.range (hgraph_len rule_to_insert)).foldlM
    (fun r i => do
      let e ← hgraph_edge_deref rule_to_insert i
      let nodes ← (List.range e.rank).mapM (fun j => do
        let k ← arr_get e.nodes j
        arr_get hyperedge.nodes k)
      let edge : HEdge := { label := e.label, rank := e.rank, nodes := nodes }
      if i = 0 then hgraph_edge_set r index (some edge)
      else pure (hgraph_add_edge r edge))
    rule

/-! ## repair.c: counting digrams -/

structure NodeAdjacencyDict where
  nodes : Nat
  dict : List (Option (Hashmap AdjacencyType Nat))
deriving DecidableEq, Repr

/-- Body of the inner loop of `repair_create_node_adjacency_dict`. -/
def adjacency_dict_count (edge : HEdge) (dict : List (Option (Hashmap AdjacencyType Nat)))
    (connection_type : Nat) : Except Err (List (Option (Hashmap AdjacencyType Nat))) := do
  let node ← arr_get edge.nodes connection_type
  let adj_type : AdjacencyType := { label := edge.label, conn_type := connection_type }
  match ← arr_get dict node with
  | some dir =>
    match hashmap_get dir adj_type with
    | some count => pure (dict.set node (some (hashmap_set_val dir adj_type (count + 1))))
    | none =>
      let r ← hashmap_put dir adj_type 1
      pure (dict.set node (some r.1))
  | none =>
    let r ← hashmap_put hashmap_init adj_type 1
    pure (dict.set node (some r.1))

def repair_create_node_adjacency_dict (rule : HGraph) (nodes : Nat) :
    Except Err NodeAdjacencyDict := do
  let dict ← (List.range (hgraph_len rule)).foldlM
    (fun d i => do
      let edge ← hgraph_edge_deref rule i
      (List.range edge.rank).foldlM (adjacency_dict_count edge) d)
    (List.replicate nodes none)
  pure { nodes := nodes, dict := dict }

/-- The function `update_digram_count_delta`; counts are signed. -/
def update_digram_count_delta (digram_count : Hashmap Digram Int) (digram : Digram)
    (delta : Int) : Except Err (Hashmap Digram Int) :=
  match hashmap_get digram_count digram with
  | some val =>
    let m := hashmap_set_val digram_count digram (val + delta)
    pure (if val + delta ≤ 0 then (hashmap_remove m digram).1 else m)
  | none =>
    let inverted : Digram := { adj0 := digram.adj1, adj1 := digram.adj0 }
    match hashmap_get digram_count inverted with
    | some val =>
      let m := hashmap_set_val digram_count inverted (val + delta)
      pure (if val + delta ≤ 0 then (hashmap_remove m inverted).1 else m)
    | none =>
      if delta > 0 then do
        let r ← hashmap_put digram_count digram delta
        pure r.1
      else pure digram_count

/-- The loops over `i` and `j` of `repair_count_digrams` for one node. -/
def repair_count_digrams_node (adj_type_dict : Hashmap AdjacencyType Nat)
    (digram_count : Hashmap Digram Int) : Except Err (Hashmap Digram Int) := do
  let keys := (hashmap_items adj_type_dict).map (fun e => e.key)
  let adjacency_type_count := hashmap_size adj_type_dict
  (List.range adjacency_type_count).foldlM
    (fun dc i => do
      let key_i ← arr_get keys i
      match hashmap_get adj_type_dict key_i with
      | none => .error .failed
      | some count_i =>
        let dc ← (List.range (adjacency_type_count - (i + 1))).foldlM
          (fun dc dj => do
            let key_j ← arr_get keys (i + 1 + dj)
            match hashmap_get adj_type_dict key_j with
            | none => .error .failed
            | some count_j =>
              let delta := if count_i < count_j then count_i else count_j
              update_digram_count_delta dc { adj0 := key_i, adj1 := key_j } delta)
          dc
        update_digram_count_delta dc { adj0 := key_i, adj1 := key_i } (count_i / 2 : Nat))
    digram_count

def repair_count_digrams (dict : NodeAdjacencyDict) : Except Err (Hashmap Digram Int) :=
  (List.range dict.nodes).foldlM
    (fun dc node => do
      match ← arr_get dict.dict node with
      | none => pure dc
      | some adj_type_dict => repair_count_digrams_node adj_type_dict dc)
    hashmap_init

/-- The function `should_continue_replacing_digram`; `n` is a `uint64_t`, so
the comparison is one of `uint64_t` values. -/
def should_continue_replacing_digram (grammar : SLHRGrammar) (digram : Digram) (n : Int) :
    Except Err Bool := do
  let r0 ← slhr_grammar_rank_of_rule grammar digram.adj0.label
  let r1 ← slhr_grammar_rank_of_rule grammar digram.adj1.label
  let m := r0 + r1
  let g := m + 2
  pure (decide (u64 (n * m + g) < u64 (n * g)))

/-- The selection loop of `repair_digram_to_replace`: the first entry with the
strictly largest count. -/
def repair_digram_max (items : List (HashmapNode Digram Int)) :
    Option (Digram × Int) :=
  items.foldl
    (fun res item =>
      match res with
      | none => some (item.key, item.val)
      | some (_, res_count) => if item.val > res_count then some (item.key, item.val) else res)
    none

def repair_digram_to_replace (g : SLHRGrammar) (digram_count : Hashmap Digram Int) :
    Except Err (Option Digram) :=
  match repair_digram_max (hashmap_items digram_count) with
  | none => pure none
  | some (res, res_count) => do
    if ← should_continue_replacing_digram g res res_count then pure (some res) else pure none

def digram_over_max_rank (g : SLHRGrammar) (max_rank : Int) (d : Digram) : Except Err Bool := do
  let r0 ← slhr_grammar_rank_of_rule g d.adj0.label
  let r1 ← slhr_grammar_rank_of_rule g d.adj1.label
  pure (decide (r0 + r1 - 1 > max_rank))

/-! ## repair.c: finding the occurrences of a digram -/

/-- The struct `OccStateElement`: either a map from adjacency types to lists of
edge indices, or a single edge index. -/
inductive OccStateElement where
  | map (m : Hashmap AdjacencyType (List Nat))
  | edge (e : Nat)
deriving DecidableEq, Repr

structure OccState where
  start : Nat
  map : Hashmap Nat OccStateElement
deriving DecidableEq, Repr

def occ_state_init : OccState := { start := 0, map := hashmap_init }

def occ_state_contains_node (s : OccState) (node : Nat) : Bool :=
  hashmap_contains_key s.map node

/-- The access `e->map` after `e = hashmap_get(s->map, &node, ...)`; `asserted`
tells whether the C function asserts `e != NULL`. -/
def occ_state_elem_map (s : OccState) (node : Nat) (asserted : Bool) :
    Except Err (Hashmap AdjacencyType (List Nat)) :=
  match hashmap_get s.map node with
  | some (.map m) => .ok m
  | some (.edge _) => .error .undefined
  | none => .error (if asserted then .assertion else .undefined)

/-- Storing a changed adjacency map back into the element of `node`. -/
def occ_state_store (s : OccState) (node : Nat) (m : Hashmap AdjacencyType (List Nat)) :
    OccState :=
  { s with map := hashmap_set_val s.map node (.map m) }

def occ_state_node_adj_init (s : OccState) (node : Nat) (adj : AdjacencyType) (i : Nat) :
    Except Err OccState := do
  let m ← hashmap_put (hashmap_init : Hashmap AdjacencyType (List Nat)) adj [i]
  let r ← hashmap_put s.map node (.map m.1)
  pure { s with map := r.1 }

def occ_state_node_contains_adj (s : OccState) (node : Nat) (adj : AdjacencyType) :
    Except Err Bool := do
  let m ← occ_state_elem_map s node true
  pure (hashmap_contains_key m adj)

def occ_state_node_len (s : OccState) (node : Nat) : Except Err Nat := do
  let m ← occ_state_elem_map s node true
  pure (hashmap_size m)

/-- The function `_occ_state_node_list`, followed by the dereference of its
result. -/
def occ_state_node_list (s : OccState) (node : Nat) (adj : AdjacencyType) :
    Except Err (List Nat) := do
  let m ← occ_state_elem_map s node true
  match hashmap_get m adj with
  | some l => pure l
  | none => .error .undefined

def occ_state_node_list_set (s : OccState) (node : Nat) (adj : AdjacencyType) (l : List Nat) :
    Except Err OccState := do
  let m ← occ_state_elem_map s node true
  pure (occ_state_store s node (hashmap_set_val m adj l))

def occ_state_node_append (s : OccState) (node : Nat) (adj : AdjacencyType) (i : Nat) :
    Except Err OccState := do
  let l ← occ_state_node_list s node adj
  occ_state_node_list_set s node adj (l ++ [i])

def occ_state_node_adj_matches_i (s : OccState) (node : Nat) (adj : AdjacencyType) (i : Nat) :
    Except Err Bool := do
  let l ← occ_state_node_list s node adj
  pure (l.length == 1 && l.head? == some i)

def occ_state_node_adj_set_i (s : OccState) (node : Nat) (adj : AdjacencyType) (i : Nat) :
    Except Err OccState := do
  let m ← occ_state_elem_map s node false
  let r ← hashmap_put m adj [i]
  pure (occ_state_store s node r.1)

/-- The function `occ_state_node_adj_contains_i`: the first position of `i` in
the list, if any. -/
def occ_state_node_adj_contains_i (s : OccState) (node : Nat) (adj : AdjacencyType) (i : Nat) :
    Except Err (Option Nat) := do
  let l ← occ_state_node_list s node adj
  pure (l.indexOf? i)

def occ_state_node_adj_delete_index (s : OccState) (node : Nat) (adj : AdjacencyType)
    (index : Nat) : Except Err OccState := do
  let l ← occ_state_node_list s node adj
  if index < l.length then occ_state_node_list_set s node adj (l.eraseIdx index)
  else .error .assertion

def occ_state_node_adj_pop0 (s : OccState) (node : Nat) (adj : AdjacencyType) :
    Except Err (OccState × Nat) := do
  let l ← occ_state_node_list s node adj
  match l with
  | first :: rest => do
    let s' ← occ_state_node_list_set s node adj rest
    pure (s', first)
  | [] => .error .assertion

def occ_state_node_adj_len (s : OccState) (node : Nat) (adj : AdjacencyType) :
    Except Err Nat := do
  let l ← occ_state_node_list s node adj
  pure l.length

def occ_state_node_adj_del (s : OccState) (node : Nat) (adj : AdjacencyType) :
    Except Err OccState := do
  let m ← occ_state_elem_map s node false
  match hashmap_get m adj with
  | some _ => pure (occ_state_store s node (hashmap_remove m adj).1)
  | none => .error .undefined

def occ_state_node_del (s : OccState) (node : Nat) : Except Err OccState :=
  match hashmap_get s.map node with
  | some _ => .ok { s with map := (hashmap_remove s.map node).1 }
  | none => .error .undefined

def occ_state_node_init_edge (s : OccState) (node edge : Nat) : Except Err OccState := do
  let r ← hashmap_put s.map node (.edge edge)
  if r.2 ≠ 0 then .error .failed else pure { s with map := r.1 }

def occ_state_node_edge_get (s : OccState) (node : Nat) : Except Err Nat :=
  match hashmap_get s.map node with
  | some (.edge e) => .ok e
  | _ => .error .undefined

/-- The cleanup `if(len(other_node, adj) == 0) { del(adj); if(node_len == 0) del(node) }`. -/
def occ_state_cleanup (s : OccState) (other_node : Nat) (adj : AdjacencyType) :
    Except Err OccState := do
  if (← occ_state_node_adj_len s other_node adj) = 0 then
    let s ← occ_state_node_adj_del s other_node adj
    if (← occ_state_node_len s other_node) = 0 then occ_state_node_del s other_node else pure s
  else pure s

/-- The last `else` branch inside `find_occurrence_of_digram` (digram of two
different adjacency types): an occurrence is completed at edge `i`; the result
is the new state and the partner edge `edge_1`. -/
def find_occurrence_complete (start_rule : HGraph) (state : OccState) (i : Nat) (edge : HEdge)
    (node : Nat) (adjacency_type adjacency_type_2 : AdjacencyType) :
    Except Err (OccState × Nat) := do
  let connection_type := adjacency_type.conn_type
  let state ←
    if ← occ_state_node_contains_adj state node adjacency_type then
      match ← occ_state_node_adj_contains_i state node adjacency_type i with
      | some index => occ_state_node_adj_delete_index state node adjacency_type index
      | none => pure state
    else pure state
  let state ←
    match ← occ_state_node_adj_contains_i state node adjacency_type_2 i with
    | some index => occ_state_node_adj_delete_index state node adjacency_type_2 index
    | none => pure state
  let (state, edge_1) ← occ_state_node_adj_pop0 state node adjacency_type_2
  let state ←
    if edge.label = adjacency_type_2.label then do
      let other_node ← arr_get edge.nodes adjacency_type_2.conn_type
      if occ_state_contains_node state other_node then
        if ← occ_state_node_contains_adj state other_node adjacency_type_2 then
          match ← occ_state_node_adj_contains_i state other_node adjacency_type_2 i with
          | some index => do
            let state ← occ_state_node_adj_delete_index state other_node adjacency_type_2 index
            occ_state_cleanup state other_node adjacency_type_2
          | none => pure state
        else pure state
      else pure state
    else pure state
  let edge_1_val ← hgraph_edge_deref start_rule edge_1
  let state ←
    if edge_1_val.label = adjacency_type.label then do
      let other_node ← arr_get edge_1_val.nodes connection_type
      if occ_state_contains_node state other_node then
        match ← occ_state_node_adj_contains_i state other_node adjacency_type edge_1 with
        | some index => do
          let state ← occ_state_node_adj_delete_index state other_node adjacency_type index
          occ_state_cleanup state other_node adjacency_type
        | none => pure state
      else pure state
    else pure state
  let state ←
    if ← occ_state_node_contains_adj state node adjacency_type then
      if (← occ_state_node_adj_len state node adjacency_type) = 0 then
        occ_state_node_adj_del state node adjacency_type
      else pure state
    else pure state
  let state ←
    if (← occ_state_node_adj_len state node adjacency_type_2) = 0 then
      occ_state_node_adj_del state node adjacency_type_2
    else pure state
  let state ←
    if (← occ_state_node_len state node) = 0 then occ_state_node_del state node else pure state
  pure ({ state with start := i }, edge_1)

/-- One pass `j` of the loop `for(int j = 0; j <= 1; j++)` for the edge at `i`:
either the state is updated, or an occurrence `(res[0], res[1])` is returned. -/
def find_occurrence_pass (d : Digram) (start_rule : HGraph) (state : OccState) (i : Nat)
    (edge : HEdge) (j : Nat) : Except Err (OccState × Option (Nat × Nat)) := do
  let adjacency_type := if j = 0 then d.adj0 else d.adj1
  let adjacency_type_2 := if j ≠ 0 then d.adj0 else d.adj1
  if edge.label = adjacency_type.label then
    let node ← arr_get edge.nodes adjacency_type.conn_type
    if !occ_state_contains_node state node then
      let s ← occ_state_node_adj_init state node adjacency_type i
      pure (s, none)
    else
      let c1 ← occ_state_node_contains_adj state node adjacency_type
      let l1 ← if c1 then occ_state_node_len state node else pure 0
      if c1 && l1 == 1 then
        let s ← occ_state_node_append state node adjacency_type i
        pure (s, none)
      else
        let c2 ← occ_state_node_contains_adj state node adjacency_type_2
        let l2 ← if c2 then occ_state_node_len state node else pure 0
        let m2 ← if c2 && l2 == 1 then occ_state_node_adj_matches_i state node adjacency_type_2 i
          else pure false
        if c2 && l2 == 1 && m2 then
          let s ← occ_state_node_adj_set_i state node adjacency_type i
          pure (s, none)
        else
          let (s, edge_1) ← find_occurrence_complete start_rule state i edge node
            adjacency_type adjacency_type_2
          pure (s, some (if j = 0 then (i, edge_1) else (edge_1, i)))
  else pure (state, none)

/-- The loop body of `find_occurrence_of_digram` for the slot `i` of the start
rule. -/
def find_occurrence_at (d : Digram) (start_rule : HGraph) (state : OccState) (i : Nat) :
    Except Err (OccState × Option (Nat × Nat)) := do
  match ← hgraph_edge_get start_rule i with
  | none => pure (state, none)
  | some edge =>
    if cmp_adjacency_type d.adj0 d.adj1 ≠ 0 then
      match ← find_occurrence_pass d start_rule state i edge 0 with
      | (s, some r) => pure (s, some r)
      | (s, none) => find_occurrence_pass d start_rule s i edge 1
    else if edge.label = d.adj0.label then
      let node ← arr_get edge.nodes d.adj0.conn_type
      if !occ_state_contains_node state node then
        let s ← occ_state_node_init_edge state node i
        pure (s, none)
      else
        let edge_1 ← occ_state_node_edge_get state node
        let s ← occ_state_node_del state node
        pure ({ s with start := i }, some (edge_1, i))
    else pure (state, none)

/-- The function `find_occurrence_of_digram`: scans the slots from
`state.start`; `none` when it returns 0. -/
def find_occurrence_of_digram (d : Digram) (start_rule : HGraph) :
    Nat → OccState → Nat → Except Err (OccState × Option (Nat × Nat))
  | 0, state, _ => pure (state, none)
  | fuel + 1, state, i =>
    if i < hgraph_len start_rule then do
      match ← find_occurrence_at d start_rule state i with
      | (s, some r) => pure (s, some r)
      | (s, none) => find_occurrence_of_digram d start_rule fuel s (i + 1)
    else pure (state, none)

/-! ## repair.c: replacing digrams -/

/-- The iteration inside `update_digram_count` over the adjacency types of one
node: every other type whose count is at least `count` changes the count of its
digram with `adj0` by `delta`; for `delta > 0` only digrams within the maximum
rank are counted. -/
def update_digram_count_others (g : SLHRGrammar) (max_rank : Int) (checked : Bool)
    (adj0 : AdjacencyType) (count : Nat) (delta : Int)
    (items : List (HashmapNode AdjacencyType Nat)) (digram_count : Hashmap Digram Int) :
    Except Err (Hashmap Digram Int) :=
  items.foldlM
    (fun dc item =>
      if cmp_adjacency_type adj0 item.key ≠ 0 then
        if count ≤ item.val then do
          let digram : Digram := { adj0 := adj0, adj1 := item.key }
          if checked then
            if !(← digram_over_max_rank g max_rank digram) then
              update_digram_count_delta dc digram delta
            else pure dc
          else update_digram_count_delta dc digram delta
        else pure dc
      else pure dc)
    digram_count

/-- First part of `update_digram_count`, for the connection `connection_type`
of one of the two old edges. -/
def update_digram_count_old (g : SLHRGrammar) (max_rank : Int) (edge : HEdge)
    (st : NodeAdjacencyDict × Hashmap Digram Int) (connection_type : Nat) :
    Except Err (NodeAdjacencyDict × Hashmap Digram Int) := do
  let adj0 : AdjacencyType := { label := edge.label, conn_type := connection_type }
  let node ← arr_get edge.nodes connection_type
  match ← arr_get st.1.dict node with
  | none => .error .undefined
  | some dir =>
    match hashmap_get dir adj0 with
    | none => .error .assertion
    | some count =>
      let dc ← update_digram_count_others g max_rank false adj0 count (-1) (hashmap_items dir) st.2
      let dc ←
        if count % 2 = 0 then update_digram_count_delta dc { adj0 := adj0, adj1 := adj0 } (-1)
        else pure dc
      let dir := hashmap_set_val dir adj0 (count - 1)
      let dir := if count - 1 = 0 then (hashmap_remove dir adj0).1 else dir
      pure ({ st.1 with dict := st.1.dict.set node (some dir) }, dc)

/-- Second part of `update_digram_count`, for the connection `connection_type`
of the new edge. -/
def update_digram_count_new (g : SLHRGrammar) (max_rank : Int) (new_edge : HEdge)
    (st : NodeAdjacencyDict × Hashmap Digram Int) (connection_type : Nat) :
    Except Err (NodeAdjacencyDict × Hashmap Digram Int) := do
  let adj0 : AdjacencyType := { label := new_edge.label, conn_type := connection_type }
  let node ← arr_get new_edge.nodes connection_type
  match ← arr_get st.1.dict node with
  | none => .error .undefined
  | some dir =>
    let (dir, count) ←
      match hashmap_get dir adj0 with
      | none => do
        let r ← hashmap_put dir adj0 1
        pure (r.1, 1)
      | some c => pure (hashmap_set_val dir adj0 (c + 1), c + 1)
    let dc ← update_digram_count_others g max_rank true adj0 count 1 (hashmap_items dir) st.2
    let dc ←
      if count % 2 = 0 then do
        let digram : Digram := { adj0 := adj0, adj1 := adj0 }
        if !(← digram_over_max_rank g max_rank digram) then update_digram_count_delta dc digram 1
        else pure dc
      else pure dc
    pure ({ st.1 with dict := st.1.dict.set node (some dir) }, dc)

def update_digram_count (g : SLHRGrammar) (max_rank : Int) (old_edge0 old_edge1 new_edge : HEdge)
    (node_adjacency_dict : NodeAdjacencyDict) (digram_count : Hashmap Digram Int) :
    Except Err (NodeAdjacencyDict × Hashmap Digram Int) := do
  let st ← (List.range old_edge0.rank).foldlM (update_digram_count_old g max_rank old_edge0)
    (node_adjacency_dict, digram_count)
  let st ← (List.range old_edge1.rank).foldlM (update_digram_count_old g max_rank old_edge1) st
  (List.range new_edge.rank).foldlM (update_digram_count_new g max_rank new_edge) st

/-- The state of the loops of `repair_replace_digrams`. -/
structure ReplaceState where
  g : SLHRGrammar
  adj_dict : NodeAdjacencyDict
  digram_count : Hashmap Digram Int
deriving DecidableEq, Repr

/-- Body of the inner `while` of `repair_replace_digrams` for one occurrence. -/
def replace_occurrence (max_rank : Int) (new_rule : RuleCreator) (rule_created : Bool)
    (st : ReplaceState) (occ : Nat × Nat) : Except Err ReplaceState := do
  let start_rule := st.g.start_symbol
  let old0 ← hgraph_edge_deref start_rule occ.1
  let old1 ← hgraph_edge_deref start_rule occ.2
  let new_edge ← rule_creator_digram_new_edge new_rule old0 old1
  let g ← if rule_created then pure st.g
    else slhr_grammar_rule_add st.g new_rule.rule_name new_rule.rule
  let (adj_dict, digram_count) ←
    update_digram_count g max_rank old0 old1 new_edge st.adj_dict st.digram_count
  let start_rule ← hgraph_edge_replace g.start_symbol occ.1 new_edge
  let start_rule ← hgraph_edge_free start_rule occ.2
  pure { g := { g with start_symbol := start_rule }, adj_dict := adj_dict,
         digram_count := digram_count }

/-- The inner `while` of `repair_replace_digrams`: all occurrences of one
digram. -/
def replace_occurrences (max_rank : Int) (d : Digram) (new_rule : RuleCreator) :
    Nat → Bool → OccState → ReplaceState → Except Err ReplaceState
  | 0, _, _, _ => .error .fuel
  | fuel + 1, rule_created, state, st => do
    let start_rule := st.g.start_symbol
    match ← find_occurrence_of_digram d start_rule (hgraph_len start_rule) state state.start with
    | (_, none) => pure st
    | (state, some occ) => do
      let st ← replace_occurrence max_rank new_rule rule_created st occ
      replace_occurrences max_rank d new_rule fuel true state st

/-- The outer `while` of `repair_replace_digrams`. -/
def replace_digrams_loop (max_rank : Int) : Nat → ReplaceState → Except Err ReplaceState
  | 0, _ => .error .fuel
  | fuel + 1, st => do
    match ← repair_digram_to_replace st.g st.digram_count with
    | none => pure st
    | some d => do
      let new_rule ← rule_creator_digram_init st.g d
      let st ← replace_occurrences max_rank d new_rule
        (hgraph_len st.g.start_symbol + 1) false occ_state_init st
      let st := { st with digram_count := (hashmap_remove st.digram_count d).1 }
      replace_digrams_loop max_rank fuel st

def repair_replace_digrams (fuel : Nat) (g : SLHRGrammar) (nodes : Nat) (max_rank : Int) :
    Except Err SLHRGrammar := do
  let adj_dict ← repair_create_node_adjacency_dict g.start_symbol nodes
  let digram_count ← repair_count_digrams adj_dict
  let st ← replace_digrams_loop max_rank fuel
    { g := g, adj_dict := adj_dict, digram_count := digram_count }
  pure { st.g with start_symbol := hgraph_fill_holes st.g.start_symbol }

/-! ## repair.c: replacing monograms -/

def monogram_build_edge (label connection_type_1 connection_type_2 rank_of_rule : Nat) : HEdge :=
  { label := label
    rank := rank_of_rule
    nodes := (List.range rank_of_rule).map (fun i =>
      if i < connection_type_2 then i
      else if i = connection_type_2 then connection_type_1
      else i - 1) }

/-- The struct `RuleCreator` when it was set up for a monogram. -/
structure MonoRuleCreator where
  monogram : Monogram
  rule_name : Nat
  rule : HGraph
deriving DecidableEq, Repr

/-- The function `rule_creator_monogram_init`.  The rank is stored in a `size_t`
variable: with a negative rank `monogram_build_edge` would write past its
allocation. -/
def rule_creator_monogram_init (g : SLHRGrammar) (monogram : Monogram) :
    Except Err MonoRuleCreator := do
  let rank ← slhr_grammar_rank_of_rule g monogram.label
  if rank < 0 then .error .undefined
  else
    let edge := monogram_build_edge monogram.label monogram.conn0 monogram.conn1 rank.toNat
    let graph := hgraph_add_edge (hgraph_init (rank - 1)) edge
    pure { monogram := monogram, rule_name := slhr_grammar_unused_nt g, rule := graph }

def rule_creator_monogram_new_edge (c : MonoRuleCreator) (old_edge : HEdge) :
    Except Err HEdge := do
  let new_rank := old_edge.rank - 1
  let nodes ← (List.range new_rank).mapM (fun i =>
    if i < c.monogram.conn1 then arr_get old_edge.nodes i else arr_get old_edge.nodes (i + 1))
  pure { label := c.rule_name, rank := new_rank, nodes := nodes }

/-- First inner loop of `repair_count_monograms`: the connection types of the
edge are collected per node. -/
def monogram_collect (e : HEdge) (d : Hashmap Nat (List Nat)) (connection_type : Nat) :
    Except Err (Hashmap Nat (List Nat)) := do
  let node ← arr_get e.nodes connection_type
  match hashmap_get d node with
  | some l => pure (hashmap_set_val d node (l ++ [connection_type]))
  | none => do
    let r ← hashmap_put d node [connection_type]
    pure r.1

/-- Counting one monogram: `(*count)++` or a new entry with count 1. -/
def monogram_count_incr (monogram_dict : Hashmap Monogram Nat) (monogram : Monogram) :
    Except Err (Hashmap Monogram Nat) :=
  match hashmap_get monogram_dict monogram with
  | some count => pure (hashmap_set_val monogram_dict monogram (count + 1))
  | none => do
    let r ← hashmap_put monogram_dict monogram 1
    pure r.1

/-- The loops over `i` and `j > i` of `repair_count_monograms` for the list of
connection types of one node. -/
def monogram_count_list (label : Nat) (l : List Nat) (monogram_dict : Hashmap Monogram Nat) :
    Except Err (Hashmap Monogram Nat) :=
  if l.length > 1 then
    (List.range l.length).foldlM
      (fun md i => do
        let c0 ← arr_get l i
        (List.range (l.length - (i + 1))).foldlM
          (fun md dj => do
            let c1 ← arr_get l (i + 1 + dj)
            monogram_count_incr md { label := label, conn0 := c0, conn1 := c1 })
          md)
      monogram_dict
  else pure monogram_dict

def repair_count_monograms (start_rule : HGraph) : Except Err (Hashmap Monogram Nat) := do
  let r ← (List.range (hgraph_len start_rule)).foldlM
    (fun (st : Hashmap Monogram Nat × Hashmap Nat (List Nat)) edge_id => do
      let e ← hgraph_edge_deref start_rule edge_id
      let d ← (List.range e.rank).foldlM (monogram_collect e) st.2
      let md ← (hashmap_items d).foldlM (fun md item => monogram_count_list e.label item.val md) st.1
      pure (md, hashmap_clear d))
    (hashmap_init, hashmap_init)
  pure r.1

/-- The function `should_continue_replacing_monogram`; `n` is a `uint64_t`, so
the comparison is one of `uint64_t` values. -/
def should_continue_replacing_monogram (grammar : SLHRGrammar) (monogram : Monogram) (n : Int) :
    Except Err Bool := do
  let m ← slhr_grammar_rank_of_rule grammar monogram.label
  let g := m + 1
  pure (decide (u64 (n * m + g) < u64 (n * g)))

def repair_monogram_max (items : List (HashmapNode Monogram Nat)) : Option (Monogram × Nat) :=
  items.foldl
    (fun res item =>
      match res with
      | none => some (item.key, item.val)
      | some (_, res_count) => if item.val > res_count then some (item.key, item.val) else res)
    none

def repair_monogram_to_replace (g : SLHRGrammar) (monogram_count : Hashmap Monogram Nat) :
    Except Err (Option Monogram) :=
  match repair_monogram_max (hashmap_items monogram_count) with
  | none => pure none
  | some (res, res_count) => do
    if ← should_continue_replacing_monogram g res res_count then pure (some res) else pure none

/-- The test `edge->label == m->label && edge->nodes[m->conn0] == edge->nodes[m->conn1]`. -/
def monogram_matches (label conn0 conn1 : Nat) (edge : HEdge) : Except Err Bool :=
  if edge.label = label then do
    let a ← arr_get edge.nodes conn0
    let b ← arr_get edge.nodes conn1
    pure (a == b)
  else pure false

/-- The function `find_occurrence_of_monogram`: the first matching slot from
`state` on. -/
def find_occurrence_of_monogram (m : Monogram) (start_rule : HGraph) :
    Nat → Nat → Except Err (Option Nat)
  | 0, _ => pure none
  | fuel + 1, i =>
    if i < hgraph_len start_rule then do
      let edge ← hgraph_edge_deref start_rule i
      if ← monogram_matches m.label m.conn0 m.conn1 edge then pure (some i)
      else find_occurrence_of_monogram m start_rule fuel (i + 1)
    else pure none

/-- Body of the `while` of `update_monogram_dict` for the visited node `item`. -/
def update_monogram_item (old_edge new_edge : HEdge) (replaced_monogram : Monogram)
    (monogram_dict : Hashmap Monogram Nat) (it : HashmapIterator Monogram)
    (item : HashmapNode Monogram Nat) :
    Except Err (Hashmap Monogram Nat × HashmapIterator Monogram) := do
  let monogram := item.key
  let hit ←
    if monogram.label = old_edge.label then do
      let a ← arr_get old_edge.nodes monogram.conn0
      let b ← arr_get old_edge.nodes monogram.conn1
      pure (a == b)
    else pure false
  if hit then
    let count := (item.val + SIZE_MAX) % (SIZE_MAX + 1)
    let md := hashmap_set_val monogram_dict monogram count
    let (md, it) := if count = 0 then hashmap_iter_remove md it else (md, it)
    let conn0 := monogram.conn0
    let conn1 := monogram.conn1
    if conn0 ≠ replaced_monogram.conn1 ∧ conn1 ≠ replaced_monogram.conn1 then
      let n0 := conn0 - (if conn0 ≤ replaced_monogram.conn1 then 0 else 1)
      let n1 := conn1 - (if conn1 ≤ replaced_monogram.conn1 then 0 else 1)
      if n0 < n1 then do
        let md ← monogram_count_incr md { label := new_edge.label, conn0 := n0, conn1 := n1 }
        pure (md, it)
      else pure (md, it)
    else pure (md, it)
  else pure (monogram_dict, it)

/-- The `while(hashmap_iter_next(&it, &item))` loop of `update_monogram_dict`;
the map changes while it is iterated. -/
def update_monogram_loop (old_edge new_edge : HEdge) (replaced_monogram : Monogram) :
    Nat → Hashmap Monogram Nat → HashmapIterator Monogram → Except Err (Hashmap Monogram Nat)
  | 0, _, _ => .error .fuel
  | fuel + 1, md, it => do
    match ← hashmap_iter_next_node md it with
    | none => pure md
    | some (item, it) => do
      let (md, it) ← update_monogram_item old_edge new_edge replaced_monogram md it item
      update_monogram_loop old_edge new_edge replaced_monogram fuel md it

def update_monogram_dict (fuel : Nat) (old_edge new_edge : HEdge)
    (monogram_dict : Hashmap Monogram Nat) (replaced_monogram : Monogram) :
    Except Err (Hashmap Monogram Nat) :=
  if old_edge.label = new_edge.label then .error .assertion
  else
    update_monogram_loop old_edge new_edge replaced_monogram fuel monogram_dict
      (hashmap_iter monogram_dict)

/-- The state of the loops of `repair_replace_monograms`. -/
structure MonoState where
  g : SLHRGrammar
  monogram_count : Hashmap Monogram Nat
deriving DecidableEq, Repr

/-- The inner `while` of `repair_replace_monograms`: all occurrences of one
monogram; the flag is `add_rule`. -/
def replace_mono_occurrences (fuel0 : Nat) (m : Monogram) (new_rule : MonoRuleCreator) :
    Nat → Nat → Bool → MonoState → Except Err (MonoState × Bool)
  | 0, _, _, _ => .error .fuel
  | fuel + 1, state, add_rule, st => do
    let start_rule := st.g.start_symbol
    match ← find_occurrence_of_monogram m start_rule (hgraph_len start_rule) state with
    | none => pure (st, add_rule)
    | some index => do
      let old_edge ← hgraph_edge_deref start_rule index
      let new_edge ← rule_creator_monogram_new_edge new_rule old_edge
      let start_rule ← hgraph_edge_set start_rule index (some new_edge)
      let mc ← update_monogram_dict fuel0 old_edge new_edge st.monogram_count m
      replace_mono_occurrences fuel0 m new_rule fuel (index + 1) true
        { g := { st.g with start_symbol := start_rule }, monogram_count := mc }

/-- The outer `while` of `repair_replace_monograms`. -/
def replace_monograms_loop (fuel0 : Nat) : Nat → MonoState → Except Err MonoState
  | 0, _ => .error .fuel
  | fuel + 1, st => do
    match ← repair_monogram_to_replace st.g st.monogram_count with
    | none => pure st
    | some m => do
      let new_rule ← rule_creator_monogram_init st.g m
      let (st, add_rule) ← replace_mono_occurrences fuel0 m new_rule
        (hgraph_len st.g.start_symbol + 1) 0 false st
      let g ← if add_rule then slhr_grammar_rule_add st.g new_rule.rule_name new_rule.rule
        else pure st.g
      replace_monograms_loop fuel0 fuel
        { g := g, monogram_count := (hashmap_remove st.monogram_count m).1 }

def repair_replace_monograms (fuel : Nat) (g : SLHRGrammar) : Except Err SLHRGrammar := do
  let monogram_count ← repair_count_monograms g.start_symbol
  let st ← replace_monograms_loop fuel fuel { g := g, monogram_count := monogram_count }
  pure st.g

/-! ## repair.c: pruning, normalizing, the driver -/

/-- Counting the label of one edge in `repair_count_rules`. -/
def rule_count_incr (rule_dict : Hashmap Nat Nat) (label : Nat) : Except Err (Hashmap Nat Nat) :=
  match hashmap_get rule_dict label with
  | some count => pure (hashmap_set_val rule_dict label (count + 1))
  | none => do
    let r ← hashmap_put rule_dict label 1
    pure r.1

def repair_count_rules (grammar : SLHRGrammar) : Except Err (Hashmap Nat Nat) := do
  let rule_dict ← (slhr_grammar_symbols grammar).foldlM
    (fun rd i => do
      let rule ← slhr_grammar_rule_get grammar i
      (List.range (hgraph_len rule)).foldlM
        (fun rd j => do
          let edge ← hgraph_edge_deref rule j
          rule_count_incr rd edge.label)
        rd)
    (hashmap_init : Hashmap Nat Nat)
  pure ((hashmap_items rule_dict).foldl
    (fun rd item =>
      if slhr_grammar_is_terminal grammar item.key then (hashmap_remove_node rd item.key false).1 else rd)
    rule_dict)

/-- The conversion of a `size_t` value to `int`: the low 32 bits, read as a
signed value. -/
def int_of_size_t (x : Nat) : Int := Int.bmod (x : Int) 4294967296

/-- The function `should_continue_inserting_rules`.  `used_size` and
`rule_size` are of type `int`: the sum `rank + 1` is undefined above
`INT_MAX`, and the `size_t` result of `slhr_grammar_size_of_rule` is narrowed
to `int`.  `count` is a `uint64_t`, so both are converted to `uint64_t` and
the comparison is one of `uint64_t` values. -/
def should_continue_inserting_rules (grammar : SLHRGrammar) (rule_name_to_insert : Nat)
    (count : Int) : Except Err Bool := do
  let rank ← slhr_grammar_rank_of_rule grammar rule_name_to_insert
  if rank + 1 > 2147483647 then .error .undefined
  else
    let used_size : Int := rank + 1
    let rule_size : Int := int_of_size_t (← slhr_grammar_size_of_rule grammar rule_name_to_insert)
    pure (decide (u64 (count * used_size + rule_size) > u64 (count * rule_size)))

/-- The selection loop of `repair_rule_to_insert`: the last entry with the
smallest count. -/
def repair_rule_min (items : List (HashmapNode Nat Nat)) : Option (Nat × Nat) :=
  items.foldl
    (fun res item =>
      match res with
      | none => some (item.key, item.val)
      | some (_, res_count) => if item.val ≤ res_count then some (item.key, item.val) else res)
    none

def repair_rule_to_insert (g : SLHRGrammar) (rule_dict : Hashmap Nat Nat) :
    Except Err (Option Nat) :=
  match repair_rule_min (hashmap_items rule_dict) with
  | none => pure none
  | some (res, res_count) => do
    if ← should_continue_inserting_rules g res res_count then pure (some res) else pure none

/-- The loop `for(index = 0; index < hgraph_len(rule); index++)` of
`repair_prune` over one rule; the second component counts the replacements. -/
def prune_rule_edges (rule_name_to_insert : Nat) (rule_to_insert : HGraph) :
    Nat → Nat → HGraph × Nat → Except Err (HGraph × Nat)
  | 0, _, _ => .error .fuel
  | fuel + 1, index, (rule, count) =>
    if index < hgraph_len rule then do
      let edge ← hgraph_edge_deref rule index
      if edge.label = rule_name_to_insert then do
        let rule ← rule_inserter_edges_for_hyperedge rule_to_insert rule edge index
        prune_rule_edges rule_name_to_insert rule_to_insert fuel (index + 1) (rule, count + 1)
      else prune_rule_edges rule_name_to_insert rule_to_insert fuel (index + 1) (rule, count)
    else pure (rule, count)

/-- Writing a changed rule body back into the grammar. -/
def slhr_grammar_rule_store (g : SLHRGrammar) (symbol : Nat) (rule : HGraph) : SLHRGrammar :=
  if symbol = START_SYMBOL then { g with start_symbol := rule }
  else { g with rules := g.rules.set (symbol - g.min_nt) (some rule) }

def repair_update_rule_dict (rule_dict : Hashmap Nat Nat) (rule_to_insert : HGraph)
    (count_real_replacements : Nat) (grammar : SLHRGrammar) : Except Err (Hashmap Nat Nat) :=
  (List.range (hgraph_len rule_to_insert)).foldlM
    (fun rd i => do
      let edge ← hgraph_edge_deref rule_to_insert i
      if !slhr_grammar_is_terminal grammar edge.label then
        match hashmap_get rd edge.label with
        | some count =>
          pure (hashmap_set_val rd edge.label
            ((count + count_real_replacements + SIZE_MAX) % (SIZE_MAX + 1)))
        | none => .error .undefined
      else pure rd)
    rule_dict

/-- The `while` of `repair_prune`. -/
def prune_loop (fuel0 : Nat) : Nat → SLHRGrammar × Hashmap Nat Nat → Except Err SLHRGrammar
  | 0, _ => .error .fuel
  | fuel + 1, (g, rule_dict) => do
    match ← repair_rule_to_insert g rule_dict with
    | none => pure g
    | some name => do
      let rule_to_insert ← slhr_grammar_rule_get g name
      let (g, count) ← (slhr_grammar_symbols g).foldlM
        (fun (st : SLHRGrammar × Nat) i => do
          let rule ← slhr_grammar_rule_get st.1 i
          let (rule, count) ← prune_rule_edges name rule_to_insert fuel0 0 (rule, st.2)
          pure (slhr_grammar_rule_store st.1 i rule, count))
        (g, 0)
      let rule_dict ← repair_update_rule_dict rule_dict rule_to_insert count g
      let rule_dict := (hashmap_remove rule_dict name).1
      let g ← slhr_grammar_rule_del g name
      prune_loop fuel0 fuel (g, rule_dict)

def repair_prune (fuel : Nat) (g : SLHRGrammar) : Except Err SLHRGrammar := do
  let rule_dict ← repair_count_rules g
  prune_loop fuel fuel (g, rule_dict)

/-- The relabelling loop of `repair_normalize` over one rule body. -/
def normalize_relabel (nt expected_nt : Nat) (graph : HGraph) : Except Err HGraph :=
  (List.range (hgraph_len graph)).foldlM
    (fun gr j => do
      let edge ← hgraph_edge_deref gr j
      if edge.label = nt then hgraph_edge_set gr j (some { edge with label := expected_nt })
      else pure gr)
    graph

/-- Body of the `for` of `repair_normalize` for the `k`-th enumerated symbol. -/
def normalize_step (min_nt : Nat) (nts : List Nat) (g : SLHRGrammar) (k : Nat) :
    Except Err SLHRGrammar := do
  let nt ← arr_get nts k
  let expected_nt := min_nt + k - 1
  if nt ≠ expected_nt then
    let index_nt := nt - min_nt
    let index_expected := expected_nt - min_nt
    let moved ← arr_get g.rules index_nt
    if g.rules.length ≤ index_expected then .error .undefined
    else
      let g := { g with rules := (g.rules.set index_expected moved).set index_nt none }
      (slhr_grammar_symbols g).foldlM
        (fun g i => do
          let graph ← slhr_grammar_rule_get g i
          let graph ← normalize_relabel nt expected_nt graph
          pure (slhr_grammar_rule_store g i graph))
        g
  else pure g

def repair_normalize (g : SLHRGrammar) : Except Err SLHRGrammar :=
  if g.rule_max = 0 then pure g
  else
    let min_nt := g.min_nt
    let nts := slhr_grammar_symbols g
    let count := nts.length
    if count = 1 then pure g
    else do
      let g ← (List.range (count - 1)).foldlM (fun g k => normalize_step min_nt nts g (k + 1)) g
      pure { g with rule_max := min_nt + count - 2 }

/-- The function `repair`; `fuel` bounds each of the `while` loops of the
embedding. -/
def repair (fuel : Nat) (g : HGraph) (nodes terminals : Nat) (max_rank : Int)
    (replace_monograms : Bool) : Except Err SLHRGrammar := do
  let gr := slhr_grammar_init g terminals
  let gr ← if max_rank > 2 then repair_replace_digrams fuel gr nodes max_rank else pure gr
  let gr ← if replace_monograms then repair_replace_monograms fuel gr else pure gr
  let gr ← repair_prune fuel gr
  repair_normalize gr

/-! ## Reader side: the succinct structures by their contents

The bit-level encodings (Elias-Fano lists, k2-trees) are represented by the
data they encode; the access functions keep the bounds checks and panics of
the C functions. -/

/-- Modelled from the spec: `cgraph.h` is not among the sources; the spec gives
the wildcard as the out-of-range signed id `-1`. -/
def CGRAPH_LABELS_ALL : Int := -1

/-- Modelled from the spec: `cgraph.h` is not among the sources; the spec gives
the wildcard as the out-of-range signed id `-1`. -/
def CGRAPH_NODES_ALL : Int := -1

def RANK_MAX : Nat := 128
def MAX_RULE_SIZE : Nat := 64

/-- An Elias-Fano list, by the sequence it encodes. -/
abbrev EliasFanoReader := List Nat

def eliasfano_get (e : EliasFanoReader) (i : Nat) : Except Err Nat :=
  match e.get? i with
  | some v => .ok v
  | none => .error .panic

/-- The `while(left <= right)` loop shared by the two binary searches; the
result is `(found, left)`. -/
def eliasfano_search_loop (k : EliasFanoReader) (to_search : Nat) :
    Nat → Nat → Nat → Except Err (Option Nat × Nat)
  | 0, _, _ => .error .fuel
  | fuel + 1, left, right =>
    if left ≤ right then do
      let mid := left + (right - left) / 2
      let l ← eliasfano_get k mid
      if l = to_search then
        let first ← if mid = 0 then pure true else do
          let p ← eliasfano_get k (mid - 1)
          pure (decide (p < l))
        if first then pure (some mid, left)
        else eliasfano_search_loop k to_search fuel left (u64 (mid - 1))
      else if l > to_search then eliasfano_search_loop k to_search fuel left (u64 ((mid : Int) - 1))
      else eliasfano_search_loop k to_search fuel (u64 (mid + 1)) right
    else pure (none, left)

def eliasfano_binary_search_lowest (k : EliasFanoReader) (to_search left right : Nat) :
    Except Err Nat := do
  if (← eliasfano_get k 0) > to_search then pure U64_MINUS_ONE
  else
    match ← eliasfano_search_loop k to_search 130 left right with
    | (some mid, _) => pure mid
    | (none, _) => pure U64_MINUS_ONE

def eliasfano_binary_search_lowest_or_next_label (k : EliasFanoReader)
    (to_search left right : Nat) : Except Err Nat := do
  if (← eliasfano_get k 0) > to_search then pure U64_MINUS_ONE
  else
    match ← eliasfano_search_loop k to_search 130 left right with
    | (some mid, _) => pure mid
    | (none, left) => pure (if left ≥ k.length then U64_MINUS_ONE else left)

structure EliasFanoIterator where
  k : EliasFanoReader
  edge_id : Nat
  label : Nat
  first_nt : Nat
  has_next : Bool
deriving DecidableEq, Repr

def eliasfano_iter (k : EliasFanoReader) (label first_nt : Nat) :
    Except Err EliasFanoIterator := do
  let it : EliasFanoIterator :=
    { k := k, edge_id := 0, label := label, first_nt := first_nt, has_next := true }
  if label = (← eliasfano_get k 0) then pure it
  else
    let edge_id ← eliasfano_binary_search_lowest k label 0 (u64 ((k.length : Int) - 1))
    if edge_id = U64_MINUS_ONE then
      let edge_id ← eliasfano_binary_search_lowest_or_next_label k first_nt 0
        (u64 ((k.length : Int) - 1))
      pure { it with edge_id := edge_id, has_next := decide (edge_id ≠ U64_MINUS_ONE) }
    else pure { it with edge_id := edge_id }

/-- The function `eliasfano_iter_next_element`: return value, `*v`, new state. -/
def eliasfano_iter_next_element (it : EliasFanoIterator) :
    Except Err (Int × Nat × EliasFanoIterator) :=
  if !it.has_next then pure (0, 0, it)
  else if it.edge_id ≥ it.k.length then pure (0, 0, { it with has_next := false })
  else do
    let l ← eliasfano_get it.k it.edge_id
    if l ≠ it.label ∧ l < it.first_nt then
      let edge_id ← eliasfano_binary_search_lowest_or_next_label it.k it.first_nt it.edge_id
        (u64 ((it.k.length : Int) - 1))
      if edge_id = U64_MINUS_ONE then pure (0, 0, { it with edge_id := edge_id, has_next := false })
      else pure (1, edge_id, { it with edge_id := u64 (edge_id + 1) })
    else if l = it.label ∨ l ≥ it.first_nt then
      pure (1, it.edge_id, { it with edge_id := u64 (it.edge_id + 1) })
    else pure (0, 0, { it with has_next := false })

def eliasfano_iter_next (it : EliasFanoIterator) : Except Err (Int × Nat × EliasFanoIterator) :=
  if !it.has_next then pure (-1, 0, it)
  else do
    let (res, n, it) ← eliasfano_iter_next_element it
    pure (res, n, if res ≠ 1 then { it with has_next := false } else it)

/-- A k2-tree, by the matrix it encodes: `cells` are the set positions
`(row, column)`, `n` is the padded side length. -/
structure K2Reader where
  width : Nat
  height : Nat
  n : Nat
  cells : List (Nat × Nat)
deriving DecidableEq, Repr

def k2_get (k : K2Reader) (r c : Nat) : Bool :=
  if r ≥ k.height ∨ c ≥ k.width then false
  else if k.cells.isEmpty then false
  else k.cells.contains (r, c)

/-- The function `k2_column`: the rows set in column `q`, ascending; `none` is
the NULL result. -/
def k2_column (k : K2Reader) (q : Nat) : Option (List Nat) :=
  if q ≥ k.width then none
  else if k.cells.isEmpty then none
  else
    match (List.range k.height).filter (fun p => k.cells.contains (p, q)) with
    | [] => none
    | l => some l

/-- The state of a row iteration: the columns still to be returned.  `wild`
marks a row index outside the padded matrix, for which the walk reads tree
positions that do not belong to the row. -/
structure K2Iterator where
  has_next : Bool
  pending : List Nat
  wild : Bool
deriving DecidableEq, Repr

def k2_iter_init_row (k : K2Reader) (p : Int) : K2Iterator :=
  if k.cells.isEmpty then { has_next := false, pending := [], wild := false }
  else if p < 0 ∨ p ≥ k.n then { has_next := true, pending := [], wild := true }
  else
    { has_next := true
      pending := (List.range k.width).filter (fun q => k.cells.contains (p.toNat, q))
      wild := false }

def k2_iter_next (it : K2Iterator) : Except Err (Int × Nat × K2Iterator) :=
  if !it.has_next then pure (-1, 0, it)
  else if it.wild then .error .undefined
  else
    match it.pending with
    | q :: rest => pure (1, q, { it with pending := rest })
    | [] => pure (0, 0, { it with has_next := false })

/-! ## edge.h, rules.c, startsymbol.c, grammar.c, cgraphr.c -/

/-- The struct `StEdge` (also used for the edges `CGraphEdge` handed to the
caller). -/
structure StEdge where
  label : Nat
  rank : Nat
  nodes : List Nat
deriving DecidableEq, Repr

structure RulesReader where
  first_nt : Nat
  rules : List (List StEdge)
deriving DecidableEq, Repr

def rules_get (r : RulesReader) (nt : Nat) : Except Err (List StEdge) :=
  match r.rules.get? (u64 ((nt : Int) - r.first_nt)) with
  | none => .error .panic
  | some rule => if rule.length > MAX_RULE_SIZE then .error .panic else .ok rule

structure StartSymbolReader where
  matrix : K2Reader
  labels : EliasFanoReader
  edge_ifs : List Nat
  ifs : List (List Nat)
  nt_table : Option K2Reader
  terminals : Nat
deriving DecidableEq, Repr

structure GrammarReader where
  node_count : Nat
  start : StartSymbolReader
  rules : RulesReader
  nt_table : Option K2Reader
deriving DecidableEq, Repr

/-- The iterator state of `startsymbol_neighborhood`: `nodes` are the first
`rank` slots of the array `n->nodes`, the collected query nodes. -/
structure StartSymbolNeighborhood where
  s : StartSymbolReader
  rank : Int
  label : Int
  nodes : List Int
  predicate_query : Bool
  it : K2Iterator
  efit : EliasFanoIterator
deriving DecidableEq, Repr

/-- The second loop nest of `startsymbol_neighborhood`: a later duplicate of a
collected node becomes a wildcard. -/
def neighborhood_dedup (nodes : List Int) : List Int :=
  (List.range nodes.length).foldl
    (fun arr i =>
      let x := arr.getD i CGRAPH_NODES_ALL
      if x ≠ CGRAPH_NODES_ALL then
        arr.enum.map (fun jy => if i < jy.1 ∧ jy.2 = x then CGRAPH_NODES_ALL else jy.2)
      else arr)
    nodes

/-- The function `startsymbol_neighborhood`.  `nodes = none` is the NULL
pointer; `uninit` is what the slot `n->nodes[0]` of the caller's struct held
before the call. -/
def startsymbol_neighborhood (s : StartSymbolReader) (predicate_query : Bool) (rank label : Int)
    (nodes : Option (List Int)) (uninit : Int) : Except Err StartSymbolNeighborhood := do
  let (nrank, nnodes) ←
    match nodes with
    | some ns => do
      let picked ← (List.range rank.toNat).foldlM
        (fun acc i => do
          let v ← arr_get ns i
          pure (if v ≠ CGRAPH_NODES_ALL then acc ++ [v] else acc))
        ([] : List Int)
      pure ((picked.length : Int), neighborhood_dedup picked)
    | none => pure (CGRAPH_NODES_ALL, [])
  let noIt : K2Iterator := { has_next := false, pending := [], wild := false }
  let noEf : EliasFanoIterator :=
    { k := s.labels, edge_id := 0, label := 0, first_nt := 0, has_next := false }
  if predicate_query then
    let efit ← eliasfano_iter s.labels label.toNat (s.terminals + 1)
    pure { s := s, rank := nrank, label := label, nodes := nnodes,
           predicate_query := predicate_query, it := noIt, efit := efit }
  else
    let slot0 := nnodes.headD uninit
    pure { s := s, rank := nrank, label := label, nodes := nnodes,
           predicate_query := predicate_query, it := k2_iter_init_row s.matrix slot0,
           efit := noEf }

def if_get (s : StartSymbolReader) (i : Nat) : Except Err (List Nat) :=
  match s.ifs.get? i with
  | none => .error .panic
  | some f => if f.length > RANK_MAX then .error .panic else .ok f

/-- The function `get_edge`: `none` for the return value 0. -/
def get_edge (n : StartSymbolNeighborhood) (e : Nat) : Except Err (Option StEdge) := do
  let s := n.s
  let label ← eliasfano_get s.labels e
  let wanted :=
    if n.label ≠ CGRAPH_LABELS_ALL then
      if label < s.terminals then decide ((label : Int) = n.label)
      else
        match s.nt_table with
        | some nt_table => k2_get nt_table (label - s.terminals) n.label.toNat
        | none => true
    else true
  if !wanted then pure none
  else if (n.nodes.take n.rank.toNat).any
      (fun v => v ≠ CGRAPH_NODES_ALL && !(v ≥ 0 && k2_get s.matrix v.toNat e)) then pure none
  else
    match k2_column s.matrix e with
    | none => .error .failed
    | some nodes => do
      let ix ← arr_get s.edge_ifs e
      let indx ← if_get s ix
      let nodes_order ← indx.mapM (fun j => arr_get nodes j)
      pure (some { label := label, rank := indx.length, nodes := nodes_order })

/-- The function `startsymbol_neighborhood_next`: the next candidate edge of
the start symbol, `none` when the iteration is over. -/
def startsymbol_neighborhood_next :
    Nat → StartSymbolNeighborhood → Except Err (Option StEdge × StartSymbolNeighborhood)
  | 0, _ => .error .fuel
  | fuel + 1, n => do
    let (res, neigh, n) ←
      if n.predicate_query then do
        let (res, v, efit) ← eliasfano_iter_next n.efit
        pure (res, v, { n with efit := efit })
      else do
        let (res, v, it) ← k2_iter_next n.it
        pure (res, v, { n with it := it })
    if res = 0 then pure (none, n)
    else if res = 1 then
      match ← get_edge n neigh with
      | none => startsymbol_neighborhood_next fuel n
      | some edge => pure (some edge, n)
    else .error .undefined

structure GrammarNeighborhood where
  has_next : Bool
  rank : Int
  label : Int
  nodes : Option (List Int)
  g : GrammarReader
  start : Option StartSymbolNeighborhood
  queue : List StEdge
deriving DecidableEq, Repr

/-- The function `grammar_neighborhood`; when the label is no terminal only
`has_next` is written (`start = none`). -/
def grammar_neighborhood (g : GrammarReader) (predicate_query : Bool) (rank label : Int)
    (nodes : Option (List Int)) (uninit : Int) : Except Err GrammarNeighborhood :=
  if label ≠ CGRAPH_LABELS_ALL ∧ label ≥ g.rules.first_nt then
    pure { has_next := false, rank := rank, label := label, nodes := nodes, g := g,
           start := none, queue := [] }
  else do
    let start ← startsymbol_neighborhood
      { g.start with nt_table := g.nt_table, terminals := g.rules.first_nt }
      predicate_query rank label nodes uninit
    pure { has_next := true, rank := rank, label := label, nodes := nodes, g := g,
           start := some start, queue := [] }

def hedge_contains (e : StEdge) (n : Int) : Bool :=
  (e.nodes.take e.rank).any (fun v => (v : Int) = n)

/-- The test loops of `decompress` over the query nodes: `pos` compares the
node at the same position, otherwise membership is tested. -/
def query_nodes_match (nb : GrammarNeighborhood) (e : StEdge) (pos : Bool) : Except Err Bool :=
  (List.range nb.rank.toNat).foldlM
    (fun ok i =>
      if !ok then pure false
      else
        match nb.nodes with
        | none => .error .undefined
        | some ns => do
          let q ← arr_get ns i
          if q = CGRAPH_NODES_ALL then pure true
          else if pos then do
            let v ← arr_get e.nodes i
            pure (decide ((v : Int) = q))
          else pure (hedge_contains e q))
    true

/-- The function `decompress`: `(1, some edge, queue)` when the terminal edge
`e` is a result, `(0, none, queue')` otherwise, where a non-terminal `e` has
put the edges of its rule body at the back of the queue. -/
def decompress (nb : GrammarNeighborhood) (e : StEdge) (queue : List StEdge) :
    Except Err (Int × Option StEdge × List StEdge) := do
  let first_nt := nb.g.rules.first_nt
  if e.label < first_nt then
    if nb.label ≠ CGRAPH_LABELS_ALL ∧ (e.label : Int) ≠ nb.label then pure (0, none, queue)
    else if nb.rank ≠ CGRAPH_NODES_ALL ∧ nb.rank ≠ e.rank then pure (0, none, queue)
    else if !(← query_nodes_match nb e true) then pure (0, none, queue)
    else pure (1, some e, queue)
  else
    let reachable :=
      match nb.g.nt_table with
      | some nt_table =>
        if nb.label ≠ CGRAPH_LABELS_ALL then k2_get nt_table (e.label - first_nt) nb.label.toNat
        else true
      | none => true
    if !reachable then pure (0, none, queue)
    else if !(← query_nodes_match nb e false) then pure (0, none, queue)
    else do
      let rule ← rules_get nb.g.rules e.label
      let news ← rule.mapM (fun ei => do
        let nodes ← (List.range ei.rank).mapM (fun j => do
          let k ← arr_get ei.nodes j
          arr_get e.nodes k)
        pure ({ label := ei.label, rank := ei.rank, nodes := nodes } : StEdge))
      pure (0, none, queue ++ news)

/-- The function `grammar_neighborhood_next`: `none` when it returns 0. -/
def grammar_neighborhood_next :
    Nat → GrammarNeighborhood → Except Err (Option StEdge × GrammarNeighborhood)
  | 0, _ => .error .fuel
  | fuel + 1, nb =>
    if !nb.has_next then pure (none, nb)
    else
      match nb.queue with
      | [] =>
        match nb.start with
        | none => .error .undefined
        | some start => do
          match ← startsymbol_neighborhood_next fuel start with
          | (none, start) => pure (none, { nb with start := some start, has_next := false })
          | (some e, start) =>
            grammar_neighborhood_next fuel { nb with start := some start, queue := [e] }
      | edge :: rest => do
        match ← decompress nb edge rest with
        | (_, some res, queue) => pure (some res, { nb with queue := queue })
        | (_, none, queue) => grammar_neighborhood_next fuel { nb with queue := queue }

/-- Calling `cgraphr_edges_next` until it returns false: the edges the iterator
yields, in order. -/
def cgraphr_edges_all : Nat → Nat → GrammarNeighborhood → Except Err (List StEdge)
  | 0, _, _ => .error .fuel
  | n + 1, fuel, nb => do
    match ← grammar_neighborhood_next fuel nb with
    | (none, _) => pure []
    | (some e, nb) => do
      let rest ← cgraphr_edges_all n fuel nb
      pure (e :: rest)

/-- The function `cgraphr_edges`: `none` is the NULL iterator.  `uninit` is the
content of the freshly allocated iterator at `start.nodes[0]`. -/
def cgraphr_edges (g : GrammarReader) (rank label : Int) (nodes : List Int) (uninit : Int) :
    Except Err (Option GrammarNeighborhood) := do
  let valid ← (List.range rank.toNat).foldlM
    (fun ok i => do
      let v ← arr_get nodes i
      pure (ok && !(v ≠ CGRAPH_NODES_ALL && (v < 0 || v ≥ g.node_count))))
    true
  if !valid then pure none
  else do
    let nb ← grammar_neighborhood g false rank label (some nodes) uninit
    pure (some nb)

/-- The function `cgraphr_edges_by_predicate`: `none` is the NULL iterator. -/
def cgraphr_edges_by_predicate (g : GrammarReader) (label : Int) :
    Except Err (Option GrammarNeighborhood) :=
  if label < 0 ∨ label ≥ g.rules.first_nt then pure none
  else do
    let nb ← grammar_neighborhood g true CGRAPH_LABELS_ALL label none 0
    pure (some nb)

/-! ## slhr_grammar_writer.c: what is written, and what the reader gets back

The writer is followed up to the data it hands to the encoders (`k2_write`,
`eliasfano_write`, the bit writers); the reader structures above hold exactly
that data. -/

def hedge_cmp (e1 e2 : HEdge) : Int :=
  if e1.label ≠ e2.label then (if e1.label > e2.label then 1 else -1)
  else
    let min_rank := min e1.rank e2.rank
    match (List.range min_rank).find?
        (fun i => e1.nodes.getD i 0 ≠ e2.nodes.getD i 0) with
    | some i => if e1.nodes.getD i 0 > e2.nodes.getD i 0 then 1 else -1
    | none => if e1.rank > e2.rank then 1 else if e1.rank < e2.rank then -1 else 0

/-- Insertion into a list sorted by a three-way comparison. -/
def sorted_insert {α : Type} (cmp : α → α → Int) (x : α) : List α → List α
  | [] => [x]
  | y :: rest => if cmp x y ≤ 0 then x :: y :: rest else y :: sorted_insert cmp x rest

/-- The result of `qsort` with the comparison `cmp` (elements that compare
equal are interchangeable for the comparisons used here). -/
def sort_by {α : Type} (cmp : α → α → Int) (l : List α) : List α :=
  l.foldr (sorted_insert cmp) []

/-- Insertion into a `Treeset`: no second element that compares equal. -/
def treeset_add {α : Type} (cmp : α → α → Int) (x : α) : List α → List α
  | [] => [x]
  | y :: rest =>
    if cmp x y < 0 then x :: y :: rest
    else if cmp x y = 0 then y :: rest
    else y :: treeset_add cmp x rest

def treeset_index_of {α : Type} (cmp : α → α → Int) (s : List α) (x : α) : Except Err Nat :=
  match s.findIdx? (fun y => cmp x y == 0) with
  | some i => .ok i
  | none => .error .assertion

def cmp_index_function_cb (i1 i2 : List Nat) : Int :=
  let min_rank := min i1.length i2.length
  match (List.range min_rank).find? (fun i => i1.getD i 0 ≠ i2.getD i 0) with
  | some i => if i1.getD i 0 > i2.getD i 0 then 1 else -1
  | none => cmp_uint_cb i1.length i2.length

/-- The function `index_function`: position of each node in the sorted set of
the nodes of the edge. -/
def index_function (nodes : List Nat) (rank : Nat) : Except Err (List Nat) := do
  let used ← (List.range rank).mapM (fun i => arr_get nodes i)
  let nodes_sorted := used.foldl (fun s v => treeset_add cmp_uint_cb v s) []
  used.mapM (fun v => treeset_index_of cmp_uint_cb nodes_sorted v)

/-- The macro `BIT_LEN`. -/
def BIT_LEN (n : Nat) : Nat := if n = 0 then 0 else Nat.log2 n + 1

def NEXT_POW2 (n : Nat) : Nat := if n = 0 then 1 else 2 ^ BIT_LEN (n - 1)

/-- The matrix a `k2_write(width, height, edges, ...)` call encodes, as the
reader sees it. -/
def k2_of_edges (width height : Nat) (edges : List K2Edge) : K2Reader :=
  { width := width, height := height, n := NEXT_POW2 (max (max width height) 2)
    cells := edges.map (fun e => (e.yval, e.xval)) }

/-- The function `startsymbol_data` followed by the encoders and
`startsymbol_init`: the reader's view of the written start symbol. -/
def startsymbol_written (g : HGraph) (node_count : Nat) : Except Err StartSymbolReader := do
  let edges0 ← (List.range (hgraph_len g)).mapM (fun i => hgraph_edge_deref g i)
  let edges := sort_by hedge_cmp edges0
  let edge_ifs ← edges.mapM (fun e => index_function e.nodes e.rank)
  let ifs := edge_ifs.foldl (fun s f => treeset_add cmp_index_function_cb f s) []
  let indxf_table ← edge_ifs.mapM (fun f => treeset_index_of cmp_index_function_cb ifs f)
  let edge_list : List K2Edge := edges.enum.flatMap (fun ie =>
    (ie.2.nodes.take ie.2.rank).map (fun v => ({ xval := ie.1, yval := v } : K2Edge)))
  pure { matrix := k2_of_edges edges.length node_count edge_list
         labels := edges.map (fun e => e.label)
         edge_ifs := indxf_table
         ifs := ifs
         nt_table := none
         terminals := 0 }

/-- The function `slhr_grammar_write_rules` followed by `rules_init`. -/
def rules_written (g : SLHRGrammar) : Except Err RulesReader := do
  let rules ← (List.range (nt_count g)).mapM (fun i => do
    let rule ← slhr_grammar_rule_get g (g.min_nt + i)
    (List.range (hgraph_len rule)).mapM (fun j => do
      let e ← hgraph_edge_deref rule j
      pure ({ label := e.label, rank := e.rank, nodes := e.nodes.take e.rank } : StEdge)))
  pure { first_nt := if nt_count g > 0 then g.min_nt else slhr_grammar_unused_nt g
         rules := rules }

/-- The function `slhr_grammar_write` followed by `grammar_init`: the reader
opened on the written grammar. -/
def grammar_written (g : SLHRGrammar) (node_count terminals : Nat) (nt_table : Bool) :
    Except Err GrammarReader := do
  let start ← startsymbol_written g.start_symbol node_count
  let rules ← rules_written g
  let table ←
    if nt_table then do
      let (w, h, es) ← slhr_grammar_write_nt_table g terminals
      pure (some (k2_of_edges w h es))
    else pure none
  pure { node_count := node_count
         start := { start with nt_table := table, terminals := rules.first_nt }
         rules := rules
         nt_table := table }

/-- The full expansion of a list of edges of the grammar: every non-terminal
edge is replaced by its rule body, body node `k` bound to the `k`-th node of
the edge, until only terminal edges are left (`decompress` without a query
filter).  Specification side. -/
def expand_edges (first_nt : Nat) (rules : List (List StEdge)) :
    Nat → List StEdge → Except Err (List StEdge)
  | 0, _ => .error .fuel
  | fuel + 1, edges =>
    edges.foldlM
      (fun acc e =>
        if e.label < first_nt then pure (acc ++ [e])
        else
          match rules.get? (e.label - first_nt) with
          | none => .error .panic
          | some rule => do
            let body ← rule.mapM (fun ei => do
              let nodes ← (List.range ei.rank).mapM (fun j => do
                let k ← arr_get ei.nodes j
                arr_get e.nodes k)
              pure ({ label := ei.label, rank := ei.rank, nodes := nodes } : StEdge))
            let sub ← expand_edges first_nt rules fuel body
            pure (acc ++ sub))
      []

/-- The edges of a hypergraph as `(label, rank, nodes)` records. -/
def hgraph_stedges (g : HGraph) : List StEdge :=
  g.edges.filterMap (fun oe => oe.map (fun e => { label := e.label, rank := e.rank, nodes := e.nodes }))

/-- The decompressed graph of a grammar returned by `repair`. -/
def grammar_expand (fuel : Nat) (g : SLHRGrammar) : Except Err (List StEdge) := do
  let rules ← rules_written g
  expand_edges rules.first_nt rules.rules fuel (hgraph_stedges g.start_symbol)

/-! ## bitsequence_r.c, wavelettree.c by contents -/

/-- A bit sequence with rank/select support, by its bits. -/
abbrev BitsequenceReader := List Bool

def bitsequence_reader_len (b : BitsequenceReader) : Nat := b.length

def bitsequence_reader_ones (b : BitsequenceReader) : Nat := b.count true

def bitsequence_reader_access (b : BitsequenceReader) (i : Nat) : Except Err Bool :=
  match b.get? i with
  | some v => .ok v
  | none => .error .panic

/-- The function `bitsequence_reader_rank1` (the argument is signed). -/
def bitsequence_reader_rank1 (b : BitsequenceReader) (i : Int) : Nat :=
  if i < 0 then 0
  else if i ≥ b.length then bitsequence_reader_ones b
  else (b.take (i.toNat + 1)).count true

def bitsequence_reader_rank0 (b : BitsequenceReader) (i : Int) : Nat :=
  if i < 0 then 0 else u64 (i + 1 - bitsequence_reader_rank1 b i)

/-- Position of the `i`-th set bit (counted from 1) among the bits from `pos`. -/
def select_from (v : Bool) : List Bool → Nat → Nat → Option Nat
  | [], _, _ => none
  | x :: rest, i, pos =>
    if x = v then (if i = 1 then some pos else select_from v rest (i - 1) (pos + 1))
    else select_from v rest i (pos + 1)

def bitsequence_reader_select1 (b : BitsequenceReader) (i : Nat) : Int :=
  if i = 0 ∨ i > bitsequence_reader_ones b then -1
  else
    match select_from true b i 0 with
    | some p => p
    | none => -1

def bitsequence_reader_select0 (b : BitsequenceReader) (i : Nat) : Int :=
  if i = 0 ∨ i > b.length - bitsequence_reader_ones b then -1
  else
    match select_from false b i 0 with
    | some p => p
    | none => -1

def bitsequence_reader_selectprev1 (b : BitsequenceReader) (i : Nat) : Except Err Int := do
  if ← bitsequence_reader_access b i then pure i
  else
    let r := bitsequence_reader_rank1 b i
    if r = 0 then pure (-1) else pure (bitsequence_reader_select1 b r)

/-- A wavelet tree, by the byte string it stores. -/
abbrev WaveletTreeReader := List Nat

/-- The function `wavelet_access`: the byte at `i` and its rank.  A tree of one
leaf answers for every index; otherwise an index past the text makes the walk
read bits of other tree nodes. -/
def wavelet_access (w : WaveletTreeReader) (i : Nat) : Except Err (Nat × Nat) :=
  match w.dedup with
  | [c] => .ok (c, u64 (i + 1))
  | _ =>
    match w.get? i with
    | some c => .ok (c, (w.take (i + 1)).count c)
    | none => .error .undefined

/-- The function `wavelet_rank`; the index is a `uint64_t`, `-1` included. -/
def wavelet_rank (w : WaveletTreeReader) (c : Nat) (i : Nat) : Except Err Nat :=
  if !w.contains c then .ok 0
  else if w.dedup.length ≤ 1 then .ok 0
  else if i = U64_MINUS_ONE then .ok 0
  else if i < w.length then .ok ((w.take (i + 1)).count c)
  else .error .undefined

/-! ## dict_writer.c, fm_index_writer.c -/

/-- The comparison `map_default_cmp` on two labels stored with their
terminating 0-byte. -/
def map_default_cmp (a b : List Nat) : Int :=
  let ka := a ++ [0]
  let kb := b ++ [0]
  let len := min ka.length kb.length
  match (List.range len).find? (fun i => ka.getD i 0 ≠ kb.getD i 0) with
  | some i => if ka.getD i 0 > kb.getD i 0 then 1 else -1
  | none => cmp_uint_cb ka.length kb.length

/-- An entry of the writer's dictionary `dict_ve`: the label with the roles it
occurs in. -/
structure DictEntry where
  text : List Nat
  node : Bool
  edge : Bool
deriving DecidableEq, Repr

/-- The function `dict_put_text` on the sorted dictionary. -/
def dict_put_text (s : List Nat) (node : Bool) : List DictEntry → List DictEntry
  | [] => [{ text := s, node := node, edge := !node }]
  | e :: rest =>
    if map_default_cmp s e.text < 0 then { text := s, node := node, edge := !node } :: e :: rest
    else if map_default_cmp s e.text = 0 then
      { e with node := e.node || node, edge := e.edge || !node } :: rest
    else e :: dict_put_text s node rest

/-- The function `dict_concat_text`: `\0 label_0 \0 label_1 \0 ...`. -/
def dict_concat_text (dict : List DictEntry) : List Nat :=
  0 :: dict.flatMap (fun e => e.text ++ [0])

/-- The separator bits set by `dict_concat_text`. -/
def dict_separators (text : List Nat) : List Bool := text.map (fun c => c == 0)

/-- Three-way lexicographic comparison of two byte strings (a proper prefix is
smaller). -/
def bytes_cmp : List Nat → List Nat → Int
  | [], [] => 0
  | [], _ :: _ => -1
  | _ :: _, [] => 1
  | a :: as, b :: bs => if a < b then -1 else if a > b then 1 else bytes_cmp as bs

/-- The library routine `divsufsort64`: the suffix array of the text. -/
def divsufsort64 (bs : List Nat) : List Nat :=
  sort_by (fun i j => bytes_cmp (bs.drop i) (bs.drop j)) (List.range bs.length)

/-- The run heads of `rle_create`: the bytes that start a run. -/
def rle_heads : List Nat → List Nat
  | [] => []
  | [a] => [a]
  | a :: b :: rest => if a = b then rle_heads (b :: rest) else a :: rle_heads (b :: rest)

/-- The bits `rle_bits` of `rle_create`: set where a run starts. -/
def rle_starts (bwt : List Nat) : List Bool :=
  bwt.enum.map (fun ib => decide (ib.1 = 0) || bwt.getD (ib.1 - 1) 0 != ib.2)

/-- The run lengths of `rle_create`. -/
def rle_run_lengths : List Nat → List Nat
  | [] => []
  | a :: rest =>
    match rest, rle_run_lengths rest with
    | b :: _, l :: ls => if a = b then (l + 1) :: ls else 1 :: l :: ls
    | _, _ => [1]

/-- The bits `select_bits` of `rle_create`: the runs are ordered by byte and
position, each run sets the bit at the sum of the lengths before it; bit `n`
is set at the end. -/
def rle_select_bits (bwt : List Nat) : List Bool :=
  let heads := rle_heads bwt
  let lens := rle_run_lengths bwt
  let n := bwt.length
  let indices := sort_by
    (fun i j => if heads.getD i 0 ≠ heads.getD j 0 then cmp_uint_cb (heads.getD i 0) (heads.getD j 0)
      else cmp_uint_cb i j)
    (List.range heads.length)
  let marks := (indices.foldl
    (fun (st : List Nat × Nat) i =>
      if st.2 < n then (st.1 ++ [st.2], st.2 + lens.getD i 0) else st)
    ([], 0)).1
  (List.range (n + 1)).map (fun p => marks.contains p || p == n)

/-- The table `c` of `fm_index_data`: `len_c = max byte + 2` cumulative
counts. -/
def fm_index_c (bwt : List Nat) : Except Err (List Nat) :=
  if bwt.any (fun b => b + 1 ≥ 256) then .error .undefined
  else
    let len_c := bwt.foldl max 0 + 2
    .ok ((List.range len_c).map (fun i => (bwt.filter (fun b => b < i)).length))

structure FMIndexReader where
  n : Nat
  sampling : Bool
  with_rle : Bool
  c : EliasFanoReader
  sampled_table : List Nat
  sampled : BitsequenceReader
  rle : BitsequenceReader
  rle_select : BitsequenceReader
  bwt : WaveletTreeReader
deriving DecidableEq, Repr

/-- The functions `fm_index_data` and `fm_index_write` followed by
`fmindex_init`: the reader's view of the written index. -/
def fm_index_written (text : List Nat) (sampling : Nat) (separators : List Bool) (rle : Bool) :
    Except Err FMIndexReader := do
  let n := text.length
  if text.getLast? ≠ some 0 then .error .assertion
  else
    let sa := divsufsort64 text
    let bwt := sa.map (fun p => if p = 0 then text.getD (n - 1) 0 else text.getD (p - 1) 0)
    let bwt' := if rle then rle_heads bwt else bwt
    let c ← fm_index_c bwt'
    if bwt'.dedup.length ≤ 1 then .error .unmodelled
    else
      let sampled_sa := sa.filter (fun p => sampling > 0 ∧ p % sampling = 0)
      pure { n := n
             sampling := decide (sampling > 0)
             with_rle := rle
             c := c
             sampled_table := sampled_sa.map (fun p =>
               u64 ((bitsequence_reader_rank1 separators p : Int) - 1))
             sampled := if sampling > 0 then
                 sa.map (fun p => decide (p % sampling = 0)) ++ [true] else []
             rle := if rle then rle_starts bwt else []
             rle_select := if rle then rle_select_bits bwt else []
             bwt := bwt' }

structure DictionaryReader where
  n : Nat
  bitsnode : BitsequenceReader
  bitsedge : Option BitsequenceReader
  fmi : FMIndexReader
deriving DecidableEq, Repr

/-- The functions `cgraph_set_bitsequences` and `dict_write` followed by
`dictionary_init`: the reader's view of the written dictionary. -/
def dict_written (dict : List DictEntry) (sampling : Nat) (rle : Bool) :
    Except Err DictionaryReader := do
  let disjunct := dict.all (fun e => !(e.node && e.edge))
  let text := dict_concat_text dict
  let fmi ← fm_index_written text sampling (dict_separators text) rle
  pure { n := dict.length
         bitsnode := dict.map (fun e => e.node)
         bitsedge := if disjunct then none else some (dict.map (fun e => e.edge))
         fmi := fmi }

/-! ## fmindex.c -/

def EOF_BYTE : Nat := 0

/-- The `while(sp <= ep && i >= 1)` loop of `fmi_locate_reg`; `rest` are the
pattern bytes still to be read, last first. -/
def fmi_locate_reg_loop (f : FMIndexReader) : List Nat → Int → Int → Except Err (Int × Int)
  | [], sp, ep => pure (sp, ep)
  | c :: rest, sp, ep =>
    if sp ≤ ep then do
      let c0 ← eliasfano_get f.c c
      let r1 ← wavelet_rank f.bwt c (u64 (sp - 1))
      let r2 ← wavelet_rank f.bwt c (u64 ep)
      fmi_locate_reg_loop f rest (c0 + r1) (c0 + r2 - 1)
    else pure (sp, ep)

/-- The function `fmi_locate_reg`: `(found, sp, ep)`. -/
def fmi_locate_reg (f : FMIndexReader) (p : List Nat) : Except Err (Bool × Int × Int) :=
  match p.reverse with
  | [] => .error .undefined
  | c :: rest => do
    let sp ← eliasfano_get f.c c
    let ep1 ← eliasfano_get f.c (c + 1)
    let (sp, ep) ← fmi_locate_reg_loop f rest sp ((ep1 : Int) - 1)
    pure (decide (sp ≤ ep), sp, ep)

/-- One bound of the backward step of `fmi_locate_rle`: `x` is `sp` (with
`miss = 0`) or `ep` (with `miss = -1`). -/
def fmi_rle_step (f : FMIndexReader) (c : Nat) (c0 : Nat) (x : Int) (miss : Int) :
    Except Err Int := do
  let rank := u64 ((bitsequence_reader_rank1 f.rle x : Int) - 1)
  let (b, _) ← wavelet_access f.bwt rank
  let x' ← if b = c then do
      let prev ← bitsequence_reader_selectprev1 f.rle (u64 x)
      pure (x - prev)
    else pure miss
  let r ← wavelet_rank f.bwt c (u64 ((rank : Int) - 1))
  pure (x' + bitsequence_reader_select1 f.rle_select (u64 ((c0 : Int) + 1 + r)))

def fmi_locate_rle_loop (f : FMIndexReader) : List Nat → Int → Int → Except Err (Int × Int)
  | [], sp, ep => pure (sp, ep)
  | c :: rest, sp, ep =>
    if sp ≤ ep then do
      let c0 ← eliasfano_get f.c c
      let sp' ← fmi_rle_step f c c0 sp 0
      let ep' ← fmi_rle_step f c c0 ep (-1)
      fmi_locate_rle_loop f rest sp' ep'
    else pure (sp, ep)

def fmi_locate_rle (f : FMIndexReader) (p : List Nat) : Except Err (Bool × Int × Int) :=
  match p.reverse with
  | [] => .error .undefined
  | c :: rest => do
    let a ← eliasfano_get f.c c
    let b ← eliasfano_get f.c (c + 1)
    let sp := bitsequence_reader_select1 f.rle_select (a + 1)
    let ep := bitsequence_reader_select1 f.rle_select (b + 1) - 1
    let (sp, ep) ← fmi_locate_rle_loop f rest sp ep
    pure (decide (sp ≤ ep), sp, ep)

def fmindex_locate (f : FMIndexReader) (p : List Nat) : Except Err (Bool × Int × Int) :=
  if !f.with_rle then fmi_locate_reg f p else fmi_locate_rle f p

def fmi_sampled (f : FMIndexReader) (i : Nat) : Except Err Bool :=
  if !f.sampling then pure false else bitsequence_reader_access f.sampled i

def fmi_sampled_get (f : FMIndexReader) (i : Nat) : Except Err Nat := arr_get f.sampled_table i

/-- The `while(!fmi_sampled(f, i))` loop of `fmi_locate_match_reg`: the row it
stops at and the last byte read. -/
def fmi_locate_match_reg_loop (f : FMIndexReader) : Nat → Nat → Nat → Except Err (Nat × Nat)
  | 0, _, _ => .error .fuel
  | fuel + 1, i, c => do
    if ← fmi_sampled f i then pure (i, c)
    else
      let (c, rank) ← wavelet_access f.bwt i
      if c = EOF_BYTE then pure (i, c)
      else do
        let c0 ← eliasfano_get f.c c
        fmi_locate_match_reg_loop f fuel (u64 ((c0 : Int) + rank - 1)) c

def fmi_locate_match_reg (f : FMIndexReader) (i : Nat) : Except Err Nat := do
  let (i, c) ← fmi_locate_match_reg_loop f (f.n + 1) i 255
  if ← fmi_sampled f i then
    fmi_sampled_get f (u64 ((bitsequence_reader_rank1 f.sampled i : Int) - 1))
  else do
    let r ← wavelet_rank f.bwt c i
    pure (u64 ((r : Int) - 2))

def fmi_locate_match_rle_loop (f : FMIndexReader) : Nat → Nat → Nat → Except Err (Nat × Nat)
  | 0, _, _ => .error .fuel
  | fuel + 1, i, c => do
    if ← fmi_sampled f i then pure (i, c)
    else
      let rank := u64 ((bitsequence_reader_rank1 f.rle i : Int) - 1)
      let (c, _) ← wavelet_access f.bwt rank
      if c = EOF_BYTE then pure (i, c)
      else do
        let c0 ← eliasfano_get f.c c
        let r ← wavelet_rank f.bwt c (u64 ((rank : Int) - 1))
        let prev ← bitsequence_reader_selectprev1 f.rle i
        fmi_locate_match_rle_loop f fuel
          (u64 (bitsequence_reader_select1 f.rle_select (u64 ((c0 : Int) + 1 + r)) + i - prev)) c

def fmi_locate_match_rle (f : FMIndexReader) (i : Nat) : Except Err Nat := do
  let (i, c) ← fmi_locate_match_rle_loop f (f.n + 1) i 255
  if ← fmi_sampled f i then
    fmi_sampled_get f (u64 ((bitsequence_reader_rank1 f.sampled i : Int) - 1))
  else do
    let rank := u64 ((bitsequence_reader_rank1 f.rle i : Int) - 1)
    let c0 ← eliasfano_get f.c c
    let r ← wavelet_rank f.bwt c rank
    let first_run := bitsequence_reader_select1 f.rle_select (u64 ((c0 : Int) + 1 + r - 1))
    let prev ← bitsequence_reader_selectprev1 f.rle i
    let index : Int := i - prev
    let first_ch := bitsequence_reader_select1 f.rle_select (c0 + 1)
    pure (u64 (first_run + index + first_ch - 1))

def fmindex_locate_match (f : FMIndexReader) (i : Nat) : Except Err Nat :=
  if !f.with_rle then fmi_locate_match_reg f i else fmi_locate_match_rle f i

/-- The function `bytes_reverse`: with `len = 0` the buffer is NULL and the
loop `for(; i < j; ...)` runs with `j = b + (len - 1)` wrapped around. -/
def bytes_reverse (b : List Nat) : Except Err (List Nat) :=
  if b.length = 0 then .error .undefined else .ok b.reverse

/-- The `for(;;)` loop of `fmi_extract_reg`: the bytes in the order they are
appended. -/
def fmi_extract_reg_loop (f : FMIndexReader) : Nat → Nat → List Nat → Except Err (List Nat)
  | 0, _, _ => .error .fuel
  | fuel + 1, i, res => do
    let (c, rank) ← wavelet_access f.bwt i
    if c = EOF_BYTE then pure res
    else do
      let c0 ← eliasfano_get f.c c
      fmi_extract_reg_loop f fuel (u64 ((c0 : Int) + rank - 1)) (res ++ [c])

def fmi_extract_rle_loop (f : FMIndexReader) : Nat → Nat → List Nat → Except Err (List Nat)
  | 0, _, _ => .error .fuel
  | fuel + 1, i, res => do
    let rank := u64 ((bitsequence_reader_rank1 f.rle i : Int) - 1)
    let (c, _) ← wavelet_access f.bwt rank
    if c = EOF_BYTE then pure res
    else do
      let prev ← bitsequence_reader_selectprev1 f.rle i
      let c0 ← eliasfano_get f.c c
      let r ← wavelet_rank f.bwt c (u64 ((rank : Int) - 1))
      fmi_extract_rle_loop f fuel
        (u64 ((i : Int) - prev + bitsequence_reader_select1 f.rle_select (u64 ((c0 : Int) + r + 1))))
        (res ++ [c])

/-- The function `fmindex_extract`: the extracted bytes. -/
def fmindex_extract (f : FMIndexReader) (i : Nat) : Except Err (List Nat) := do
  let res ← if !f.with_rle then fmi_extract_reg_loop f (f.n + 1) i []
    else fmi_extract_rle_loop f (f.n + 1) i []
  bytes_reverse res

/-! ## dict.c -/

/-- The function `dictionary_extract`: `none` is the NULL result (with length
0). -/
def dictionary_extract (d : DictionaryReader) (i : Nat) : Except Err (Option (List Nat)) :=
  if i ≥ d.n then pure none
  else do
    let row := if i = d.n - 1 then 0 else i + 2
    let res ← fmindex_extract d.fmi row
    pure (some res)

def dictionary_locate (d : DictionaryReader) (p : List Nat) : Except Err Int := do
  let (f, sp, _) ← fmindex_locate d.fmi (0 :: p ++ [0])
  pure (if f then sp - 1 else -1)

/-- The function `dictionary_locate_prefix`: `none` for the result `false`. -/
def dictionary_locate_prefix (d : DictionaryReader) (p : List Nat) :
    Except Err (Option (Nat × Nat)) :=
  if p.isEmpty then pure none
  else do
    let (f, sp, ep) ← fmindex_locate d.fmi (0 :: p)
    pure (if f then some (u64 (sp - 1), u64 (ep - 1)) else none)

structure DictIterator where
  has_next : Bool
  next : Nat
  limit : Nat
deriving DecidableEq, Repr

def dictionary_locate_substr (d : DictionaryReader) (p : List Nat) : Except Err DictIterator :=
  if p.isEmpty then pure { has_next := false, next := 0, limit := 0 }
  else do
    let (f, sp, ep) ← fmindex_locate d.fmi p
    pure (if f then { has_next := true, next := u64 sp, limit := u64 ep }
      else { has_next := false, next := 0, limit := 0 })

/-- The function `dictionary_substr_next`: `none` for the return value 0. -/
def dictionary_substr_next (d : DictionaryReader) (it : DictIterator) :
    Except Err (Option Nat × DictIterator) :=
  if !it.has_next then pure (none, it)
  else if it.next ≤ it.limit then do
    let m ← fmindex_locate_match d.fmi it.next
    pure (some m, { it with next := u64 (it.next + 1) })
  else pure (none, { it with has_next := false })

/-! ## intset.c (16 bit encoding) -/

/-- The struct `Intset` while its encoding is `INTSET_ENC_INT16`: the table of
`(key, value)` pairs; a value 0 marks an unused slot. -/
structure Intset where
  key_count : Nat
  threshold : Nat
  key_table : List (Nat × Nat)
deriving DecidableEq, Repr

def intset_init : Intset := { key_count := 0, threshold := 0, key_table := [] }

/-- The function `place`: the top bits of the Fibonacci hash. -/
def intset_place (table_length item : Nat) : Nat :=
  (item * 11400714819323198485 % 18446744073709551616) >>> (64 - BIT_LEN (table_length - 1))

/-- The probing loop of `intset_locate_key`: `(found, pos)`. -/
def intset_locate_key (table : List (Nat × Nat)) (key : Nat) : Nat → Nat → Except Err (Bool × Nat)
  | 0, _ => .error .fuel
  | fuel + 1, i => do
    let e ← arr_get table i
    if e.2 = 0 then pure (false, i)
    else if e.1 = key then pure (true, i)
    else intset_locate_key table key fuel ((i + 1) &&& (table.length - 1))

def intset_resize (s : Intset) (new_size : Nat) : Except Err Intset :=
  s.key_table.foldlM
    (fun (t : Intset) e =>
      if e.2 ≠ 0 then do
        let (found, i) ← intset_locate_key t.key_table e.1 (new_size + 1)
          (intset_place new_size e.1)
        let old ← arr_get t.key_table i
        pure { t with key_table :=
          t.key_table.set i (if found then (old.1, old.2 ||| e.2) else e) }
      else pure t)
    { key_count := s.key_count, threshold := new_size * 3 / 4,
      key_table := List.replicate new_size (0, 0) }

def intset_add (s : Intset) (v : Nat) : Except Err Intset := do
  let key := v / 16
  if key > 32767 then .error .unmodelled
  else
    let s ← if s.key_table.length = 0 then intset_resize s (max (s.key_table.length * 2) 16)
      else pure s
    let bucket_bits := 1 <<< (v % 16)
    let n := s.key_table.length
    let (found, i) ← intset_locate_key s.key_table key (n + 1) (intset_place n key)
    if found then do
      let old ← arr_get s.key_table i
      pure { s with key_table := s.key_table.set i (old.1, old.2 ||| bucket_bits) }
    else do
      let (s, i) ←
        if s.key_count > s.threshold then do
          let s ← intset_resize s (n * 2)
          let (_, i) ← intset_locate_key s.key_table key (2 * n + 1) (intset_place (2 * n) key)
          pure (s, i)
        else pure (s, i)
      pure { s with key_table := s.key_table.set i (key, bucket_bits),
                    key_count := s.key_count + 1 }

def intset_contains (s : Intset) (v : Nat) : Except Err Bool :=
  if s.key_table.length = 0 then pure false
  else
    let key := v / 16
    if key > 32767 then pure false
    else do
      let n := s.key_table.length
      let (found, i) ← intset_locate_key s.key_table key (n + 1) (intset_place n key)
      if found then do
        let e ← arr_get s.key_table i
        pure (e.2 &&& (1 <<< (v % 16)) ≠ 0)
      else pure false

/-! ## cgraphr.c: labels -/

/-- The function `cgraphr_extract_node`: `none` is the NULL result. -/
def cgraphr_extract_node (d : DictionaryReader) (n : Int) : Except Err (Option (List Nat)) :=
  let ones := bitsequence_reader_ones d.bitsnode
  if n < 0 ∨ n ≥ ones then pure none
  else dictionary_extract d (u64 (bitsequence_reader_select1 d.bitsnode (n.toNat + 1)))

def cgraphr_locate_node (d : DictionaryReader) (p : List Nat) : Except Err Int := do
  let i ← dictionary_locate d p
  if i < 0 then pure (-1)
  else if !(← bitsequence_reader_access d.bitsnode i.toNat) then pure (-1)
  else pure ((bitsequence_reader_rank1 d.bitsnode i : Int) - 1)

/-- The struct `NodeIterator`. -/
structure NodeIterator where
  prefix_mode : Bool
  bitsnode : BitsequenceReader
  next : Nat
  limit : Nat
  it : DictIterator
  set : Intset
deriving DecidableEq, Repr

def cgraphr_locate_node_prefix (d : DictionaryReader) (p : List Nat) : Except Err NodeIterator := do
  let noIt : DictIterator := { has_next := false, next := 0, limit := 0 }
  match ← dictionary_locate_prefix d p with
  | some (s, e) =>
    pure { prefix_mode := true, bitsnode := d.bitsnode, next := s, limit := e, it := noIt,
           set := intset_init }
  | none =>
    pure { prefix_mode := true, bitsnode := d.bitsnode, next := 0, limit := U64_MINUS_ONE,
           it := noIt, set := intset_init }

def cgraphr_search_node (d : DictionaryReader) (p : List Nat) : Except Err NodeIterator := do
  let it ← dictionary_locate_substr d p
  pure { prefix_mode := false, bitsnode := d.bitsnode, next := 0, limit := 0, it := it,
         set := intset_init }

/-- The function `cgraphr_node_next`: `none` for the result `false`. -/
def cgraphr_node_next (d : DictionaryReader) :
    Nat → NodeIterator → Except Err (Option Nat × NodeIterator)
  | 0, _ => .error .fuel
  | fuel + 1, i =>
    if i.prefix_mode then
      if i.next ≤ i.limit then do
        let v := i.next
        let i := { i with next := u64 (i.next + 1) }
        if ← bitsequence_reader_access i.bitsnode v then
          pure (some (u64 ((bitsequence_reader_rank1 i.bitsnode v : Int) - 1)), i)
        else cgraphr_node_next d fuel i
      else pure (none, i)
    else do
      match ← dictionary_substr_next d i.it with
      | (none, it) => pure (none, { i with it := it })
      | (some v, it) => do
        let i := { i with it := it }
        if ← bitsequence_reader_access i.bitsnode v then
          let m := u64 ((bitsequence_reader_rank1 i.bitsnode v : Int) - 1)
          if !(← intset_contains i.set m) then do
            let set ← intset_add i.set m
            pure (some m, { i with set := set })
          else cgraphr_node_next d fuel i
        else cgraphr_node_next d fuel i

/-- Calling `cgraphr_node_next` until it returns false: the ids the iterator
yields, in order, and how the iteration ends (`none`: it returns false). -/
def cgraphr_nodes_all (d : DictionaryReader) :
    Nat → NodeIterator → List Nat → List Nat × Option Err
  | 0, _, acc => (acc, some .fuel)
  | n + 1, i, acc =>
    match cgraphr_node_next d (d.fmi.n + 2) i with
    | .error e => (acc, some e)
    | .ok (none, _) => (acc, none)
    | .ok (some v, i) => cgraphr_nodes_all d n i (acc ++ [v])

/-! ## The dictionary text in the spec's words -/

/-- The positions of the text `t` at which the pattern `p` occurs, inside `t`
only: the spec's "occurrences of p in T". -/
def text_occurrences (t p : List Nat) : List Nat :=
  (List.range t.length).filter (fun i => (t.drop i).take p.length == p)


/-! ## Concrete inputs

The graphs and dictionaries at which the theorems below evaluate the code. -/

/-- Collecting what an edge iterator yields; the NULL iterator yields nothing. -/
def cgraphr_edges_collect (it : Except Err (Option GrammarNeighborhood)) :
    Except Err (List StEdge) := do
  match ← it with
  | none => pure []
  | some nb => cgraphr_edges_all 100 100 nb

/-- Five disjoint pairs of rank-4 edges with one label; the two edges of a pair
share one node. -/
def rank4Graph : HGraph :=
  { edges :=
      [some { label := 0, rank := 4, nodes := [0, 1, 2, 3] },
       some { label := 0, rank := 4, nodes := [3, 4, 5, 6] },
       some { label := 0, rank := 4, nodes := [7, 8, 9, 10] },
       some { label := 0, rank := 4, nodes := [10, 11, 12, 13] },
       some { label := 0, rank := 4, nodes := [14, 15, 16, 17] },
       some { label := 0, rank := 4, nodes := [17, 18, 19, 20] },
       some { label := 0, rank := 4, nodes := [21, 22, 23, 24] },
       some { label := 0, rank := 4, nodes := [24, 25, 26, 27] },
       some { label := 0, rank := 4, nodes := [28, 29, 30, 31] },
       some { label := 0, rank := 4, nodes := [31, 32, 33, 34] }]
    rank := RANK_NONE }

/-- The grammar `repair` returns for `rank4Graph`. -/
def rank4Grammar : SLHRGrammar :=
  { min_nt := 1
    start_symbol :=
      { edges :=
          [some { label := 1, rank := 7, nodes := [3, 4, 5, 6, 0, 1, 2] },
           some { label := 1, rank := 7, nodes := [10, 11, 12, 13, 7, 8, 9] },
           some { label := 1, rank := 7, nodes := [17, 18, 19, 20, 14, 15, 16] },
           some { label := 1, rank := 7, nodes := [24, 25, 26, 27, 21, 22, 23] },
           some { label := 1, rank := 7, nodes := [31, 32, 33, 34, 28, 29, 30] }]
        rank := RANK_NONE }
    rule_max := 1
    rules :=
      [some { edges := [some { label := 0, rank := 3, nodes := [0, 1, 2] },
                        some { label := 0, rank := 3, nodes := [3, 4, 5] }]
              rank := 5 },
       none, none, none, none, none, none, none] }

/-- Five disjoint paths of two rank-3 edges with one label (the third node of
every edge is its own), and one isolated edge. -/
def pathsGraph : HGraph :=
  { edges :=
      [some { label := 0, rank := 3, nodes := [0, 1, 16] },
       some { label := 0, rank := 3, nodes := [1, 2, 17] },
       some { label := 0, rank := 3, nodes := [3, 4, 18] },
       some { label := 0, rank := 3, nodes := [4, 5, 19] },
       some { label := 0, rank := 3, nodes := [6, 7, 20] },
       some { label := 0, rank := 3, nodes := [7, 8, 21] },
       some { label := 0, rank := 3, nodes := [9, 10, 22] },
       some { label := 0, rank := 3, nodes := [10, 11, 23] },
       some { label := 0, rank := 3, nodes := [12, 13, 24] },
       some { label := 0, rank := 3, nodes := [13, 14, 25] },
       some { label := 0, rank := 3, nodes := [15, 27, 26] }]
    rank := RANK_NONE }

/-- Two disjoint rank-3 edges. -/
def twoEdgeGraph : HGraph :=
  { edges :=
      [some { label := 0, rank := 3, nodes := [0, 1, 2] },
       some { label := 0, rank := 3, nodes := [3, 4, 5] }]
    rank := RANK_NONE }

/-- Seven rank-3 edges with one label whose first two nodes coincide. -/
def loopsGraph : HGraph :=
  { edges :=
      [some { label := 0, rank := 3, nodes := [0, 0, 7] },
       some { label := 0, rank := 3, nodes := [1, 1, 8] },
       some { label := 0, rank := 3, nodes := [2, 2, 9] },
       some { label := 0, rank := 3, nodes := [3, 3, 10] },
       some { label := 0, rank := 3, nodes := [4, 4, 11] },
       some { label := 0, rank := 3, nodes := [5, 5, 12] },
       some { label := 0, rank := 3, nodes := [6, 6, 13] }]
    rank := RANK_NONE }

/-- The grammar `repair` returns for `pathsGraph`. -/
def pathsGrammar : SLHRGrammar :=
  { min_nt := 1
    start_symbol :=
      { edges :=
          [some { label := 1, rank := 5, nodes := [1, 2, 17, 0, 16] },
           some { label := 1, rank := 5, nodes := [4, 5, 19, 3, 18] },
           some { label := 1, rank := 5, nodes := [7, 8, 21, 6, 20] },
           some { label := 1, rank := 5, nodes := [10, 11, 23, 9, 22] },
           some { label := 1, rank := 5, nodes := [13, 14, 25, 12, 24] },
           some { label := 0, rank := 3, nodes := [15, 27, 26] }]
        rank := RANK_NONE }
    rule_max := 1
    rules :=
      [some { edges := [some { label := 0, rank := 3, nodes := [0, 1, 2] },
                        some { label := 0, rank := 3, nodes := [3, 0, 4] }]
              rank := 5 },
       none, none, none, none, none, none, none] }

/-- The grammar `repair` returns for `loopsGraph` with monogram replacement. -/
def loopsGrammar : SLHRGrammar :=
  { min_nt := 1
    start_symbol :=
      { edges :=
          [some { label := 1, rank := 2, nodes := [0, 7] },
           some { label := 1, rank := 2, nodes := [1, 8] },
           some { label := 1, rank := 2, nodes := [2, 9] },
           some { label := 1, rank := 2, nodes := [3, 10] },
           some { label := 1, rank := 2, nodes := [4, 11] },
           some { label := 1, rank := 2, nodes := [5, 12] },
           some { label := 1, rank := 2, nodes := [6, 13] }]
        rank := RANK_NONE }
    rule_max := 1
    rules :=
      [some { edges := [some { label := 0, rank := 3, nodes := [0, 0, 1] }], rank := 2 },
       none, none, none, none, none, none, none] }

/-- The reader opened on the file written for the grammar of `twoEdgeGraph`
(no rule was created; six nodes, one label, with the table of non-terminals). -/
def twoEdgeReader : GrammarReader :=
  { node_count := 6
    start :=
      { matrix := { width := 2, height := 6, n := 8
                    cells := [(0, 0), (1, 0), (2, 0), (3, 1), (4, 1), (5, 1)] }
        labels := [0, 0]
        edge_ifs := [0, 0]
        ifs := [[0, 1, 2]]
        nt_table := some { width := 1, height := 0, n := 2, cells := [] }
        terminals := 1 }
    rules := { first_nt := 1, rules := [] }
    nt_table := some { width := 1, height := 0, n := 2, cells := [] } }

/-- Every edge of every rule body of the grammar has rank at most `R`. -/
def BodyRankBound (gr : SLHRGrammar) (R : Int) : Prop :=
  ∀ rule, some rule ∈ gr.rules → ∀ e, some e ∈ rule.edges → (e.rank : Int) ≤ R

/-- The node labels `apple`, `apricot` and `banana` (as bytes), put into the
writer's dictionary in this order. -/
def fruitDict : List DictEntry :=
  dict_put_text [98, 97, 110, 97, 110, 97] true
    (dict_put_text [97, 112, 114, 105, 99, 111, 116] true
      (dict_put_text [97, 112, 112, 108, 101] true []))

/-- The node labels `a` and the empty string. -/
def emptyLabelDict : List DictEntry :=
  dict_put_text [] true (dict_put_text [97] true [])

/-- Calling `cgraphr_node_next` until it returns false: the ids the iterator
yields, and the error the walk ended with, if any. -/
def cgraphr_nodes_collect (d : DictionaryReader) (it : NodeIterator) : List Nat × Option Err :=
  cgraphr_nodes_all d 20 it []

/-! ## Predicates of the rank analysis -/

/-- Every key stored in the map satisfies `P`. -/
def HKeys {K V : Type} (P : K → Prop) (m : Hashmap K V) : Prop :=
  ∀ b, b ∈ m.table → ∀ e, e ∈ b → P e.key

/-- Every edge of the graph has rank at most `R`. -/
def EdgesLe (R : Int) (h : HGraph) : Prop :=
  ∀ e, some e ∈ h.edges → (e.rank : Int) ≤ R

/-- Every stored rule of the grammar satisfies `P`. -/
def AllRules (P : HGraph → Prop) (g : SLHRGrammar) : Prop :=
  ∀ rule, some rule ∈ g.rules → P rule

/-- A rule whose rank is at most `max R 5` and at least `lo`, and whose body
edges have rank at most `R`. -/
def RuleOK (R lo : Int) (rule : HGraph) : Prop :=
  lo ≤ rule.rank ∧ rule.rank ≤ max R 5 ∧ EdgesLe R rule

/-- A counted digram is a pair of terminals, or a pair of symbols of positive
rank whose rule would have rank at most `R`. -/
def KeyOK (g : SLHRGrammar) (R : Int) (d : Digram) : Prop :=
  (d.adj0.label < g.min_nt ∧ d.adj1.label < g.min_nt) ∨
  ∃ r0 r1, slhr_grammar_rank_of_rule g d.adj0.label = .ok r0 ∧
    slhr_grammar_rank_of_rule g d.adj1.label = .ok r1 ∧ 1 ≤ r0 ∧ 1 ≤ r1 ∧ r0 + r1 - 1 ≤ R

/-- The graph has no edge (only holes, if anything). -/
def NoEdges (h : HGraph) : Prop := ∀ e, ¬ some e ∈ h.edges

/-- The invariant of the loops of `repair_replace_digrams`: the rules are
within the bounds and so is every counted digram. -/
def DigramInv (R : Int) (st : ReplaceState) : Prop :=
  AllRules (RuleOK R 1) st.g ∧ HKeys (KeyOK st.g R) st.digram_count

/-- A rule whose rank and whose body edges are at most `R`. -/
def RuleLe (R : Int) (rule : HGraph) : Prop :=
  rule.rank ≤ R ∧ EdgesLe R rule
/-! ## cgraphw.c: the handle of the writer

The handle is followed through `cgraphw_add_edge`, `cgraphw_add_node`,
`cgraphw_compress` and `cgraphw_write`.  The `Treemap` `dict_ve` is
represented by its items in the order of the keys (treemap.c is a red-black
tree ordered by `map_default_cmp`); the `Hashmap` `dict_rev` and the `Hashset`
`edges` are the tables of hashmap.c.  Failing allocations are not modelled. -/

/-- The enum `ElementOccurence`. -/
inductive ElementOccurence where
  | OCC_NODE
  | OCC_EDGE
  | OCC_BOTH
deriving DecidableEq, Repr

/-- The struct `GraphDictElement`. -/
structure GraphDictElement where
  value : Nat
  occ : ElementOccurence
deriving DecidableEq, Repr

/-- The struct `CGraphCParams` (without `RRR`). -/
structure CGraphCParams where
  max_rank : Int
  monograms : Bool
  factor : Int
  sampling : Int
  rle : Bool
  nt_table : Bool
deriving DecidableEq, Repr

def DEFAULT_MAX_RANK : Int := 12
def DEFAULT_MONOGRAMS : Bool := false
def DEFAULT_FACTOR_PARAM : Int := 8
def DEFAULT_SAMPLING : Int := 32
def DEFAULT_RLE : Bool := true
def DEFAULT_NT_TABLE : Bool := true

/-- The items of a `Treemap` whose keys are strings (stored with their
terminating 0-byte) and whose values are of type `V`, in the order of
`map_default_cmp`. -/
abbrev Treemap (V : Type) := List (List Nat × V)

def treemap_size {V : Type} (m : Treemap V) : Nat := m.length

/-- The function `treemap_get`: the value of the item whose key compares equal. -/
def treemap_get {V : Type} (m : Treemap V) (key : List Nat) : Option V :=
  (m.find? (fun kv => map_default_cmp key kv.1 == 0)).map (fun kv => kv.2)

def treemap_contains_key {V : Type} (m : Treemap V) (key : List Nat) : Bool :=
  (treemap_get m key).isSome

/-- The function `treemap_put`: the item is replaced where the key compares
equal, and inserted at its place in the order otherwise. -/
def treemap_put {V : Type} (key : List Nat) (val : V) : Treemap V → Treemap V
  | [] => [(key, val)]
  | kv :: rest =>
    if map_default_cmp key kv.1 < 0 then (key, val) :: kv :: rest
    else if map_default_cmp key kv.1 = 0 then (kv.1, val) :: rest
    else kv :: treemap_put key val rest

/-- The function `treemap_index_of`: the position of the key in the order, -1
when it is absent. -/
def treemap_index_of {V : Type} (m : Treemap V) (key : List Nat) : Int :=
  match m.findIdx? (fun kv => map_default_cmp key kv.1 == 0) with
  | some i => i
  | none => -1

/-- The function `hash_edge_cb`. -/
def hash_edge_cb (e : HEdge) : Nat :=
  (List.range e.rank).foldl (fun h i => HASH_COMBINE h (HASH (e.nodes.getD i 0)))
    (HASH e.label)

/-- The callback `cmp_edge_cb`. -/
def cmp_edge_cb (e1 e2 : HEdge) : Int := hedge_cmp e1 e2

/-- The callbacks `hash_edge_cb` and `cmp_edge_cb`. -/
instance : KeyHash HEdge := ⟨hash_edge_cb, cmp_edge_cb⟩

/-- The function `hashset_add` on the edge set, which is created with
`cmp_edge_cb` and `hash_edge_cb`. -/
def hashset_add_edge (s : Hashmap HEdge Unit) (e : HEdge) : Except Err (Hashmap HEdge Unit × Nat) :=
  hashmap_put s e ()

/-- The struct `GraphWriterImpl`.  The members of the union are kept side by
side: `dict_rev` and `edges` are used before the compression, `bv`, `be` and
`grammar` after it. -/
structure GraphWriterImpl where
  compressed : Bool
  params : CGraphCParams
  dict_ve : Treemap GraphDictElement
  dict_disjunct : Bool
  nodes : Nat
  terminals : Nat
  dict_rev : Hashmap Nat (List Nat)
  edges : Hashmap HEdge Unit
  bv : BitArray
  be : BitArray
  grammar : Option SLHRGrammar
deriving DecidableEq, Repr

/-- The function `cgraphw_init`. -/
def cgraphw_init : GraphWriterImpl :=
  { compressed := false
    params := { max_rank := DEFAULT_MAX_RANK, monograms := DEFAULT_MONOGRAMS,
                factor := DEFAULT_FACTOR_PARAM, sampling := DEFAULT_SAMPLING, rle := DEFAULT_RLE,
                nt_table := DEFAULT_NT_TABLE }
    dict_ve := []
    dict_disjunct := true
    nodes := 0
    terminals := 0
    dict_rev := hashmap_init
    edges := hashmap_init
    bv := []
    be := []
    grammar := none }

/-- The function `dict_put_text`: the id of the string `s` in `dict_ve`, a new
one (the number of items so far) when `s` is not in the dictionary yet. -/
def cgraphw_dict_put_text (g : GraphWriterImpl) (s : List Nat) (node : Bool) :
    Except Err (Nat × GraphWriterImpl) :=
  match treemap_get g.dict_ve s with
  | none => do
    let id := treemap_size g.dict_ve
    let e : GraphDictElement :=
      { value := id, occ := if node then .OCC_NODE else .OCC_EDGE }
    let dict_ve := treemap_put s e g.dict_ve
    let (dict_rev, _) ← hashmap_put g.dict_rev id s
    pure (e.value, { g with dict_ve := dict_ve, dict_rev := dict_rev })
  | some val =>
    if (node ∧ val.occ ≠ .OCC_NODE) ∨ (¬ node ∧ val.occ ≠ .OCC_EDGE) then
      pure (val.value,
        { g with dict_ve := treemap_put s { val with occ := .OCC_BOTH } g.dict_ve
                 dict_disjunct := false })
    else pure (val.value, g)

/-- The loop over the first `rank - 1` node strings in `cgraphw_add_edge`: the
ids collected so far, or `none` after the `return -1` for a missing string.
Reading `nodes[i]` outside the array is undefined. -/
def cgraphw_add_edge_nodes (nodes : List (Option (List Nat))) :
    Nat → Nat → GraphWriterImpl → List Nat → Except Err (Option (List Nat) × GraphWriterImpl)
  | 0, _, g, acc => pure (some acc, g)
  | n + 1, i, g, acc =>
    match nodes.get? i with
    | none => .error .undefined
    | some none => pure (none, g)
    | some (some s) => do
      let (id, g) ← cgraphw_dict_put_text g s true
      cgraphw_add_edge_nodes nodes n (i + 1) g (acc ++ [id])

/-- The function `cgraphw_add_edge`: the return value and the handle after the
call.  `label` and the entries of `nodes` are strings or NULL.  With
`rank == 0` the bound `rank - 1` of the loop wraps and the code reads and
writes outside its arrays. -/
def cgraphw_add_edge (g : GraphWriterImpl) (rank : Nat) (label : Option (List Nat))
    (nodes : List (Option (List Nat))) (edge_index : Nat) :
    Except Err (Int × GraphWriterImpl) :=
  if g.compressed then pure (-1, g)
  else if rank = 0 then .error .undefined
  else
    match label with
    | none => pure (-1, g)
    | some l => do
      let (lid, g) ← cgraphw_dict_put_text g l false
      let (ids, g) ← cgraphw_add_edge_nodes nodes (rank - 1) 0 g []
      match ids with
      | none => pure (-1, g)
      | some ids =>
        let edge : HEdge := { label := lid, rank := rank, nodes := ids ++ [edge_index] }
        let (edges, _) ← hashset_add_edge g.edges edge
        pure (0, { g with edges := edges })

/-- The function `cgraphw_add_node`. -/
def cgraphw_add_node (g : GraphWriterImpl) (n : Option (List Nat)) :
    Except Err (Int × GraphWriterImpl) :=
  if g.compressed then pure (-1, g)
  else
    match n with
    | none => pure (-1, g)
    | some s => do
      let (_, g) ← cgraphw_dict_put_text g s true
      pure (0, g)

/-- The function `cgraph_set_bitsequences`: the bitmaps of the nodes and of the
edge labels over the sorted dictionary; `be` is only built when a string is
both.  The counts are added to `g->nodes` and `g->terminals`. -/
def cgraph_set_bitsequences (g : GraphWriterImpl) :
    Except Err (BitArray × BitArray × GraphWriterImpl) := do
  let dict_len := treemap_size g.dict_ve
  let bv := bitarray_init dict_len
  let be := if !g.dict_disjunct then bitarray_init dict_len else []
  g.dict_ve.enum.foldlM
    (fun (st : BitArray × BitArray × GraphWriterImpl) ie => do
      let (bv, be, g) := st
      let occ := ie.2.2.occ
      let (bv, g) ←
        if occ = .OCC_NODE ∨ occ = .OCC_BOTH then do
          let bv ← bitarray_set bv ie.1 true
          pure (bv, { g with nodes := g.nodes + 1 })
        else pure (bv, g)
      if occ = .OCC_EDGE ∨ occ = .OCC_BOTH then do
        let be ← if !g.dict_disjunct then bitarray_set be ie.1 true else pure be
        pure (bv, be, { g with terminals := g.terminals + 1 })
      else pure (bv, be, g))
    (bv, be, g)

/-- The function `modify_dict_rev`: for every id the position of its string in
the sorted dictionary; `none` is the NULL result. -/
def modify_dict_rev (g : GraphWriterImpl) : Except Err (Option (Hashmap Nat Nat)) :=
  (hashmap_items g.dict_rev).foldlM
    (fun (acc : Option (Hashmap Nat Nat)) item =>
      match acc with
      | none => pure none
      | some m =>
        let index := treemap_index_of g.dict_ve item.val
        if index < 0 then pure none
        else do
          let (m, _) ← hashmap_put m item.key index.toNat
          pure (some m))
    (some hashmap_init)

/-- The function `dict_index`. -/
def dict_index (new_ids : Hashmap Nat Nat) (val : Nat) : Option Nat := hashmap_get new_ids val

/-- The functions `bitsequence_rank1` and `bitsequence_rank0` of the writer on
a built sequence, by its bits. -/
def bitsequence_rank1 (b : BitArray) (i : Int) : Nat :=
  if i < 0 then 0
  else if i ≥ b.length then b.count true
  else (b.take (i.toNat + 1)).count true

def bitsequence_rank0 (b : BitArray) (i : Int) : Nat :=
  if i < 0 then 0 else u64 (i + 1 - bitsequence_rank1 b i)

/-- The body of the loop of `cgraphw_modify_ids` for one edge of the set:
`none` is the `goto err_2`. -/
def cgraphw_modify_edge (disjunct : Bool) (bv be : BitArray) (new_ids : Hashmap Nat Nat)
    (edge : HEdge) : Except Err (Option HEdge) :=
  match dict_index new_ids edge.label with
  | none => pure none
  | some tmp => do
    let label :=
      u64 (((if !disjunct then bitsequence_rank1 be (Int.bmod tmp 18446744073709551616)
             else bitsequence_rank0 bv (Int.bmod tmp 18446744073709551616) : Nat) : Int) - 1)
    if edge.rank = 0 then .error .undefined
    else
      let nodes ← (List.range (edge.rank - 1)).foldlM
        (fun (acc : Option (List Nat)) j =>
          match acc with
          | none => pure none
          | some l => do
            let v ← arr_get edge.nodes j
            match dict_index new_ids v with
            | none => pure none
            | some tmp =>
              pure (some (l ++ [u64 ((bitsequence_rank1 bv (Int.bmod tmp 18446744073709551616)
                : Int) - 1)])))
        (some [])
      match nodes with
      | none => pure none
      | some l => do
        let last ← arr_get edge.nodes (edge.rank - 1)
        pure (some { label := label, rank := edge.rank, nodes := l ++ [last] })

/-- The function `cgraphw_modify_ids`: the edges of the set with the ids of
the node dictionary and of the label dictionary, sorted by `hedge_cmp`. -/
def cgraphw_modify_ids (g : GraphWriterImpl) (bv be : BitArray) (new_ids : Hashmap Nat Nat) :
    Except Err (Option HGraph) := do
  let edges ← (hashmap_items g.edges).foldlM
    (fun (acc : Option (List HEdge)) item =>
      match acc with
      | none => pure none
      | some l => do
        match ← cgraphw_modify_edge g.dict_disjunct bv be new_ids item.key with
        | none => pure none
        | some e => pure (some (l ++ [e])))
    (some [])
  match edges with
  | none => pure none
  | some l => pure (some { edges := (sort_by hedge_cmp l).map some, rank := RANK_NONE })

/-- The function `cgraphw_compress`: the return value and the handle after the
call; `fuel` bounds the loops of `repair`. -/
def cgraphw_compress (fuel : Nat) (g : GraphWriterImpl) (edge_index : Nat) :
    Except Err (Int × GraphWriterImpl) :=
  if g.compressed then pure (-1, g)
  else if hashmap_size g.edges = 0 then pure (-1, g)
  else do
    let (bv, be, g) ← cgraph_set_bitsequences g
    let g := if edge_index > g.nodes then { g with nodes := edge_index } else g
    match ← modify_dict_rev g with
    | none => pure (-1, g)
    | some id_mapping =>
      match ← cgraphw_modify_ids g bv be id_mapping with
      | none => pure (-1, g)
      | some start_symbol => do
        let gr ← repair fuel start_symbol g.nodes g.terminals g.params.max_rank
          g.params.monograms
        pure (0, { g with compressed := true, bv := bv, be := be, grammar := some gr
                          dict_rev := hashmap_init, edges := hashmap_init })

/-- The function `cgraphw_write`: the return value and what the written file
holds, as the readers of the grammar and of the dictionary see it; `none` when
nothing is written. -/
def cgraphw_write (g : GraphWriterImpl) :
    Except Err (Int × Option (GrammarReader × DictionaryReader)) :=
  if !g.compressed then pure (-1, none)
  else
    match g.grammar with
    | none => .error .undefined
    | some gr => do
      let grammar ← grammar_written gr g.nodes g.terminals g.params.nt_table
      let dict ← dict_written
        (g.dict_ve.map (fun kv =>
          ({ text := kv.1
             node := decide (kv.2.occ = .OCC_NODE ∨ kv.2.occ = .OCC_BOTH)
             edge := decide (kv.2.occ = .OCC_EDGE ∨ kv.2.occ = .OCC_BOTH) } : DictEntry)))
        g.params.sampling.toNat g.params.rle
      pure (0, some (grammar, dict))

/-- The handle after a list of `cgraphw_add_edge` calls, whatever they return
(0 or -1); each call is given its rank, label, node strings and edge index. -/
def cgraphw_add_edges (g : GraphWriterImpl) :
    List (Nat × Option (List Nat) × List (Option (List Nat)) × Nat) → Except Err GraphWriterImpl
  | [] => pure g
  | (rank, label, nodes, edge_index) :: rest => do
    let (_, g) ← cgraphw_add_edge g rank label nodes edge_index
    cgraphw_add_edges g rest

/-- The elements of the edge set of the handle, in the order of the
iteration. -/
def cgraphw_edges (g : GraphWriterImpl) : List HEdge := (hashmap_items g.edges).map (fun e => e.key)

/-- An edge as the C code stores it: `rank` nodes. -/
def HEdgeOk (e : HEdge) : Prop := e.nodes.length = e.rank

/-- The three-way lexicographic comparison of two sequences: the first
position with different entries decides, a proper initial part is smaller.
It is the order in which `hedge_cmp` is stated. -/
def lex_cmp : List Nat → List Nat → Int
  | [], [] => 0
  | [], _ :: _ => -1
  | _ :: _, [] => 1
  | x :: xs, y :: ys => if x ≠ y then (if x > y then 1 else -1) else lex_cmp xs ys

/-- The label of an edge followed by the `rank` entries of its array `nodes`. -/
def hedge_seq (e : HEdge) : List Nat :=
  e.label :: (List.range e.rank).map (fun i => e.nodes.getD i 0)

/-- The edge set of a handle as `cgraphw_add_edge` keeps it: a well-formed
table whose elements have `rank` nodes each. -/
def EdgeSetOk (s : Hashmap HEdge Unit) : Prop :=
  HWf s ∧ ∀ e ∈ s.table.flatten, HEdgeOk e.key

/-- The string is in the dictionary of the handle in the role of a node
label (`OCC_NODE` or `OCC_BOTH`). -/
def dict_is_node (g : GraphWriterImpl) (s : List Nat) : Prop :=
  ∃ x, treemap_get g.dict_ve s = some x ∧ x.occ ≠ .OCC_EDGE

/-! ## intset.c with its three encodings -/

namespace Collections

/-- The struct `Intset`: `key_table` is `none` for the NULL pointer; an entry
of the table is the pair of its key and its value, each stored in
`8 * encoding` bits. -/
structure Intset where
  key_count : Nat
  threshold : Nat
  encoding : Nat
  key_table : Option (List (Nat × Nat))
  table_length : Nat
deriving DecidableEq, Repr

def INTSET_ENC_INT16 : Nat := 2
def INTSET_ENC_INT32 : Nat := 4
def INTSET_ENC_INT64 : Nat := 8
def INTSET_DEFAULT_CAPACITY : Nat := 16

/-- The function `intset_value_encoding`; the argument is an `int64_t`. -/
def intset_value_encoding (v : Int) : Nat :=
  if v < -2147483648 ∨ v > 2147483647 then INTSET_ENC_INT64
  else if v < -32768 ∨ v > 32767 then INTSET_ENC_INT32
  else INTSET_ENC_INT16

/-- The function `intset_get_encoded`; a position outside the table is not
followed. -/
def intset_get_encoded (table : List (Nat × Nat)) (pos : Nat) : Except Err (Nat × Nat) :=
  arr_get table pos

/-- The function `intset_set_encoded`: key and value are cut to the width of
the encoding. -/
def intset_set_encoded (table : List (Nat × Nat)) (pos enc : Nat) (e : Nat × Nat) :
    Except Err (List (Nat × Nat)) :=
  if pos < table.length then
    .ok (table.set pos (e.1 % 2 ^ (8 * enc), e.2 % 2 ^ (8 * enc)))
  else .error .undefined

/-- The function `intset_or_encoded_value`. -/
def intset_or_encoded_value (table : List (Nat × Nat)) (pos enc v : Nat) :
    Except Err (List (Nat × Nat)) := do
  let e ← arr_get table pos
  pure (table.set pos (e.1, (e.2 ||| v) % 2 ^ (8 * enc)))

/-- The function `intset_init`. -/
def intset_init : Intset :=
  { key_count := 0, threshold := 0, encoding := INTSET_ENC_INT16, key_table := none
    table_length := 0 }

/-- The leading zero bits of a 64-bit value that is not 0, counted by shifting
it to the left. -/
def clzll_loop : Nat → Nat → Nat
  | 0, _ => 0
  | fuel + 1, x =>
    if x ≥ 9223372036854775808 then 0
    else clzll_loop fuel (2 * x % 18446744073709551616) + 1

/-- The builtin `__builtin_clzll`, which is undefined for 0. -/
def clzll (x : Nat) : Except Err Nat :=
  if x % 18446744073709551616 = 0 then .error .undefined
  else .ok (clzll_loop 64 (x % 18446744073709551616))

/-- The function `place`; `table_length - 1` is computed in `size_t`. -/
def place (s : Intset) (item : Nat) : Except Err Nat := do
  let z ← clzll (u64 ((s.table_length : Int) - 1))
  pure ((item * 11400714819323198485 % 18446744073709551616) >>> z)

/-- The loop of `intset_locate_key` from the position `i` on: whether the key
was found, and the position of the key or of the first unused entry. -/
def intset_locate_loop (s : Intset) (table : List (Nat × Nat)) (key : Nat) :
    Nat → Nat → Except Err (Bool × Nat)
  | 0, _ => .error .fuel
  | fuel + 1, i => do
    let e ← intset_get_encoded table i
    if e.2 = 0 then pure (false, i)
    else if e.1 = key then pure (true, i)
    else intset_locate_loop s table key fuel ((i + 1) &&& u64 ((s.table_length : Int) - 1))

/-- The function `intset_locate_key`; the loop ends at the latest when it has
seen every entry of a table that has an unused entry. -/
def intset_locate_key (s : Intset) (key : Nat) : Except Err (Bool × Nat) :=
  match s.key_table with
  | none => .error .undefined
  | some table => do
    let i ← place s key
    intset_locate_loop s table key (table.length + 1) i

/-- The loop of `intset_add_resize`. -/
def intset_add_resize_loop (s : Intset) (e : Nat × Nat) :
    Nat → List (Nat × Nat) → Nat → Except Err (List (Nat × Nat))
  | 0, _, _ => .error .fuel
  | fuel + 1, table, i => do
    let tmp ← intset_get_encoded table i
    if tmp.2 = 0 then intset_set_encoded table i s.encoding e
    else if tmp.1 = e.1 then intset_or_encoded_value table i s.encoding e.2
    else intset_add_resize_loop s e fuel table ((i + 1) &&& u64 ((s.table_length : Int) - 1))

/-- The function `intset_add_resize`. -/
def intset_add_resize (s : Intset) (e : Nat × Nat) : Except Err Intset :=
  match s.key_table with
  | none => .error .undefined
  | some table => do
    let i ← place s e.1
    let table ← intset_add_resize_loop s e (table.length + 1) table i
    pure { s with key_table := some table }

/-- The function `intset_resize`; `calloc` gives a table of unused entries.
The threshold is `new_size * 0.75f` cut to a `size_t`, which is
`new_size * 3 / 4` for the sizes that a `float` holds exactly. -/
def intset_resize (s : Intset) (new_size encoding : Nat) : Except Err Intset := do
  let old_encoding := s.encoding
  let old_key_table := s.key_table
  let s1 : Intset :=
    { s with threshold := new_size * 3 / 4, encoding := encoding
             key_table := some (List.replicate new_size (0, 0)), table_length := new_size }
  match old_key_table with
  | none => pure s1
  | some old =>
    if s.key_count > 0 then
      old.foldlM
        (fun (s2 : Intset) (e : Nat × Nat) =>
          if e.2 ≠ 0 then
            if s2.encoding ≠ old_encoding then
              if old_encoding = 0 ∨ s2.encoding = 0 ∨ s2.encoding / old_encoding = 0 then
                .error .undefined
              else
                let shift := (e.1 % (s2.encoding / old_encoding)) * (8 * old_encoding)
                if shift ≥ 64 then .error .undefined
                else
                  intset_add_resize s2
                    (e.1 * old_encoding / s2.encoding, (e.2 <<< shift) % 18446744073709551616)
            else intset_add_resize s2 e
          else pure s2)
        s1
    else pure s1

/-- The expression `1 << (v % bucket_size)`: the constant 1 is an `int`, so a
shift by 31 or more is undefined. -/
def intset_bucket_bit (v bucket_size : Nat) : Except Err Nat :=
  if bucket_size = 0 then .error .undefined
  else if v % bucket_size ≥ 31 then .error .undefined
  else .ok (1 <<< (v % bucket_size))

/-- The function `intset_add`. -/
def intset_add (s : Intset) (v : Nat) : Except Err Intset := do
  let bucket_size := 8 * s.encoding
  if bucket_size = 0 then .error .undefined
  else
    let key := v / bucket_size
    let enc := intset_value_encoding (Int.bmod (key : Int) 18446744073709551616)
    let (s, bucket_size, key) ←
      if s.key_table.isNone ∨ s.table_length = 0 ∨ enc > s.encoding then do
        let new_size := max ((s.table_length <<< 1) % 18446744073709551616) INTSET_DEFAULT_CAPACITY
        let old_encoding := s.encoding
        let new_encoding := max enc old_encoding
        let s ← intset_resize s new_size new_encoding
        if old_encoding ≠ new_encoding then pure (s, 8 * new_encoding, v / (8 * new_encoding))
        else pure (s, bucket_size, key)
      else pure (s, bucket_size, key)
    let bucket_bits ← intset_bucket_bit v bucket_size
    let (found, i) ← intset_locate_key s key
    match s.key_table with
    | none => .error .undefined
    | some table =>
      if found then do
        let table ← intset_or_encoded_value table i s.encoding bucket_bits
        pure { s with key_table := some table }
      else do
        let (s, i) ←
          if s.key_count > s.threshold then do
            let s ← intset_resize s ((s.table_length <<< 1) % 18446744073709551616) s.encoding
            let (_, i) ← intset_locate_key s key
            pure (s, i)
          else pure (s, i)
        match s.key_table with
        | none => .error .undefined
        | some table => do
          let table ← intset_set_encoded table i s.encoding (key, bucket_bits)
          pure { s with key_table := some table, key_count := s.key_count + 1 }

/-- The function `intset_contains`. -/
def intset_contains (s : Intset) (v : Nat) : Except Err Bool :=
  match s.key_table with
  | none => pure false
  | some table =>
    if s.table_length = 0 then pure false
    else
      let bucket_size := 8 * s.encoding
      if bucket_size = 0 then .error .undefined
      else
        let key := v / bucket_size
        if intset_value_encoding (Int.bmod (key : Int) 18446744073709551616) > s.encoding then
          pure false
        else do
          let (found, i) ← intset_locate_key s key
          if found then do
            let e ← intset_get_encoded table i
            let bucket_bit ← intset_bucket_bit v bucket_size
            pure ((e.2 &&& bucket_bit) ≠ 0)
          else pure false

/-- The calls `intset_add` of the values of a list, one after the other. -/
def intset_add_all (s : Intset) (vs : List Nat) : Except Err Intset :=
  vs.foldlM intset_add s

end Collections

/-! ## Example graphs and grammars of the pruning and replacement passes -/

/-- The graph of `copies` disjoint paths of four rank-3 edges with the labels
0, 1, 2, 3 and `pairs` disjoint paths of two rank-3 edges with the labels 4
and 5; neighbours on a path share one node. -/
def chainGraph (copies pairs : Nat) : HGraph :=
  { edges :=
      ((List.range copies).map (fun i =>
        [some ({ label := 0, rank := 3, nodes := [9 * i, 9 * i + 1, 9 * i + 2] } : HEdge),
         some { label := 1, rank := 3, nodes := [9 * i + 2, 9 * i + 3, 9 * i + 4] },
         some { label := 2, rank := 3, nodes := [9 * i + 4, 9 * i + 5, 9 * i + 6] },
         some { label := 3, rank := 3, nodes := [9 * i + 6, 9 * i + 7, 9 * i + 8] }])).flatten ++
      ((List.range pairs).map (fun i =>
        [some ({ label := 4, rank := 3
                 nodes := [9 * copies + 5 * i, 9 * copies + 5 * i + 1, 9 * copies + 5 * i + 2] } :
            HEdge),
         some { label := 5, rank := 3
                nodes := [9 * copies + 5 * i + 2, 9 * copies + 5 * i + 3,
                  9 * copies + 5 * i + 4] }])).flatten
    rank := RANK_NONE }

/-- A grammar over one terminal label whose rule 1, of rank 5 with two rank-3
edges, is used by four edges of the start symbol. -/
def usedFourGrammar : SLHRGrammar :=
  { min_nt := 1
    start_symbol :=
      { edges :=
          [some { label := 1, rank := 5, nodes := [1, 2, 17, 0, 16] },
           some { label := 1, rank := 5, nodes := [4, 5, 19, 3, 18] },
           some { label := 1, rank := 5, nodes := [7, 8, 21, 6, 20] },
           some { label := 1, rank := 5, nodes := [10, 11, 23, 9, 22] }]
        rank := RANK_NONE }
    rule_max := 1
    rules :=
      [some { edges := [some { label := 0, rank := 3, nodes := [0, 1, 2] },
                        some { label := 0, rank := 3, nodes := [3, 0, 4] }]
              rank := 5 },
       none, none, none, none, none, none, none] }

/-- A grammar over one terminal label whose rule 1, of rank 2 with one rank-3
edge, is used by three edges of the start symbol. -/
def usedThriceGrammar : SLHRGrammar :=
  { min_nt := 1
    start_symbol :=
      { edges :=
          [some { label := 1, rank := 2, nodes := [0, 7] },
           some { label := 1, rank := 2, nodes := [1, 8] },
           some { label := 1, rank := 2, nodes := [2, 9] }]
        rank := RANK_NONE }
    rule_max := 1
    rules :=
      [some { edges := [some { label := 0, rank := 3, nodes := [0, 0, 1] }], rank := 2 },
       none, none, none, none, none, none, none] }

/-- The rule count table `repair_count_rules` builds for `usedThriceGrammar`. -/
def usedThriceCounts : Hashmap Nat Nat :=
  match repair_count_rules usedThriceGrammar with
  | .ok m => m
  | .error _ => hashmap_init

/-- The size of a rule body as `slhr_grammar_size_of_rule` counts it: one for
the label of every edge and the rank of every edge. -/
def hgraph_size (rule : HGraph) : Nat :=
  rule.edges.length + ((rule.edges.filterMap id).map (fun e => e.rank)).sum

/-- A count table with one digram: two edges with the label 0 that meet at the
third node of the one and the first node of the other, counted five times. -/
def oneDigramTable : Hashmap Digram Int :=
  { table := [[], [], [], [], [], [], [], [], [], [], [], [], [], [],
      [{ hash := 62, key := ⟨⟨0, 2⟩, ⟨0, 0⟩⟩, val := 5 }], []]
    size := 1, threshold := 12 }

/-! ## treemap.c: the red-black tree with subtree weights -/

namespace Collections

/-- The colour `BLACK` of `treemap.c`. -/
def BLACK : Bool := true

/-- The colour `RED` of `treemap.c`. -/
def RED : Bool := false

/-- A `_TreemapEntry` with the entries reached through `left` and `right`;
`null` is the NULL pointer.  `weight` is the `size_t` field. -/
inductive TreemapEntry (K V : Type) where
  | null : TreemapEntry K V
  | node (left : TreemapEntry K V) (key : K) (val : V) (color : Bool) (weight : Nat)
      (right : TreemapEntry K V) : TreemapEntry K V
deriving DecidableEq, Repr

/-- An ancestor of an entry `x` as `x` reaches it through `parent`: the fields
of the ancestor, on which side the way down to `x` leaves it (`dir = true`:
through `right`), and its child on the other side. -/
structure TreemapFrame (K V : Type) where
  dir : Bool
  key : K
  val : V
  color : Bool
  weight : Nat
  other : TreemapEntry K V
deriving DecidableEq, Repr

/-- A `Treemap` without the comparison function, which is passed on its own. -/
structure Treemap (K V : Type) where
  size : Nat
  root : TreemapEntry K V
deriving DecidableEq, Repr

/-- The ancestor of frame `f` as an entry, with `child` on the side of the way
down. -/
def mapentry_up {K V : Type} (f : TreemapFrame K V) (child : TreemapEntry K V) :
    TreemapEntry K V :=
  if f.dir then .node f.other f.key f.val f.color f.weight child
  else .node child f.key f.val f.color f.weight f.other

/-- The root of the tree in which entry `e` has the ancestors `fs`, the parent
first. -/
def plug {K V : Type} : List (TreemapFrame K V) → TreemapEntry K V → TreemapEntry K V
  | [], e => e
  | f :: fs, e => plug fs (mapentry_up f e)

/-- The pointer `LEFT_OF(x)` of an entry `x` with ancestors `fs`. -/
def left_ptr {K V : Type} (fs : List (TreemapFrame K V)) (x : TreemapEntry K V) :
    Except Err (List (TreemapFrame K V) × TreemapEntry K V) :=
  match x with
  | .null => .error .undefined
  | .node l k v c w r =>
    pure ({ dir := false, key := k, val := v, color := c, weight := w, other := r } :: fs, l)

/-- The pointer `RIGHT_OF(x)` of an entry `x` with ancestors `fs`. -/
def right_ptr {K V : Type} (fs : List (TreemapFrame K V)) (x : TreemapEntry K V) :
    Except Err (List (TreemapFrame K V) × TreemapEntry K V) :=
  match x with
  | .null => .error .undefined
  | .node l k v c w r =>
    pure ({ dir := true, key := k, val := v, color := c, weight := w, other := l } :: fs, r)

/-- A value of type `ssize_t`; a signed result outside the type is undefined. -/
def ssize_t_val (x : Int) : Except Err Int :=
  if -9223372036854775808 ≤ x ∧ x < 9223372036854775808 then pure x else .error .undefined

/-- The macro `WEIGHT_OF`: the weight cast to `ssize_t`, 0 for NULL. -/
def WEIGHT_OF {K V : Type} (p : TreemapEntry K V) : Int :=
  match p with
  | .null => 0
  | .node _ _ _ _ w _ => Int.bmod (w : Int) 18446744073709551616

/-- The macro `COLOR_OF`. -/
def COLOR_OF {K V : Type} (p : TreemapEntry K V) : Bool :=
  match p with
  | .null => BLACK
  | .node _ _ _ c _ _ => c

/-- The macro `SET_COLOR`. -/
def SET_COLOR {K V : Type} (p : TreemapEntry K V) (c : Bool) : TreemapEntry K V :=
  match p with
  | .null => .null
  | .node l k v _ w r => .node l k v c w r

/-- The statement `p->weight += delta` with `size_t weight` and `ssize_t delta`. -/
def weight_add (w : Nat) (delta : Int) : Nat := u64 ((w : Int) + delta)

/-- The loop of `mapentry_update_weight` over the ancestors `fs` of an entry. -/
def frames_update_weight {K V : Type} (fs : List (TreemapFrame K V)) (delta : Int) :
    List (TreemapFrame K V) :=
  fs.map (fun f => { f with weight := weight_add f.weight delta })

/-- The function `mapentry_update_weight(p, delta)` for an entry `p` with the
ancestors `fs`. -/
def mapentry_update_weight {K V : Type} (fs : List (TreemapFrame K V)) (p : TreemapEntry K V)
    (delta : Int) : List (TreemapFrame K V) × TreemapEntry K V :=
  match p with
  | .null => (fs, .null)
  | .node l k v c w r => (frames_update_weight fs delta, .node l k v c (weight_add w delta) r)

/-- The branch of the rotations on `p->parent`: the child `p` of the parent
is replaced by `r` and the weights of the ancestors `fs` of `p` change by
`WEIGHT_OF(r) - WEIGHT_OF(p)`; without a parent, `r` becomes the root. -/
def mapentry_replace_child {K V : Type} (fs : List (TreemapFrame K V))
    (p r : TreemapEntry K V) : Except Err (List (TreemapFrame K V)) :=
  match fs with
  | [] => pure []
  | f :: rest => do
    let delta ← ssize_t_val (WEIGHT_OF r - WEIGHT_OF p)
    pure (frames_update_weight (f :: rest) delta)

/-- The function `mapentry_rotate_left(m, p)` for an entry `p` with the
ancestors `fs`: the result is the entry `r` that takes the place of `p`, with
`p` as its left child.  `p->right == NULL` makes `r->left` undefined. -/
def mapentry_rotate_left {K V : Type} (fs : List (TreemapFrame K V)) (p : TreemapEntry K V) :
    Except Err (List (TreemapFrame K V) × TreemapEntry K V) :=
  match p with
  | .null => pure (fs, .null)
  | .node pl pk pv pc pw r =>
    match r with
    | .null => .error .undefined
    | .node rl rk rv rc rw rr => do
      -- p->right = r->left
      let delta ← ssize_t_val (WEIGHT_OF rl - WEIGHT_OF (TreemapEntry.node rl rk rv rc rw rr))
      let pw := weight_add pw delta
      let fs := frames_update_weight fs delta
      let p1 : TreemapEntry K V := .node pl pk pv pc pw rl
      -- p->parent->left = r or p->parent->right = r
      let fs ← mapentry_replace_child fs p1 (.node rl rk rv rc rw rr)
      -- r->left = p
      let delta ← ssize_t_val (WEIGHT_OF p1 - WEIGHT_OF rl)
      pure (frames_update_weight fs delta, .node p1 rk rv rc (weight_add rw delta) rr)

/-- The function `mapentry_rotate_right(m, p)`, the mirror image of
`mapentry_rotate_left`. -/
def mapentry_rotate_right {K V : Type} (fs : List (TreemapFrame K V)) (p : TreemapEntry K V) :
    Except Err (List (TreemapFrame K V) × TreemapEntry K V) :=
  match p with
  | .null => pure (fs, .null)
  | .node l pk pv pc pw pr =>
    match l with
    | .null => .error .undefined
    | .node ll lk lv lc lw lr => do
      -- p->left = l->right
      let delta ← ssize_t_val (WEIGHT_OF lr - WEIGHT_OF (TreemapEntry.node ll lk lv lc lw lr))
      let pw := weight_add pw delta
      let fs := frames_update_weight fs delta
      let p1 : TreemapEntry K V := .node lr pk pv pc pw pr
      -- p->parent->right = l or p->parent->left = l
      let fs ← mapentry_replace_child fs p1 (.node ll lk lv lc lw lr)
      -- l->right = p
      let delta ← ssize_t_val (WEIGHT_OF p1 - WEIGHT_OF lr)
      pure (frames_update_weight fs delta, .node ll lk lv lc (weight_add lw delta) p1)

/-- The statement `SET_COLOR(PARENT_OF(x), c)` on the ancestors of `x`. -/
def set_color_parent {K V : Type} (fs : List (TreemapFrame K V)) (c : Bool) :
    List (TreemapFrame K V) :=
  match fs with
  | [] => []
  | f :: rest => { f with color := c } :: rest

/-- The statement `SET_COLOR(PARENT_OF(PARENT_OF(x)), c)` on the ancestors of `x`. -/
def set_color_grandparent {K V : Type} (fs : List (TreemapFrame K V)) (c : Bool) :
    List (TreemapFrame K V) :=
  match fs with
  | f :: g :: rest => f :: { g with color := c } :: rest
  | fs => fs

/-- The `while` loop of `treemap_fix_after_insert` for the entry `x` with the
ancestors `fs`; the result is `x` with its ancestors when the loop ends. -/
def treemap_fix_after_insert_loop {K V : Type} :
    Nat → List (TreemapFrame K V) → TreemapEntry K V →
      Except Err (List (TreemapFrame K V) × TreemapEntry K V)
  | 0, _, _ => .error .fuel
  | fuel + 1, fs, x =>
    match x, fs with
    | .null, _ => pure (fs, x)
    | _, [] => pure (fs, x)
    | x, f0 :: fs1 =>
      if f0.color ≠ RED then pure (fs, x)
      else
        match fs1 with
        | f1 :: rest =>
          if f1.dir = false then
            -- PARENT_OF(x) == LEFT_OF(PARENT_OF(PARENT_OF(x)))
            let y := f1.other
            if COLOR_OF y = RED then
              let parent := mapentry_up { f0 with color := BLACK } x
              let gp := mapentry_up { f1 with color := RED, other := SET_COLOR y BLACK } parent
              treemap_fix_after_insert_loop fuel rest gp
            else do
              let (fsx, x1) ←
                if f0.dir = true then do
                  -- x = PARENT_OF(x); mapentry_rotate_left(m, x)
                  let (fsa, r) ← mapentry_rotate_left fs1 (mapentry_up f0 x)
                  left_ptr fsa r
                else pure (fs, x)
              let fsx := set_color_grandparent (set_color_parent fsx BLACK) RED
              match fsx with
              | p :: g :: up => do
                -- mapentry_rotate_right(m, PARENT_OF(PARENT_OF(x)))
                let (fsb, l) ← mapentry_rotate_right up (mapentry_up g (mapentry_up p x1))
                let (fsy, x2) ← left_ptr fsb l
                treemap_fix_after_insert_loop fuel fsy x2
              | fsx => treemap_fix_after_insert_loop fuel fsx x1
          else
            let y := f1.other
            if COLOR_OF y = RED then
              let parent := mapentry_up { f0 with color := BLACK } x
              let gp := mapentry_up { f1 with color := RED, other := SET_COLOR y BLACK } parent
              treemap_fix_after_insert_loop fuel rest gp
            else do
              let (fsx, x1) ←
                if f0.dir = false then do
                  -- x = PARENT_OF(x); mapentry_rotate_right(m, x)
                  let (fsa, l) ← mapentry_rotate_right fs1 (mapentry_up f0 x)
                  right_ptr fsa l
                else pure (fs, x)
              let fsx := set_color_grandparent (set_color_parent fsx BLACK) RED
              match fsx with
              | p :: g :: up => do
                -- mapentry_rotate_left(m, PARENT_OF(PARENT_OF(x)))
                let (fsb, r) ← mapentry_rotate_left up (mapentry_up g (mapentry_up p x1))
                let (fsy, x2) ← right_ptr fsb r
                treemap_fix_after_insert_loop fuel fsy x2
              | fsx => treemap_fix_after_insert_loop fuel fsx x1
        | [] => do
          -- the parent is the root: LEFT_OF(NULL) is NULL, y is NULL and black
          let (fsx, x1) ←
            if f0.dir = false then do
              let (fsa, l) ← mapentry_rotate_right fs1 (mapentry_up f0 x)
              right_ptr fsa l
            else pure (fs, x)
          -- SET_COLOR and mapentry_rotate_left do nothing on NULL
          let fsx := set_color_grandparent (set_color_parent fsx BLACK) RED
          treemap_fix_after_insert_loop fuel fsx x1

/-- The function `treemap_fix_after_insert(m, x)`; the result is the new root. -/
def treemap_fix_after_insert {K V : Type} (fs : List (TreemapFrame K V))
    (x : TreemapEntry K V) : Except Err (TreemapEntry K V) :=
  match x with
  | .null => .error .undefined
  | .node l k v _ w r => do
    let (fs1, x1) ← treemap_fix_after_insert_loop (fs.length + 2) fs (.node l k v RED w r)
    match plug fs1 x1 with
    | .null => .error .undefined
    | root => pure (SET_COLOR root BLACK)

/-- The search loop of `treemap_get_entry` and of `treemap_put` from the entry
`p` with the ancestors `fs`: it ends at the entry with the key, or at NULL
below the last entry compared. -/
def treemap_get_entry {K V : Type} (cmp : K → K → Int) (key : K) :
    List (TreemapFrame K V) → TreemapEntry K V → List (TreemapFrame K V) × TreemapEntry K V
  | fs, .null => (fs, .null)
  | fs, .node l k v c w r =>
    if cmp key k < 0 then
      treemap_get_entry cmp key
        ({ dir := false, key := k, val := v, color := c, weight := w, other := r } :: fs) l
    else if cmp key k > 0 then
      treemap_get_entry cmp key
        ({ dir := true, key := k, val := v, color := c, weight := w, other := l } :: fs) r
    else (fs, .node l k v c w r)

/-- The function `treemap_init`. -/
def treemap_init {K V : Type} : Treemap K V := { size := 0, root := .null }

/-- The function `treemap_put` with a key that is not NULL and without
allocation failure: the returned code and the map after the call. -/
def treemap_put {K V : Type} (cmp : K → K → Int) (m : Treemap K V) (key : K) (val : V) :
    Except Err (Int × Treemap K V) :=
  match m.root with
  | .null => pure (0, { size := 1, root := .node .null key val BLACK 1 .null })
  | t =>
    match treemap_get_entry cmp key [] t with
    | (fs, .node l k _ c w r) => pure (1, { m with root := plug fs (.node l k val c w r) })
    | (fs, .null) => do
      let (fs1, e) := mapentry_update_weight fs (.node .null key val BLACK 0 .null) 1
      let root ← treemap_fix_after_insert fs1 e
      pure (0, { size := u64 ((m.size : Int) + 1), root := root })

/-- The loop of `treemap_index_of` over the ancestors; `c` is the entry below
the next ancestor on the way to the entry of the key. -/
def treemap_index_of_loop {K V : Type} (cmp : K → K → Int) (key : K) :
    List (TreemapFrame K V) → TreemapEntry K V → Nat → Except Err Nat
  | [], _, index => pure index
  | f :: fs, c, index =>
    if cmp key f.key > 0 then do
      let d ← ssize_t_val (WEIGHT_OF (if f.dir then f.other else c) + 1)
      treemap_index_of_loop cmp key fs (mapentry_up f c) (u64 ((index : Int) + d))
    else treemap_index_of_loop cmp key fs (mapentry_up f c) index

/-- The function `treemap_index_of` with a key that is not NULL. -/
def treemap_index_of {K V : Type} (cmp : K → K → Int) (m : Treemap K V) (key : K) :
    Except Err Int :=
  match treemap_get_entry cmp key [] m.root with
  | (_, .null) => pure (-1)
  | ([], .node l k v c w r) => do
    let a ← ssize_t_val (WEIGHT_OF (TreemapEntry.node l k v c w r) - WEIGHT_OF r)
    ssize_t_val (a - 1)
  | (f :: fs, .node l k v c w r) => do
    let index ← treemap_index_of_loop cmp key (f :: fs) (.node l k v c w r) (u64 (WEIGHT_OF l))
    pure (Int.bmod (index : Int) 18446744073709551616)

/-- The function `treeset_add`: `treemap_put` without a value; the result is
whether the put returned 1. -/
def treeset_add {K : Type} (cmp : K → K → Int) (s : Treemap K Unit) (val : K) :
    Except Err (Bool × Treemap K Unit) := do
  let (code, s1) ← treemap_put cmp s val ()
  pure (code == 1, s1)

/-- The function `index_function` of `slhr_grammar_writer.c` over the treeset:
every node is added, then the position of every node is asked for; the
`assert` fails on a negative position. -/
def index_function (nodes : List Nat) (rank : Nat) : Except Err (List Nat) := do
  let used ← (List.range rank).mapM (fun i => arr_get nodes i)
  let nodes_sorted ← used.foldlM (fun s v => do
    let (_, s1) ← treeset_add cmp_uint_cb s v
    pure s1) (treemap_init : Treemap Nat Unit)
  used.mapM (fun v => do
    let index ← treemap_index_of cmp_uint_cb nodes_sorted v
    if index ≥ 0 then pure index.toNat else .error .assertion)

/-- The loop of `get_edge` that brings the nodes of `k2_column` into the order
of the index function: `nodes_order[j] = nodes[indx[j]]`. -/
def get_edge_nodes_order (nodes : List Nat) (indx : List Nat) : Except Err (List Nat) :=
  indx.mapM (fun j => arr_get nodes j)

/-- A sequence of `treemap_put` calls. -/
def treemap_put_all {K V : Type} (cmp : K → K → Int) (m : Treemap K V) (kvs : List (K × V)) :
    Except Err (Treemap K V) :=
  kvs.foldlM (fun m kv => do
    let (_, m1) ← treemap_put cmp m kv.1 kv.2
    pure m1) m

/-- The number of entries reached from `e`. -/
def entry_count {K V : Type} : TreemapEntry K V → Nat
  | .null => 0
  | .node l _ _ _ _ r => entry_count l + 1 + entry_count r

/-- The keys reached from `e` in the order of the iteration (left, entry, right). -/
def entry_keys {K V : Type} : TreemapEntry K V → List K
  | .null => []
  | .node l k _ _ _ r => entry_keys l ++ k :: entry_keys r

/-- Every entry reached from `e` has as weight the number of entries of its
subtree. -/
def WeightsOk {K V : Type} : TreemapEntry K V → Prop
  | .null => True
  | .node l _ _ _ w r => w = entry_count l + 1 + entry_count r ∧ WeightsOk l ∧ WeightsOk r

/-- The ancestors `fs` of an entry with `n` entries in its subtree have the
right weights, and so has everything on their other sides. -/
def FramesOk {K V : Type} : Nat → List (TreemapFrame K V) → Prop
  | _, [] => True
  | n, f :: fs => f.weight = n + 1 + entry_count f.other ∧ WeightsOk f.other ∧ FramesOk f.weight fs

/-- The keys before the entry with ancestors `fs` in the order of the iteration. -/
def frames_left {K V : Type} : List (TreemapFrame K V) → List K
  | [] => []
  | f :: fs => frames_left fs ++ (if f.dir then entry_keys f.other ++ [f.key] else [])

/-- The keys after the subtree of the entry with ancestors `fs` in the order of
the iteration. -/
def frames_right {K V : Type} : List (TreemapFrame K V) → List K
  | [] => []
  | f :: fs => (if f.dir then [] else f.key :: entry_keys f.other) ++ frames_right fs

/-- A comparison function of a total order: zero exactly on equal keys,
antisymmetric and transitive. -/
def TotalOrderCmp {K : Type} (cmp : K → K → Int) : Prop :=
  (∀ a b, cmp a b = 0 ↔ a = b) ∧ (∀ a b, cmp a b < 0 ↔ cmp b a > 0) ∧
    (∀ a b c, cmp a b < 0 → cmp b c < 0 → cmp a c < 0)

/-- The entry `x` with the ancestors `fs` sits in a tree whose weights are
right and which has fewer than `2^63` entries. -/
def PtrOk {K V : Type} (fs : List (TreemapFrame K V)) (x : TreemapEntry K V) : Prop :=
  WeightsOk (plug fs x) ∧ entry_count (plug fs x) < 9223372036854775808

end Collections

/-! ## repair_normalize: the renumbering it performs -/

/-- Whether the slot of the symbol `r` in `rules` holds a rule. -/
def rule_stored (g : SLHRGrammar) (r : Nat) : Bool :=
  match g.rules.get? (r - g.min_nt) with
  | some (some _) => true
  | _ => false

/-- The ids from `min_nt` to `rule_max` with a stored rule, ascending. -/
def rule_ids (g : SLHRGrammar) : List Nat :=
  (List.range' g.min_nt (g.rule_max + 1 - g.min_nt)).filter (rule_stored g)

/-- The edge with its label mapped by `f`. -/
def relabel_edge (f : Nat → Nat) (e : HEdge) : HEdge := { e with label := f e.label }

/-- The graph with the label of every edge mapped by `f`. -/
def relabel_graph (f : Nat → Nat) (gr : HGraph) : HGraph :=
  { gr with edges := gr.edges.map (Option.map (relabel_edge f)) }

/-- The id a label has after the renumbering: the `k`-th stored rule becomes
`min_nt + k`, every other label stays. -/
def renumber (g : SLHRGrammar) (l : Nat) : Nat :=
  if l ∈ rule_ids g then g.min_nt + (rule_ids g).indexOf l else l

/-- A rule body without NULL edges. -/
def NoHoles (gr : HGraph) : Prop := ∀ oe ∈ gr.edges, oe ≠ none

instance (gr : HGraph) : Decidable (NoHoles gr) := by unfold NoHoles; infer_instance

/-- The bodies of a grammar after the holes are filled: `min_nt` is not the
start symbol, no rule is stored above `rule_max`, and no body has a NULL
edge. -/
def BodiesWf (g : SLHRGrammar) : Prop :=
  1 ≤ g.min_nt ∧
  (∀ j, j < g.rules.length → g.rule_max + 1 - g.min_nt ≤ j → g.rules.getD j none = none) ∧
  NoHoles g.start_symbol ∧
  (∀ o ∈ g.rules, ∀ r, o = some r → NoHoles r)

instance (g : SLHRGrammar) : Decidable (BodiesWf g) := by unfold BodiesWf; infer_instance

/-- A grammar as `slhr_grammar_rule_add` and `slhr_grammar_rule_del` keep it,
with the holes of the bodies filled: `BodiesWf`, and `rule_max` is 0 or the id
of a stored rule. -/
def PrunedWf (g : SLHRGrammar) : Prop :=
  BodiesWf g ∧ (g.rule_max ≠ 0 → g.min_nt ≤ g.rule_max ∧ rule_stored g g.rule_max = true)

instance (g : SLHRGrammar) : Decidable (PrunedWf g) := by unfold PrunedWf; infer_instance

/-- The grammar with the labels of all bodies mapped by `f`. -/
def relabel_grammar (f : Nat → Nat) (g : SLHRGrammar) : SLHRGrammar :=
  { g with
    start_symbol := relabel_graph f g.start_symbol
    rules := g.rules.map (Option.map (relabel_graph f)) }

/-- The grammar with the labels of the bodies of the symbols in `S` mapped
by `f`. -/
def relabel_within (f : Nat → Nat) (g : SLHRGrammar) (S : List Nat) : SLHRGrammar :=
  { g with
    start_symbol := if START_SYMBOL ∈ S then relabel_graph f g.start_symbol else g.start_symbol
    rules := (List.range g.rules.length).map (fun j =>
      if g.min_nt + j ∈ S then (g.rules.getD j none).map (relabel_graph f)
      else g.rules.getD j none) }

/-- The renumbering after `k` steps of the loop of `repair_normalize`: the
first `k` stored rules have their new ids. -/
def renumber_upto (g : SLHRGrammar) (k : Nat) (l : Nat) : Nat :=
  if l ∈ (rule_ids g).take k then g.min_nt + (rule_ids g).indexOf l else l

/-- The slot `j` of `rules` after `k` steps of the loop of `repair_normalize`. -/
def normalize_slot (g : SLHRGrammar) (k j : Nat) : Option HGraph :=
  if j < k then
    (g.rules.getD ((rule_ids g).getD j 0 - g.min_nt) none).map (relabel_graph (renumber_upto g k))
  else if g.min_nt + j ∈ (rule_ids g).drop k then
    (g.rules.getD j none).map (relabel_graph (renumber_upto g k))
  else none

/-- The grammar after `k` steps of the loop of `repair_normalize`. -/
def normalize_state (g : SLHRGrammar) (k : Nat) : SLHRGrammar :=
  { g with
    start_symbol := relabel_graph (renumber_upto g k) g.start_symbol
    rules := (List.range g.rules.length).map (normalize_slot g k) }

/-- The edge `rule_inserter_edges_for_hyperedge` makes of the body edge `b`
for the edge `hyperedge`: the nodes of `b` are positions in the nodes of
`hyperedge`. -/
def rule_inserter_edge (hyperedge b : HEdge) : Except Err HEdge := do
  let nodes ← (List.range b.rank).mapM (fun j => do
    let k ← arr_get b.nodes j
    arr_get hyperedge.nodes k)
  pure { label := b.label, rank := b.rank, nodes := nodes }

/-- The terminal edges an edge stands for: itself when its label is a
terminal, otherwise what the edges of the body of its rule stand for, built
as `rule_inserter_edges_for_hyperedge` builds them.

Modelled from the spec: the graph derived by the grammar; `fuel` bounds the
depth of the derivation. -/
def derive_edge (g : SLHRGrammar) : Nat → HEdge → Except Err (List HEdge)
  | 0, _ => .error .fuel
  | fuel + 1, e =>
    if e.label < g.min_nt then pure [e]
    else do
      let r ← slhr_grammar_rule_get g e.label
      let parts ← r.edges.mapM (fun oe =>
        match oe with
        | none => .error .undefined
        | some b => do
          let e1 ← rule_inserter_edge e b
          derive_edge g fuel e1)
      pure parts.flatten

/-- The terminal edges the start symbol of the grammar stands for.

Modelled from the spec: the graph derived by the grammar. -/
def derive_graph (g : SLHRGrammar) (fuel : Nat) : Except Err (List HEdge) := do
  let parts ← g.start_symbol.edges.mapM (fun oe =>
    match oe with
    | none => .error .undefined
    | some e => derive_edge g fuel e)
  pure parts.flatten

/-- Every label of the bodies of the grammar is a terminal or the id of a
stored rule. -/
def ClosedLabels (g : SLHRGrammar) : Prop :=
  (∀ oe ∈ g.start_symbol.edges, ∀ e, oe = some e → e.label < g.min_nt ∨ e.label ∈ rule_ids g) ∧
  (∀ o ∈ g.rules, ∀ r, o = some r →
    ∀ oe ∈ r.edges, ∀ e, oe = some e → e.label < g.min_nt ∨ e.label ∈ rule_ids g)

instance (g : SLHRGrammar) : Decidable (ClosedLabels g) := by unfold ClosedLabels; infer_instance

/-- A grammar over three terminal labels whose only rule, 3, is used by two
edges of the start symbol. -/
def prunedAwayGrammar : SLHRGrammar :=
  { min_nt := 3
    start_symbol :=
      { edges :=
          [some { label := 3, rank := 2, nodes := [0, 7] },
           some { label := 3, rank := 2, nodes := [1, 8] },
           some { label := 1, rank := 3, nodes := [2, 9, 4] }]
        rank := RANK_NONE }
    rule_max := 3
    rules :=
      [some { edges := [some { label := 0, rank := 3, nodes := [0, 0, 1] }], rank := 2 },
       none, none, none, none, none, none, none] }

/-- A grammar over three terminal labels with the rules 3 (used once in the
start symbol and once in rule 4) and 4 (used four times). -/
def gapGrammar : SLHRGrammar :=
  { min_nt := 3
    start_symbol :=
      { edges :=
          [some { label := 3, rank := 2, nodes := [0, 7] },
           some { label := 4, rank := 5, nodes := [1, 2, 17, 0, 16] },
           some { label := 4, rank := 5, nodes := [4, 5, 19, 3, 18] },
           some { label := 4, rank := 5, nodes := [7, 8, 21, 6, 20] },
           some { label := 4, rank := 5, nodes := [10, 11, 23, 9, 22] },
           some { label := 2, rank := 3, nodes := [2, 9, 4] }]
        rank := RANK_NONE }
    rule_max := 4
    rules :=
      [some { edges := [some { label := 0, rank := 3, nodes := [0, 0, 1] }], rank := 2 },
       some { edges := [some { label := 0, rank := 3, nodes := [0, 1, 2] },
                        some { label := 3, rank := 2, nodes := [3, 4] }]
              rank := 5 },
       none, none, none, none, none, none] }

/-- The grammar `repair_prune` makes of `gapGrammar`: rule 3 is inlined and
deleted, rule 4 is kept. -/
def gapPrunedGrammar : SLHRGrammar :=
  { min_nt := 3
    start_symbol :=
      { edges :=
          [some { label := 0, rank := 3, nodes := [0, 0, 7] },
           some { label := 4, rank := 5, nodes := [1, 2, 17, 0, 16] },
           some { label := 4, rank := 5, nodes := [4, 5, 19, 3, 18] },
           some { label := 4, rank := 5, nodes := [7, 8, 21, 6, 20] },
           some { label := 4, rank := 5, nodes := [10, 11, 23, 9, 22] },
           some { label := 2, rank := 3, nodes := [2, 9, 4] }]
        rank := RANK_NONE }
    rule_max := 4
    rules :=
      [none,
       some { edges := [some { label := 0, rank := 3, nodes := [0, 1, 2] },
                        some { label := 0, rank := 3, nodes := [3, 3, 4] }]
              rank := 5 },
       none, none, none, none, none, none] }
/-! ## find_occurrence_of_digram: the search state and the edges it registers -/

/-- The adjacency type a pass of the loop `for(int j = 0; j <= 1; j++)` looks
for: `adj0` in the first pass (`b = false`), `adj1` in the second. -/
def digram_adj (d : Digram) (b : Bool) : AdjacencyType := if b then d.adj1 else d.adj0

/-- The number of lists of a node: the size of its adjacency map. -/
def occ_lists_count (v : Bool → Option (List Nat)) : Nat :=
  (if (v false).isSome then 1 else 0) + (if (v true).isSome then 1 else 0)

/-- The search state `s` of a digram of two different adjacency types holds
exactly the lists `σ`: a node without an entry has no element, a node with an
entry has an adjacency map with the list `v b` for the adjacency type of
pass `b`. -/
def OccRep (d : Digram) (s : OccState) (σ : Nat → Option (Bool → Option (List Nat))) : Prop :=
  HWf s.map ∧
  ∀ n, match σ n with
    | none => hashmap_get s.map n = none
    | some v => ∃ m, hashmap_get s.map n = some (.map m) ∧ HWf m ∧
        (∀ b, hashmap_get m (digram_adj d b) = v b) ∧ hashmap_size m = occ_lists_count v

/-- The list of the node `n` for pass `b`, empty when there is none. -/
def occ_list (σ : Nat → Option (Bool → Option (List Nat))) (n : Nat) (b : Bool) : List Nat :=
  match σ n with
  | none => []
  | some v => (v b).getD []

/-- The edge `e` of the start rule is one that pass `b` registers at node `n`
when the scan is at slot `i`, pass `j`: it has been visited by pass `b`, it is
not a hole, it has the label of the adjacency type, and `n` is its node at
the connection type. -/
def OccReg (d : Digram) (G : HGraph) (i j : Nat) (b : Bool) (e n : Nat) : Prop :=
  (e < i ∨ (e = i ∧ (if b then 2 else 1) ≤ j)) ∧
  ∃ edge, G.edges.get? e = some (some edge) ∧ edge.label = (digram_adj d b).label ∧
    edge.nodes.get? (digram_adj d b).conn_type = some n

/-- No node of the lists is without a list, and no list is empty. -/
def OccTidy (σ : Nat → Option (Bool → Option (List Nat))) : Prop :=
  ∀ n v, σ n = some v → occ_lists_count v ≠ 0 ∧ ∀ c l, v c = some l → l ≠ []

/-- The invariant of the search for a digram of two different adjacency
types, at slot `i` and pass `j`: the lists are tidy, no index is twice in a
list, a node with both lists has the same single index in both, and the lists
hold exactly the registered edges. -/
def OccInvNe (d : Digram) (G : HGraph) (i j : Nat)
    (σ : Nat → Option (Bool → Option (List Nat))) : Prop :=
  OccTidy σ ∧ (∀ n c, (occ_list σ n c).Nodup) ∧
  (∀ n, occ_list σ n false ≠ [] → occ_list σ n true ≠ [] →
    ∃ e, occ_list σ n false = [e] ∧ occ_list σ n true = [e]) ∧
  ∀ n b e, e ∈ occ_list σ n b ↔ OccReg d G i j b e n

/-- The search state `s` of a digram of two equal adjacency types holds
exactly the edges `σ`. -/
def OccRepEq (s : OccState) (σ : Nat → Option Nat) : Prop :=
  HWf s.map ∧ ∀ n, hashmap_get s.map n = (σ n).map OccStateElement.edge

/-- The invariant of the search for a digram of two equal adjacency types at
slot `i`: a node holds the edge before `i` that has the label of the
adjacency type and the node at its connection type. -/
def OccInvEq (d : Digram) (G : HGraph) (i : Nat) (σ : Nat → Option Nat) : Prop :=
  ∀ n e, σ n = some e ↔ OccReg d G i 0 false e n

/-- The invariant between the start rule and the search state when the scan
is at the slot `i`, before its first pass. -/
def OccInvAt (d : Digram) (G : HGraph) (i : Nat) (s : OccState) : Prop :=
  if d.adj0 = d.adj1 then ∃ σ, OccRepEq s σ ∧ OccInvEq d G i σ
  else ∃ σ, OccRep d s σ ∧ OccInvNe d G i 0 σ

/-- The invariant between the start rule and the search state from which
`find_occurrence_of_digram` continues. -/
def OccInv (d : Digram) (G : HGraph) (s : OccState) : Prop := OccInvAt d G s.start s

/-- The slots `a` and `c` of the start rule hold an occurrence of the digram:
two different edges with the labels of `adj0` and `adj1` whose nodes at the
connection types are the same node. -/
def OccPair (d : Digram) (G : HGraph) (a c : Nat) : Prop :=
  a ≠ c ∧ ∃ e0 e1 n, G.edges.get? a = some (some e0) ∧ G.edges.get? c = some (some e1) ∧
    e0.label = d.adj0.label ∧ e1.label = d.adj1.label ∧
    e0.nodes.get? d.adj0.conn_type = some n ∧ e1.nodes.get? d.adj1.conn_type = some n

/-- The start rule `G1` is `G` with the slots `a` and `c` replaced by holes or
by edges whose label is none of the two labels of the digram. -/
def OccReplaced (d : Digram) (G G1 : HGraph) (a c : Nat) : Prop :=
  (∀ e, e ≠ a → e ≠ c → G1.edges.get? e = G.edges.get? e) ∧
  ∀ e edge, e = a ∨ e = c → G1.edges.get? e = some (some edge) →
    ∀ b, edge.label ≠ (digram_adj d b).label

/-- Every edge of the start rule with the label of an adjacency type of the
digram has a node at its connection type. -/
def OccConn (d : Digram) (G : HGraph) : Prop :=
  ∀ oe ∈ G.edges, ∀ edge, oe = some edge → ∀ b, edge.label = (digram_adj d b).label →
    (digram_adj d b).conn_type < edge.nodes.length

/-- The pairs of start rule and search state that the inner loop of
`repair_replace_digrams` (`replace_occurrences`) passes to
`find_occurrence_of_digram`: the first call has the start rule of the grammar
for which the rule of the digram was created, and the initial state; every
later call has the state the previous call returned and the start rule after
`replace_occurrence` replaced the occurrence the previous call found. -/
inductive OccReached (max_rank : Int) (d : Digram) (new_rule : RuleCreator) :
    Bool → OccState → ReplaceState → Prop where
  | first (st : ReplaceState) :
      rule_creator_digram_init st.g d = .ok new_rule →
      OccReached max_rank d new_rule false occ_state_init st
  | next (rule_created : Bool) (state state1 : OccState) (st st1 : ReplaceState)
      (occ : Nat × Nat) :
      OccReached max_rank d new_rule rule_created state st →
      find_occurrence_of_digram d st.g.start_symbol (hgraph_len st.g.start_symbol) state
        state.start = .ok (state1, some occ) →
      replace_occurrence max_rank new_rule rule_created st occ = .ok st1 →
      OccReached max_rank d new_rule true state1 st1

/-- The lists with the list of pass `b` at the node `n` replaced by `o`. -/
def occ_set (σ : Nat → Option (Bool → Option (List Nat))) (n : Nat) (b : Bool)
    (o : Option (List Nat)) : Nat → Option (Bool → Option (List Nat)) :=
  match σ n with
  | none => σ
  | some v => Function.update σ n (some (Function.update v b o))

/-- The lists after the edge `e` is taken out of the list of pass `b` at the
node `n`, an empty list is deleted, and a node without a list is deleted. -/
def occ_unreg (σ : Nat → Option (Bool → Option (List Nat))) (n : Nat) (b : Bool) (e : Nat) :
    Nat → Option (Bool → Option (List Nat)) :=
  match σ n with
  | none => σ
  | some v =>
    match v b with
    | none => σ
    | some l =>
      if e ∈ l then
        if l.erase e = [] then
          if (v (!b)).isSome then occ_set σ n b none else Function.update σ n none
        else occ_set σ n b (some (l.erase e))
      else σ

/-! ## The blocks of find_occurrence_complete -/

/-- The block `if(occ_state_node_adj_contains_i(state, node, adj, i, &index))
occ_state_node_adj_delete_index(state, node, adj, index);`. -/
def occ_state_delete_i (s : OccState) (node : Nat) (adj : AdjacencyType) (i : Nat) :
    Except Err OccState := do
  match ← occ_state_node_adj_contains_i s node adj i with
  | some index => occ_state_node_adj_delete_index s node adj index
  | none => pure s

/-- The block that takes the edge `i` out of the list of `other_node` and
deletes the list, and the node, when they become empty. -/
def occ_state_unregister (s : OccState) (other_node : Nat) (adj : AdjacencyType) (i : Nat) :
    Except Err OccState := do
  match ← occ_state_node_adj_contains_i s other_node adj i with
  | some index => do
    let s ← occ_state_node_adj_delete_index s other_node adj index
    occ_state_cleanup s other_node adj
  | none => pure s

/-- The block `if(occ_state_node_adj_len(state, node, adj) == 0)
occ_state_node_adj_del(state, node, adj);`. -/
def occ_state_drop_empty (s : OccState) (node : Nat) (adj : AdjacencyType) :
    Except Err OccState := do
  if (← occ_state_node_adj_len s node adj) = 0 then occ_state_node_adj_del s node adj
  else pure s

/-- The block `if(edge->label == adjacency_type_2->label) { ... }` of
`find_occurrence_of_digram`: the edge `i` is taken out of the list of its
other node. -/
def find_occurrence_release_edge (s : OccState) (edge : HEdge) (adjacency_type_2 : AdjacencyType)
    (i : Nat) : Except Err OccState :=
  if edge.label = adjacency_type_2.label then do
    let other_node ← arr_get edge.nodes adjacency_type_2.conn_type
    if occ_state_contains_node s other_node then do
      let c ← occ_state_node_contains_adj s other_node adjacency_type_2
      if c then occ_state_unregister s other_node adjacency_type_2 i else pure s
    else pure s
  else pure s

/-- The block `if(edge_1_val->label == adjacency_type->label) { ... }` of
`find_occurrence_of_digram`: the edge `edge_1` is taken out of the list of
its other node. -/
def find_occurrence_release_partner (s : OccState) (edge_1_val : HEdge)
    (adjacency_type : AdjacencyType) (edge_1 : Nat) : Except Err OccState :=
  if edge_1_val.label = adjacency_type.label then do
    let other_node ← arr_get edge_1_val.nodes adjacency_type.conn_type
    if occ_state_contains_node s other_node then
      occ_state_unregister s other_node adjacency_type edge_1
    else pure s
  else pure s

/-- The first block of the last `else` branch of `find_occurrence_of_digram`:
the edge `i` is taken out of the lists of `node`, and the first edge of the
list of the other adjacency type is popped as the partner `edge_1`. -/
def find_occurrence_take_partner (state : OccState) (i : Nat) (node : Nat)
    (adjacency_type adjacency_type_2 : AdjacencyType) : Except Err (OccState × Nat) := do
  let c ← occ_state_node_contains_adj state node adjacency_type
  let s1 ← (if c then occ_state_delete_i state node adjacency_type i else pure state)
  let s2 ← occ_state_delete_i s1 node adjacency_type_2 i
  occ_state_node_adj_pop0 s2 node adjacency_type_2

/-- The last block of the last `else` branch of `find_occurrence_of_digram`:
the empty lists of `node` are deleted, and `node` when it has no list. -/
def find_occurrence_tidy_node (s5 : OccState) (node : Nat)
    (adjacency_type adjacency_type_2 : AdjacencyType) : Except Err OccState := do
  let c ← occ_state_node_contains_adj s5 node adjacency_type
  let s6 ← (if c then occ_state_drop_empty s5 node adjacency_type else pure s5)
  let s7 ← occ_state_drop_empty s6 node adjacency_type_2
  let l ← occ_state_node_len s7 node
  if l = 0 then occ_state_node_del s7 node else pure s7

/-- The function `find_occurrence_complete` as the sequence of its blocks. -/
def find_occurrence_complete_steps (start_rule : HGraph) (state : OccState) (i : Nat)
    (edge : HEdge) (node : Nat) (adjacency_type adjacency_type_2 : AdjacencyType) :
    Except Err (OccState × Nat) := do
  let (s3, edge_1) ← find_occurrence_take_partner state i node adjacency_type adjacency_type_2
  let s4 ← find_occurrence_release_edge s3 edge adjacency_type_2 i
  let edge_1_val ← hgraph_edge_deref start_rule edge_1
  let s5 ← find_occurrence_release_partner s4 edge_1_val adjacency_type edge_1
  let s8 ← find_occurrence_tidy_node s5 node adjacency_type adjacency_type_2
  pure ({ s8 with start := i }, edge_1)

/-! ## An example state of the search -/

/-- An example state of the digram replacement: the start rule has the edges
`0(5, 6, 7)` and `1(7, 8, 9)`, which share the node 7. -/
def occExampleState : ReplaceState :=
  { g := slhr_grammar_init ⟨[some ⟨0, 3, [5, 6, 7]⟩, some ⟨1, 3, [7, 8, 9]⟩], 0⟩ 2,
    adj_dict := ⟨0, []⟩, digram_count := hashmap_init }

/-- The digram of the two edges of `occExampleState`. -/
def occExampleDigram : Digram := ⟨⟨0, 2⟩, ⟨1, 0⟩⟩

/-- The rule `rule_creator_digram_init` creates for `occExampleDigram`. -/
def occExampleRule : RuleCreator :=
  { digram := occExampleDigram, rule_name := 2,
    rule := ⟨[some ⟨0, 3, [1, 2, 0]⟩, some ⟨1, 3, [0, 3, 4]⟩], 5⟩ }

/-! ## The byte level: arith.h, bitarray.c

The definitions of the namespace `Wire` follow the C code byte by byte: a
`BitArray` is its length in bits and its allocated bytes, a written file is
the list of its bytes.  A byte is a natural number below 256; where C
computes in a wider type and stores into a `uint8_t`, the value is reduced
`% 256`.  `Err.undefined` also stands for undefined behaviour of C arithmetic
(a shift by at least the width of the type, a signed overflow, a division by
zero). -/

namespace Wire

/-- The macro `DIVUP(a, b)`. -/
def DIVUP (a b : Nat) : Nat := (a + b - 1) / b

/-- The macro `BYTE_LEN(n)`. -/
def BYTE_LEN (n : Nat) : Nat := DIVUP n 8

/-- The macro `BITS_NEEDED(n)`: 1 for 0, else the position of the highest
set bit plus one (`64 - clzll(n)`). -/
def BITS_NEEDED (n : Nat) : Nat := if n = 0 then 1 else Nat.log2 n + 1

/-- The macro `POPCNT8(b)`: the number of set bits of `(uint8_t) b`. -/
def POPCNT8 (b : Nat) : Nat := ((List.range 8).filter (fun k => (b % 256).testBit k)).length

/-- The macro `POPCNT32(b)`: the number of set bits of a 32-bit value. -/
def POPCNT32 (b : Nat) : Nat :=
  ((List.range 32).filter (fun k => (b % 4294967296).testBit k)).length

/-- Modelled from the spec: the function `popcnt(data, size)` of `arith.c`,
which is not part of the sources at hand; it is taken to count the set bits of
the `size` bytes at `data`, as its callers `bitarray_count` and
`bitsequence_reader_rank1` use it. -/
def popcnt (data : List Nat) (size : Nat) : Nat := ((data.take size).map POPCNT8).sum

/-- Modelled from the spec: the function `byte_reverse` of `arith.c`, which is
not part of the sources at hand; it is taken to mirror the eight bits of a
byte. -/
def byte_reverse (n : Nat) : Nat :=
  (List.range 8).foldl (fun acc k => if (n % 256).testBit k then acc + 2 ^ (7 - k) else acc) 0

/-- The macro `select_bit(value, n)` in its BMI2 form
`_tzcnt_u32(_pdep_u32(1U << n, value))`: the position of the set bit number
`n` (from 0, lowest first) of the 32-bit `value`, 32 when there is none. -/
def select_bit (value n : Nat) : Nat :=
  match ((List.range 32).filter (fun k => (value % 4294967296).testBit k)).get? n with
  | some k => k
  | none => 32

/-- The struct `BitArray`: `len` bits stored in the `cap = data.length` bytes
`data`, bit `i` being bit `7 - i % 8` of byte `i / 8`. -/
structure BitArray where
  len : Nat
  data : List Nat
deriving DecidableEq, Repr

def BITARRAY_DEFAULT_CAP : Nat := 8

/-- The function `bitarray_init` (`calloc` gives zero bytes). -/
def bitarray_init (len : Nat) : BitArray :=
  if len ≠ 0 then
    { len := len, data := List.replicate (max (BYTE_LEN len) BITARRAY_DEFAULT_CAP) 0 }
  else { len := len, data := [] }

/-- The function `bitarray_get`. -/
def bitarray_get (b : BitArray) (i : Nat) : Except Err Bool :=
  if i ≥ b.len then .error .panic
  else
    let byteindex := i / 8
    let bitoff := i % 8
    match b.data.get? byteindex with
    | none => .error .undefined
    | some x => .ok (((x >>> (8 - bitoff - 1)) &&& 1) == 1)

/-- The function `bitarray_set`; `~mask` is applied to a byte, so it is
`255 - mask`. -/
def bitarray_set (b : BitArray) (i : Nat) (bit : Bool) : Except Err BitArray :=
  if i ≥ b.len then .error .panic
  else
    let byteindex := i / 8
    let bitoff := i % 8
    let mask := (1 <<< (8 - bitoff - 1)) % 256
    match b.data.get? byteindex with
    | none => .error .undefined
    | some x =>
      if bit then .ok { b with data := b.data.set byteindex ((x ||| mask) % 256) }
      else .ok { b with data := b.data.set byteindex (x &&& (255 - mask)) }

/-- The function `bitarray_clone`. -/
def bitarray_clone (src : BitArray) : BitArray := src

/-- The function `bitarray_resize`; the bytes that `malloc` and `realloc` add
are written before they are read and are taken to be 0. -/
def bitarray_resize (b : BitArray) (min_cap : Nat) : BitArray :=
  let old_cap := b.data.length
  if old_cap > 0 then
    if min_cap ≤ old_cap then b
    else
      let new_cap := old_cap + max (min_cap - old_cap) (min_cap >>> 1)
      { b with data := b.data ++ List.replicate (new_cap - old_cap) 0 }
  else
    { b with data := List.replicate (max BITARRAY_DEFAULT_CAP min_cap) 0 }

/-- The function `bitarray_append`. -/
def bitarray_append (b : BitArray) (v : Bool) : Except Err BitArray :=
  let byteindex := b.len / 8
  let bitoff := b.len % 8
  if bitoff = 0 then
    let b1 := if byteindex = b.data.length then bitarray_resize b (b.data.length + 1) else b
    if byteindex < b1.data.length then
      .ok { len := b1.len + 1, data := b1.data.set byteindex (if v then 128 else 0) }
    else .error .undefined
  else
    let mask := (1 <<< (8 - bitoff - 1)) % 256
    match b.data.get? byteindex with
    | none => .error .undefined
    | some x =>
      .ok { len := b.len + 1
            data := b.data.set byteindex (if v then (x ||| mask) % 256 else x &&& (255 - mask)) }

/-- The loop of `bitarray_append_bits`; `bits >> k` and `bits << k` are taken
on `uint64_t` and stored into a byte. -/
def bitarray_append_bits_loop (bits : Nat) : Nat → BitArray → Nat → Except Err BitArray
  | 0, _, _ => .error .fuel
  | fuel + 1, b, n =>
    if n = 0 then .ok b
    else
      let byte_index := b.len / 8
      let bit_count := b.len % 8
      match b.data.get? byte_index with
      | none => .error .undefined
      | some x0 =>
        let x := if bit_count = 0 then 0 else x0
        if bit_count + n ≥ 8 then
          let n_bits := 8 - bit_count
          let x1 := (x ||| (bits >>> (n - n_bits))) % 256
          bitarray_append_bits_loop bits fuel
            { len := b.len + n_bits, data := b.data.set byte_index x1 } (n - n_bits)
        else
          let shift := 8 - (bit_count + n)
          let x1 := (x ||| ((bits <<< shift) % 18446744073709551616)) % 256
          .ok { len := b.len + n, data := b.data.set byte_index x1 }

/-- The function `bitarray_append_bits`. -/
def bitarray_append_bits (b : BitArray) (bits : Nat) (n : Nat) : Except Err BitArray :=
  if n > 64 then .error .assertion
  else if n = 0 then .ok b
  else
    let new_cap := BYTE_LEN (b.len + n)
    bitarray_append_bits_loop (bits % 18446744073709551616) (n + 1) (bitarray_resize b new_cap) n

/-- Writing `a[i] = x` into a C array of `a.length` elements. -/
def arr_set {α : Type} (a : List α) (i : Nat) (x : α) : Except Err (List α) :=
  if i < a.length then .ok (a.set i x) else .error .undefined

/-- The function `bitarray_append_bitarray`. -/
def bitarray_append_bitarray (b bs : BitArray) : Except Err BitArray := do
  if bs.len = 0 then pure b
  else if b.len = 0 then pure { len := bs.len, data := bs.data }
  else
    let new_cap := BYTE_LEN (b.len + bs.len)
    let b := bitarray_resize b new_cap
    let expected_offset := b.len % 8
    let base := b.len / 8
    let byte_len := BYTE_LEN bs.len
    if expected_offset > 0 then
      let bits_in_last_byte := if bs.len % 8 = 0 then 8 else bs.len % 8
      let d0 ← arr_get b.data base
      let s0 ← arr_get bs.data 0
      let data ← arr_set b.data base
        (((d0 &&& (255 - (255 >>> expected_offset))) ||| (s0 >>> expected_offset)) % 256)
      let data ← (List.range (byte_len - 1)).foldlM
        (fun (data : List Nat) k => do
          let i := k + 1
          let p ← arr_get bs.data (i - 1)
          let q ← arr_get bs.data i
          arr_set data (base + i) ((((p <<< (8 - expected_offset)) &&& 255) ||| (q >>> expected_offset)) % 256))
        data
      let data ←
        if bits_in_last_byte + expected_offset > 8 then do
          let p ← arr_get bs.data (byte_len - 1)
          arr_set data (base + byte_len) ((p <<< (8 - expected_offset)) % 256)
        else pure data
      pure { len := b.len + bs.len, data := data }
    else
      if bs.data.length < byte_len ∨ b.data.length < base + byte_len then .error .undefined
      else
        pure { len := b.len + bs.len
               data := b.data.take base ++ bs.data.take byte_len ++ b.data.drop (base + byte_len) }

/-- The function `bitarray_count`; the count is a `size_t`. -/
def bitarray_count (b : BitArray) (start len : Nat) (bit : Bool) : Except Err Nat :=
  if len = 0 then .ok 0
  else if start + len > b.len then .error .assertion
  else
    let start_byte := start / 8
    let end_byte := BYTE_LEN (start + len) - 1
    let count := popcnt (b.data.drop start_byte) (end_byte - start_byte)
    let bit_offset := start % 8
    match b.data.get? start_byte, b.data.get? end_byte with
    | some xs, some xe =>
      let count : Int :=
        if bit_offset > 0 then (count : Int) - POPCNT8 (xs >>> (8 - bit_offset)) else count
      let end_bits := (end_byte + 1) * 8 - (start + len)
      let count := u64 (count + POPCNT8 (xe >>> end_bits))
      .ok (if bit then count else u64 ((len : Int) - count))
    | _, _ => .error .undefined

end Wire
/-! ## The byte level: writer.c, bitsequence.c -/

namespace Wire

/-- The struct `BitWriter` writing to memory (`is_file == false`): the bits
written so far. -/
structure BitWriter where
  data : BitArray
deriving DecidableEq, Repr

/-- The function `bitwriter_init` with `path == NULL`. -/
def bitwriter_init : BitWriter := { data := bitarray_init 0 }

def bitwriter_len (w : BitWriter) : Nat := w.data.len

def bitwriter_bytelen (w : BitWriter) : Nat := BYTE_LEN (bitwriter_len w)

/-- The function `bitwriter_write_bits`. -/
def bitwriter_write_bits (w : BitWriter) (bits : Nat) (n : Nat) : Except Err BitWriter := do
  if n > 64 then .error .assertion
  else
    let d ← bitarray_append_bits w.data bits n
    pure { data := d }

def bitwriter_write_bit (w : BitWriter) (b : Nat) : Except Err BitWriter :=
  bitwriter_write_bits w b 1

def bitwriter_write_byte (w : BitWriter) (b : Nat) : Except Err BitWriter :=
  bitwriter_write_bits w b 8

/-- The function `bitwriter_flush`. -/
def bitwriter_flush (w : BitWriter) : Except Err BitWriter := do
  let mod := w.data.len % 8
  if mod > 0 then
    let d ← bitarray_append_bits w.data 0 (8 - mod)
    pure { data := d }
  else pure w

/-- The function `bitwriter_write_bytes`: `size` bytes of `data`. -/
def bitwriter_write_bytes (w : BitWriter) (data : List Nat) (size : Nat) : Except Err BitWriter :=
  (List.range size).foldlM
    (fun w i => do
      let x ← arr_get data i
      bitwriter_write_byte w x)
    w

/-- The function `bitwriter_write_bitarray`. -/
def bitwriter_write_bitarray (w : BitWriter) (b : BitArray) : Except Err BitWriter := do
  if b.len = 0 then pure w
  else
    let end_bit := b.len
    let last_bits := end_bit % 8
    let end_byte := if last_bits > 0 then BYTE_LEN end_bit - 1 else BYTE_LEN end_bit
    let w ← bitwriter_write_bytes w b.data end_byte
    if last_bits > 0 then
      let x ← arr_get b.data end_byte
      let value := (x >>> (8 - last_bits)) % 256
      bitwriter_write_bits w value last_bits
    else pure w

/-- The loop of `bitwriter_write_vbyte`. -/
def bitwriter_write_vbyte_loop : Nat → BitWriter → Nat → Except Err BitWriter
  | 0, _, _ => .error .fuel
  | fuel + 1, w, n =>
    if n > 127 then do
      let w ← bitwriter_write_byte w (n &&& 127)
      bitwriter_write_vbyte_loop fuel w (n >>> 7)
    else bitwriter_write_byte w (n ||| 128)

/-- The function `bitwriter_write_vbyte` (ten groups of 7 bits cover a
`uint64_t`). -/
def bitwriter_write_vbyte (w : BitWriter) (n : Nat) : Except Err BitWriter :=
  bitwriter_write_vbyte_loop 10 w (n % 18446744073709551616)

/-- The function `bitwriter_write_bitwriter`. -/
def bitwriter_write_bitwriter (w src : BitWriter) : Except Err BitWriter := do
  if src.data.len % 8 ≠ 0 then .error .assertion
  else
    let w ← bitwriter_write_bitarray w src.data
    bitwriter_flush w

/-- The bytes a finished writer holds. -/
def bitwriter_bytes (w : BitWriter) : List Nat := w.data.data.take (bitwriter_bytelen w)

def BLOCKW : Nat := 32
def DEFAULT_FACTOR : Nat := 8
def BITSEQUENCE_REGULAR : Nat := 1
def BITSEQUENCE_RG : Nat := 2
def INT_MAX : Nat := 2147483647

/-- The function `build_rank_sub`. -/
def build_rank_sub (bits : BitArray) (start blocks : Nat) : Except Err Nat :=
  let num_blocks := DIVUP bits.len BLOCKW
  (List.range blocks).foldlM
    (fun rank k =>
      let i := start + k
      if i < num_blocks then do
        let c ← bitarray_count bits (i * BLOCKW) BLOCKW true
        pure (rank + c)
      else pure rank)
    0

/-- The struct `Bitsequence` of the writer side. -/
structure Bitsequence where
  bits : BitArray
  factor : Nat
  s : Nat
  rs : List Nat
deriving DecidableEq, Repr

/-- The function `bitsequence_build`, without the final call of
`bitsequence_rank1` that fills the field `ones`, which the writer does not
use.  `factor` is an `int`; the product `BLOCKW * factor` is undefined when it
does not fit. -/
def bitsequence_build (bits : BitArray) (factor : Int) : Except Err Bitsequence := do
  let factor : Nat := if factor ≤ 0 then DEFAULT_FACTOR else factor.toNat
  if BLOCKW * factor > INT_MAX then .error .undefined
  else
    let s := BLOCKW * factor
    let num_sblock := bits.len / s + 1
    let rs ← (List.range (num_sblock - 1)).foldlM
      (fun (rs : List Nat) k => do
        let i := k + 1
        let prev ← arr_get rs (i - 1)
        let r ← build_rank_sub bits ((i - 1) * factor) factor
        pure (rs ++ [prev + r]))
      [0]
    pure { bits := bits, factor := factor, s := s, rs := rs }

/-- The function `bitwriter_write_bitsequence_rg`; the written factor is the
parameter itself, converted to `uint64_t`. -/
def bitwriter_write_bitsequence_rg (w : BitWriter) (b : BitArray) (factor : Int) :
    Except Err BitWriter := do
  let bs ← bitsequence_build b factor
  let last ← arr_get bs.rs (bs.rs.length - 1)
  let bits_per_rs := BITS_NEEDED last
  let w ← bitwriter_write_byte w BITSEQUENCE_RG
  let w ← bitwriter_write_vbyte w b.len
  let w ← bitwriter_write_vbyte w (u64 factor)
  let w ← bitwriter_write_vbyte w bits_per_rs
  let w ← bitwriter_write_bitarray w b
  let w ← (List.range bs.rs.length).foldlM
    (fun w i =>
      if i > 0 then do
        let x ← arr_get bs.rs i
        bitwriter_write_bits w x bits_per_rs
      else pure w)
    w
  bitwriter_flush w

/-- The struct `BitsequenceParams` (without RRR). -/
structure BitsequenceParams where
  factor : Int
deriving DecidableEq, Repr

/-- The function `bitwriter_write_bitsequence`. -/
def bitwriter_write_bitsequence (w : BitWriter) (b : BitArray) (params : BitsequenceParams) :
    Except Err BitWriter := do
  if b.len ≤ 200 then
    let w ← bitwriter_write_byte w BITSEQUENCE_REGULAR
    let w ← bitwriter_write_vbyte w b.len
    let w ← bitwriter_write_bitarray w b
    bitwriter_flush w
  else bitwriter_write_bitsequence_rg w b params.factor

end Wire
/-! ## The byte level: reader.c -/

namespace Wire

/-- The structs `Reader` and `FileReader` (with `USE_MMAP`): the bytes `mm` of
the mapped file, the offset `bitoff` of this reader and the bit position
`bitpos` of the file reader.  Every reader of a file shares the position; each
function of the embedding that reads sets it first, as the C code does. -/
structure Reader where
  mm : List Nat
  bitoff : Nat
  bitpos : Nat
deriving DecidableEq, Repr

def reader_bitlen (r : Reader) : Nat := 8 * r.mm.length

/-- The function `reader_bitpos`. -/
def reader_bitpos (r : Reader) (pos : Nat) : Except Err Reader :=
  let pos := pos + r.bitoff
  if pos ≥ reader_bitlen r then .error .panic else .ok { r with bitpos := pos }

/-- The function `reader_initf` on the mapped bytes. -/
def reader_initf (mm : List Nat) (byte_off : Nat) : Except Err Reader :=
  reader_bitpos { mm := mm, bitoff := 8 * byte_off, bitpos := 0 } 0

/-- The function `reader_init`. -/
def reader_init (src : Reader) (byte_off : Nat) : Except Err Reader :=
  reader_bitpos { src with bitoff := src.bitoff + 8 * byte_off } 0

/-- The function `check_remaining`. -/
def check_remaining (r : Reader) (n : Nat) : Except Err Unit :=
  if r.bitpos + n > reader_bitlen r then .error .panic else .ok ()

/-- The function `reader_read`: the `n` bytes at the position. -/
def reader_read (r : Reader) (n : Nat) : Except Err (List Nat × Reader) := do
  check_remaining r (8 * n)
  let byteindex := r.bitpos / 8
  let bitoff := r.bitpos % 8
  if bitoff > 0 then .error .panic
  else pure ((r.mm.drop byteindex).take n, { r with bitpos := r.bitpos + 8 * n })

/-- The function `reader_readbit`. -/
def reader_readbit (r : Reader) : Except Err (Bool × Reader) := do
  check_remaining r 1
  let byteindex := r.bitpos / 8
  let bitoff := r.bitpos % 8
  let x ← arr_get r.mm byteindex
  pure (((x >>> (8 - bitoff - 1)) &&& 1) == 1, { r with bitpos := r.bitpos + 1 })

/-- The functions `to_int` and `to_int128`: the big-endian value of the bytes. -/
def to_int (data : List Nat) : Nat := data.foldl (fun v x => v * 256 + x) 0

/-- The function `reader_readint`.  In the branch for more than eight bytes
the mask is `((uint64_t) 1 << bits) - 1`, undefined for `bits == 64`. -/
def reader_readint (r : Reader) (bits : Nat) : Except Err (Nat × Reader) := do
  if bits > 64 then .error .panic
  else
    check_remaining r bits
    let pos := r.bitpos
    let byte_pos := pos / 8
    let bitoff := pos % 8
    let byte_len := BYTE_LEN (pos + bits) - byte_pos
    let data := (r.mm.drop byte_pos).take byte_len
    let r1 : Reader := { r with bitpos := pos + bits }
    if bitoff = 0 then
      if bits < 8 then do
        let x ← arr_get r.mm byte_pos
        pure (x >>> (8 - bits), r1)
      else if bits = 8 then do
        let x ← arr_get r.mm byte_pos
        pure (x, r1)
      else
        let bitlen := 8 * byte_len
        if bitlen = bits then pure (to_int data, r1)
        else pure (to_int data >>> (bitlen - bits), r1)
    else
      let shift := 8 * byte_len - bits - bitoff
      if byte_len > 8 then
        if bits ≥ 64 then .error .undefined
        else pure (((to_int data >>> shift) % 18446744073709551616) &&& (2 ^ bits - 1), r1)
      else
        if bits ≥ 64 then .error .undefined
        else pure ((to_int data >>> shift) &&& (2 ^ bits - 1), r1)

/-- The function `reader_readbyte`. -/
def reader_readbyte (r : Reader) : Except Err (Nat × Reader) := do
  check_remaining r 8
  let byteindex := r.bitpos / 8
  let bitoff := r.bitpos % 8
  let r1 : Reader := { r with bitpos := r.bitpos + 8 }
  if bitoff = 0 then do
    let x ← arr_get r.mm byteindex
    pure (x, r1)
  else do
    let d0 ← arr_get r.mm byteindex
    let d1 ← arr_get r.mm (byteindex + 1)
    pure (((d0 <<< bitoff) ||| (d1 >>> (8 - bitoff))) % 256, r1)

/-- The loop of `reader_vbyte`: the value, the number of bytes read and the
reader.  A shift of a `uint64_t` by 64 or more is undefined. -/
def reader_vbyte_loop : Nat → Reader → Nat → Nat → Nat → Except Err (Nat × Nat × Reader)
  | 0, _, _, _, _ => .error .fuel
  | fuel + 1, r, val, n, shift => do
    let (nibble, r) ← reader_readbyte r
    if shift ≥ 64 then .error .undefined
    else
      let val := val ||| (((nibble &&& 127) <<< shift) % 18446744073709551616)
      if nibble &&& 128 > 0 then pure (val, n + 1, r)
      else reader_vbyte_loop fuel r val (n + 1) (shift + 7)

/-- The function `reader_vbyte`; every round reads a byte, so the file length
bounds the rounds. -/
def reader_vbyte (r : Reader) : Except Err (Nat × Nat × Reader) :=
  reader_vbyte_loop (r.mm.length + 1) r 0 0 0

end Wire
/-! ## The byte level: bitsequence_r.c (REGULAR and RG) -/

namespace Wire

/-- The struct `BitsequenceReader` without the RRR fields.  A REGULAR sequence
leaves `factor`, `bits_per_rs`, `s` and `rs_off` unset; they are 0 here. -/
structure BitsequenceReader where
  r : Reader
  type : Nat
  len : Nat
  off : Nat
  factor : Nat
  bits_per_rs : Nat
  s : Nat
  rs_off : Nat
  ones : Nat
deriving DecidableEq, Repr

/-- The function `rs_value`. -/
def rs_value (b : BitsequenceReader) (i : Nat) : Except Err Nat := do
  if i = 0 then pure 0
  else
    let r ← reader_bitpos b.r (b.rs_off + b.bits_per_rs * (i - 1))
    let (v, _) ← reader_readint r b.bits_per_rs
    pure v

/-- The function `bitsequence_reader_rank1`; the index is an `int64_t`. -/
def bitsequence_reader_rank1 (b : BitsequenceReader) (i : Int) : Except Err Nat := do
  if i < 0 then pure 0
  else if i ≥ b.len then pure b.ones
  else
    let i := i.toNat + 1
    let (res, aux) ←
      if b.type = BITSEQUENCE_REGULAR then pure (0, 0)
      else if b.s = 0 then .error .undefined
      else do
        let res ← rs_value b (i / b.s)
        pure (res, (i / b.s) * b.factor)
    let bit_len := i - BLOCKW * aux
    if bit_len ≠ 0 then
      let r ← reader_bitpos b.r (b.off + BLOCKW * aux)
      let byte_len := BYTE_LEN bit_len
      let (data, _) ← reader_read r byte_len
      let endbits := byte_len * 8 - bit_len
      if endbits ≠ 0 then
        let end_byte := byte_len - 1
        let x ← arr_get data end_byte
        pure (res + popcnt data end_byte + POPCNT8 (x >>> endbits))
      else pure (res + popcnt data byte_len)
    else pure res

/-- The function `bitsequence_reader_rank0`. -/
def bitsequence_reader_rank0 (b : BitsequenceReader) (i : Int) : Except Err Nat := do
  if i < 0 then pure 0
  else
    let r ← bitsequence_reader_rank1 b i
    pure (u64 (i + 1 - r))

/-- The function `bitsequence_reader_init`; `NULL` for an unknown type is
`Err.failed`.  The factor is stored in an `int` and `BLOCKW * factor` is
undefined when it does not fit. -/
def bitsequence_reader_init (r : Reader) : Except Err BitsequenceReader := do
  let r0 := r
  let (t, r) ← reader_readbyte r
  if t ≠ BITSEQUENCE_REGULAR ∧ t ≠ BITSEQUENCE_RG then .error .failed
  else
    let (len, nbytes, r) ← reader_vbyte r
    let off := nbytes + 1
    let b ←
      if t = BITSEQUENCE_REGULAR then
        pure ({ r := r0, type := t, len := len, off := 8 * off, factor := 0, bits_per_rs := 0,
                s := 0, rs_off := 0, ones := 0 } : BitsequenceReader)
      else do
        let (factor, nbytes, r) ← reader_vbyte r
        let off := off + nbytes
        let (bits_per_rs, nbytes, _) ← reader_vbyte r
        let off := off + nbytes
        if BLOCKW * factor > INT_MAX then .error .undefined
        else
          pure { r := r0, type := t, len := len, off := 8 * off, factor := factor,
                 bits_per_rs := bits_per_rs, s := BLOCKW * factor, rs_off := 8 * off + len,
                 ones := 0 }
    if len > 0 then
      let ones ← bitsequence_reader_rank1 b (Int.bmod ((len : Int) - 1) 18446744073709551616)
      pure { b with ones := ones }
    else pure b

/-- The function `bitsequence_reader_access`. -/
def bitsequence_reader_access (b : BitsequenceReader) (i : Nat) : Except Err Bool := do
  if i ≥ b.len then .error .panic
  else
    let r ← reader_bitpos b.r (b.off + i)
    let (v, _) ← reader_readbit r
    pure v

/-- The value of a `uint32_t` into which the bytes `data` are copied on a
little-endian host, the first byte lowest. -/
def le_val (data : List Nat) : Nat := (data.enum.map (fun kx => kx.2 * 256 ^ kx.1)).sum

/-- The function `block_get` on a little-endian host: the bytes of the block
as they lie in the file. -/
def block_get (b : BitsequenceReader) (i : Nat) : Except Err Nat := do
  let r ← reader_bitpos b.r (b.off + i * BLOCKW)
  if i * BLOCKW + BLOCKW ≤ b.len then
    let (data, _) ← reader_read r (BLOCKW / 8)
    pure (le_val data)
  else if i * BLOCKW > b.len then .error .undefined
  else
    let byte_len := BYTE_LEN (b.len - i * BLOCKW)
    let (data, _) ← reader_read r byte_len
    pure (le_val data)

/-- The function `block_reverse` on a little-endian host: every byte of the
block is mirrored in its place. -/
def block_reverse (block : Nat) : Nat :=
  ((List.range 4).map (fun k => byte_reverse ((block >>> (8 * k)) % 256) * 256 ^ k)).sum

/-- The loop of `select1_blocks`. -/
def select1_blocks_loop (b : BitsequenceReader) (numblocks : Nat) :
    Nat → Nat → Nat → Except Err Nat
  | 0, _, _ => .error .fuel
  | fuel + 1, i, pos => do
    let j ← block_get b pos
    let ones := POPCNT32 j
    if ones ≥ i then pure (BLOCKW * pos + select_bit (block_reverse j) (i - 1))
    else if pos + 1 > numblocks then pure b.len
    else select1_blocks_loop b numblocks fuel (i - ones) (pos + 1)

/-- The function `select1_blocks`. -/
def select1_blocks (b : BitsequenceReader) (i pos : Nat) : Except Err Nat :=
  let numblocks := DIVUP b.len BLOCKW
  select1_blocks_loop b numblocks (numblocks + 2 - pos) i pos

/-- The loop of the binary search in `select1_rg`; `lv` and `rv` are unsigned,
so `rv = mid - 1` wraps at `mid == 0`. -/
def select1_rg_loop (b : BitsequenceReader) (i : Nat) :
    Nat → Nat → Nat → Nat → Nat → Except Err (Nat × Nat)
  | 0, _, _, _, _ => .error .fuel
  | fuel + 1, lv, rv, mid, rankmid =>
    if lv ≤ rv then do
      let (lv, rv) := if rankmid < i then (mid + 1, rv) else (lv, u64 ((mid : Int) - 1))
      let mid := ((lv + rv) % 18446744073709551616) / 2
      let rankmid ← rs_value b mid
      select1_rg_loop b i fuel lv rv mid rankmid
    else pure (mid, rankmid)

/-- The function `select1_rg`. -/
def select1_rg (b : BitsequenceReader) (i : Nat) : Except Err Nat := do
  if b.s = 0 then .error .undefined
  else
    let lv := 0
    let rv := b.len / b.s
    let mid := (lv + rv) / 2
    let rankmid ← rs_value b mid
    let (mid, rankmid) ← select1_rg_loop b i (rv + 2) lv rv mid rankmid
    select1_blocks b (i - rankmid) (mid * b.factor)

/-- The function `bitsequence_reader_select1`; the result is an `int64_t`. -/
def bitsequence_reader_select1 (b : BitsequenceReader) (i : Nat) : Except Err Int := do
  if i = 0 ∨ i > b.ones then pure (-1)
  else if b.type = BITSEQUENCE_REGULAR then
    let p ← select1_blocks b i 0
    pure (Int.bmod p 18446744073709551616)
  else if b.type = BITSEQUENCE_RG then
    let p ← select1_rg b i
    pure (Int.bmod p 18446744073709551616)
  else pure (-1)

/-- The function `bitsequence_reader_selectprev1`; the `uint64_t` index is
returned as and passed on as an `int64_t`. -/
def bitsequence_reader_selectprev1 (b : BitsequenceReader) (i : Nat) : Except Err Int := do
  if ← bitsequence_reader_access b i then pure (Int.bmod i 18446744073709551616)
  else
    let r ← bitsequence_reader_rank1 b (Int.bmod i 18446744073709551616)
    if r = 0 then pure (-1) else bitsequence_reader_select1 b r

end Wire
/-! ## The byte level: eliasfano_list.c, eliasfano.c -/

namespace Wire

/-- The function `set_bits`.  The mask is `1 << (len - i - 1)` with the `int`
constant 1: for a shift of 31 or more the expression is undefined (the value
does not fit an `int`, or the shift reaches the width of `int`). -/
def set_bits (b : BitArray) (off bits len : Nat) : Except Err BitArray :=
  (List.range len).foldlM
    (fun b i =>
      if len - i - 1 ≥ 31 then .error .undefined
      else
        let val := bits &&& (1 <<< (len - i - 1))
        bitarray_set b (off + i) (decide (val > 0)))
    b

/-- The number of low bits in `eliasfano_write`.  The C code computes
`(int) ceil(log2((double) u / n))` for the largest element `u` in floating point; the embedding
takes the expression exactly: the least `l` with `u <= n * 2^l`
(at most 64 for a `uint64_t`). -/
def eliasfano_lower_bits (univ n : Nat) : Nat :=
  if univ > n then ((List.range 65).find? (fun l => decide (univ ≤ n * 2 ^ l))).getD 65 else 0

/-- The check of `assert_is_sorted` (compiled in without `NDEBUG`). -/
def assert_is_sorted (list : List Nat) : Bool :=
  (List.range (list.length - 1)).all (fun k => decide (list.getD (k + 1) 0 ≥ list.getD k 0))

/-- The function `eliasfano_write`. -/
def eliasfano_write (list : List Nat) (w : BitWriter) (p : BitsequenceParams) :
    Except Err BitWriter := do
  let n := list.length
  if !(assert_is_sorted list) then .error .assertion
  else
    let univ := if n > 0 then list.getD (n - 1) 0 else 0
    let lower_bits := eliasfano_lower_bits univ n
    if lower_bits ≥ 64 then .error .undefined
    else
      let higher_bits_len := n + (univ >>> lower_bits)
      let mask := 2 ^ lower_bits - 1
      let lower_bits_len := n * lower_bits
      let hi := bitarray_init higher_bits_len
      let lo := bitarray_init lower_bits_len
      let (hi, lo) ← list.enum.foldlM
        (fun (st : BitArray × BitArray) ie => do
          let i := ie.1
          let elem := ie.2
          let high := (elem >>> lower_bits) + i
          let low := elem &&& mask
          let hi ← bitarray_set st.1 high true
          let lo ← set_bits st.2 (i * lower_bits) low lower_bits
          pure (hi, lo))
        (hi, lo)
      let w ← bitwriter_write_vbyte w n
      let w ← bitwriter_write_vbyte w lower_bits
      let w ← bitwriter_write_vbyte w (BYTE_LEN lo.len)
      let w ← bitwriter_write_bitarray w lo
      let w ← bitwriter_flush w
      bitwriter_write_bitsequence w hi p

/-- The struct `EliasFanoReader`. -/
structure EliasFanoReader where
  r : Reader
  n : Nat
  lowbits : Nat
  off_lo : Nat
  hi : BitsequenceReader
deriving DecidableEq, Repr

/-- The function `eliasfano_init`. -/
def eliasfano_init (r : Reader) : Except Err EliasFanoReader := do
  let r0 := r
  let (n, nbytes, r) ← reader_vbyte r
  let off := nbytes
  let (lowbits, nbytes, r) ← reader_vbyte r
  let off := off + nbytes
  let (lenlowbits, nbytes, _) ← reader_vbyte r
  let off := off + nbytes
  let rt ← reader_init r0 (off + lenlowbits)
  let b ← bitsequence_reader_init rt
  pure { r := r0, n := n, lowbits := lowbits % 4294967296, off_lo := 8 * off, hi := b }

/-- The function `eliasfano_get`. -/
def eliasfano_get (e : EliasFanoReader) (i : Nat) : Except Err Nat := do
  if i ≥ e.n then .error .panic
  else
    let lval ←
      if e.lowbits > 0 then do
        let r ← reader_bitpos e.r (e.off_lo + i * e.lowbits)
        let (v, _) ← reader_readint r e.lowbits
        pure v
      else pure 0
    let s ← bitsequence_reader_select1 e.hi (i + 1)
    let hval := u64 (s - i)
    if e.lowbits ≥ 64 then .error .undefined
    else pure (((hval <<< e.lowbits) % 18446744073709551616) ||| lval)

end Wire
/-! ## The byte level: huffman.c -/

namespace Wire

def BYTE_COUNT : Nat := 256

/-- The struct `HuffmanNode`: a leaf has a value from 0 on, an inner node the
value -1 and two children. -/
inductive HuffmanNode where
  | leaf (value : Nat) (freq : Nat)
  | inner (freq : Nat) (left right : HuffmanNode)
deriving DecidableEq, Repr

def HuffmanNode.freq : HuffmanNode → Nat
  | .leaf _ f => f
  | .inner f _ _ => f

/-- The function `huffman_enqueue`: the queue `es` holds `k` nodes. -/
def huffman_enqueue : Nat → List HuffmanNode → Nat → HuffmanNode → Except Err (List HuffmanNode)
  | 0, _, _, _ => .error .fuel
  | fuel + 1, es, k, key =>
    if k > 0 then do
      let parent := (k - 1) >>> 1
      let e ← arr_get es parent
      if key.freq ≥ e.freq then arr_set es k key
      else
        let es ← arr_set es k e
        huffman_enqueue fuel es parent key
    else arr_set es k key

/-- The function `huffman_shiftdown`. -/
def huffman_shiftdown : Nat → Nat → HuffmanNode → List HuffmanNode → Nat →
    Except Err (List HuffmanNode)
  | 0, _, _, _, _ => .error .fuel
  | fuel + 1, k, key, es, n =>
    let half := n >>> 1
    if k < half then do
      let child := (k <<< 1) + 1
      let c ← arr_get es child
      let right := child + 1
      let (c, child) ←
        if right < n then do
          let cr ← arr_get es right
          if c.freq > cr.freq then pure (cr, right) else pure (c, child)
        else pure (c, child)
      if key.freq ≤ c.freq then arr_set es k key
      else
        let es ← arr_set es k c
        huffman_shiftdown fuel child key es n
    else arr_set es k key

/-- The function `huffman_dequeue` on a queue of `size` nodes: the least node
and the queue without it.  With `size == 0` the C code reads a slot that was
never written. -/
def huffman_dequeue (es : List HuffmanNode) (size : Nat) :
    Except Err (HuffmanNode × List HuffmanNode) := do
  if size = 0 then .error .undefined
  else
    let result ← arr_get es 0
    let n := size - 1
    let x ← arr_get es n
    if n > 0 then
      let es ← huffman_shiftdown (n + 1) 0 x es n
      pure (result, es)
    else pure (result, es)

/-- The function `huffman_code`: the codes of the leaves below `node`, built
with `bitarray_clone` and `bitarray_append`. -/
def huffman_code : HuffmanNode → BitArray → List BitArray → Except Err (List BitArray)
  | .leaf value _, code, coding => arr_set coding value code
  | .inner _ left right, code, coding => do
    let code_right := bitarray_clone code
    let code ← bitarray_append code false
    let code_right ← bitarray_append code_right true
    let coding ← huffman_code left code coding
    huffman_code right code_right coding

/-- The loop of `huffman_create_coding` that joins the two least nodes. -/
def huffman_join : Nat → List HuffmanNode → Nat → Except Err (List HuffmanNode)
  | 0, _, _ => .error .fuel
  | fuel + 1, nodes, node_count =>
    if node_count > 1 then do
      let (n1, nodes) ← huffman_dequeue nodes node_count
      let (n2, nodes) ← huffman_dequeue nodes (node_count - 1)
      let tmp := HuffmanNode.inner (n1.freq + n2.freq) n1 n2
      let nodes ← huffman_enqueue (node_count + 1) nodes (node_count - 2) tmp
      huffman_join fuel nodes (node_count - 1)
    else pure nodes

/-- The function `huffman_create_coding`: the queue has room for 512 nodes. -/
def huffman_create_coding (data : List Nat) : Except Err (List BitArray) := do
  let freq := (List.range BYTE_COUNT).map (fun c => data.count c)
  let slots := List.replicate (2 * BYTE_COUNT) (HuffmanNode.leaf 0 0)
  let (nodes, node_count) ← (List.range BYTE_COUNT).foldlM
    (fun (st : List HuffmanNode × Nat) c =>
      if freq.getD c 0 > 0 then do
        let nodes ← huffman_enqueue (st.2 + 1) st.1 st.2 (HuffmanNode.leaf c (freq.getD c 0))
        pure (nodes, st.2 + 1)
      else pure st)
    (slots, 0)
  let nodes ← huffman_join (node_count + 1) nodes node_count
  let (node, _) ← huffman_dequeue nodes (if node_count > 1 then 1 else node_count)
  huffman_code node (bitarray_init 0) (List.replicate BYTE_COUNT (bitarray_init 0))

end Wire
/-! ## The byte level: wavelet_tree_writer.c -/

namespace Wire

/-- The struct `WaveletNode`: a leaf with its byte, or an inner node with its
bits and two children, each of which may be `NULL`. -/
inductive WaveletNode where
  | leaf (value : Nat)
  | inner (bits : BitArray) (left right : Option WaveletNode)
deriving Repr

/-- The first loop of `wavelet_tree_build`: the bit of every byte at depth
`d` of its code. -/
def wavelet_bitmap (data : List Nat) (d : Nat) (coding : List BitArray) : Except Err BitArray :=
  data.enum.foldlM
    (fun bitmap iv => do
      let c ← arr_get coding iv.2
      if ← bitarray_get c d then bitarray_set bitmap iv.1 true else pure bitmap)
    (bitarray_init data.length)

/-- The second loop of `wavelet_tree_build`: the bytes that go left and right
and whether each side holds a single byte value. -/
def wavelet_split (data : List Nat) (bitmap : BitArray) :
    Except Err (List Nat × List Nat × Bool × Bool) :=
  data.enum.foldlM
    (fun (st : List Nat × List Nat × Bool × Bool) iv => do
      let (left, right, leaf_left, leaf_right) := st
      if !(← bitarray_get bitmap iv.1) then
        let left := left ++ [iv.2]
        let n := left.length
        let leaf_left := if n > 1 ∧ left.getD (n - 1) 0 ≠ left.getD (n - 2) 0 then false else leaf_left
        pure (left, right, leaf_left, leaf_right)
      else
        let right := right ++ [iv.2]
        let n := right.length
        let leaf_right :=
          if n > 1 ∧ right.getD (n - 1) 0 ≠ right.getD (n - 2) 0 then false else leaf_right
        pure (left, right, leaf_left, leaf_right))
    ([], [], true, true)

/-- The function `wavelet_tree_build`; the recursion goes one code bit deeper
with every call. -/
def wavelet_tree_build : Nat → List Nat → Nat → List BitArray → Except Err WaveletNode
  | 0, _, _, _ => .error .fuel
  | fuel + 1, data, d, coding => do
    let bitmap ← wavelet_bitmap data d coding
    let (left, right, leaf_left, leaf_right) ← wavelet_split data bitmap
    let left_child ←
      if left.length > 0 then
        if leaf_left then pure (some (WaveletNode.leaf (left.getD 0 0)))
        else do
          let t ← wavelet_tree_build fuel left (d + 1) coding
          pure (some t)
      else pure none
    let right_child ←
      if right.length > 0 then
        if leaf_right then pure (some (WaveletNode.leaf (right.getD 0 0)))
        else do
          let t ← wavelet_tree_build fuel right (d + 1) coding
          pure (some t)
      else pure none
    pure (WaveletNode.inner bitmap left_child right_child)

/-- The function `wavelet_tree_encode_nodes`: the writer of the tree shape and
the collected bits.  A node without children counts as a leaf (its value is
-1 when it is an inner node); a missing child of another node is a `NULL`
pointer that the code follows. -/
def wavelet_tree_encode_nodes : WaveletNode → BitWriter → BitArray →
    Except Err (BitWriter × BitArray)
  | .leaf value, w, bits => do
    let w ← bitwriter_write_bit w 1
    let w ← bitwriter_write_byte w value
    pure (w, bits)
  | .inner _ none none, w, bits => do
    let w ← bitwriter_write_bit w 1
    let w ← bitwriter_write_byte w U64_MINUS_ONE
    pure (w, bits)
  | .inner b (some left) (some right), w, bits => do
    let w ← bitwriter_write_bit w 0
    let bits ← bitarray_append_bitarray bits b
    let (w, bits) ← wavelet_tree_encode_nodes left w bits
    wavelet_tree_encode_nodes right w bits
  | .inner _ _ _, _, _ => .error .undefined

/-- The function `wavelet_tree_write`. -/
def wavelet_tree_write (data : List Nat) (w : BitWriter) (p : BitsequenceParams) :
    Except Err BitWriter := do
  let coding ← huffman_create_coding data
  let tree ← wavelet_tree_build (BYTE_COUNT + 1) data 0 coding
  let (nodes, bits) ← wavelet_tree_encode_nodes tree bitwriter_init (bitarray_init 0)
  let nodes ← bitwriter_flush nodes
  let w ← bitwriter_write_vbyte w data.length
  let w ← bitwriter_write_vbyte w (bitwriter_bytelen nodes)
  let w ← bitwriter_write_bitwriter w nodes
  let w ← bitwriter_write_bitsequence w bits p
  bitwriter_flush w

end Wire
/-! ## The byte level: wavelettree.c -/

namespace Wire

def MAX_LEAFS : Nat := 256
def MAX_NODES : Nat := 2 * MAX_LEAFS

/-- The struct `WaveletRNode`. -/
structure WaveletRNode where
  leaf : Bool
  value : Nat
  left : Nat
  right : Nat
  bitoff : Nat
  bitoff_rank1 : Nat
deriving DecidableEq, Repr

/-- The struct `WaveletTreeReader`. -/
structure WaveletTreeReader where
  bits : BitsequenceReader
  tree : List WaveletRNode
  coding : List BitArray
deriving DecidableEq, Repr

/-- The function `read_tree`: the nodes are stored in the order they are read,
`tree` holds the `MAX_NODES` slots and `i` is the next free one. -/
def read_tree : Nat → Reader → List WaveletRNode → Nat → Except Err (Reader × List WaveletRNode × Nat)
  | 0, _, _, _ => .error .fuel
  | fuel + 1, r, tree, i => do
    let n := i
    let i := i + 1
    if i ≥ MAX_NODES then .error .panic
    else
      let (leaf, r) ← reader_readbit r
      if leaf then
        let (v, r) ← reader_readbyte r
        let tree ← arr_set tree n { leaf := true, value := v, left := 0, right := 0, bitoff := 0, bitoff_rank1 := 0 }
        pure (r, tree, i)
      else
        let left := i
        let (r, tree, i) ← read_tree fuel r tree i
        let right := i
        let (r, tree, i) ← read_tree fuel r tree i
        let tree ← arr_set tree n
          { leaf := false, value := 0, left := left, right := right, bitoff := 0, bitoff_rank1 := 0 }
        pure (r, tree, i)

/-- The function `tree_data`: the offset of the bits of every inner node and
the rank before it. -/
def tree_data (bits : BitsequenceReader) :
    Nat → List WaveletRNode → Nat → Nat → Nat → Except Err (List WaveletRNode × Nat)
  | 0, _, _, _, _ => .error .fuel
  | fuel + 1, tree, i, len, bitoff => do
    let n ← arr_get tree i
    if !n.leaf then
      let n_bitoff := bitoff
      let bitoff := (bitoff + len) % 18446744073709551616
      let bitoff_rank1 ←
        if n_bitoff > 0 then bitsequence_reader_rank1 bits ((n_bitoff : Int) - 1) else pure 0
      let r ← bitsequence_reader_rank1 bits
        (Int.bmod ((n_bitoff : Int) + len - 1) 18446744073709551616)
      let len_right := u64 ((r : Int) - bitoff_rank1)
      let tree ← arr_set tree i { n with bitoff := n_bitoff, bitoff_rank1 := bitoff_rank1 }
      let (tree, bitoff) ← tree_data bits fuel tree n.left (u64 ((len : Int) - len_right)) bitoff
      tree_data bits fuel tree n.right len_right bitoff
    else pure (tree, bitoff)

/-- The function `build_coding`. -/
def build_coding (tree : List WaveletRNode) :
    Nat → List BitArray → Nat → BitArray → Except Err (List BitArray)
  | 0, _, _, _ => .error .fuel
  | fuel + 1, coding, node_i, path => do
    let node ← arr_get tree node_i
    if node.leaf then arr_set coding node.value path
    else
      let pathl ← bitarray_append (bitarray_clone path) false
      let pathr ← bitarray_append (bitarray_clone path) true
      let coding ← build_coding tree fuel coding node.left pathl
      build_coding tree fuel coding node.right pathr

/-- The function `wavelet_init`. -/
def wavelet_init (r : Reader) : Except Err WaveletTreeReader := do
  let r0 := r
  let (len, nbytes, r) ← reader_vbyte r
  let off := nbytes
  let (lentree, nbytes, _) ← reader_vbyte r
  let off := off + nbytes
  let offbits := off + lentree
  let rt ← reader_init r0 offbits
  let b ← bitsequence_reader_init rt
  let slots := List.replicate MAX_NODES
    ({ leaf := false, value := 0, left := 0, right := 0, bitoff := 0, bitoff_rank1 := 0 } : WaveletRNode)
  let r ← reader_bitpos r0 (8 * off)
  let (_, tree, _) ← read_tree (MAX_NODES + 1) r slots 0
  let (tree, _) ← tree_data b (MAX_NODES + 1) tree 0 len 0
  let coding ← build_coding tree (MAX_NODES + 1) (List.replicate MAX_LEAFS (bitarray_init 0)) 0
    (bitarray_init 0)
  pure { bits := b, tree := tree, coding := coding }

/-- The function `w_bits_access`. -/
def w_bits_access (w : WaveletTreeReader) (n : WaveletRNode) (i : Nat) : Except Err Bool :=
  bitsequence_reader_access w.bits ((n.bitoff + i) % 18446744073709551616)

/-- The function `w_bits_rank0`; the position is converted to `int64_t`. -/
def w_bits_rank0 (w : WaveletTreeReader) (n : WaveletRNode) (i : Nat) : Except Err Nat := do
  let r ← bitsequence_reader_rank0 w.bits (Int.bmod ((n.bitoff : Int) + i) 18446744073709551616)
  pure (u64 ((r : Int) - ((n.bitoff : Int) - n.bitoff_rank1)))

/-- The function `w_bits_rank1`. -/
def w_bits_rank1 (w : WaveletTreeReader) (n : WaveletRNode) (i : Nat) : Except Err Nat := do
  let r ← bitsequence_reader_rank1 w.bits (Int.bmod ((n.bitoff : Int) + i) 18446744073709551616)
  pure (u64 ((r : Int) - n.bitoff_rank1))

/-- The loop of `wavelet_access`. -/
def wavelet_access_loop (w : WaveletTreeReader) : Nat → WaveletRNode → Nat → Except Err (Nat × Nat)
  | 0, _, _ => .error .fuel
  | fuel + 1, n, i =>
    if !n.leaf then do
      if !(← w_bits_access w n i) then
        let r ← w_bits_rank0 w n i
        let n ← arr_get w.tree n.left
        wavelet_access_loop w fuel n (u64 ((r : Int) - 1))
      else
        let r ← w_bits_rank1 w n i
        let n ← arr_get w.tree n.right
        wavelet_access_loop w fuel n (u64 ((r : Int) - 1))
    else pure (n.value, u64 ((i : Int) + 1))

/-- The function `wavelet_access`: the byte and the rank it reports. -/
def wavelet_access (w : WaveletTreeReader) (i : Nat) : Except Err (Nat × Nat) := do
  let n ← arr_get w.tree 0
  wavelet_access_loop w (MAX_NODES + 1) n i

/-- The loop of `wavelet_rank`. -/
def wavelet_rank_loop (w : WaveletTreeReader) (code : BitArray) :
    Nat → WaveletRNode → Nat → Nat → Except Err (WaveletRNode × Nat)
  | 0, _, _, _ => .error .fuel
  | fuel + 1, n, level, i =>
    if !n.leaf then do
      if !(← bitarray_get code level) then
        let r ← w_bits_rank0 w n i
        let n ← arr_get w.tree n.left
        wavelet_rank_loop w code fuel n (level + 1) (u64 ((r : Int) - 1))
      else
        let r ← w_bits_rank1 w n i
        let n ← arr_get w.tree n.right
        wavelet_rank_loop w code fuel n (level + 1) (u64 ((r : Int) - 1))
    else pure (n, i)

/-- The function `wavelet_rank`; `c` is a byte and `i` a `uint64_t`. -/
def wavelet_rank (w : WaveletTreeReader) (c : Nat) (i : Nat) : Except Err Nat := do
  let code ← arr_get w.coding c
  if code.len = 0 then pure 0
  else
    let n ← arr_get w.tree 0
    let (n, i) ← wavelet_rank_loop w code (MAX_NODES + 1) n 0 i
    if n.value ≠ c then pure 0 else pure (u64 ((i : Int) + 1))

end Wire
/-! ## The byte level: what the written structures mean -/

namespace Wire

/-- Bit `p` of a byte string, the highest bit of a byte first. -/
def mm_bit (mm : List Nat) (p : Nat) : Bool := (mm.getD (p / 8) 0).testBit (7 - p % 8)

/-- Every element is a byte. -/
def AllBytes (l : List Nat) : Prop := ∀ x ∈ l, x < 256

/-- The bits of `v` as `bitarray_append_bits(b, v, n)` appends them: `n` bits,
the highest first. -/
def bits_be (v n : Nat) : List Bool := (List.range n).map (fun k => v.testBit (n - 1 - k))

/-- A `BitArray` that a writer builds: its bytes are bytes, and the bits after
`len` in a partly used last byte are 0. -/
def WOk (d : BitArray) : Prop :=
  AllBytes d.data ∧
    (∀ p, d.len ≤ p → p / 8 = d.len / 8 → d.len % 8 ≠ 0 → mm_bit d.data p = false) ∧
    d.len ≤ 8 * d.data.length

/-- The bytes that `bitwriter_write_vbyte` writes for `n`. -/
def vbyte_bytes : Nat → Nat → List Nat
  | 0, _ => []
  | fuel + 1, n => if n > 127 then (n &&& 127) :: vbyte_bytes fuel (n >>> 7) else [n ||| 128]

/-- The bits of a list of bytes. -/
def bytes_bits (l : List Nat) : List Bool := l.flatMap (fun x => bits_be x 8)

/-- The bits of a list of values written with `w` bits each. -/
def fields_bits (vals : List Nat) (w : Nat) : List Bool := vals.flatMap (fun x => bits_be x w)

/-- The number of positions `a + k`, `k < n`, at which `f` holds. -/
def bitcount (f : Nat → Bool) (a n : Nat) : Nat := ((List.range n).filter (fun k => f (a + k))).length

/-- The number of 1 bits among the first `n` bits of a `BitArray`, as
`bitarray_get` reads them. -/
def bitarray_rank (b : BitArray) (n : Nat) : Nat :=
  bitcount (fun j => bitarray_get b j == .ok true) 0 n

/-- A `BitArray` as the C code keeps it: bytes that hold its `len` bits, and a
length that a signed 64-bit index can address. -/
def BitArrayOk (b : BitArray) : Prop :=
  AllBytes b.data ∧ b.len ≤ 8 * b.data.length ∧ b.len < 2 ^ 63

/-- The bits of a `BitArray`. -/
def bitarray_bits (b : BitArray) : List Bool := (List.range b.len).map (mm_bit b.data)

/-- What the super-block ranks of an RG sequence hold: field `m` (from 1) is
the number of 1 bits before bit `m * s`, written with `bits_per_rs` bits after
the `len` bits of the sequence. -/
def RgFacts (bs : BitsequenceReader) (f : Nat → Bool) : Prop :=
  bs.type = BITSEQUENCE_RG ∧ 1 ≤ bs.factor ∧ bs.s = 32 * bs.factor ∧ 1 ≤ bs.bits_per_rs ∧
    bs.bits_per_rs ≤ 63 ∧ bs.rs_off = bs.off + bs.len ∧
    bs.rs_off + bs.bits_per_rs * (bs.len / bs.s) ≤ 8 * bs.r.mm.length ∧
    ∀ m, 1 ≤ m → m ≤ bs.len / bs.s →
      bitcount f 0 (m * bs.s) < 2 ^ bs.bits_per_rs ∧
      ∀ k < bs.bits_per_rs,
        mm_bit bs.r.mm (bs.rs_off + bs.bits_per_rs * (m - 1) + k)
          = (bitcount f 0 (m * bs.s)).testBit (bs.bits_per_rs - 1 - k)

/-- What an opened bit sequence holds of the bits `f`: they lie from bit `off`
of the file on, and the sequence is REGULAR or RG with its super-block
ranks. -/
def BsFacts (bs : BitsequenceReader) (f : Nat → Bool) : Prop :=
  AllBytes bs.r.mm ∧ bs.r.bitoff = 0 ∧ bs.off % 8 = 0 ∧ bs.off + bs.len ≤ 8 * bs.r.mm.length ∧
    bs.len < 2 ^ 63 ∧ (∀ p < bs.len, mm_bit bs.r.mm (bs.off + p) = f p) ∧
    (bs.type = BITSEQUENCE_REGULAR ∨ RgFacts bs f)

/-- A bit array written by `bitwriter_write_bitsequence` to a writer in memory
and opened from the written bytes by `bitsequence_reader_init`. -/
def bitsequence_written (b : BitArray) (params : BitsequenceParams) :
    Except Err BitsequenceReader := do
  let w ← bitwriter_write_bitsequence bitwriter_init b params
  let r ← reader_initf (bitwriter_bytes w) 0
  bitsequence_reader_init r

/-- A list written by `eliasfano_write` and opened by `eliasfano_init`. -/
def eliasfano_written (list : List Nat) (params : BitsequenceParams) :
    Except Err EliasFanoReader := do
  let w ← eliasfano_write list bitwriter_init params
  let r ← reader_initf (bitwriter_bytes w) 0
  eliasfano_init r

/-- A byte string written by `wavelet_tree_write` and opened by
`wavelet_init`. -/
def wavelet_written (data : List Nat) (params : BitsequenceParams) :
    Except Err WaveletTreeReader := do
  let w ← wavelet_tree_write data bitwriter_init params
  let r ← reader_initf (bitwriter_bytes w) 0
  wavelet_init r

end Wire
/-! ## The byte level: what a written wavelet tree means -/

namespace Wire

/-- A `BitArray` that holds the bits `l`: its bytes are bytes, they have room
for `len` bits, and the bits are `l`. -/
def BitsOf (b : BitArray) (l : List Bool) : Prop :=
  AllBytes b.data ∧ b.len ≤ 8 * b.data.length ∧ bitarray_bits b = l

/-- The byte values at the leaves of a Huffman tree, from left to right. -/
def HuffmanNode.leaves : HuffmanNode → List Nat
  | .leaf v _ => [v]
  | .inner _ l r => l.leaves ++ r.leaves

/-- The number of nodes of a Huffman tree. -/
def HuffmanNode.size : HuffmanNode → Nat
  | .leaf _ _ => 1
  | .inner _ l r => 1 + l.size + r.size

/-- The height of a Huffman tree: the length of its longest code. -/
def HuffmanNode.height : HuffmanNode → Nat
  | .leaf _ _ => 0
  | .inner _ l r => max l.height r.height + 1

/-- The code of the byte `v` in a Huffman tree: the way from the root to its
leaf, `false` for the left child. -/
def HuffmanNode.code : HuffmanNode → Nat → List Bool
  | .leaf _ _, _ => []
  | .inner _ l r, v => if v ∈ l.leaves then false :: l.code v else true :: r.code v

/-- The leaves of the trees of a queue. -/
def forest_leaves (l : List HuffmanNode) : List Nat := l.flatMap HuffmanNode.leaves

/-- The wavelet tree that `wavelet_tree_build` makes for the Huffman tree `h`
and the bytes `s` below it: at an inner node the bit of a byte is 0 when the
byte is a leaf of the left child. -/
def TreeOf : HuffmanNode → List Nat → WaveletNode → Prop
  | .leaf v _, _, t => t = WaveletNode.leaf v
  | .inner _ l r, s, t => ∃ bm tl tr, t = WaveletNode.inner bm (some tl) (some tr) ∧
      BitsOf bm (s.map (fun v => !decide (v ∈ l.leaves))) ∧
      TreeOf l (s.filter (fun v => decide (v ∈ l.leaves))) tl ∧
      TreeOf r (s.filter (fun v => !decide (v ∈ l.leaves))) tr

/-- The bits of the shape of a tree as `wavelet_tree_encode_nodes` writes
them: 1 and the byte for a leaf, 0 and the two children for an inner node. -/
def shape_bits : HuffmanNode → List Bool
  | .leaf v _ => true :: bits_be v 8
  | .inner _ l r => false :: (shape_bits l ++ shape_bits r)

/-- The bits of the inner nodes of a tree over the bytes `s`, in the order in
which `wavelet_tree_encode_nodes` collects them. -/
def node_bits : HuffmanNode → List Nat → List Bool
  | .leaf _ _, _ => []
  | .inner _ l r, s => s.map (fun v => !decide (v ∈ l.leaves)) ++
      (node_bits l (s.filter (fun v => decide (v ∈ l.leaves))) ++
        node_bits r (s.filter (fun v => !decide (v ∈ l.leaves))))

/-- The bits that `bitwriter_write_bitsequence` writes for the bit array `b`
before it pads to a byte: for at most 200 bits the type REGULAR, the length
and the bits; else the type RG, the length, the factor `F`, the width of a
super-block rank, the bits and the super-block ranks. -/
def bitsequence_payload (b : BitArray) (F : Nat) : List Bool :=
  if b.len ≤ 200 then
    bytes_bits (BITSEQUENCE_REGULAR :: vbyte_bytes 10 b.len) ++ bitarray_bits b
  else
    bytes_bits (BITSEQUENCE_RG :: (vbyte_bytes 10 b.len ++ (vbyte_bytes 10 F ++
        vbyte_bytes 10 (BITS_NEEDED (bitcount (mm_bit b.data) 0 (b.len / (32 * F) * (32 * F)))))))
      ++ (bitarray_bits b ++
        fields_bits ((List.range (b.len / (32 * F))).map
            (fun m => bitcount (mm_bit b.data) 0 ((m + 1) * (32 * F))))
          (BITS_NEEDED (bitcount (mm_bit b.data) 0 (b.len / (32 * F) * (32 * F)))))

end Wire
/-! ## The byte level: what an opened wavelet tree holds -/

namespace Wire

/-- The reader `r` seen in a file that has the bytes `pre` before the bytes of
`r`: the offset and the position move by the bits of `pre`. -/
def Reader.shifted (pre : List Nat) (r : Reader) : Reader :=
  { mm := pre ++ r.mm, bitoff := r.bitoff + 8 * pre.length, bitpos := r.bitpos + 8 * pre.length }

/-- A bit sequence seen in a file that has the bytes `pre` before it. -/
def BitsequenceReader.shifted (pre : List Nat) (b : BitsequenceReader) : BitsequenceReader :=
  { b with r := b.r.shifted pre }

/-- The slots from `i` on hold the nodes of the Huffman tree `h` in the order
`read_tree` stores them: a node, the nodes of its left child, the nodes of its
right child. -/
def TreeAt (tree : List WaveletRNode) : HuffmanNode → Nat → Prop
  | .leaf v _, i => ∃ n, tree[i]? = some n ∧ n.leaf = true ∧ n.value = v
  | .inner _ l r, i => ∃ n, tree[i]? = some n ∧ n.leaf = false ∧ n.left = i + 1 ∧
      n.right = i + 1 + l.size ∧ TreeAt tree l (i + 1) ∧ TreeAt tree r (i + 1 + l.size)

/-- The slots from `i` on hold the nodes of `h` with the data `tree_data`
sets: the bits of an inner node for the bytes `s` start at `off` in the bits
`F` of all nodes, and `bitoff_rank1` is the number of 1 bits before them. -/
def TreeData (tree : List WaveletRNode) (F : Nat → Bool) : HuffmanNode → List Nat → Nat → Nat → Prop
  | .leaf v _, _, i, _ => ∃ n, tree[i]? = some n ∧ n.leaf = true ∧ n.value = v
  | .inner _ l r, s, i, off => ∃ n, tree[i]? = some n ∧ n.leaf = false ∧ n.left = i + 1 ∧
      n.right = i + 1 + l.size ∧ n.bitoff = off ∧ n.bitoff_rank1 = bitcount F 0 off ∧
      TreeData tree F l (s.filter (fun v => decide (v ∈ l.leaves))) (i + 1) (off + s.length) ∧
      TreeData tree F r (s.filter (fun v => !decide (v ∈ l.leaves))) (i + 1 + l.size)
        (off + s.length + (node_bits l (s.filter (fun v => decide (v ∈ l.leaves)))).length)

end Wire
/-! ## The byte level: the Elias-delta code of writer.c and reader.c -/

namespace Wire

/-- The number of binary digits of `n`, for `n` below `2^fuel`. -/
def bit_len_loop : Nat → Nat → Nat
  | 0, _ => 0
  | fuel + 1, n => if n = 0 then 0 else bit_len_loop fuel (n / 2) + 1

/-- The macro `BIT_LEN(n)`: 0 for 0, else the position of the highest set bit
plus one (`64 - clzll((uint64_t) n)`). -/
def BIT_LEN (n : Nat) : Nat := bit_len_loop 64 (n % 18446744073709551616)

/-- The function `bitwriter_write_eliasdelta`; `n++` is on a `uint64_t`, `len`
and `len_of_len` are of type `int`.  The three loops count `i` down: in round
`k` of the second one `i` is `len_of_len - k`, in round `k` of the third one
`len - 2 - k`. -/
def bitwriter_write_eliasdelta (w : BitWriter) (n : Nat) : Except Err BitWriter := do
  let n := (n + 1) % 18446744073709551616
  let len := BIT_LEN n
  let len_of_len : Int := (BIT_LEN len : Int) - 1
  let w ← (List.range len_of_len.toNat).foldlM (fun w _ => bitwriter_write_bit w 0) w
  let w ← (List.range (len_of_len + 1).toNat).foldlM
    (fun w k => bitwriter_write_bit w ((len >>> (len_of_len.toNat - k)) &&& 1)) w
  (List.range ((len : Int) - 1).toNat).foldlM
    (fun w k => bitwriter_write_bit w ((n >>> (len - 2 - k)) &&& 1)) w

/-- The loop `while(!reader_readbit(r)) lenoflen++` of `reader_eliasdelta`;
`lenoflen` is an `int`.  Every round reads a bit, so the bits of the file bound
the rounds. -/
def reader_eliasdelta_zeros : Nat → Reader → Nat → Except Err (Nat × Reader)
  | 0, _, _ => .error .fuel
  | fuel + 1, r, lenoflen => do
    let (b, r) ← reader_readbit r
    if b then pure (lenoflen, r)
    else if lenoflen + 1 > INT_MAX then .error .undefined
    else reader_eliasdelta_zeros fuel r (lenoflen + 1)

/-- The function `reader_eliasdelta`: the value and the reader after it.
`len <<= 1` is on an `int` and undefined when the result does not fit;
`n <<= 1` is on a `uint64_t`. -/
def reader_eliasdelta (r : Reader) : Except Err (Nat × Reader) := do
  let (lenoflen, r) ← reader_eliasdelta_zeros (8 * r.mm.length + 1) r 0
  let (len, r) ← (List.range lenoflen).foldlM
    (fun (st : Nat × Reader) _ => do
      let len := st.1 * 2
      if len > INT_MAX then .error .undefined
      else
        let (b, r) ← reader_readbit st.2
        pure (if b then len ||| 1 else len, r))
    (1, r)
  let (n, r) ← (List.range (len - 1)).foldlM
    (fun (st : Nat × Reader) _ => do
      let n := (st.1 * 2) % 18446744073709551616
      let (b, r) ← reader_readbit st.2
      pure (if b then n ||| 1 else n, r))
    (1, r)
  pure (u64 ((n : Int) - 1), r)

/-- The bits of the Elias-delta code of `n`: with `m = n + 1` of `len` binary
digits, `len` itself of `ll + 1` digits, these are `ll` zeros, the digits of
`len` and the digits of `m` after its leading 1. -/
def eliasdelta_bits (n : Nat) : List Bool :=
  List.replicate (BIT_LEN (BIT_LEN (n + 1)) - 1) false ++
    (bits_be (BIT_LEN (n + 1)) (BIT_LEN (BIT_LEN (n + 1))) ++
      bits_be (n + 1) (BIT_LEN (n + 1) - 1))

/-- A list of values written back to back by `bitwriter_write_eliasdelta`. -/
def eliasdelta_write_all (w : BitWriter) (l : List Nat) : Except Err BitWriter :=
  l.foldlM bitwriter_write_eliasdelta w

/-- The next `k` values read by `reader_eliasdelta`, one call after the
other. -/
def eliasdelta_read_all : Nat → Reader → Except Err (List Nat × Reader)
  | 0, r => pure ([], r)
  | k + 1, r => do
    let (v, r) ← reader_eliasdelta r
    let (vs, r) ← eliasdelta_read_all k r
    pure (v :: vs, r)

end Wire
/-! ## The byte level: ringqueue.c, k2_writer.c and k2.c -/

namespace Wire

/-- The struct `RingQueue`: `data` is `none` for the NULL pointer, and a slot
that was never written holds `none`. -/
structure RingQueue (α : Type) where
  read : Nat
  write : Nat
  len : Nat
  cap : Nat
  data : Option (List (Option α))
deriving DecidableEq, Repr

def RING_QUEUE_DEFAULT_CAPACITY : Nat := 16

/-- The function `ringqueue_init`. -/
def ringqueue_init {α : Type} (cap : Nat) : RingQueue α :=
  { read := 0, write := 0, len := 0
    cap := if cap > 0 then cap else RING_QUEUE_DEFAULT_CAPACITY
    data := none }

/-- The macro `ringqueue_empty`. -/
def ringqueue_empty {α : Type} (q : RingQueue α) : Bool := q.len == 0

/-- The function `ringqueue_resize`; the slots that `malloc` and `realloc` add
hold nothing yet. -/
def ringqueue_resize {α : Type} (q : RingQueue α) (min_cap : Nat) : RingQueue α :=
  match q.data with
  | some old_data =>
    if q.cap > 0 then
      let new_cap := q.cap + max (u64 ((min_cap : Int) - q.cap)) (min_cap >>> 1)
      if q.write = 0 then
        { q with write := q.cap, cap := new_cap
                 data := some (old_data ++ List.replicate (new_cap - q.cap) none) }
      else
        let upper_len := q.cap - q.read
        { q with read := 0, write := q.len, cap := new_cap
                 data := some ((old_data.drop q.read).take upper_len
                   ++ old_data.take (q.len - upper_len)
                   ++ List.replicate (new_cap - q.len) none) }
    else
      { q with cap := max RING_QUEUE_DEFAULT_CAPACITY min_cap
               data := some (List.replicate (max RING_QUEUE_DEFAULT_CAPACITY min_cap) none) }
  | none =>
    { q with cap := max RING_QUEUE_DEFAULT_CAPACITY min_cap
             data := some (List.replicate (max RING_QUEUE_DEFAULT_CAPACITY min_cap) none) }

/-- The function `ringqueue_enqueue`. -/
def ringqueue_enqueue {α : Type} (q : RingQueue α) (val : α) : Except Err (RingQueue α) :=
  let q1 := if q.data.isNone ∨ q.len = q.cap then ringqueue_resize q (q.len + 1) else q
  match q1.data with
  | none => .error .undefined
  | some d =>
    if q1.write < d.length then
      let write := q1.write + 1
      .ok { q1 with data := some (d.set q1.write (some val))
                    write := if write = q1.cap then 0 else write
                    len := q1.len + 1 }
    else .error .undefined

/-- The function `ringqueue_dequeue`: `none` stands for the NULL it returns on
an empty queue. -/
def ringqueue_dequeue {α : Type} (q : RingQueue α) : Except Err (Option α × RingQueue α) :=
  if q.len = 0 then .ok (none, q)
  else
    match q.data with
    | none => .error .undefined
    | some d =>
      match d.get? q.read with
      | some (some val) =>
        let read := q.read + 1
        .ok (some val, { q with read := if read = q.cap then 0 else read, len := q.len - 1 })
      | _ => .error .undefined

/-! ### k2_writer.c -/

/-- The struct `K2Edge` with its field `kval`. -/
structure K2Edge where
  xval : Nat
  yval : Nat
  kval : Nat
deriving DecidableEq, Repr

/-- The struct `QueueElement` of k2_writer.c. -/
structure QueueElement where
  offsetL : Nat
  offsetR : Nat
deriving DecidableEq, Repr

/-- The struct `K2WriteParams`; `bits` is `none` for the NULL pointer. -/
structure K2WriteParams where
  width : Nat
  height : Nat
  n : Nat
  bits : Option BitArray
  len_t : Nat
  len_l : Nat
  off_l : Nat
deriving DecidableEq, Repr

/-- The macro `NEXT_POW2(n)`, `1 << BIT_LEN(n - 1)` on the `int` constant 1: a
shift by 31 or more is undefined; the value is converted to `size_t`. -/
def NEXT_POW2 (n : Nat) : Except Err Nat :=
  if n = 0 then pure 1
  else if BIT_LEN (n - 1) ≥ 31 then .error .undefined
  else pure (1 <<< BIT_LEN (n - 1))

/-- The function `k2_write_data`. -/
def k2_write_data (m : K2WriteParams) (w : BitWriter) (p : BitsequenceParams) :
    Except Err BitWriter := do
  let w ← bitwriter_write_vbyte w m.width
  let w ← bitwriter_write_vbyte w m.height
  let w ← bitwriter_write_vbyte w 2
  let w ← bitwriter_write_vbyte w m.n
  let w0 := bitwriter_init
  let w ←
    if m.len_l > 0 then do
      match m.bits with
      | none => .error .undefined
      | some bits =>
        let w0 ← bitwriter_write_bitsequence w0 { len := m.len_t, data := bits.data } p
        let w ← bitwriter_write_vbyte w (bitwriter_bytelen w0)
        let w ← bitwriter_write_bitwriter w w0
        bitwriter_write_bitarray w { len := m.len_l, data := bits.data.drop m.off_l }
    else bitwriter_write_vbyte w 0
  bitwriter_flush w

/-- The first loop over the edges `offsetL .. offsetR - 1` of a node of the
tree: `kval` is the quadrant of the edge at this level, the coordinates are
reduced to the quadrant, `counter` counts the edges of each quadrant.  An
index outside `tedges` or `counter` is undefined. -/
def k2_count_edges (shift mask : Nat) (offsetL offsetR : Nat) (tedges : List K2Edge) :
    Except Err (List K2Edge × List Nat) :=
  (List.range (offsetR - offsetL)).foldlM
    (fun (st : List K2Edge × List Nat) t => do
      let o := offsetL + t
      let e ← arr_get st.1 o
      let kval := (e.xval >>> shift) + (e.yval >>> shift) * 2
      let c ← arr_get st.2 kval
      let tedges ← arr_set st.1 o { xval := e.xval &&& mask, yval := e.yval &&& mask, kval := kval }
      let counter ← arr_set st.2 kval (c + 1)
      pure (tedges, counter))
    (tedges, [0, 0, 0, 0])

/-- The loop `while(tedges[pointer[tempk]].kval == tempk) pointer[tempk]++`. -/
def k2_skip (tedges : List K2Edge) (tempk : Nat) : Nat → List Nat → Except Err (List Nat)
  | 0, _ => .error .fuel
  | fuel + 1, pointer => do
    let pt ← arr_get pointer tempk
    let e ← arr_get tedges pt
    if e.kval = tempk then do
      let pointer ← arr_set pointer tempk (pt + 1)
      k2_skip tedges tempk fuel pointer
    else pure pointer

/-- The loop `while(pointer[j] < boundaries[j + 1])` that moves the edges of
the quadrant `j` into their range. -/
def k2_place (boundaries : List Nat) (j : Nat) :
    Nat → List K2Edge → List Nat → Except Err (List K2Edge × List Nat)
  | 0, _, _ => .error .fuel
  | fuel + 1, tedges, pointer => do
    let pj ← arr_get pointer j
    let bj ← arr_get boundaries (j + 1)
    if pj < bj then do
      let e ← arr_get tedges pj
      if e.kval ≠ j then do
        let tempk := e.kval
        let pointer ← k2_skip tedges tempk (tedges.length + 1) pointer
        let pt ← arr_get pointer tempk
        let e2 ← arr_get tedges pt
        let tedges ← arr_set tedges pj e2
        let tedges ← arr_set tedges pt e
        let pointer ← arr_set pointer tempk (pt + 1)
        k2_place boundaries j fuel tedges pointer
      else do
        let pointer ← arr_set pointer j (pj + 1)
        k2_place boundaries j fuel tedges pointer
    else pure (tedges, pointer)

/-- The state of the loops of `k2_write`. -/
structure K2WriteState where
  tedges : List K2Edge
  bits : BitArray
  q : RingQueue QueueElement
  pos : Nat
  tmpCount : Nat
deriving DecidableEq, Repr

/-- The function `k2_queue_dequeue`: it reads through the pointer that
`ringqueue_dequeue` returns, NULL on an empty queue. -/
def k2_queue_dequeue (q : RingQueue QueueElement) :
    Except Err (QueueElement × RingQueue QueueElement) := do
  match ← ringqueue_dequeue q with
  | (some qe, q) => pure (qe, q)
  | (none, _) => .error .undefined

/-- One round of the loop `for(k = 0; k < dequeues; k++)` of `k2_write`: a node
of the layer with the shift `shift` is taken from the queue, its four bits are
written, its non-empty quadrants are put into the queue and its edges are
sorted by quadrant. -/
def k2_write_node (shift : Nat) (st : K2WriteState) : Except Err K2WriteState := do
  if shift ≥ 64 then .error .undefined
  let mask := (1 <<< shift) - 1
  let (qe, q) ← k2_queue_dequeue st.q
  let (tedges, counter) ← k2_count_edges shift mask qe.offsetL qe.offsetR st.tedges
  let (boundaries, q, bits, pos, tmpCount) ← (List.range 4).foldlM
    (fun (s : List Nat × RingQueue QueueElement × BitArray × Nat × Nat) j => do
      let (boundaries, q, bits, pos, tmpCount) := s
      let bj ← arr_get boundaries j
      let c ← arr_get counter j
      let boundaries := boundaries ++ [bj + c]
      if bj + c ≠ bj then do
        let q ← ringqueue_enqueue q { offsetL := bj, offsetR := bj + c }
        let bits ← bitarray_set bits pos true
        pure (boundaries, q, bits, pos + 1, tmpCount + 1)
      else pure (boundaries, q, bits, pos + 1, tmpCount))
    ([qe.offsetL], q, st.bits, st.pos, st.tmpCount)
  let pointer := boundaries.take 4
  let (tedges, _) ← (List.range 4).foldlM
    (fun (s : List K2Edge × List Nat) j => k2_place boundaries j (2 * s.1.length + 1) s.1 s.2)
    (tedges, pointer)
  pure { tedges := tedges, bits := bits, q := q, pos := pos, tmpCount := tmpCount }

/-- The loop `while(!ringqueue_empty(&q))` of `k2_write` over the nodes of the
last layer. -/
def k2_write_leaves : Nat → List K2Edge → BitArray → RingQueue QueueElement → Nat →
    Except Err (List K2Edge × BitArray × RingQueue QueueElement × Nat)
  | 0, _, _, _, _ => .error .fuel
  | fuel + 1, tedges, bits, q, pos =>
    if ringqueue_empty q then pure (tedges, bits, q, pos)
    else do
      let (qe, q) ← k2_queue_dequeue q
      let (tedges, counter) ← (List.range (qe.offsetR - qe.offsetL)).foldlM
        (fun (st : List K2Edge × List Nat) t => do
          let o := qe.offsetL + t
          let e ← arr_get st.1 o
          let x := e.xval % 2
          let y := e.yval % 2
          let kval := x + y * 2
          let c ← arr_get st.2 kval
          let tedges ← arr_set st.1 o { xval := x, yval := y, kval := kval }
          let counter ← arr_set st.2 kval (c + 1)
          pure (tedges, counter))
        (tedges, [0, 0, 0, 0])
      let (bits, pos) ← (List.range 4).foldlM
        (fun (s : BitArray × Nat) j => do
          let c ← arr_get counter j
          if c > 0 then do
            let bits ← bitarray_set s.1 s.2 true
            pure (bits, s.2 + 1)
          else pure (s.1, s.2 + 1))
        (bits, pos)
      k2_write_leaves fuel tedges bits q pos

/-- The function `k2_write`; `maxl` and the loop variable `i` are of type
`int`, the sizes are taken modulo `2^64`. -/
def k2_write (width height : Nat) (tedges : List K2Edge) (edge_count : Nat) (w : BitWriter)
    (p : BitsequenceParams) : Except Err BitWriter := do
  let nodes := max (max width height) 2
  let n ← NEXT_POW2 nodes
  if edge_count = 0 then
    k2_write_data { width := width, height := height, n := n, bits := none, len_t := 0,
                    len_l := 0, off_l := 0 } w p
  else do
    let tedges ← (List.range edge_count).foldlM
      (fun (es : List K2Edge) i => do
        let e ← arr_get es i
        arr_set es i { e with kval := 0 })
      tedges
    let maxl := BIT_LEN (nodes - 1) - 1
    let bits := bitarray_init ((edge_count * maxl * 4 + 8) % 18446744073709551616)
    let q ← ringqueue_enqueue (ringqueue_init 0) { offsetL := 0, offsetR := edge_count }
    let (st, _) ← (List.range maxl).foldlM
      (fun (s : K2WriteState × Nat) i => do
        let (st, dequeues) := s
        let shift := maxl - i
        let st ← (List.range dequeues).foldlM (fun st _ => k2_write_node shift st)
          { st with tmpCount := 0 }
        pure (st, st.tmpCount))
      (({ tedges := tedges, bits := bits, q := q, pos := 0, tmpCount := 0 } : K2WriteState), 1)
    let len_t := st.pos
    let off_l := BYTE_LEN len_t
    let pos := 8 * off_l
    let (_, bits, _, pos) ← k2_write_leaves (st.q.len + 1) st.tedges st.bits st.q pos
    k2_write_data { width := width, height := height, n := n, bits := some bits, len_t := len_t,
                    len_l := pos - 8 * off_l, off_l := off_l } w p

/-! ### k2.c -/

/-- Modelled from the spec: the function `power_of(x, n)` of `arith.c`, which is
not part of the sources at hand; it is taken to tell whether `x` is a power
`n^e` of `n`, as `k2_init` uses it on the side length and the arity. -/
def power_of (x n : Nat) : Bool := (List.range 65).any (fun e => n ^ e == x)

/-- The struct `K2Reader`; `t` is `none` for the NULL pointer of an empty
matrix, and `l` is set only with `t`. -/
structure K2Reader where
  width : Nat
  height : Nat
  k : Nat
  n : Nat
  t : Option BitsequenceReader
  l : Reader
deriving DecidableEq, Repr

/-- The function `k2_init`; `none` is the NULL it returns for a side length
that is no power of `k` or smaller than the width or the height.  The arity
is stored in an `int`: a value above `INT_MAX` is not followed. -/
def k2_init (r : Reader) : Except Err (Option K2Reader) := do
  let r0 := r
  let (width, nbytes, r) ← reader_vbyte r
  let off := nbytes
  let (height, nbytes, r) ← reader_vbyte r
  let off := off + nbytes
  let (k, nbytes, r) ← reader_vbyte r
  let off := off + nbytes
  let (n, nbytes, r) ← reader_vbyte r
  let off := off + nbytes
  if !power_of n k then pure none
  else if k > INT_MAX then .error .unmodelled
  else if width > n ∨ height > n then pure none
  else
    let (len_t, nbytes, _) ← reader_vbyte r
    let off := off + nbytes
    if len_t > 0 then do
      let rt ← reader_init r0 off
      let t ← bitsequence_reader_init rt
      let rl ← reader_init r0 (off + len_t)
      pure (some { width := width, height := height, k := k, n := n, t := some t, l := rl })
    else pure (some { width := width, height := height, k := k, n := n, t := none, l := r0 })

/-- The function `bitsequence_reader_len`. -/
def bitsequence_reader_len (b : BitsequenceReader) : Nat := b.len

/-- The loop of `k2_get`: `none` is the `return false` at a 0 bit of `T`,
otherwise the result is the value of `x` after the loop.  The arithmetic is on
`uint64_t`, the product `k->k * k->k` on `int`; a division by 0 and an overflow
of the `int` product are undefined. -/
def k2_get_loop (k : Nat) (t : BitsequenceReader) :
    Nat → Nat → Nat → Nat → Nat → Except Err (Option Nat)
  | 0, _, _, _, _ => .error .fuel
  | fuel + 1, n, p, q, x =>
    if x < bitsequence_reader_len t then do
      if !(← bitsequence_reader_access t x) then pure none
      else if k = 0 then .error .undefined
      else
        let n := n / k
        let r1 ← bitsequence_reader_rank1 t x
        if k * k > INT_MAX then .error .undefined
        else if n = 0 then .error .undefined
        else
          let x := (r1 * (k * k) + k * (p / n) + q / n) % 18446744073709551616
          k2_get_loop k t fuel n (p % n) (q % n) x
    else pure (some x)

/-- The function `k2_get`; every round of its loop divides `n` by `k`, so 65
rounds suffice for `k` of at least 2. -/
def k2_get (k : K2Reader) (r c : Nat) : Except Err Bool :=
  if r ≥ k.height ∨ c ≥ k.width then pure false
  else
    match k.t with
    | none => pure false
    | some t =>
      if k.k = 0 then .error .undefined
      else
        let n := k.n / k.k
        if n = 0 then .error .undefined
        else do
          let x := (k.k * (r / n) + c / n) % 18446744073709551616
          match ← k2_get_loop k.k t 65 n (r % n) (c % n) x with
          | none => pure false
          | some x =>
            let rl ← reader_bitpos k.l (u64 ((x : Int) - bitsequence_reader_len t))
            let (b, _) ← reader_readbit rl
            pure b

/-- The struct `K2IteratorElement`; `x` is an `int64_t`. -/
structure K2IteratorElement where
  n : Nat
  p : Nat
  q : Nat
  x : Int
deriving DecidableEq, Repr

/-- The struct `K2Iterator`. -/
structure K2Iterator where
  k : K2Reader
  row : Bool
  has_next : Bool
  queue : RingQueue K2IteratorElement
deriving DecidableEq, Repr

/-- The function `k2_iter_init`; the queue of an iterator on an empty matrix is
not initialised and is taken to be the queue `ringqueue_init` gives. -/
def k2_iter_init (k : K2Reader) (v : Nat) (row : Bool) : Except Err K2Iterator :=
  match k.t with
  | none => pure { k := k, row := row, has_next := false, queue := ringqueue_init 0 }
  | some _ => do
    let queue : RingQueue K2IteratorElement := ringqueue_init (min k.height 16)
    let l : K2IteratorElement :=
      if row then { n := k.n, x := -1, p := v, q := 0 } else { n := k.n, x := -1, p := 0, q := v }
    let queue ← ringqueue_enqueue queue l
    pure { k := k, row := row, has_next := true, queue := queue }

/-- The function `k2_iter_init_row`. -/
def k2_iter_init_row (k : K2Reader) (p : Nat) : Except Err K2Iterator := k2_iter_init k p true

/-- The loop of `k2_iter_next_element`: the result `res`, the value `*v` (0
while it is not set) and the queue.  Each round takes an element from the
queue. -/
def k2_iter_next_element_loop (k : K2Reader) (t : BitsequenceReader) (row : Bool) :
    Nat → RingQueue K2IteratorElement → Except Err (Int × Nat × RingQueue K2IteratorElement)
  | 0, _ => .error .fuel
  | fuel + 1, queue =>
    if ringqueue_empty queue then pure (0, 0, queue)
    else do
      match ← ringqueue_dequeue queue with
      | (none, _) => .error .undefined
      | (some l, queue) =>
        if (row ∧ l.q ≥ k.width) ∨ (¬ row ∧ l.p ≥ k.height) then
          k2_iter_next_element_loop k t row fuel queue
        else if l.x ≥ Int.bmod (bitsequence_reader_len t : Int) 18446744073709551616 then do
          let rl ← reader_bitpos k.l (u64 (l.x - bitsequence_reader_len t))
          let (b, _) ← reader_readbit rl
          if b then pure (1, if row then l.q else l.p, queue)
          else k2_iter_next_element_loop k t row fuel queue
        else do
          let go ← if l.x = -1 then pure true else bitsequence_reader_access t (u64 l.x)
          if go then do
            if k.k = 0 then .error .undefined
            else
              let nnew := l.n / k.k
              let r1 ← bitsequence_reader_rank1 t l.x
              let y := (r1 * (k.k * k.k)) % 18446744073709551616
              if nnew = 0 then .error .undefined
              else
                let y := if row then (y + k.k * (l.p / nnew)) % 18446744073709551616
                  else (y + l.q / nnew) % 18446744073709551616
                let queue ← (List.range k.k).foldlM
                  (fun (queue : RingQueue K2IteratorElement) j =>
                    let el : K2IteratorElement :=
                      if row then
                        { n := nnew, p := l.p % nnew
                          q := (l.q + nnew * j) % 18446744073709551616
                          x := Int.bmod (((y + j) % 18446744073709551616 : Nat) : Int)
                            18446744073709551616 }
                      else
                        { n := nnew, p := (l.p + nnew * j) % 18446744073709551616
                          q := l.q % nnew
                          x := Int.bmod (((y + j * k.k) % 18446744073709551616 : Nat) : Int)
                            18446744073709551616 }
                    ringqueue_enqueue queue el)
                  queue
                k2_iter_next_element_loop k t row fuel queue
          else k2_iter_next_element_loop k t row fuel queue

/-- The function `k2_iter_finish`: the queue is emptied and destroyed; it is
not used again and is taken to be the queue `ringqueue_init` gives. -/
def k2_iter_finish (it : K2Iterator) : K2Iterator :=
  if it.has_next then { it with has_next := false, queue := ringqueue_init 0 } else it

/-- The function `k2_iter_next`: the return value, `*v` and the iterator after
the call; `fuel` bounds the rounds of the loop of `k2_iter_next_element`. -/
def k2_iter_next (fuel : Nat) (it : K2Iterator) : Except Err (Int × Nat × K2Iterator) :=
  if !it.has_next then pure (-1, 0, it)
  else
    match it.k.t with
    | none => .error .undefined
    | some t => do
      let (res, v, queue) ← k2_iter_next_element_loop it.k t it.row fuel it.queue
      let it := { it with queue := queue }
      if res ≠ 1 then pure (res, v, k2_iter_finish it) else pure (res, v, it)

/-- The values of the calls of `k2_iter_next` that return 1, up to the first
call that returns something else, with that return value and the iterator
after it. -/
def k2_iter_all (fuel : Nat) : Nat → K2Iterator → Except Err (List Nat × Int × K2Iterator)
  | 0, _ => .error .fuel
  | calls + 1, it => do
    let (res, v, it) ← k2_iter_next fuel it
    if res = 1 then do
      let (vs, last, it) ← k2_iter_all fuel calls it
      pure (v :: vs, last, it)
    else pure ([], res, it)

/-- A matrix written by `k2_write` to a writer in memory and opened from the
written bytes by `k2_init`. -/
def k2_written (width height : Nat) (edges : List (Nat × Nat)) (params : BitsequenceParams) :
    Except Err (Option K2Reader) := do
  let w ← k2_write width height (edges.map (fun e => { xval := e.1, yval := e.2, kval := 0 }))
    edges.length bitwriter_init params
  let r ← reader_initf (bitwriter_bytes w) 0
  k2_init r

end Wire
/-! ## The byte level: what an opened k2-tree holds -/

namespace Wire

/-- The queue holds the elements `l`, the next one to be taken first: they lie
in the slots from `read` on, around the end of the array. -/
def RqRep {α : Type} (q : RingQueue α) (l : List α) : Prop :=
  q.len = l.length ∧
  ((q.data = none ∧ l = [] ∧ q.read = 0 ∧ q.write = 0) ∨
   ∃ d, q.data = some d ∧ d.length = q.cap ∧ 0 < q.cap ∧ q.read < q.cap ∧ l.length ≤ q.cap ∧
     q.write = (q.read + l.length) % q.cap ∧
     ∀ i v, l[i]? = some v → d[(q.read + i) % q.cap]? = some (some v))

/-- The end of the level `d` of a k2-tree in the concatenation of its bits `T`
and `L`: the first level has the four bits of the root, and every 1 bit of a
level has four bits in the next one. -/
def k2_level_end (fT : Nat → Bool) : Nat → Nat
  | 0 => 0
  | d + 1 => 4 * (1 + bitcount fT 0 (k2_level_end fT d))

/-- The number of 1 bits of `T` up to the position `x`, 0 for the position -1
of the root. -/
def k2_rank (fT : Nat → Bool) (x : Int) : Nat :=
  if x < 0 then 0 else bitcount fT 0 (x.toNat + 1)

/-- The element that `k2_iter_next_element` puts into the queue of a row
iterator for the half `j` of the columns of the element `l`. -/
def k2_child (fT : Nat → Bool) (l : K2IteratorElement) (j : Nat) : K2IteratorElement :=
  { n := l.n / 2, p := l.p % (l.n / 2), q := l.q + l.n / 2 * j
    x := ((4 * k2_rank fT l.x + 2 * (l.p / (l.n / 2)) + j : Nat) : Int) }

/-- The columns below the element `l` of a row iterator whose cell is set, in
ascending order; `d` bounds the levels below `l`. -/
def k2_cols (fT fL : Nat → Bool) (lenT width : Nat) : Nat → K2IteratorElement → List Nat
  | 0, _ => []
  | d + 1, l =>
    if l.q ≥ width then []
    else if l.x ≥ (lenT : Int) then (if fL (l.x.toNat - lenT) then [l.q] else [])
    else if l.x = -1 ∨ fT l.x.toNat = true then
      k2_cols fT fL lenT width d (k2_child fT l 0) ++ k2_cols fT fL lenT width d (k2_child fT l 1)
    else []

/-- The cell of the row `p` and the column `c` inside the square of side `n`
whose bit is at the position `x` (-1 for the whole matrix); `d` bounds the
levels below it. -/
def k2_sub (fT fL : Nat → Bool) (lenT : Nat) : Nat → Int → Nat → Nat → Nat → Bool
  | 0, _, _, _, _ => false
  | d + 1, x, n, p, c =>
    if x ≥ (lenT : Int) then fL (x.toNat - lenT)
    else if x = -1 ∨ fT x.toNat = true then
      k2_sub fT fL lenT d ((4 * k2_rank fT x + 2 * (p / (n / 2)) + c / (n / 2) : Nat) : Int)
        (n / 2) (p % (n / 2)) (c % (n / 2))
    else false

/-- An element of the queue of a row iterator at the level `d` of a tree of
`h` levels: the side of its square, its row and columns inside the matrix, and
the position of its bit in the level `d`. -/
def K2Valid (fT : Nat → Bool) (h d : Nat) (l : K2IteratorElement) : Prop :=
  d ≤ h ∧ l.n = 2 ^ (h - d) ∧ l.p < l.n ∧ l.q + l.n ≤ 2 ^ h ∧
  ((d = 0 ∧ l.x = -1) ∨
   (1 ≤ d ∧ (k2_level_end fT (d - 1) : Int) ≤ l.x ∧ l.x < (k2_level_end fT d : Int)))

/-- An opened non-empty k2-tree of `h` levels with the bits `fT` of `T` and
`fL` of `L`: the arity is 2 and the side `2^h`, `T` holds the levels below the
last one and `L` the last one, and the readers give these bits. -/
def K2Ok (k : K2Reader) (h : Nat) (fT fL : Nat → Bool) : Prop :=
  k.k = 2 ∧ k.n = 2 ^ h ∧ 1 ≤ h ∧ h ≤ 61 ∧ k.width ≤ k.n ∧ k.height ≤ k.n ∧
  k2_level_end fT h < 2 ^ 62 ∧
  ∃ t, k.t = some t ∧ t.len = k2_level_end fT (h - 1) ∧
    (∀ x, x < t.len → bitsequence_reader_access t x = .ok (fT x)) ∧
    (∀ x, x < t.len → bitsequence_reader_rank1 t (x : Int) = .ok (bitcount fT 0 (x + 1))) ∧
    (∀ y, t.len + y < k2_level_end fT h →
      (do
        let r ← reader_bitpos k.l y
        let b ← reader_readbit r
        pure b.1) = .ok (fL y))

/-- The columns still to come from the queue of a row iterator that holds the
elements `A` of the level `d` followed by the elements `B` of the level
`d + 1`: the elements of `B` come from elements that stood before `A`. -/
def k2_outs (fT fL : Nat → Bool) (lenT width h d : Nat) (A B : List K2IteratorElement) :
    List Nat :=
  (B.map (k2_cols fT fL lenT width (h - d))).flatten ++
    (A.map (k2_cols fT fL lenT width (h + 1 - d))).flatten

/-- The queue of a row iterator between two calls: elements `A` of the level
`d` followed by elements `B` of the level `d + 1`. -/
def K2Inv (fT : Nat → Bool) (h d : Nat) (A B : List K2IteratorElement)
    (queue : RingQueue K2IteratorElement) : Prop :=
  d ≤ h ∧ (∀ e ∈ A, K2Valid fT h d e) ∧ (∀ e ∈ B, K2Valid fT h (d + 1) e) ∧
  (d = h → B = []) ∧ RqRep queue (A ++ B)

/-- The bits `T` of the k2-tree that `k2_write` gives for the matrix of width
and height 3 with the pairs (0,0), (1,2), (2,2). -/
def k2_sample_T (x : Nat) : Bool := [true, false, true, true].getD x false

/-- The bits `L` of the same k2-tree. -/
def k2_sample_L (y : Nat) : Bool :=
  [true, false, false, false, false, true, false, false, true, false, false, false].getD y false

/-- The same k2-tree as `k2_init` opens it from the written bytes. -/
def k2_sample : K2Reader :=
  { width := 3, height := 3, k := 2, n := 4
    t := some
      { r := { mm := [131, 131, 130, 132, 131, 1, 132, 176, 132, 128], bitoff := 40, bitpos := 40 }
        type := 1, len := 4, off := 16, factor := 0, bits_per_rs := 0, s := 0, rs_off := 0
        ones := 3 }
    l := { mm := [131, 131, 130, 132, 131, 1, 132, 176, 132, 128], bitoff := 64, bitpos := 64 } }

end Wire
/-! ## The byte level: sequences of calls on a ring queue -/

namespace Wire

/-- A call on a ring queue: `ringqueue_enqueue` of a value or
`ringqueue_dequeue`. -/
inductive RqCall (α : Type) where
  | enqueue (v : α)
  | dequeue
deriving DecidableEq, Repr

/-- The call is a `ringqueue_enqueue`. -/
def RqCall.is_enqueue {α : Type} : RqCall α → Bool
  | .enqueue _ => true
  | .dequeue => false

/-- The calls made one after the other on the queue `q`: what the calls of
`ringqueue_dequeue` return, in order (`none` for NULL), and the queue after the
last call. -/
def ringqueue_calls {α : Type} :
    RingQueue α → List (RqCall α) → Except Err (List (Option α) × RingQueue α)
  | q, [] => .ok ([], q)
  | q, .enqueue v :: cs => do
    let q ← ringqueue_enqueue q v
    ringqueue_calls q cs
  | q, .dequeue :: cs => do
    let (r, q) ← ringqueue_dequeue q
    let (rs, q) ← ringqueue_calls q cs
    pure (r :: rs, q)

/-- First in, first out: from the elements `l` that wait, the oldest first,
what the calls of dequeue return and the elements that wait after the last
call. -/
def fifo_calls {α : Type} : List α → List (RqCall α) → List (Option α) × List α
  | l, [] => ([], l)
  | l, .enqueue v :: cs => fifo_calls (l ++ [v]) cs
  | l, .dequeue :: cs =>
    match l with
    | [] => (none :: (fifo_calls [] cs).1, (fifo_calls [] cs).2)
    | x :: l => (some x :: (fifo_calls l cs).1, (fifo_calls l cs).2)

end Wire
/-! # Theorems -/

/-! ## Generic loop lemmas -/

@[simp] theorem ok_bind {α β : Type} (a : α) (f : α → Except Err β) :
    (Except.ok a >>= f) = f a := rfl

@[simp] theorem error_bind {α β : Type} (e : Err) (f : α → Except Err β) :
    ((Except.error e : Except Err α) >>= f) = Except.error e := rfl

@[simp] theorem pure_eq_ok {α : Type} (a : α) : (pure a : Except Err α) = Except.ok a := rfl

theorem range_foldlM_inv {β : Type} (f : β → Nat → Except Err β) (Inv : Nat → β → Prop)
    (n : Nat) (b : β) (h0 : Inv 0 b)
    (hstep : ∀ k, k < n → ∀ b, Inv k b → ∃ b', f b k = .ok b' ∧ Inv (k + 1) b') :
    ∃ b', (List.range n).foldlM f b = .ok b' ∧ Inv n b' := by
  induction n with
  | zero => exact ⟨b, rfl, h0⟩
  | succ n ih =>
    obtain ⟨b1, hb1, hI1⟩ := ih (fun k hk => hstep k (Nat.lt_succ_of_lt hk))
    obtain ⟨b2, hb2, hI2⟩ := hstep n (Nat.lt_succ_self n) b1 hI1
    refine ⟨b2, ?_, hI2⟩
    rw [List.range_succ, List.foldlM_append, hb1]
    simp only [List.foldlM, ok_bind, hb2]
    rfl

theorem idx_lt {N W i j : Nat} (hi : i < N) (hj : j < W) : i * W + j < N * W := by
  calc i * W + j < i * W + W := by omega
    _ = (i + 1) * W := by ring
    _ ≤ N * W := Nat.mul_le_mul_right W hi

theorem bitarray_get_ok (b : BitArray) (i : Nat) (h : i < b.length) :
    bitarray_get b i = .ok (b.getD i false) := by
  unfold bitarray_get
  simp [h, List.getD_eq_getElem?_getD, List.getElem?_eq_getElem h]

theorem bitarray_set_ok (b : BitArray) (i : Nat) (v : Bool) (h : i < b.length) :
    bitarray_set b i v = .ok (b.set i v) := by
  unfold bitarray_set
  simp [h]

theorem getD_set_eq (b : BitArray) (i : Nat) (v : Bool) (h : i < b.length) :
    (b.set i v).getD i false = v := by
  simp [List.getD_eq_getElem?_getD, List.getElem?_set, h]

theorem getD_set_ne (b : BitArray) (i q : Nat) (v : Bool) (h : q ≠ i) :
    (b.set i v).getD q false = b.getD q false := by
  simp [List.getD_eq_getElem?_getD, List.getElem?_set, Ne.symm h]

/-! ## The non-terminal reachability table -/

theorem TableMono.refl (T : BitArray) : TableMono T T := ⟨rfl, fun _ h => h⟩

theorem TableMono.trans {A B C : BitArray} (h1 : TableMono A B) (h2 : TableMono B C) :
    TableMono A C :=
  ⟨h2.1.trans h1.1, fun q h => h2.2 q (h1.2 q h)⟩

theorem tableMono_set_true (T : BitArray) (i : Nat) : TableMono T (T.set i true) := by
  refine ⟨by simp, fun q h => ?_⟩
  by_cases hq : q = i
  · subst hq
    have hlt : q < T.length := by
      by_contra hc
      simp [List.getD_eq_getElem?_getD, List.getElem?_eq_none (Nat.le_of_not_lt hc)] at h
    rw [getD_set_eq T q true hlt]
  · rw [getD_set_ne T i q true hq]; exact h

theorem tableMono_set_of_false (T : BitArray) (i : Nat) (v : Bool)
    (h0 : T.getD i false = false) : TableMono T (T.set i v) := by
  refine ⟨by simp, fun q h => ?_⟩
  by_cases hq : q = i
  · subst hq; rw [h0] at h; exact absurd h (by decide)
  · rw [getD_set_ne T i q v hq]; exact h

theorem closure_step_spec (terminals N W k i j : Nat) (T : BitArray)
    (hW : W = terminals + N) (hlen : T.length = N * W)
    (hi : i < N) (hk : k < N) (hj : j < W) :
    ∃ T', nt_table_closure_step terminals W k i T j = .ok T' ∧ TableMono T T' ∧
      (T.getD (i * W + (terminals + k)) false = true → T.getD (k * W + j) false = true →
        T'.getD (i * W + j) false = true) := by
  have hij : i * W + j < T.length := by rw [hlen]; exact idx_lt hi hj
  have hik : i * W + terminals + k < T.length := by
    rw [hlen, Nat.add_assoc]; exact idx_lt hi (by omega)
  have hkj : k * W + j < T.length := by rw [hlen]; exact idx_lt hk hj
  unfold nt_table_closure_step
  simp only [bitarray_get_ok T _ hij, bitarray_get_ok T _ hik, bitarray_get_ok T _ hkj, ok_bind]
  cases h1 : T.getD (i * W + j) false
  · cases h2 : T.getD (i * W + terminals + k) false
    · simp only [Bool.not_false, if_true, pure_eq_ok, ok_bind, Bool.false_eq_true, if_false]
      refine ⟨_, bitarray_set_ok T _ _ hij, tableMono_set_of_false T _ _ h1, ?_⟩
      intro h; rw [← Nat.add_assoc, h2] at h; exact absurd h (by decide)
    · simp only [Bool.not_false, if_true, pure_eq_ok, ok_bind]
      refine ⟨_, bitarray_set_ok T _ _ hij, tableMono_set_of_false T _ _ h1, ?_⟩
      intro _ h; rw [getD_set_eq T _ _ hij]; exact h
  · simp only [Bool.not_true, Bool.false_eq_true, if_false, pure_eq_ok]
    exact ⟨T, rfl, TableMono.refl T, fun _ _ => h1⟩

theorem closure_row_spec (terminals N W k i : Nat) (T0 T : BitArray)
    (hW : W = terminals + N) (hlen : T0.length = N * W) (h0 : TableMono T0 T)
    (hi : i < N) (hk : k < N) :
    ∃ T', (List.range W).foldlM (nt_table_closure_step terminals W k i) T = .ok T' ∧
      TableMono T T' ∧
      ∀ j, j < W → T0.getD (i * W + (terminals + k)) false = true →
        T0.getD (k * W + j) false = true → T'.getD (i * W + j) false = true := by
  have key := range_foldlM_inv (nt_table_closure_step terminals W k i)
    (fun m Tc => TableMono T Tc ∧ ∀ j, j < m → T0.getD (i * W + (terminals + k)) false = true →
        T0.getD (k * W + j) false = true → Tc.getD (i * W + j) false = true)
    W T ⟨TableMono.refl T, fun j hj => absurd hj (Nat.not_lt_zero j)⟩
    (by
      intro m hm Tc hInv
      obtain ⟨hmono, hfire⟩ := hInv
      have hlenc : Tc.length = N * W := by rw [hmono.1, h0.1, hlen]
      obtain ⟨T', hstep, hm', hf'⟩ := closure_step_spec terminals N W k i m Tc hW hlenc hi hk hm
      refine ⟨T', hstep, hmono.trans hm', ?_⟩
      intro j hj ha hb
      rcases Nat.lt_succ_iff_lt_or_eq.mp hj with hlt | heq
      · exact hm'.2 _ (hfire j hlt ha hb)
      · subst heq
        exact hf' (hmono.2 _ (h0.2 _ ha)) (hmono.2 _ (h0.2 _ hb)))
  exact key

theorem closure_k_spec (terminals N W k : Nat) (T0 : BitArray)
    (hW : W = terminals + N) (hlen : T0.length = N * W) (hk : k < N) :
    ∃ T', nt_table_closure_k terminals N W T0 k = .ok T' ∧ TableMono T0 T' ∧
      ∀ i, i < N → ∀ j, j < W → T0.getD (i * W + (terminals + k)) false = true →
        T0.getD (k * W + j) false = true → T'.getD (i * W + j) false = true := by
  unfold nt_table_closure_k
  have key := range_foldlM_inv
    (fun t i => (List.range W).foldlM (nt_table_closure_step terminals W k i) t)
    (fun m Tc => TableMono T0 Tc ∧ ∀ i, i < m → ∀ j, j < W →
        T0.getD (i * W + (terminals + k)) false = true →
        T0.getD (k * W + j) false = true → Tc.getD (i * W + j) false = true)
    N T0 ⟨TableMono.refl T0, fun i hi => absurd hi (Nat.not_lt_zero i)⟩
    (by
      intro m hm Tc hInv
      obtain ⟨hmono, hfire⟩ := hInv
      obtain ⟨T', hrow, hm', hf'⟩ := closure_row_spec terminals N W k m T0 Tc hW hlen hmono hm hk
      refine ⟨T', hrow, hmono.trans hm', ?_⟩
      intro i hi j hj ha hb
      rcases Nat.lt_succ_iff_lt_or_eq.mp hi with hlt | heq
      · exact hm'.2 _ (hfire i hlt j hj ha hb)
      · subst heq
        exact hf' j hj ha hb)
  exact key

theorem chain_split (T : BitArray) (W terminals k : Nat) :
    ∀ (p : List Nat) (i c : Nat), (∀ m ∈ p, m < k + 1) → Chain T W terminals i p c →
      ((∀ m ∈ p, m < k) ∨
        ∃ p1 p2, (∀ m ∈ p1, m < k) ∧ (∀ m ∈ p2, m < k) ∧
          Chain T W terminals i p1 (terminals + k) ∧ Chain T W terminals k p2 c) := by
  intro p
  induction p with
  | nil => intro i c _ _; left; intro m hm; cases hm
  | cons m rest ih =>
    intro i c hall hch
    obtain ⟨hd, hrest⟩ := hch
    have hm : m < k + 1 := hall m (List.mem_cons_self _ _)
    have hall' : ∀ x ∈ rest, x < k + 1 := fun x hx => hall x (List.mem_cons_of_mem _ hx)
    rcases Nat.lt_succ_iff_lt_or_eq.mp hm with hlt | heq
    · rcases ih m c hall' hrest with hA | ⟨p1, p2, h1, h2, hc1, hc2⟩
      · left
        intro x hx
        rcases List.mem_cons.mp hx with rfl | hx'
        · exact hlt
        · exact hA x hx'
      · right
        refine ⟨m :: p1, p2, ?_, h2, ⟨hd, hc1⟩, hc2⟩
        intro x hx
        rcases List.mem_cons.mp hx with rfl | hx'
        · exact hlt
        · exact h1 x hx'
    · subst heq
      rcases ih m c hall' hrest with hA | ⟨p1, p2, _, h2, _, hc2⟩
      · right
        exact ⟨[], rest, fun x hx => absurd hx (List.not_mem_nil x), hA, hd, hrest⟩
      · right
        exact ⟨[], p2, fun x hx => absurd hx (List.not_mem_nil x), h2, hd, hc2⟩

theorem closure_spec (terminals N W : Nat) (T1 : BitArray)
    (hW : W = terminals + N) (hlen : T1.length = N * W) :
    ∃ T', nt_table_closure terminals N W T1 = .ok T' ∧ TableMono T1 T' ∧
      ∀ i, i < N → ∀ c, c < W → ∀ p : List Nat, (∀ m ∈ p, m < N) →
        Chain T1 W terminals i p c → T'.getD (i * W + c) false = true := by
  unfold nt_table_closure
  have key := range_foldlM_inv (nt_table_closure_k terminals N W)
    (fun k Tc => TableMono T1 Tc ∧ ∀ i, i < N → ∀ c, c < W → ∀ p : List Nat, (∀ m ∈ p, m < k) →
        Chain T1 W terminals i p c → Tc.getD (i * W + c) false = true)
    N T1
    ⟨TableMono.refl T1, by
      intro i _ c _ p hp hch
      cases p with
      | nil => exact hch
      | cons m rest => exact absurd (hp m (List.mem_cons_self _ _)) (Nat.not_lt_zero m)⟩
    (by
      intro k hk Tc hInv
      obtain ⟨hmono, hpath⟩ := hInv
      have hlenc : Tc.length = N * W := by rw [hmono.1, hlen]
      obtain ⟨T', hrun, hm', hf'⟩ := closure_k_spec terminals N W k Tc hW hlenc hk
      refine ⟨T', hrun, hmono.trans hm', ?_⟩
      intro i hi c hc p hp hch
      rcases chain_split T1 W terminals k p i c hp hch with hA | ⟨p1, p2, h1, h2, hc1, hc2⟩
      · exact hm'.2 _ (hpath i hi c hc p hA hch)
      · have e1 := hpath i hi (terminals + k) (by omega) p1 h1 hc1
        have e2 := hpath k hk c hc p2 h2 hc2
        exact hf' i hi c hc e1 e2)
  exact key

theorem hgraph_edge_deref_ok (r : HGraph) (j : Nat) (e : HEdge)
    (h : r.edges.get? j = some (some e)) : hgraph_edge_deref r j = .ok e := by
  have hlt : j < r.edges.length := by
    by_contra hc
    rw [List.get?_eq_none.mpr (Nat.le_of_not_lt hc)] at h
    cases h
  unfold hgraph_edge_deref hgraph_edge_get
  rw [List.get?_eq_get hlt] at h
  simp only [hlt, dite_true]
  injection h with h
  rw [h]

theorem mark_rule_spec (N W i : Nat) (r : HGraph) (T : BitArray)
    (hlen : T.length = N * W) (hi : i < N)
    (hr : ∀ oe ∈ r.edges, ∃ e, oe = some e ∧ e.label < W) :
    ∃ T', nt_table_mark_rule W i r T = .ok T' ∧ TableMono T T' ∧
      ∀ e, some e ∈ r.edges → T'.getD (i * W + e.label) false = true := by
  unfold nt_table_mark_rule hgraph_len
  obtain ⟨T', hrun, hmono, hall⟩ := range_foldlM_inv
    (fun t j => do
      let e ← hgraph_edge_deref r j
      bitarray_set t (i * W + e.label) true)
    (fun m Tc => TableMono T Tc ∧ ∀ j, j < m → ∀ e, r.edges.get? j = some (some e) →
        Tc.getD (i * W + e.label) false = true)
    r.edges.length T ⟨TableMono.refl T, fun j hj => absurd hj (Nat.not_lt_zero j)⟩
    (by
      intro m hm Tc hInv
      obtain ⟨hmono, hdone⟩ := hInv
      have hmem : r.edges.get ⟨m, hm⟩ ∈ r.edges := List.get_mem _ _ _
      obtain ⟨e, he, hlab⟩ := hr _ hmem
      have hget : r.edges.get? m = some (some e) := by rw [List.get?_eq_get hm, he]
      have hpos : i * W + e.label < Tc.length := by
        rw [hmono.1, hlen]; exact idx_lt hi hlab
      refine ⟨Tc.set (i * W + e.label) true, ?_, hmono.trans (tableMono_set_true Tc _), ?_⟩
      · simp only [hgraph_edge_deref_ok r m e hget, ok_bind, bitarray_set_ok Tc _ _ hpos]
      · intro j hj e' he'
        rcases Nat.lt_succ_iff_lt_or_eq.mp hj with hlt | heq
        · exact (tableMono_set_true Tc _).2 _ (hdone j hlt e' he')
        · subst heq
          rw [hget] at he'
          injection he' with he'
          injection he' with he'
          subst he'
          exact getD_set_eq Tc _ true hpos)
  refine ⟨T', hrun, hmono, ?_⟩
  intro e he
  obtain ⟨n, hn⟩ := List.get?_of_mem he
  have hlt : n < r.edges.length := by
    by_contra hc
    rw [List.get?_eq_none.mpr (Nat.le_of_not_lt hc)] at hn
    cases hn
  exact hall n hlt e hn

theorem mark_spec (g : SLHRGrammar) (N W : Nat) (T0 : BitArray)
    (hlen : T0.length = N * W)
    (hg : ∀ i, i < N → ∃ r, slhr_grammar_rule_get g (g.min_nt + i) = .ok r ∧
      ∀ oe ∈ r.edges, ∃ e, oe = some e ∧ e.label < W) :
    ∃ T1, nt_table_mark g N W T0 = .ok T1 ∧ T1.length = N * W ∧
      ∀ i, i < N → ∀ r, slhr_grammar_rule_get g (g.min_nt + i) = .ok r →
        ∀ e, some e ∈ r.edges → T1.getD (i * W + e.label) false = true := by
  unfold nt_table_mark
  obtain ⟨T1, hrun, hmono, hall⟩ := range_foldlM_inv
    (fun t i => do
      let rule ← slhr_grammar_rule_get g (g.min_nt + i)
      nt_table_mark_rule W i rule t)
    (fun m Tc => TableMono T0 Tc ∧ ∀ i, i < m → ∀ r, slhr_grammar_rule_get g (g.min_nt + i) = .ok r →
        ∀ e, some e ∈ r.edges → Tc.getD (i * W + e.label) false = true)
    N T0 ⟨TableMono.refl T0, fun i hi => absurd hi (Nat.not_lt_zero i)⟩
    (by
      intro m hm Tc hInv
      obtain ⟨hmono, hdone⟩ := hInv
      obtain ⟨r, hr, hedges⟩ := hg m hm
      have hlenc : Tc.length = N * W := by rw [hmono.1, hlen]
      obtain ⟨T', hrun, hm', hset⟩ := mark_rule_spec N W m r Tc hlenc hm hedges
      refine ⟨T', ?_, hmono.trans hm', ?_⟩
      · simp only [hr, ok_bind, hrun]
      · intro i hi r' hr' e he
        rcases Nat.lt_succ_iff_lt_or_eq.mp hi with hlt | heq
        · exact hm'.2 _ (hdone i hlt r' hr' e he)
        · subst heq
          rw [hr] at hr'
          injection hr' with hr'
          subst hr'
          exact hset e he)
  exact ⟨T1, hrun, by rw [hmono.1, hlen], hall⟩

theorem edges_row_spec (terminals N W i : Nat) (T : BitArray) (es : List K2Edge)
    (hW : terminals ≤ W) (hlen : T.length = N * W) (hi : i < N) :
    ∃ es', nt_table_edges_row terminals W T es i = .ok es' ∧ (∀ x ∈ es, x ∈ es') ∧
      ∀ j, j < terminals → T.getD (i * W + j) false = true →
        ({ xval := j, yval := i } : K2Edge) ∈ es' := by
  unfold nt_table_edges_row
  refine range_foldlM_inv _
    (fun m es' => (∀ x ∈ es, x ∈ es') ∧ ∀ j, j < m → T.getD (i * W + j) false = true →
        ({ xval := j, yval := i } : K2Edge) ∈ es')
    terminals es ⟨fun _ h => h, fun j hj => absurd hj (Nat.not_lt_zero j)⟩ ?_
  intro m hm es' hInv
  obtain ⟨hsub, hdone⟩ := hInv
  have hpos : i * W + m < T.length := by rw [hlen]; exact idx_lt hi (by omega)
  simp only [bitarray_get_ok T _ hpos, ok_bind]
  cases hbit : T.getD (i * W + m) false
  · refine ⟨es', by simp, hsub, ?_⟩
    intro j hj hT
    rcases Nat.lt_succ_iff_lt_or_eq.mp hj with hlt | heq
    · exact hdone j hlt hT
    · subst heq; rw [hbit] at hT; exact absurd hT (by decide)
  · refine ⟨es' ++ [{ xval := m, yval := i }], by simp, ?_, ?_⟩
    · intro x hx; exact List.mem_append_left _ (hsub x hx)
    · intro j hj hT
      rcases Nat.lt_succ_iff_lt_or_eq.mp hj with hlt | heq
      · exact List.mem_append_left _ (hdone j hlt hT)
      · subst heq; exact List.mem_append_right _ (List.mem_singleton_self _)

theorem edges_spec (terminals N W : Nat) (T : BitArray)
    (hW : terminals ≤ W) (hlen : T.length = N * W) :
    ∃ es, nt_table_edges terminals N W T = .ok es ∧
      ∀ i, i < N → ∀ j, j < terminals → T.getD (i * W + j) false = true →
        ({ xval := j, yval := i } : K2Edge) ∈ es := by
  unfold nt_table_edges
  refine range_foldlM_inv _
    (fun m es' => ∀ i, i < m → ∀ j, j < terminals → T.getD (i * W + j) false = true →
        ({ xval := j, yval := i } : K2Edge) ∈ es')
    N [] (fun i hi => absurd hi (Nat.not_lt_zero i)) ?_
  intro m hm es' hInv
  obtain ⟨es'', hrun, hsub, hnew⟩ := edges_row_spec terminals N W m T es' hW hlen hm
  refine ⟨es'', hrun, ?_⟩
  intro i hi j hj hT
  rcases Nat.lt_succ_iff_lt_or_eq.mp hi with hlt | heq
  · exact hsub _ (hInv i hlt j hj hT)
  · subst heq; exact hnew j hj hT

theorem derives_chain (g : SLHRGrammar) (terminals : Nat) (T1 : BitArray)
    (hN : Normalized g terminals)
    (hT : ∀ i, i < nt_count g → ∀ r, slhr_grammar_rule_get g (g.min_nt + i) = .ok r →
        ∀ e, some e ∈ r.edges →
          T1.getD (i * (terminals + nt_count g) + e.label) false = true)
    (A t : Nat) (hd : Derives g A t) :
    ∀ i, A = g.min_nt + i → i < nt_count g →
      ∃ p : List Nat, (∀ m ∈ p, m < nt_count g) ∧
        Chain T1 (terminals + nt_count g) terminals i p t := by
  induction hd with
  | direct A t r e hr he hl =>
    intro i hA hi
    subst hA
    refine ⟨[], fun m hm => absurd hm (List.not_mem_nil m), ?_⟩
    have := hT i hi r hr e he
    rw [hl] at this
    exact this
  | step A B t r e hr he hl hB _ ih =>
    intro i hA hi
    subst hA
    obtain ⟨r', hr', hedges⟩ := hN.2 i hi
    rw [hr] at hr'
    injection hr' with hr'
    subst hr'
    obtain ⟨e', he', hlab⟩ := hedges _ he
    injection he' with he'
    subst he'
    have hmin : g.min_nt = terminals := hN.1
    have hBlt : B - terminals < nt_count g := by omega
    obtain ⟨p, hp, hch⟩ := ih (B - terminals) (by omega) hBlt
    refine ⟨(B - terminals) :: p, ?_, ?_, hch⟩
    · intro m hm
      rcases List.mem_cons.mp hm with rfl | hm'
      · exact hBlt
      · exact hp m hm'
    · have := hT i hi r hr e he
      rw [hl] at this
      have hBeq : terminals + (B - terminals) = B := by omega
      rw [hBeq]
      exact this

/-- C10: for a normalized grammar, if an edge labelled with the terminal `t`
occurs in the full derivation of the non-terminal `A`, then
`slhr_grammar_write_nt_table` returns normally and hands `k2_write` a
`terminals` wide, `nt_count` high matrix whose edge list contains the pair
`(x = t, y = A - min_nt)`. -/
theorem nt_table_contains_derived (g : SLHRGrammar) (terminals A t : Nat)
    (hN : Normalized g terminals) (hA : g.min_nt ≤ A) (hA2 : A ≤ g.rule_max)
    (ht : t < terminals) (hd : Derives g A t) :
    ∃ es, slhr_grammar_write_nt_table g terminals = .ok (terminals, nt_count g, es) ∧
      ({ xval := t, yval := A - g.min_nt } : K2Edge) ∈ es := by
  have hmin : g.min_nt = terminals := hN.1
  have hrm : g.rule_max ≠ 0 := by omega
  have hcount : nt_count g = g.rule_max - g.min_nt + 1 := by simp [nt_count, hrm]
  have hi : A - g.min_nt < nt_count g := by omega
  have hlen0 : (bitarray_init (nt_count g * (terminals + nt_count g))).length =
      nt_count g * (terminals + nt_count g) := by simp [bitarray_init]
  obtain ⟨T1, hmark, hlen1, hT1⟩ :=
    mark_spec g (nt_count g) (terminals + nt_count g) _ hlen0 hN.2
  obtain ⟨T2, hclo, hmono, hT2⟩ :=
    closure_spec terminals (nt_count g) (terminals + nt_count g) T1 rfl hlen1
  have hlen2 : T2.length = nt_count g * (terminals + nt_count g) := by rw [hmono.1, hlen1]
  obtain ⟨es, hes, hmem⟩ :=
    edges_spec terminals (nt_count g) (terminals + nt_count g) T2 (Nat.le_add_right _ _) hlen2
  refine ⟨es, ?_, ?_⟩
  · unfold slhr_grammar_write_nt_table
    simp only [hmark, hclo, hes, ok_bind, pure_eq_ok]
  · obtain ⟨p, hp, hch⟩ := derives_chain g terminals T1 hN hT1 A t hd (A - g.min_nt) (by omega) hi
    exact hmem _ hi t ht (hT2 _ hi t (by omega) p hp hch)

theorem ntTableExample_normalized : Normalized ntTableExample 1 := by
  refine ⟨rfl, ?_⟩
  intro i hi
  have hi' : i < 2 := hi
  interval_cases i
  · exact ⟨_, rfl, by decide⟩
  · exact ⟨_, rfl, by decide⟩

theorem ntTableExample_derives : Derives ntTableExample 2 0 :=
  Derives.step 2 1 0 _ ⟨1, 3, [0, 1, 2]⟩ rfl (by decide) rfl (by decide)
    (Derives.direct 1 0 _ ⟨0, 2, [0, 1]⟩ rfl (by decide) rfl)

theorem nt_table_contains_derived_witness :
    ∃ es, slhr_grammar_write_nt_table ntTableExample 1 = .ok (1, nt_count ntTableExample, es) ∧
      ({ xval := 0, yval := 2 - ntTableExample.min_nt } : K2Edge) ∈ es :=
  nt_table_contains_derived ntTableExample 1 2 0 ntTableExample_normalized (by decide) (by decide)
    (by decide) ntTableExample_derives


/-! ## The compressor and the edge queries at concrete graphs -/

/-- C1: for the ten rank-4 edges of `rank4Graph` (one label, `terminals = 1`,
`max_rank = 12`, no monograms) `repair` returns `rank4Grammar`, whose rule body
consists of two rank-3 edges; its full expansion is a list of ten rank-3 edges
and so is not the input as a multiset of edges. -/
theorem repair_rank4_roundtrip_fails :
    repair 100 rank4Graph 35 1 12 false = .ok rank4Grammar ∧
    grammar_expand 10 rank4Grammar =
      .ok [{ label := 0, rank := 3, nodes := [3, 4, 5] },
           { label := 0, rank := 3, nodes := [6, 0, 1] },
           { label := 0, rank := 3, nodes := [10, 11, 12] },
           { label := 0, rank := 3, nodes := [13, 7, 8] },
           { label := 0, rank := 3, nodes := [17, 18, 19] },
           { label := 0, rank := 3, nodes := [20, 14, 15] },
           { label := 0, rank := 3, nodes := [24, 25, 26] },
           { label := 0, rank := 3, nodes := [27, 21, 22] },
           { label := 0, rank := 3, nodes := [31, 32, 33] },
           { label := 0, rank := 3, nodes := [34, 28, 29] }] ∧
    ∀ es, grammar_expand 10 rank4Grammar = .ok es → ¬ es.Perm (hgraph_stedges rank4Graph) := by
  refine ⟨by decide!, by decide!, ?_⟩
  intro es hes hperm
  have hmem : ({ label := 0, rank := 4, nodes := [0, 1, 2, 3] } : StEdge) ∈ es :=
    hperm.symm.subset (by decide!)
  have hval : grammar_expand 10 rank4Grammar =
      .ok [{ label := 0, rank := 3, nodes := [3, 4, 5] },
           { label := 0, rank := 3, nodes := [6, 0, 1] },
           { label := 0, rank := 3, nodes := [10, 11, 12] },
           { label := 0, rank := 3, nodes := [13, 7, 8] },
           { label := 0, rank := 3, nodes := [17, 18, 19] },
           { label := 0, rank := 3, nodes := [20, 14, 15] },
           { label := 0, rank := 3, nodes := [24, 25, 26] },
           { label := 0, rank := 3, nodes := [27, 21, 22] },
           { label := 0, rank := 3, nodes := [31, 32, 33] },
           { label := 0, rank := 3, nodes := [34, 28, 29] }] := by decide!
  rw [hval] at hes
  cases hes
  revert hmem
  decide

/-- C2: on the compressed `pathsGraph` (`repair` returns `pathsGrammar`, whose
only non-terminal is `first_nt = 1`) the iterator of
`cgraphr_edges_by_predicate` for label 0 yields the isolated edge only, while
the decompressed graph has eleven edges with label 0. -/
theorem edges_by_predicate_skips_first_nt :
    repair 100 pathsGraph 28 1 12 false = .ok pathsGrammar ∧
    (do let r ← grammar_written pathsGrammar 28 1 true
        cgraphr_edges_collect (cgraphr_edges_by_predicate r 0)) =
      .ok [{ label := 0, rank := 3, nodes := [15, 27, 26] }] ∧
    grammar_expand 10 pathsGrammar =
      .ok [{ label := 0, rank := 3, nodes := [1, 2, 17] },
           { label := 0, rank := 3, nodes := [0, 1, 16] },
           { label := 0, rank := 3, nodes := [4, 5, 19] },
           { label := 0, rank := 3, nodes := [3, 4, 18] },
           { label := 0, rank := 3, nodes := [7, 8, 21] },
           { label := 0, rank := 3, nodes := [6, 7, 20] },
           { label := 0, rank := 3, nodes := [10, 11, 23] },
           { label := 0, rank := 3, nodes := [9, 10, 22] },
           { label := 0, rank := 3, nodes := [13, 14, 25] },
           { label := 0, rank := 3, nodes := [12, 13, 24] },
           { label := 0, rank := 3, nodes := [15, 27, 26] }] := by
  decide!

/-- A row index outside the padded matrix starts the same iteration as `-1`. -/
theorem k2_iter_init_row_clamp (k : K2Reader) (p : Int) :
    k2_iter_init_row k p = k2_iter_init_row k (if p < 0 ∨ p ≥ k.n then -1 else p) := by
  by_cases h : p < 0 ∨ p ≥ k.n
  · rw [if_pos h]
    unfold k2_iter_init_row
    by_cases hc : k.cells.isEmpty = true
    · simp [hc]
    · simp [hc, h]
  · rw [if_neg h]

/-- The iterator `cgraphr_edges` builds on `twoEdgeReader` for the pattern
`[-1, -1, -1]`: the row iteration starts at the unwritten slot. -/
theorem cgraphr_edges_wildcards_eq (v : Int) :
    cgraphr_edges twoEdgeReader 3 (-1) [-1, -1, -1] v =
      .ok (some
        { has_next := true, label := -1, rank := 3, nodes := some [-1, -1, -1]
          g := twoEdgeReader
          start := some
            { s := twoEdgeReader.start, rank := 0, label := -1, nodes := []
              predicate_query := false
              it := k2_iter_init_row twoEdgeReader.start.matrix v
              efit := { k := twoEdgeReader.start.labels, edge_id := 0, label := 0
                        first_nt := 0, has_next := false } }
          queue := [] }) :=
  rfl

/-- C3: the reader of the two-edge graph `twoEdgeGraph` is `twoEdgeReader`, and
whatever the unwritten slot `nodes[0]` of the fresh iterator holds, the query
of rank 3 with wildcard label and pattern `[-1, -1, -1]` ends undetermined or
yields at most one of the two rank-3 edges, never both. -/
theorem edges_all_wildcards_uninit :
    (do let g ← repair 100 twoEdgeGraph 6 1 12 false
        grammar_written g 6 1 true) = .ok twoEdgeReader ∧
    ∀ uninit : Int,
      cgraphr_edges_collect (cgraphr_edges twoEdgeReader 3 (-1) [-1, -1, -1] uninit) =
        .error .undefined ∨
      cgraphr_edges_collect (cgraphr_edges twoEdgeReader 3 (-1) [-1, -1, -1] uninit) =
        .ok [] ∨
      cgraphr_edges_collect (cgraphr_edges twoEdgeReader 3 (-1) [-1, -1, -1] uninit) =
        .ok [{ label := 0, rank := 3, nodes := [0, 1, 2] }] ∨
      cgraphr_edges_collect (cgraphr_edges twoEdgeReader 3 (-1) [-1, -1, -1] uninit) =
        .ok [{ label := 0, rank := 3, nodes := [3, 4, 5] }] := by
  refine ⟨by decide!, fun uninit => ?_⟩
  have h1 : cgraphr_edges twoEdgeReader 3 (-1) [-1, -1, -1] uninit =
      cgraphr_edges twoEdgeReader 3 (-1) [-1, -1, -1]
        (if uninit < 0 ∨ uninit ≥ 8 then -1 else uninit) := by
    rw [cgraphr_edges_wildcards_eq, cgraphr_edges_wildcards_eq, k2_iter_init_row_clamp]
    rfl
  rw [h1]
  have h2 : (if uninit < 0 ∨ uninit ≥ 8 then (-1 : Int) else uninit) = -1 ∨
      (if uninit < 0 ∨ uninit ≥ 8 then (-1 : Int) else uninit) = 0 ∨
      (if uninit < 0 ∨ uninit ≥ 8 then (-1 : Int) else uninit) = 1 ∨
      (if uninit < 0 ∨ uninit ≥ 8 then (-1 : Int) else uninit) = 2 ∨
      (if uninit < 0 ∨ uninit ≥ 8 then (-1 : Int) else uninit) = 3 ∨
      (if uninit < 0 ∨ uninit ≥ 8 then (-1 : Int) else uninit) = 4 ∨
      (if uninit < 0 ∨ uninit ≥ 8 then (-1 : Int) else uninit) = 5 ∨
      (if uninit < 0 ∨ uninit ≥ 8 then (-1 : Int) else uninit) = 6 ∨
      (if uninit < 0 ∨ uninit ≥ 8 then (-1 : Int) else uninit) = 7 := by
    split_ifs with h
    · exact Or.inl rfl
    · omega
  rcases h2 with h | h | h | h | h | h | h | h | h <;> rw [h] <;> decide!

/-- C8: with `max_rank = 4`, and also with `max_rank = 3`, `repair` on
`pathsGraph` returns `pathsGrammar`, whose rule 1 has rank 5. -/
theorem repair_rule_rank_exceeds_max_rank :
    repair 100 pathsGraph 28 1 4 false = .ok pathsGrammar ∧
    repair 100 pathsGraph 28 1 3 false = .ok pathsGrammar ∧
    slhr_grammar_rank_of_rule pathsGrammar 1 = .ok 5 := by
  decide!

/-- C9, as stated, fails: with `max_rank = 2` and monogram replacement `repair`
on `loopsGraph` returns `loopsGrammar`, whose rule body holds an edge of
rank 3. -/
theorem repair_body_rank_counterexample :
    repair 100 loopsGraph 14 1 2 true = .ok loopsGrammar ∧ ¬ BodyRankBound loopsGrammar 2 := by
  refine ⟨by decide!, fun h => ?_⟩
  have h3 := h _ (List.mem_cons_self _ _) _ (List.mem_cons_self _ _)
  revert h3
  decide

/-! ## The dictionary queries at concrete dictionaries -/

/-- C4: on the dictionary of `apple`, `apricot`, `banana` (with and without
run-length encoding) `dictionary_locate` of the absent string `z`, whose byte is
larger than every byte of the text, panics; the entry `apple` is found at
index 0 and the absent string `q` gives -1. -/
theorem dictionary_locate_panics :
    (do let d ← dict_written fruitDict 32 true
        dictionary_locate d [122]) = .error .panic ∧
    (do let d ← dict_written fruitDict 32 false
        dictionary_locate d [122]) = .error .panic ∧
    (do let d ← dict_written fruitDict 32 true
        dictionary_locate d [97, 112, 112, 108, 101]) = .ok 0 ∧
    (do let d ← dict_written fruitDict 32 true
        dictionary_locate d [113]) = .ok (-1) := by
  decide!

/-- C5: on the dictionary of the node labels `a` and the empty string, whose
sorted ids are 0 for the empty string and 1 for `a`, `cgraphr_extract_node 0`
does not return the empty string (with and without run-length encoding):
`bytes_reverse` is called on the NULL buffer with length 0. Node 1 is
extracted as `a`. -/
theorem extract_node_empty_label :
    (do let d ← dict_written emptyLabelDict 32 true
        cgraphr_extract_node d 0) = .error .undefined ∧
    (do let d ← dict_written emptyLabelDict 32 false
        cgraphr_extract_node d 0) = .error .undefined ∧
    (do let d ← dict_written emptyLabelDict 32 true
        cgraphr_extract_node d 1) = .ok (some [97]) ∧
    (do let d ← dict_written emptyLabelDict 32 true
        cgraphr_locate_node d [97]) = .ok 1 := by
  decide!

/-- C6: on the dictionary of `apple`, `apricot`, `banana` (with and without
run-length encoding) the iterator of `cgraphr_locate_node_prefix` for the
prefix `c`, which matches no label, yields the ids 0, 1, 2 and then panics; for
the prefix `ap` it yields 0 and 1. -/
theorem locate_node_prefix_no_match :
    (do let d ← dict_written fruitDict 32 true
        let it ← cgraphr_locate_node_prefix d [99]
        pure (cgraphr_nodes_collect d it)) = .ok ([0, 1, 2], some .panic) ∧
    (do let d ← dict_written fruitDict 32 false
        let it ← cgraphr_locate_node_prefix d [99]
        pure (cgraphr_nodes_collect d it)) = .ok ([0, 1, 2], some .panic) ∧
    (do let d ← dict_written fruitDict 32 true
        let it ← cgraphr_locate_node_prefix d [97, 112]
        pure (cgraphr_nodes_collect d it)) = .ok ([0, 1], none) := by
  decide!

/-- C7: on the dictionary of `apple`, `apricot`, `banana` (with and without
run-length encoding) the call `cgraphr_search_node` for the substring `z`
panics; for `an` the iterator yields the id of `banana` once. -/
theorem search_node_panics :
    (do let d ← dict_written fruitDict 32 true
        let it ← cgraphr_search_node d [122]
        pure (cgraphr_nodes_collect d it)) = .error .panic ∧
    (do let d ← dict_written fruitDict 32 false
        let it ← cgraphr_search_node d [122]
        pure (cgraphr_nodes_collect d it)) = .error .panic ∧
    (do let d ← dict_written fruitDict 32 true
        let it ← cgraphr_search_node d [97, 110]
        pure (cgraphr_nodes_collect d it)) = .ok ([2], none) := by
  decide!
/-! ## The comparison callbacks of the maps -/

theorem cmpord_refl {K : Type} {cmp : K → K → Int} (h : CmpOrd cmp) (a : K) : cmp a a = 0 := by
  have h1 := h.symm a a
  omega

theorem cmpord_zero_symm {K : Type} {cmp : K → K → Int} (h : CmpOrd cmp) {a b : K}
    (hab : cmp a b = 0) : cmp b a = 0 := by
  have h1 := h.symm a b
  have h2 := h.symm b a
  omega

theorem cmpord_lt_trans {K : Type} {cmp : K → K → Int} (h : CmpOrd cmp) {a b c : K}
    (hab : cmp a b < 0) (hbc : cmp b c ≤ 0) : cmp a c < 0 := by
  have h1 := h.trans a b c (by omega) hbc
  by_contra hn
  have h0 : cmp a c = 0 := by omega
  have h2 := cmpord_zero_symm h h0
  have h3 := h.trans b c a hbc (by omega)
  have h4 := h.symm a b
  omega

theorem cmpord_le_lt_trans {K : Type} {cmp : K → K → Int} (h : CmpOrd cmp) {a b c : K}
    (hab : cmp a b ≤ 0) (hbc : cmp b c < 0) : cmp a c < 0 := by
  have h1 := h.trans a b c hab (by omega)
  by_contra hn
  have h0 : cmp a c = 0 := by omega
  have h2 := cmpord_zero_symm h h0
  have h3 := h.trans c a b (by omega) hab
  have h4 := h.symm b c
  omega

theorem tree_lt_trans {K : Type} {cmp : K → K → Int} (h : CmpOrd cmp) {a b c : Nat × K}
    (hab : hashmap_tree_lt cmp a b) (hbc : hashmap_tree_lt cmp b c) : hashmap_tree_lt cmp a c := by
  unfold hashmap_tree_lt at *
  rcases hab with h1 | ⟨h1, h2⟩
  · rcases hbc with h3 | ⟨h3, _⟩
    · exact Or.inl (by omega)
    · exact Or.inl (by omega)
  · rcases hbc with h3 | ⟨h3, h4⟩
    · exact Or.inl (by omega)
    · exact Or.inr ⟨by omega, cmpord_lt_trans h h2 (by omega)⟩

theorem tree_lt_irrefl {K : Type} {cmp : K → K → Int} (h : CmpOrd cmp) (a : Nat × K) :
    ¬ hashmap_tree_lt cmp a a := by
  unfold hashmap_tree_lt
  have := cmpord_refl h a.2
  omega

theorem tree_lt_asymm {K : Type} {cmp : K → K → Int} (h : CmpOrd cmp) {a b : Nat × K}
    (hab : hashmap_tree_lt cmp a b) : ¬ hashmap_tree_lt cmp b a :=
  fun hba => tree_lt_irrefl h a (tree_lt_trans h hab hba)

theorem cmp_uint_cb_ord : CmpOrd cmp_uint_cb := by
  constructor
  · intro a b
    unfold cmp_uint_cb
    split_ifs <;> omega
  · intro a b c
    unfold cmp_uint_cb
    split_ifs <;> omega

theorem cmp_uint_cb_eq (a b : Nat) (h : cmp_uint_cb a b = 0) : a = b := by
  unfold cmp_uint_cb at h
  split_ifs at h <;> omega

instance : KeyOrd Nat := ⟨cmp_uint_cb_ord⟩

instance : KeyEq Nat := ⟨cmp_uint_cb_eq⟩

theorem cmp_adjacency_type_ord : CmpOrd cmp_adjacency_type := by
  constructor
  · intro a b
    unfold cmp_adjacency_type
    split_ifs <;> omega
  · intro a b c
    unfold cmp_adjacency_type
    split_ifs <;> omega

theorem cmp_adjacency_type_eq (a b : AdjacencyType) (h : cmp_adjacency_type a b = 0) : a = b := by
  unfold cmp_adjacency_type at h
  cases a
  cases b
  simp only [AdjacencyType.mk.injEq]
  simp only at h
  split_ifs at h <;> omega

instance : KeyOrd AdjacencyType := ⟨cmp_adjacency_type_ord⟩

instance : KeyEq AdjacencyType := ⟨cmp_adjacency_type_eq⟩

theorem cmp_digram_type_cb_ord : CmpOrd cmp_digram_type_cb := by
  have h0 := cmp_adjacency_type_ord
  constructor
  · intro a b
    unfold cmp_digram_type_cb
    have h1 := h0.symm a.adj0 b.adj0
    have h2 := h0.symm b.adj0 a.adj0
    have h3 := h0.symm a.adj1 b.adj1
    split_ifs <;> omega
  · intro a b c
    unfold cmp_digram_type_cb
    intro hab hbc
    by_cases e1 : cmp_adjacency_type a.adj0 b.adj0 = 0
    · have := cmp_adjacency_type_eq _ _ e1
      rw [this] at hab ⊢
      rw [if_neg (by rw [cmpord_refl h0]; simp)] at hab
      by_cases e2 : cmp_adjacency_type b.adj0 c.adj0 = 0
      · rw [if_neg (by simpa using e2)] at hbc ⊢
        exact h0.trans _ _ _ hab hbc
      · rw [if_pos e2] at hbc ⊢
        exact hbc
    · rw [if_pos e1] at hab
      by_cases e2 : cmp_adjacency_type b.adj0 c.adj0 = 0
      · have := cmp_adjacency_type_eq _ _ e2
        rw [← this]
        rw [if_pos e1]
        exact hab
      · rw [if_pos e2] at hbc
        have h5 := cmpord_lt_trans h0 (by omega : cmp_adjacency_type a.adj0 b.adj0 < 0) hbc
        rw [if_pos (by omega)]
        omega

theorem cmp_digram_type_cb_eq (a b : Digram) (h : cmp_digram_type_cb a b = 0) : a = b := by
  unfold cmp_digram_type_cb at h
  cases a
  cases b
  simp only [Digram.mk.injEq]
  simp only at h
  split_ifs at h with h1
  · exact absurd h h1
  · exact ⟨cmp_adjacency_type_eq _ _ (by simpa using h1), cmp_adjacency_type_eq _ _ h⟩

instance : KeyOrd Digram := ⟨cmp_digram_type_cb_ord⟩

instance : KeyEq Digram := ⟨cmp_digram_type_cb_eq⟩

theorem cmp_monogram_type_cb_le (a b : Monogram) :
    (cmp_monogram_type_cb a b ≤ 0 ↔
      (a.label < b.label ∨ (a.label = b.label ∧
        (a.conn0 < b.conn0 ∨ (a.conn0 = b.conn0 ∧ a.conn1 ≤ b.conn1))))) ∧
    (cmp_monogram_type_cb a b < 0 ↔
      (a.label < b.label ∨ (a.label = b.label ∧
        (a.conn0 < b.conn0 ∨ (a.conn0 = b.conn0 ∧ a.conn1 < b.conn1))))) ∧
    (0 < cmp_monogram_type_cb a b ↔
      (b.label < a.label ∨ (a.label = b.label ∧
        (b.conn0 < a.conn0 ∨ (a.conn0 = b.conn0 ∧ b.conn1 < a.conn1))))) := by
  unfold cmp_monogram_type_cb cmp_uint_cb
  split_ifs <;> omega

theorem cmp_monogram_type_cb_ord : CmpOrd cmp_monogram_type_cb := by
  constructor
  · intro a b
    rw [(cmp_monogram_type_cb_le a b).2.1, (cmp_monogram_type_cb_le b a).2.2]
    omega
  · intro a b c
    rw [(cmp_monogram_type_cb_le a b).1, (cmp_monogram_type_cb_le b c).1,
      (cmp_monogram_type_cb_le a c).1]
    omega

theorem cmp_monogram_type_cb_eq (a b : Monogram) (h : cmp_monogram_type_cb a b = 0) : a = b := by
  unfold cmp_monogram_type_cb cmp_uint_cb at h
  cases a
  cases b
  simp only [Monogram.mk.injEq]
  simp only at h
  split_ifs at h <;> omega

instance : KeyOrd Monogram := ⟨cmp_monogram_type_cb_ord⟩

instance : KeyEq Monogram := ⟨cmp_monogram_type_cb_eq⟩
/-! ## The balancing keeps the order of the nodes of a tree -/

theorem tree_keys_set_red {K : Type} (p : HashmapTree K) (c : Bool) :
    hashmap_tree_keys (hashmap_treenode_set_red p c) = hashmap_tree_keys p := by
  cases p <;> rfl

theorem tree_keys_up {K : Type} (f : HashmapTreeFrame K) (x : HashmapTree K) :
    hashmap_tree_keys (hashmap_treenode_up f x) =
      if f.dir = true then hashmap_tree_keys f.other ++ (f.hash, f.key) :: hashmap_tree_keys x
      else hashmap_tree_keys x ++ (f.hash, f.key) :: hashmap_tree_keys f.other := by
  unfold hashmap_treenode_up
  split <;> rfl

theorem tree_keys_root {K : Type} (fs : List (HashmapTreeFrame K)) (x : HashmapTree K) :
    hashmap_tree_keys (hashmap_treenode_root fs x) =
      hashmap_frames_left fs ++ hashmap_tree_keys x ++ hashmap_frames_right fs := by
  induction fs generalizing x with
  | nil => simp [hashmap_treenode_root, hashmap_frames_left, hashmap_frames_right]
  | cons f fs ih =>
    simp only [hashmap_treenode_root, ih, tree_keys_up, hashmap_frames_left, hashmap_frames_right]
    split <;> simp [List.append_assoc]

theorem tree_keys_root_congr {K : Type} (fs : List (HashmapTreeFrame K)) {a b : HashmapTree K}
    (h : hashmap_tree_keys a = hashmap_tree_keys b) :
    hashmap_tree_keys (hashmap_treenode_root fs a) =
      hashmap_tree_keys (hashmap_treenode_root fs b) := by
  rw [tree_keys_root, tree_keys_root, h]

theorem tree_keys_up_congr {K : Type} (f g : HashmapTreeFrame K) {a b : HashmapTree K}
    (hd : g.dir = f.dir) (hh : g.hash = f.hash) (hk : g.key = f.key)
    (ho : hashmap_tree_keys g.other = hashmap_tree_keys f.other)
    (h : hashmap_tree_keys a = hashmap_tree_keys b) :
    hashmap_tree_keys (hashmap_treenode_up g a) = hashmap_tree_keys (hashmap_treenode_up f b) := by
  rw [tree_keys_up, tree_keys_up, hd, hh, hk, ho, h]

theorem tree_keys_rotate_left {K : Type} (fs : List (HashmapTreeFrame K)) (p : HashmapTree K) :
    hashmap_tree_keys (hashmap_treenode_rotate_left fs p) = hashmap_tree_keys p := by
  unfold hashmap_treenode_rotate_left
  split
  · simp [hashmap_tree_keys, List.append_assoc]
  · rfl

theorem tree_keys_rotate_right {K : Type} (fs : List (HashmapTreeFrame K)) (p : HashmapTree K) :
    hashmap_tree_keys (hashmap_treenode_rotate_right fs p) = hashmap_tree_keys p := by
  unfold hashmap_treenode_rotate_right
  split
  · simp [hashmap_tree_keys, List.append_assoc]
  · rfl

theorem treenode_left_root {K : Type} (fs : List (HashmapTreeFrame K)) (x : HashmapTree K) :
    hashmap_treenode_root (hashmap_treenode_left fs x).1 (hashmap_treenode_left fs x).2 =
      hashmap_treenode_root fs x := by
  cases x with
  | nil => rfl
  | node l h k c r => simp [hashmap_treenode_left, hashmap_treenode_root, hashmap_treenode_up]

theorem treenode_right_root {K : Type} (fs : List (HashmapTreeFrame K)) (x : HashmapTree K) :
    hashmap_treenode_root (hashmap_treenode_right fs x).1 (hashmap_treenode_right fs x).2 =
      hashmap_treenode_root fs x := by
  cases x with
  | nil => rfl
  | node l h k c r => simp [hashmap_treenode_right, hashmap_treenode_root, hashmap_treenode_up]

theorem tree_keys_balance_insertion_loop {K : Type} (fuel : Nat) :
    ∀ (fs : List (HashmapTreeFrame K)) (x : HashmapTree K),
      hashmap_tree_keys (hashmap_treenode_balance_insertion_loop fuel fs x) =
        hashmap_tree_keys (hashmap_treenode_root fs x) := by
  induction fuel with
  | zero => intro fs x; rfl
  | succ n ih =>
    intro fs x
    unfold hashmap_treenode_balance_insertion_loop
    split
    · simp [hashmap_treenode_root, tree_keys_set_red]
    · rename_i xp fs1
      split
      · rfl
      · split
        · rfl
        · rename_i xpp fs2
          have hrec : hashmap_tree_keys (hashmap_treenode_balance_insertion_loop n fs2
              (hashmap_treenode_up
                { xpp with red := true, other := hashmap_treenode_set_red xpp.other false }
                (hashmap_treenode_up { xp with red := false } x))) =
              hashmap_tree_keys (hashmap_treenode_root (xp :: xpp :: fs2) x) := by
            rw [ih]
            simp only [hashmap_treenode_root]
            apply tree_keys_root_congr
            simp only [tree_keys_up, tree_keys_set_red]
          split
          · split
            · exact hrec
            · simp only []
              generalize hfx : (if xp.dir = true then
                hashmap_treenode_left (xpp :: fs2)
                  (hashmap_treenode_rotate_left (xpp :: fs2) (hashmap_treenode_up xp x))
                else (xp :: xpp :: fs2, x)) = fx
              have hroot : hashmap_tree_keys (hashmap_treenode_root fx.1 fx.2) =
                  hashmap_tree_keys (hashmap_treenode_root (xp :: xpp :: fs2) x) := by
                rw [← hfx]
                split
                · rw [treenode_left_root]
                  exact tree_keys_root_congr (xpp :: fs2) (tree_keys_rotate_left _ _)
                · rfl
              rw [← hroot]
              obtain ⟨f1, x1⟩ := fx
              simp only
              split
              · rw [ih, treenode_left_root]
                simp only [hashmap_treenode_root]
                apply tree_keys_root_congr
                rw [tree_keys_rotate_right]
                simp only [tree_keys_up]
              · rw [ih]
                simp only [hashmap_treenode_root, tree_keys_up]
              · rw [ih]
          · split
            · exact hrec
            · simp only []
              generalize hfx : (if xp.dir = false then
                hashmap_treenode_right (xpp :: fs2)
                  (hashmap_treenode_rotate_right (xpp :: fs2) (hashmap_treenode_up xp x))
                else (xp :: xpp :: fs2, x)) = fx
              have hroot : hashmap_tree_keys (hashmap_treenode_root fx.1 fx.2) =
                  hashmap_tree_keys (hashmap_treenode_root (xp :: xpp :: fs2) x) := by
                rw [← hfx]
                split
                · rw [treenode_right_root]
                  exact tree_keys_root_congr (xpp :: fs2) (tree_keys_rotate_right _ _)
                · rfl
              rw [← hroot]
              obtain ⟨f1, x1⟩ := fx
              simp only
              split
              · rw [ih, treenode_right_root]
                simp only [hashmap_treenode_root]
                apply tree_keys_root_congr
                rw [tree_keys_rotate_left]
                simp only [tree_keys_up]
              · rw [ih]
                simp only [hashmap_treenode_root, tree_keys_up]
              · rw [ih]

theorem tree_keys_balance_insertion {K : Type} (fs : List (HashmapTreeFrame K))
    (x : HashmapTree K) :
    hashmap_tree_keys (hashmap_treenode_balance_insertion fs x) =
      hashmap_tree_keys (hashmap_treenode_root fs x) := by
  unfold hashmap_treenode_balance_insertion
  rw [tree_keys_balance_insertion_loop]
  exact tree_keys_root_congr _ (tree_keys_set_red _ _)

theorem tree_keys_red_sibling_right {K : Type} (xp : HashmapTreeFrame K)
    (rest : List (HashmapTreeFrame K)) (hd : xp.dir = false) (x : HashmapTree K) :
    (hashmap_treenode_red_sibling_right xp rest).1.dir = false ∧
    hashmap_tree_keys (hashmap_treenode_root (hashmap_treenode_red_sibling_right xp rest).2
      (hashmap_treenode_up (hashmap_treenode_red_sibling_right xp rest).1 x)) =
      hashmap_tree_keys (hashmap_treenode_root (xp :: rest) x) := by
  unfold hashmap_treenode_red_sibling_right
  split
  · rename_i sl sh sk sr heq
    refine ⟨hd, ?_⟩
    simp only [hashmap_treenode_root]
    apply tree_keys_root_congr
    simp only [tree_keys_up, hd, heq, hashmap_tree_keys]
    simp
  · exact ⟨hd, rfl⟩

theorem tree_keys_red_sibling_left {K : Type} (xp : HashmapTreeFrame K)
    (rest : List (HashmapTreeFrame K)) (hd : xp.dir = true) (x : HashmapTree K) :
    (hashmap_treenode_red_sibling_left xp rest).1.dir = true ∧
    hashmap_tree_keys (hashmap_treenode_root (hashmap_treenode_red_sibling_left xp rest).2
      (hashmap_treenode_up (hashmap_treenode_red_sibling_left xp rest).1 x)) =
      hashmap_tree_keys (hashmap_treenode_root (xp :: rest) x) := by
  unfold hashmap_treenode_red_sibling_left
  split
  · rename_i sl sh sk sr heq
    refine ⟨hd, ?_⟩
    simp only [hashmap_treenode_root]
    apply tree_keys_root_congr
    simp only [tree_keys_up, hd, heq, hashmap_tree_keys]
    simp
  · exact ⟨hd, rfl⟩

theorem tree_keys_nephew_right {K : Type} (fs : List (HashmapTreeFrame K)) (c : Bool)
    (sl : HashmapTree K) (sh : Nat) (sk : K) (sc : Bool) (sr : HashmapTree K) :
    hashmap_tree_keys (hashmap_treenode_nephew_right fs c sl sh sk sc sr) =
      hashmap_tree_keys (.node sl sh sk sc sr) := by
  unfold hashmap_treenode_nephew_right
  have h : hashmap_tree_keys (if (!hashmap_treenode_red sr) = true then
      hashmap_treenode_rotate_right fs (.node (hashmap_treenode_set_red sl false) sh sk true sr)
      else .node sl sh sk sc sr) = hashmap_tree_keys (.node sl sh sk sc sr) := by
    split
    · rw [tree_keys_rotate_right]
      simp only [hashmap_tree_keys, tree_keys_set_red]
    · rfl
  rw [← h]
  split
  · rename_i heq
    rw [heq]
  · rename_i heq
    rw [heq]
    simp only [hashmap_tree_keys, tree_keys_set_red]

theorem tree_keys_nephew_left {K : Type} (fs : List (HashmapTreeFrame K)) (c : Bool)
    (sl : HashmapTree K) (sh : Nat) (sk : K) (sc : Bool) (sr : HashmapTree K) :
    hashmap_tree_keys (hashmap_treenode_nephew_left fs c sl sh sk sc sr) =
      hashmap_tree_keys (.node sl sh sk sc sr) := by
  unfold hashmap_treenode_nephew_left
  have h : hashmap_tree_keys (if (!hashmap_treenode_red sl) = true then
      hashmap_treenode_rotate_left fs (.node sl sh sk true (hashmap_treenode_set_red sr false))
      else .node sl sh sk sc sr) = hashmap_tree_keys (.node sl sh sk sc sr) := by
    split
    · rw [tree_keys_rotate_left]
      simp only [hashmap_tree_keys, tree_keys_set_red]
    · rfl
  rw [← h]
  split
  · rename_i heq
    rw [heq]
  · rename_i heq
    rw [heq]
    simp only [hashmap_tree_keys, tree_keys_set_red]

theorem tree_keys_balance_deletion_loop {K : Type} (fuel : Nat) :
    ∀ (fs : List (HashmapTreeFrame K)) (x : HashmapTree K),
      hashmap_tree_keys (hashmap_treenode_balance_deletion_loop fuel fs x) =
        hashmap_tree_keys (hashmap_treenode_root fs x) := by
  induction fuel with
  | zero => intro fs x; rfl
  | succ n ih =>
    intro fs x
    unfold hashmap_treenode_balance_deletion_loop
    split
    · rfl
    · rename_i xp0 rest
      split
      · rfl
      · split
        · exact tree_keys_root_congr _ (tree_keys_set_red _ _)
        · split
          · rename_i hd
            simp only []
            obtain ⟨hd1, hk⟩ := tree_keys_red_sibling_right xp0 rest hd x
            generalize hashmap_treenode_red_sibling_right xp0 rest = xu at hd1 hk ⊢
            rw [← hk]
            split
            · rw [ih]
            · rename_i sl sh sk sc sr heq
              split
              · rw [ih]
                apply tree_keys_root_congr
                simp only [tree_keys_up, heq, hashmap_tree_keys]
              · rw [ih]
                simp only [hashmap_treenode_root]
                apply tree_keys_root_congr
                rw [tree_keys_rotate_left]
                simp only [tree_keys_up, heq, tree_keys_nephew_right]
          · rename_i hd
            have hd : xp0.dir = true := by simpa using hd
            simp only []
            obtain ⟨hd1, hk⟩ := tree_keys_red_sibling_left xp0 rest hd x
            generalize hashmap_treenode_red_sibling_left xp0 rest = xu at hd1 hk ⊢
            rw [← hk]
            split
            · rw [ih]
            · rename_i sl sh sk sc sr heq
              split
              · rw [ih]
                apply tree_keys_root_congr
                simp only [tree_keys_up, heq, hashmap_tree_keys]
              · rw [ih]
                simp only [hashmap_treenode_root]
                apply tree_keys_root_congr
                rw [tree_keys_rotate_right]
                simp only [tree_keys_up, heq, tree_keys_nephew_left]

theorem tree_keys_balance_deletion {K : Type} (fs : List (HashmapTreeFrame K))
    (x : HashmapTree K) :
    hashmap_tree_keys (hashmap_treenode_balance_deletion fs x) =
      hashmap_tree_keys (hashmap_treenode_root fs x) :=
  tree_keys_balance_deletion_loop _ fs x
/-! ## Searching a tree of a bin -/

theorem tree_sorted_node {K : Type} {cmp : K → K → Int} {l r : HashmapTree K} {h : Nat} {k : K}
    {c : Bool} (hs : HTreeSorted cmp (.node l h k c r)) :
    HTreeSorted cmp l ∧ HTreeSorted cmp r ∧
    (∀ a ∈ hashmap_tree_keys l, hashmap_tree_lt cmp a (h, k)) ∧
    (∀ b ∈ hashmap_tree_keys r, hashmap_tree_lt cmp (h, k) b) := by
  unfold HTreeSorted at hs ⊢
  simp only [hashmap_tree_keys] at hs
  rw [List.pairwise_append, List.pairwise_cons] at hs
  exact ⟨hs.1, hs.2.1.2, fun a ha => hs.2.2 a ha (h, k) (List.mem_cons_self _ _), hs.2.1.1⟩

theorem treenode_find_sound {K : Type} (cmp : K → K → Int) (h : Nat) (key : K) :
    ∀ (t : HashmapTree K) (pk : K), hashmap_treenode_find cmp h key t = some pk →
      (h, pk) ∈ hashmap_tree_keys t ∧ cmp key pk = 0 := by
  intro t
  induction t with
  | nil => intro pk hf; simp [hashmap_treenode_find] at hf
  | node pl ph k c pr ihl ihr =>
    intro pk hf
    have hl : ∀ pk, hashmap_treenode_find cmp h key pl = some pk →
        (h, pk) ∈ hashmap_tree_keys (.node pl ph k c pr) ∧ cmp key pk = 0 := by
      intro pk hf
      obtain ⟨h1, h2⟩ := ihl pk hf
      exact ⟨by simp only [hashmap_tree_keys]; exact List.mem_append_left _ h1, h2⟩
    have hr : ∀ pk, hashmap_treenode_find cmp h key pr = some pk →
        (h, pk) ∈ hashmap_tree_keys (.node pl ph k c pr) ∧ cmp key pk = 0 := by
      intro pk hf
      obtain ⟨h1, h2⟩ := ihr pk hf
      exact ⟨by simp only [hashmap_tree_keys];
                exact List.mem_append_right _ (List.mem_cons_of_mem _ h1), h2⟩
    unfold hashmap_treenode_find at hf
    split_ifs at hf with h1 h2 h3 h4 h5 h6
    · exact hl pk hf
    · exact hr pk hf
    · simp only [Option.some.injEq] at hf
      subst hf
      have : ph = h := by omega
      subst this
      exact ⟨by simp [hashmap_tree_keys], h3⟩
    · exact hr pk hf
    · exact hl pk hf
    · exact hl pk hf
    · exact hr pk hf

theorem treenode_find_complete {K : Type} {cmp : K → K → Int} (ho : CmpOrd cmp) (h : Nat)
    (key : K) :
    ∀ (t : HashmapTree K), HTreeSorted cmp t →
      ∀ k1, (h, k1) ∈ hashmap_tree_keys t → cmp key k1 = 0 →
        ∃ pk, hashmap_treenode_find cmp h key t = some pk := by
  intro t
  induction t with
  | nil => intro _ k1 hm; simp [hashmap_tree_keys] at hm
  | node pl ph k c pr ihl ihr =>
    intro hs k1 hm hc
    obtain ⟨hsl, hsr, hlt, hgt⟩ := tree_sorted_node hs
    simp only [hashmap_tree_keys, List.mem_append, List.mem_cons] at hm
    have hnl : ∀ {x : Nat × K}, x ∈ hashmap_tree_keys pl → hashmap_treenode_null pl = false := by
      intro x hx
      cases pl with
      | nil => simp [hashmap_tree_keys] at hx
      | node _ _ _ _ _ => rfl
    have hnr : ∀ {x : Nat × K}, x ∈ hashmap_tree_keys pr → hashmap_treenode_null pr = false := by
      intro x hx
      cases pr with
      | nil => simp [hashmap_tree_keys] at hx
      | node _ _ _ _ _ => rfl
    unfold hashmap_treenode_find
    split_ifs with h1 h2 h3 h4 h5 h6
    · rcases hm with hm | hm | hm
      · exact ihl hsl k1 hm hc
      · simp only [Prod.mk.injEq] at hm
        omega
      · have := hgt _ hm
        unfold hashmap_tree_lt at this
        simp only at this
        omega
    · rcases hm with hm | hm | hm
      · have := hlt _ hm
        unfold hashmap_tree_lt at this
        simp only at this
        omega
      · simp only [Prod.mk.injEq] at hm
        omega
      · exact ihr hsr k1 hm hc
    · exact ⟨k, rfl⟩
    all_goals
      have hph : ph = h := by omega
      subst hph
      have hnotl : cmp key k < 0 → (ph, k1) ∉ hashmap_tree_keys pr := by
        intro hlt1 hm1
        have h7 := hgt _ hm1
        unfold hashmap_tree_lt at h7
        simp only [lt_self_iff_false, true_and, false_or] at h7
        have := cmpord_lt_trans ho hlt1 (by omega : cmp k k1 ≤ 0)
        omega
      have hnotr : 0 < cmp key k → (ph, k1) ∉ hashmap_tree_keys pl := by
        intro hgt1 hm1
        have h7 := hlt _ hm1
        unfold hashmap_tree_lt at h7
        simp only [lt_self_iff_false, true_and, false_or] at h7
        have := cmpord_le_lt_trans ho (by omega : cmp key k1 ≤ 0) h7
        omega
      have hne : (ph, k1) ≠ (ph, k) := by
        intro he
        simp only [Prod.mk.injEq, true_and] at he
        rw [he] at hc
        exact h3 hc
    · rcases hm with hm | hm | hm
      · rw [hnl hm] at h4; cases h4
      · exact absurd hm hne
      · exact ihr hsr k1 hm hc
    · rcases hm with hm | hm | hm
      · exact ihl hsl k1 hm hc
      · exact absurd hm hne
      · rw [hnr hm] at h5; cases h5
    · rcases hm with hm | hm | hm
      · exact ihl hsl k1 hm hc
      · exact absurd hm hne
      · exact absurd hm (hnotl h6)
    · rcases hm with hm | hm | hm
      · exact absurd hm (hnotr (by omega))
      · exact absurd hm hne
      · exact ihr hsr k1 hm hc

/-! ## The place of a new node -/

theorem treenode_put_descend_spec {K : Type} {cmp : K → K → Int} (ho : CmpOrd cmp) (h : Nat)
    (key : K) :
    ∀ (p : HashmapTree K) (fs : List (HashmapTreeFrame K)),
      (∀ a ∈ hashmap_frames_left fs, hashmap_tree_lt cmp a (h, key)) →
      (∀ b ∈ hashmap_frames_right fs, hashmap_tree_lt cmp (h, key) b) →
      HTreeSorted cmp p →
      (∀ pk fs1, hashmap_treenode_put_descend cmp h key fs p = (some pk, fs1) →
        (h, pk) ∈ hashmap_tree_keys p ∧ cmp key pk = 0) ∧
      (∀ fs1, hashmap_treenode_put_descend cmp h key fs p = (none, fs1) →
        hashmap_treenode_root fs1 .nil = hashmap_treenode_root fs p ∧
        (∀ a ∈ hashmap_frames_left fs1, hashmap_tree_lt cmp a (h, key)) ∧
        (∀ b ∈ hashmap_frames_right fs1, hashmap_tree_lt cmp (h, key) b)) := by
  intro p
  induction p with
  | nil =>
    intro fs hl hr _
    constructor
    · intro pk fs1 hd
      simp [hashmap_treenode_put_descend] at hd
    · intro fs1 hd
      simp only [hashmap_treenode_put_descend, Prod.mk.injEq, true_and] at hd
      subst hd
      exact ⟨rfl, hl, hr⟩
  | node pl ph k c pr ihl ihr =>
    intro fs hl hr hs
    obtain ⟨hsl, hsr, hlt, hgt⟩ := tree_sorted_node hs
    have goleft : hashmap_tree_lt cmp (h, key) (ph, k) →
        (∀ pk fs1, hashmap_treenode_put_descend cmp h key
            ({ dir := false, hash := ph, key := k, red := c, other := pr } :: fs) pl =
            (some pk, fs1) →
          (h, pk) ∈ hashmap_tree_keys (.node pl ph k c pr) ∧ cmp key pk = 0) ∧
        (∀ fs1, hashmap_treenode_put_descend cmp h key
            ({ dir := false, hash := ph, key := k, red := c, other := pr } :: fs) pl =
            (none, fs1) →
          hashmap_treenode_root fs1 .nil = hashmap_treenode_root fs (.node pl ph k c pr) ∧
          (∀ a ∈ hashmap_frames_left fs1, hashmap_tree_lt cmp a (h, key)) ∧
          (∀ b ∈ hashmap_frames_right fs1, hashmap_tree_lt cmp (h, key) b)) := by
      intro hx
      have := ihl ({ dir := false, hash := ph, key := k, red := c, other := pr } :: fs)
        (by simpa [hashmap_frames_left] using hl)
        (by
          intro b hb
          simp only [hashmap_frames_right, Bool.false_eq_true, ↓reduceIte, List.cons_append,
            List.mem_cons, List.mem_append] at hb
          rcases hb with hb | hb | hb
          · rw [hb]; exact hx
          · exact tree_lt_trans ho hx (hgt b hb)
          · exact hr b hb) hsl
      refine ⟨fun pk fs1 hd => ?_, fun fs1 hd => ?_⟩
      · obtain ⟨h1, h2⟩ := this.1 pk fs1 hd
        exact ⟨by simp only [hashmap_tree_keys]; exact List.mem_append_left _ h1, h2⟩
      · exact this.2 fs1 hd
    have goright : hashmap_tree_lt cmp (ph, k) (h, key) →
        (∀ pk fs1, hashmap_treenode_put_descend cmp h key
            ({ dir := true, hash := ph, key := k, red := c, other := pl } :: fs) pr =
            (some pk, fs1) →
          (h, pk) ∈ hashmap_tree_keys (.node pl ph k c pr) ∧ cmp key pk = 0) ∧
        (∀ fs1, hashmap_treenode_put_descend cmp h key
            ({ dir := true, hash := ph, key := k, red := c, other := pl } :: fs) pr =
            (none, fs1) →
          hashmap_treenode_root fs1 .nil = hashmap_treenode_root fs (.node pl ph k c pr) ∧
          (∀ a ∈ hashmap_frames_left fs1, hashmap_tree_lt cmp a (h, key)) ∧
          (∀ b ∈ hashmap_frames_right fs1, hashmap_tree_lt cmp (h, key) b)) := by
      intro hx
      have := ihr ({ dir := true, hash := ph, key := k, red := c, other := pl } :: fs)
        (by
          intro a ha
          simp only [hashmap_frames_left, ↓reduceIte, List.mem_append, List.mem_singleton] at ha
          rcases ha with ha | ha | ha
          · exact hl a ha
          · exact tree_lt_trans ho (hlt a ha) hx
          · rw [ha]; exact hx)
        (by simpa [hashmap_frames_right] using hr) hsr
      refine ⟨fun pk fs1 hd => ?_, fun fs1 hd => ?_⟩
      · obtain ⟨h1, h2⟩ := this.1 pk fs1 hd
        exact ⟨by simp only [hashmap_tree_keys];
                  exact List.mem_append_right _ (List.mem_cons_of_mem _ h1), h2⟩
      · exact this.2 fs1 hd
    unfold hashmap_treenode_put_descend
    split_ifs with h1 h2 h3 h4
    · exact goleft (Or.inl h1)
    · exact goright (Or.inl h2)
    · have hph : ph = h := by omega
      subst hph
      constructor
      · intro pk fs1 hd
        simp only [Prod.mk.injEq, Option.some.injEq] at hd
        rw [← hd.1]
        exact ⟨by simp [hashmap_tree_keys], h3⟩
      · intro fs1 hd
        simp at hd
    · have hph : ph = h := by omega
      exact goleft (Or.inr ⟨hph.symm, by show cmp key k < 0; omega⟩)
    · have hph : ph = h := by omega
      exact goright (Or.inr ⟨hph, by show cmp k key < 0; have := ho.symm k key; omega⟩)
/-! ## Adding a node to the tree of a bin -/

theorem tree_keys_root_nil {K : Type} (fs : List (HashmapTreeFrame K)) :
    hashmap_tree_keys (hashmap_treenode_root fs .nil) =
      hashmap_frames_left fs ++ hashmap_frames_right fs := by
  rw [tree_keys_root]
  simp [hashmap_tree_keys]

theorem tree_insert_sorted {K : Type} {cmp : K → K → Int} (x : Nat × K)
    (fs : List (HashmapTreeFrame K)) (t r : HashmapTree K)
    (hroot : hashmap_treenode_root fs .nil = t) (hs : HTreeSorted cmp t)
    (hl : ∀ a ∈ hashmap_frames_left fs, hashmap_tree_lt cmp a x)
    (hr : ∀ b ∈ hashmap_frames_right fs, hashmap_tree_lt cmp x b)
    (hk : hashmap_tree_keys r =
      hashmap_frames_left fs ++ [x] ++ hashmap_frames_right fs) :
    HTreeSorted cmp r ∧ (hashmap_tree_keys r).Perm (x :: hashmap_tree_keys t) := by
  unfold HTreeSorted at hs ⊢
  rw [← hroot, tree_keys_root_nil] at hs ⊢
  rw [hk]
  rw [List.pairwise_append] at hs
  constructor
  · rw [List.append_assoc, List.pairwise_append]
    refine ⟨hs.1, ?_, ?_⟩
    · simp only [List.singleton_append, List.pairwise_cons]
      exact ⟨hr, hs.2.1⟩
    · intro a ha b hb
      simp only [List.singleton_append, List.mem_cons] at hb
      rcases hb with hb | hb
      · rw [hb]; exact hl a ha
      · exact hs.2.2 a ha b hb
  · simp only [List.append_assoc, List.singleton_append]
    exact List.perm_middle

theorem treenode_treeify_descend_eq {K : Type} (cmp : K → K → Int) (h : Nat) (key : K) :
    ∀ (p : HashmapTree K) (fs : List (HashmapTreeFrame K)),
      (∀ q ∈ hashmap_tree_keys p, ¬(q.1 = h ∧ cmp key q.2 = 0)) →
      hashmap_treenode_put_descend cmp h key fs p =
        (none, hashmap_treenode_treeify_descend cmp h key fs p) := by
  intro p
  induction p with
  | nil => intro fs _; rfl
  | node pl ph k c pr ihl ihr =>
    intro fs hd
    have hdl : ∀ q ∈ hashmap_tree_keys pl, ¬(q.1 = h ∧ cmp key q.2 = 0) := fun q hq =>
      hd q (by simp only [hashmap_tree_keys]; exact List.mem_append_left _ hq)
    have hdr : ∀ q ∈ hashmap_tree_keys pr, ¬(q.1 = h ∧ cmp key q.2 = 0) := fun q hq =>
      hd q (by simp only [hashmap_tree_keys];
               exact List.mem_append_right _ (List.mem_cons_of_mem _ hq))
    have hp := hd (ph, k) (by simp [hashmap_tree_keys])
    simp only [not_and] at hp
    unfold hashmap_treenode_put_descend hashmap_treenode_treeify_descend
    by_cases h1 : ph > h
    · rw [if_pos h1, if_pos h1, if_pos (by decide)]
      exact ihl _ hdl
    · rw [if_neg h1, if_neg h1]
      by_cases h2 : ph < h
      · rw [if_pos h2, if_pos h2, if_neg (by decide)]
        exact ihr _ hdr
      · rw [if_neg h2, if_neg h2]
        have hph : ph = h := by omega
        rw [if_neg (hp hph)]
        by_cases h3 : cmp key k ≤ 0
        · rw [if_pos h3, if_pos h3]
          exact ihl _ hdl
        · rw [if_neg h3, if_neg h3]
          exact ihr _ hdr

theorem tree_insert_spec {K : Type} {cmp : K → K → Int} (ho : CmpOrd cmp) (h : Nat) (key : K)
    (t : HashmapTree K) (hs : HTreeSorted cmp t) (fs : List (HashmapTreeFrame K))
    (hd : hashmap_treenode_put_descend cmp h key [] t = (none, fs)) :
    HTreeSorted cmp (hashmap_treenode_balance_insertion fs (.node .nil h key false .nil)) ∧
    (hashmap_tree_keys (hashmap_treenode_balance_insertion fs (.node .nil h key false .nil))).Perm
      ((h, key) :: hashmap_tree_keys t) := by
  obtain ⟨h1, h2, h3⟩ := (treenode_put_descend_spec ho h key t []
    (by simp [hashmap_frames_left]) (by simp [hashmap_frames_right]) hs).2 fs hd
  refine tree_insert_sorted (h, key) fs t _ h1 hs h2 h3 ?_
  rw [tree_keys_balance_insertion, tree_keys_root]
  simp [hashmap_tree_keys]

theorem treenode_treeify_step_spec {K V : Type} {cmp : K → K → Int} (ho : CmpOrd cmp)
    (t : HashmapTree K) (x : HashmapNode K V) (hs : HTreeSorted cmp t)
    (hd : ∀ q ∈ hashmap_tree_keys t, ¬(q.1 = x.hash ∧ cmp x.key q.2 = 0)) :
    HTreeSorted cmp (hashmap_treenode_treeify_step cmp t x) ∧
    (hashmap_tree_keys (hashmap_treenode_treeify_step cmp t x)).Perm
      ((x.hash, x.key) :: hashmap_tree_keys t) := by
  unfold hashmap_treenode_treeify_step
  cases t with
  | nil => exact ⟨by simp [HTreeSorted, hashmap_tree_keys], by simp [hashmap_tree_keys]⟩
  | node l h k c r0 =>
    exact tree_insert_spec ho x.hash x.key _ hs _
      (treenode_treeify_descend_eq cmp x.hash x.key _ [] hd)

theorem treenode_treeify_loop_spec {K V : Type} {cmp : K → K → Int} (ho : CmpOrd cmp) :
    ∀ (bin : List (HashmapNode K V)) (t : HashmapTree K), HTreeSorted cmp t →
      (bin.map (fun e => (e.hash, e.key))).Pairwise
        (fun a b => ¬(a.1 = b.1 ∧ cmp b.2 a.2 = 0)) →
      (∀ e ∈ bin, ∀ q ∈ hashmap_tree_keys t, ¬(q.1 = e.hash ∧ cmp e.key q.2 = 0)) →
      HTreeSorted cmp (bin.foldl (hashmap_treenode_treeify_step cmp) t) ∧
      (hashmap_tree_keys (bin.foldl (hashmap_treenode_treeify_step cmp) t)).Perm
        (bin.map (fun e => (e.hash, e.key)) ++ hashmap_tree_keys t) := by
  intro bin
  induction bin with
  | nil => intro t hs _ _; exact ⟨hs, by simp⟩
  | cons x xs ih =>
    intro t hs hp hd
    simp only [List.map_cons, List.pairwise_cons] at hp
    simp only [List.foldl_cons]
    obtain ⟨hs1, hp1⟩ := treenode_treeify_step_spec ho t x hs (hd x (List.mem_cons_self _ _))
    obtain ⟨hs2, hp2⟩ := ih _ hs1 hp.2 (by
      intro e he q hq
      rcases List.mem_cons.1 (hp1.mem_iff.1 hq) with h1 | h1
      · rw [h1]
        have := hp.1 (e.hash, e.key) (List.mem_map.2 ⟨e, he, rfl⟩)
        simp only at this ⊢
        intro hc
        exact this ⟨hc.1, hc.2⟩
      · exact hd e (List.mem_cons_of_mem _ he) q h1)
    refine ⟨hs2, hp2.trans ?_⟩
    simp only [List.map_cons, List.cons_append]
    exact (List.Perm.append_left _ hp1).trans List.perm_middle

theorem treenode_move_root_to_front_perm {K V : Type} [DecidableEq K]
    (bin : List (HashmapNode K V)) (root : HashmapTree K) :
    (hashmap_treenode_move_root_to_front bin root).Perm bin := by
  unfold hashmap_treenode_move_root_to_front
  split
  · exact List.Perm.refl _
  · split
    · exact List.Perm.refl _
    · rename_i idx _
      split
      · exact List.Perm.refl _
      · split
        · rename_i e he
          rw [List.get?_eq_some] at he
          obtain ⟨hlt, he⟩ := he
          have h1 : bin = bin.take idx ++ e :: bin.drop (idx + 1) := by
            rw [← he]
            simp
          rw [List.eraseIdx_eq_take_drop_succ]
          nth_rewrite 3 [h1]
          exact List.perm_middle.symm
        · exact List.Perm.refl _

theorem chain_insert_after_perm {K V : Type} [DecidableEq K] (bin : List (HashmapNode K V))
    (xpk : K) (x : HashmapNode K V) :
    (hashmap_chain_insert_after bin xpk x).Perm (x :: bin) := by
  unfold hashmap_chain_insert_after
  split
  · exact List.perm_append_singleton _ _
  · rename_i idx _
    have : (x :: bin).Perm (x :: (bin.take (idx + 1) ++ bin.drop (idx + 1))) := by
      rw [List.take_append_drop]
    exact List.perm_middle.trans this.symm

theorem treenode_treeify_ok {K V : Type} [DecidableEq K] {cmp : K → K → Int} (ho : CmpOrd cmp)
    (bin : List (HashmapNode K V))
    (hp : (bin.map (fun e => (e.hash, e.key))).Pairwise
      (fun a b => ¬(a.1 = b.1 ∧ cmp b.2 a.2 = 0))) :
    HTreeOk cmp (hashmap_treenode_treeify cmp bin).1 (hashmap_treenode_treeify cmp bin).2 ∧
    (hashmap_treenode_treeify cmp bin).1.Perm bin := by
  unfold hashmap_treenode_treeify hashmap_treenode_treeify_loop
  obtain ⟨h1, h2⟩ := treenode_treeify_loop_spec ho bin .nil
    (by simp [HTreeSorted, hashmap_tree_keys]) hp (by simp [hashmap_tree_keys])
  simp only [hashmap_tree_keys, List.append_nil] at h2
  refine ⟨⟨h1, h2.trans ?_⟩, treenode_move_root_to_front_perm _ _⟩
  exact ((treenode_move_root_to_front_perm _ _).map _).symm

theorem treenode_put_new_ok {K V : Type} [DecidableEq K] {cmp : K → K → Int} (ho : CmpOrd cmp)
    (bin : List (HashmapNode K V)) (t : HashmapTree K) (x : HashmapNode K V)
    (hok : HTreeOk cmp bin t) (fs : List (HashmapTreeFrame K))
    (hd : hashmap_treenode_put_descend cmp x.hash x.key [] t = (none, fs)) :
    HTreeOk cmp (hashmap_treenode_put_new bin fs x).1 (hashmap_treenode_put_new bin fs x).2 ∧
    (hashmap_treenode_put_new bin fs x).1.Perm (x :: bin) := by
  unfold hashmap_treenode_put_new
  obtain ⟨h1, h2⟩ := tree_insert_spec ho x.hash x.key t hok.1 fs hd
  have hchain : (match fs with
      | [] => bin ++ [x]
      | xp :: _ => hashmap_chain_insert_after bin xp.key x).Perm (x :: bin) := by
    split
    · exact List.perm_append_singleton _ _
    · exact chain_insert_after_perm _ _ _
  have hperm := (treenode_move_root_to_front_perm (match fs with
      | [] => bin ++ [x]
      | xp :: _ => hashmap_chain_insert_after bin xp.key x)
      (hashmap_treenode_balance_insertion fs (.node .nil x.hash x.key false .nil))).trans hchain
  refine ⟨⟨h1, h2.trans ?_⟩, hperm⟩
  refine List.Perm.trans ?_ (hperm.map _).symm
  simp only [List.map_cons]
  exact List.Perm.cons _ hok.2
/-! ## Removing a node from the tree of a bin -/

theorem treenode_root_append {K : Type} (gs fs : List (HashmapTreeFrame K)) (x : HashmapTree K) :
    hashmap_treenode_root (gs ++ fs) x = hashmap_treenode_root fs (hashmap_treenode_root gs x) := by
  induction gs generalizing x with
  | nil => rfl
  | cons g gs ih => exact ih _

theorem treenode_at_spec {K : Type} [DecidableEq K] (key : K) :
    ∀ (t : HashmapTree K) (fs : List (HashmapTreeFrame K))
      (res : List (HashmapTreeFrame K) × HashmapTree K),
      hashmap_treenode_at key fs t = some res →
      hashmap_treenode_root res.1 res.2 = hashmap_treenode_root fs t ∧
      (∃ l h c r, res.2 = .node l h key c r) ∧
      key ∈ (hashmap_tree_keys t).map Prod.snd := by
  intro t
  induction t with
  | nil => intro fs res h; simp [hashmap_treenode_at] at h
  | node l h k c r ihl ihr =>
    intro fs res hat
    unfold hashmap_treenode_at at hat
    split_ifs at hat with hk
    · simp only [Option.some.injEq] at hat
      subst hat
      subst hk
      exact ⟨rfl, ⟨l, h, c, r, rfl⟩, by simp [hashmap_tree_keys]⟩
    · split at hat
      · rename_i res1 hl
        simp only [Option.some.injEq] at hat
        subst hat
        obtain ⟨h1, h2, h3⟩ := ihl _ _ hl
        refine ⟨h1, h2, ?_⟩
        simp only [hashmap_tree_keys, List.map_append, List.mem_append]
        exact Or.inl h3
      · obtain ⟨h1, h2, h3⟩ := ihr _ _ hat
        refine ⟨h1, h2, ?_⟩
        simp only [hashmap_tree_keys, List.map_append, List.mem_append, List.map_cons,
          List.mem_cons]
        exact Or.inr (Or.inr h3)

theorem treenode_at_complete {K : Type} [DecidableEq K] (key : K) :
    ∀ (t : HashmapTree K) (fs : List (HashmapTreeFrame K)),
      key ∈ (hashmap_tree_keys t).map Prod.snd →
      ∃ res, hashmap_treenode_at key fs t = some res := by
  intro t
  induction t with
  | nil => intro fs h; simp [hashmap_tree_keys] at h
  | node l h k c r ihl ihr =>
    intro fs hm
    unfold hashmap_treenode_at
    split_ifs with hk
    · exact ⟨_, rfl⟩
    · simp only [hashmap_tree_keys, List.map_append, List.mem_append, List.map_cons,
        List.mem_cons] at hm
      rcases hm with hm | hm | hm
      · obtain ⟨res, hres⟩ := ihl
          ({ dir := false, hash := h, key := k, red := c, other := r } :: fs) hm
        rw [hres]
        exact ⟨_, rfl⟩
      · exact absurd hm.symm hk
      · split
        · exact ⟨_, rfl⟩
        · exact ihr _ hm

theorem treenode_leftmost_spec {K : Type} :
    ∀ (t : HashmapTree K) (fs : List (HashmapTreeFrame K)),
      hashmap_treenode_root (hashmap_treenode_leftmost fs t).1 (hashmap_treenode_leftmost fs t).2 =
        hashmap_treenode_root fs t ∧
      hashmap_frames_left (hashmap_treenode_leftmost fs t).1 = hashmap_frames_left fs ∧
      (t ≠ .nil → ∃ h k c r, (hashmap_treenode_leftmost fs t).2 = .node .nil h k c r) := by
  intro t
  induction t with
  | nil => intro fs; exact ⟨rfl, rfl, fun h => absurd rfl h⟩
  | node l h k c r ihl _ =>
    intro fs
    cases l with
    | nil => exact ⟨rfl, rfl, fun _ => ⟨h, k, c, r, rfl⟩⟩
    | node ll lh lk lc lr =>
      simp only [hashmap_treenode_leftmost]
      obtain ⟨h1, h2, h3⟩ := ihl ({ dir := false, hash := h, key := k, red := c, other := r } :: fs)
      refine ⟨h1, h2, fun _ => h3 (by simp)⟩

theorem tree_leaf_mem {K : Type} (k : K) :
    ∀ t : HashmapTree K, HTreeLeaf k t → k ∈ (hashmap_tree_keys t).map Prod.snd := by
  intro t
  induction t with
  | nil => intro h; exact absurd h (by simp [HTreeLeaf])
  | node l h key c r ihl ihr =>
    intro hl
    simp only [HTreeLeaf] at hl
    simp only [hashmap_tree_keys, List.map_append, List.mem_append, List.map_cons, List.mem_cons]
    rcases hl with hl | hl | hl
    · exact Or.inr (Or.inl hl.1.symm)
    · exact Or.inl (ihl hl)
    · exact Or.inr (Or.inr (ihr hl))

theorem tree_leaf_set_red {K : Type} (k : K) (t : HashmapTree K) (c : Bool)
    (h : HTreeLeaf k t) : HTreeLeaf k (hashmap_treenode_set_red t c) := by
  cases t with
  | nil => exact h
  | node l hh key c0 r => exact h

theorem tree_leaf_up {K : Type} (k : K) (f : HashmapTreeFrame K) (x : HashmapTree K)
    (h : HTreeLeaf k x) : HTreeLeaf k (hashmap_treenode_up f x) := by
  unfold hashmap_treenode_up
  split
  · simp only [HTreeLeaf]
    exact Or.inr (Or.inr h)
  · simp only [HTreeLeaf]
    exact Or.inr (Or.inl h)

theorem tree_leaf_root {K : Type} (k : K) (fs : List (HashmapTreeFrame K)) (x : HashmapTree K)
    (h : HTreeLeaf k x) : HTreeLeaf k (hashmap_treenode_root fs x) := by
  induction fs generalizing x with
  | nil => exact h
  | cons f fs ih => exact ih _ (tree_leaf_up k f x h)

theorem tree_leaf_rotate_left {K : Type} (k : K) (fs : List (HashmapTreeFrame K))
    (f : HashmapTreeFrame K) (hd : f.dir = false) (x : HashmapTree K) (h : HTreeLeaf k x) :
    HTreeLeaf k (hashmap_treenode_rotate_left fs (hashmap_treenode_up f x)) := by
  unfold hashmap_treenode_up
  rw [if_neg (by simp [hd])]
  unfold hashmap_treenode_rotate_left
  split
  · rename_i heq
    simp only [HashmapTree.node.injEq] at heq
    obtain ⟨h1, -, -, -, -⟩ := heq
    subst h1
    simp only [HTreeLeaf]
    exact Or.inr (Or.inl (Or.inr (Or.inl h)))
  · simp only [HTreeLeaf]
    exact Or.inr (Or.inl h)

theorem tree_leaf_rotate_right {K : Type} (k : K) (fs : List (HashmapTreeFrame K))
    (f : HashmapTreeFrame K) (hd : f.dir = true) (x : HashmapTree K) (h : HTreeLeaf k x) :
    HTreeLeaf k (hashmap_treenode_rotate_right fs (hashmap_treenode_up f x)) := by
  unfold hashmap_treenode_up
  rw [if_pos hd]
  unfold hashmap_treenode_rotate_right
  split
  · rename_i heq
    simp only [HashmapTree.node.injEq] at heq
    obtain ⟨-, -, -, -, h1⟩ := heq
    subst h1
    simp only [HTreeLeaf]
    exact Or.inr (Or.inr (Or.inr (Or.inr h)))
  · simp only [HTreeLeaf]
    exact Or.inr (Or.inr h)

theorem red_sibling_right_dir {K : Type} (xp : HashmapTreeFrame K)
    (rest : List (HashmapTreeFrame K)) :
    (hashmap_treenode_red_sibling_right xp rest).1.dir = xp.dir := by
  unfold hashmap_treenode_red_sibling_right
  split <;> rfl

theorem red_sibling_left_dir {K : Type} (xp : HashmapTreeFrame K)
    (rest : List (HashmapTreeFrame K)) :
    (hashmap_treenode_red_sibling_left xp rest).1.dir = xp.dir := by
  unfold hashmap_treenode_red_sibling_left
  split <;> rfl

theorem tree_leaf_balance_deletion_loop {K : Type} (k : K) (fuel : Nat) :
    ∀ (fs : List (HashmapTreeFrame K)) (x : HashmapTree K), HTreeLeaf k x →
      HTreeLeaf k (hashmap_treenode_balance_deletion_loop fuel fs x) := by
  induction fuel with
  | zero => intro fs x h; exact tree_leaf_root k fs x h
  | succ n ih =>
    intro fs x h
    unfold hashmap_treenode_balance_deletion_loop
    split
    · exact h
    · rename_i xp0 rest
      split
      · exact tree_leaf_root k _ x h
      · split
        · exact tree_leaf_root k _ _ (tree_leaf_set_red k x false h)
        · split
          · rename_i hd
            simp only []
            have hd1 := (red_sibling_right_dir xp0 rest).trans hd
            generalize hashmap_treenode_red_sibling_right xp0 rest = xu at hd1 ⊢
            split
            · exact ih _ _ (tree_leaf_up k _ x h)
            · split
              · exact ih _ _ (tree_leaf_up k _ x h)
              · refine ih _ _ (tree_leaf_root k _ _ ?_)
                apply tree_leaf_rotate_left
                · exact hd1
                · exact h
          · rename_i hd
            have hd : xp0.dir = true := by simpa using hd
            simp only []
            have hd1 := (red_sibling_left_dir xp0 rest).trans hd
            generalize hashmap_treenode_red_sibling_left xp0 rest = xu at hd1 ⊢
            split
            · exact ih _ _ (tree_leaf_up k _ x h)
            · split
              · exact ih _ _ (tree_leaf_up k _ x h)
              · refine ih _ _ (tree_leaf_root k _ _ ?_)
                apply tree_leaf_rotate_right
                · exact hd1
                · exact h

theorem filter_key_middle {K : Type} [DecidableEq K] (l1 l2 : List (Nat × K)) (a : Nat × K)
    (hnd : ((l1 ++ a :: l2).map Prod.snd).Nodup) :
    (l1 ++ a :: l2).filter (fun q => !decide (q.2 = a.2)) = l1 ++ l2 := by
  rw [List.map_append, List.map_cons, List.nodup_append] at hnd
  obtain ⟨_, h2, h3⟩ := hnd
  rw [List.nodup_cons] at h2
  have hid : ∀ l : List (Nat × K), a.2 ∉ l.map Prod.snd →
      l.filter (fun q => !decide (q.2 = a.2)) = l := by
    intro l hl
    rw [List.filter_eq_self]
    intro q hq
    simp only [Bool.not_eq_eq_eq_not, Bool.not_true, decide_eq_false_iff_not]
    intro he
    exact hl (List.mem_map.2 ⟨q, hq, he⟩)
  rw [List.filter_append, List.filter_cons]
  simp only [decide_True, Bool.not_true, Bool.false_eq_true, ↓reduceIte]
  rw [hid l1 (fun hm => h3 hm (List.mem_cons_self _ _)), hid l2 h2.1]

theorem treenode_detach_spec {K : Type} [DecidableEq K] (key : K) (r : HashmapTree K)
    (hnd : ((hashmap_tree_keys r).map Prod.snd).Nodup) (hleaf : HTreeLeaf key r)
    (hlen : 2 ≤ (hashmap_tree_keys r).length) :
    hashmap_tree_keys (hashmap_treenode_detach key r) =
      (hashmap_tree_keys r).filter (fun q => !decide (q.2 = key)) := by
  have hgen : ∀ (t : HashmapTree K) (fs : List (HashmapTreeFrame K)),
      ((hashmap_tree_keys t).map Prod.snd).Nodup → HTreeLeaf key t →
      ∃ fs1 h c, hashmap_treenode_at key fs t = some (fs1, .node .nil h key c .nil) ∧
        hashmap_treenode_root fs1 (.node .nil h key c .nil) = hashmap_treenode_root fs t := by
    intro t
    induction t with
    | nil => intro fs _ h; exact absurd h (by simp [HTreeLeaf])
    | node l h k c rr ihl ihr =>
      intro fs hn hl
      simp only [hashmap_tree_keys, List.map_append, List.map_cons] at hn
      rw [List.nodup_append] at hn
      obtain ⟨hn1, hn2, hn3⟩ := hn
      rw [List.nodup_cons] at hn2
      simp only [HTreeLeaf] at hl
      unfold hashmap_treenode_at
      by_cases hk : k = key
      · rw [if_pos hk]
        subst hk
        rcases hl with hl | hl | hl
        · obtain ⟨-, h1, h2⟩ := hl
          subst h1 h2
          exact ⟨fs, h, c, rfl, rfl⟩
        · exact absurd (List.mem_cons_self _ _) (hn3 (tree_leaf_mem _ _ hl))
        · exact absurd (tree_leaf_mem _ _ hl) hn2.1
      · rw [if_neg hk]
        rcases hl with hl | hl | hl
        · exact absurd hl.1 hk
        · obtain ⟨fs1, h1, c1, hat, hroot⟩ := ihl
            ({ dir := false, hash := h, key := k, red := c, other := rr } :: fs) hn1 hl
          rw [hat]
          exact ⟨fs1, h1, c1, rfl, hroot⟩
        · have hnone : hashmap_treenode_at key
              ({ dir := false, hash := h, key := k, red := c, other := rr } :: fs) l = none := by
            cases hq : hashmap_treenode_at key
              ({ dir := false, hash := h, key := k, red := c, other := rr } :: fs) l with
            | none => rfl
            | some res =>
              have := (treenode_at_spec key _ _ _ hq).2.2
              exact absurd (List.mem_cons_of_mem _ (tree_leaf_mem _ _ hl)) (hn3 this)
          rw [hnone]
          obtain ⟨fs1, h1, c1, hat, hroot⟩ := ihr
            ({ dir := true, hash := h, key := k, red := c, other := l } :: fs) hn2.2 hl
          exact ⟨fs1, h1, c1, hat, hroot⟩
  obtain ⟨fs1, h, c, hat, hroot⟩ := hgen r [] hnd hleaf
  simp only [hashmap_treenode_root] at hroot
  unfold hashmap_treenode_detach
  rw [hat]
  have hkeys : hashmap_tree_keys r =
      hashmap_frames_left fs1 ++ (h, key) :: hashmap_frames_right fs1 := by
    rw [← hroot, tree_keys_root]
    simp [hashmap_tree_keys]
  cases fs1 with
  | nil =>
    rw [hkeys] at hlen
    simp [hashmap_frames_left, hashmap_frames_right] at hlen
  | cons f fs2 =>
    simp only
    have : hashmap_treenode_root fs2 (hashmap_treenode_up f .nil) =
        hashmap_treenode_root (f :: fs2) .nil := rfl
    rw [this, tree_keys_root_nil, hkeys]
    rw [hkeys] at hnd
    exact (filter_key_middle _ _ (h, key) hnd).symm

theorem filter_key_goal {K : Type} [DecidableEq K] (ks res l1 l2 : List (Nat × K)) (h : Nat)
    (key : K) (hnd : (ks.map Prod.snd).Nodup) (hk : ks = l1 ++ (h, key) :: l2)
    (hres : res = l1 ++ l2) : res = ks.filter (fun q => !decide (q.2 = key)) := by
  rw [hk] at hnd ⊢
  rw [filter_key_middle l1 l2 (h, key) hnd]
  exact hres

theorem treenode_remove_spec {K : Type} [DecidableEq K] (key : K) (t : HashmapTree K)
    (hnd : ((hashmap_tree_keys t).map Prod.snd).Nodup)
    (hmem : key ∈ (hashmap_tree_keys t).map Prod.snd)
    (hlen : 2 ≤ (hashmap_tree_keys t).length) :
    hashmap_tree_keys (hashmap_treenode_remove key t) =
      (hashmap_tree_keys t).filter (fun q => !decide (q.2 = key)) := by
  obtain ⟨res, hat⟩ := treenode_at_complete key t [] hmem
  obtain ⟨hroot, ⟨pl, ph, pc, pr, hres⟩, -⟩ := treenode_at_spec key t [] res hat
  obtain ⟨fs, p⟩ := res
  simp only at hres
  subst hres
  simp only [hashmap_treenode_root] at hroot
  have hkeys : hashmap_tree_keys t = hashmap_frames_left fs ++
      (hashmap_tree_keys pl ++ (ph, key) :: hashmap_tree_keys pr) ++ hashmap_frames_right fs := by
    rw [← hroot, tree_keys_root]
    rfl
  have hdetach : ∀ r, hashmap_tree_keys r = hashmap_tree_keys t → HTreeLeaf key r →
      hashmap_tree_keys (hashmap_treenode_detach key r) =
        (hashmap_tree_keys t).filter (fun q => !decide (q.2 = key)) := by
    intro r hr hl
    rw [treenode_detach_spec key r (by rw [hr]; exact hnd) hl (by rw [hr]; exact hlen), hr]
  unfold hashmap_treenode_remove
  rw [hat]
  simp only
  cases pl with
  | nil =>
    cases pr with
    | nil =>
      simp only [hashmap_treenode_null, Bool.not_true, Bool.and_self, Bool.false_eq_true,
        ↓reduceIte]
      apply hdetach
      · split
        · rfl
        · rw [tree_keys_balance_deletion, hroot]
      · split
        · rw [← hroot]
          exact tree_leaf_root key fs _ (by simp [HTreeLeaf])
        · exact tree_leaf_balance_deletion_loop key _ fs _ (by simp [HTreeLeaf])
    | node rl rh rk rc rr =>
      simp only [hashmap_treenode_null, Bool.not_true, Bool.not_false, Bool.and_true,
        Bool.false_eq_true, ↓reduceIte]
      refine filter_key_goal _ _ (hashmap_frames_left fs)
        (hashmap_tree_keys (.node rl rh rk rc rr) ++ hashmap_frames_right fs) ph key hnd
        (by rw [hkeys]; simp [hashmap_tree_keys]) ?_
      have hk : ∀ x, hashmap_tree_keys x = hashmap_tree_keys (HashmapTree.node rl rh rk rc rr) →
          hashmap_tree_keys (hashmap_treenode_root fs x) = hashmap_frames_left fs ++
            (hashmap_tree_keys (.node rl rh rk rc rr) ++ hashmap_frames_right fs) := by
        intro x hx
        rw [tree_keys_root, hx, List.append_assoc]
      have hx : hashmap_tree_keys (if fs.isEmpty = true then
          hashmap_treenode_set_red (HashmapTree.node rl rh rk rc rr) false
          else .node rl rh rk rc rr) = hashmap_tree_keys (HashmapTree.node rl rh rk rc rr) := by
        split
        · rw [tree_keys_set_red]
        · rfl
      split
      · exact hk _ hx
      · rw [tree_keys_balance_deletion]
        exact hk _ hx
  | node ll lh lk lc lr =>
    cases pr with
    | nil =>
      simp only [hashmap_treenode_null, Bool.not_true, Bool.not_false, Bool.and_false,
        Bool.false_eq_true, ↓reduceIte]
      refine filter_key_goal _ _
        (hashmap_frames_left fs ++ hashmap_tree_keys (.node ll lh lk lc lr))
        (hashmap_frames_right fs) ph key hnd
        (by rw [hkeys]; simp [hashmap_tree_keys]) ?_
      have hk : ∀ x, hashmap_tree_keys x = hashmap_tree_keys (HashmapTree.node ll lh lk lc lr) →
          hashmap_tree_keys (hashmap_treenode_root fs x) = hashmap_frames_left fs ++
            hashmap_tree_keys (.node ll lh lk lc lr) ++ hashmap_frames_right fs := by
        intro x hx
        rw [tree_keys_root, hx]
      have hx : hashmap_tree_keys (if fs.isEmpty = true then
          hashmap_treenode_set_red (HashmapTree.node ll lh lk lc lr) false
          else .node ll lh lk lc lr) = hashmap_tree_keys (HashmapTree.node ll lh lk lc lr) := by
        split
        · rw [tree_keys_set_red]
        · rfl
      split
      · exact hk _ hx
      · rw [tree_keys_balance_deletion]
        exact hk _ hx
    | node rl rh rk rc rr =>
      simp only [hashmap_treenode_null, Bool.not_false, Bool.and_self, ↓reduceIte]
      obtain ⟨hl1, hl2, hl3⟩ := treenode_leftmost_spec (.node rl rh rk rc rr) []
      obtain ⟨sh, sk, sc, sr, hs⟩ := hl3 (by simp)
      generalize hashmap_treenode_leftmost [] (.node rl rh rk rc rr) = ls at hl1 hl2 hs ⊢
      obtain ⟨gs, s⟩ := ls
      simp only at hs hl1 hl2
      subst hs
      simp only [hashmap_treenode_root] at hl1
      simp only [hashmap_frames_left] at hl2
      have hpr : hashmap_tree_keys (.node rl rh rk rc rr) =
          (sh, sk) :: hashmap_tree_keys sr ++ hashmap_frames_right gs := by
        rw [← hl1, tree_keys_root, hl2]
        simp [hashmap_tree_keys]
      rw [hpr] at hkeys
      have hF : ∀ x, hashmap_tree_keys (hashmap_treenode_root
          (gs ++ { dir := true, hash := sh, key := sk, red := pc,
                   other := .node ll lh lk lc lr } :: fs) x) =
          hashmap_frames_left fs ++ (hashmap_tree_keys (.node ll lh lk lc lr) ++
            (sh, sk) :: (hashmap_tree_keys x ++ hashmap_frames_right gs)) ++
            hashmap_frames_right fs := by
        intro x
        rw [treenode_root_append]
        simp only [hashmap_treenode_root]
        rw [tree_keys_root, tree_keys_up, tree_keys_root, hl2]
        simp
      simp only
      cases sr with
      | nil =>
        simp only [hashmap_treenode_null, Bool.not_true, Bool.false_eq_true, ↓reduceIte]
        have hdet := treenode_detach_spec key
          (if sc = true then
            hashmap_treenode_root
              (gs ++ { dir := true, hash := sh, key := sk, red := pc,
                       other := .node ll lh lk lc lr } :: fs) (.node .nil ph key sc .nil)
          else
            hashmap_treenode_balance_deletion
              (gs ++ { dir := true, hash := sh, key := sk, red := pc,
                       other := .node ll lh lk lc lr } :: fs) (.node .nil ph key sc .nil))
        have hkr : hashmap_tree_keys (if sc = true then
            hashmap_treenode_root
              (gs ++ { dir := true, hash := sh, key := sk, red := pc,
                       other := .node ll lh lk lc lr } :: fs) (.node .nil ph key sc .nil)
          else
            hashmap_treenode_balance_deletion
              (gs ++ { dir := true, hash := sh, key := sk, red := pc,
                       other := .node ll lh lk lc lr } :: fs) (.node .nil ph key sc .nil)) =
            (hashmap_frames_left fs ++ (hashmap_tree_keys (.node ll lh lk lc lr) ++ [(sh, sk)])) ++
              (ph, key) :: (hashmap_frames_right gs ++ hashmap_frames_right fs) := by
          split
          · rw [hF]
            simp [hashmap_tree_keys]
          · rw [tree_keys_balance_deletion, hF]
            simp [hashmap_tree_keys]
        have hperm : ((hashmap_frames_left fs ++
            (hashmap_tree_keys (.node ll lh lk lc lr) ++ [(sh, sk)])) ++
              (ph, key) :: (hashmap_frames_right gs ++ hashmap_frames_right fs)).Perm
            (hashmap_tree_keys t) := by
          rw [hkeys]
          simp only [hashmap_tree_keys, List.append_assoc, List.cons_append, List.nil_append,
            List.singleton_append]
          refine List.Perm.append_left _ (List.Perm.append_left _ (List.Perm.cons _
            (List.Perm.append_left _ ?_)))
          exact List.Perm.swap _ _ _
        have hnd2 := (List.Perm.nodup_iff (hperm.map Prod.snd)).2 hnd
        rw [hdet (by rw [hkr]; exact hnd2)
          (by
            split
            · exact tree_leaf_root key _ _ (by simp [HTreeLeaf])
            · exact tree_leaf_balance_deletion_loop key _ _ _ (by simp [HTreeLeaf]))
          (by rw [hkr, hperm.length_eq]; exact hlen)]
        rw [hkr, filter_key_middle _ _ (ph, key) hnd2]
        refine filter_key_goal _ _ (hashmap_frames_left fs ++ hashmap_tree_keys (.node ll lh lk lc lr))
          ((sh, sk) :: (hashmap_frames_right gs ++ hashmap_frames_right fs)) ph key hnd
          (by rw [hkeys]; simp [hashmap_tree_keys]) ?_
        simp
      | node sl2 sh2 sk2 sc2 sr2 =>
        simp only [hashmap_treenode_null, Bool.not_false, ↓reduceIte]
        refine filter_key_goal _ _ (hashmap_frames_left fs ++ hashmap_tree_keys (.node ll lh lk lc lr))
          ((sh, sk) :: (hashmap_tree_keys (.node sl2 sh2 sk2 sc2 sr2) ++
            hashmap_frames_right gs ++ hashmap_frames_right fs)) ph key hnd
          (by rw [hkeys]; simp [hashmap_tree_keys]) ?_
        split
        · rw [hF]
          simp
        · rw [tree_keys_balance_deletion, hF]
          simp
/-! ## The chain and the tree of a bin of tree nodes -/

theorem node_matches_iff {K V : Type} [KeyHash K] [KeyOrd K] (P : K → Prop)
    (heq : ∀ a b : K, P a → P b → KeyHash.keyCmp a b = 0 → a = b) (key : K) (hk : P key)
    (e : HashmapNode K V) (he : P e.key) (hh : e.hash = hash_val e.key) :
    hashmap_node_matches (hash_val key) key e = true ↔ e.key = key := by
  unfold hashmap_node_matches
  simp only [Bool.and_eq_true, beq_iff_eq]
  constructor
  · intro h
    exact (heq _ _ hk he h.2).symm
  · intro h
    subst h
    exact ⟨hh, cmpord_refl KeyOrd.ord _⟩

theorem findIdx_congr {α : Type} (p q : α → Bool) :
    ∀ (l : List α), (∀ x ∈ l, p x = q x) → l.findIdx? p = l.findIdx? q := by
  have key : ∀ (l : List α) (i : Nat), (∀ x ∈ l, p x = q x) →
      l.findIdx? p i = l.findIdx? q i := by
    intro l
    induction l with
    | nil => intro _ _; rfl
    | cons x xs ih =>
      intro i h
      simp only [List.findIdx?_cons]
      rw [h x (List.mem_cons_self _ _), ih _ (fun y hy => h y (List.mem_cons_of_mem _ hy))]
  intro l h
  exact key l 0 h

theorem findIdx_key_some {K V : Type} [DecidableEq K] (key : K) :
    ∀ (bin : List (HashmapNode K V)), key ∈ bin.map (fun e => e.key) →
      ∃ idx, bin.findIdx? (fun e => decide (e.key = key)) = some idx := by
  intro bin hm
  cases hf : bin.findIdx? (fun e => decide (e.key = key)) with
  | some idx => exact ⟨idx, rfl⟩
  | none =>
    rw [List.findIdx?_eq_none_iff] at hf
    obtain ⟨e, he, hke⟩ := List.mem_map.1 hm
    have := hf e he
    simp only [decide_eq_false_iff_not] at this
    exact absurd hke this

theorem findIdx_key_none {K V : Type} [DecidableEq K] (key : K)
    (bin : List (HashmapNode K V)) (hm : key ∉ bin.map (fun e => e.key)) :
    bin.findIdx? (fun e => decide (e.key = key)) = none := by
  rw [List.findIdx?_eq_none_iff]
  intro e he
  simp only [decide_eq_false_iff_not]
  intro hke
  exact hm (List.mem_map.2 ⟨e, he, hke⟩)

theorem tree_ok_mem {K V : Type} [KeyHash K] {cmp : K → K → Int} (bin : List (HashmapNode K V))
    (t : HashmapTree K) (hok : HTreeOk cmp bin t)
    (hh : ∀ e ∈ bin, e.hash = hash_val e.key) (h : Nat) (k : K) :
    (h, k) ∈ hashmap_tree_keys t ↔ (k ∈ bin.map (fun e => e.key) ∧ h = hash_val k) := by
  rw [hok.2.mem_iff]
  simp only [List.mem_map, Prod.mk.injEq]
  constructor
  · rintro ⟨e, he, h1, h2⟩
    subst h2
    exact ⟨⟨e, he, rfl⟩, by rw [← h1, hh e he]⟩
  · rintro ⟨⟨e, he, h1⟩, h2⟩
    subst h1
    exact ⟨e, he, by rw [h2, hh e he], rfl⟩

theorem treebin_find_spec {K V : Type} [DecidableEq K] [KeyHash K] [KeyOrd K] (P : K → Prop)
    (heq : ∀ a b : K, P a → P b → KeyHash.keyCmp a b = 0 → a = b) (key : K) (hk : P key)
    (bin : List (HashmapNode K V)) (hP : ∀ e ∈ bin, P e.key)
    (hh : ∀ e ∈ bin, e.hash = hash_val e.key) (t : HashmapTree K)
    (hok : HTreeOk KeyHash.keyCmp bin t) :
    hashmap_treebin_find KeyHash.keyCmp (hashmap_node_matches (hash_val key) key) t bin
      (hash_val key) key = bin.findIdx? (fun e => decide (e.key = key)) := by
  unfold hashmap_treebin_find
  cases bin with
  | nil => rfl
  | cons first rest =>
    simp only
    have hfm := node_matches_iff P heq key hk first (hP first (List.mem_cons_self _ _))
      (hh first (List.mem_cons_self _ _))
    by_cases hf : hashmap_node_matches (hash_val key) key first = true
    · rw [if_pos hf]
      simp [List.findIdx?_cons, hfm.1 hf]
    · rw [if_neg hf]
      have hne : ¬ first.key = key := fun h => hf (hfm.2 h)
      by_cases hr : rest.isEmpty = true
      · rw [if_pos hr]
        rw [List.isEmpty_iff] at hr
        subst hr
        simp [List.findIdx?_cons, hne]
      · rw [if_neg hr]
        cases hfind : hashmap_treenode_find KeyHash.keyCmp (hash_val key) key t with
        | none =>
          simp only
          symm
          apply findIdx_key_none
          intro hm
          have hin := (tree_ok_mem _ t hok hh (hash_val key) key).2 ⟨hm, rfl⟩
          obtain ⟨pk, hpk⟩ := treenode_find_complete KeyOrd.ord (hash_val key) key t hok.1 key hin
            (cmpord_refl KeyOrd.ord key)
          rw [hfind] at hpk
          cases hpk
        | some pk =>
          simp only
          obtain ⟨h1, h2⟩ := treenode_find_sound _ _ _ t pk hfind
          have h3 := ((tree_ok_mem _ t hok hh (hash_val key) pk).1 h1).1
          obtain ⟨e, he, hke⟩ := List.mem_map.1 h3
          have : key = pk := heq _ _ hk (by rw [← hke]; exact hP e he) h2
          rw [this]

theorem bin_find_spec {K V : Type} [DecidableEq K] [KeyHash K] [KeyOrd K] (P : K → Prop)
    (heq : ∀ a b : K, P a → P b → KeyHash.keyCmp a b = 0 → a = b) (key : K) (hk : P key)
    (bin : List (HashmapNode K V)) (hP : ∀ e ∈ bin, P e.key)
    (hh : ∀ e ∈ bin, e.hash = hash_val e.key) (tree : Option (HashmapTree K))
    (hok : ∀ t, tree = some t → HTreeOk KeyHash.keyCmp bin t) :
    hashmap_bin_find KeyHash.keyCmp (hashmap_node_matches (hash_val key) key) tree bin
      (hash_val key) key = bin.findIdx? (fun e => decide (e.key = key)) := by
  unfold hashmap_bin_find
  cases tree with
  | none =>
    simp only
    apply findIdx_congr
    intro e he
    have := node_matches_iff P heq key hk e (hP e he) (hh e he)
    by_cases h : e.key = key
    · simp [h, this.2 h]
    · simp only [h, decide_False]
      cases hm : hashmap_node_matches (hash_val key) key e with
      | false => rfl
      | true => exact absurd (this.1 hm) h
  | some t => exact treebin_find_spec P heq key hk bin hP hh t (hok t rfl)

theorem tree_sorted_nodup {K : Type} {cmp : K → K → Int} (ho : CmpOrd cmp) (t : HashmapTree K)
    (hs : HTreeSorted cmp t) : (hashmap_tree_keys t).Nodup := by
  unfold HTreeSorted at hs
  unfold List.Nodup
  refine hs.imp ?_
  intro a b hab he
  subst he
  exact tree_lt_irrefl ho a hab

theorem treebin_put_spec {K V : Type} [DecidableEq K] [KeyHash K] [KeyOrd K] (P : K → Prop)
    (heq : ∀ a b : K, P a → P b → KeyHash.keyCmp a b = 0 → a = b) (key : K) (hk : P key)
    (val : V) (bin : List (HashmapNode K V)) (hP : ∀ e ∈ bin, P e.key)
    (hh : ∀ e ∈ bin, e.hash = hash_val e.key) (t : HashmapTree K)
    (hok : HTreeOk KeyHash.keyCmp bin t) (hne : bin ≠ []) :
    (∃ idx, bin.findIdx? (fun e => decide (e.key = key)) = some idx ∧
      hashmap_treebin_put KeyHash.keyCmp (hashmap_node_matches (hash_val key) key) t bin
        { hash := hash_val key, key := key, val := val } = .inl idx) ∨
    (key ∉ bin.map (fun e => e.key) ∧
      ∃ r, hashmap_treebin_put KeyHash.keyCmp (hashmap_node_matches (hash_val key) key) t bin
        { hash := hash_val key, key := key, val := val } = .inr r ∧
        HTreeOk KeyHash.keyCmp r.1 r.2 ∧
        r.1.Perm ({ hash := hash_val key, key := key, val := val } :: bin)) := by
  unfold hashmap_treebin_put
  cases bin with
  | nil => exact absurd rfl hne
  | cons first rest =>
    simp only
    have hfm := node_matches_iff P heq key hk first (hP first (List.mem_cons_self _ _))
      (hh first (List.mem_cons_self _ _))
    by_cases hf : hashmap_node_matches (hash_val key) key first = true
    · rw [if_pos hf]
      exact Or.inl ⟨0, by simp [List.findIdx?_cons, hfm.1 hf], rfl⟩
    · rw [if_neg hf]
      have hspec := treenode_put_descend_spec KeyOrd.ord (hash_val key) key t []
        (by simp [hashmap_frames_left]) (by simp [hashmap_frames_right]) hok.1
      cases hd : hashmap_treenode_put_descend KeyHash.keyCmp (hash_val key) key [] t with
      | mk o fs =>
        cases o with
        | some pk =>
          simp only
          obtain ⟨h1, h2⟩ := hspec.1 pk fs hd
          have h3 := ((tree_ok_mem _ t hok hh (hash_val key) pk).1 h1).1
          obtain ⟨e, he, hke⟩ := List.mem_map.1 h3
          have hkey : key = pk := heq _ _ hk (by rw [← hke]; exact hP e he) h2
          subst hkey
          obtain ⟨idx, hidx⟩ := findIdx_key_some key (first :: rest) h3
          exact Or.inl ⟨idx, hidx, by rw [hidx]; rfl⟩
        | none =>
          simp only
          obtain ⟨h1, h2⟩ := tree_insert_spec KeyOrd.ord (hash_val key) key t hok.1 fs hd
          have hnot : key ∉ (first :: rest).map (fun e => e.key) := by
            intro hm
            have hin := (tree_ok_mem _ t hok hh (hash_val key) key).2 ⟨hm, rfl⟩
            have hnd := (List.Perm.nodup_iff h2).1 (tree_sorted_nodup KeyOrd.ord _ h1)
            rw [List.nodup_cons] at hnd
            exact hnd.1 hin
          refine Or.inr ⟨hnot, _, rfl, ?_⟩
          exact treenode_put_new_ok KeyOrd.ord (first :: rest) t
            { hash := hash_val key, key := key, val := val } hok fs hd

theorem eraseIdx_eq_filter {K V : Type} [DecidableEq K] :
    ∀ (l : List (HashmapNode K V)) (idx : Nat) (e : HashmapNode K V),
      (l.map (fun e => e.key)).Nodup → l.get? idx = some e →
      l.eraseIdx idx = l.filter (fun x => !decide (x.key = e.key)) := by
  intro l
  induction l with
  | nil => intro idx e _ h; simp at h
  | cons x xs ih =>
    intro idx e hnd hget
    simp only [List.map_cons, List.nodup_cons] at hnd
    cases idx with
    | zero =>
      simp only [List.get?_cons_zero, Option.some.injEq] at hget
      subst hget
      simp only [List.eraseIdx_cons_zero, List.filter_cons, decide_True, Bool.not_true,
        Bool.false_eq_true, ↓reduceIte]
      symm
      rw [List.filter_eq_self]
      intro y hy
      simp only [Bool.not_eq_eq_eq_not, Bool.not_true, decide_eq_false_iff_not]
      intro hk
      exact hnd.1 (List.mem_map.2 ⟨y, hy, hk⟩)
    | succ n =>
      simp only [List.get?_cons_succ] at hget
      have hne : x.key ≠ e.key := by
        intro hk
        have : e ∈ xs := List.get?_mem hget
        exact hnd.1 (List.mem_map.2 ⟨e, this, hk.symm⟩)
      simp only [List.eraseIdx_cons_succ, List.filter_cons, hne, decide_False, Bool.not_false,
        ↓reduceIte]
      rw [ih n e hnd.2 hget]

theorem tree_ok_filter {K V : Type} {cmp : K → K → Int} (bin : List (HashmapNode K V))
    (t t1 : HashmapTree K) (hok : HTreeOk cmp bin t) (p : K → Bool)
    (hk : hashmap_tree_keys t1 = (hashmap_tree_keys t).filter (fun q => p q.2)) :
    HTreeOk cmp (bin.filter (fun e => p e.key)) t1 := by
  unfold HTreeOk HTreeSorted at *
  rw [hk]
  refine ⟨hok.1.filter _, ?_⟩
  have := hok.2.filter (fun q => p q.2)
  refine this.trans ?_
  rw [List.filter_map]
  rfl

theorem tree_ok_perm {K V : Type} {cmp : K → K → Int} (bin bin1 : List (HashmapNode K V))
    (t : HashmapTree K) (hok : HTreeOk cmp bin t) (hp : bin1.Perm bin) : HTreeOk cmp bin1 t :=
  ⟨hok.1, hok.2.trans (hp.map _).symm⟩

theorem treenode_remove_tree_node_spec {K V : Type} [DecidableEq K] {cmp : K → K → Int}
    (bin : List (HashmapNode K V)) (t : HashmapTree K) (hok : HTreeOk cmp bin t)
    (hnd : (bin.map (fun e => e.key)).Nodup) (idx : Nat) (e : HashmapNode K V)
    (hget : bin.get? idx = some e) (movable : Bool) :
    (hashmap_treenode_remove_tree_node bin t idx movable).1.Perm (bin.eraseIdx idx) ∧
    ∀ t1, (hashmap_treenode_remove_tree_node bin t idx movable).2 = some t1 →
      HTreeOk cmp (hashmap_treenode_remove_tree_node bin t idx movable).1 t1 := by
  unfold hashmap_treenode_remove_tree_node
  rw [hget]
  simp only
  split
  · rename_i he
    rw [List.isEmpty_iff] at he
    rw [he]
    exact ⟨List.Perm.refl _, fun t1 h => by cases h⟩
  · rename_i he
    split
    · exact ⟨List.Perm.refl _, fun t1 h => by cases h⟩
    · have hlen : 2 ≤ (hashmap_tree_keys t).length := by
        rw [hok.2.length_eq, List.length_map]
        have h1 : idx < bin.length := (List.get?_eq_some.1 hget).1
        have h2 : (bin.eraseIdx idx).length ≠ 0 := by
          intro h0
          exact he (by rw [List.isEmpty_iff]; exact List.length_eq_zero.1 h0)
        rw [List.length_eraseIdx, if_pos h1] at h2
        omega
      have hmap : (hashmap_tree_keys t).map Prod.snd = ((bin.map (fun e => (e.hash, e.key))).map Prod.snd) → True := fun _ => trivial
      have hpk : ((hashmap_tree_keys t).map Prod.snd).Perm (bin.map (fun e => e.key)) := by
        have := hok.2.map Prod.snd
        rw [List.map_map] at this
        exact this
      have hspec := treenode_remove_spec e.key t ((List.Perm.nodup_iff hpk).2 hnd)
        (hpk.mem_iff.2 (List.mem_map.2 ⟨e, List.get?_mem hget, rfl⟩)) hlen
      have hok1 : HTreeOk cmp (bin.eraseIdx idx) (hashmap_treenode_remove e.key t) := by
        rw [eraseIdx_eq_filter bin idx e hnd hget]
        exact tree_ok_filter bin t _ hok (fun k => !decide (k = e.key)) hspec
      constructor
      · split
        · exact treenode_move_root_to_front_perm _ _
        · exact List.Perm.refl _
      · intro t1 ht1
        simp only [Option.some.injEq] at ht1
        subst ht1
        split
        · exact tree_ok_perm _ _ _ hok1 (treenode_move_root_to_front_perm _ _)
        · exact hok1
/-! ## The fuel of the balancing loops is never used up -/

theorem treenode_left_length {K : Type} (fs : List (HashmapTreeFrame K)) (x : HashmapTree K) :
    (hashmap_treenode_left fs x).1.length ≤ fs.length + 1 := by
  cases x with
  | nil => simp [hashmap_treenode_left]
  | node l h k c r => simp [hashmap_treenode_left]

theorem treenode_right_length {K : Type} (fs : List (HashmapTreeFrame K)) (x : HashmapTree K) :
    (hashmap_treenode_right fs x).1.length ≤ fs.length + 1 := by
  cases x with
  | nil => simp [hashmap_treenode_right]
  | node l h k c r => simp [hashmap_treenode_right]

/-- One more round of fuel does not change the result of the loop of
`hashmap_treenode_balance_insertion` when the fuel is above the number of
ancestors by two: the loop ends before the fuel does. -/
theorem balance_insertion_loop_fuel {K : Type} (fuel : Nat) :
    ∀ (fs : List (HashmapTreeFrame K)) (x : HashmapTree K), fs.length + 2 ≤ fuel →
      hashmap_treenode_balance_insertion_loop (fuel + 1) fs x =
        hashmap_treenode_balance_insertion_loop fuel fs x := by
  induction fuel with
  | zero => intro fs x h; omega
  | succ n ih =>
    intro fs x h
    unfold hashmap_treenode_balance_insertion_loop
    cases fs with
    | nil => rfl
    | cons xp fs1 =>
      simp only []
      by_cases hr : (!xp.red) = true
      · rw [if_pos hr, if_pos hr]
      · rw [if_neg hr, if_neg hr]
        cases fs1 with
        | nil => rfl
        | cons xpp fs2 =>
          simp only [List.length_cons] at h
          simp only []
          have hrec := ih fs2 (hashmap_treenode_up
              { xpp with red := true, other := hashmap_treenode_set_red xpp.other false }
              (hashmap_treenode_up { xp with red := false } x)) (by omega)
          by_cases hd : xpp.dir = false
          · rw [if_pos hd, if_pos hd]
            by_cases hc : hashmap_treenode_red xpp.other = true
            · rw [if_pos hc, if_pos hc]
              exact hrec
            · rw [if_neg hc, if_neg hc]
              generalize hfx : (if xp.dir = true then
                hashmap_treenode_left (xpp :: fs2)
                  (hashmap_treenode_rotate_left (xpp :: fs2) (hashmap_treenode_up xp x))
                else (xp :: xpp :: fs2, x)) = fx
              have hlen : fx.1.length ≤ fs2.length + 2 := by
                rw [← hfx]
                split
                · exact treenode_left_length _ _
                · simp
              obtain ⟨f1, x1⟩ := fx
              dsimp only at hlen ⊢
              cases f1 with
              | nil => exact ih _ _ (by simp only [List.length_nil]; omega)
              | cons p f2 =>
                cases f2 with
                | nil => exact ih _ _ (by simp only [List.length_cons, List.length_nil]; omega)
                | cons g up =>
                  simp only [List.length_cons] at hlen
                  exact ih _ _ (by
                    have := treenode_left_length up (hashmap_treenode_rotate_right up
                      (hashmap_treenode_up { g with red := true }
                        (hashmap_treenode_up { p with red := false } x1)))
                    omega)
          · rw [if_neg hd, if_neg hd]
            by_cases hc : hashmap_treenode_red xpp.other = true
            · rw [if_pos hc, if_pos hc]
              exact hrec
            · rw [if_neg hc, if_neg hc]
              generalize hfx : (if xp.dir = false then
                hashmap_treenode_right (xpp :: fs2)
                  (hashmap_treenode_rotate_right (xpp :: fs2) (hashmap_treenode_up xp x))
                else (xp :: xpp :: fs2, x)) = fx
              have hlen : fx.1.length ≤ fs2.length + 2 := by
                rw [← hfx]
                split
                · exact treenode_right_length _ _
                · simp
              obtain ⟨f1, x1⟩ := fx
              dsimp only at hlen ⊢
              cases f1 with
              | nil => exact ih _ _ (by simp only [List.length_nil]; omega)
              | cons p f2 =>
                cases f2 with
                | nil => exact ih _ _ (by simp only [List.length_cons, List.length_nil]; omega)
                | cons g up =>
                  simp only [List.length_cons] at hlen
                  exact ih _ _ (by
                    have := treenode_right_length up (hashmap_treenode_rotate_left up
                      (hashmap_treenode_up { g with red := true }
                        (hashmap_treenode_up { p with red := false } x1)))
                    omega)

/-- The function `hashmap_treenode_balance_insertion` gives the result of its
loop for every larger fuel. -/
theorem balance_insertion_fuel {K : Type} (fs : List (HashmapTreeFrame K)) (x : HashmapTree K)
    (n : Nat) :
    hashmap_treenode_balance_insertion_loop (fs.length + 2 + n) fs
        (hashmap_treenode_set_red x true) =
      hashmap_treenode_balance_insertion fs x := by
  unfold hashmap_treenode_balance_insertion
  induction n with
  | zero => rfl
  | succ n ih =>
    rw [← ih]
    exact balance_insertion_loop_fuel (fs.length + 2 + n) fs _ (by omega)

theorem treenode_red_up {K : Type} (f : HashmapTreeFrame K) (x : HashmapTree K) :
    hashmap_treenode_red (hashmap_treenode_up f x) = f.red := by
  unfold hashmap_treenode_up
  split <;> rfl

theorem red_sibling_right_length {K : Type} (xp : HashmapTreeFrame K)
    (rest : List (HashmapTreeFrame K)) :
    (hashmap_treenode_red_sibling_right xp rest).2.length = rest.length ∨
      ((hashmap_treenode_red_sibling_right xp rest).2.length = rest.length + 1 ∧
        (hashmap_treenode_red_sibling_right xp rest).1.red = true) := by
  unfold hashmap_treenode_red_sibling_right
  split
  · right
    exact ⟨by simp, rfl⟩
  · left
    rfl

theorem red_sibling_left_length {K : Type} (xp : HashmapTreeFrame K)
    (rest : List (HashmapTreeFrame K)) :
    (hashmap_treenode_red_sibling_left xp rest).2.length = rest.length ∨
      ((hashmap_treenode_red_sibling_left xp rest).2.length = rest.length + 1 ∧
        (hashmap_treenode_red_sibling_left xp rest).1.red = true) := by
  unfold hashmap_treenode_red_sibling_left
  split
  · right
    exact ⟨by simp, rfl⟩
  · left
    rfl

/-- One more round of fuel does not change the result of the loop of
`hashmap_treenode_balance_deletion` when the fuel is above the number of
ancestors by two, or `x` is red and there is fuel for one round: the loop ends
before the fuel does. -/
theorem balance_deletion_loop_fuel {K : Type} (fuel : Nat) :
    ∀ (fs : List (HashmapTreeFrame K)) (x : HashmapTree K),
      fs.length + 2 ≤ fuel ∨ (1 ≤ fuel ∧ hashmap_treenode_red x = true) →
      hashmap_treenode_balance_deletion_loop (fuel + 1) fs x =
        hashmap_treenode_balance_deletion_loop fuel fs x := by
  induction fuel with
  | zero => intro fs x h; omega
  | succ n ih =>
    intro fs x h
    unfold hashmap_treenode_balance_deletion_loop
    cases fs with
    | nil => rfl
    | cons xp0 rest =>
      simp only []
      by_cases hnull : hashmap_treenode_null x = true
      · rw [if_pos hnull, if_pos hnull]
      · rw [if_neg hnull, if_neg hnull]
        by_cases hred : hashmap_treenode_red x = true
        · rw [if_pos hred, if_pos hred]
        · rw [if_neg hred, if_neg hred]
          have hlen : rest.length + 2 ≤ n := by
            rcases h with h | h
            · simp only [List.length_cons] at h
              omega
            · exact absurd h.2 hred
          by_cases hd : xp0.dir = false
          · rw [if_pos hd, if_pos hd]
            have hxu := red_sibling_right_length xp0 rest
            generalize hashmap_treenode_red_sibling_right xp0 rest = xu at hxu
            obtain ⟨xp, fs1⟩ := xu
            dsimp only at hxu ⊢
            have hI : ∀ y, fs1.length + 2 ≤ n ∨
                (1 ≤ n ∧ hashmap_treenode_red (hashmap_treenode_up
                  { xp with other := y } x) = true) := by
              intro y
              rcases hxu with hxu | hxu
              · left
                omega
              · right
                rw [treenode_red_up]
                exact ⟨by omega, hxu.2⟩
            cases ho : xp.other with
            | nil =>
              dsimp only
              have := hI xp.other
              exact ih _ _ this
            | node sl sh sk sc sr =>
              dsimp only
              by_cases hb : (!hashmap_treenode_red sr && !hashmap_treenode_red sl) = true
              · rw [if_pos hb, if_pos hb]
                exact ih _ _ (hI _)
              · rw [if_neg hb, if_neg hb]
                exact ih _ _ (Or.inl (by simp only [List.length_nil]; omega))
          · rw [if_neg hd, if_neg hd]
            have hxu := red_sibling_left_length xp0 rest
            generalize hashmap_treenode_red_sibling_left xp0 rest = xu at hxu
            obtain ⟨xp, fs1⟩ := xu
            dsimp only at hxu ⊢
            have hI : ∀ y, fs1.length + 2 ≤ n ∨
                (1 ≤ n ∧ hashmap_treenode_red (hashmap_treenode_up
                  { xp with other := y } x) = true) := by
              intro y
              rcases hxu with hxu | hxu
              · left
                omega
              · right
                rw [treenode_red_up]
                exact ⟨by omega, hxu.2⟩
            cases ho : xp.other with
            | nil =>
              dsimp only
              have := hI xp.other
              exact ih _ _ this
            | node sl sh sk sc sr =>
              dsimp only
              by_cases hb : (!hashmap_treenode_red sl && !hashmap_treenode_red sr) = true
              · rw [if_pos hb, if_pos hb]
                exact ih _ _ (hI _)
              · rw [if_neg hb, if_neg hb]
                exact ih _ _ (Or.inl (by simp only [List.length_nil]; omega))

/-- The function `hashmap_treenode_balance_deletion` gives the result of its
loop for every larger fuel. -/
theorem balance_deletion_fuel {K : Type} (fs : List (HashmapTreeFrame K)) (x : HashmapTree K)
    (n : Nat) :
    hashmap_treenode_balance_deletion_loop (fs.length + 2 + n) fs x =
      hashmap_treenode_balance_deletion fs x := by
  unfold hashmap_treenode_balance_deletion
  induction n with
  | zero => rfl
  | succ n ih =>
    rw [← ih]
    exact balance_deletion_loop_fuel (fs.length + 2 + n) fs _ (Or.inl (by omega))

/-! ## A bin of tree nodes, evaluated -/

/-- The keys 0, 64, ..., 640 with the values 0, ..., 10 in a map with the
callbacks of `unsigned int` keys: all fall into bin 0; the ninth and the tenth
`hashmap_put` find a chain of 8 nodes in a table of fewer than 64 bins and
resize, the eleventh converts the bin into a tree whose root 192 is moved to
the front of the chain, and every key is found with its value.  Removing the
root 192 puts its successor 256 in its place; removing 0, 64 and 128 after it
finds the left side of the tree too small and makes the bin a chain again. -/
theorem hashmap_tree_bin_example :
    ((List.range 11).foldlM (fun (m : Hashmap Nat Nat) j =>
        (hashmap_put m (64 * j) j).map Prod.fst) hashmap_init).toOption.map
      (fun m => ((hashmap_tree_get m.trees 0).isSome, m.table.length, m.size,
        (hashmap_items m).map (fun e => e.key),
        (List.range 12).map (fun j => hashmap_get m (64 * j))))
      = some (true, 64, 11, [192, 0, 64, 128, 256, 320, 384, 448, 512, 576, 640],
          [some 0, some 1, some 2, some 3, some 4, some 5, some 6, some 7, some 8, some 9,
            some 10, none]) ∧
    ((List.range 11).foldlM (fun (m : Hashmap Nat Nat) j =>
        (hashmap_put m (64 * j) j).map Prod.fst) hashmap_init).toOption.map
      (fun m => ((hashmap_tree_get (hashmap_remove m 192).1.trees 0).isSome,
        (hashmap_remove m 192).1.size,
        (hashmap_items (hashmap_remove m 192).1).map (fun e => e.key),
        hashmap_get (hashmap_remove m 192).1 192, hashmap_get (hashmap_remove m 192).1 256))
      = some (true, 10, [256, 0, 64, 128, 320, 384, 448, 512, 576, 640], none, some 4) ∧
    ((List.range 11).foldlM (fun (m : Hashmap Nat Nat) j =>
        (hashmap_put m (64 * j) j).map Prod.fst) hashmap_init).toOption.map
      (fun m =>
        ((hashmap_tree_get
            ([192, 0, 64, 128].foldl (fun m k => (hashmap_remove m k).1) m).trees 0).isSome,
          (hashmap_items ([192, 0, 64, 128].foldl (fun m k => (hashmap_remove m k).1) m)).map
            (fun e => e.key)))
      = some (false, [256, 320, 384, 448, 512, 576, 640]) := by
  refine ⟨?_, ?_, ?_⟩ <;> rfl

/-! ## Inverting the steps of a computation -/

theorem bind_ok {α β : Type} {a : Except Err α} {f : α → Except Err β} {r : β}
    (h : (a >>= f) = .ok r) : ∃ x, a = .ok x ∧ f x = .ok r := by
  cases a with
  | error e => simp at h
  | ok x => exact ⟨x, rfl, h⟩

theorem foldlM_inv {α β : Type} (f : β → α → Except Err β) (Inv : β → Prop) :
    ∀ (l : List α) (b r : β), l.foldlM f b = .ok r → Inv b →
      (∀ b x b', x ∈ l → Inv b → f b x = .ok b' → Inv b') → Inv r := by
  intro l
  induction l with
  | nil =>
    intro b r h h0 _
    simp only [List.foldlM] at h
    cases h
    exact h0
  | cons x xs ih =>
    intro b r h h0 hstep
    simp only [List.foldlM] at h
    obtain ⟨b1, hb1, h1⟩ := bind_ok h
    exact ih b1 r h1 (hstep b x b1 (List.mem_cons_self _ _) h0 hb1)
      (fun b y b' hy hI hf => hstep b y b' (List.mem_cons_of_mem _ hy) hI hf)

/-! ## The keys of a hash map -/

theorem hkeys_init {K V : Type} (P : K → Prop) : HKeys P (hashmap_init : Hashmap K V) := by
  intro b hb
  simp [hashmap_init] at hb

theorem mem_set_cases {α : Type} {l : List α} {i : Nat} {a x : α} (h : x ∈ l.set i a) :
    x ∈ l ∨ x = a :=
  List.mem_or_eq_of_mem_set h

theorem hkeys_resize_bin {K V : Type} (P : K → Prop) (old_cap new_cap : Nat)
    (acc : List (List (HashmapNode K V))) (jb : Nat × List (HashmapNode K V))
    (hacc : ∀ b, b ∈ acc → ∀ e, e ∈ b → P e.key) (hjb : ∀ e, e ∈ jb.2 → P e.key) :
    ∀ b, b ∈ hashmap_resize_bin old_cap new_cap acc jb → ∀ e, e ∈ b → P e.key := by
  intro b hb e he
  unfold hashmap_resize_bin at hb
  split at hb
  · exact hacc b hb e he
  · rename_i e0 heq
    rcases mem_set_cases hb with h | h
    · exact hacc b h e he
    · subst h
      simp only [List.mem_singleton] at he
      subst he
      exact hjb e (by rw [heq]; exact List.mem_cons_self _ _)
  · rename_i bin _ _
    have hfilter : ∀ (p : HashmapNode K V → Bool) x, x ∈ jb.2.filter p → P x.key :=
      fun p x hx => hjb x (List.mem_of_mem_filter hx)
    have ht1 : ∀ b, b ∈ (if (jb.2.filter (fun e => e.hash &&& old_cap == 0)).isEmpty then acc
        else acc.set jb.1 (jb.2.filter (fun e => e.hash &&& old_cap == 0))) →
        ∀ e, e ∈ b → P e.key := by
      intro b hb e he
      split at hb
      · exact hacc b hb e he
      · rcases mem_set_cases hb with h | h
        · exact hacc b h e he
        · subst h
          exact hfilter _ e he
    simp only at hb
    split at hb
    · exact ht1 b hb e he
    · rcases mem_set_cases hb with h | h
      · exact ht1 b h e he
      · subst h
        exact hfilter _ e he

theorem treenode_treeify_mem {K V : Type} [DecidableEq K] (cmp : K → K → Int)
    (bin : List (HashmapNode K V)) (e : HashmapNode K V) :
    e ∈ (hashmap_treenode_treeify cmp bin).1 ↔ e ∈ bin :=
  (treenode_move_root_to_front_perm _ _).mem_iff

theorem hkeys_split_half {K V : Type} [DecidableEq K] (P : K → Prop) (cmp : K → K → Int)
    (st : List (List (HashmapNode K V)) × List (Nat × HashmapTree K)) (index : Nat)
    (part rest : List (HashmapNode K V)) (t : HashmapTree K)
    (hst : ∀ b, b ∈ st.1 → ∀ e, e ∈ b → P e.key) (hpart : ∀ e, e ∈ part → P e.key) :
    ∀ b, b ∈ (hashmap_treenode_split_half cmp st index part rest t).1 → ∀ e, e ∈ b → P e.key := by
  intro b hb e he
  unfold hashmap_treenode_split_half at hb
  split_ifs at hb
  · exact hst b hb e he
  · rcases mem_set_cases hb with h | h
    · exact hst b h e he
    · subst h
      exact hpart e he
  · rcases mem_set_cases hb with h | h
    · exact hst b h e he
    · subst h
      exact hpart e he
  · rcases mem_set_cases hb with h | h
    · exact hst b h e he
    · subst h
      exact hpart e ((treenode_treeify_mem cmp part e).1 he)

theorem hkeys_resize_step {K V : Type} [DecidableEq K] (P : K → Prop) (cmp : K → K → Int)
    (old_trees : List (Nat × HashmapTree K)) (old_cap new_cap : Nat)
    (st : List (List (HashmapNode K V)) × List (Nat × HashmapTree K))
    (jb : Nat × List (HashmapNode K V))
    (hst : ∀ b, b ∈ st.1 → ∀ e, e ∈ b → P e.key) (hjb : ∀ e, e ∈ jb.2 → P e.key) :
    ∀ b, b ∈ (hashmap_resize_step cmp old_trees old_cap new_cap st jb).1 →
      ∀ e, e ∈ b → P e.key := by
  unfold hashmap_resize_step
  split
  · exact hkeys_resize_bin P old_cap new_cap st.1 jb hst hjb
  · split
    · exact hst
    · rename_i e0 heq
      intro b hb e he
      rcases mem_set_cases hb with h | h
      · exact hst b h e he
      · subst h
        simp only [List.mem_singleton] at he
        subst he
        exact hjb e (by rw [heq]; exact List.mem_cons_self _ _)
    · unfold hashmap_treenode_split
      have hfilter : ∀ (p : HashmapNode K V → Bool) x, x ∈ jb.2.filter p → P x.key :=
        fun p x hx => hjb x (List.mem_of_mem_filter hx)
      exact hkeys_split_half P cmp _ _ _ _ _
        (hkeys_split_half P cmp _ _ _ _ _ hst (hfilter _)) (hfilter _)

theorem hkeys_resize {K V : Type} [DecidableEq K] [KeyHash K] (P : K → Prop) (m : Hashmap K V)
    (h : HKeys P m) : HKeys P (hashmap_resize m) := by
  unfold hashmap_resize
  simp only
  split
  · exact h
  · intro b hb
    simp only at hb
    have key : ∀ (f : List (List (HashmapNode K V)) × List (Nat × HashmapTree K) →
          Nat × List (HashmapNode K V) → List (List (HashmapNode K V)) × List (Nat × HashmapTree K)),
        (∀ st jb, (∀ b, b ∈ st.1 → ∀ e, e ∈ b → P e.key) → (∀ e, e ∈ jb.2 → P e.key) →
          ∀ b, b ∈ (f st jb).1 → ∀ e, e ∈ b → P e.key) →
        ∀ (l : List (Nat × List (HashmapNode K V)))
          (acc : List (List (HashmapNode K V)) × List (Nat × HashmapTree K)),
        (∀ b, b ∈ acc.1 → ∀ e, e ∈ b → P e.key) → (∀ jb, jb ∈ l → ∀ e, e ∈ jb.2 → P e.key) →
        ∀ b, b ∈ (l.foldl f acc).1 → ∀ e, e ∈ b → P e.key := by
      intro f hf l
      induction l with
      | nil => intro acc hacc _ b hb; exact hacc b hb
      | cons jb l ih =>
        intro acc hacc hl b hb
        simp only [List.foldl] at hb
        exact ih _ (hf acc jb hacc (hl jb (List.mem_cons_self _ _)))
          (fun jb' hjb' => hl jb' (List.mem_cons_of_mem _ hjb')) b hb
    refine key _ (fun st jb => hkeys_resize_step P _ _ _ _ st jb) m.table.enum _ ?_ ?_ b hb
    · intro b hb e he
      rw [List.mem_replicate] at hb
      rw [hb.2] at he
      cases he
    · intro jb hjb e he
      obtain ⟨i, bin⟩ := jb
      have : bin ∈ m.table := by
        exact List.getElem?_mem (List.mk_mem_enum_iff_getElem?.1 hjb)
      exact h bin this e he

theorem hkeys_items {K V : Type} (P : K → Prop) (m : Hashmap K V) (h : HKeys P m) :
    ∀ e, e ∈ hashmap_items m → P e.key := by
  intro e he
  unfold hashmap_items at he
  split at he
  · obtain ⟨b, hb, heb⟩ := List.mem_flatten.1 he
    exact h b hb e heb
  · cases he

theorem hkeys_table_set {K V : Type} (P : K → Prop) (m : Hashmap K V) (h : HKeys P m)
    (i : Nat) (bin : List (HashmapNode K V)) (hbin : ∀ e, e ∈ bin → P e.key) :
    ∀ b, b ∈ m.table.set i bin → ∀ e, e ∈ b → P e.key := by
  intro b hb e he
  rcases mem_set_cases hb with h1 | h1
  · exact h b h1 e he
  · subst h1
    exact hbin e he

theorem hkeys_getD {K V : Type} (P : K → Prop) (m : Hashmap K V) (h : HKeys P m) (i : Nat) :
    ∀ e, e ∈ m.table.getD i [] → P e.key := by
  intro e he
  rw [List.getD_eq_getElem?_getD] at he
  cases hq : m.table[i]? with
  | none => rw [hq] at he; cases he
  | some b =>
    rw [hq] at he
    exact h b (List.getElem?_mem hq) e he

theorem mem_modify_key {K V : Type} (bin : List (HashmapNode K V)) (val : V) (idx : Nat) :
    ∀ e, e ∈ bin.modify (fun e => { e with val := val }) idx → ∃ e0, e0 ∈ bin ∧ e0.key = e.key := by
  induction bin generalizing idx with
  | nil => intro e he; cases idx <;> simp [List.modify] at he
  | cons x xs ih =>
    intro e he
    cases idx with
    | zero =>
      simp only [List.modify, List.modifyTailIdx, List.modifyHead, List.mem_cons] at he
      rcases he with h | h
      · exact ⟨x, List.mem_cons_self _ _, by rw [h]⟩
      · exact ⟨e, List.mem_cons_of_mem _ h, rfl⟩
    | succ n =>
      have he' : e = x ∨ e ∈ xs.modify (fun e => { e with val := val }) n := by
        simpa [List.modify, List.modifyTailIdx] using he
      rcases he' with h | h
      · exact ⟨x, List.mem_cons_self _ _, by rw [h]⟩
      · obtain ⟨e0, h0, h1⟩ := ih n e h
        exact ⟨e0, List.mem_cons_of_mem _ h0, h1⟩

theorem hkeys_set_val {K V : Type} [DecidableEq K] [KeyHash K] (P : K → Prop) (m : Hashmap K V)
    (h : HKeys P m) (k : K) (v : V) : HKeys P (hashmap_set_val m k v) := by
  unfold hashmap_set_val
  simp only
  split
  · exact h
  · split
    · refine hkeys_table_set P m h _ _ ?_
      intro e he
      obtain ⟨e0, h0, h1⟩ := mem_modify_key _ _ _ e he
      rw [← h1]
      exact hkeys_getD P m h _ e0 h0
    · exact h

theorem treenode_remove_tree_node_mem {K V : Type} [DecidableEq K]
    (bin : List (HashmapNode K V)) (t : HashmapTree K) (idx : Nat) (movable : Bool)
    (e : HashmapNode K V) (he : e ∈ (hashmap_treenode_remove_tree_node bin t idx movable).1) :
    e ∈ bin := by
  unfold hashmap_treenode_remove_tree_node at he
  split at he
  · exact he
  · split_ifs at he
    · cases he
    · exact List.mem_of_mem_eraseIdx he
    · exact List.mem_of_mem_eraseIdx ((treenode_move_root_to_front_perm _ _).mem_iff.1 he)
    · exact List.mem_of_mem_eraseIdx he

theorem hkeys_remove_node {K V : Type} [DecidableEq K] [KeyHash K] (P : K → Prop)
    (m : Hashmap K V) (h : HKeys P m) (k : K) (movable : Bool) :
    HKeys P (hashmap_remove_node m k movable).1 := by
  unfold hashmap_remove_node
  simp only
  split
  · exact h
  · split
    · split
      · refine hkeys_table_set P m h _ _ ?_
        intro e he
        exact hkeys_getD P m h _ e (List.mem_of_mem_eraseIdx he)
      · exact h
    · split
      · refine hkeys_table_set P m h _ _ ?_
        intro e he
        exact hkeys_getD P m h _ e (treenode_remove_tree_node_mem _ _ _ _ e he)
      · exact h

theorem hkeys_remove {K V : Type} [DecidableEq K] [KeyHash K] (P : K → Prop) (m : Hashmap K V)
    (h : HKeys P m) (k : K) : HKeys P (hashmap_remove m k).1 :=
  hkeys_remove_node P m h k true

theorem hkeys_congr_table {K V : Type} (P : K → Prop) (m m' : Hashmap K V)
    (ht : m'.table = m.table) (h : HKeys P m) : HKeys P m' := by
  intro b hb
  rw [ht] at hb
  exact h b hb

theorem hkeys_treeify_bin {K V : Type} [DecidableEq K] [KeyHash K] (P : K → Prop)
    (m : Hashmap K V) (h : HKeys P m) (hash : Nat) : HKeys P (hashmap_treeify_bin m hash) := by
  unfold hashmap_treeify_bin
  split
  · exact hkeys_resize P m h
  · split
    · exact h
    · refine hkeys_table_set P m h _ _ ?_
      intro e he
      exact hkeys_getD P m h _ e ((treenode_treeify_mem _ _ e).1 he)

theorem treenode_put_new_perm {K V : Type} [DecidableEq K] (bin : List (HashmapNode K V))
    (fs : List (HashmapTreeFrame K)) (x : HashmapNode K V) :
    (hashmap_treenode_put_new bin fs x).1.Perm (x :: bin) := by
  unfold hashmap_treenode_put_new
  refine (treenode_move_root_to_front_perm _ _).trans ?_
  split
  · exact List.perm_append_singleton _ _
  · exact chain_insert_after_perm _ _ _

theorem treebin_put_mem {K V : Type} [DecidableEq K] (cmp : K → K → Int)
    (mt : HashmapNode K V → Bool) (t : HashmapTree K) (bin : List (HashmapNode K V))
    (x : HashmapNode K V) (r : List (HashmapNode K V) × HashmapTree K)
    (h : hashmap_treebin_put cmp mt t bin x = .inr r) : ∀ e, e ∈ r.1 → e = x ∨ e ∈ bin := by
  intro e he
  unfold hashmap_treebin_put at h
  split at h
  · simp only [Sum.inr.injEq] at h
    subst h
    simp only [List.mem_singleton] at he
    exact Or.inl he
  · split_ifs at h
    split at h
    · cases h
    · simp only [Sum.inr.injEq] at h
      subst h
      exact List.mem_cons.1 ((treenode_put_new_perm _ _ _).mem_iff.1 he)

theorem hkeys_put {K V : Type} [DecidableEq K] [KeyHash K] (P : K → Prop) (m : Hashmap K V)
    (h : HKeys P m) (k : K) (v : V) (hk : P k) (r : Hashmap K V × Nat)
    (hr : hashmap_put m k v = .ok r) : HKeys P r.1 := by
  unfold hashmap_put at hr
  simp only at hr
  have h1 : HKeys P (if m.table.length = 0 then hashmap_resize m else m) := by
    split
    · exact hkeys_resize P m h
    · exact h
  generalize (if m.table.length = 0 then hashmap_resize m else m) = m1 at hr h1
  have hmod : ∀ idx, ∀ b, b ∈ m1.table.set ((m1.table.length - 1) &&& hash_val k)
      ((m1.table.getD ((m1.table.length - 1) &&& hash_val k) []).modify
        (fun e => { e with val := v }) idx) → ∀ e, e ∈ b → P e.key := by
    intro idx
    refine hkeys_table_set P m1 h1 _ _ ?_
    intro e he
    obtain ⟨e0, h0, h2⟩ := mem_modify_key _ _ _ e he
    rw [← h2]
    exact hkeys_getD P m1 h1 _ e0 h0
  have hfin : ∀ m3 : Hashmap K V, HKeys P m3 →
      HKeys P (if m3.size + 1 > m3.threshold then
        hashmap_resize ⟨m3.table, m3.size + 1, m3.threshold, m3.trees⟩
        else ⟨m3.table, m3.size + 1, m3.threshold, m3.trees⟩) := by
    intro m3 h3
    split
    · exact hkeys_resize P _ (hkeys_congr_table P _ _ rfl h3)
    · exact hkeys_congr_table P _ _ rfl h3
  split at hr
  · split at hr
    · cases hr
      exact hmod _
    · cases hr
      simp only
      refine hfin _ ?_
      have h2 : HKeys P (⟨m1.table.set ((m1.table.length - 1) &&& hash_val k)
          (m1.table.getD ((m1.table.length - 1) &&& hash_val k) [] ++
            [{ hash := hash_val k, key := k, val := v }]), m1.size, m1.threshold, m1.trees⟩ :
          Hashmap K V) := by
        refine hkeys_table_set P m1 h1 _ _ ?_
        intro e he
        rcases List.mem_append.1 he with h3 | h3
        · exact hkeys_getD P m1 h1 _ e h3
        · simp only [List.mem_singleton] at h3
          subst h3
          exact hk
      split
      · exact hkeys_treeify_bin P _ h2 _
      · exact h2
  · split at hr
    · cases hr
      exact hmod _
    · rename_i r0 hput
      cases hr
      simp only
      refine hfin ⟨m1.table.set ((m1.table.length - 1) &&& hash_val k) r0.1, m1.size,
        m1.threshold, hashmap_tree_set m1.trees ((m1.table.length - 1) &&& hash_val k)
          (if (m1.table.getD ((m1.table.length - 1) &&& hash_val k) []).isEmpty = true then none
            else some r0.2)⟩ ?_
      refine hkeys_table_set P m1 h1 _ _ ?_
      intro e he
      rcases treebin_put_mem _ _ _ _ _ _ hput e he with h3 | h3
      · subst h3
        exact hk
      · exact hkeys_getD P m1 h1 _ e h3

/-! ## Rules of the grammar while `repair` adds to them -/

theorem rank_of_rule_terminal (g : SLHRGrammar) (l : Nat) (h : l < g.min_nt) :
    slhr_grammar_rank_of_rule g l = .ok 3 := by
  unfold slhr_grammar_rank_of_rule
  simp [h]

theorem rank_of_rule_nt (g : SLHRGrammar) (l : Nat) (r : Int) (h : ¬ l < g.min_nt)
    (hr : slhr_grammar_rank_of_rule g l = .ok r) :
    ∃ rule, g.rules.get? (l - g.min_nt) = some (some rule) ∧ rule.rank = r := by
  unfold slhr_grammar_rank_of_rule at hr
  rw [if_neg h] at hr
  split at hr
  · rename_i rule heq
    cases hr
    exact ⟨rule, heq, rfl⟩
  · cases hr

/-- The rank of a symbol is that of a terminal or of a stored rule. -/
theorem rank_of_rule_cases (g : SLHRGrammar) (l : Nat) (r : Int)
    (hr : slhr_grammar_rank_of_rule g l = .ok r) :
    r = 3 ∨ ∃ rule, some rule ∈ g.rules ∧ rule.rank = r := by
  by_cases h : l < g.min_nt
  · rw [rank_of_rule_terminal g l h] at hr
    cases hr
    exact Or.inl rfl
  · obtain ⟨rule, h1, h2⟩ := rank_of_rule_nt g l r h hr
    exact Or.inr ⟨rule, List.get?_mem h1, h2⟩

theorem unused_scan_spec (rules : List (Option HGraph)) :
    ∀ (fuel i : Nat), rules.length ≤ i + fuel → ∀ x,
      rules.get? (slhr_grammar_unused_scan rules fuel i) ≠ some (some x) := by
  intro fuel
  induction fuel with
  | zero =>
    intro i hi x
    simp only [slhr_grammar_unused_scan]
    rw [List.get?_eq_none.2 (by omega)]
    simp
  | succ n ih =>
    intro i hi x
    simp only [slhr_grammar_unused_scan]
    split
    · exact ih (i + 1) (by omega) x
    · rename_i hne
      intro hc
      exact hne _ hc

theorem rule_add_min_nt (g g' : SLHRGrammar) (s : Nat) (graph : HGraph)
    (h : slhr_grammar_rule_add g s graph = .ok g') : g'.min_nt = g.min_nt := by
  unfold slhr_grammar_rule_add at h
  split at h
  · cases h
  · cases h
    rfl

theorem rule_add_all (P : HGraph → Prop) (g g' : SLHRGrammar) (s : Nat) (graph : HGraph)
    (hP : AllRules P g) (hg : P graph) (h : slhr_grammar_rule_add g s graph = .ok g') :
    AllRules P g' := by
  unfold slhr_grammar_rule_add at h
  split at h
  · cases h
  · cases h
    intro rule hrule
    simp only at hrule
    rcases mem_set_cases hrule with h1 | h1
    · rcases List.mem_append.1 h1 with h2 | h2
      · exact hP rule h2
      · rw [List.mem_replicate] at h2
        cases h2.2
    · cases h1
      exact hg

theorem rule_add_get_other (g g' : SLHRGrammar) (s : Nat) (graph : HGraph)
    (h : slhr_grammar_rule_add g s graph = .ok g') (i : Nat) (x : HGraph)
    (hi : g.rules.get? i = some (some x)) (hne : i ≠ s - g.min_nt) :
    g'.rules.get? i = some (some x) := by
  unfold slhr_grammar_rule_add at h
  split at h
  · cases h
  · cases h
    simp only
    have hlt : i < g.rules.length := by
      by_contra hc
      rw [List.get?_eq_none.2 (by omega)] at hi
      cases hi
    rw [List.get?_eq_getElem?, List.getElem?_set_ne (Ne.symm hne),
      List.getElem?_append_left hlt, ← List.get?_eq_getElem?]
    exact hi

theorem rule_add_rank_mono (g g' : SLHRGrammar) (graph : HGraph)
    (h : slhr_grammar_rule_add g (slhr_grammar_unused_nt g) graph = .ok g') (l : Nat) (r : Int)
    (hr : slhr_grammar_rank_of_rule g l = .ok r) : slhr_grammar_rank_of_rule g' l = .ok r := by
  have hm := rule_add_min_nt g g' _ graph h
  by_cases hl : l < g.min_nt
  · rw [rank_of_rule_terminal g l hl] at hr
    rw [← hr]
    exact rank_of_rule_terminal g' l (by rw [hm]; exact hl)
  · obtain ⟨rule, h1, h2⟩ := rank_of_rule_nt g l r hl hr
    have hne : l - g.min_nt ≠ slhr_grammar_unused_nt g - g.min_nt := by
      intro hc
      rw [hc] at h1
      have h3 : slhr_grammar_unused_nt g - g.min_nt =
          slhr_grammar_unused_scan g.rules g.rules.length 0 := by
        unfold slhr_grammar_unused_nt
        omega
      rw [h3] at h1
      exact unused_scan_spec g.rules g.rules.length 0 (by omega) rule h1
    have h4 := rule_add_get_other g g' _ graph h _ rule h1 hne
    unfold slhr_grammar_rank_of_rule
    rw [hm, if_neg hl, h4]
    simp only
    rw [h2]

theorem keyOK_rule_add (g g' : SLHRGrammar) (graph : HGraph) (R : Int)
    (h : slhr_grammar_rule_add g (slhr_grammar_unused_nt g) graph = .ok g') (d : Digram)
    (hd : KeyOK g R d) : KeyOK g' R d := by
  rcases hd with ⟨h0, h1⟩ | ⟨r0, r1, h0, h1, h2⟩
  · left
    rw [rule_add_min_nt g g' _ graph h]
    exact ⟨h0, h1⟩
  · right
    exact ⟨r0, r1, rule_add_rank_mono g g' graph h _ _ h0, rule_add_rank_mono g g' graph h _ _ h1, h2⟩

/-- The rank and the keys do not look at the start symbol. -/
theorem keyOK_start_symbol (g : SLHRGrammar) (s : HGraph) (R : Int) (d : Digram)
    (hd : KeyOK g R d) : KeyOK { g with start_symbol := s } R d := hd

/-! ## The keys of the digram count -/

theorem delta_keys (P : Digram → Prop) (dc dc' : Hashmap Digram Int) (d : Digram) (delta : Int)
    (h : HKeys P dc) (hd : 0 < delta → P d)
    (hr : update_digram_count_delta dc d delta = .ok dc') : HKeys P dc' := by
  unfold update_digram_count_delta at hr
  split at hr
  · cases hr
    split
    · exact hkeys_remove P _ (hkeys_set_val P _ h _ _) _
    · exact hkeys_set_val P _ h _ _
  · simp only at hr
    split at hr
    · cases hr
      split
      · exact hkeys_remove P _ (hkeys_set_val P _ h _ _) _
      · exact hkeys_set_val P _ h _ _
    · split at hr
      · rename_i hpos
        obtain ⟨r, hput, h2⟩ := bind_ok hr
        cases h2
        exact hkeys_put P dc h d delta (hd hpos) r hput
      · cases hr
        exact h

theorem over_max_rank_keyOK (g : SLHRGrammar) (R : Int) (d : Digram)
    (hpos : AllRules (fun rule => 1 ≤ rule.rank) g)
    (h : digram_over_max_rank g R d = .ok false) : KeyOK g R d := by
  unfold digram_over_max_rank at h
  obtain ⟨r0, h0, h⟩ := bind_ok h
  obtain ⟨r1, h1, h⟩ := bind_ok h
  have h3 : ¬ (r0 + r1 - 1 > R) := by
    simpa using h
  have p0 : 1 ≤ r0 := by
    rcases rank_of_rule_cases g _ r0 h0 with e | ⟨rule, hm, e⟩
    · omega
    · rw [← e]; exact hpos rule hm
  have p1 : 1 ≤ r1 := by
    rcases rank_of_rule_cases g _ r1 h1 with e | ⟨rule, hm, e⟩
    · omega
    · rw [← e]; exact hpos rule hm
  exact Or.inr ⟨r0, r1, h0, h1, p0, p1, by omega⟩

theorem others_keys (g : SLHRGrammar) (R : Int) (checked : Bool) (adj0 : AdjacencyType)
    (count : Nat) (delta : Int) (items : List (HashmapNode AdjacencyType Nat))
    (dc dc' : Hashmap Digram Int) (hpos : AllRules (fun rule => 1 ≤ rule.rank) g)
    (hc : checked = false → delta ≤ 0) (h : HKeys (KeyOK g R) dc)
    (hr : update_digram_count_others g R checked adj0 count delta items dc = .ok dc') :
    HKeys (KeyOK g R) dc' := by
  unfold update_digram_count_others at hr
  refine foldlM_inv _ (HKeys (KeyOK g R)) items dc dc' hr h ?_
  intro b item b' _ hb hf
  simp only at hf
  split at hf
  · split at hf
    · split at hf
      · obtain ⟨x, hx, hf⟩ := bind_ok hf
        split at hf
        · refine delta_keys _ b b' _ delta hb (fun _ => ?_) hf
          refine over_max_rank_keyOK g R _ hpos ?_
          rw [hx]
          cases x <;> simp_all
        · cases hf
          exact hb
      · rename_i hch
        refine delta_keys _ b b' _ delta hb (fun hp => ?_) hf
        have := hc (by simpa using hch)
        omega
    · cases hf
      exact hb
  · cases hf
    exact hb

theorem count_old_keys (g : SLHRGrammar) (R : Int) (edge : HEdge)
    (st st' : NodeAdjacencyDict × Hashmap Digram Int) (ct : Nat)
    (hpos : AllRules (fun rule => 1 ≤ rule.rank) g) (h : HKeys (KeyOK g R) st.2)
    (hr : update_digram_count_old g R edge st ct = .ok st') : HKeys (KeyOK g R) st'.2 := by
  unfold update_digram_count_old at hr
  obtain ⟨node, _, hr⟩ := bind_ok hr
  obtain ⟨od, _, hr⟩ := bind_ok hr
  split at hr
  · cases hr
  · split at hr
    · cases hr
    · obtain ⟨dc1, h1, hr⟩ := bind_ok hr
      have k1 := others_keys g R false _ _ (-1) _ st.2 dc1 hpos (fun _ => by omega) h h1
      simp only [] at hr
      split at hr
      · obtain ⟨dc2, h2, hr⟩ := bind_ok hr
        have k2 := delta_keys _ dc1 dc2 _ (-1) k1 (fun hp => by omega) h2
        cases hr
        exact k2
      · simp only [pure_eq_ok, ok_bind] at hr
        cases hr
        exact k1

theorem count_new_keys (g : SLHRGrammar) (R : Int) (edge : HEdge)
    (st st' : NodeAdjacencyDict × Hashmap Digram Int) (ct : Nat)
    (hpos : AllRules (fun rule => 1 ≤ rule.rank) g) (h : HKeys (KeyOK g R) st.2)
    (hr : update_digram_count_new g R edge st ct = .ok st') : HKeys (KeyOK g R) st'.2 := by
  unfold update_digram_count_new at hr
  obtain ⟨node, _, hr⟩ := bind_ok hr
  obtain ⟨od, _, hr⟩ := bind_ok hr
  split at hr
  · cases hr
  · simp only [] at hr
    split at hr
    on_goal 1 => obtain ⟨r, _, hr⟩ := bind_ok hr
    all_goals
      simp only [pure_eq_ok, ok_bind] at hr
      obtain ⟨dc1, h1, hr⟩ := bind_ok hr
      have k1 := others_keys g R true _ _ 1 _ st.2 dc1 hpos (fun hc => by cases hc) h h1
      split at hr
      · obtain ⟨x, hx, hr⟩ := bind_ok hr
        split at hr
        · obtain ⟨dc2, h2, hr⟩ := bind_ok hr
          have k2 : HKeys (KeyOK g R) dc2 := by
            refine delta_keys _ dc1 dc2 _ 1 k1 (fun _ => ?_) h2
            refine over_max_rank_keyOK g R _ hpos ?_
            rw [hx]
            cases x <;> simp_all
          cases hr
          exact k2
        · cases hr
          exact k1
      · cases hr
        exact k1

theorem update_digram_count_keys (g : SLHRGrammar) (R : Int) (old0 old1 new_edge : HEdge)
    (ad ad' : NodeAdjacencyDict) (dc dc' : Hashmap Digram Int)
    (hpos : AllRules (fun rule => 1 ≤ rule.rank) g) (h : HKeys (KeyOK g R) dc)
    (hr : update_digram_count g R old0 old1 new_edge ad dc = .ok (ad', dc')) :
    HKeys (KeyOK g R) dc' := by
  unfold update_digram_count at hr
  obtain ⟨st1, h1, hr⟩ := bind_ok hr
  obtain ⟨st2, h2, hr⟩ := bind_ok hr
  have k1 : HKeys (KeyOK g R) st1.2 :=
    foldlM_inv _ (fun st => HKeys (KeyOK g R) st.2) _ _ _ h1 h
      (fun b x b' _ hb hf => count_old_keys g R old0 b b' x hpos hb hf)
  have k2 : HKeys (KeyOK g R) st2.2 :=
    foldlM_inv _ (fun st => HKeys (KeyOK g R) st.2) _ _ _ h2 k1
      (fun b x b' _ hb hf => count_old_keys g R old1 b b' x hpos hb hf)
  exact foldlM_inv _ (fun st => HKeys (KeyOK g R) st.2) _ _ _ hr k2
    (fun b x b' _ hb hf => count_new_keys g R new_edge b b' x hpos hb hf)

/-! ## The digram phase keeps the rank bounds -/

theorem arr_get_mem {α : Type} (a : List α) (i : Nat) (x : α) (h : arr_get a i = .ok x) :
    x ∈ a := by
  unfold arr_get at h
  split at h
  · rename_i y hy
    cases h
    exact List.get?_mem hy
  · cases h

theorem hgraph_edge_deref_mem (r : HGraph) (j : Nat) (e : HEdge)
    (h : hgraph_edge_deref r j = .ok e) : some e ∈ r.edges := by
  unfold hgraph_edge_deref hgraph_edge_get at h
  split at h
  · rename_i e' heq
    cases h
    split at heq
    · injection heq with h2
      rw [← h2]
      exact List.get_mem _ _ _
    · cases heq
  · cases h
  · cases h

theorem hkeys_mono {K V : Type} (P Q : K → Prop) (m : Hashmap K V) (hPQ : ∀ k, P k → Q k)
    (h : HKeys P m) : HKeys Q m :=
  fun b hb e he => hPQ _ (h b hb e he)

/-- The rule built for a counted digram is within the bounds. -/
theorem creator_rule_ok (g : SLHRGrammar) (R : Int) (d : Digram) (c : RuleCreator)
    (hR : 2 < R) (hd : KeyOK g R d) (h : rule_creator_digram_init g d = .ok c) :
    RuleOK R 1 c.rule ∧ c.rule_name = slhr_grammar_unused_nt g := by
  unfold rule_creator_digram_init at h
  obtain ⟨r0, h0, h⟩ := bind_ok h
  obtain ⟨r1, h1, h⟩ := bind_ok h
  split at h
  · cases h
  · cases h
    refine ⟨?_, rfl⟩
    have hb : 1 ≤ r0 + r1 - 1 ∧ r0 + r1 - 1 ≤ max R 5 ∧ r0 ≤ R ∧ r1 ≤ R := by
      rcases hd with ⟨t0, t1⟩ | ⟨q0, q1, e0, e1, p0, p1, hs⟩
      · rw [rank_of_rule_terminal g _ t0] at h0
        rw [rank_of_rule_terminal g _ t1] at h1
        cases h0
        cases h1
        refine ⟨by omega, ?_, by omega, by omega⟩
        exact le_max_right R 5
      · rw [e0] at h0
        rw [e1] at h1
        cases h0
        cases h1
        refine ⟨by omega, ?_, by omega, by omega⟩
        exact le_trans hs (le_max_left R 5)
    refine ⟨hb.1, hb.2.1, ?_⟩
    intro e he
    simp only [hgraph_add_edge, hgraph_init, List.nil_append, List.cons_append, List.mem_cons,
      Option.some.injEq, List.mem_singleton, List.not_mem_nil, or_false] at he
    rcases he with he | he
    · subst he
      simp only [digram_build_edge]
      omega
    · subst he
      simp only [digram_build_edge]
      omega

theorem digram_max_mem (items : List (HashmapNode Digram Int)) :
    ∀ (init : Option (Digram × Int)) (d : Digram) (c : Int),
      items.foldl
        (fun res item =>
          match res with
          | none => some (item.key, item.val)
          | some (_, res_count) =>
            if item.val > res_count then some (item.key, item.val) else res) init = some (d, c) →
      init = some (d, c) ∨ ∃ e, e ∈ items ∧ e.key = d := by
  induction items with
  | nil => intro init d c h; exact Or.inl h
  | cons x xs ih =>
    intro init d c h
    simp only [List.foldl] at h
    rcases ih _ d c h with h1 | ⟨e, he, hk⟩
    · cases init with
      | none =>
        simp only [Option.some.injEq, Prod.mk.injEq] at h1
        exact Or.inr ⟨x, List.mem_cons_self _ _, h1.1⟩
      | some p =>
        obtain ⟨pk, pc⟩ := p
        simp only at h1
        split at h1
        · simp only [Option.some.injEq, Prod.mk.injEq] at h1
          exact Or.inr ⟨x, List.mem_cons_self _ _, h1.1⟩
        · exact Or.inl h1
    · exact Or.inr ⟨e, List.mem_cons_of_mem _ he, hk⟩

theorem digram_to_replace_key (P : Digram → Prop) (g : SLHRGrammar) (dc : Hashmap Digram Int)
    (d : Digram) (hk : HKeys P dc) (h : repair_digram_to_replace g dc = .ok (some d)) : P d := by
  unfold repair_digram_to_replace at h
  split at h
  · cases h
  · rename_i res res_count heq
    obtain ⟨x, _, h⟩ := bind_ok h
    split at h
    · cases h
      unfold repair_digram_max at heq
      rcases digram_max_mem _ none d res_count heq with h1 | ⟨e, he, hkd⟩
      · cases h1
      · rw [← hkd]
        exact hkeys_items P dc hk e he
    · cases h

theorem allRules_pos (R : Int) (g : SLHRGrammar) (h : AllRules (RuleOK R 1) g) :
    AllRules (fun rule => 1 ≤ rule.rank) g :=
  fun rule hr => (h rule hr).1

theorem replace_occurrence_tail (R : Int) (g : SLHRGrammar) (old0 old1 new_edge : HEdge)
    (ad : NodeAdjacencyDict) (dc : Hashmap Digram Int) (i j : Nat) (st' : ReplaceState)
    (hG : AllRules (RuleOK R 1) g ∧ HKeys (KeyOK g R) dc)
    (h : (do
      let (adj_dict, digram_count) ← update_digram_count g R old0 old1 new_edge ad dc
      let start_rule ← hgraph_edge_replace g.start_symbol i new_edge
      let start_rule ← hgraph_edge_free start_rule j
      pure ({ g := { g with start_symbol := start_rule }, adj_dict := adj_dict,
              digram_count := digram_count } : ReplaceState)) = .ok st') :
    DigramInv R st' := by
  obtain ⟨adc, hu, h⟩ := bind_ok h
  obtain ⟨ad', dc'⟩ := adc
  have hk := update_digram_count_keys g R old0 old1 new_edge _ ad' _ dc'
    (allRules_pos R g hG.1) hG.2 hu
  simp only at h
  obtain ⟨s1, _, h⟩ := bind_ok h
  obtain ⟨s2, _, h⟩ := bind_ok h
  cases h
  exact ⟨hG.1, hk⟩

theorem replace_occurrence_inv (R : Int) (new_rule : RuleCreator) (rule_created : Bool)
    (st st' : ReplaceState) (occ : Nat × Nat) (hI : DigramInv R st)
    (hrule : RuleOK R 1 new_rule.rule)
    (hname : rule_created = false → new_rule.rule_name = slhr_grammar_unused_nt st.g)
    (h : replace_occurrence R new_rule rule_created st occ = .ok st') : DigramInv R st' := by
  unfold replace_occurrence at h
  obtain ⟨old0, _, h⟩ := bind_ok h
  obtain ⟨old1, _, h⟩ := bind_ok h
  obtain ⟨new_edge, _, h⟩ := bind_ok h
  simp only [] at h
  split at h
  · simp only [pure_eq_ok, ok_bind] at h
    exact replace_occurrence_tail R st.g old0 old1 new_edge _ _ _ _ st' hI h
  · rename_i hc
    obtain ⟨g, hg, h⟩ := bind_ok h
    have hn := hname (by simpa using hc)
    rw [hn] at hg
    exact replace_occurrence_tail R g old0 old1 new_edge _ _ _ _ st'
      ⟨rule_add_all _ st.g g _ _ hI.1 hrule hg,
        hkeys_mono _ _ _ (fun d hd => keyOK_rule_add st.g g _ R hg d hd) hI.2⟩ h

theorem replace_occurrences_inv (R : Int) (d : Digram) (new_rule : RuleCreator)
    (hrule : RuleOK R 1 new_rule.rule) :
    ∀ (fuel : Nat) (rule_created : Bool) (state : OccState) (st st' : ReplaceState),
      DigramInv R st →
      (rule_created = false → new_rule.rule_name = slhr_grammar_unused_nt st.g) →
      replace_occurrences R d new_rule fuel rule_created state st = .ok st' →
      DigramInv R st' := by
  intro fuel
  induction fuel with
  | zero =>
    intro rc state st st' _ _ h
    simp [replace_occurrences] at h
  | succ n ih =>
    intro rc state st st' hI hname h
    simp only [replace_occurrences] at h
    obtain ⟨x, _, h⟩ := bind_ok h
    split at h
    · cases h
      exact hI
    · obtain ⟨st1, h1, h⟩ := bind_ok h
      exact ih true _ st1 st' (replace_occurrence_inv R new_rule rc st st1 _ hI hrule hname h1)
        (fun hc => by cases hc) h

theorem replace_digrams_loop_inv (R : Int) (hR : 2 < R) :
    ∀ (fuel : Nat) (st st' : ReplaceState), DigramInv R st →
      replace_digrams_loop R fuel st = .ok st' → DigramInv R st' := by
  intro fuel
  induction fuel with
  | zero =>
    intro st st' _ h
    simp [replace_digrams_loop] at h
  | succ n ih =>
    intro st st' hI h
    simp only [replace_digrams_loop] at h
    obtain ⟨x, hx, h⟩ := bind_ok h
    split at h
    · cases h
      exact hI
    · rename_i d
      obtain ⟨new_rule, hc, h⟩ := bind_ok h
      obtain ⟨st1, h1, h⟩ := bind_ok h
      have hkey : KeyOK st.g R d := digram_to_replace_key _ st.g st.digram_count d hI.2 hx
      obtain ⟨hrule, hname⟩ := creator_rule_ok st.g R d new_rule hR hkey hc
      have hI1 := replace_occurrences_inv R d new_rule hrule _ false _ st st1 hI
        (fun _ => hname) h1
      refine ih _ st' ?_ h
      exact ⟨hI1.1, hkeys_remove _ _ hI1.2 _⟩

theorem adjacency_dict_count_labels (T : Nat) (edge : HEdge)
    (dict dict' : List (Option (Hashmap AdjacencyType Nat))) (ct : Nat) (hl : edge.label < T)
    (hd : ∀ m, some m ∈ dict → HKeys (fun a => a.label < T) m)
    (h : adjacency_dict_count edge dict ct = .ok dict') :
    ∀ m, some m ∈ dict' → HKeys (fun a => a.label < T) m := by
  unfold adjacency_dict_count at h
  obtain ⟨node, _, h⟩ := bind_ok h
  obtain ⟨od, hod, h⟩ := bind_ok h
  have hset : ∀ m0, HKeys (fun a => a.label < T) m0 →
      ∀ m, some m ∈ dict.set node (some m0) → HKeys (fun a => a.label < T) m := by
    intro m0 h0 m hm
    rcases mem_set_cases hm with h1 | h1
    · exact hd m h1
    · cases h1
      exact h0
  split at h
  · rename_i dir
    have hdir := hd dir (arr_get_mem _ _ _ hod)
    split at h
    · cases h
      exact hset _ (hkeys_set_val _ _ hdir _ _)
    · obtain ⟨r, hr, h⟩ := bind_ok h
      cases h
      exact hset _ (hkeys_put _ _ hdir _ _ hl r hr)
  · obtain ⟨r, hr, h⟩ := bind_ok h
    cases h
    exact hset _ (hkeys_put (fun a : AdjacencyType => a.label < T) _ (hkeys_init _) _ _ hl r hr)

theorem adjacency_dict_labels (T : Nat) (rule : HGraph) (nodes : Nat) (d : NodeAdjacencyDict)
    (hl : ∀ e, some e ∈ rule.edges → e.label < T)
    (h : repair_create_node_adjacency_dict rule nodes = .ok d) :
    ∀ m, some m ∈ d.dict → HKeys (fun a => a.label < T) m := by
  unfold repair_create_node_adjacency_dict at h
  obtain ⟨dict, hdict, h⟩ := bind_ok h
  cases h
  refine foldlM_inv _ (fun dict => ∀ m, some m ∈ dict → HKeys (fun a => a.label < T) m)
    _ _ _ hdict ?_ ?_
  · intro m hm
    rw [List.mem_replicate] at hm
    cases hm.2
  · intro b i b' _ hb hf
    obtain ⟨edge, he, hf⟩ := bind_ok hf
    exact foldlM_inv _ (fun dict => ∀ m, some m ∈ dict → HKeys (fun a => a.label < T) m)
      _ _ _ hf hb
      (fun c ct c' _ hc hcf => adjacency_dict_count_labels T edge c c' ct
        (hl edge (hgraph_edge_deref_mem rule i edge he)) hc hcf)

theorem count_digrams_node_labels (T : Nat) (m : Hashmap AdjacencyType Nat)
    (dc dc' : Hashmap Digram Int) (hm : HKeys (fun a => a.label < T) m)
    (hdc : HKeys (fun d => d.adj0.label < T ∧ d.adj1.label < T) dc)
    (h : repair_count_digrams_node m dc = .ok dc') :
    HKeys (fun d => d.adj0.label < T ∧ d.adj1.label < T) dc' := by
  unfold repair_count_digrams_node at h
  simp only [] at h
  have hkeys : ∀ i k, arr_get ((hashmap_items m).map (fun e => e.key)) i = .ok k →
      k.label < T := by
    intro i k hk
    obtain ⟨e, he, hek⟩ := List.mem_map.1 (arr_get_mem _ _ _ hk)
    rw [← hek]
    exact hkeys_items _ m hm e he
  refine foldlM_inv _ (HKeys (fun d => d.adj0.label < T ∧ d.adj1.label < T)) _ _ _ h hdc ?_
  intro b i b' _ hb hf
  obtain ⟨key_i, hki, hf⟩ := bind_ok hf
  have li := hkeys i key_i hki
  split at hf
  · cases hf
  · obtain ⟨b1, h1, hf⟩ := bind_ok hf
    have k1 : HKeys (fun d => d.adj0.label < T ∧ d.adj1.label < T) b1 := by
      refine foldlM_inv _ (HKeys (fun d => d.adj0.label < T ∧ d.adj1.label < T)) _ _ _ h1 hb ?_
      intro c dj c' _ hc hcf
      obtain ⟨key_j, hkj, hcf⟩ := bind_ok hcf
      have lj := hkeys _ key_j hkj
      split at hcf
      · cases hcf
      · exact delta_keys _ c c' _ _ hc (fun _ => ⟨li, lj⟩) hcf
    exact delta_keys _ b1 b' _ _ k1 (fun _ => ⟨li, li⟩) hf

theorem count_digrams_labels (T : Nat) (d : NodeAdjacencyDict) (dc : Hashmap Digram Int)
    (hd : ∀ m, some m ∈ d.dict → HKeys (fun a => a.label < T) m)
    (h : repair_count_digrams d = .ok dc) :
    HKeys (fun d => d.adj0.label < T ∧ d.adj1.label < T) dc := by
  unfold repair_count_digrams at h
  refine foldlM_inv _ (HKeys (fun d => d.adj0.label < T ∧ d.adj1.label < T)) _ _ _ h
    (hkeys_init _) ?_
  intro b node b' _ hb hf
  obtain ⟨om, hom, hf⟩ := bind_ok hf
  split at hf
  · cases hf
    exact hb
  · rename_i m
    exact count_digrams_node_labels T m b b' (hd m (arr_get_mem _ _ _ hom)) hb hf

/-- The digram phase: started on a grammar without rules whose start symbol is
labelled by terminals, it leaves rules of rank between 1 and `max R 5` whose
body edges have rank at most `R`. -/
theorem replace_digrams_rules (R : Int) (hR : 2 < R) (fuel : Nat) (g g' : SLHRGrammar)
    (nodes : Nat) (hrules : AllRules (RuleOK R 1) g)
    (hl : ∀ e, some e ∈ g.start_symbol.edges → e.label < g.min_nt)
    (h : repair_replace_digrams fuel g nodes R = .ok g') : AllRules (RuleOK R 1) g' := by
  unfold repair_replace_digrams at h
  obtain ⟨ad, had, h⟩ := bind_ok h
  obtain ⟨dc, hdc, h⟩ := bind_ok h
  obtain ⟨st, hst, h⟩ := bind_ok h
  cases h
  have hk := count_digrams_labels g.min_nt ad dc
    (adjacency_dict_labels g.min_nt g.start_symbol nodes ad hl had) hdc
  have hI : DigramInv R { g := g, adj_dict := ad, digram_count := dc } :=
    ⟨hrules, hkeys_mono _ _ _ (fun d hd => Or.inl hd) hk⟩
  exact (replace_digrams_loop_inv R hR fuel _ st hI hst).1

/-! ## The monogram phase keeps the rank bounds -/

theorem mono_creator_rule_ok (g : SLHRGrammar) (R : Int) (m : Monogram) (c : MonoRuleCreator)
    (hR : 3 ≤ R) (hg : AllRules (RuleLe R) g) (h : rule_creator_monogram_init g m = .ok c) :
    RuleLe R c.rule := by
  unfold rule_creator_monogram_init at h
  obtain ⟨r, hr, h⟩ := bind_ok h
  split at h
  · cases h
  · rename_i hneg
    cases h
    have hle : r ≤ R := by
      rcases rank_of_rule_cases g _ r hr with e | ⟨rule, hm, e⟩
      · omega
      · rw [← e]
        exact (hg rule hm).1
    refine ⟨?_, ?_⟩
    · simp only [hgraph_add_edge, hgraph_init]
      omega
    · intro e he
      simp only [hgraph_add_edge, hgraph_init, List.nil_append, List.mem_singleton,
        Option.some.injEq] at he
      subst he
      simp only [monogram_build_edge]
      omega

theorem replace_mono_occurrences_rules (fuel0 : Nat) (m : Monogram) (new_rule : MonoRuleCreator) :
    ∀ (fuel state : Nat) (add_rule : Bool) (st : MonoState) (r : MonoState × Bool),
      replace_mono_occurrences fuel0 m new_rule fuel state add_rule st = .ok r →
      r.1.g.rules = st.g.rules ∧ r.1.g.min_nt = st.g.min_nt := by
  intro fuel
  induction fuel with
  | zero =>
    intro state add_rule st r h
    simp [replace_mono_occurrences] at h
  | succ n ih =>
    intro state add_rule st r h
    simp only [replace_mono_occurrences] at h
    obtain ⟨x, _, h⟩ := bind_ok h
    split at h
    · cases h
      exact ⟨rfl, rfl⟩
    · obtain ⟨old_edge, _, h⟩ := bind_ok h
      obtain ⟨new_edge, _, h⟩ := bind_ok h
      obtain ⟨start_rule, _, h⟩ := bind_ok h
      obtain ⟨mc, _, h⟩ := bind_ok h
      have h2 := ih _ _ _ r h
      exact h2

theorem replace_monograms_loop_inv (R : Int) (hR : 3 ≤ R) (fuel0 : Nat) :
    ∀ (fuel : Nat) (st st' : MonoState), AllRules (RuleLe R) st.g →
      replace_monograms_loop fuel0 fuel st = .ok st' → AllRules (RuleLe R) st'.g := by
  intro fuel
  induction fuel with
  | zero =>
    intro st st' _ h
    simp [replace_monograms_loop] at h
  | succ n ih =>
    intro st st' hI h
    simp only [replace_monograms_loop] at h
    obtain ⟨x, _, h⟩ := bind_ok h
    split at h
    · cases h
      exact hI
    · rename_i m _
      obtain ⟨new_rule, hc, h⟩ := bind_ok h
      have hrule := mono_creator_rule_ok st.g R m new_rule hR hI hc
      obtain ⟨r, hocc, h⟩ := bind_ok h
      obtain ⟨st1, add_rule⟩ := r
      have hsame := replace_mono_occurrences_rules fuel0 m new_rule _ _ _ st _ hocc
      have hI1 : AllRules (RuleLe R) st1.g := by
        intro rule hrm
        rw [hsame.1] at hrm
        exact hI rule hrm
      simp only [] at h
      split at h
      · obtain ⟨g2, hg2, h⟩ := bind_ok h
        refine ih _ st' ?_ h
        exact rule_add_all _ st1.g g2 _ _ hI1 hrule hg2
      · simp only [pure_eq_ok, ok_bind] at h
        refine ih _ st' ?_ h
        exact hI1

theorem replace_monograms_rules (R : Int) (hR : 3 ≤ R) (fuel : Nat) (g g' : SLHRGrammar)
    (hg : AllRules (RuleLe R) g) (h : repair_replace_monograms fuel g = .ok g') :
    AllRules (RuleLe R) g' := by
  unfold repair_replace_monograms at h
  obtain ⟨mc, _, h⟩ := bind_ok h
  obtain ⟨st, hst, h⟩ := bind_ok h
  cases h
  exact replace_monograms_loop_inv R hR fuel fuel _ st hg hst

theorem replace_digrams_min_nt_aux (R : Int) (new_rule : RuleCreator) (rule_created : Bool)
    (st st' : ReplaceState) (occ : Nat × Nat)
    (h : replace_occurrence R new_rule rule_created st occ = .ok st') :
    st'.g.min_nt = st.g.min_nt := by
  unfold replace_occurrence at h
  obtain ⟨old0, _, h⟩ := bind_ok h
  obtain ⟨old1, _, h⟩ := bind_ok h
  obtain ⟨new_edge, _, h⟩ := bind_ok h
  simp only [] at h
  split at h
  · simp only [pure_eq_ok, ok_bind] at h
    obtain ⟨adc, _, h⟩ := bind_ok h
    obtain ⟨s1, _, h⟩ := bind_ok h
    obtain ⟨s2, _, h⟩ := bind_ok h
    cases h
    rfl
  · obtain ⟨g, hg, h⟩ := bind_ok h
    obtain ⟨adc, _, h⟩ := bind_ok h
    obtain ⟨s1, _, h⟩ := bind_ok h
    obtain ⟨s2, _, h⟩ := bind_ok h
    cases h
    have h2 := rule_add_min_nt _ _ _ _ hg
    exact h2

theorem replace_occurrences_min_nt (R : Int) (d : Digram) (new_rule : RuleCreator) :
    ∀ (fuel : Nat) (rule_created : Bool) (state : OccState) (st st' : ReplaceState),
      replace_occurrences R d new_rule fuel rule_created state st = .ok st' →
      st'.g.min_nt = st.g.min_nt := by
  intro fuel
  induction fuel with
  | zero =>
    intro rc state st st' h
    simp [replace_occurrences] at h
  | succ n ih =>
    intro rc state st st' h
    simp only [replace_occurrences] at h
    obtain ⟨x, _, h⟩ := bind_ok h
    split at h
    · cases h
      rfl
    · obtain ⟨st1, h1, h⟩ := bind_ok h
      rw [ih _ _ _ _ h]
      exact replace_digrams_min_nt_aux R new_rule rc st st1 _ h1

theorem replace_digrams_loop_min_nt (R : Int) :
    ∀ (fuel : Nat) (st st' : ReplaceState),
      replace_digrams_loop R fuel st = .ok st' → st'.g.min_nt = st.g.min_nt := by
  intro fuel
  induction fuel with
  | zero =>
    intro st st' h
    simp [replace_digrams_loop] at h
  | succ n ih =>
    intro st st' h
    simp only [replace_digrams_loop] at h
    obtain ⟨x, hx, h⟩ := bind_ok h
    split at h
    · cases h
      rfl
    · obtain ⟨new_rule, hc, h⟩ := bind_ok h
      obtain ⟨st1, h1, h⟩ := bind_ok h
      have h2 := ih _ st' h
      rw [h2]
      exact replace_occurrences_min_nt R _ new_rule _ _ _ st st1 h1

theorem replace_digrams_min_nt (R : Int) (fuel : Nat) (g g' : SLHRGrammar) (nodes : Nat)
    (h : repair_replace_digrams fuel g nodes R = .ok g') : g'.min_nt = g.min_nt := by
  unfold repair_replace_digrams at h
  obtain ⟨ad, _, h⟩ := bind_ok h
  obtain ⟨dc, _, h⟩ := bind_ok h
  obtain ⟨st, hst, h⟩ := bind_ok h
  cases h
  exact replace_digrams_loop_min_nt R fuel _ st hst

theorem replace_monograms_loop_min_nt (fuel0 : Nat) :
    ∀ (fuel : Nat) (st st' : MonoState),
      replace_monograms_loop fuel0 fuel st = .ok st' → st'.g.min_nt = st.g.min_nt := by
  intro fuel
  induction fuel with
  | zero =>
    intro st st' h
    simp [replace_monograms_loop] at h
  | succ n ih =>
    intro st st' h
    simp only [replace_monograms_loop] at h
    obtain ⟨x, _, h⟩ := bind_ok h
    split at h
    · cases h
      rfl
    · obtain ⟨new_rule, hc, h⟩ := bind_ok h
      obtain ⟨r, hocc, h⟩ := bind_ok h
      obtain ⟨st1, add_rule⟩ := r
      have hsame := replace_mono_occurrences_rules fuel0 _ new_rule _ _ _ st _ hocc
      simp only [] at h
      split at h
      · obtain ⟨g2, hg2, h⟩ := bind_ok h
        have h2 := ih _ st' h
        rw [h2]
        have h3 := rule_add_min_nt _ _ _ _ hg2
        exact h3.trans hsame.2
      · simp only [pure_eq_ok, ok_bind] at h
        have h2 := ih _ st' h
        rw [h2]
        exact hsame.2

theorem replace_monograms_min_nt (fuel : Nat) (g g' : SLHRGrammar)
    (h : repair_replace_monograms fuel g = .ok g') : g'.min_nt = g.min_nt := by
  unfold repair_replace_monograms at h
  obtain ⟨mc, _, h⟩ := bind_ok h
  obtain ⟨st, hst, h⟩ := bind_ok h
  cases h
  exact replace_monograms_loop_min_nt fuel fuel _ st hst

/-! ## A start symbol without edges stays without edges -/

theorem noEdges_deref (h : HGraph) (i : Nat) (e : HEdge) (hn : NoEdges h)
    (hd : hgraph_edge_deref h i = .ok e) : False :=
  hn e (hgraph_edge_deref_mem h i e hd)

theorem noEdges_edgesLe (R : Int) (h : HGraph) (hn : NoEdges h) : EdgesLe R h :=
  fun e he => absurd he (hn e)

theorem replace_occurrences_noEdges (R : Int) (d : Digram) (new_rule : RuleCreator) :
    ∀ (fuel : Nat) (rule_created : Bool) (state : OccState) (st st' : ReplaceState),
      NoEdges st.g.start_symbol →
      replace_occurrences R d new_rule fuel rule_created state st = .ok st' → st' = st := by
  intro fuel
  cases fuel with
  | zero =>
    intro rc state st st' _ h
    simp [replace_occurrences] at h
  | succ n =>
    intro rc state st st' hn h
    simp only [replace_occurrences] at h
    obtain ⟨x, _, h⟩ := bind_ok h
    split at h
    · cases h
      rfl
    · obtain ⟨st1, h1, h⟩ := bind_ok h
      exfalso
      unfold replace_occurrence at h1
      obtain ⟨old0, h0, h1⟩ := bind_ok h1
      exact noEdges_deref _ _ old0 hn h0

theorem replace_digrams_loop_noEdges (R : Int) :
    ∀ (fuel : Nat) (st st' : ReplaceState), NoEdges st.g.start_symbol →
      replace_digrams_loop R fuel st = .ok st' → NoEdges st'.g.start_symbol := by
  intro fuel
  induction fuel with
  | zero =>
    intro st st' _ h
    simp [replace_digrams_loop] at h
  | succ n ih =>
    intro st st' hn h
    simp only [replace_digrams_loop] at h
    obtain ⟨x, hx, h⟩ := bind_ok h
    split at h
    · cases h
      exact hn
    · obtain ⟨new_rule, hc, h⟩ := bind_ok h
      obtain ⟨st1, h1, h⟩ := bind_ok h
      have h2 := replace_occurrences_noEdges R _ new_rule _ _ _ st st1 hn h1
      refine ih _ st' ?_ h
      rw [h2]
      exact hn

theorem replace_digrams_noEdges (R : Int) (fuel : Nat) (g g' : SLHRGrammar) (nodes : Nat)
    (hn : NoEdges g.start_symbol) (h : repair_replace_digrams fuel g nodes R = .ok g') :
    NoEdges g'.start_symbol := by
  unfold repair_replace_digrams at h
  obtain ⟨ad, _, h⟩ := bind_ok h
  obtain ⟨dc, _, h⟩ := bind_ok h
  obtain ⟨st, hst, h⟩ := bind_ok h
  cases h
  have h1 := replace_digrams_loop_noEdges R fuel _ st hn hst
  intro e he
  simp only [hgraph_fill_holes] at he
  exact h1 e (List.mem_of_mem_filter he)

theorem rule_add_start (g g' : SLHRGrammar) (s : Nat) (graph : HGraph)
    (h : slhr_grammar_rule_add g s graph = .ok g') : g'.start_symbol = g.start_symbol := by
  unfold slhr_grammar_rule_add at h
  split at h
  · cases h
  · cases h
    rfl

theorem replace_mono_occurrences_noEdges (fuel0 : Nat) (m : Monogram)
    (new_rule : MonoRuleCreator) :
    ∀ (fuel state : Nat) (add_rule : Bool) (st : MonoState) (r : MonoState × Bool),
      NoEdges st.g.start_symbol →
      replace_mono_occurrences fuel0 m new_rule fuel state add_rule st = .ok r →
      r.1.g.start_symbol = st.g.start_symbol := by
  intro fuel
  cases fuel with
  | zero =>
    intro state add_rule st r _ h
    simp [replace_mono_occurrences] at h
  | succ n =>
    intro state add_rule st r hn h
    simp only [replace_mono_occurrences] at h
    obtain ⟨x, _, h⟩ := bind_ok h
    split at h
    · cases h
      rfl
    · obtain ⟨old_edge, h0, h⟩ := bind_ok h
      exact absurd h0 (fun hc => noEdges_deref _ _ old_edge hn hc)

theorem replace_monograms_loop_noEdges (fuel0 : Nat) :
    ∀ (fuel : Nat) (st st' : MonoState), NoEdges st.g.start_symbol →
      replace_monograms_loop fuel0 fuel st = .ok st' → NoEdges st'.g.start_symbol := by
  intro fuel
  induction fuel with
  | zero =>
    intro st st' _ h
    simp [replace_monograms_loop] at h
  | succ n ih =>
    intro st st' hn h
    simp only [replace_monograms_loop] at h
    obtain ⟨x, _, h⟩ := bind_ok h
    split at h
    · cases h
      exact hn
    · obtain ⟨new_rule, hc, h⟩ := bind_ok h
      obtain ⟨r, hocc, h⟩ := bind_ok h
      obtain ⟨st1, add_rule⟩ := r
      have hsame := replace_mono_occurrences_noEdges fuel0 _ new_rule _ _ _ st _ hn hocc
      simp only [] at h hsame
      split at h
      · obtain ⟨g2, hg2, h⟩ := bind_ok h
        refine ih _ st' ?_ h
        simp only
        rw [rule_add_start _ _ _ _ hg2, hsame]
        exact hn
      · simp only [pure_eq_ok, ok_bind] at h
        refine ih _ st' ?_ h
        simp only
        rw [hsame]
        exact hn

theorem replace_monograms_noEdges (fuel : Nat) (g g' : SLHRGrammar)
    (hn : NoEdges g.start_symbol) (h : repair_replace_monograms fuel g = .ok g') :
    NoEdges g'.start_symbol := by
  unfold repair_replace_monograms at h
  obtain ⟨mc, _, h⟩ := bind_ok h
  obtain ⟨st, hst, h⟩ := bind_ok h
  cases h
  exact replace_monograms_loop_noEdges fuel fuel _ st hn hst

/-! ## Pruning and normalizing keep the ranks of the body edges -/

theorem edgesLe_set (R : Int) (r : HGraph) (i : Nat) (oe : Option HEdge) (r' : HGraph)
    (hr : EdgesLe R r) (he : ∀ e, oe = some e → (e.rank : Int) ≤ R)
    (h : hgraph_edge_set r i oe = .ok r') : EdgesLe R r' := by
  unfold hgraph_edge_set at h
  split at h
  · cases h
    intro e hm
    rcases mem_set_cases hm with h1 | h1
    · exact hr e h1
    · exact he e h1.symm
  · cases h

theorem edgesLe_add (R : Int) (r : HGraph) (e : HEdge) (hr : EdgesLe R r)
    (he : (e.rank : Int) ≤ R) : EdgesLe R (hgraph_add_edge r e) := by
  intro x hx
  simp only [hgraph_add_edge, List.mem_append, List.mem_singleton, Option.some.injEq] at hx
  rcases hx with h1 | h1
  · exact hr x h1
  · rw [h1]
    exact he

theorem rule_inserter_edgesLe (R : Int) (rti rule : HGraph) (hyperedge : HEdge) (index : Nat)
    (rule' : HGraph) (hrti : EdgesLe R rti) (hrule : EdgesLe R rule)
    (h : rule_inserter_edges_for_hyperedge rti rule hyperedge index = .ok rule') :
    EdgesLe R rule' := by
  unfold rule_inserter_edges_for_hyperedge at h
  refine foldlM_inv _ (EdgesLe R) _ _ _ h hrule ?_
  intro b i b' _ hb hf
  obtain ⟨e, he, hf⟩ := bind_ok hf
  obtain ⟨nodes, _, hf⟩ := bind_ok hf
  have hle := hrti e (hgraph_edge_deref_mem rti i e he)
  simp only [] at hf
  split at hf
  · refine edgesLe_set R b index _ b' hb ?_ hf
    intro e' he'
    cases he'
    exact hle
  · cases hf
    exact edgesLe_add R b _ hb hle

theorem prune_rule_edges_edgesLe (R : Int) (name : Nat) (rti : HGraph) (hrti : EdgesLe R rti) :
    ∀ (fuel index : Nat) (rc rc' : HGraph × Nat), EdgesLe R rc.1 →
      prune_rule_edges name rti fuel index rc = .ok rc' → EdgesLe R rc'.1 := by
  intro fuel
  induction fuel with
  | zero =>
    intro index rc rc' _ h
    simp [prune_rule_edges] at h
  | succ n ih =>
    intro index rc rc' hrc h
    obtain ⟨rule, count⟩ := rc
    simp only [prune_rule_edges] at h
    split at h
    · obtain ⟨edge, _, h⟩ := bind_ok h
      split at h
      · obtain ⟨rule1, h1, h⟩ := bind_ok h
        exact ih _ _ rc' (rule_inserter_edgesLe R rti rule edge index rule1 hrti hrc h1) h
      · exact ih _ _ rc' hrc h
    · cases h
      exact hrc

theorem rule_get_mem (g : SLHRGrammar) (i : Nat) (rule : HGraph) (hi : i ≠ START_SYMBOL)
    (h : slhr_grammar_rule_get g i = .ok rule) : some rule ∈ g.rules := by
  unfold slhr_grammar_rule_get at h
  rw [if_neg hi] at h
  split at h
  · cases h
  · split at h
    · cases h
    · split at h
      · rename_i r heq
        cases h
        exact List.get?_mem heq
      · cases h
      · cases h

theorem rule_store_all (P : HGraph → Prop) (g : SLHRGrammar) (i : Nat) (rule : HGraph)
    (hg : AllRules P g) (hr : i ≠ START_SYMBOL → P rule) :
    AllRules P (slhr_grammar_rule_store g i rule) := by
  unfold slhr_grammar_rule_store
  split
  · exact hg
  · rename_i hi
    intro x hx
    simp only at hx
    rcases mem_set_cases hx with h1 | h1
    · exact hg x h1
    · cases h1
      exact hr hi

theorem rule_store_min_nt (g : SLHRGrammar) (i : Nat) (rule : HGraph) :
    (slhr_grammar_rule_store g i rule).min_nt = g.min_nt := by
  unfold slhr_grammar_rule_store
  split <;> rfl

theorem rule_del_inv (P : HGraph → Prop) (g g' : SLHRGrammar) (name : Nat) (hg : AllRules P g)
    (h : slhr_grammar_rule_del g name = .ok g') :
    AllRules P g' ∧ g'.min_nt = g.min_nt ∧ g.min_nt ≤ name := by
  unfold slhr_grammar_rule_del at h
  split at h
  · cases h
  · rename_i hlt
    split at h
    · cases h
    · simp only [] at h
      have hset : ∀ x, some x ∈ g.rules.set (name - g.min_nt) none → P x := by
        intro x hx
        rcases mem_set_cases hx with h1 | h1
        · exact hg x h1
        · cases h1
      split at h
      · split at h
        · cases h
          exact ⟨hset, rfl, Nat.le_of_not_lt hlt⟩
        · cases h
          exact ⟨hset, rfl, Nat.le_of_not_lt hlt⟩
      · cases h
      · cases h

theorem rule_get_start (g : SLHRGrammar) (rule : HGraph)
    (h : slhr_grammar_rule_get g START_SYMBOL = .ok rule) : rule = g.start_symbol := by
  unfold slhr_grammar_rule_get at h
  rw [if_pos rfl] at h
  cases h
  rfl

theorem rule_store_start (R : Int) (g : SLHRGrammar) (i : Nat) (rule : HGraph)
    (hg : EdgesLe R g.start_symbol) (hr : i = START_SYMBOL → EdgesLe R rule) :
    EdgesLe R (slhr_grammar_rule_store g i rule).start_symbol := by
  unfold slhr_grammar_rule_store
  split
  · rename_i hi
    exact hr hi
  · exact hg

theorem rule_del_start (g g' : SLHRGrammar) (name : Nat)
    (h : slhr_grammar_rule_del g name = .ok g') : g'.start_symbol = g.start_symbol := by
  unfold slhr_grammar_rule_del at h
  split at h
  · cases h
  · split at h
    · cases h
    · simp only [] at h
      split at h
      · split at h
        · cases h
          rfl
        · cases h
          rfl
      · cases h
      · cases h

/-- The body of the loop of `repair_prune` over the symbols, for a rule to
insert whose edges are within the bound. -/
theorem prune_symbols_inv (R : Int) (fuel0 name : Nat) (rti : HGraph) (hrti : EdgesLe R rti)
    (g : SLHRGrammar) (syms : List Nat) (st st' : SLHRGrammar × Nat)
    (hI : AllRules (EdgesLe R) st.1 ∧ st.1.min_nt = g.min_nt ∧
      (EdgesLe R g.start_symbol → EdgesLe R st.1.start_symbol))
    (h : syms.foldlM
      (fun (st : SLHRGrammar × Nat) i => do
        let rule ← slhr_grammar_rule_get st.1 i
        let (rule, count) ← prune_rule_edges name rti fuel0 0 (rule, st.2)
        pure (slhr_grammar_rule_store st.1 i rule, count)) st = .ok st') :
    AllRules (EdgesLe R) st'.1 ∧ st'.1.min_nt = g.min_nt ∧
      (EdgesLe R g.start_symbol → EdgesLe R st'.1.start_symbol) := by
  refine foldlM_inv _
    (fun (s : SLHRGrammar × Nat) => AllRules (EdgesLe R) s.1 ∧ s.1.min_nt = g.min_nt ∧
      (EdgesLe R g.start_symbol → EdgesLe R s.1.start_symbol)) _ _ _ h hI ?_
  intro b i b' _ hb hf
  obtain ⟨rule, hrule, hf⟩ := bind_ok hf
  obtain ⟨rc, hprune, hf⟩ := bind_ok hf
  obtain ⟨rule1, c1⟩ := rc
  cases hf
  refine ⟨rule_store_all _ b.1 i rule1 hb.1 ?_, ?_, ?_⟩
  · intro hi
    exact prune_rule_edges_edgesLe R name rti hrti _ _ _ (rule1, c1)
      (hb.1 rule (rule_get_mem b.1 i rule hi hrule)) hprune
  · rw [rule_store_min_nt]
    exact hb.2.1
  · intro hs
    refine rule_store_start R b.1 i rule1 (hb.2.2 hs) ?_
    intro hi
    rw [hi] at hrule
    have hrs := rule_get_start b.1 rule hrule
    refine prune_rule_edges_edgesLe R name rti hrti _ _ _ (rule1, c1) ?_ hprune
    simp only
    rw [hrs]
    exact hb.2.2 hs

theorem prune_symbols_min_nt (fuel0 name : Nat) (rti : HGraph) (g : SLHRGrammar)
    (syms : List Nat) (st st' : SLHRGrammar × Nat) (hI : st.1.min_nt = g.min_nt)
    (h : syms.foldlM
      (fun (st : SLHRGrammar × Nat) i => do
        let rule ← slhr_grammar_rule_get st.1 i
        let (rule, count) ← prune_rule_edges name rti fuel0 0 (rule, st.2)
        pure (slhr_grammar_rule_store st.1 i rule, count)) st = .ok st') :
    st'.1.min_nt = g.min_nt := by
  refine foldlM_inv _ (fun (s : SLHRGrammar × Nat) => s.1.min_nt = g.min_nt) _ _ _ h hI ?_
  intro b i b' _ hb hf
  obtain ⟨rule, hrule, hf⟩ := bind_ok hf
  obtain ⟨rc, hprune, hf⟩ := bind_ok hf
  cases hf
  rw [rule_store_min_nt]
  exact hb

theorem prune_loop_inv (R : Int) (fuel0 : Nat) :
    ∀ (fuel : Nat) (st : SLHRGrammar × Hashmap Nat Nat) (g' : SLHRGrammar),
      (0 < st.1.min_nt ∨ EdgesLe R st.1.start_symbol) → AllRules (EdgesLe R) st.1 →
      prune_loop fuel0 fuel st = .ok g' → AllRules (EdgesLe R) g' := by
  intro fuel
  induction fuel with
  | zero =>
    intro st g' _ _ h
    simp [prune_loop] at h
  | succ n ih =>
    intro st g' hpos hg h
    obtain ⟨g, rule_dict⟩ := st
    simp only [prune_loop] at h
    obtain ⟨x, _, h⟩ := bind_ok h
    split at h
    · cases h
      exact hg
    · rename_i name _
      obtain ⟨rti, hrti, h⟩ := bind_ok h
      obtain ⟨gc, hfold, h⟩ := bind_ok h
      obtain ⟨g1, count⟩ := gc
      simp only [] at h
      obtain ⟨rd1, _, h⟩ := bind_ok h
      obtain ⟨g2, hdel, h⟩ := bind_ok h
      have hmin : g1.min_nt = g.min_nt :=
        prune_symbols_min_nt fuel0 name rti g _ (g, 0) (g1, count) rfl hfold
      have hdel3 := (rule_del_inv (fun _ => True) g1 g2 name (fun _ _ => trivial) hdel).2.2
      rw [hmin] at hdel3
      have hle : EdgesLe R rti := by
        by_cases hne : name = START_SYMBOL
        · rcases hpos with hp | hp
          · exfalso
            unfold START_SYMBOL at hne
            simp only at hp
            omega
          · rw [hne] at hrti
            rw [rule_get_start g rti hrti]
            exact hp
        · exact hg rti (rule_get_mem g name rti hne hrti)
      have hI := prune_symbols_inv R fuel0 name rti hle g _ (g, 0) (g1, count)
        ⟨hg, rfl, fun hs => hs⟩ hfold
      obtain ⟨h1, h2, _⟩ := rule_del_inv _ g1 g2 name hI.1 hdel
      refine ih (g2, _) g' ?_ h1 h
      simp only at hpos ⊢
      rcases hpos with hp | hp
      · left
        rw [h2, hI.2.1]
        exact hp
      · right
        rw [rule_del_start g1 g2 name hdel]
        exact hI.2.2 hp

theorem repair_prune_inv (R : Int) (fuel : Nat) (g g' : SLHRGrammar)
    (hpos : 0 < g.min_nt ∨ EdgesLe R g.start_symbol)
    (hg : AllRules (EdgesLe R) g) (h : repair_prune fuel g = .ok g') :
    AllRules (EdgesLe R) g' := by
  unfold repair_prune at h
  obtain ⟨rd, _, h⟩ := bind_ok h
  exact prune_loop_inv R fuel fuel (g, rd) g' hpos hg h

theorem normalize_relabel_edgesLe (R : Int) (nt expected_nt : Nat) (graph graph' : HGraph)
    (hg : EdgesLe R graph) (h : normalize_relabel nt expected_nt graph = .ok graph') :
    EdgesLe R graph' := by
  unfold normalize_relabel at h
  refine foldlM_inv _ (EdgesLe R) _ _ _ h hg ?_
  intro b j b' _ hb hf
  obtain ⟨edge, he, hf⟩ := bind_ok hf
  split at hf
  · refine edgesLe_set R b j _ b' hb ?_ hf
    intro e' he'
    cases he'
    exact hb edge (hgraph_edge_deref_mem b j edge he)
  · cases hf
    exact hb

theorem normalize_step_inv (R : Int) (min_nt : Nat) (nts : List Nat) (g g' : SLHRGrammar)
    (k : Nat) (hg : AllRules (EdgesLe R) g) (h : normalize_step min_nt nts g k = .ok g') :
    AllRules (EdgesLe R) g' := by
  unfold normalize_step at h
  obtain ⟨nt, _, h⟩ := bind_ok h
  simp only [] at h
  split at h
  · obtain ⟨moved, hmoved, h⟩ := bind_ok h
    split at h
    · cases h
    · refine foldlM_inv _ (AllRules (EdgesLe R)) _ _ _ h ?_ ?_
      · intro x hx
        simp only at hx
        rcases mem_set_cases hx with h1 | h1
        · rcases mem_set_cases h1 with h2 | h2
          · exact hg x h2
          · refine hg x ?_
            rw [h2]
            exact arr_get_mem _ _ _ hmoved
        · cases h1
      · intro b i b' _ hb hf
        obtain ⟨graph, hgraph, hf⟩ := bind_ok hf
        obtain ⟨graph1, hrel, hf⟩ := bind_ok hf
        cases hf
        refine rule_store_all _ b i graph1 hb ?_
        intro hi
        exact normalize_relabel_edgesLe R _ _ graph graph1
          (hb graph (rule_get_mem b i graph hi hgraph)) hrel
  · cases h
    exact hg

theorem repair_normalize_inv (R : Int) (g g' : SLHRGrammar) (hg : AllRules (EdgesLe R) g)
    (h : repair_normalize g = .ok g') : AllRules (EdgesLe R) g' := by
  unfold repair_normalize at h
  split at h
  · cases h
    exact hg
  · simp only [] at h
    split at h
    · cases h
      exact hg
    · obtain ⟨g1, h1, h⟩ := bind_ok h
      cases h
      have := foldlM_inv _ (AllRules (EdgesLe R)) _ _ _ h1 hg
        (fun b k b' _ hb hf => normalize_step_inv R _ _ b b' _ hb hf)
      exact this

/-! ## The rank bound of the rule bodies -/

theorem allRules_mono (P Q : HGraph → Prop) (g : SLHRGrammar) (hPQ : ∀ r, P r → Q r)
    (h : AllRules P g) : AllRules Q g :=
  fun rule hr => hPQ rule (h rule hr)

theorem allRules_init (P : HGraph → Prop) (g : HGraph) (min_nt : Nat) :
    AllRules P (slhr_grammar_init g min_nt) := by
  intro rule hr
  simp [slhr_grammar_init] at hr

/-- C9 (amended): for every input graph whose edge labels are below `terminals`,
when monogram replacement is off (for every `max_rank`) or `max_rank` is at
least 5, every edge of every rule body of the grammar returned by `repair` has
rank at most `max_rank`. -/
theorem repair_body_rank_bound (fuel : Nat) (g : HGraph) (nodes terminals : Nat) (R : Int)
    (mono : Bool) (gr : SLHRGrammar)
    (hl : ∀ e, some e ∈ g.edges → e.label < terminals) (hR : mono = false ∨ 5 ≤ R)
    (h : repair fuel g nodes terminals R mono = .ok gr) : BodyRankBound gr R := by
  have hstart : 0 < terminals ∨ NoEdges g := by
    by_cases hpos : 0 < terminals
    · exact Or.inl hpos
    · right
      intro e he
      have := hl e he
      omega
  have tail2 : ∀ g2 : SLHRGrammar, AllRules (EdgesLe R) g2 → g2.min_nt = terminals →
      (0 < terminals ∨ NoEdges g2.start_symbol) →
      (do let gr ← repair_prune fuel g2
          repair_normalize gr) = .ok gr → BodyRankBound gr R := by
    intro g2 a2 m2 n2 h2
    obtain ⟨g3, h3, h2⟩ := bind_ok h2
    refine repair_normalize_inv R g3 gr (repair_prune_inv R fuel g2 g3 ?_ a2 h3) h2
    rcases n2 with hp | hp
    · left
      rw [m2]
      exact hp
    · exact Or.inr (noEdges_edgesLe R _ hp)
  have tail1 : ∀ g1 : SLHRGrammar, AllRules (RuleOK R 1) g1 → g1.min_nt = terminals →
      (0 < terminals ∨ NoEdges g1.start_symbol) →
      (if mono = true then do
          let y ← repair_replace_monograms fuel g1
          let gr ← repair_prune fuel y
          repair_normalize gr
        else do
          let y ← pure g1
          let gr ← repair_prune fuel y
          repair_normalize gr) = .ok gr → BodyRankBound gr R := by
    intro g1 a1 m1 n1 h1
    split at h1
    · rename_i hm
      have h5 : 5 ≤ R := by
        rcases hR with hf | h5
        · rw [hf] at hm
          cases hm
        · exact h5
      have hconv : ∀ r, RuleOK R 1 r → RuleLe R r := by
        intro r hr
        have h6 := hr.2.1
        rw [max_eq_left h5] at h6
        exact ⟨h6, hr.2.2⟩
      obtain ⟨g2, h2, h1⟩ := bind_ok h1
      exact tail2 g2
        (allRules_mono _ _ g2 (fun r hr => hr.2)
          (replace_monograms_rules R (by omega) fuel g1 g2 (allRules_mono _ _ g1 hconv a1) h2))
        ((replace_monograms_min_nt fuel g1 g2 h2).trans m1)
        (n1.imp id (fun hn => replace_monograms_noEdges fuel g1 g2 hn h2)) h1
    · simp only [pure_eq_ok, ok_bind] at h1
      exact tail2 g1 (allRules_mono _ _ g1 (fun r hr => hr.2.2) a1) m1 n1 h1
  unfold repair at h
  simp only [] at h
  split at h
  · rename_i hgt
    obtain ⟨g1, h1, h⟩ := bind_ok h
    exact tail1 g1
      (replace_digrams_rules R (by omega) fuel _ g1 nodes (allRules_init _ g terminals) hl h1)
      (replace_digrams_min_nt R fuel _ g1 nodes h1)
      (hstart.imp id (fun hn => replace_digrams_noEdges R fuel _ g1 nodes hn h1)) h
  · simp only [pure_eq_ok, ok_bind] at h
    exact tail1 _ (allRules_init _ g terminals) rfl hstart h

theorem repair_body_rank_bound_witness :
    repair 100 pathsGraph 28 1 4 false = .ok pathsGrammar ∧ BodyRankBound pathsGrammar 4 :=
  ⟨by decide!,
    repair_body_rank_bound 100 pathsGraph 28 1 4 false pathsGrammar
      (fun e he =>
        (by decide : ∀ x ∈ pathsGraph.edges, ∀ e ∈ x, e.label < 1) (some e) he e rfl)
      (Or.inl rfl) (by decide!)⟩
/-! ## The non-terminal table holds derived labels only -/

theorem derives_trans (g : SLHRGrammar) (A B t : Nat) (h1 : Derives g A B)
    (hB : g.min_nt ≤ B) (h2 : Derives g B t) : Derives g A t := by
  induction h1 with
  | direct A B r e hr he hl => exact Derives.step A B t r e hr he hl hB h2
  | step A C B r e hr he hl hC _ ih => exact Derives.step A C t r e hr he hl hC (ih hB h2)

theorem idx_inj {W i c i0 c0 : Nat} (hc : c < W) (hc0 : c0 < W)
    (h : i * W + c = i0 * W + c0) : i = i0 ∧ c = c0 := by
  have h1 : (i * W + c) / W = i := by
    rw [Nat.mul_comm, Nat.mul_add_div (by omega), Nat.div_eq_of_lt hc, Nat.add_zero]
  have h2 : (i0 * W + c0) / W = i0 := by
    rw [Nat.mul_comm, Nat.mul_add_div (by omega), Nat.div_eq_of_lt hc0, Nat.add_zero]
  have hi : i = i0 := by rw [← h1, ← h2, h]
  subst hi
  exact ⟨rfl, by omega⟩

/-- Setting the entry of a derivation keeps the table sound. -/
theorem tableSound_set (g : SLHRGrammar) (N W : Nat) (T : BitArray) (i0 c0 : Nat) (v : Bool)
    (hT : TableSound g N W T) (hc0 : c0 < W)
    (hv : v = true → Derives g (g.min_nt + i0) c0) :
    TableSound g N W (T.set (i0 * W + c0) v) := by
  refine ⟨by rw [List.length_set]; exact hT.1, ?_⟩
  intro i c hi hc h
  by_cases hq : i * W + c = i0 * W + c0
  · obtain ⟨e1, e2⟩ := idx_inj hc hc0 hq
    subst e1 e2
    have hlt : i * W + c < T.length := by rw [hT.1]; exact idx_lt hi hc
    rw [getD_set_eq T _ v hlt] at h
    exact hv h
  · rw [getD_set_ne T _ _ v hq] at h
    exact hT.2 i c hi hc h

theorem mark_rule_sound (g : SLHRGrammar) (N W i : Nat) (r : HGraph) (T T1 : BitArray)
    (hT : TableSound g N W T) (hr : slhr_grammar_rule_get g (g.min_nt + i) = .ok r)
    (hl : ∀ oe ∈ r.edges, ∃ e, oe = some e ∧ e.label < W)
    (hrun : nt_table_mark_rule W i r T = .ok T1) : TableSound g N W T1 := by
  unfold nt_table_mark_rule at hrun
  refine foldlM_inv _ (TableSound g N W) _ T T1 hrun hT ?_
  intro b j b1 _ hb hstep
  obtain ⟨e, he, hset⟩ := bind_ok hstep
  have hmem := hgraph_edge_deref_mem r j e he
  obtain ⟨e1, he1, hlab⟩ := hl _ hmem
  have hee : e1 = e := (Option.some.inj he1).symm
  subst hee
  unfold bitarray_set at hset
  split at hset
  · cases hset
    exact tableSound_set g N W b i e1.label true hb hlab
      (fun _ => Derives.direct _ _ r e1 hr hmem rfl)
  · cases hset

theorem mark_sound (g : SLHRGrammar) (N W : Nat) (T T1 : BitArray)
    (hT : TableSound g N W T)
    (hg : ∀ i, i < N → ∃ r, slhr_grammar_rule_get g (g.min_nt + i) = .ok r ∧
      ∀ oe ∈ r.edges, ∃ e, oe = some e ∧ e.label < W)
    (hrun : nt_table_mark g N W T = .ok T1) : TableSound g N W T1 := by
  unfold nt_table_mark at hrun
  refine foldlM_inv _ (TableSound g N W) _ T T1 hrun hT ?_
  intro b i b1 hi hb hstep
  obtain ⟨r, hr, hmark⟩ := bind_ok hstep
  obtain ⟨r1, hr1, hl⟩ := hg i (List.mem_range.mp hi)
  have hrr : r1 = r := by
    rw [hr1] at hr
    exact Except.ok.inj hr
  subst hrr
  exact mark_rule_sound g N W i r1 b b1 hb hr1 hl hmark

theorem closure_step_sound (g : SLHRGrammar) (terminals N W k i j : Nat) (T T1 : BitArray)
    (hmin : g.min_nt = terminals) (hT : TableSound g N W T) (hW : W = terminals + N)
    (hi : i < N) (hk : k < N) (hj : j < W)
    (hrun : nt_table_closure_step terminals W k i T j = .ok T1) : TableSound g N W T1 := by
  have hij : i * W + j < T.length := by rw [hT.1]; exact idx_lt hi hj
  have hik : i * W + terminals + k < T.length := by
    rw [hT.1, Nat.add_assoc]; exact idx_lt hi (by omega)
  have hkj : k * W + j < T.length := by rw [hT.1]; exact idx_lt hk hj
  unfold nt_table_closure_step at hrun
  simp only [bitarray_get_ok T _ hij, bitarray_get_ok T _ hik, bitarray_get_ok T _ hkj,
    ok_bind] at hrun
  cases h1 : T.getD (i * W + j) false
  · rw [h1] at hrun
    simp only [Bool.not_false, if_true] at hrun
    cases h2 : T.getD (i * W + terminals + k) false
    · rw [h2] at hrun
      simp only [Bool.false_eq_true, if_false, pure_eq_ok, ok_bind] at hrun
      rw [bitarray_set_ok T _ _ hij] at hrun
      cases hrun
      exact tableSound_set g N W T i j false hT hj (fun h => absurd h (by decide))
    · rw [h2] at hrun
      simp only [if_true, ok_bind] at hrun
      rw [bitarray_set_ok T _ _ hij] at hrun
      cases hrun
      refine tableSound_set g N W T i j _ hT hj ?_
      intro h3
      have d1 : Derives g (g.min_nt + i) (terminals + k) :=
        hT.2 i (terminals + k) hi (by omega) (by rw [← Nat.add_assoc]; exact h2)
      have d2 : Derives g (g.min_nt + k) j := hT.2 k j hk hj h3
      rw [← hmin] at d1
      exact derives_trans g _ _ _ d1 (Nat.le_add_right _ _) d2
  · rw [h1] at hrun
    simp only [Bool.not_true, Bool.false_eq_true, if_false, pure_eq_ok] at hrun
    cases hrun
    exact hT

theorem closure_sound (g : SLHRGrammar) (terminals N W : Nat) (T T1 : BitArray)
    (hmin : g.min_nt = terminals) (hT : TableSound g N W T) (hW : W = terminals + N)
    (hrun : nt_table_closure terminals N W T = .ok T1) : TableSound g N W T1 := by
  unfold nt_table_closure at hrun
  refine foldlM_inv _ (TableSound g N W) _ T T1 hrun hT ?_
  intro b k b1 hk hb hstep
  unfold nt_table_closure_k at hstep
  refine foldlM_inv _ (TableSound g N W) _ b b1 hstep hb ?_
  intro c i c1 hi hc hrow
  refine foldlM_inv _ (TableSound g N W) _ c c1 hrow hc ?_
  intro d j d1 hj hd hs
  exact closure_step_sound g terminals N W k i j d d1 hmin hd hW (List.mem_range.mp hi)
    (List.mem_range.mp hk) (List.mem_range.mp hj) hs

theorem edges_sound (terminals N W : Nat) (T : BitArray) (es : List K2Edge)
    (hrun : nt_table_edges terminals N W T = .ok es) :
    ∀ x ∈ es, x.xval < terminals ∧ x.yval < N ∧
      T.getD (x.yval * W + x.xval) false = true := by
  unfold nt_table_edges at hrun
  refine foldlM_inv _ (fun (es : List K2Edge) => ∀ x ∈ es, x.xval < terminals ∧ x.yval < N ∧
      T.getD (x.yval * W + x.xval) false = true) _ [] es hrun
    (fun x hx => absurd hx (List.not_mem_nil _)) ?_
  intro b i b1 hi hb hrow
  unfold nt_table_edges_row at hrow
  refine foldlM_inv _ (fun (es : List K2Edge) => ∀ x ∈ es, x.xval < terminals ∧ x.yval < N ∧
      T.getD (x.yval * W + x.xval) false = true) _ b b1 hrow hb ?_
  intro c j c1 hj hc hs
  obtain ⟨v, hv, hs2⟩ := bind_ok hs
  cases v with
  | false =>
    simp only [Bool.false_eq_true, if_false, pure_eq_ok] at hs2
    cases hs2
    exact hc
  | true =>
    simp only [if_true, pure_eq_ok] at hs2
    cases hs2
    intro x hx
    rcases List.mem_append.mp hx with hx | hx
    · exact hc x hx
    · rw [List.mem_singleton.mp hx]
      refine ⟨List.mem_range.mp hj, List.mem_range.mp hi, ?_⟩
      by_cases hlt : i * W + j < T.length
      · rw [bitarray_get_ok T _ hlt] at hv
        exact Except.ok.inj hv
      · unfold bitarray_get at hv
        rw [dif_neg hlt] at hv
        cases hv

/-- C37 (`slhr_grammar_write_nt_table`): for a normalized grammar the function
returns normally, and the list it hands to `k2_write` for a matrix of
`terminals` columns and `nt_count` rows holds the pair `(x = t, y)` exactly
when `t` is a terminal label, `y` is the row of a non-terminal and an edge
with the label `t` occurs in the full derivation of the non-terminal
`min_nt + y`, directly or through other non-terminals: a pair is handed over
only for a label the non-terminal derives, and for every such label. -/
theorem nt_table_only_derived (g : SLHRGrammar) (terminals : Nat)
    (hN : Normalized g terminals) :
    ∃ es, slhr_grammar_write_nt_table g terminals = .ok (terminals, nt_count g, es) ∧
      (∀ t y, ({ xval := t, yval := y } : K2Edge) ∈ es ↔
        (t < terminals ∧ y < nt_count g ∧ Derives g (g.min_nt + y) t)) ∧
      (∀ A t, g.min_nt ≤ A → ({ xval := t, yval := A - g.min_nt } : K2Edge) ∈ es →
        Derives g A t) := by
  have hmin : g.min_nt = terminals := hN.1
  have hlen0 : (bitarray_init (nt_count g * (terminals + nt_count g))).length =
      nt_count g * (terminals + nt_count g) := by simp [bitarray_init]
  have hs0 : TableSound g (nt_count g) (terminals + nt_count g)
      (bitarray_init (nt_count g * (terminals + nt_count g))) := by
    refine ⟨hlen0, ?_⟩
    intro i c _ _ h
    unfold bitarray_init at h
    rw [List.getD_eq_getElem?_getD, List.getElem?_replicate] at h
    split at h <;> simp at h
  obtain ⟨T1, hmark, hlen1, hT1⟩ :=
    mark_spec g (nt_count g) (terminals + nt_count g) _ hlen0 hN.2
  obtain ⟨T2, hclo, hmono, hT2⟩ :=
    closure_spec terminals (nt_count g) (terminals + nt_count g) T1 rfl hlen1
  have hlen2 : T2.length = nt_count g * (terminals + nt_count g) := by rw [hmono.1, hlen1]
  obtain ⟨es, hes, hmem⟩ :=
    edges_spec terminals (nt_count g) (terminals + nt_count g) T2 (Nat.le_add_right _ _) hlen2
  have hs1 := mark_sound g _ _ _ T1 hs0 hN.2 hmark
  have hs2 := closure_sound g terminals _ _ T1 T2 hmin hs1 rfl hclo
  have hes2 := edges_sound terminals _ _ T2 es hes
  have hiff : ∀ t y, ({ xval := t, yval := y } : K2Edge) ∈ es ↔
      (t < terminals ∧ y < nt_count g ∧ Derives g (g.min_nt + y) t) := by
    intro t y
    constructor
    · intro h
      obtain ⟨h1, h2, h3⟩ := hes2 _ h
      exact ⟨h1, h2, hs2.2 y t h2 (by simp only at h1; omega) h3⟩
    · intro ⟨h1, h2, h3⟩
      obtain ⟨p, hp, hch⟩ := derives_chain g terminals T1 hN hT1 _ t h3 y rfl h2
      exact hmem _ h2 t h1 (hT2 _ h2 t (by omega) p hp hch)
  refine ⟨es, ?_, hiff, ?_⟩
  · unfold slhr_grammar_write_nt_table
    simp only [hmark, hclo, hes, ok_bind, pure_eq_ok]
  · intro A t hA h
    have := ((hiff t (A - g.min_nt)).mp h).2.2
    rw [Nat.add_sub_cancel' hA] at this
    exact this

theorem nt_table_only_derived_witness :
    Normalized ntTableExample 1 ∧
    ∃ es, slhr_grammar_write_nt_table ntTableExample 1 =
        .ok (1, nt_count ntTableExample, es) ∧
      (∀ t y, ({ xval := t, yval := y } : K2Edge) ∈ es ↔
        (t < 1 ∧ y < nt_count ntTableExample ∧
          Derives ntTableExample (ntTableExample.min_nt + y) t)) ∧
      (∀ A t, ntTableExample.min_nt ≤ A →
        ({ xval := t, yval := A - ntTableExample.min_nt } : K2Edge) ∈ es →
        Derives ntTableExample A t) :=
  ⟨ntTableExample_normalized, nt_table_only_derived ntTableExample 1 ntTableExample_normalized⟩
/-! ## The rule of a digram and its use -/

theorem mapM_ok_map {α β : Type} (f : α → Except Err β) (g : α → β) :
    ∀ xs : List α, (∀ x ∈ xs, f x = .ok (g x)) → xs.mapM f = .ok (xs.map g) := by
  intro xs
  induction xs with
  | nil => intro _; rfl
  | cons x xs ih =>
    intro h
    rw [List.mapM_cons, h x (List.mem_cons_self _ _), ok_bind,
      ih (fun y hy => h y (List.mem_cons_of_mem _ hy)), ok_bind]
    rfl

theorem range_map_getD (l : List Nat) (n : Nat) (h : l.length = n) :
    (List.range n).map (fun j => l.getD j 0) = l := by
  apply List.ext_getElem
  · rw [List.length_map, List.length_range, h]
  · intro i h1 h2
    rw [List.getElem_map, List.getElem_range, List.getD_eq_getElem?_getD,
      List.getElem?_eq_getElem h2, Option.getD_some]

theorem arr_get_ok (l : List Nat) (i : Nat) (h : i < l.length) :
    arr_get l i = .ok (l.getD i 0) := by
  unfold arr_get
  rw [List.getD_eq_getElem?_getD, List.getElem?_eq_getElem h]
  simp [List.get?_eq_getElem?, List.getElem?_eq_getElem h]

/-- The copy loop of `rule_creator_digram_new_edge` gives the nodes of the edge
without the one at `conn_type`. -/
theorem copy_nodes_except_spec (e : HEdge) (c : Nat) (hn : e.nodes.length = e.rank)
    (hc : c < e.rank) :
    copy_nodes_except e c = .ok (e.nodes.take c ++ e.nodes.drop (c + 1)) := by
  unfold copy_nodes_except
  obtain ⟨r, hr, hinv⟩ := range_foldlM_inv
    (fun acc i => if i = c then pure acc else do
      let v ← arr_get e.nodes i
      pure (acc ++ [v]))
    (fun k acc => acc = e.nodes.take (min k c) ++ (e.nodes.drop (c + 1)).take (k - (c + 1)))
    e.rank [] (by simp)
    (by
      intro k hk acc hacc
      by_cases hkc : k = c
      · refine ⟨acc, by dsimp only; rw [if_pos hkc]; rfl, ?_⟩
        dsimp only
        rw [hacc, hkc]
        have e1 : min (c + 1) c = min c c := by omega
        have e2 : c + 1 - (c + 1) = c - (c + 1) := by omega
        rw [e1, e2]
      · refine ⟨acc ++ [e.nodes.getD k 0], ?_, ?_⟩
        · dsimp only
          rw [if_neg hkc, arr_get_ok e.nodes k (by omega), ok_bind]
          rfl
        · dsimp only
          rw [hacc]
          by_cases hlt : k < c
          · have e1 : min (k + 1) c = k + 1 := by omega
            have e2 : min k c = k := by omega
            have e3 : k + 1 - (c + 1) = 0 := by omega
            have e4 : k - (c + 1) = 0 := by omega
            rw [e1, e2, e3, e4, List.take_zero, List.append_nil, List.append_nil,
              List.take_succ, List.getD_eq_getElem?_getD,
              List.getElem?_eq_getElem (by omega : k < e.nodes.length)]
            rfl
          · have e1 : min (k + 1) c = c := by omega
            have e2 : min k c = c := by omega
            have e3 : k + 1 - (c + 1) = (k - (c + 1)) + 1 := by omega
            rw [e1, e2, e3, List.take_succ, List.append_assoc]
            congr 2
            rw [List.getElem?_drop, List.getD_eq_getElem?_getD]
            have e5 : c + 1 + (k - (c + 1)) = k := by omega
            rw [e5, List.getElem?_eq_getElem (by omega : k < e.nodes.length)]
            rfl)
  rw [hr, hinv]
  have e1 : min e.rank c = c := by omega
  have e2 : List.take (e.rank - (c + 1)) (List.drop (c + 1) e.nodes) =
      List.drop (c + 1) e.nodes :=
    List.take_of_length_le (by rw [List.length_drop]; omega)
  rw [e1, e2]

theorem getD_take_drop (l : List Nat) (c j : Nat) (hc : c < l.length) :
    (l.take c ++ l.drop (c + 1)).getD j 0 = if j < c then l.getD j 0 else l.getD (j + 1) 0 := by
  rw [List.getD_eq_getElem?_getD, List.getD_eq_getElem?_getD, List.getD_eq_getElem?_getD]
  by_cases hj : j < c
  · rw [if_pos hj, List.getElem?_append_left (by rw [List.length_take]; omega),
      List.getElem?_take_of_lt hj]
  · rw [if_neg hj, List.getElem?_append_right (by rw [List.length_take]; omega),
      List.length_take, List.getElem?_drop]
    congr 2
    omega

/-- The nodes of an edge that `rule_inserter_edges_for_hyperedge` makes from
the body edge which `digram_build_edge` gave for the edge `e`: they are the
nodes of `e` when the new edge has the shared node first and the other nodes
of `e` from the position `off` on. -/
theorem digram_subst_nodes (e : HEdge) (c off : Nat) (hyper : List Nat)
    (hn : e.nodes.length = e.rank) (hc : c < e.rank) (hoff : 1 ≤ off)
    (h0 : hyper.getD 0 0 = e.nodes.getD c 0)
    (hlen : off + e.rank - 1 ≤ hyper.length)
    (hrest : ∀ j, j < e.rank - 1 →
      hyper.getD (off + j) 0 = (e.nodes.take c ++ e.nodes.drop (c + 1)).getD j 0) :
    (List.range (digram_build_edge e.label c e.rank off).rank).mapM (fun j => do
        let k ← arr_get (digram_build_edge e.label c e.rank off).nodes j
        arr_get hyper k) = .ok e.nodes := by
  have hr : (digram_build_edge e.label c e.rank off).rank = e.rank := rfl
  rw [hr, mapM_ok_map _ (fun j => e.nodes.getD j 0), range_map_getD e.nodes e.rank hn]
  intro j hj
  have hj1 : j < e.rank := List.mem_range.mp hj
  have hbl : (digram_build_edge e.label c e.rank off).nodes.length = e.rank := by
    simp [digram_build_edge]
  have hb : (digram_build_edge e.label c e.rank off).nodes.getD j 0 =
      if j < c then off + j else if j = c then 0 else off + j - 1 := by
    unfold digram_build_edge
    simp only
    rw [List.getD_eq_getElem?_getD, List.getElem?_map, List.getElem?_range hj1]
    rfl
  rw [arr_get_ok _ j (by omega), ok_bind, hb]
  by_cases h1 : j < c
  · rw [if_pos h1, arr_get_ok _ _ (by omega), hrest j (by omega),
      getD_take_drop e.nodes c j (by omega), if_pos h1]
  · rw [if_neg h1]
    by_cases h2 : j = c
    · rw [if_pos h2, arr_get_ok _ _ (by omega), h0, h2]
    · rw [if_neg h2, arr_get_ok _ _ (by omega)]
      have e1 : off + j - 1 = off + (j - 1) := by omega
      have e2 : j - 1 + 1 = j := by omega
      rw [e1, hrest (j - 1) (by omega), getD_take_drop e.nodes c (j - 1) (by omega),
        if_neg (by omega), e2]

theorem digram_build_edge_nodes_lt (label c r off n : Nat) (hc : c < r) (hoff : 1 ≤ off)
    (hn : off + r - 1 ≤ n) :
    ∀ v ∈ (digram_build_edge label c r off).nodes, v < n := by
  intro v hv
  unfold digram_build_edge at hv
  simp only [List.mem_map, List.mem_range] at hv
  obtain ⟨i, hi, rfl⟩ := hv
  split
  · omega
  · split <;> omega

/-- C35 (`digram_build_edge`, `rule_creator_digram_init`,
`rule_creator_digram_new_edge`, `rule_inserter_edges_for_hyperedge`): for a
digram `((l0, c0), (l1, c1))` and two edges `e0` with the label `l0` and `e1`
with the label `l1` that have their nodes, share the node `e0.nodes[c0] =
e1.nodes[c1]` and have the ranks the grammar reports for their labels, the rule
creator gives a rule and a new edge such that the new edge carries the name of
the rule, has the rank `rank(e0) + rank(e1) - 1`, which is the declared rank of
the rule, every node of the two body edges is below that rank, and
`rule_inserter_edges_for_hyperedge` puts `e0` in the place of the new edge and
`e1` at the end of the rule into which the body is inserted. -/
theorem digram_rule_insert_roundtrip (g : SLHRGrammar) (d : Digram) (e0 e1 : HEdge)
    (rule : HGraph) (index : Nat)
    (hl0 : e0.label = d.adj0.label) (hl1 : e1.label = d.adj1.label)
    (hn0 : e0.nodes.length = e0.rank) (hn1 : e1.nodes.length = e1.rank)
    (hc0 : d.adj0.conn_type < e0.rank) (hc1 : d.adj1.conn_type < e1.rank)
    (hsh : e0.nodes.getD d.adj0.conn_type 0 = e1.nodes.getD d.adj1.conn_type 0)
    (hr0 : slhr_grammar_rank_of_rule g d.adj0.label = .ok (e0.rank : Int))
    (hr1 : slhr_grammar_rank_of_rule g d.adj1.label = .ok (e1.rank : Int))
    (hidx : index < rule.edges.length) :
    ∃ c ne, rule_creator_digram_init g d = .ok c ∧
      rule_creator_digram_new_edge c e0 e1 = .ok ne ∧
      ne.label = c.rule_name ∧ ne.rank = e0.rank + e1.rank - 1 ∧
      ne.nodes.length = ne.rank ∧ c.rule.rank = (ne.rank : Int) ∧
      c.rule.edges.length = 2 ∧
      (∀ b, some b ∈ c.rule.edges → ∀ v ∈ b.nodes, v < ne.rank) ∧
      rule_inserter_edges_for_hyperedge c.rule rule ne index =
        .ok { rule with edges := rule.edges.set index (some e0) ++ [some e1] } := by
  have hn1len : (e0.nodes.take d.adj0.conn_type ++ e0.nodes.drop (d.adj0.conn_type + 1)).length =
      e0.rank - 1 := by
    rw [List.length_append, List.length_take, List.length_drop]
    omega
  have hn2len : (e1.nodes.take d.adj1.conn_type ++ e1.nodes.drop (d.adj1.conn_type + 1)).length =
      e1.rank - 1 := by
    rw [List.length_append, List.length_take, List.length_drop]
    omega
  have hinit : rule_creator_digram_init g d = .ok
      { digram := d, rule_name := slhr_grammar_unused_nt g
        rule := hgraph_add_edge (hgraph_add_edge (hgraph_init ((e0.rank : Int) + e1.rank - 1))
          (digram_build_edge e0.label d.adj0.conn_type e0.rank 1))
          (digram_build_edge e1.label d.adj1.conn_type e1.rank e0.rank) } := by
    unfold rule_creator_digram_init
    rw [hr0, ok_bind, hr1, ok_bind, if_neg (by omega), hl0, hl1]
    rfl
  have hnew : rule_creator_digram_new_edge
      { digram := d, rule_name := slhr_grammar_unused_nt g
        rule := hgraph_add_edge (hgraph_add_edge (hgraph_init ((e0.rank : Int) + e1.rank - 1))
          (digram_build_edge e0.label d.adj0.conn_type e0.rank 1))
          (digram_build_edge e1.label d.adj1.conn_type e1.rank e0.rank) } e0 e1 = .ok
      { label := slhr_grammar_unused_nt g, rank := e0.rank + e1.rank - 1
        nodes := e0.nodes.getD d.adj0.conn_type 0 ::
          ((e0.nodes.take d.adj0.conn_type ++ e0.nodes.drop (d.adj0.conn_type + 1)) ++
           (e1.nodes.take d.adj1.conn_type ++ e1.nodes.drop (d.adj1.conn_type + 1))) } := by
    unfold rule_creator_digram_new_edge
    simp only
    rw [arr_get_ok e0.nodes _ (by omega), ok_bind, copy_nodes_except_spec e0 _ hn0 hc0, ok_bind,
      copy_nodes_except_spec e1 _ hn1 hc1, ok_bind, if_pos]
    · rfl
    · rw [List.length_cons, List.length_append, hn1len, hn2len]
      omega
  refine ⟨_, _, hinit, hnew, rfl, rfl, ?_, ?_, rfl, ?_, ?_⟩
  · simp only
    rw [List.length_cons, List.length_append, hn1len, hn2len]
    omega
  · simp only [hgraph_add_edge, hgraph_init]
    omega
  · intro b hb v hv
    simp only [hgraph_add_edge, hgraph_init, List.nil_append, List.mem_append, List.mem_cons,
      List.mem_singleton, List.not_mem_nil, or_false, Option.some.injEq] at hb
    show v < e0.rank + e1.rank - 1
    rcases hb with hb | hb
    · rw [hb] at hv
      exact digram_build_edge_nodes_lt _ _ _ _ (e0.rank + e1.rank - 1) hc0 (Nat.le_refl 1)
        (by omega) v hv
    · rw [hb] at hv
      exact digram_build_edge_nodes_lt _ _ _ _ (e0.rank + e1.rank - 1) hc1 (by omega)
        (by omega) v hv
  · have hs0 := digram_subst_nodes e0 d.adj0.conn_type 1
      (e0.nodes.getD d.adj0.conn_type 0 ::
        ((e0.nodes.take d.adj0.conn_type ++ e0.nodes.drop (d.adj0.conn_type + 1)) ++
         (e1.nodes.take d.adj1.conn_type ++ e1.nodes.drop (d.adj1.conn_type + 1))))
      hn0 hc0 (Nat.le_refl 1) rfl
      (by rw [List.length_cons, List.length_append, hn1len, hn2len]; omega)
      (by
        intro j hj
        rw [Nat.add_comm 1 j, List.getD_eq_getElem?_getD, List.getElem?_cons_succ,
          List.getElem?_append_left (by rw [hn1len]; exact hj), ← List.getD_eq_getElem?_getD])
    have hs1 := digram_subst_nodes e1 d.adj1.conn_type e0.rank
      (e0.nodes.getD d.adj0.conn_type 0 ::
        ((e0.nodes.take d.adj0.conn_type ++ e0.nodes.drop (d.adj0.conn_type + 1)) ++
         (e1.nodes.take d.adj1.conn_type ++ e1.nodes.drop (d.adj1.conn_type + 1))))
      hn1 hc1 (by omega) hsh
      (by rw [List.length_cons, List.length_append, hn1len, hn2len]; omega)
      (by
        intro j hj
        have e1 : e0.rank + j = (e0.rank - 1 + j) + 1 := by omega
        rw [e1, List.getD_eq_getElem?_getD, List.getElem?_cons_succ,
          List.getElem?_append_right (by rw [hn1len]; omega), hn1len,
          ← List.getD_eq_getElem?_getD]
        congr 1
        omega)
    unfold rule_inserter_edges_for_hyperedge hgraph_len
    simp only [hgraph_add_edge, hgraph_init, List.nil_append, List.length_cons,
      List.length_append, List.length_nil, List.length_singleton]
    have er : List.range (0 + 1 + 1) = [0, 1] := rfl
    rw [er]
    simp only [List.foldlM_cons, List.foldlM_nil]
    have hd0 : hgraph_edge_deref
        { edges := [some (digram_build_edge e0.label d.adj0.conn_type e0.rank 1)] ++
            [some (digram_build_edge e1.label d.adj1.conn_type e1.rank e0.rank)],
          rank := (e0.rank : Int) + e1.rank - 1 } 0 =
        .ok (digram_build_edge e0.label d.adj0.conn_type e0.rank 1) := rfl
    have hd1 : hgraph_edge_deref
        { edges := [some (digram_build_edge e0.label d.adj0.conn_type e0.rank 1)] ++
            [some (digram_build_edge e1.label d.adj1.conn_type e1.rank e0.rank)],
          rank := (e0.rank : Int) + e1.rank - 1 } 1 =
        .ok (digram_build_edge e1.label d.adj1.conn_type e1.rank e0.rank) := rfl
    rw [hd0, ok_bind, hs0, ok_bind, if_pos trivial]
    unfold hgraph_edge_set
    rw [if_pos hidx, ok_bind, hd1, ok_bind, hs1, ok_bind]
    simp only [if_false]
    rfl

theorem digram_rule_insert_roundtrip_witness :
    ∃ c ne,
      rule_creator_digram_init (slhr_grammar_init ⟨[], -1⟩ 2) ⟨⟨0, 2⟩, ⟨1, 0⟩⟩ = .ok c ∧
      rule_creator_digram_new_edge c ⟨0, 3, [5, 6, 7]⟩ ⟨1, 3, [7, 8, 9]⟩ = .ok ne ∧
      ne.label = c.rule_name ∧ ne.rank = 3 + 3 - 1 ∧
      ne.nodes.length = ne.rank ∧ c.rule.rank = (ne.rank : Int) ∧
      c.rule.edges.length = 2 ∧
      (∀ b, some b ∈ c.rule.edges → ∀ v ∈ b.nodes, v < ne.rank) ∧
      rule_inserter_edges_for_hyperedge c.rule ⟨[some ⟨2, 5, [7, 5, 6, 8, 9]⟩], -1⟩ ne 0 =
        .ok { edges := [some ⟨0, 3, [5, 6, 7]⟩, some ⟨1, 3, [7, 8, 9]⟩], rank := -1 } :=
  digram_rule_insert_roundtrip (slhr_grammar_init ⟨[], -1⟩ 2) ⟨⟨0, 2⟩, ⟨1, 0⟩⟩
    ⟨0, 3, [5, 6, 7]⟩ ⟨1, 3, [7, 8, 9]⟩ ⟨[some ⟨2, 5, [7, 5, 6, 8, 9]⟩], -1⟩ 0
    rfl rfl rfl rfl (by decide) (by decide) rfl rfl rfl (by decide)
namespace Collections

/-- C39 (`intset_add`, `intset_contains`): the bit of a value inside its bucket
is computed as `1 << (v % bucket_size)` on the `int` constant 1.  On a fresh
set `intset_add(524319)` widens the buckets to 32 bits and shifts by 31, and
`intset_add(137438953512)` widens them to 64 bits and shifts by 40: C leaves
both shifts undefined, so the set is not defined after these calls and
`intset_contains` has nothing to answer from.  With positions below 31 the set
answers as the claim says, also after the table has grown and the buckets have
widened from 16 to 32 bits: after adding 3, 70000, 524293, 3, 19, 100000, 7
and 524318 exactly these values are contained. -/
theorem intset_add_shift_undefined :
    intset_add intset_init 524319 = .error .undefined ∧
    intset_add intset_init 137438953512 = .error .undefined ∧
    (do
      let s ← intset_add intset_init 137438953480
      intset_contains s 137438953512) = .error .undefined ∧
    (do
      let s ← intset_add_all intset_init [3, 70000, 524293, 3, 19, 100000, 7, 524318]
      let r ← [3, 4, 70000, 70001, 524293, 19, 100000, 7, 8, 524318, 524317].mapM
        (intset_contains s)
      pure (s.encoding, s.table_length, r)) =
      .ok (4, 32, [true, false, true, false, true, true, true, true, false, true, false]) := by
  decide!

end Collections
/-- C14 (`fmindex_locate`): the dictionary text of the labels `[1]` and `[2]`
is `\0 1 \0 2 \0`; the pattern `\0 \0` occurs at no position of it, yet
`fmindex_locate` reports a match with a range of one row, without and with
run-length encoding (the match runs from the last byte of the text over to
the first); for the pattern `[3]`, whose byte is above every byte of the
text, it panics instead of reporting no match. -/
theorem fmindex_locate_wraps_around :
    dict_concat_text [⟨[1], true, false⟩, ⟨[2], true, false⟩] = [0, 1, 0, 2, 0] ∧
    text_occurrences [0, 1, 0, 2, 0] [0, 0] = [] ∧
    (fm_index_written [0, 1, 0, 2, 0] 0 (dict_separators [0, 1, 0, 2, 0]) false
      >>= fun f => fmindex_locate f [0, 0]) = .ok (true, 0, 0) ∧
    (fm_index_written [0, 1, 0, 2, 0] 0 (dict_separators [0, 1, 0, 2, 0]) true
      >>= fun f => fmindex_locate f [0, 0]) = .ok (true, 0, 0) ∧
    (fm_index_written [0, 1, 0, 2, 0] 0 (dict_separators [0, 1, 0, 2, 0]) false
      >>= fun f => fmindex_locate f [3]) = .error .panic := by
  decide!

/-- C27: on a writer handle that has already been compressed,
`cgraphw_add_edge`, `cgraphw_add_node` and `cgraphw_compress` each return -1
and leave the handle as it is (the grammar, the two bitmaps, the dictionary
and the node and terminal counts with it); on a handle that has not been
compressed, `cgraphw_write` returns -1 without writing the grammar or the
dictionary. -/
theorem cgraphw_mode_errors (g : GraphWriterImpl) :
    (g.compressed = true →
      (∀ rank label nodes edge_index,
        cgraphw_add_edge g rank label nodes edge_index = .ok (-1, g)) ∧
      (∀ n, cgraphw_add_node g n = .ok (-1, g)) ∧
      (∀ fuel edge_index, cgraphw_compress fuel g edge_index = .ok (-1, g))) ∧
    (g.compressed = false → cgraphw_write g = .ok (-1, none)) := by
  constructor
  · intro h
    refine ⟨?_, ?_, ?_⟩
    · intro rank label nodes edge_index
      unfold cgraphw_add_edge
      rw [if_pos h]
      rfl
    · intro n
      unfold cgraphw_add_node
      rw [if_pos h]
      rfl
    · intro fuel edge_index
      unfold cgraphw_compress
      rw [if_pos h]
      rfl
  · intro h
    unfold cgraphw_write
    rw [h]
    rfl

/-- The theorem at a compressed handle with a dictionary of one string and at
the fresh handle. -/
theorem cgraphw_mode_errors_witness :
    (∀ rank label nodes edge_index,
      cgraphw_add_edge
          { cgraphw_init with compressed := true
                              nodes := 1
                              dict_ve := [([97], ⟨0, .OCC_NODE⟩)] } rank label nodes edge_index
        = .ok (-1, { cgraphw_init with compressed := true
                                       nodes := 1
                                       dict_ve := [([97], ⟨0, .OCC_NODE⟩)] })) ∧
      cgraphw_write cgraphw_init = .ok (-1, none) :=
  ⟨((cgraphw_mode_errors
      { cgraphw_init with compressed := true
                          nodes := 1
                          dict_ve := [([97], ⟨0, .OCC_NODE⟩)] }).1 rfl).1,
    (cgraphw_mode_errors cgraphw_init).2 rfl⟩

theorem cgraphw_dict_put_text_keeps (g : GraphWriterImpl) (s : List Nat) (node : Bool)
    (r : Nat × GraphWriterImpl) (h : cgraphw_dict_put_text g s node = .ok r) :
    r.2.compressed = g.compressed ∧ r.2.edges = g.edges ∧ r.2.nodes = g.nodes ∧
      r.2.terminals = g.terminals := by
  unfold cgraphw_dict_put_text at h
  split at h
  · simp only at h
    cases hp : hashmap_put g.dict_rev (treemap_size g.dict_ve) s with
    | error e => rw [hp] at h; simp [bind, Except.bind] at h
    | ok x =>
      rw [hp] at h
      simp only [bind, Except.bind, pure, Except.pure, Except.ok.injEq] at h
      subst h
      exact ⟨rfl, rfl, rfl, rfl⟩
  · split at h
    · simp only [pure, Except.pure, Except.ok.injEq] at h
      subst h
      exact ⟨rfl, rfl, rfl, rfl⟩
    · simp only [pure, Except.pure, Except.ok.injEq] at h
      subst h
      exact ⟨rfl, rfl, rfl, rfl⟩

/-- C28: `cgraphw_compress` on a writer to which no edge has been added
(whether or not isolated nodes were added with `cgraphw_add_node`) returns -1
and leaves the handle as it is: it stays in the uncompressed state with its
node count, terminal count and dictionary, so that edges can still be added
and the compression retried.  The fresh handle has no edge and is not
compressed, and `cgraphw_add_node` changes neither. -/
theorem cgraphw_compress_no_edges :
    hashmap_size (cgraphw_init).edges = 0 ∧ (cgraphw_init).compressed = false ∧
    (∀ g n ret g2, cgraphw_add_node g n = .ok (ret, g2) →
      g2.edges = g.edges ∧ g2.compressed = g.compressed) ∧
    (∀ g fuel edge_index, g.compressed = false → hashmap_size g.edges = 0 →
      cgraphw_compress fuel g edge_index = .ok (-1, g)) := by
  refine ⟨rfl, rfl, ?_, ?_⟩
  · intro g n ret g2 h
    unfold cgraphw_add_node at h
    split at h
    · simp only [pure, Except.pure, Except.ok.injEq, Prod.mk.injEq] at h
      rw [← h.2]
      exact ⟨rfl, rfl⟩
    · split at h
      · simp only [pure, Except.pure, Except.ok.injEq, Prod.mk.injEq] at h
        rw [← h.2]
        exact ⟨rfl, rfl⟩
      · rename_i s
        cases hp : cgraphw_dict_put_text g s true with
        | error e => rw [hp] at h; simp [bind, Except.bind] at h
        | ok x =>
          rw [hp] at h
          simp only [bind, Except.bind, pure, Except.pure, Except.ok.injEq, Prod.mk.injEq] at h
          obtain ⟨k1, k2, _, _⟩ := cgraphw_dict_put_text_keeps g s true x hp
          rw [← h.2]
          exact ⟨k2, k1⟩
  · intro g fuel edge_index hc hs
    unfold cgraphw_compress
    rw [hc, if_neg Bool.false_ne_true, if_pos hs]
    rfl

/-- The theorem at the handle after `cgraphw_add_node("a")`, compressed with
an edge index of 3. -/
theorem cgraphw_compress_no_edges_witness :
    cgraphw_add_node cgraphw_init (some [97])
        = .ok (0, { cgraphw_init with
                      dict_ve := [([97], ⟨0, .OCC_NODE⟩)]
                      dict_rev := ⟨[⟨0, 0, [97]⟩] :: List.replicate 15 [], 1, 12, []⟩ }) ∧
      cgraphw_compress 10
          { cgraphw_init with
              dict_ve := [([97], ⟨0, .OCC_NODE⟩)]
              dict_rev := ⟨[⟨0, 0, [97]⟩] :: List.replicate 15 [], 1, 12, []⟩ } 3
        = .ok (-1, { cgraphw_init with
                       dict_ve := [([97], ⟨0, .OCC_NODE⟩)]
                       dict_rev := ⟨[⟨0, 0, [97]⟩] :: List.replicate 15 [], 1, 12, []⟩ }) :=
  ⟨by decide!, cgraphw_compress_no_edges.2.2.2 _ 10 3 rfl rfl⟩
/-! ## hashmap.c: the table stays well-formed under `hashmap_resize` and `hashmap_put` -/

theorem and_split_pow (t h : Nat) :
    (2 ^ (t + 1) - 1) &&& h = ((2 ^ t - 1) &&& h) + (h &&& 2 ^ t) ∧
      (h &&& 2 ^ t = 0 ∨ h &&& 2 ^ t = 2 ^ t) := by
  have e1 : (2 ^ (t + 1) - 1) &&& h = h % 2 ^ (t + 1) := by
    rw [Nat.and_comm, Nat.and_pow_two_sub_one_eq_mod]
  have e2 : (2 ^ t - 1) &&& h = h % 2 ^ t := by
    rw [Nat.and_comm, Nat.and_pow_two_sub_one_eq_mod]
  have e3 : h &&& 2 ^ t = 2 ^ t * (h / 2 ^ t % 2) := by
    apply Nat.eq_of_testBit_eq
    intro i
    rw [Nat.testBit_and, Nat.testBit_two_pow]
    by_cases hi : t = i
    · subst hi
      simp only [decide_True, Bool.and_true]
      rcases Nat.mod_two_eq_zero_or_one (h / 2 ^ t) with h0 | h0
      · rw [h0, Nat.mul_zero, Nat.zero_testBit, Nat.testBit_to_div_mod, h0]
        simp
      · rw [h0, Nat.mul_one, Nat.testBit_two_pow_self, Nat.testBit_to_div_mod, h0]
        simp
    · simp only [hi, decide_False, Bool.and_false]
      rcases Nat.mod_two_eq_zero_or_one (h / 2 ^ t) with h0 | h0
      · rw [h0, Nat.mul_zero, Nat.zero_testBit]
      · rw [h0, Nat.mul_one, Nat.testBit_two_pow]
        simp [hi]
  rw [e1, e2, e3, Nat.mod_pow_succ]
  constructor
  · rfl
  · rcases Nat.mod_two_eq_zero_or_one (h / 2 ^ t) with h0 | h0
    · left; rw [h0]; simp
    · right; rw [h0]; simp

theorem tree_get_set {K : Type} (tr : List (Nat × HashmapTree K)) (i j : Nat)
    (o : Option (HashmapTree K)) :
    hashmap_tree_get (hashmap_tree_set tr i o) j = if j = i then o else hashmap_tree_get tr j := by
  have hfilter : ∀ tr : List (Nat × HashmapTree K),
      (tr.filter (fun p => p.1 != i)).find? (fun p => p.1 == j) =
        if j = i then none else tr.find? (fun p => p.1 == j) := by
    intro tr
    induction tr with
    | nil => simp
    | cons p tr ih =>
      by_cases hp : p.1 = i
      · rw [List.filter_cons_of_neg (by simp [hp]), ih]
        by_cases hj : j = i
        · simp [hj]
        · rw [if_neg hj, if_neg hj, List.find?_cons_of_neg]
          simp only [beq_iff_eq]
          omega
      · rw [List.filter_cons_of_pos (by simp [hp])]
        by_cases hpj : p.1 = j
        · rw [List.find?_cons_of_pos _ (by simp [hpj]), List.find?_cons_of_pos _ (by simp [hpj])]
          rw [if_neg (by omega)]
        · rw [List.find?_cons_of_neg _ (by simp [hpj]), List.find?_cons_of_neg _ (by simp [hpj])]
          exact ih
  unfold hashmap_tree_get hashmap_tree_set
  cases o with
  | none =>
    simp only
    rw [hfilter]
    split <;> rfl
  | some t =>
    simp only
    by_cases hj : j = i
    · rw [List.find?_cons_of_pos _ (by simp [hj]), if_pos hj]
      rfl
    · rw [List.find?_cons_of_neg _ (by simp; omega), hfilter, if_neg hj, if_neg hj]

theorem tree_cmp_distinct {K V : Type} {cmp : K → K → Int} (ho : CmpOrd cmp)
    (bin : List (HashmapNode K V)) (t : HashmapTree K) (hok : HTreeOk cmp bin t) :
    (bin.map (fun e => (e.hash, e.key))).Pairwise
      (fun a b => ¬(a.1 = b.1 ∧ cmp b.2 a.2 = 0)) := by
  have h1 : (hashmap_tree_keys t).Pairwise (fun a b => ¬(a.1 = b.1 ∧ cmp b.2 a.2 = 0)) := by
    refine hok.1.imp ?_
    intro a b hab hc
    unfold hashmap_tree_lt at hab
    have := ho.symm a.2 b.2
    omega
  refine (List.Perm.pairwise_iff ?_ hok.2).1 h1
  intro a b hab hc
  exact hab ⟨hc.1.symm, cmpord_zero_symm ho hc.2⟩

theorem key_cmp_distinct {K V : Type} [KeyHash K] [KeyOrd K] (P : K → Prop)
    (heq : ∀ a b : K, P a → P b → KeyHash.keyCmp a b = 0 → a = b)
    (bin : List (HashmapNode K V)) (hP : ∀ e ∈ bin, P e.key)
    (hnd : (bin.map (fun e => e.key)).Nodup) :
    (bin.map (fun e => (e.hash, e.key))).Pairwise
      (fun a b => ¬(a.1 = b.1 ∧ KeyHash.keyCmp b.2 a.2 = 0)) := by
  rw [List.pairwise_map]
  unfold List.Nodup at hnd
  rw [List.pairwise_map] at hnd
  refine (List.Pairwise.and_mem.1 hnd).imp ?_
  intro a b hab hc
  obtain ⟨ha, hb, hne⟩ := hab
  exact hne (heq _ _ (hP b hb) (hP a ha) hc.2).symm

theorem split_half_spec {K V : Type} [DecidableEq K] {cmp : K → K → Int} (ho : CmpOrd cmp)
    (st : List (List (HashmapNode K V)) × List (Nat × HashmapTree K)) (index : Nat)
    (part rest : List (HashmapNode K V)) (t : HashmapTree K)
    (hi : index < st.1.length) (hnone : hashmap_tree_get st.2 index = none)
    (hpd : (part.map (fun e => (e.hash, e.key))).Pairwise
      (fun a b => ¬(a.1 = b.1 ∧ cmp b.2 a.2 = 0)))
    (hrest : rest = [] → HTreeOk cmp part t) (hempty : st.1[index]? = some []) :
    (hashmap_treenode_split_half cmp st index part rest t).1.length = st.1.length ∧
    (∀ i, i ≠ index →
      (hashmap_treenode_split_half cmp st index part rest t).1[i]? = st.1[i]?) ∧
    (∃ X, (hashmap_treenode_split_half cmp st index part rest t).1[index]? = some X ∧
      X.Perm part) ∧
    (∀ i, i ≠ index →
      hashmap_tree_get (hashmap_treenode_split_half cmp st index part rest t).2 i =
        hashmap_tree_get st.2 i) ∧
    (∀ t1, hashmap_tree_get (hashmap_treenode_split_half cmp st index part rest t).2 index =
        some t1 →
      HTreeOk cmp ((hashmap_treenode_split_half cmp st index part rest t).1.getD index []) t1) := by
  unfold hashmap_treenode_split_half
  split_ifs with h1 h2 h3
  · rw [List.isEmpty_iff] at h1
    subst h1
    refine ⟨rfl, fun _ _ => rfl, ⟨[], hempty, List.Perm.refl _⟩, fun _ _ => rfl, ?_⟩
    intro t1 ht1
    rw [hnone] at ht1
    cases ht1
  · refine ⟨by simp, fun i hne => ?_, ⟨part, ?_, List.Perm.refl _⟩, fun _ _ => rfl, ?_⟩
    · simp only
      rw [List.getElem?_set_ne (Ne.symm hne)]
    · simp only [hashmap_treenode_untreeify]
      rw [List.getElem?_set_self hi]
    · intro t1 ht1
      simp only at ht1
      rw [hnone] at ht1
      cases ht1
  · rw [List.isEmpty_iff] at h3
    refine ⟨by simp, fun i hne => ?_, ⟨part, ?_, List.Perm.refl _⟩, fun i hne => ?_, ?_⟩
    · simp only
      rw [List.getElem?_set_ne (Ne.symm hne)]
    · simp only
      rw [List.getElem?_set_self hi]
    · simp only
      rw [tree_get_set, if_neg hne]
    · intro t1 ht1
      simp only at ht1 ⊢
      rw [tree_get_set, if_pos rfl] at ht1
      simp only [Option.some.injEq] at ht1
      subst ht1
      rw [List.getD_eq_getElem?_getD, List.getElem?_set_self hi]
      exact hrest h3
  · obtain ⟨hok, hperm⟩ := treenode_treeify_ok ho part hpd
    refine ⟨by simp, fun i hne => ?_, ⟨_, ?_, hperm⟩, fun i hne => ?_, ?_⟩
    · simp only
      rw [List.getElem?_set_ne (Ne.symm hne)]
    · simp only
      rw [List.getElem?_set_self hi]
    · simp only
      rw [tree_get_set, if_neg hne]
    · intro t1 ht1
      simp only at ht1 ⊢
      rw [tree_get_set, if_pos rfl] at ht1
      simp only [Option.some.injEq] at ht1
      subst ht1
      rw [List.getD_eq_getElem?_getD, List.getElem?_set_self hi]
      exact hok

theorem filter_eq_self_of_not_nil {α : Type} (p : α → Bool) (l : List α)
    (h : l.filter (fun e => !p e) = []) : l.filter p = l := by
  rw [List.filter_eq_self]
  intro a ha
  rw [List.filter_eq_nil_iff] at h
  have := h a ha
  simpa using this

theorem filter_not_eq_self_of_nil {α : Type} (p : α → Bool) (l : List α)
    (h : l.filter p = []) : l.filter (fun e => !p e) = l := by
  rw [List.filter_eq_self]
  intro a ha
  rw [List.filter_eq_nil_iff] at h
  have := h a ha
  simpa using this

theorem pairwise_map_filter {K V : Type} (R : Nat × K → Nat × K → Prop)
    (b : List (HashmapNode K V)) (p : HashmapNode K V → Bool)
    (h : (b.map (fun e => (e.hash, e.key))).Pairwise R) :
    ((b.filter p).map (fun e => (e.hash, e.key))).Pairwise R :=
  h.sublist ((List.filter_sublist b).map _)

/-- One step of the redistribution loop of `hashmap_resize` moves the nodes of
the bin `j` to the bins `j` and `j + c` of the new table. -/
theorem resize_step_spec {K V : Type} [DecidableEq K] {cmp : K → K → Int} (ho : CmpOrd cmp)
    (old_trees : List (Nat × HashmapTree K)) (c : Nat)
    (st : List (List (HashmapNode K V)) × List (Nat × HashmapTree K)) (j : Nat)
    (b : List (HashmapNode K V)) (hlen : st.1.length = 2 * c) (hj : j < c)
    (he1 : st.1[j]? = some []) (he2 : st.1[c + j]? = some [])
    (hn1 : hashmap_tree_get st.2 j = none) (hn2 : hashmap_tree_get st.2 (c + j) = none)
    (hlo : ∀ e ∈ b, ((e.hash &&& c == 0) = true → (2 * c - 1) &&& e.hash = j) ∧
      ((e.hash &&& c == 0) = false → (2 * c - 1) &&& e.hash = j + c))
    (htree : ∀ t, hashmap_tree_get old_trees j = some t → HTreeOk cmp b t) :
    (hashmap_resize_step cmp old_trees c (2 * c) st (j, b)).1.length = 2 * c ∧
    (∀ i, i ≠ j → i ≠ c + j →
      (hashmap_resize_step cmp old_trees c (2 * c) st (j, b)).1[i]? = st.1[i]?) ∧
    (∃ X, (hashmap_resize_step cmp old_trees c (2 * c) st (j, b)).1[j]? = some X ∧
      X.Perm (b.filter (fun e => e.hash &&& c == 0))) ∧
    (∃ Y, (hashmap_resize_step cmp old_trees c (2 * c) st (j, b)).1[c + j]? = some Y ∧
      Y.Perm (b.filter (fun e => !(e.hash &&& c == 0)))) ∧
    (∀ i, i ≠ j → i ≠ c + j →
      hashmap_tree_get (hashmap_resize_step cmp old_trees c (2 * c) st (j, b)).2 i =
        hashmap_tree_get st.2 i) ∧
    (∀ i t1, (i = j ∨ i = c + j) →
      hashmap_tree_get (hashmap_resize_step cmp old_trees c (2 * c) st (j, b)).2 i = some t1 →
      HTreeOk cmp ((hashmap_resize_step cmp old_trees c (2 * c) st (j, b)).1.getD i []) t1) := by
  -- a single node
  have hsingle : ∀ e, b = [e] →
      (st.1.set (e.hash &&& (2 * c - 1)) [e]).length = 2 * c ∧
      (∀ i, i ≠ j → i ≠ c + j → (st.1.set (e.hash &&& (2 * c - 1)) [e])[i]? = st.1[i]?) ∧
      (∃ X, (st.1.set (e.hash &&& (2 * c - 1)) [e])[j]? = some X ∧
        X.Perm (b.filter (fun e => e.hash &&& c == 0))) ∧
      (∃ Y, (st.1.set (e.hash &&& (2 * c - 1)) [e])[c + j]? = some Y ∧
        Y.Perm (b.filter (fun e => !(e.hash &&& c == 0)))) ∧
      ((e.hash &&& (2 * c - 1)) = j ∨ (e.hash &&& (2 * c - 1)) = c + j) := by
    intro e hb
    subst hb
    have he := hlo e (List.mem_singleton.2 rfl)
    rw [Nat.and_comm]
    by_cases hz : (e.hash &&& c == 0) = true
    · rw [he.1 hz]
      refine ⟨by simp [hlen], fun i h1 _ => ?_, ⟨[e], ?_, ?_⟩, ⟨[], ?_, ?_⟩, Or.inl rfl⟩
      · rw [List.getElem?_set_ne (Ne.symm h1)]
      · rw [List.getElem?_set_self (by omega)]
      · simp [hz]
      · rw [List.getElem?_set_ne (by omega)]
        exact he2
      · simp [hz]
    · have hz2 : (e.hash &&& c == 0) = false := by simpa using hz
      rw [he.2 hz2]
      refine ⟨by simp [hlen], fun i _ h2 => ?_, ⟨[], ?_, ?_⟩, ⟨[e], ?_, ?_⟩,
        Or.inr (Nat.add_comm _ _)⟩
      · rw [List.getElem?_set_ne (by omega)]
      · rw [List.getElem?_set_ne (by omega)]
        exact he1
      · simp [hz2]
      · rw [Nat.add_comm, List.getElem?_set_self (by omega)]
      · simp [hz2]
  unfold hashmap_resize_step
  cases htg : hashmap_tree_get old_trees j with
  | none =>
    simp only
    have htr : ∀ i t1, (i = j ∨ i = c + j) → hashmap_tree_get st.2 i = some t1 →
        HTreeOk cmp ((hashmap_resize_bin c (2 * c) st.1 (j, b)).getD i []) t1 := by
      intro i t1 hi ht1
      rcases hi with hi | hi
      · rw [hi, hn1] at ht1
        cases ht1
      · rw [hi, hn2] at ht1
        cases ht1
    rcases b with _ | ⟨e, _ | ⟨e2, more⟩⟩
    · exact ⟨hlen, fun _ _ _ => by first | rfl | trivial, ⟨[], he1, List.Perm.refl _⟩, ⟨[], he2, List.Perm.refl _⟩,
        fun _ _ _ => by first | rfl | trivial, htr⟩
    · obtain ⟨h1, h2, h3, h4, _⟩ := hsingle e rfl
      exact ⟨h1, h2, h3, h4, fun _ _ _ => by first | rfl | trivial, htr⟩
    · refine ⟨?_, ?_, ?_, ?_, fun _ _ _ => by first | rfl | trivial, htr⟩
      · dsimp only [hashmap_resize_bin]
        split <;> split <;> simp [hlen]
      · intro i hi1 hi2
        dsimp only [hashmap_resize_bin]
        split <;> split
        · rfl
        · rw [List.getElem?_set_ne (by omega)]
        · rw [List.getElem?_set_ne (by omega)]
        · rw [List.getElem?_set_ne (by omega), List.getElem?_set_ne (by omega)]
      · refine ⟨_, ?_, List.Perm.refl _⟩
        dsimp only [hashmap_resize_bin]
        by_cases hl : (List.filter (fun e => e.hash &&& c == 0) (e :: e2 :: more)).isEmpty = true
        · rw [if_pos hl]
          have hle := List.isEmpty_iff.mp hl
          split
          · rw [he1, hle]
          · rw [List.getElem?_set_ne (by omega), he1, hle]
        · rw [if_neg hl]
          split
          · rw [List.getElem?_set_self (by omega)]
          · rw [List.getElem?_set_ne (by omega), List.getElem?_set_self (by omega)]
      · refine ⟨_, ?_, List.Perm.refl _⟩
        dsimp only [hashmap_resize_bin]
        by_cases hh : (List.filter (fun e => !(e.hash &&& c == 0)) (e :: e2 :: more)).isEmpty
            = true
        · rw [if_pos hh]
          have hhe := List.isEmpty_iff.mp hh
          split
          · rw [he2, hhe]
          · rw [List.getElem?_set_ne (by omega), he2, hhe]
        · rw [if_neg hh, Nat.add_comm c]
          rw [List.getElem?_set_self (by split <;> simp [hlen] <;> omega)]
  | some t =>
    simp only
    have hok := htree t htg
    rcases b with _ | ⟨e, _ | ⟨e2, more⟩⟩
    · refine ⟨hlen, fun _ _ _ => by first | rfl | trivial, ⟨[], he1, List.Perm.refl _⟩, ⟨[], he2, List.Perm.refl _⟩,
        fun _ _ _ => by first | rfl | trivial, ?_⟩
      intro i t1 hi ht1
      rcases hi with hi | hi
      · rw [hi, hn1] at ht1
        cases ht1
      · rw [hi, hn2] at ht1
        cases ht1
    · obtain ⟨h1, h2, h3, h4, h5⟩ := hsingle e rfl
      refine ⟨h1, h2, h3, h4, ?_, ?_⟩
      · intro i hi1 hi2
        simp only
        rw [tree_get_set, if_neg (by omega)]
      · intro i t1 hi ht1
        simp only at ht1 ⊢
        rw [tree_get_set] at ht1
        by_cases hie : i = e.hash &&& (2 * c - 1)
        · rw [if_pos hie] at ht1
          simp only [Option.some.injEq] at ht1
          subst ht1
          rw [hie, List.getD_eq_getElem?_getD, List.getElem?_set_self (by omega)]
          exact hok
        · rw [if_neg hie] at ht1
          rcases hi with hi | hi
          · rw [hi, hn1] at ht1
            cases ht1
          · rw [hi, hn2] at ht1
            cases ht1
    · simp only
      unfold hashmap_treenode_split
      have hpd := tree_cmp_distinct ho _ t hok
      generalize hb : e :: e2 :: more = b at hok hpd hlo ⊢
      have s1 := split_half_spec ho st j (b.filter (fun e => e.hash &&& c == 0))
        (b.filter (fun e => !(e.hash &&& c == 0))) t (by omega) hn1
        (pairwise_map_filter _ b _ hpd)
        (fun hr => by rw [filter_eq_self_of_not_nil _ b hr]; exact hok) he1
      generalize hashmap_treenode_split_half cmp st j (b.filter (fun e => e.hash &&& c == 0))
        (b.filter (fun e => !(e.hash &&& c == 0))) t = st1 at s1 ⊢
      obtain ⟨a1, a2, a3, a4, a5⟩ := s1
      have s2 := split_half_spec ho st1 (j + c) (b.filter (fun e => !(e.hash &&& c == 0)))
        (b.filter (fun e => e.hash &&& c == 0)) t (by omega)
        (by rw [a4 _ (by omega), Nat.add_comm]; exact hn2)
        (pairwise_map_filter _ b _ hpd)
        (fun hr => by rw [filter_not_eq_self_of_nil _ b hr]; exact hok)
        (by rw [a2 _ (by omega), Nat.add_comm]; exact he2)
      generalize hashmap_treenode_split_half cmp st1 (j + c)
        (b.filter (fun e => !(e.hash &&& c == 0)))
        (b.filter (fun e => e.hash &&& c == 0)) t = st2 at s2 ⊢
      obtain ⟨b1, b2, b3, b4, b5⟩ := s2
      obtain ⟨X, hX, hXp⟩ := a3
      refine ⟨by omega, ?_, ⟨X, ?_, hXp⟩, ?_, ?_, ?_⟩
      · intro i h1 h2
        rw [b2 i (by omega), a2 i h1]
      · rw [b2 j (by omega), hX]
      · rw [Nat.add_comm]
        exact b3
      · intro i h1 h2
        rw [b4 i (by omega), a4 i h1]
      · intro i t1 hi ht1
        rcases hi with hi | hi
        · subst hi
          rw [b4 _ (by omega)] at ht1
          have := a5 t1 ht1
          rw [List.getD_eq_getElem?_getD, b2 _ (by omega), ← List.getD_eq_getElem?_getD]
          exact this
        · have hi2 : i = j + c := by omega
          subst hi2
          exact b5 t1 ht1

/-- The new table after the first `j` bins of the old one are moved by
`hashmap_resize_step`. -/
theorem resize_fold {K V : Type} [DecidableEq K] {cmp : K → K → Int} (ho : CmpOrd cmp)
    (old_trees : List (Nat × HashmapTree K)) (c : Nat) (old : List (List (HashmapNode K V)))
    (hlen : old.length = c)
    (hlo : ∀ i bin, old[i]? = some bin → ∀ e ∈ bin,
      ((e.hash &&& c == 0) = true → (2 * c - 1) &&& e.hash = i) ∧
      ((e.hash &&& c == 0) = false → (2 * c - 1) &&& e.hash = i + c))
    (htree : ∀ i t, hashmap_tree_get old_trees i = some t → HTreeOk cmp (old.getD i []) t) :
    ∀ (rest pre : List (List (HashmapNode K V)))
      (st : List (List (HashmapNode K V)) × List (Nat × HashmapTree K)),
      old = pre ++ rest → st.1.length = 2 * c →
      (∀ i, i < c → i < pre.length →
        (∃ X, st.1[i]? = some X ∧ X.Perm ((old.getD i []).filter (fun e => e.hash &&& c == 0))) ∧
        (∃ Y, st.1[c + i]? = some Y ∧
          Y.Perm ((old.getD i []).filter (fun e => !(e.hash &&& c == 0))))) →
      (∀ i, i < c → pre.length ≤ i →
        st.1[i]? = some [] ∧ st.1[c + i]? = some [] ∧
        hashmap_tree_get st.2 i = none ∧ hashmap_tree_get st.2 (c + i) = none) →
      (∀ i t, hashmap_tree_get st.2 i = some t → HTreeOk cmp (st.1.getD i []) t) →
      ((rest.enumFrom pre.length).foldl (hashmap_resize_step cmp old_trees c (2 * c)) st).1.length
        = 2 * c ∧
      (∀ i, i < c →
        (∃ X, ((rest.enumFrom pre.length).foldl
            (hashmap_resize_step cmp old_trees c (2 * c)) st).1[i]? = some X ∧
          X.Perm ((old.getD i []).filter (fun e => e.hash &&& c == 0))) ∧
        (∃ Y, ((rest.enumFrom pre.length).foldl
            (hashmap_resize_step cmp old_trees c (2 * c)) st).1[c + i]? = some Y ∧
          Y.Perm ((old.getD i []).filter (fun e => !(e.hash &&& c == 0))))) ∧
      (∀ i t, hashmap_tree_get ((rest.enumFrom pre.length).foldl
          (hashmap_resize_step cmp old_trees c (2 * c)) st).2 i = some t →
        HTreeOk cmp (((rest.enumFrom pre.length).foldl
          (hashmap_resize_step cmp old_trees c (2 * c)) st).1.getD i []) t) := by
  intro rest
  induction rest with
  | nil =>
    intro pre st hold hst h1 _ h3
    simp only [List.append_nil] at hold
    subst hold
    simp only [List.enumFrom_nil, List.foldl_nil]
    exact ⟨hst, fun i hi => h1 i hi (by omega), h3⟩
  | cons b rest ih =>
    intro pre st hold hst h1 h2 h3
    have hj : pre.length < c := by
      rw [← hlen, hold, List.length_append, List.length_cons]
      omega
    have hb : old[pre.length]? = some b := by
      rw [hold, List.getElem?_append_right (Nat.le_refl _), Nat.sub_self]
      simp
    have hbd : old.getD pre.length [] = b := by
      rw [List.getD_eq_getElem?_getD, hb]
      rfl
    simp only [List.enumFrom_cons, List.foldl_cons]
    obtain ⟨e1, e2, n1, n2⟩ := h2 pre.length hj (Nat.le_refl _)
    obtain ⟨s1, s2, s3, s4, s5, s6⟩ := resize_step_spec ho old_trees c st pre.length b hst hj
      e1 e2 n1 n2 (hlo pre.length b hb) (fun t ht => by rw [← hbd]; exact htree _ t ht)
    generalize hashmap_resize_step cmp old_trees c (2 * c) st (pre.length, b) = st1
      at s1 s2 s3 s4 s5 s6 ⊢
    have := ih (pre ++ [b]) st1 (by rw [hold]; simp) s1
      (by
        intro i hi hip
        simp only [List.length_append, List.length_singleton] at hip
        by_cases hie : i = pre.length
        · subst hie
          rw [hbd]
          exact ⟨s3, s4⟩
        · rw [s2 i hie (by omega), s2 (c + i) (by omega) (by omega)]
          exact h1 i hi (by omega))
      (by
        intro i hi hip
        simp only [List.length_append, List.length_singleton] at hip
        rw [s2 i (by omega) (by omega), s2 (c + i) (by omega) (by omega),
          s5 i (by omega) (by omega), s5 (c + i) (by omega) (by omega)]
        exact h2 i hi (by omega))
      (by
        intro i t ht
        by_cases hi : i = pre.length ∨ i = c + pre.length
        · exact s6 i t hi ht
        · rw [s5 i (by omega) (by omega)] at ht
          rw [List.getD_eq_getElem?_getD, s2 i (by omega) (by omega),
            ← List.getD_eq_getElem?_getD]
          exact h3 i t ht)
    simp only [List.length_append, List.length_singleton] at this
    exact this

theorem flatten_map_filter {α : Type} (p : α → Bool) (l : List (List α)) :
    (l.map (List.filter p)).flatten = l.flatten.filter p := by
  induction l with
  | nil => rfl
  | cons a l ih =>
    simp only [List.map_cons, List.flatten_cons, List.filter_append, ih]

theorem forall2_of_getElem {α : Type} (R : α → α → Prop) :
    ∀ (l1 l2 : List α), l1.length = l2.length →
      (∀ (i : Nat) a b, l1[i]? = some a → l2[i]? = some b → R a b) → List.Forall₂ R l1 l2 := by
  intro l1
  induction l1 with
  | nil =>
    intro l2 hl _
    cases l2 with
    | nil => exact List.Forall₂.nil
    | cons _ _ => simp at hl
  | cons a l1 ih =>
    intro l2 hl h
    cases l2 with
    | nil => simp at hl
    | cons b l2 =>
      refine List.Forall₂.cons (h 0 a b (by simp) (by simp)) (ih l2 (by simpa using hl) ?_)
      intro i x y hx hy
      exact h (i + 1) x y (by simpa using hx) (by simpa using hy)

/-- The table after the redistribution loop of `hashmap_resize`: the low
halves of the old bins followed by their high halves, each up to the order of
its nodes; and the trees of the new bins. -/
theorem resize_table {K V : Type} [DecidableEq K] {cmp : K → K → Int} (ho : CmpOrd cmp)
    (old_trees : List (Nat × HashmapTree K)) (c : Nat) (old : List (List (HashmapNode K V)))
    (hlen : old.length = c)
    (hlo : ∀ i bin, old[i]? = some bin → ∀ e ∈ bin,
      ((e.hash &&& c == 0) = true → (2 * c - 1) &&& e.hash = i) ∧
      ((e.hash &&& c == 0) = false → (2 * c - 1) &&& e.hash = i + c))
    (htree : ∀ i t, hashmap_tree_get old_trees i = some t → HTreeOk cmp (old.getD i []) t) :
    List.Forall₂ List.Perm
      ((old.enum).foldl (hashmap_resize_step cmp old_trees c (2 * c))
        (List.replicate (2 * c) [], [])).1
      (old.map (List.filter (fun e => e.hash &&& c == 0))
        ++ old.map (List.filter (fun e => !(e.hash &&& c == 0)))) ∧
    (∀ i t, hashmap_tree_get ((old.enum).foldl (hashmap_resize_step cmp old_trees c (2 * c))
        (List.replicate (2 * c) [], [])).2 i = some t →
      HTreeOk cmp (((old.enum).foldl (hashmap_resize_step cmp old_trees c (2 * c))
        (List.replicate (2 * c) [], [])).1.getD i []) t) := by
  have h := resize_fold ho old_trees c old hlen hlo htree old [] (List.replicate (2 * c) [], [])
    rfl (by simp)
    (by intro i _ hi; simp at hi)
    (by
      intro i hi _
      simp only
      rw [List.getElem?_replicate, if_pos (by omega), List.getElem?_replicate, if_pos (by omega)]
      exact ⟨rfl, rfl, rfl, rfl⟩)
    (by intro i t ht; cases ht)
  simp only [List.length_nil] at h
  obtain ⟨h0, h1, h2⟩ := h
  rw [List.enum]
  refine ⟨?_, h2⟩
  apply forall2_of_getElem
  · rw [h0]
    simp [hlen]
    omega
  · intro i a b ha hb
    by_cases hi : i < c
    · obtain ⟨⟨X, hX, hXp⟩, _⟩ := h1 i hi
      rw [hX] at ha
      cases ha
      rw [List.getElem?_append_left (by simp; omega), List.getElem?_map,
        List.getElem?_eq_getElem (by omega)] at hb
      simp only [Option.map_some', Option.some.injEq] at hb
      rw [← hb]
      rw [List.getD_eq_getElem?_getD, List.getElem?_eq_getElem (by omega)] at hXp
      exact hXp
    · have hi2 : i < 2 * c := by
        have := (List.getElem?_eq_some.1 ha).1
        omega
      have hic : i = c + (i - c) := by omega
      obtain ⟨_, ⟨Y, hY, hYp⟩⟩ := h1 (i - c) (by omega)
      rw [← hic] at hY
      rw [hY] at ha
      cases ha
      rw [List.getElem?_append_right (by simp; omega), List.getElem?_map] at hb
      simp only [List.length_map, hlen] at hb
      rw [List.getElem?_eq_getElem (by omega)] at hb
      simp only [Option.map_some', Option.some.injEq] at hb
      rw [← hb]
      rw [List.getD_eq_getElem?_getD, List.getElem?_eq_getElem (by omega)] at hYp
      exact hYp

theorem forall2_getElem {α : Type} (R : α → α → Prop) :
    ∀ (l1 l2 : List α), List.Forall₂ R l1 l2 →
      ∀ (i : Nat) a, l1[i]? = some a → ∃ b, l2[i]? = some b ∧ R a b := by
  intro l1 l2 h
  induction h with
  | nil => intro i a ha; simp at ha
  | cons hab _ ih =>
    intro i a ha
    cases i with
    | zero =>
      simp only [List.getElem?_cons_zero, Option.some.injEq] at ha
      subst ha
      exact ⟨_, by simp, hab⟩
    | succ n =>
      simp only [List.getElem?_cons_succ] at ha
      obtain ⟨b, hb, hr⟩ := ih n a ha
      exact ⟨b, by simpa using hb, hr⟩

theorem hashmap_resize_spec {K V : Type} [DecidableEq K] [KeyHash K] [KeyOrd K]
    (m : Hashmap K V) (h : HWf m) :
    HWf (hashmap_resize m) ∧ (hashmap_resize m).table.flatten.Perm m.table.flatten ∧
      (hashmap_resize m).size = m.size ∧ (hashmap_resize m).table.length ≠ 0 := by
  obtain ⟨⟨hcap, hbin, hnd, hsz⟩, htr⟩ := h
  by_cases hmax : m.table.length ≥ MAXIMUM_CAPACITY
  · have hr : hashmap_resize m = { m with threshold := SIZE_MAX } := by
      unfold hashmap_resize
      simp only [if_pos hmax]
    rw [hr]
    have hne : m.table.length ≠ 0 := by
      have : MAXIMUM_CAPACITY = 1073741824 := rfl
      omega
    refine ⟨⟨⟨?_, hbin, hnd, hsz⟩, htr⟩, List.Perm.refl _, rfl, hne⟩
    rcases hcap with ⟨h0, _⟩ | ht
    · exact absurd h0 hne
    · exact Or.inr ht
  · rcases hcap with ⟨h0, hthr⟩ | ⟨t, ht⟩
    · have htab : m.table = [] := List.length_eq_zero.mp h0
      have hr : hashmap_resize m = ⟨List.replicate 16 [], m.size, 12, []⟩ := by
        unfold hashmap_resize
        rw [htab] at hmax ⊢
        simp [hthr, MAXIMUM_CAPACITY, DEFAULT_INITIAL_CAPACITY]
      rw [hr]
      refine ⟨⟨⟨Or.inr ⟨4, by simp⟩, ?_, ?_, ?_⟩, ?_⟩, ?_, rfl, by simp⟩
      · intro i bin hb e he
        have : bin = [] := by
          rw [List.getElem?_replicate] at hb
          split at hb
          · exact (Option.some.inj hb).symm
          · exact absurd hb (by simp)
        rw [this] at he
        exact absurd he (List.not_mem_nil e)
      · simp
      · simp [hsz, htab]
      · intro i t ht
        cases ht
      · simp [htab]
    · have hpos : m.table.length > 0 := by rw [ht]; exact Nat.pos_pow_of_pos _ (by decide)
      have hlo : ∀ i bin, m.table[i]? = some bin → ∀ e ∈ bin,
          ((e.hash &&& m.table.length == 0) = true → (2 * m.table.length - 1) &&& e.hash = i) ∧
          ((e.hash &&& m.table.length == 0) = false →
            (2 * m.table.length - 1) &&& e.hash = i + m.table.length) := by
        intro i bin hb e he
        have h1 := (hbin i bin hb e he).2
        have h2 := and_split_pow t e.hash
        rw [ht] at h1 ⊢
        have e2 : 2 * 2 ^ t = 2 ^ (t + 1) := by rw [Nat.pow_succ]; omega
        rw [e2, h2.1, h1]
        constructor
        · intro hz
          have := beq_iff_eq.mp hz
          omega
        · intro hz
          have : e.hash &&& 2 ^ t ≠ 0 := by
            intro h3
            rw [h3] at hz
            exact absurd hz (by simp)
          rcases h2.2 with h4 | h4
          · exact absurd h4 this
          · rw [h4]
      obtain ⟨hft, hftree⟩ := resize_table KeyOrd.ord m.trees m.table.length m.table rfl hlo htr
      have hr : (hashmap_resize m).table = ((m.table.enum).foldl
          (hashmap_resize_step KeyHash.keyCmp m.trees m.table.length (2 * m.table.length))
          (List.replicate (2 * m.table.length) [], [])).1 := by
        unfold hashmap_resize
        simp only [if_neg hmax, if_pos hpos, Nat.mul_comm m.table.length 2]
      have hrt : (hashmap_resize m).trees = ((m.table.enum).foldl
          (hashmap_resize_step KeyHash.keyCmp m.trees m.table.length (2 * m.table.length))
          (List.replicate (2 * m.table.length) [], [])).2 := by
        unfold hashmap_resize
        simp only [if_neg hmax, if_pos hpos, Nat.mul_comm m.table.length 2]
      rw [← hr] at hft hftree
      rw [← hrt] at hftree
      have hs : (hashmap_resize m).size = m.size := by
        unfold hashmap_resize
        simp only [if_neg hmax]
      have hperm : (hashmap_resize m).table.flatten.Perm m.table.flatten := by
        refine (List.Perm.flatten_congr hft).trans ?_
        rw [List.flatten_append, flatten_map_filter, flatten_map_filter]
        exact List.filter_append_perm _ _
      have hlen : (hashmap_resize m).table.length = 2 * m.table.length := by
        rw [hft.length_eq]
        simp
        omega
      refine ⟨⟨⟨Or.inr ⟨t + 1, ?_⟩, ?_, ?_, ?_⟩, hftree⟩, hperm, hs, ?_⟩
      · rw [hlen, ht, Nat.pow_succ]; omega
      · intro i bin hb e he
        rw [hlen]
        obtain ⟨bin2, hb2, hp2⟩ := forall2_getElem _ _ _ hft i bin hb
        have he2 : e ∈ bin2 := hp2.mem_iff.1 he
        by_cases hi : i < m.table.length
        · rw [List.getElem?_append_left (by simp; exact hi), List.getElem?_map] at hb2
          have : i < m.table.length := hi
          rw [List.getElem?_eq_getElem this] at hb2
          have hbe := Option.some.inj hb2
          rw [← hbe] at he2
          have hm := List.mem_filter.mp he2
          have hob := List.getElem?_eq_getElem this
          exact ⟨(hbin i _ hob e hm.1).1, (hlo i _ hob e hm.1).1 hm.2⟩
        · have hi2 : i - m.table.length < m.table.length := by
            have := (List.getElem?_eq_some.mp hb).1
            omega
          rw [List.getElem?_append_right (by simp; omega), List.getElem?_map] at hb2
          simp only [List.length_map] at hb2
          rw [List.getElem?_eq_getElem hi2] at hb2
          have hbe := Option.some.inj hb2
          rw [← hbe] at he2
          have hm := List.mem_filter.mp he2
          have hob := List.getElem?_eq_getElem hi2
          have hz : (e.hash &&& m.table.length == 0) = false := by
            have := hm.2
            simpa using this
          have := (hlo _ _ hob e hm.1).2 hz
          refine ⟨(hbin _ _ hob e hm.1).1, ?_⟩
          rw [this]; omega
      · exact (List.Perm.nodup_iff (List.Perm.map _ hperm)).mpr hnd
      · rw [hs, hsz]; exact (List.Perm.length_eq hperm).symm
      · rw [hlen]; omega

theorem flatten_set {α : Type} (l : List (List α)) (i : Nat) (b : List α) (hi : i < l.length) :
    (l.set i b).flatten = (l.take i).flatten ++ (b ++ (l.drop (i + 1)).flatten) ∧
    l.flatten = (l.take i).flatten ++ (l[i] ++ (l.drop (i + 1)).flatten) := by
  constructor
  · rw [List.set_eq_take_append_cons_drop, if_pos hi, List.flatten_append, List.flatten_cons]
  · conv_lhs => rw [← List.take_append_drop i l, List.drop_eq_getElem_cons hi]
    rw [List.flatten_append, List.flatten_cons]

theorem hashmap_resize_size {K V : Type} [DecidableEq K] [KeyHash K] (m : Hashmap K V) (s : Nat) :
    hashmap_resize { m with size := s } = { hashmap_resize m with size := s } := by
  unfold hashmap_resize
  dsimp only
  split <;> rfl

theorem hashmap_resize_size_eq {K V : Type} [DecidableEq K] [KeyHash K] (m : Hashmap K V) :
    (hashmap_resize m).size = m.size := by
  unfold hashmap_resize
  dsimp only
  split <;> rfl
/-! ## The hash map as a finite map -/

theorem hwf_index_lt {K V : Type} [KeyHash K] (m : Hashmap K V) (hn : m.table.length ≠ 0)
    (k : K) : (m.table.length - 1) &&& hash_val k < m.table.length := by
  have := @Nat.and_le_left (m.table.length - 1) (hash_val k)
  omega

theorem hwf_mem_bin {K V : Type} [KeyHash K] (m : Hashmap K V) (h : HWf m)
    (e : HashmapNode K V) (he : e ∈ m.table.flatten) :
    e ∈ m.table.getD ((m.table.length - 1) &&& hash_val e.key) [] ∧
      e.hash = hash_val e.key := by
  obtain ⟨⟨_, hbin, _, _⟩, _⟩ := h
  obtain ⟨b, hb, heb⟩ := List.mem_flatten.mp he
  obtain ⟨j, hj, hjb⟩ := List.getElem_of_mem hb
  have hjb2 : m.table[j]? = some b := by rw [List.getElem?_eq_getElem hj, hjb]
  have hh := hbin j b hjb2 e heb
  refine ⟨?_, hh.1⟩
  rw [← hh.1, hh.2, List.getD_eq_getElem?_getD, hjb2]
  exact heb

theorem hwf_bin_mem {K V : Type} [KeyHash K] (m : Hashmap K V) (h : HWf m) (i : Nat)
    (e : HashmapNode K V) (he : e ∈ m.table.getD i []) :
    e ∈ m.table.flatten ∧ e.hash = hash_val e.key ∧ (m.table.length - 1) &&& hash_val e.key = i := by
  obtain ⟨⟨_, hbin, _, _⟩, _⟩ := h
  rw [List.getD_eq_getElem?_getD] at he
  cases hg : m.table[i]? with
  | none =>
    rw [hg] at he
    exact absurd he (List.not_mem_nil _)
  | some b =>
    rw [hg] at he
    have hh := hbin i b hg e he
    refine ⟨List.mem_flatten.mpr ⟨b, List.getElem?_mem hg, he⟩, hh.1, ?_⟩
    rw [← hh.1]
    exact hh.2

theorem hwf_key_inj {K V : Type} [KeyHash K] (m : Hashmap K V) (h : HWf m)
    (e e1 : HashmapNode K V) (he : e ∈ m.table.flatten) (he1 : e1 ∈ m.table.flatten)
    (hk : e.key = e1.key) : e = e1 :=
  List.inj_on_of_nodup_map h.1.2.2.1 he he1 hk

theorem hkeys_flatten {K V : Type} (P : K → Prop) (m : Hashmap K V) (hP : HKeys P m)
    (e : HashmapNode K V) (he : e ∈ m.table.flatten) : P e.key := by
  obtain ⟨b, hb, heb⟩ := List.mem_flatten.mp he
  exact hP b hb e heb

theorem hkeys_true {K V : Type} (m : Hashmap K V) : HKeys (fun _ => True) m :=
  fun _ _ _ _ => trivial

theorem hwf_bin_nodup {K V : Type} [KeyHash K] (m : Hashmap K V) (h : HWf m) (i : Nat) :
    ((m.table.getD i []).map (fun e => e.key)).Nodup := by
  by_cases hi : i < m.table.length
  · have hg : m.table.getD i [] = m.table[i] := by
      rw [List.getD_eq_getElem?_getD, List.getElem?_eq_getElem hi]
      rfl
    have hnd0 := h.1.2.2.1
    rw [(flatten_set m.table i [] hi).2, List.map_append, List.map_append, List.nodup_append,
      List.nodup_append] at hnd0
    rw [hg]
    exact hnd0.2.1.1
  · rw [List.getD_eq_getElem?_getD, List.getElem?_eq_none (by omega)]
    exact List.nodup_nil

theorem find_eq_findIdx {α : Type} (p : α → Bool) (l : List α) :
    l.find? p = (l.findIdx? p).bind (fun idx => l.get? idx) := by
  induction l with
  | nil => rfl
  | cons x xs ih =>
    simp only [List.find?_cons, List.findIdx?_cons]
    cases hp : p x with
    | true => simp
    | false =>
      simp only [Bool.false_eq_true, ↓reduceIte, Nat.zero_add]
      rw [ih, List.findIdx?_succ]
      cases List.findIdx? p xs 0 <;> rfl

/-- The search of `hashmap_get_node`, `hashmap_put`, `hashmap_remove_node` in
the bin of a key finds the node with that key, in a bin of plain nodes and in
a bin of tree nodes. -/
theorem hashmap_bin_find_spec {K V : Type} [DecidableEq K] [KeyHash K] [KeyOrd K] (P : K → Prop)
    (heq : ∀ a b : K, P a → P b → KeyHash.keyCmp a b = 0 → a = b) (m : Hashmap K V)
    (h : HWf m) (hP : HKeys P m) (k : K) (hk : P k) :
    (∀ e ∈ m.table.getD ((m.table.length - 1) &&& hash_val k) [],
      (hashmap_node_matches (hash_val k) k e = true ↔ e.key = k)) ∧
    (m.table.getD ((m.table.length - 1) &&& hash_val k) []).findIdx?
      (hashmap_node_matches (hash_val k) k) =
      (m.table.getD ((m.table.length - 1) &&& hash_val k) []).findIdx?
        (fun e => decide (e.key = k)) ∧
    ∀ t, hashmap_tree_get m.trees ((m.table.length - 1) &&& hash_val k) = some t →
      hashmap_treebin_find KeyHash.keyCmp (hashmap_node_matches (hash_val k) k) t
        (m.table.getD ((m.table.length - 1) &&& hash_val k) []) (hash_val k) k =
      (m.table.getD ((m.table.length - 1) &&& hash_val k) []).findIdx?
        (fun e => decide (e.key = k)) := by
  have hPb : ∀ e ∈ m.table.getD ((m.table.length - 1) &&& hash_val k) [], P e.key :=
    fun e he => hkeys_flatten P m hP e (hwf_bin_mem m h _ e he).1
  have hhb : ∀ e ∈ m.table.getD ((m.table.length - 1) &&& hash_val k) [],
      e.hash = hash_val e.key := fun e he => (hwf_bin_mem m h _ e he).2.1
  have hm : ∀ e ∈ m.table.getD ((m.table.length - 1) &&& hash_val k) [],
      (hashmap_node_matches (hash_val k) k e = true ↔ e.key = k) :=
    fun e he => node_matches_iff P heq k hk e (hPb e he) (hhb e he)
  refine ⟨hm, ?_, ?_⟩
  · apply findIdx_congr
    intro e he
    by_cases hek : e.key = k
    · simp [hek, (hm e he).2 hek]
    · simp only [hek, decide_False]
      cases hmm : hashmap_node_matches (hash_val k) k e with
      | false => rfl
      | true => exact absurd ((hm e he).1 hmm) hek
  · intro t ht
    exact treebin_find_spec P heq k hk _ hPb hhb t (h.2 _ t ht)

theorem hashmap_get_node_spec {K V : Type} [DecidableEq K] [KeyHash K] [KeyOrd K] (P : K → Prop)
    (heq : ∀ a b : K, P a → P b → KeyHash.keyCmp a b = 0 → a = b) (m : Hashmap K V)
    (h : HWf m) (hP : HKeys P m) (k : K) (hk : P k) :
    hashmap_get_node m k =
      (m.table.getD ((m.table.length - 1) &&& hash_val k) []).find?
        (fun e => decide (e.key = k)) := by
  obtain ⟨_, h2, h3⟩ := hashmap_bin_find_spec P heq m h hP k hk
  unfold hashmap_get_node
  by_cases hn : m.table.length = 0
  · simp only [hn, if_true]
    rw [List.length_eq_zero.mp hn]
    rfl
  · simp only [if_neg hn]
    cases ht : hashmap_tree_get m.trees ((m.table.length - 1) &&& hash_val k) with
    | none =>
      simp only
      rw [find_eq_findIdx, find_eq_findIdx, h2]
    | some t =>
      simp only
      rw [h3 t ht, find_eq_findIdx]
      cases (m.table.getD ((m.table.length - 1) &&& hash_val k) []).findIdx?
        (fun e => decide (e.key = k)) <;> rfl

theorem hashmap_get_spec_on {K V : Type} [DecidableEq K] [KeyHash K] [KeyOrd K] (P : K → Prop)
    (heq : ∀ a b : K, P a → P b → KeyHash.keyCmp a b = 0 → a = b) (m : Hashmap K V)
    (h : HWf m) (hP : HKeys P m) (k : K) (hk : P k) (v : V) :
    hashmap_get m k = some v ↔ ∃ e ∈ m.table.flatten, e.key = k ∧ e.val = v := by
  unfold hashmap_get
  rw [hashmap_get_node_spec P heq m h hP k hk]
  constructor
  · intro hf
    obtain ⟨e, he, hv⟩ := Option.map_eq_some'.mp hf
    have hmem := List.mem_of_find?_eq_some he
    have hp := List.find?_some he
    exact ⟨e, (hwf_bin_mem m h _ e hmem).1, by simpa using hp, hv⟩
  · intro ⟨e, he, hke, hv⟩
    have hb := (hwf_mem_bin m h e he).1
    rw [hke] at hb
    cases hf : List.find? (fun e => decide (e.key = k))
        (m.table.getD ((m.table.length - 1) &&& hash_val k) []) with
    | none =>
      have := List.find?_eq_none.mp hf e hb
      simp only [decide_eq_true_eq] at this
      exact absurd hke this
    | some e1 =>
      have hmem := List.mem_of_find?_eq_some hf
      have hp : e1.key = k := by simpa using List.find?_some hf
      have := hwf_key_inj m h e e1 he (hwf_bin_mem m h _ e1 hmem).1 (by rw [hke, hp])
      rw [Option.map_some', ← this, hv]

theorem hashmap_get_none_on {K V : Type} [DecidableEq K] [KeyHash K] [KeyOrd K] (P : K → Prop)
    (heq : ∀ a b : K, P a → P b → KeyHash.keyCmp a b = 0 → a = b) (m : Hashmap K V)
    (h : HWf m) (hP : HKeys P m) (k : K) (hk : P k) :
    hashmap_get m k = none ↔ ∀ e ∈ m.table.flatten, e.key ≠ k := by
  constructor
  · intro hg e he hke
    have := (hashmap_get_spec_on P heq m h hP k hk e.val).mpr ⟨e, he, hke, rfl⟩
    rw [hg] at this
    cases this
  · intro hall
    cases hg : hashmap_get m k with
    | none => rfl
    | some v =>
      obtain ⟨e, he, hke, _⟩ := (hashmap_get_spec_on P heq m h hP k hk v).mp hg
      exact absurd hke (hall e he)

theorem hashmap_contains_key_get {K V : Type} [DecidableEq K] [KeyHash K] (m : Hashmap K V)
    (k : K) : hashmap_contains_key m k = (hashmap_get m k).isSome := by
  unfold hashmap_contains_key hashmap_get
  cases hashmap_get_node m k <;> rfl

theorem hwf_init {K V : Type} [KeyHash K] : HWf (hashmap_init : Hashmap K V) := by
  refine ⟨⟨Or.inl ⟨rfl, rfl⟩, ?_, ?_, rfl⟩, ?_⟩
  · intro i bin hb
    simp [hashmap_init] at hb
  · simp [hashmap_init]
  · intro i t ht
    cases ht

theorem hashmap_get_init {K V : Type} [DecidableEq K] [KeyHash K] (k : K) :
    hashmap_get (hashmap_init : Hashmap K V) k = none := rfl

theorem hwf_other_bins {K V : Type} [KeyHash K] (m : Hashmap K V) (h : HWf m) (i : Nat)
    (e : HashmapNode K V)
    (he : e ∈ (m.table.take i).flatten ∨ e ∈ (m.table.drop (i + 1)).flatten) :
    (m.table.length - 1) &&& hash_val e.key ≠ i := by
  obtain ⟨⟨_, hbin, _, _⟩, _⟩ := h
  rcases he with he | he
  · obtain ⟨b, hb, heb⟩ := List.mem_flatten.mp he
    obtain ⟨j, hj, hjb⟩ := List.getElem_of_mem hb
    rw [List.length_take] at hj
    rw [List.getElem_take] at hjb
    have hjb2 : m.table[j]? = some b := by rw [List.getElem?_eq_getElem (by omega), hjb]
    have hh := hbin j b hjb2 e heb
    rw [← hh.1, hh.2]
    omega
  · obtain ⟨b, hb, heb⟩ := List.mem_flatten.mp he
    obtain ⟨j, hj, hjb⟩ := List.getElem_of_mem hb
    rw [List.length_drop] at hj
    rw [List.getElem_drop] at hjb
    have hjb2 : m.table[i + 1 + j]? = some b := by rw [List.getElem?_eq_getElem (by omega), hjb]
    have hh := hbin _ b hjb2 e heb
    rw [← hh.1, hh.2]
    omega

theorem hwf_flatten_mem {K V : Type} (tab : List (List (HashmapNode K V))) (i : Nat)
    (hi : i < tab.length) (b : List (HashmapNode K V)) (e : HashmapNode K V) :
    (e ∈ (tab.set i b).flatten ↔
      e ∈ (tab.take i).flatten ∨ e ∈ b ∨ e ∈ (tab.drop (i + 1)).flatten) ∧
    (e ∈ tab.flatten ↔
      e ∈ (tab.take i).flatten ∨ e ∈ tab.getD i [] ∨ e ∈ (tab.drop (i + 1)).flatten) := by
  have hg : tab.getD i [] = tab[i] := by
    rw [List.getD_eq_getElem?_getD, List.getElem?_eq_getElem hi]
    rfl
  constructor
  · rw [(flatten_set tab i b hi).1, List.mem_append, List.mem_append]
  · rw [hg]
    conv_lhs => rw [(flatten_set tab i b hi).2]
    rw [List.mem_append, List.mem_append]

theorem getD_set {α : Type} (l : List (List α)) (i j : Nat) (b : List α) (hi : i < l.length) :
    (l.set i b).getD j [] = if j = i then b else l.getD j [] := by
  rw [List.getD_eq_getElem?_getD, List.getD_eq_getElem?_getD]
  by_cases hj : j = i
  · rw [if_pos hj, hj, List.getElem?_set_self hi]
    rfl
  · rw [if_neg hj, List.getElem?_set_ne (Ne.symm hj)]

theorem trees_keep {K V : Type} [KeyHash K] (m : Hashmap K V) (h : HWf m) (i : Nat)
    (hi : i < m.table.length) (b : List (HashmapNode K V))
    (hok : ∀ t, hashmap_tree_get m.trees i = some t → HTreeOk KeyHash.keyCmp b t) :
    ∀ j t, hashmap_tree_get m.trees j = some t →
      HTreeOk KeyHash.keyCmp ((m.table.set i b).getD j []) t := by
  intro j t ht
  rw [getD_set _ _ _ _ hi]
  by_cases hj : j = i
  · rw [if_pos hj]
    rw [hj] at ht
    exact hok t ht
  · rw [if_neg hj]
    exact h.2 j t ht

theorem trees_set {K V : Type} [KeyHash K] (m : Hashmap K V) (h : HWf m) (i : Nat)
    (hi : i < m.table.length) (b : List (HashmapNode K V)) (o : Option (HashmapTree K))
    (hok : ∀ t, o = some t → HTreeOk KeyHash.keyCmp b t) :
    ∀ j t, hashmap_tree_get (hashmap_tree_set m.trees i o) j = some t →
      HTreeOk KeyHash.keyCmp ((m.table.set i b).getD j []) t := by
  intro j t ht
  rw [tree_get_set] at ht
  rw [getD_set _ _ _ _ hi]
  by_cases hj : j = i
  · rw [if_pos hj] at ht ⊢
    exact hok t ht
  · rw [if_neg hj] at ht ⊢
    exact h.2 j t ht

theorem hwf_set {K V : Type} [KeyHash K] (m : Hashmap K V) (h : HWf m) (i : Nat)
    (hi : i < m.table.length) (b : List (HashmapNode K V)) (s thr : Nat)
    (tr : List (Nat × HashmapTree K))
    (hb : ∀ e ∈ b, e.hash = hash_val e.key ∧ (m.table.length - 1) &&& e.hash = i)
    (hnd : (((m.table.take i).flatten ++ (b ++ (m.table.drop (i + 1)).flatten)).map
      (fun e => e.key)).Nodup)
    (hs : s = ((m.table.take i).flatten ++ (b ++ (m.table.drop (i + 1)).flatten)).length)
    (htr : ∀ j t, hashmap_tree_get tr j = some t →
      HTreeOk KeyHash.keyCmp ((m.table.set i b).getD j []) t) :
    HWf (⟨m.table.set i b, s, thr, tr⟩ : Hashmap K V) := by
  obtain ⟨⟨hcap, hbin, _, _⟩, _⟩ := h
  refine ⟨⟨?_, ?_, ?_, ?_⟩, htr⟩
  · rcases hcap with ⟨h0, _⟩ | ht
    · omega
    · right; simpa using ht
  · intro j bin hj e he
    simp only [List.length_set]
    by_cases hji : i = j
    · subst hji
      rw [List.getElem?_set_self hi] at hj
      rw [← Option.some.inj hj] at he
      exact hb e he
    · rw [List.getElem?_set_ne hji] at hj
      exact hbin j bin hj e he
  · show (List.map _ (m.table.set i b).flatten).Nodup
    rw [(flatten_set m.table i b hi).1]
    exact hnd
  · show s = (m.table.set i b).flatten.length
    rw [(flatten_set m.table i b hi).1]
    exact hs

theorem set_self_eq {α : Type} (l : List α) (i : Nat) (hi : i < l.length) :
    l.set i l[i] = l := by
  apply List.ext_getElem?
  intro j
  by_cases h : i = j
  · subst h
    rw [List.getElem?_set_self hi, List.getElem?_eq_getElem hi]
  · rw [List.getElem?_set_ne h]

theorem modify_keeps {K V : Type} (f : HashmapNode K V → HashmapNode K V)
    (hf : ∀ e, (f e).key = e.key ∧ (f e).hash = e.hash) :
    ∀ (l : List (HashmapNode K V)) (n : Nat),
      (List.modify f n l).map (fun e => e.key) = l.map (fun e => e.key) ∧
      (List.modify f n l).length = l.length ∧
      (∀ x ∈ List.modify f n l, ∃ e ∈ l, x.key = e.key ∧ x.hash = e.hash) ∧
      ((∀ e ∈ l, f e = e) → List.modify f n l = l) ∧
      (List.modify f n l).map (fun e => (e.hash, e.key)) = l.map (fun e => (e.hash, e.key)) := by
  intro l
  induction l with
  | nil => intro n; simp
  | cons a l ih =>
    intro n
    cases n with
    | zero =>
      rw [List.modify_zero_cons]
      refine ⟨by simp [(hf a).1], by simp, ?_, ?_, by simp [(hf a).1, (hf a).2]⟩
      · intro x hx
        rcases List.mem_cons.mp hx with h1 | h1
        · exact ⟨a, List.mem_cons_self _ _, by rw [h1]; exact hf a⟩
        · exact ⟨x, List.mem_cons_of_mem _ h1, rfl, rfl⟩
      · intro h
        rw [h a (List.mem_cons_self _ _)]
    | succ n =>
      rw [List.modify_succ_cons]
      obtain ⟨i1, i2, i3, i4, i5⟩ := ih n
      refine ⟨by simp [i1], by simp [i2], ?_, ?_, by simp [i5]⟩
      · intro x hx
        rcases List.mem_cons.mp hx with h1 | h1
        · exact ⟨a, List.mem_cons_self _ _, by rw [h1], by rw [h1]⟩
        · obtain ⟨e, he, h2⟩ := i3 x h1
          exact ⟨e, List.mem_cons_of_mem _ he, h2⟩
      · intro h
        rw [i4 (fun e he => h e (List.mem_cons_of_mem _ he))]

/-- Replacing the bin of the key `k` by a chain that differs from it in the
node of `k` only: the table stays well-formed, and it maps `k` to `o` and
every other key as before. -/
theorem hashmap_set_bin_spec {K V : Type} [DecidableEq K] [KeyHash K] [KeyOrd K] (P : K → Prop)
    (heq : ∀ a b : K, P a → P b → KeyHash.keyCmp a b = 0 → a = b) (m : Hashmap K V)
    (h : HWf m) (hP : HKeys P m) (hn : m.table.length ≠ 0) (k : K) (hkP : P k)
    (bin1 : List (HashmapNode K V)) (o : Option V) (s thr : Nat)
    (tr : List (Nat × HashmapTree K))
    (hkeep : ∀ e, e.key ≠ k →
      (e ∈ bin1 ↔ e ∈ m.table.getD ((m.table.length - 1) &&& hash_val k) []))
    (hk : ∀ e, e.key = k → (e ∈ bin1 ↔ (some e.val = o ∧ e.hash = hash_val k)))
    (hnd : (bin1.map (fun e => e.key)).Nodup)
    (hs : s + (m.table.getD ((m.table.length - 1) &&& hash_val k) []).length =
      m.size + bin1.length)
    (htr : ∀ j t, hashmap_tree_get tr j = some t → HTreeOk KeyHash.keyCmp
      ((m.table.set ((m.table.length - 1) &&& hash_val k) bin1).getD j []) t) :
    HWf (⟨m.table.set ((m.table.length - 1) &&& hash_val k) bin1, s, thr, tr⟩ : Hashmap K V) ∧
    HKeys P (⟨m.table.set ((m.table.length - 1) &&& hash_val k) bin1, s, thr, tr⟩ :
      Hashmap K V) ∧
    ∀ k1, P k1 → hashmap_get
        (⟨m.table.set ((m.table.length - 1) &&& hash_val k) bin1, s, thr, tr⟩ : Hashmap K V) k1 =
      if k1 = k then o else hashmap_get m k1 := by
  have hi := hwf_index_lt m hn k
  have hb1 : ∀ e ∈ bin1, e.hash = hash_val e.key ∧
      (m.table.length - 1) &&& hash_val e.key = (m.table.length - 1) &&& hash_val k := by
    intro e he
    by_cases hek : e.key = k
    · have := ((hk e hek).mp he).2
      rw [hek]
      exact ⟨this, rfl⟩
    · have := hwf_bin_mem m h _ e ((hkeep e hek).mp he)
      exact ⟨this.2.1, this.2.2⟩
  have hfl := (flatten_set m.table ((m.table.length - 1) &&& hash_val k) bin1 hi)
  have hg : m.table.getD ((m.table.length - 1) &&& hash_val k) [] =
      m.table[(m.table.length - 1) &&& hash_val k] := by
    rw [List.getD_eq_getElem?_getD, List.getElem?_eq_getElem hi]
    rfl
  have hnd0 := h.1.2.2.1
  rw [hfl.2, List.map_append, List.map_append, List.nodup_append, List.nodup_append] at hnd0
  obtain ⟨ndA, ⟨_, ndC, _⟩, _⟩ := hnd0
  have hw : HWf (⟨m.table.set ((m.table.length - 1) &&& hash_val k) bin1, s, thr, tr⟩ :
      Hashmap K V) := by
    refine hwf_set m h _ hi bin1 s thr tr ?_ ?_ ?_ htr
    · intro e he
      have := hb1 e he
      exact ⟨this.1, by rw [this.1]; exact this.2⟩
    · rw [List.map_append, List.map_append, List.nodup_append, List.nodup_append]
      refine ⟨ndA, ⟨hnd, ndC, ?_⟩, ?_⟩
      · intro x hx1 hx2
        obtain ⟨e1, he1, rfl⟩ := List.mem_map.mp hx1
        obtain ⟨e2, he2, hk2⟩ := List.mem_map.mp hx2
        have := hwf_other_bins m h _ e2 (Or.inr he2)
        rw [hk2] at this
        exact this (hb1 e1 he1).2
      · intro x hx1 hx2
        obtain ⟨e2, he2, rfl⟩ := List.mem_map.mp hx1
        have := hwf_other_bins m h _ e2 (Or.inl he2)
        rcases List.mem_append.mp hx2 with hx | hx
        · obtain ⟨e1, he1, hk1⟩ := List.mem_map.mp hx
          rw [← hk1] at this
          exact this (hb1 e1 he1).2
        · obtain ⟨e1, he1, hk1⟩ := List.mem_map.mp hx
          exact (List.nodup_append.mp (by
            have := h.1.2.2.1
            rw [hfl.2, List.map_append, List.map_append] at this
            exact this)).2.2 (List.mem_map.mpr ⟨e2, he2, rfl⟩)
            (List.mem_append_right _ (List.mem_map.mpr ⟨e1, he1, hk1⟩))
    · have := h.1.2.2.2
      rw [hfl.2, List.length_append, List.length_append] at this
      rw [List.length_append, List.length_append]
      rw [hg] at hs
      omega
  have hP1 : HKeys P (⟨m.table.set ((m.table.length - 1) &&& hash_val k) bin1, s, thr, tr⟩ :
      Hashmap K V) := by
    refine hkeys_table_set P m hP _ _ ?_
    intro e he
    by_cases hek : e.key = k
    · rw [hek]
      exact hkP
    · exact hkeys_getD P m hP _ e ((hkeep e hek).mp he)
  refine ⟨hw, hP1, ?_⟩
  intro k1 hk1P
  apply Option.ext
  intro w
  rw [Option.mem_def, Option.mem_def, hashmap_get_spec_on P heq _ hw hP1 k1 hk1P]
  have hmem := fun e => hwf_flatten_mem m.table _ hi bin1 e
  by_cases hk1 : k1 = k
  · rw [if_pos hk1]
    subst hk1
    constructor
    · intro ⟨e, he, hek, hev⟩
      rcases ((hmem e).1.mp he) with h1 | h1 | h1
      · exact absurd (by rw [hek]) (hwf_other_bins m h _ e (Or.inl h1))
      · have := ((hk e hek).mp h1).1
        rw [← this, hev]
      · exact absurd (by rw [hek]) (hwf_other_bins m h _ e (Or.inr h1))
    · intro ho
      refine ⟨⟨hash_val k1, k1, w⟩, ?_, rfl, rfl⟩
      apply (hmem _).1.mpr
      right; left
      exact (hk _ rfl).mpr ⟨ho.symm, rfl⟩
  · rw [if_neg hk1, hashmap_get_spec_on P heq _ h hP k1 hk1P]
    constructor
    · intro ⟨e, he, hek, hev⟩
      refine ⟨e, ?_, hek, hev⟩
      apply (hmem e).2.mpr
      rcases ((hmem e).1.mp he) with h1 | h1 | h1
      · exact Or.inl h1
      · exact Or.inr (Or.inl ((hkeep e (by rw [hek]; exact hk1)).mp h1))
      · exact Or.inr (Or.inr h1)
    · intro ⟨e, he, hek, hev⟩
      refine ⟨e, ?_, hek, hev⟩
      apply (hmem e).1.mpr
      rcases ((hmem e).2.mp he) with h1 | h1 | h1
      · exact Or.inl h1
      · exact Or.inr (Or.inl ((hkeep e (by rw [hek]; exact hk1)).mpr h1))
      · exact Or.inr (Or.inr h1)

theorem bin_split {K V : Type} (l : List (HashmapNode K V)) (idx : Nat) (h : idx < l.length)
    (hnd : (l.map (fun e => e.key)).Nodup) :
    (∀ x, x ∈ l.eraseIdx idx ↔ x ∈ l ∧ x.key ≠ l[idx].key) ∧
    (∀ (f : HashmapNode K V → HashmapNode K V) x,
      x ∈ l.modify f idx ↔ x = f l[idx] ∨ x ∈ l.eraseIdx idx) := by
  have hl : l = l.take idx ++ l[idx] :: l.drop (idx + 1) := by
    conv_lhs => rw [← List.take_append_drop idx l, List.drop_eq_getElem_cons h]
  constructor
  · intro x
    rw [List.eraseIdx_eq_take_drop_succ]
    rw [hl, List.map_append, List.map_cons, List.nodup_append, List.nodup_cons] at hnd
    obtain ⟨_, ⟨hC, _⟩, hdis⟩ := hnd
    constructor
    · intro hx
      rcases List.mem_append.mp hx with h1 | h1
      · refine ⟨List.mem_of_mem_take h1, ?_⟩
        intro hk
        exact hdis (List.mem_map.mpr ⟨x, h1, rfl⟩) (by rw [hk]; exact List.mem_cons_self _ _)
      · refine ⟨List.mem_of_mem_drop h1, ?_⟩
        intro hk
        exact hC (by rw [← hk]; exact List.mem_map.mpr ⟨x, h1, rfl⟩)
    · intro ⟨hx, hk⟩
      rw [hl] at hx
      rcases List.mem_append.mp hx with h1 | h1
      · exact List.mem_append_left _ h1
      · rcases List.mem_cons.mp h1 with h2 | h2
        · rw [h2] at hk
          exact absurd rfl hk
        · exact List.mem_append_right _ h2
  · intro f x
    rw [List.modify_eq_take_cons_drop h, List.eraseIdx_eq_take_drop_succ]
    simp only [List.mem_append, List.mem_cons]
    tauto

/-- The position at which the operations find the node of `k` in its bin. -/
theorem hashmap_findIdx_spec {K V : Type} [DecidableEq K] [KeyHash K] [KeyOrd K] (P : K → Prop)
    (heq : ∀ a b : K, P a → P b → KeyHash.keyCmp a b = 0 → a = b) (m : Hashmap K V)
    (h : HWf m) (hP : HKeys P m) (k : K) (hk : P k) :
    match (m.table.getD ((m.table.length - 1) &&& hash_val k) []).findIdx?
        (fun e => decide (e.key = k)) with
    | none => hashmap_get m k = none
    | some idx => ∃ (hlt : idx < (m.table.getD ((m.table.length - 1) &&& hash_val k) []).length),
        ((m.table.getD ((m.table.length - 1) &&& hash_val k) [])[idx]).key = k ∧
        ((m.table.getD ((m.table.length - 1) &&& hash_val k) [])[idx]).hash = hash_val k ∧
        hashmap_get m k =
          some ((m.table.getD ((m.table.length - 1) &&& hash_val k) [])[idx]).val := by
  generalize hbd : m.table.getD ((m.table.length - 1) &&& hash_val k) [] = bin
  cases hf : bin.findIdx? (fun e => decide (e.key = k)) with
  | none =>
    show hashmap_get m k = none
    rw [hashmap_get_none_on P heq m h hP k hk]
    intro e he hke
    have hb := (hwf_mem_bin m h e he).1
    rw [hke, hbd] at hb
    have := List.findIdx?_eq_none_iff.mp hf e hb
    simp only [decide_eq_false_iff_not] at this
    exact this hke
  | some idx =>
    obtain ⟨hlt, hp, _⟩ := List.findIdx?_eq_some_iff_getElem.mp hf
    have hmem : bin[idx] ∈ m.table.getD ((m.table.length - 1) &&& hash_val k) [] := by
      rw [hbd]
      exact List.getElem_mem hlt
    have hke : bin[idx].key = k := by simpa using hp
    have hb := hwf_bin_mem m h _ _ hmem
    refine ⟨hlt, hke, by rw [hb.2.1, hke], ?_⟩
    exact (hashmap_get_spec_on P heq m h hP k hk _).mpr ⟨bin[idx], hb.1, hke, rfl⟩

theorem hashmap_get_perm {K V : Type} [DecidableEq K] [KeyHash K] [KeyOrd K] (P : K → Prop)
    (heq : ∀ a b : K, P a → P b → KeyHash.keyCmp a b = 0 → a = b) (m m1 : Hashmap K V)
    (h : HWf m) (h1 : HWf m1) (hP : HKeys P m)
    (hp : m1.table.flatten.Perm m.table.flatten) (k : K) (hk : P k) :
    hashmap_get m1 k = hashmap_get m k := by
  have hP1 : HKeys P m1 := by
    intro b hb e he
    exact hkeys_flatten P m hP e (hp.mem_iff.1 (List.mem_flatten.2 ⟨b, hb, he⟩))
  apply Option.ext
  intro w
  rw [Option.mem_def, Option.mem_def, hashmap_get_spec_on P heq _ h1 hP1 k hk,
    hashmap_get_spec_on P heq _ h hP k hk]
  constructor
  · intro ⟨e, he, hk⟩
    exact ⟨e, (List.Perm.mem_iff hp).mp he, hk⟩
  · intro ⟨e, he, hk⟩
    exact ⟨e, (List.Perm.mem_iff hp).mpr he, hk⟩

theorem hashmap_set_val_spec_on {K V : Type} [DecidableEq K] [KeyHash K] [KeyOrd K]
    (P : K → Prop) (heq : ∀ a b : K, P a → P b → KeyHash.keyCmp a b = 0 → a = b)
    (m : Hashmap K V) (h : HWf m) (hP : HKeys P m) (k : K) (hkP : P k) (v : V) :
    HWf (hashmap_set_val m k v) ∧ HKeys P (hashmap_set_val m k v) ∧
    (∀ k1, P k1 → hashmap_get (hashmap_set_val m k v) k1 =
      if k1 = k ∧ (hashmap_get m k).isSome = true then some v else hashmap_get m k1) ∧
    (hashmap_set_val m k v).size = m.size := by
  unfold hashmap_set_val
  by_cases hn : m.table.length = 0
  · simp only [hn, if_true]
    refine ⟨h, hP, ?_, ?_⟩
    swap
    · first | rfl | trivial
    intro k1 _
    have : hashmap_get m k = none := by
      unfold hashmap_get hashmap_get_node
      simp [hn]
    rw [this]
    simp
  · simp only [if_neg hn]
    have hi := hwf_index_lt m hn k
    have hfind := bin_find_spec P heq k hkP
      (m.table.getD ((m.table.length - 1) &&& hash_val k) [])
      (fun e he => hkeys_flatten P m hP e (hwf_bin_mem m h _ e he).1)
      (fun e he => (hwf_bin_mem m h _ e he).2.1)
      (hashmap_tree_get m.trees ((m.table.length - 1) &&& hash_val k))
      (fun t ht => h.2 _ t ht)
    rw [hfind]
    have hs := hashmap_findIdx_spec P heq m h hP k hkP
    generalize hbd : m.table.getD ((m.table.length - 1) &&& hash_val k) [] = bin at hs
    cases hf : bin.findIdx? (fun e => decide (e.key = k)) with
    | none =>
      rw [hf] at hs
      simp only at hs
      refine ⟨h, hP, ?_, rfl⟩
      intro k1 _
      rw [hs]
      simp
    | some idx =>
      rw [hf] at hs
      obtain ⟨hlt, hk, hh, hg⟩ := hs
      have hnd := hwf_bin_nodup m h ((m.table.length - 1) &&& hash_val k)
      rw [hbd] at hnd
      obtain ⟨b1, b2⟩ := bin_split bin idx hlt hnd
      have hmk := modify_keeps (fun e : HashmapNode K V => { e with val := v })
          (fun e => ⟨rfl, rfl⟩) bin idx
      have := hashmap_set_bin_spec P heq m h hP hn k hkP
        (bin.modify (fun e => { e with val := v }) idx) (some v) m.size m.threshold m.trees
        ?_ ?_ ?_ ?_ ?_
      · refine ⟨this.1, this.2.1, ?_, rfl⟩
        intro k1 hk1
        rw [this.2.2 k1 hk1, hg]
        simp
      · intro e hek
        rw [hbd, b2, b1, hk]
        constructor
        · intro hx
          rcases hx with hx | hx
          · rw [hx] at hek
            exact absurd rfl hek
          · exact hx.1
        · intro hx
          exact Or.inr ⟨hx, hek⟩
      · intro e hek
        rw [b2, b1, hk]
        constructor
        · intro hx
          rcases hx with hx | hx
          · rw [hx]
            exact ⟨rfl, hh⟩
          · exact absurd hek hx.2
        · intro ⟨hx1, hx2⟩
          left
          cases e
          simp only at hx1 hx2 hek
          simp only [HashmapNode.mk.injEq]
          exact ⟨by rw [hx2, hh], hek, (Option.some.inj hx1)⟩
      · rw [hmk.1]
        exact hnd
      · rw [hbd, List.length_modify]
      · refine trees_keep m h _ hi _ ?_
        intro t ht
        have := h.2 _ t ht
        rw [hbd] at this
        exact ⟨this.1, by rw [hmk.2.2.2.2]; exact this.2⟩

theorem hashmap_remove_node_spec_on {K V : Type} [DecidableEq K] [KeyHash K] [KeyOrd K]
    (P : K → Prop) (heq : ∀ a b : K, P a → P b → KeyHash.keyCmp a b = 0 → a = b)
    (m : Hashmap K V) (h : HWf m) (hP : HKeys P m) (k : K) (hkP : P k) (movable : Bool) :
    HWf (hashmap_remove_node m k movable).1 ∧ HKeys P (hashmap_remove_node m k movable).1 ∧
    (∀ k1, P k1 → hashmap_get (hashmap_remove_node m k movable).1 k1 =
      if k1 = k then none else hashmap_get m k1) ∧
    (hashmap_remove_node m k movable).1.size +
      (if (hashmap_get m k).isSome = true then 1 else 0) = m.size ∧
    (hashmap_remove_node m k movable).2 = (if (hashmap_get m k).isSome = true then 1 else 0) := by
  unfold hashmap_remove_node
  by_cases hn : m.table.length = 0
  · simp only [hn, if_true]
    have : ∀ k1, hashmap_get m k1 = none := by
      intro k1
      unfold hashmap_get hashmap_get_node
      simp [hn]
    refine ⟨h, hP, ?_, ?_, ?_⟩
    · intro k1 _
      rw [this]
      simp
    · rw [this]
      simp
    · rw [this]
      simp
  · simp only [if_neg hn]
    have hi := hwf_index_lt m hn k
    obtain ⟨_, hfi, hft⟩ := hashmap_bin_find_spec P heq m h hP k hkP
    have hs := hashmap_findIdx_spec P heq m h hP k hkP
    have htok := h.2 ((m.table.length - 1) &&& hash_val k)
    rw [hfi]
    generalize hbd : m.table.getD ((m.table.length - 1) &&& hash_val k) [] = bin at *
    have hnd := hwf_bin_nodup m h ((m.table.length - 1) &&& hash_val k)
    rw [hbd] at hnd
    have hnone : bin.findIdx? (fun e => decide (e.key = k)) = none →
        HWf m ∧ HKeys P m ∧
        (∀ k1, P k1 → hashmap_get m k1 = if k1 = k then none else hashmap_get m k1) ∧
        m.size + (if (hashmap_get m k).isSome = true then 1 else 0) = m.size ∧
        0 = (if (hashmap_get m k).isSome = true then 1 else 0) := by
      intro hf
      rw [hf] at hs
      simp only at hs
      refine ⟨h, hP, ?_, ?_, ?_⟩
      · intro k1 _
        by_cases hk1 : k1 = k
        · rw [if_pos hk1, hk1, hs]
        · rw [if_neg hk1]
      · rw [hs]
        simp
      · rw [hs]
        simp
    have hsome : ∀ idx, bin.findIdx? (fun e => decide (e.key = k)) = some idx →
        ∀ (bin1 : List (HashmapNode K V)) (tr : List (Nat × HashmapTree K)),
        bin1.Perm (bin.eraseIdx idx) →
        (∀ j t, hashmap_tree_get tr j = some t → HTreeOk KeyHash.keyCmp
          ((m.table.set ((m.table.length - 1) &&& hash_val k) bin1).getD j []) t) →
        HWf (⟨m.table.set ((m.table.length - 1) &&& hash_val k) bin1, m.size - 1,
          m.threshold, tr⟩ : Hashmap K V) ∧
        HKeys P (⟨m.table.set ((m.table.length - 1) &&& hash_val k) bin1, m.size - 1,
          m.threshold, tr⟩ : Hashmap K V) ∧
        (∀ k1, P k1 → hashmap_get (⟨m.table.set ((m.table.length - 1) &&& hash_val k) bin1,
            m.size - 1, m.threshold, tr⟩ : Hashmap K V) k1 =
          if k1 = k then none else hashmap_get m k1) ∧
        m.size - 1 + (if (hashmap_get m k).isSome = true then 1 else 0) = m.size ∧
        1 = (if (hashmap_get m k).isSome = true then 1 else 0) := by
      intro idx hf bin1 tr hperm htr
      rw [hf] at hs
      obtain ⟨hlt, hk, hh, hg⟩ := hs
      obtain ⟨b1, b2⟩ := bin_split bin idx hlt hnd
      have hpos : 1 ≤ m.size := by
        rw [h.1.2.2.2]
        have hmem : bin[idx] ∈ m.table.flatten := by
          have : bin[idx] ∈ m.table.getD ((m.table.length - 1) &&& hash_val k) [] := by
            rw [hbd]
            exact List.getElem_mem hlt
          exact (hwf_bin_mem m h _ _ this).1
        exact List.length_pos_of_mem hmem
      have := hashmap_set_bin_spec P heq m h hP hn k hkP bin1 none (m.size - 1) m.threshold tr
        ?_ ?_ ?_ ?_ htr
      · refine ⟨this.1, this.2.1, this.2.2, ?_, ?_⟩
        · rw [hg]
          simp only [Option.isSome_some, if_true]
          omega
        · rw [hg]
          simp
      · intro e hek
        rw [hbd, hperm.mem_iff, b1, hk]
        exact ⟨fun hx => hx.1, fun hx => ⟨hx, hek⟩⟩
      · intro e hek
        rw [hperm.mem_iff, b1, hk]
        constructor
        · intro hx
          exact absurd hek hx.2
        · intro hx
          cases hx.1
      · rw [(hperm.map _).nodup_iff]
        exact List.Nodup.sublist (List.Sublist.map _ (List.eraseIdx_sublist bin idx)) hnd
      · rw [hbd, hperm.length_eq, List.length_eraseIdx, if_pos hlt]
        omega
    cases htg : hashmap_tree_get m.trees ((m.table.length - 1) &&& hash_val k) with
    | none =>
      simp only
      cases hf : bin.findIdx? (fun e => decide (e.key = k)) with
      | none => exact hnone hf
      | some idx =>
        refine hsome idx hf _ _ (List.Perm.refl _) ?_
        refine trees_keep m h _ hi _ ?_
        intro t ht
        rw [htg] at ht
        cases ht
    | some t =>
      simp only
      rw [hft t htg]
      cases hf : bin.findIdx? (fun e => decide (e.key = k)) with
      | none => exact hnone hf
      | some idx =>
        simp only
        obtain ⟨hlt, _, _⟩ := List.findIdx?_eq_some_iff_getElem.mp hf
        have hget : bin.get? idx = some bin[idx] := by
          rw [List.get?_eq_getElem?, List.getElem?_eq_getElem hlt]
        obtain ⟨r1, r2⟩ := treenode_remove_tree_node_spec bin t (htok t htg) hnd idx _ hget movable
        refine hsome idx hf _ _ r1 ?_
        exact trees_set m h _ hi _ _ r2

theorem hashmap_treeify_bin_size {K V : Type} [DecidableEq K] [KeyHash K] (m : Hashmap K V)
    (hash s : Nat) :
    hashmap_treeify_bin { m with size := s } hash =
      { hashmap_treeify_bin m hash with size := s } := by
  unfold hashmap_treeify_bin
  dsimp only
  split
  · exact hashmap_resize_size m s
  · split <;> rfl

theorem hashmap_treeify_bin_size_eq {K V : Type} [DecidableEq K] [KeyHash K] (m : Hashmap K V)
    (hash : Nat) : (hashmap_treeify_bin m hash).size = m.size := by
  unfold hashmap_treeify_bin
  split
  · exact hashmap_resize_size_eq m
  · split <;> rfl

theorem hwf_set_perm {K V : Type} [KeyHash K] (m : Hashmap K V) (h : HWf m) (i : Nat)
    (hi : i < m.table.length) (b : List (HashmapNode K V)) (hp : b.Perm (m.table.getD i []))
    (thr : Nat) (tr : List (Nat × HashmapTree K))
    (htr : ∀ j t, hashmap_tree_get tr j = some t →
      HTreeOk KeyHash.keyCmp ((m.table.set i b).getD j []) t) :
    HWf (⟨m.table.set i b, m.size, thr, tr⟩ : Hashmap K V) ∧
    (m.table.set i b).flatten.Perm m.table.flatten := by
  have hg : m.table.getD i [] = m.table[i] := by
    rw [List.getD_eq_getElem?_getD, List.getElem?_eq_getElem hi]
    rfl
  have hfl := flatten_set m.table i b hi
  have hperm : (m.table.set i b).flatten.Perm m.table.flatten := by
    rw [hfl.1]
    conv_rhs => rw [hfl.2]
    rw [hg] at hp
    exact List.Perm.append_left _ (List.Perm.append_right _ hp)
  refine ⟨hwf_set m h i hi b m.size thr tr ?_ ?_ ?_ htr, hperm⟩
  · intro e he
    have := hwf_bin_mem m h i e (hp.mem_iff.1 he)
    exact ⟨this.2.1, by rw [this.2.1]; exact this.2.2⟩
  · rw [← hfl.1]
    exact ((hperm.map _).nodup_iff).2 h.1.2.2.1
  · rw [← hfl.1, hperm.length_eq]
    exact h.1.2.2.2

theorem hashmap_treeify_bin_spec {K V : Type} [DecidableEq K] [KeyHash K] [KeyOrd K]
    (P : K → Prop) (heq : ∀ a b : K, P a → P b → KeyHash.keyCmp a b = 0 → a = b)
    (m : Hashmap K V) (h : HWf m) (hP : HKeys P m) (hash : Nat) :
    HWf (hashmap_treeify_bin m hash) ∧
    (hashmap_treeify_bin m hash).table.flatten.Perm m.table.flatten ∧
    (hashmap_treeify_bin m hash).size = m.size := by
  refine ⟨?_, ?_, hashmap_treeify_bin_size_eq m hash⟩
  · unfold hashmap_treeify_bin
    split
    · exact (hashmap_resize_spec m h).1
    · rename_i hlen
      split
      · exact h
      · rename_i hne
        have hi : (m.table.length - 1) &&& hash < m.table.length := by
          have := @Nat.and_le_left (m.table.length - 1) hash
          have : MIN_TREEIFY_CAPACITY = 64 := rfl
          omega
        obtain ⟨hok, hperm⟩ := treenode_treeify_ok KeyOrd.ord
          (m.table.getD ((m.table.length - 1) &&& hash) [])
          (key_cmp_distinct P heq _
            (fun e he => hkeys_flatten P m hP e (hwf_bin_mem m h _ e he).1)
            (hwf_bin_nodup m h _))
        exact (hwf_set_perm m h _ hi _ hperm m.threshold _
          (trees_set m h _ hi _ _ (fun t ht => by cases ht; exact hok))).1
  · unfold hashmap_treeify_bin
    split
    · exact (hashmap_resize_spec m h).2.1
    · rename_i hlen
      split
      · exact List.Perm.refl _
      · have hi : (m.table.length - 1) &&& hash < m.table.length := by
          have := @Nat.and_le_left (m.table.length - 1) hash
          have : MIN_TREEIFY_CAPACITY = 64 := rfl
          omega
        have hperm := treenode_treeify_mem (K := K) (V := V) KeyHash.keyCmp
        exact (hwf_set_perm m h _ hi _ (treenode_move_root_to_front_perm _ _) m.threshold m.trees
          (trees_keep m h _ hi _ (fun t ht =>
            tree_ok_perm _ _ t (h.2 _ t ht) (treenode_move_root_to_front_perm _ _)))).2

theorem put_tail {K V : Type} [DecidableEq K] [KeyHash K] [KeyOrd K] (P : K → Prop)
    (heq : ∀ a b : K, P a → P b → KeyHash.keyCmp a b = 0 → a = b)
    (m0 : Hashmap K V) (hw : HWf { m0 with size := m0.size + 1 }) (hP : HKeys P m0)
    (m3 : Hashmap K V) (hash : Nat) (hm3 : m3 = m0 ∨ m3 = hashmap_treeify_bin m0 hash) :
    HWf (if m3.size + 1 > m3.threshold then
        hashmap_resize ⟨m3.table, m3.size + 1, m3.threshold, m3.trees⟩
      else ⟨m3.table, m3.size + 1, m3.threshold, m3.trees⟩) ∧
    (if m3.size + 1 > m3.threshold then
        hashmap_resize ⟨m3.table, m3.size + 1, m3.threshold, m3.trees⟩
      else ⟨m3.table, m3.size + 1, m3.threshold, m3.trees⟩ : Hashmap K V).table.flatten.Perm
      m0.table.flatten ∧
    (if m3.size + 1 > m3.threshold then
        hashmap_resize ⟨m3.table, m3.size + 1, m3.threshold, m3.trees⟩
      else ⟨m3.table, m3.size + 1, m3.threshold, m3.trees⟩ : Hashmap K V).size = m0.size + 1 := by
  have h4 : HWf (⟨m3.table, m3.size + 1, m3.threshold, m3.trees⟩ : Hashmap K V) ∧
      (⟨m3.table, m3.size + 1, m3.threshold, m3.trees⟩ : Hashmap K V).table.flatten.Perm
        m0.table.flatten ∧ m3.size = m0.size := by
    rcases hm3 with hm3 | hm3
    · subst hm3
      exact ⟨hw, List.Perm.refl _, rfl⟩
    · have hs := hashmap_treeify_bin_spec P heq { m0 with size := m0.size + 1 } hw
        (hkeys_congr_table P _ _ rfl hP) hash
      rw [hashmap_treeify_bin_size] at hs
      have hse := hashmap_treeify_bin_size_eq m0 hash
      subst hm3
      rw [hse]
      exact ⟨hs.1, hs.2.1, rfl⟩
  obtain ⟨hw4, hp4, hs4⟩ := h4
  split
  · have hr := hashmap_resize_spec _ hw4
    exact ⟨hr.1, hr.2.1.trans hp4, by rw [hr.2.2.1, hs4]⟩
  · exact ⟨hw4, hp4, by rw [hs4]⟩

/-- The function `hashmap_put` on a well-formed table: it returns, the table
stays well-formed, `key` is mapped to `val` afterwards and every other key as
before. -/
theorem hashmap_put_spec_on {K V : Type} [DecidableEq K] [KeyHash K] [KeyOrd K]
    (P : K → Prop) (heq : ∀ a b : K, P a → P b → KeyHash.keyCmp a b = 0 → a = b)
    (m : Hashmap K V) (h : HWf m) (hP : HKeys P m) (k : K) (hkP : P k) (v : V) :
    ∃ m1 r, hashmap_put m k v = .ok (m1, r) ∧ HWf m1 ∧ HKeys P m1 ∧
      (∀ k1, P k1 → hashmap_get m1 k1 = if k1 = k then some v else hashmap_get m k1) ∧
      m1.size = (if (hashmap_get m k).isSome = true then m.size else m.size + 1) ∧
      r = (if (hashmap_get m k).isSome = true then 1 else 0) ∧
      ((hashmap_get m k).isSome = true →
        m1.table.flatten.map (fun e => e.key) = m.table.flatten.map (fun e => e.key) ∧
        ((∀ e ∈ m.table.flatten, e.val = v) → m1 = m)) ∧
      ((hashmap_get m k).isSome = false →
        m1.table.flatten.Perm (⟨hash_val k, k, v⟩ :: m.table.flatten)) := by
  have hm1 : ∃ m1, (if m.table.length = 0 then hashmap_resize m else m) = m1 ∧ HWf m1 ∧
      m1.table.flatten.Perm m.table.flatten ∧ m1.table.length ≠ 0 ∧ m1.size = m.size ∧
      (m.table.length ≠ 0 → m1 = m) := by
    by_cases h0 : m.table.length = 0
    · have hs := hashmap_resize_spec m h
      refine ⟨_, rfl, ?_⟩
      rw [if_pos h0]
      exact ⟨hs.1, hs.2.1, hs.2.2.2, hs.2.2.1, fun hc => absurd h0 hc⟩
    · refine ⟨_, rfl, ?_⟩
      rw [if_neg h0]
      exact ⟨h, List.Perm.refl _, h0, rfl, fun _ => rfl⟩
  obtain ⟨m1, hm1e, hw1, hp1, hn1, hs1, hm1m⟩ := hm1
  have hP1 : HKeys P m1 := by
    intro b hb e he
    exact hkeys_flatten P m hP e (hp1.mem_iff.1 (List.mem_flatten.2 ⟨b, hb, he⟩))
  have hget1 := fun k1 hk1 => hashmap_get_perm P heq m m1 h hw1 hP hp1 k1 hk1
  have hi := hwf_index_lt m1 hn1 k
  obtain ⟨_, hfi, hft⟩ := hashmap_bin_find_spec P heq m1 hw1 hP1 k hkP
  have hs := hashmap_findIdx_spec P heq m1 hw1 hP1 k hkP
  have hnd := hwf_bin_nodup m1 hw1 ((m1.table.length - 1) &&& hash_val k)
  have htok := hw1.2 ((m1.table.length - 1) &&& hash_val k)
  have hPb : ∀ e ∈ m1.table.getD ((m1.table.length - 1) &&& hash_val k) [], P e.key :=
    fun e he => hkeys_flatten P m1 hP1 e (hwf_bin_mem m1 hw1 _ e he).1
  have hhb : ∀ e ∈ m1.table.getD ((m1.table.length - 1) &&& hash_val k) [],
      e.hash = hash_val e.key := fun e he => (hwf_bin_mem m1 hw1 _ e he).2.1
  unfold hashmap_put
  simp only [hm1e]
  rw [hfi]
  generalize hbd : m1.table.getD ((m1.table.length - 1) &&& hash_val k) [] = bin at *
  -- an existing mapping is replaced
  have hreplace : ∀ idx, bin.findIdx? (fun e => decide (e.key = k)) = some idx →
      HWf (⟨m1.table.set ((m1.table.length - 1) &&& hash_val k)
        (bin.modify (fun e => { e with val := v }) idx), m1.size, m1.threshold, m1.trees⟩ :
        Hashmap K V) ∧
      HKeys P (⟨m1.table.set ((m1.table.length - 1) &&& hash_val k)
        (bin.modify (fun e => { e with val := v }) idx), m1.size, m1.threshold, m1.trees⟩ :
        Hashmap K V) ∧
      (∀ k1, P k1 → hashmap_get (⟨m1.table.set ((m1.table.length - 1) &&& hash_val k)
          (bin.modify (fun e => { e with val := v }) idx), m1.size, m1.threshold, m1.trees⟩ :
          Hashmap K V) k1 = if k1 = k then some v else hashmap_get m k1) ∧
      m1.size = (if (hashmap_get m k).isSome = true then m.size else m.size + 1) ∧
      1 = (if (hashmap_get m k).isSome = true then 1 else 0) ∧
      ((hashmap_get m k).isSome = true →
        (m1.table.set ((m1.table.length - 1) &&& hash_val k)
          (bin.modify (fun e => { e with val := v }) idx)).flatten.map (fun e => e.key) =
          m.table.flatten.map (fun e => e.key) ∧
        ((∀ e ∈ m.table.flatten, e.val = v) →
          (⟨m1.table.set ((m1.table.length - 1) &&& hash_val k)
            (bin.modify (fun e => { e with val := v }) idx), m1.size, m1.threshold, m1.trees⟩ :
            Hashmap K V) = m)) ∧
      ((hashmap_get m k).isSome = false →
        (m1.table.set ((m1.table.length - 1) &&& hash_val k)
          (bin.modify (fun e => { e with val := v }) idx)).flatten.Perm
          (⟨hash_val k, k, v⟩ :: m.table.flatten)) := by
    intro idx hf
    rw [hf] at hs
    obtain ⟨hlt, hk, hh, hg⟩ := hs
    obtain ⟨b1, b2⟩ := bin_split bin idx hlt hnd
    have hmk := modify_keeps (fun e : HashmapNode K V => { e with val := v })
        (fun e => ⟨rfl, rfl⟩) bin idx
    have hmm : m1 = m := by
      apply hm1m
      intro h0
      have hmem : bin[idx] ∈ m1.table.flatten := by
        have : bin[idx] ∈ m1.table.getD ((m1.table.length - 1) &&& hash_val k) [] := by
          rw [hbd]
          exact List.getElem_mem hlt
        exact (hwf_bin_mem m1 hw1 _ _ this).1
      have := hp1.mem_iff.1 hmem
      rw [List.length_eq_zero.mp h0] at this
      simp at this
    have := hashmap_set_bin_spec P heq m1 hw1 hP1 hn1 k hkP
      (bin.modify (fun e => { e with val := v }) idx) (some v) m1.size m1.threshold m1.trees
      ?_ ?_ ?_ ?_ ?_
    · have hgm : hashmap_get m k = some bin[idx].val := by rw [← hget1 k hkP, hg]
      rw [hgm]
      refine ⟨this.1, this.2.1, ?_, ?_, ?_, ?_, ?_⟩
      · intro k1 hk1
        rw [this.2.2 k1 hk1, hget1 k1 hk1]
      · simp only [Option.isSome_some, if_true]
        exact hs1
      · simp
      · intro _
        have hg2 : m1.table.getD ((m1.table.length - 1) &&& hash_val k) [] =
            m1.table[(m1.table.length - 1) &&& hash_val k] := by
          rw [List.getD_eq_getElem?_getD, List.getElem?_eq_getElem hi]
          rfl
        constructor
        · rw [(flatten_set m1.table _ _ hi).1]
          rw [← hmm]
          conv_rhs => rw [(flatten_set m1.table _ [] hi).2]
          simp only [List.map_append]
          rw [hmk.1, ← hg2, hbd]
        · intro hall
          have hid : bin.modify (fun e => { e with val := v }) idx = bin := by
            apply hmk.2.2.2.1
            intro e he
            have hmem : e ∈ m1.table.getD ((m1.table.length - 1) &&& hash_val k) [] := by
              rw [hbd]
              exact he
            have := hall e (by rw [← hmm]; exact (hwf_bin_mem m1 hw1 _ e hmem).1)
            cases e
            simp only at this
            simp only [this]
          rw [hid, ← hbd, hg2, set_self_eq _ _ hi, ← hmm]
      · intro hc
        simp at hc
    · intro e hek
      rw [hbd, b2, b1, hk]
      constructor
      · intro hx
        rcases hx with hx | hx
        · rw [hx] at hek
          exact absurd rfl hek
        · exact hx.1
      · intro hx
        exact Or.inr ⟨hx, hek⟩
    · intro e hek
      rw [b2, b1, hk]
      constructor
      · intro hx
        rcases hx with hx | hx
        · rw [hx]
          exact ⟨rfl, hh⟩
        · exact absurd hek hx.2
      · intro ⟨hx1, hx2⟩
        left
        cases e
        simp only at hx1 hx2 hek
        simp only [HashmapNode.mk.injEq]
        exact ⟨by rw [hx2, hh], hek, (Option.some.inj hx1)⟩
    · rw [hmk.1]
      exact hnd
    · rw [hbd, List.length_modify]
    · refine trees_keep m1 hw1 _ hi _ ?_
      intro t ht
      have := htok t ht
      exact ⟨this.1, by rw [hmk.2.2.2.2]; exact this.2⟩
  -- a new node is added
  have hinsert : bin.findIdx? (fun e => decide (e.key = k)) = none →
      ∀ (bin1 : List (HashmapNode K V)) (tr : List (Nat × HashmapTree K)),
      bin1.Perm (⟨hash_val k, k, v⟩ :: bin) →
      (∀ j t, hashmap_tree_get tr j = some t → HTreeOk KeyHash.keyCmp
        ((m1.table.set ((m1.table.length - 1) &&& hash_val k) bin1).getD j []) t) →
      ∀ m3 : Hashmap K V,
      (m3 = ⟨m1.table.set ((m1.table.length - 1) &&& hash_val k) bin1, m1.size,
          m1.threshold, tr⟩ ∨
        m3 = hashmap_treeify_bin ⟨m1.table.set ((m1.table.length - 1) &&& hash_val k) bin1,
          m1.size, m1.threshold, tr⟩ (hash_val k)) →
      ∀ mf : Hashmap K V,
      mf = (if m3.size + 1 > m3.threshold then
          hashmap_resize ⟨m3.table, m3.size + 1, m3.threshold, m3.trees⟩
        else ⟨m3.table, m3.size + 1, m3.threshold, m3.trees⟩) →
      HWf mf ∧ HKeys P mf ∧
      (∀ k1, P k1 → hashmap_get mf k1 = if k1 = k then some v else hashmap_get m k1) ∧
      mf.size = (if (hashmap_get m k).isSome = true then m.size else m.size + 1) ∧
      0 = (if (hashmap_get m k).isSome = true then 1 else 0) ∧
      ((hashmap_get m k).isSome = true →
        mf.table.flatten.map (fun e => e.key) = m.table.flatten.map (fun e => e.key) ∧
        ((∀ e ∈ m.table.flatten, e.val = v) → mf = m)) ∧
      ((hashmap_get m k).isSome = false →
        mf.table.flatten.Perm (⟨hash_val k, k, v⟩ :: m.table.flatten)) := by
    intro hf bin1 tr hperm htr m3 hm3 mf hmf
    rw [hf] at hs
    simp only at hs
    have hknot : ∀ e ∈ bin, e.key ≠ k := by
      intro e he hek
      have hb : e ∈ m1.table.getD ((m1.table.length - 1) &&& hash_val k) [] := by
        rw [hbd]
        exact he
      exact (hashmap_get_none_on P heq m1 hw1 hP1 k hkP).mp hs e (hwf_bin_mem m1 hw1 _ e hb).1 hek
    have hsb := hashmap_set_bin_spec P heq m1 hw1 hP1 hn1 k hkP bin1 (some v)
      (m1.size + 1) m1.threshold tr ?_ ?_ ?_ ?_ htr
    · obtain ⟨t1, t2, t3⟩ := put_tail P heq
        ⟨m1.table.set ((m1.table.length - 1) &&& hash_val k) bin1, m1.size, m1.threshold, tr⟩
        hsb.1 (hkeys_congr_table P _ _ rfl hsb.2.1) m3 (hash_val k) hm3
      rw [← hmf] at t1 t2 t3
      have hgm : hashmap_get m k = none := by rw [← hget1 k hkP, hs]
      have hPf : HKeys P mf := by
        intro b hb e he
        exact hkeys_flatten P _ hsb.2.1 e (t2.mem_iff.1 (List.mem_flatten.2 ⟨b, hb, he⟩))
      rw [hgm]
      refine ⟨t1, hPf, ?_, ?_, ?_, ?_, ?_⟩
      · intro k1 hk1
        rw [hashmap_get_perm P heq _ mf hsb.1 t1 hsb.2.1 t2 k1 hk1, hsb.2.2 k1 hk1,
          hget1 k1 hk1]
      · rw [t3, hs1]
        simp
      · simp
      · intro hc
        simp at hc
      · intro _
        refine t2.trans ?_
        have hg2 : m1.table.getD ((m1.table.length - 1) &&& hash_val k) [] =
            m1.table[(m1.table.length - 1) &&& hash_val k] := by
          rw [List.getD_eq_getElem?_getD, List.getElem?_eq_getElem hi]
          rfl
        show (m1.table.set ((m1.table.length - 1) &&& hash_val k) bin1).flatten.Perm _
        rw [(flatten_set m1.table _ _ hi).1]
        refine List.Perm.trans ?_ (List.Perm.cons _ hp1)
        conv_rhs => rw [(flatten_set m1.table _ [] hi).2]
        rw [← hg2, hbd]
        refine List.Perm.trans (List.Perm.append_left _ (List.Perm.append_right _ hperm)) ?_
        simp only [List.cons_append]
        exact List.perm_middle
    · intro e hek
      rw [hbd, hperm.mem_iff, List.mem_cons]
      constructor
      · intro hx
        rcases hx with hx | hx
        · rw [hx] at hek
          exact absurd rfl hek
        · exact hx
      · intro hx
        exact Or.inr hx
    · intro e hek
      rw [hperm.mem_iff, List.mem_cons]
      constructor
      · intro hx
        rcases hx with hx | hx
        · rw [hx]
          exact ⟨rfl, rfl⟩
        · exact absurd hek (hknot e hx)
      · intro ⟨hx1, hx2⟩
        left
        cases e
        simp only at hx1 hx2 hek
        simp only [HashmapNode.mk.injEq]
        exact ⟨hx2, hek, (Option.some.inj hx1)⟩
    · rw [(hperm.map _).nodup_iff, List.map_cons, List.nodup_cons]
      refine ⟨?_, hnd⟩
      intro hx
      obtain ⟨e, he, hke⟩ := List.mem_map.mp hx
      exact hknot e he hke
    · rw [hbd, hperm.length_eq, List.length_cons]
      omega
  cases htg : hashmap_tree_get m1.trees ((m1.table.length - 1) &&& hash_val k) with
  | none =>
    simp only
    cases hf : bin.findIdx? (fun e => decide (e.key = k)) with
    | some idx => exact ⟨_, 1, rfl, hreplace idx hf⟩
    | none =>
      refine ⟨_, 0, rfl, ?_⟩
      refine hinsert hf (bin ++ [⟨hash_val k, k, v⟩]) m1.trees
        (List.perm_append_singleton _ _) ?_
        (if TREEIFY_THRESHOLD ≤ bin.length then
          hashmap_treeify_bin ⟨m1.table.set ((m1.table.length - 1) &&& hash_val k)
            (bin ++ [⟨hash_val k, k, v⟩]), m1.size, m1.threshold, m1.trees⟩ (hash_val k)
          else ⟨m1.table.set ((m1.table.length - 1) &&& hash_val k)
            (bin ++ [⟨hash_val k, k, v⟩]), m1.size, m1.threshold, m1.trees⟩) ?_ _ rfl
      · refine trees_keep m1 hw1 _ hi _ ?_
        intro t ht
        rw [htg] at ht
        cases ht
      · split
        · exact Or.inr rfl
        · exact Or.inl rfl
  | some t =>
    simp only
    by_cases hbe : bin = []
    · subst hbe
      refine ⟨_, 0, rfl, ?_⟩
      refine hinsert rfl [⟨hash_val k, k, v⟩] (hashmap_tree_set m1.trees
        ((m1.table.length - 1) &&& hash_val k) none) (List.Perm.refl _) ?_ _ (Or.inl rfl) _ rfl
      exact trees_set m1 hw1 _ hi _ _ (fun t ht => by cases ht)
    · rcases treebin_put_spec P heq k hkP v bin hPb hhb t (htok t htg) hbe with
        ⟨idx, hidx, hput⟩ | ⟨hnot, r, hput, hok, hperm⟩
      · rw [hput]
        exact ⟨_, 1, rfl, hreplace idx hidx⟩
      · rw [hput]
        refine ⟨_, 0, rfl, ?_⟩
        have hbf : bin.isEmpty = false := by
          cases bin with
          | nil => exact absurd rfl hbe
          | cons _ _ => rfl
        refine hinsert (findIdx_key_none k bin hnot) r.1 (hashmap_tree_set m1.trees
          ((m1.table.length - 1) &&& hash_val k) (if bin.isEmpty then none else some r.2))
          hperm ?_ _ (Or.inl rfl) _ rfl
        refine trees_set m1 hw1 _ hi _ _ ?_
        intro t1 ht1
        rw [hbf] at ht1
        simp only [Bool.false_eq_true, ↓reduceIte, Option.some.injEq] at ht1
        rw [← ht1]
        exact hok

/-! ### Maps whose comparison callback returns 0 for equal keys only -/

theorem hashmap_get_spec {K V : Type} [DecidableEq K] [KeyHash K] [KeyEq K] (m : Hashmap K V)
    (h : HWf m) (k : K) (v : V) :
    hashmap_get m k = some v ↔ ∃ e ∈ m.table.flatten, e.key = k ∧ e.val = v :=
  hashmap_get_spec_on (fun _ => True) (fun a b _ _ => KeyEq.eq a b) m h (hkeys_true m) k
    trivial v

theorem hashmap_get_none {K V : Type} [DecidableEq K] [KeyHash K] [KeyEq K] (m : Hashmap K V)
    (h : HWf m) (k : K) :
    hashmap_get m k = none ↔ ∀ e ∈ m.table.flatten, e.key ≠ k :=
  hashmap_get_none_on (fun _ => True) (fun a b _ _ => KeyEq.eq a b) m h (hkeys_true m) k trivial

theorem hashmap_set_val_spec {K V : Type} [DecidableEq K] [KeyHash K] [KeyEq K]
    (m : Hashmap K V) (h : HWf m) (k : K) (v : V) :
    HWf (hashmap_set_val m k v) ∧
    (∀ k1, hashmap_get (hashmap_set_val m k v) k1 =
      if k1 = k ∧ (hashmap_get m k).isSome = true then some v else hashmap_get m k1) ∧
    (hashmap_set_val m k v).size = m.size := by
  obtain ⟨h1, _, h3, h4⟩ := hashmap_set_val_spec_on (fun _ => True)
    (fun a b _ _ => KeyEq.eq a b) m h (hkeys_true m) k trivial v
  exact ⟨h1, fun k1 => h3 k1 trivial, h4⟩

theorem hashmap_remove_node_spec {K V : Type} [DecidableEq K] [KeyHash K] [KeyEq K]
    (m : Hashmap K V) (h : HWf m) (k : K) (movable : Bool) :
    HWf (hashmap_remove_node m k movable).1 ∧
    (∀ k1, hashmap_get (hashmap_remove_node m k movable).1 k1 =
      if k1 = k then none else hashmap_get m k1) ∧
    (hashmap_remove_node m k movable).1.size +
      (if (hashmap_get m k).isSome = true then 1 else 0) = m.size := by
  obtain ⟨h1, _, h3, h4, _⟩ := hashmap_remove_node_spec_on (fun _ => True)
    (fun a b _ _ => KeyEq.eq a b) m h (hkeys_true m) k trivial movable
  exact ⟨h1, fun k1 => h3 k1 trivial, h4⟩

theorem hashmap_remove_spec {K V : Type} [DecidableEq K] [KeyHash K] [KeyEq K]
    (m : Hashmap K V) (h : HWf m) (k : K) :
    HWf (hashmap_remove m k).1 ∧
    (∀ k1, hashmap_get (hashmap_remove m k).1 k1 = if k1 = k then none else hashmap_get m k1) ∧
    (hashmap_remove m k).1.size + (if (hashmap_get m k).isSome = true then 1 else 0) = m.size :=
  hashmap_remove_node_spec m h k true

/-- The function `hashmap_put` on a well-formed table always returns: the map
is well-formed afterwards, maps `k` to `v` and every other key as before. -/
theorem hashmap_put_spec {K V : Type} [DecidableEq K] [KeyHash K] [KeyEq K] (m : Hashmap K V)
    (h : HWf m) (k : K) (v : V) :
    ∃ m1 r, hashmap_put m k v = .ok (m1, r) ∧ HWf m1 ∧
      (∀ k1, hashmap_get m1 k1 = if k1 = k then some v else hashmap_get m k1) ∧
      m1.size = (if (hashmap_get m k).isSome = true then m.size else m.size + 1) ∧
      r = (if (hashmap_get m k).isSome = true then 1 else 0) := by
  obtain ⟨m1, r, h1, h2, _, h4, h5, h6, _⟩ := hashmap_put_spec_on (fun _ => True)
    (fun a b _ _ => KeyEq.eq a b) m h (hkeys_true m) k trivial v
  exact ⟨m1, r, h1, h2, fun k1 => h4 k1 trivial, h5, h6⟩
/-! ## cgraphw.c: the edge set of the writer -/

theorem find_congr {α : Type} (p q : α → Bool) :
    ∀ l : List α, (∀ x ∈ l, p x = q x) → l.find? p = l.find? q := by
  intro l
  induction l with
  | nil => intro _; rfl
  | cons a l ih =>
    intro h
    rw [List.find?_cons, List.find?_cons, h a (List.mem_cons_self _ _),
      ih (fun x hx => h x (List.mem_cons_of_mem _ hx))]

/-- The search for the first different position, as `hedge_cmp` and
`map_default_cmp` do it, is the lexicographic comparison. -/
theorem lex_cmp_find : ∀ (xs ys : List Nat),
    (match (List.range (min xs.length ys.length)).find?
        (fun i => xs.getD i 0 ≠ ys.getD i 0) with
      | some i => if xs.getD i 0 > ys.getD i 0 then (1 : Int) else -1
      | none => if xs.length > ys.length then 1 else if xs.length < ys.length then -1 else 0)
    = lex_cmp xs ys := by
  intro xs
  induction xs with
  | nil =>
    intro ys
    cases ys with
    | nil => simp [lex_cmp]
    | cons y ys => simp [lex_cmp]
  | cons x xs ih =>
    intro ys
    cases ys with
    | nil => simp [lex_cmp]
    | cons y ys =>
      have hmin : min (x :: xs).length (y :: ys).length = min xs.length ys.length + 1 := by
        simp only [List.length_cons]; omega
      rw [hmin, List.range_succ_eq_map, List.find?_cons]
      by_cases hxy : x = y
      · subst hxy
        have e1 : (decide ((x :: xs).getD 0 0 ≠ (x :: ys).getD 0 0)) = false := by simp
        rw [e1, List.find?_map]
        have e2 : ((fun i => decide ((x :: xs).getD i 0 ≠ (x :: ys).getD i 0)) ∘ Nat.succ)
            = (fun i => decide (xs.getD i 0 ≠ ys.getD i 0)) := by
          funext i
          simp
        rw [e2]
        have := ih ys
        simp only [lex_cmp, ne_eq, not_true_eq_false, if_false]
        rw [← this]
        cases (List.range (min xs.length ys.length)).find?
          (fun i => decide (xs.getD i 0 ≠ ys.getD i 0)) with
        | none =>
          simp only [Option.map_none', List.length_cons]
          congr 1
          · simp
          · congr 1
            simp
        | some i =>
          simp only [Option.map_some', Nat.succ_eq_add_one, List.getD_cons_succ]
      · have e1 : (decide ((x :: xs).getD 0 0 ≠ (y :: ys).getD 0 0)) = true := by simp [hxy]
        rw [e1]
        simp only [lex_cmp, ne_eq, hxy, not_false_eq_true, if_true, List.getD_cons_zero]

theorem lex_cmp_eq_zero : ∀ (xs ys : List Nat), lex_cmp xs ys = 0 ↔ xs = ys := by
  intro xs
  induction xs with
  | nil =>
    intro ys
    cases ys <;> simp [lex_cmp]
  | cons x xs ih =>
    intro ys
    cases ys with
    | nil => simp [lex_cmp]
    | cons y ys =>
      simp only [lex_cmp]
      by_cases hxy : x = y
      · simp [hxy, ih ys]
      · simp only [ne_eq, hxy, not_false_eq_true, if_true, List.cons.injEq, false_and, iff_false]
        split <;> omega

theorem lex_cmp_antisymm : ∀ (xs ys : List Nat), lex_cmp xs ys = - lex_cmp ys xs := by
  intro xs
  induction xs with
  | nil =>
    intro ys
    cases ys <;> simp [lex_cmp]
  | cons x xs ih =>
    intro ys
    cases ys with
    | nil => simp [lex_cmp]
    | cons y ys =>
      simp only [lex_cmp]
      by_cases hxy : x = y
      · simp [hxy, ih ys]
      · have hyx : ¬ y = x := fun h => hxy h.symm
        simp only [ne_eq, hxy, hyx, not_false_eq_true, if_true]
        split <;> split <;> omega

theorem lex_cmp_range : ∀ (xs ys : List Nat),
    lex_cmp xs ys = 0 ∨ lex_cmp xs ys = 1 ∨ lex_cmp xs ys = -1 := by
  intro xs
  induction xs with
  | nil =>
    intro ys
    cases ys <;> simp [lex_cmp]
  | cons x xs ih =>
    intro ys
    cases ys with
    | nil => simp [lex_cmp]
    | cons y ys =>
      simp only [lex_cmp]
      split
      · split <;> simp
      · exact ih ys

theorem lex_cmp_trans : ∀ (xs ys zs : List Nat),
    lex_cmp xs ys ≤ 0 → lex_cmp ys zs ≤ 0 → lex_cmp xs zs ≤ 0 := by
  intro xs
  induction xs with
  | nil =>
    intro ys zs _ _
    cases zs <;> simp [lex_cmp]
  | cons x xs ih =>
    intro ys zs h1 h2
    cases ys with
    | nil => simp [lex_cmp] at h1
    | cons y ys =>
      cases zs with
      | nil => simp [lex_cmp] at h2
      | cons z zs =>
        simp only [lex_cmp] at h1 h2 ⊢
        by_cases hxy : x = y
        · by_cases hyz : y = z
          · subst hxy; subst hyz
            simp only [ne_eq, not_true_eq_false, if_false] at h1 h2 ⊢
            exact ih ys zs h1 h2
          · subst hxy
            simp only [ne_eq, not_true_eq_false, if_false, hyz, not_false_eq_true, if_true]
              at h1 h2 ⊢
            exact h2
        · by_cases hyz : y = z
          · subst hyz
            simp only [ne_eq, not_true_eq_false, if_false, hxy, not_false_eq_true, if_true]
              at h1 h2 ⊢
            exact h1
          · simp only [ne_eq, hxy, hyz, not_false_eq_true, if_true] at h1 h2
            have hxy2 : x < y := by
              by_contra hc
              have : x > y := by omega
              rw [if_pos this] at h1
              omega
            have hyz2 : y < z := by
              by_contra hc
              have : y > z := by omega
              rw [if_pos this] at h2
              omega
            have hxz : ¬ x = z := by omega
            simp only [ne_eq, hxz, not_false_eq_true, if_true]
            rw [if_neg (by omega)]
            omega

/-- The function `hedge_cmp` is the lexicographic comparison of the label
followed by the nodes. -/
theorem hedge_cmp_lex (e1 e2 : HEdge) : hedge_cmp e1 e2 = lex_cmp (hedge_seq e1) (hedge_seq e2) := by
  unfold hedge_cmp hedge_seq
  simp only [lex_cmp]
  by_cases hl : e1.label = e2.label
  · simp only [ne_eq, hl, not_true_eq_false, if_false]
    rw [← lex_cmp_find]
    simp only [List.length_map, List.length_range]
    have hp : ∀ i ∈ List.range (min e1.rank e2.rank),
        (fun i => decide (e1.nodes.getD i 0 ≠ e2.nodes.getD i 0)) i
        = (fun i => decide (((List.range e1.rank).map (fun i => e1.nodes.getD i 0)).getD i 0
            ≠ ((List.range e2.rank).map (fun i => e2.nodes.getD i 0)).getD i 0)) i := by
      intro i hi
      have hi2 := List.mem_range.mp hi
      have h1 : i < e1.rank := by omega
      have h2 : i < e2.rank := by omega
      simp [List.getD_eq_getElem?_getD, h1, h2]
    rw [find_congr _ _ _ hp]
    cases hf : (List.range (min e1.rank e2.rank)).find?
      (fun i => decide (((List.range e1.rank).map (fun i => e1.nodes.getD i 0)).getD i 0
            ≠ ((List.range e2.rank).map (fun i => e2.nodes.getD i 0)).getD i 0)) with
    | none => rfl
    | some i =>
      have hi := List.mem_range.mp (List.mem_of_find?_eq_some hf)
      have h1 : i < e1.rank := by omega
      have h2 : i < e2.rank := by omega
      simp [List.getD_eq_getElem?_getD, h1, h2]
  · simp only [ne_eq, hl, not_false_eq_true, if_true]

theorem hedge_seq_eq_iff (e1 e2 : HEdge) :
    hedge_seq e1 = hedge_seq e2 ↔
      e1.label = e2.label ∧ e1.rank = e2.rank ∧
        ∀ i, i < e1.rank → e1.nodes.getD i 0 = e2.nodes.getD i 0 := by
  unfold hedge_seq
  constructor
  · intro h
    have hl := (List.cons.inj h).1
    have hm := (List.cons.inj h).2
    have hr : e1.rank = e2.rank := by
      have := congrArg List.length hm
      simpa using this
    refine ⟨hl, hr, ?_⟩
    intro i hi
    have h1 := congrArg (fun l => l[i]?) hm
    simp only [List.getElem?_map] at h1
    rw [List.getElem?_range hi, List.getElem?_range (by omega)] at h1
    exact Option.some.inj h1
  · intro ⟨hl, hr, hn⟩
    rw [hl, ← hr]
    congr 1
    apply List.map_congr_left
    intro i hi
    exact hn i (List.mem_range.mp hi)

theorem hedge_seq_ok (e : HEdge) (h : HEdgeOk e) : hedge_seq e = e.label :: e.nodes := by
  unfold hedge_seq
  congr 1
  apply List.ext_getElem
  · simp; exact h.symm
  · intro i h1 h2
    simp [List.getD_eq_getElem?_getD, List.getElem?_eq_getElem h2]

theorem hedge_cmp_eq_zero_ok (e1 e2 : HEdge) (h1 : HEdgeOk e1) (h2 : HEdgeOk e2) :
    hedge_cmp e1 e2 = 0 ↔ e1 = e2 := by
  rw [hedge_cmp_lex, lex_cmp_eq_zero, hedge_seq_ok e1 h1, hedge_seq_ok e2 h2]
  constructor
  · intro h
    have hl := (List.cons.inj h).1
    have hn := (List.cons.inj h).2
    have hr : e1.rank = e2.rank := by rw [← h1, ← h2, hn]
    cases e1; cases e2
    simp only at hl hn hr
    rw [hl, hn, hr]
  · intro h
    rw [h]

theorem cmp_edge_cb_ord : CmpOrd cmp_edge_cb := by
  constructor
  · intro a b
    show hedge_cmp a b < 0 ↔ 0 < hedge_cmp b a
    rw [hedge_cmp_lex, hedge_cmp_lex, lex_cmp_antisymm]
    omega
  · intro a b c
    show hedge_cmp a b ≤ 0 → hedge_cmp b c ≤ 0 → hedge_cmp a c ≤ 0
    rw [hedge_cmp_lex, hedge_cmp_lex, hedge_cmp_lex]
    exact lex_cmp_trans _ _ _

instance : KeyOrd HEdge := ⟨cmp_edge_cb_ord⟩

theorem map_default_cmp_lex (a b : List Nat) :
    map_default_cmp a b = lex_cmp (a ++ [0]) (b ++ [0]) := by
  rw [← lex_cmp_find]
  unfold map_default_cmp cmp_uint_cb
  rfl

theorem map_default_cmp_eq_zero (a b : List Nat) : map_default_cmp a b = 0 ↔ a = b := by
  rw [map_default_cmp_lex, lex_cmp_eq_zero]
  exact List.append_left_inj [0]

theorem treemap_get_put_self {V : Type} (s : List Nat) (e : V) :
    ∀ m : Treemap V, treemap_get (treemap_put s e m) s = some e := by
  intro m
  induction m with
  | nil =>
    simp [treemap_put, treemap_get, (map_default_cmp_eq_zero s s).mpr rfl]
  | cons kv rest ih =>
    unfold treemap_put
    by_cases h1 : map_default_cmp s kv.1 < 0
    · rw [if_pos h1]
      simp [treemap_get, (map_default_cmp_eq_zero s s).mpr rfl]
    · rw [if_neg h1]
      by_cases h2 : map_default_cmp s kv.1 = 0
      · rw [if_pos h2]
        simp [treemap_get, h2]
      · rw [if_neg h2]
        unfold treemap_get at ih ⊢
        rw [List.find?_cons]
        have : (map_default_cmp s kv.1 == 0) = false := by simpa using h2
        rw [this]
        exact ih

theorem treemap_get_put_other {V : Type} (s t : List Nat) (e : V) (hne : t ≠ s) :
    ∀ m : Treemap V, treemap_get (treemap_put s e m) t = treemap_get m t := by
  have hts : (map_default_cmp t s == 0) = false := by
    have := (map_default_cmp_eq_zero t s).not.mpr hne
    simpa using this
  intro m
  induction m with
  | nil =>
    simp [treemap_put, treemap_get, hts]
  | cons kv rest ih =>
    unfold treemap_put
    by_cases h1 : map_default_cmp s kv.1 < 0
    · rw [if_pos h1]
      unfold treemap_get
      rw [List.find?_cons, hts]
    · rw [if_neg h1]
      by_cases h2 : map_default_cmp s kv.1 = 0
      · rw [if_pos h2]
        have hk : s = kv.1 := (map_default_cmp_eq_zero s kv.1).mp h2
        unfold treemap_get
        rw [List.find?_cons, List.find?_cons, ← hk, hts]
      · rw [if_neg h2]
        unfold treemap_get at ih ⊢
        rw [List.find?_cons, List.find?_cons]
        cases (map_default_cmp t kv.1 == 0)
        · exact ih
        · rfl

/-- The function `hashmap_put` returns on every table. -/
theorem hashmap_put_ok {K V : Type} [DecidableEq K] [KeyHash K] (m : Hashmap K V) (k : K)
    (v : V) : ∃ r, hashmap_put m k v = .ok r := by
  unfold hashmap_put
  dsimp only
  generalize (if m.table.length = 0 then hashmap_resize m else m) = m1
  split
  · split
    · exact ⟨_, rfl⟩
    · exact ⟨_, rfl⟩
  · split
    · exact ⟨_, rfl⟩
    · exact ⟨_, rfl⟩

/-- The function `dict_put_text`: the string has the returned id afterwards,
every id given before stays, and the edge set is not touched; a string that is
in the dictionary already is not an error. -/
theorem cgraphw_dict_put_text_spec (g : GraphWriterImpl) (s : List Nat) (node : Bool) :
    ∃ id g1, cgraphw_dict_put_text g s node = .ok (id, g1) ∧
      (treemap_get g1.dict_ve s).map (fun x => x.value) = some id ∧
      (∀ t v, (treemap_get g.dict_ve t).map (fun x => x.value) = some v →
        (treemap_get g1.dict_ve t).map (fun x => x.value) = some v) ∧
      g1.edges = g.edges ∧ g1.compressed = g.compressed := by
  unfold cgraphw_dict_put_text
  cases hg : treemap_get g.dict_ve s with
  | none =>
    dsimp only
    obtain ⟨r, hr⟩ := hashmap_put_ok g.dict_rev (treemap_size g.dict_ve) s
    · rw [hr]
      refine ⟨_, _, rfl, ?_, ?_, rfl, rfl⟩
      · dsimp only
        rw [treemap_get_put_self]
        rfl
      · intro t v ht
        dsimp only
        have hne : t ≠ s := by
          intro h
          rw [h, hg] at ht
          exact absurd ht (by simp)
        rw [treemap_get_put_other s t _ hne]
        exact ht
  | some val =>
    dsimp only
    split
    · refine ⟨_, _, rfl, ?_, ?_, rfl, rfl⟩
      · dsimp only
        rw [treemap_get_put_self]
        rfl
      · intro t v ht
        dsimp only
        by_cases hts : t = s
        · rw [hts, treemap_get_put_self]
          rw [hts, hg] at ht
          exact ht
        · rw [treemap_get_put_other s t _ hts]
          exact ht
    · refine ⟨_, _, rfl, ?_, ?_, rfl, rfl⟩
      · rw [hg]; rfl
      · intro t v ht
        exact ht

/-- The loop of `cgraphw_add_edge` over node strings that are all present: it
collects the ids of the strings. -/
theorem cgraphw_add_edge_nodes_spec (nodes : List (Option (List Nat))) :
    ∀ (n i : Nat) (g : GraphWriterImpl) (acc : List Nat),
      (∀ j, j < n → ∃ s, nodes[i + j]? = some (some s)) →
      ∃ ids g1, cgraphw_add_edge_nodes nodes n i g acc = .ok (some (acc ++ ids), g1) ∧
        ids.length = n ∧ g1.edges = g.edges ∧ g1.compressed = g.compressed ∧
        (∀ j s, nodes[i + j]? = some (some s) → j < n →
          ∃ id, ids[j]? = some id ∧
            (treemap_get g1.dict_ve s).map (fun x => x.value) = some id) ∧
        (∀ t v, (treemap_get g.dict_ve t).map (fun x => x.value) = some v →
          (treemap_get g1.dict_ve t).map (fun x => x.value) = some v) := by
  intro n
  induction n with
  | zero =>
    intro i g acc _
    refine ⟨[], g, by simp [cgraphw_add_edge_nodes, pure, Except.pure], rfl, rfl, rfl, ?_, ?_⟩
    · intro j s _ hj
      omega
    · intro t v h
      exact h
  | succ n ih =>
    intro i g acc hall
    obtain ⟨s, hs⟩ := hall 0 (by omega)
    rw [Nat.add_zero] at hs
    unfold cgraphw_add_edge_nodes
    rw [List.get?_eq_getElem?, hs]
    dsimp only
    obtain ⟨id, g1, hok, hid, hstab, hedges, hcomp⟩ := cgraphw_dict_put_text_spec g s true
    · rw [hok]
      simp only [bind, Except.bind]
      have hall2 : ∀ j, j < n → ∃ s, nodes[i + 1 + j]? = some (some s) := by
        intro j hj
        have := hall (j + 1) (by omega)
        rw [show i + (j + 1) = i + 1 + j by omega] at this
        exact this
      obtain ⟨ids, g2, hok2, hlen, hed2, hco2, hids, hstab2⟩ := ih (i + 1) g1 (acc ++ [id]) hall2
      · rw [hok2]
        refine ⟨id :: ids, g2, by simp, by simp [hlen], by rw [hed2, hedges],
          by rw [hco2, hcomp], ?_, ?_⟩
        · intro j s2 hs2 hj
          cases j with
          | zero =>
            rw [Nat.add_zero, hs] at hs2
            have : s = s2 := Option.some.inj (Option.some.inj hs2)
            subst this
            exact ⟨id, by simp, hstab2 s id hid⟩
          | succ j =>
            rw [show i + (j + 1) = i + 1 + j by omega] at hs2
            obtain ⟨id2, h1, h2⟩ := hids j s2 hs2 (by omega)
            exact ⟨id2, by simpa using h1, h2⟩
        · intro t v h
          exact hstab2 t v (hstab t v h)

/-- The loop of `cgraphw_add_edge` reads only the entries `i .. i + n - 1` of
the node strings. -/
theorem cgraphw_add_edge_nodes_congr (nodes1 nodes2 : List (Option (List Nat))) :
    ∀ (n i : Nat) (g : GraphWriterImpl) (acc : List Nat),
      (∀ j, j < n → nodes1[i + j]? = nodes2[i + j]?) →
      cgraphw_add_edge_nodes nodes1 n i g acc = cgraphw_add_edge_nodes nodes2 n i g acc := by
  intro n
  induction n with
  | zero =>
    intro i g acc _
    rfl
  | succ n ih =>
    intro i g acc hall
    have h0 := hall 0 (by omega)
    rw [Nat.add_zero] at h0
    unfold cgraphw_add_edge_nodes
    rw [List.get?_eq_getElem?, List.get?_eq_getElem?, h0]
    have hall2 : ∀ j, j < n → nodes1[i + 1 + j]? = nodes2[i + 1 + j]? := by
      intro j hj
      have := hall (j + 1) (by omega)
      rw [show i + (j + 1) = i + 1 + j by omega] at this
      exact this
    cases nodes2[i]? with
    | none => rfl
    | some o =>
      cases o with
      | none => rfl
      | some s =>
        dsimp only
        cases cgraphw_dict_put_text g s true with
        | error e => rfl
        | ok r =>
          simp only [bind, Except.bind]
          exact ih (i + 1) r.2 (acc ++ [r.1]) hall2

/-- The loop of `cgraphw_add_edge` stops at the first NULL among the node
strings it reads. -/
theorem cgraphw_add_edge_nodes_null (nodes : List (Option (List Nat))) :
    ∀ (n i : Nat) (g : GraphWriterImpl) (acc : List Nat) (k : Nat),
      k < n → nodes[i + k]? = some none →
      (∀ j, j < k → ∃ s, nodes[i + j]? = some (some s)) →
      ∃ g1, cgraphw_add_edge_nodes nodes n i g acc = .ok (none, g1) ∧ g1.edges = g.edges ∧
        g1.compressed = g.compressed := by
  intro n
  induction n with
  | zero =>
    intro i g acc k hk
    omega
  | succ n ih =>
    intro i g acc k hk hnull hall
    unfold cgraphw_add_edge_nodes
    rw [List.get?_eq_getElem?]
    cases k with
    | zero =>
      rw [Nat.add_zero] at hnull
      rw [hnull]
      exact ⟨g, rfl, rfl, rfl⟩
    | succ k =>
      obtain ⟨s, hs⟩ := hall 0 (by omega)
      rw [Nat.add_zero] at hs
      rw [hs]
      dsimp only
      obtain ⟨id, g1, hok, _, _, hedges, hcomp⟩ := cgraphw_dict_put_text_spec g s true
      · rw [hok]
        simp only [bind, Except.bind]
        have hall2 : ∀ j, j < k → ∃ s, nodes[i + 1 + j]? = some (some s) := by
          intro j hj
          have := hall (j + 1) (by omega)
          rw [show i + (j + 1) = i + 1 + j by omega] at this
          exact this
        obtain ⟨g2, h1, h2, h3⟩ := ih (i + 1) g1 (acc ++ [id]) k (by omega)
          (by rw [show i + 1 + k = i + (k + 1) by omega]; exact hnull) hall2
        exact ⟨g2, h1, by rw [h2, hedges], by rw [h3, hcomp]⟩

theorem hashmap_items_wf {K V : Type} [KeyHash K] (m : Hashmap K V) (h : HWf m) :
    hashmap_items m = m.table.flatten := by
  unfold hashmap_items
  by_cases hs : m.size > 0
  · rw [if_pos hs]
  · rw [if_neg hs]
    have := h.1.2.2.2
    have h0 : m.table.flatten.length = 0 := by omega
    exact (List.length_eq_zero.mp h0).symm

theorem cgraphw_edges_wf (g : GraphWriterImpl) (h : HWf g.edges) :
    cgraphw_edges g = g.edges.table.flatten.map (fun e => e.key) := by
  unfold cgraphw_edges
  rw [hashmap_items_wf _ h]

/-- The function `hashset_add` on the edge set: a new edge is added and an edge
that is in the set leaves it as it is. -/
theorem hashset_add_edge_spec (s : Hashmap HEdge Unit) (e : HEdge) (hs : EdgeSetOk s)
    (he : HEdgeOk e) :
    ∃ s1 r, hashset_add_edge s e = .ok (s1, r) ∧ EdgeSetOk s1 ∧
      e ∈ s1.table.flatten.map (fun x => x.key) ∧
      (e ∈ s.table.flatten.map (fun x => x.key) → s1 = s) ∧
      (e ∉ s.table.flatten.map (fun x => x.key) →
        (s1.table.flatten.map (fun x => x.key)).Perm (e :: s.table.flatten.map (fun x => x.key)) ∧
        s1.size = s.size + 1) := by
  unfold hashset_add_edge
  have heq : ∀ a b : HEdge, HEdgeOk a → HEdgeOk b → KeyHash.keyCmp a b = 0 → a = b := by
    intro a b ha hb h0
    exact (hedge_cmp_eq_zero_ok a b ha hb).mp h0
  have hP : HKeys HEdgeOk s := by
    intro b hb x hx
    exact hs.2 x (List.mem_flatten.mpr ⟨b, hb, hx⟩)
  have hsome : (hashmap_get s e).isSome = true ↔ e ∈ s.table.flatten.map (fun x => x.key) := by
    constructor
    · intro h1
      obtain ⟨v, hv⟩ := Option.isSome_iff_exists.mp h1
      obtain ⟨x, hx, hk, _⟩ := (hashmap_get_spec_on HEdgeOk heq s hs.1 hP e he v).mp hv
      exact List.mem_map.mpr ⟨x, hx, hk⟩
    · intro h1
      obtain ⟨x, hx, hk⟩ := List.mem_map.mp h1
      have := (hashmap_get_spec_on HEdgeOk heq s hs.1 hP e he x.val).mpr ⟨x, hx, hk, rfl⟩
      rw [this]
      rfl
  obtain ⟨s1, r, hok, hw, hP1, _, hsize, _, hin0, hout0⟩ :=
    hashmap_put_spec_on HEdgeOk heq s hs.1 hP e he ()
  have hin : e ∈ s.table.flatten.map (fun x => x.key) →
      s1.table.flatten.map (fun x => x.key) = s.table.flatten.map (fun x => x.key) ∧
        s1 = s := by
    intro hk
    have := hin0 (hsome.mpr hk)
    exact ⟨this.1, this.2 (fun _ _ => rfl)⟩
  have hout : e ∉ s.table.flatten.map (fun x => x.key) →
      (s1.table.flatten.map (fun x => x.key)).Perm (e :: s.table.flatten.map (fun x => x.key)) ∧
        s1.size = s.size + 1 := by
    intro hk
    have hf : (hashmap_get s e).isSome = false := by
      cases hg : (hashmap_get s e).isSome with
      | false => rfl
      | true => exact absurd (hsome.mp hg) hk
    refine ⟨?_, ?_⟩
    · have := (hout0 hf).map (fun x => x.key)
      rw [List.map_cons] at this
      exact this
    · rw [hsize, hf]
      rfl
  · have hmem : e ∈ s1.table.flatten.map (fun x => x.key) := by
      by_cases hk : e ∈ s.table.flatten.map (fun x => x.key)
      · rw [(hin hk).1]
        exact hk
      · exact (List.Perm.mem_iff (hout hk).1).mpr (List.mem_cons_self _ _)
    refine ⟨s1, r, hok, ⟨hw, ?_⟩, hmem, ?_, ?_⟩
    · intro x hx
      have hxk : x.key ∈ s1.table.flatten.map (fun x => x.key) := List.mem_map.mpr ⟨x, hx, rfl⟩
      by_cases hk : e ∈ s.table.flatten.map (fun x => x.key)
      · rw [(hin hk).1] at hxk
        obtain ⟨y, hy, hyk⟩ := List.mem_map.mp hxk
        rw [← hyk]
        exact hs.2 y hy
      · have := (List.Perm.mem_iff (hout hk).1).mp hxk
        rcases List.mem_cons.mp this with h1 | h1
        · rw [h1]
          exact he
        · obtain ⟨y, hy, hyk⟩ := List.mem_map.mp h1
          rw [← hyk]
          exact hs.2 y hy
    · intro hk
      exact (hin hk).2
    · intro hk
      exact hout hk

/-- The function `cgraphw_add_edge` on an uncompressed handle with a label and
`rank - 1` node strings: the call returns 0 and the edge set holds the edge of
the label id, the ids of the first `rank - 1` node strings and `edge_index` as
its last node. -/
theorem cgraphw_add_edge_spec (g : GraphWriterImpl) (rank : Nat) (l : List Nat)
    (nodes : List (Option (List Nat))) (edge_index : Nat)
    (hc : g.compressed = false) (hr : 1 ≤ rank) (hinv : EdgeSetOk g.edges)
    (hall : ∀ j, j < rank - 1 → ∃ s, nodes[j]? = some (some s)) :
    ∃ g1 lid ids, cgraphw_add_edge g rank (some l) nodes edge_index = .ok (0, g1) ∧
      g1.compressed = false ∧ EdgeSetOk g1.edges ∧ ids.length = rank - 1 ∧
      (treemap_get g1.dict_ve l).map (fun x => x.value) = some lid ∧
      (∀ j s, nodes[j]? = some (some s) → j < rank - 1 →
        ∃ id, ids[j]? = some id ∧ (treemap_get g1.dict_ve s).map (fun x => x.value) = some id) ∧
      (∀ t v, (treemap_get g.dict_ve t).map (fun x => x.value) = some v →
        (treemap_get g1.dict_ve t).map (fun x => x.value) = some v) ∧
      (⟨lid, rank, ids ++ [edge_index]⟩ : HEdge) ∈ cgraphw_edges g1 ∧
      ((⟨lid, rank, ids ++ [edge_index]⟩ : HEdge) ∈ cgraphw_edges g → g1.edges = g.edges) ∧
      ((⟨lid, rank, ids ++ [edge_index]⟩ : HEdge) ∉ cgraphw_edges g →
        (cgraphw_edges g1).Perm (⟨lid, rank, ids ++ [edge_index]⟩ :: cgraphw_edges g) ∧
        hashmap_size g1.edges = hashmap_size g.edges + 1) := by
  unfold cgraphw_add_edge
  rw [hc]
  simp only [Bool.false_eq_true, if_false]
  rw [if_neg (by omega)]
  obtain ⟨lid, ga, hok, hlid, hstab, hedges, hcomp⟩ := cgraphw_dict_put_text_spec g l false
  · rw [hok]
    simp only [bind, Except.bind]
    have hall0 : ∀ j, j < rank - 1 → ∃ s, nodes[0 + j]? = some (some s) := by
      intro j hj
      rw [Nat.zero_add]
      exact hall j hj
    obtain ⟨ids, gb, hok2, hlen, hed2, hco2, hids, hstab2⟩ :=
      cgraphw_add_edge_nodes_spec nodes (rank - 1) 0 ga [] hall0
    · rw [hok2]
      simp only [List.nil_append]
      have hinvb : EdgeSetOk gb.edges := by rw [hed2, hedges]; exact hinv
      have heok : HEdgeOk (⟨lid, rank, ids ++ [edge_index]⟩ : HEdge) := by
        unfold HEdgeOk
        simp only [List.length_append, List.length_singleton, hlen]
        omega
      obtain ⟨s1, r, hok3, hinv1, hmem, hin, hout⟩ := hashset_add_edge_spec gb.edges _ hinvb heok
      · rw [hok3]
        refine ⟨{ gb with edges := s1 }, lid, ids, rfl, by show gb.compressed = false; rw [hco2, hcomp, hc],
          hinv1, hlen, hstab2 l lid hlid, ?_, ?_, ?_, ?_, ?_⟩
        · intro j s hs hj
          have := hids j s (by rw [Nat.zero_add]; exact hs) hj
          exact this
        · intro t v h
          exact hstab2 t v (hstab t v h)
        · rw [cgraphw_edges_wf _ hinv1.1]
          exact hmem
        · intro hk
          rw [cgraphw_edges_wf _ hinv.1, ← hedges, ← hed2] at hk
          show s1 = g.edges
          rw [hin hk, hed2, hedges]
        · intro hk
          rw [cgraphw_edges_wf _ hinv.1, ← hedges, ← hed2] at hk
          rw [cgraphw_edges_wf _ hinv1.1, cgraphw_edges_wf _ hinv.1, ← hedges, ← hed2]
          refine ⟨(hout hk).1, ?_⟩
          unfold hashmap_size
          dsimp only
          rw [(hout hk).2, hed2, hedges]

/-- The repeat of a `cgraphw_add_edge` call whose strings are in the dictionary
and whose edge is in the edge set returns 0 and leaves the edge set as it
is. -/
theorem cgraphw_add_edge_repeat (g : GraphWriterImpl) (rank : Nat) (l : List Nat)
    (nodes : List (Option (List Nat))) (edge_index : Nat) (lid : Nat) (ids : List Nat)
    (hc : g.compressed = false) (hr : 1 ≤ rank) (hinv : EdgeSetOk g.edges)
    (hlid : (treemap_get g.dict_ve l).map (fun x => x.value) = some lid)
    (hlen : ids.length = rank - 1)
    (hids : ∀ j, j < rank - 1 → ∃ s id, nodes[j]? = some (some s) ∧ ids[j]? = some id ∧
      (treemap_get g.dict_ve s).map (fun x => x.value) = some id)
    (hmem : (⟨lid, rank, ids ++ [edge_index]⟩ : HEdge) ∈ cgraphw_edges g) :
    ∃ g1, cgraphw_add_edge g rank (some l) nodes edge_index = .ok (0, g1) ∧
      g1.edges = g.edges := by
  have hall : ∀ j, j < rank - 1 → ∃ s, nodes[j]? = some (some s) := by
    intro j hj
    obtain ⟨s, _, hs, _⟩ := hids j hj
    exact ⟨s, hs⟩
  obtain ⟨g1, lid2, ids2, hok, _, _, hlen2, hl2, hi2, hstab, _, hin, _⟩ :=
    cgraphw_add_edge_spec g rank l nodes edge_index hc hr hinv hall
  · refine ⟨g1, hok, ?_⟩
    have h1 : lid2 = lid := by
      have := hstab l lid hlid
      rw [hl2] at this
      exact Option.some.inj this
    have h2 : ids2 = ids := by
      apply List.ext_getElem?
      intro j
      by_cases hj : j < rank - 1
      · obtain ⟨s, id, hs, hi, hd⟩ := hids j hj
        obtain ⟨id2, hi3, hd3⟩ := hi2 j s hs hj
        have := hstab s id hd
        rw [hd3] at this
        rw [hi3, hi, Option.some.inj this]
      · rw [List.getElem?_eq_none (by omega), List.getElem?_eq_none (by omega)]
    rw [h1, h2] at hin
    exact hin hmem

theorem cgraphw_add_edge_nodes_some (nodes : List (Option (List Nat))) :
    ∀ (n i : Nat) (g : GraphWriterImpl) (acc x : List Nat) (g1 : GraphWriterImpl),
      cgraphw_add_edge_nodes nodes n i g acc = .ok (some x, g1) →
      ∀ j, j < n → ∃ s, nodes[i + j]? = some (some s) := by
  intro n
  induction n with
  | zero =>
    intro i g acc x g1 _ j hj
    omega
  | succ n ih =>
    intro i g acc x g1 h j hj
    unfold cgraphw_add_edge_nodes at h
    rw [List.get?_eq_getElem?] at h
    cases hn : nodes[i]? with
    | none => rw [hn] at h; simp at h
    | some o =>
      cases o with
      | none => rw [hn] at h; simp [pure, Except.pure] at h
      | some s =>
        rw [hn] at h
        dsimp only at h
        cases hd : cgraphw_dict_put_text g s true with
        | error e => rw [hd] at h; simp [bind, Except.bind] at h
        | ok r =>
          rw [hd] at h
          simp only [bind, Except.bind] at h
          cases j with
          | zero => exact ⟨s, by rw [Nat.add_zero]; exact hn⟩
          | succ j =>
            have := ih (i + 1) r.2 (acc ++ [r.1]) x g1 h j (by omega)
            rw [show i + (j + 1) = i + 1 + j by omega]
            exact this

/-- A `cgraphw_add_edge` call that returns 0 had a rank of at least 1, a label
and `rank - 1` node strings. -/
theorem cgraphw_add_edge_zero (g : GraphWriterImpl) (rank : Nat) (label : Option (List Nat))
    (nodes : List (Option (List Nat))) (edge_index : Nat) (g1 : GraphWriterImpl)
    (h : cgraphw_add_edge g rank label nodes edge_index = .ok (0, g1)) :
    g.compressed = false ∧ 1 ≤ rank ∧ (∃ l, label = some l) ∧
      ∀ j, j < rank - 1 → ∃ s, nodes[j]? = some (some s) := by
  unfold cgraphw_add_edge at h
  cases hc : g.compressed with
  | true => rw [hc] at h; simp [pure, Except.pure] at h
  | false =>
    rw [hc] at h
    simp only [Bool.false_eq_true, if_false] at h
    by_cases hr : rank = 0
    · rw [if_pos hr] at h; simp at h
    · rw [if_neg hr] at h
      cases label with
      | none => simp [pure, Except.pure] at h
      | some l =>
        refine ⟨rfl, by omega, ⟨l, rfl⟩, ?_⟩
        dsimp only at h
        cases hd : cgraphw_dict_put_text g l false with
        | error e => rw [hd] at h; simp [bind, Except.bind] at h
        | ok r =>
          rw [hd] at h
          simp only [bind, Except.bind] at h
          cases hn : cgraphw_add_edge_nodes nodes (rank - 1) 0 r.2 [] with
          | error e => rw [hn] at h; simp at h
          | ok r2 =>
            obtain ⟨ids, g2⟩ := r2
            cases ids with
            | none => rw [hn] at h; simp [pure, Except.pure] at h
            | some x =>
              intro j hj
              have := cgraphw_add_edge_nodes_some nodes (rank - 1) 0 r.2 [] x g2 hn j hj
              rw [Nat.zero_add] at this
              exact this

/-- The loop of `cgraphw_add_edge` over the node strings touches neither the
edge set nor the flag `compressed`. -/
theorem cgraphw_add_edge_nodes_edges (nodes : List (Option (List Nat))) :
    ∀ (n i : Nat) (g : GraphWriterImpl) (acc : List Nat) (o : Option (List Nat))
      (g1 : GraphWriterImpl),
      cgraphw_add_edge_nodes nodes n i g acc = .ok (o, g1) →
      g1.edges = g.edges ∧ g1.compressed = g.compressed := by
  intro n
  induction n with
  | zero =>
    intro i g acc o g1 h
    simp only [cgraphw_add_edge_nodes, pure, Except.pure, Except.ok.injEq, Prod.mk.injEq] at h
    rw [← h.2]
    exact ⟨rfl, rfl⟩
  | succ n ih =>
    intro i g acc o g1 h
    unfold cgraphw_add_edge_nodes at h
    rw [List.get?_eq_getElem?] at h
    cases hn : nodes[i]? with
    | none => rw [hn] at h; simp at h
    | some x =>
      cases x with
      | none =>
        rw [hn] at h
        simp only [pure, Except.pure, Except.ok.injEq, Prod.mk.injEq] at h
        rw [← h.2]
        exact ⟨rfl, rfl⟩
      | some s =>
        rw [hn] at h
        dsimp only at h
        obtain ⟨id, ga, hok, _, _, hedges, hcomp⟩ := cgraphw_dict_put_text_spec g s true
        rw [hok] at h
        simp only [bind, Except.bind] at h
        obtain ⟨h1, h2⟩ := ih (i + 1) ga (acc ++ [id]) o g1 h
        exact ⟨by rw [h1, hedges], by rw [h2, hcomp]⟩

/-- The loop of `cgraphw_add_edge` returns when the array of node strings has
the `n` entries it reads. -/
theorem cgraphw_add_edge_nodes_ok (nodes : List (Option (List Nat))) :
    ∀ (n i : Nat) (g : GraphWriterImpl) (acc : List Nat),
      (∀ j, j < n → ∃ x, nodes[i + j]? = some x) →
      ∃ o g1, cgraphw_add_edge_nodes nodes n i g acc = .ok (o, g1) := by
  intro n
  induction n with
  | zero =>
    intro i g acc _
    exact ⟨some acc, g, rfl⟩
  | succ n ih =>
    intro i g acc hall
    obtain ⟨x, hx⟩ := hall 0 (by omega)
    rw [Nat.add_zero] at hx
    unfold cgraphw_add_edge_nodes
    rw [List.get?_eq_getElem?, hx]
    cases x with
    | none => exact ⟨none, g, rfl⟩
    | some s =>
      dsimp only
      obtain ⟨id, ga, hok, _⟩ := cgraphw_dict_put_text_spec g s true
      rw [hok]
      simp only [bind, Except.bind]
      apply ih (i + 1) ga (acc ++ [id])
      intro j hj
      have := hall (j + 1) (by omega)
      rw [show i + (j + 1) = i + 1 + j by omega] at this
      exact this

/-- The function `cgraphw_add_edge` returns (0 or -1) for a rank of at least 1
and an array of node strings with the `rank - 1` entries it reads. -/
theorem cgraphw_add_edge_ok (g : GraphWriterImpl) (rank : Nat) (label : Option (List Nat))
    (nodes : List (Option (List Nat))) (edge_index : Nat) (hr : 1 ≤ rank)
    (hall : ∀ j, j < rank - 1 → ∃ x, nodes[j]? = some x) :
    ∃ ret g1, cgraphw_add_edge g rank label nodes edge_index = .ok (ret, g1) := by
  unfold cgraphw_add_edge
  split
  · exact ⟨_, _, rfl⟩
  · rw [if_neg (by omega)]
    cases label with
    | none => exact ⟨_, _, rfl⟩
    | some l =>
      dsimp only
      obtain ⟨lid, ga, hok, _⟩ := cgraphw_dict_put_text_spec g l false
      rw [hok]
      simp only [bind, Except.bind]
      obtain ⟨o, gb, hok2⟩ := cgraphw_add_edge_nodes_ok nodes (rank - 1) 0 ga []
        (by intro j hj; rw [Nat.zero_add]; exact hall j hj)
      rw [hok2]
      cases o with
      | none => exact ⟨_, _, rfl⟩
      | some ids =>
        dsimp only
        obtain ⟨r, hr3⟩ := hashmap_put_ok gb.edges
          (⟨lid, rank, ids ++ [edge_index]⟩ : HEdge) ()
        unfold hashset_add_edge
        rw [hr3]
        exact ⟨_, _, rfl⟩

/-- A `cgraphw_add_edge` call that returns -1 leaves the edge set as it is. -/
theorem cgraphw_add_edge_failed (g : GraphWriterImpl) (rank : Nat) (label : Option (List Nat))
    (nodes : List (Option (List Nat))) (edge_index : Nat) (ret : Int) (g1 : GraphWriterImpl)
    (h : cgraphw_add_edge g rank label nodes edge_index = .ok (ret, g1)) (hret : ret ≠ 0) :
    g1.edges = g.edges ∧ g1.compressed = g.compressed := by
  unfold cgraphw_add_edge at h
  split at h
  · simp only [pure, Except.pure, Except.ok.injEq, Prod.mk.injEq] at h
    rw [← h.2]
    exact ⟨rfl, rfl⟩
  · split at h
    · cases h
    · cases label with
      | none =>
        simp only [pure, Except.pure, Except.ok.injEq, Prod.mk.injEq] at h
        rw [← h.2]
        exact ⟨rfl, rfl⟩
      | some l =>
        dsimp only at h
        obtain ⟨lid, ga, hok, _, _, hedges, hcomp⟩ := cgraphw_dict_put_text_spec g l false
        rw [hok] at h
        simp only [bind, Except.bind] at h
        cases hn : cgraphw_add_edge_nodes nodes (rank - 1) 0 ga [] with
        | error e => rw [hn] at h; simp at h
        | ok r2 =>
          obtain ⟨ids, gb⟩ := r2
          obtain ⟨h1, h2⟩ := cgraphw_add_edge_nodes_edges nodes (rank - 1) 0 ga [] ids gb hn
          rw [hn] at h
          cases ids with
          | none =>
            simp only [pure, Except.pure, Except.ok.injEq, Prod.mk.injEq] at h
            rw [← h.2]
            exact ⟨by rw [h1, hedges], by rw [h2, hcomp]⟩
          | some x =>
            dsimp only at h
            cases hp : hashset_add_edge gb.edges ⟨lid, rank, x ++ [edge_index]⟩ with
            | error e => rw [hp] at h; simp at h
            | ok r3 =>
              rw [hp] at h
              simp only [pure, Except.pure, Except.ok.injEq, Prod.mk.injEq] at h
              exact absurd h.1.symm hret

/-- The handle after a list of `cgraphw_add_edge` calls is not compressed and
its edge set is well-formed. -/
theorem cgraphw_add_edges_inv :
    ∀ (calls : List (Nat × Option (List Nat) × List (Option (List Nat)) × Nat))
      (g0 g : GraphWriterImpl),
      g0.compressed = false → EdgeSetOk g0.edges → cgraphw_add_edges g0 calls = .ok g →
      g.compressed = false ∧ EdgeSetOk g.edges := by
  intro calls
  induction calls with
  | nil =>
    intro g0 g hc hinv h
    simp only [cgraphw_add_edges, pure, Except.pure, Except.ok.injEq] at h
    rw [← h]
    exact ⟨hc, hinv⟩
  | cons c rest ih =>
    intro g0 g hc hinv h
    obtain ⟨rank, label, nodes, idx⟩ := c
    unfold cgraphw_add_edges at h
    cases ha : cgraphw_add_edge g0 rank label nodes idx with
    | error e => rw [ha] at h; simp [bind, Except.bind] at h
    | ok r =>
      obtain ⟨ret, g1⟩ := r
      rw [ha] at h
      simp only [bind, Except.bind] at h
      by_cases hret : ret = 0
      · subst hret
        obtain ⟨_, hr, ⟨l, hl⟩, hall⟩ := cgraphw_add_edge_zero g0 rank label nodes idx g1 ha
        subst hl
        obtain ⟨g2, lid, ids, hok, hc2, hinv2, _⟩ :=
          cgraphw_add_edge_spec g0 rank l nodes idx hc hr hinv hall
        rw [hok] at ha
        have : g2 = g1 := by
          have := Except.ok.inj ha
          exact (Prod.mk.inj this).2
        subst this
        exact ih g2 g hc2 hinv2 h
      · obtain ⟨h1, h2⟩ := cgraphw_add_edge_failed g0 rank label nodes idx ret g1 ha hret
        exact ih g1 g (by rw [h2, hc]) (by rw [h1]; exact hinv) h

/-- A list of `cgraphw_add_edge` calls, each with a rank of at least 1 and an
array of node strings with the `rank - 1` entries the call reads, returns at
every call. -/
theorem cgraphw_add_edges_ok :
    ∀ (calls : List (Nat × Option (List Nat) × List (Option (List Nat)) × Nat))
      (g0 : GraphWriterImpl),
      (∀ c ∈ calls, 1 ≤ c.1 ∧ ∀ j, j < c.1 - 1 → ∃ x, c.2.2.1[j]? = some x) →
      ∃ g, cgraphw_add_edges g0 calls = .ok g := by
  intro calls
  induction calls with
  | nil =>
    intro g0 _
    exact ⟨g0, rfl⟩
  | cons c rest ih =>
    intro g0 hall
    obtain ⟨rank, label, nodes, idx⟩ := c
    obtain ⟨hr, hn⟩ := hall _ (List.mem_cons_self _ _)
    dsimp only at hr hn
    obtain ⟨ret, g1, hok⟩ := cgraphw_add_edge_ok g0 rank label nodes idx hr hn
    obtain ⟨g, hg⟩ := ih g1 (fun c hcm => hall c (List.mem_cons_of_mem _ hcm))
    refine ⟨g, ?_⟩
    unfold cgraphw_add_edges
    rw [hok]
    simp only [bind, Except.bind]
    exact hg

theorem cgraphw_init_inv : cgraphw_init.compressed = false ∧ EdgeSetOk cgraphw_init.edges := by
  refine ⟨rfl, hwf_init, ?_⟩
  · intro e he
    simp [cgraphw_init, hashmap_init] at he

theorem cgraphw_dict_put_text_node (g : GraphWriterImpl) (s : List Nat) (node : Bool)
    (id : Nat) (g1 : GraphWriterImpl) (h : cgraphw_dict_put_text g s node = .ok (id, g1)) :
    (node = true → dict_is_node g1 s) ∧ (∀ t, dict_is_node g t → dict_is_node g1 t) := by
  unfold cgraphw_dict_put_text at h
  unfold dict_is_node
  cases hg : treemap_get g.dict_ve s with
  | none =>
    rw [hg] at h
    dsimp only at h
    cases hp : hashmap_put g.dict_rev (treemap_size g.dict_ve) s with
    | error e => rw [hp] at h; simp [bind, Except.bind] at h
    | ok r =>
      rw [hp] at h
      simp only [bind, Except.bind, pure, Except.pure, Except.ok.injEq, Prod.mk.injEq] at h
      rw [← h.2]
      dsimp only
      constructor
      · intro hn
        rw [treemap_get_put_self]
        exact ⟨_, rfl, by rw [hn]; simp⟩
      · intro t ⟨x, hx, ho⟩
        have hne : t ≠ s := by
          intro e
          rw [e, hg] at hx
          exact absurd hx (by simp)
        rw [treemap_get_put_other s t _ hne]
        exact ⟨x, hx, ho⟩
  | some val =>
    rw [hg] at h
    dsimp only at h
    split at h
    · simp only [pure, Except.pure, Except.ok.injEq, Prod.mk.injEq] at h
      rw [← h.2]
      dsimp only
      constructor
      · intro _
        rw [treemap_get_put_self]
        exact ⟨_, rfl, by simp⟩
      · intro t ⟨x, hx, ho⟩
        by_cases hts : t = s
        · rw [hts, treemap_get_put_self]
          exact ⟨_, rfl, by simp⟩
        · rw [treemap_get_put_other s t _ hts]
          exact ⟨x, hx, ho⟩
    · rename_i hcond
      simp only [pure, Except.pure, Except.ok.injEq, Prod.mk.injEq] at h
      rw [← h.2]
      constructor
      · intro hn
        refine ⟨val, hg, ?_⟩
        intro ho
        apply hcond
        left
        exact ⟨hn, by rw [ho]; simp⟩
      · intro t ht
        exact ht

theorem cgraphw_add_edge_nodes_node (nodes : List (Option (List Nat))) :
    ∀ (n i : Nat) (g : GraphWriterImpl) (acc x : List Nat) (g1 : GraphWriterImpl),
      cgraphw_add_edge_nodes nodes n i g acc = .ok (some x, g1) →
      (∀ j s, j < n → nodes[i + j]? = some (some s) → dict_is_node g1 s) ∧
      (∀ t, dict_is_node g t → dict_is_node g1 t) := by
  intro n
  induction n with
  | zero =>
    intro i g acc x g1 h
    simp only [cgraphw_add_edge_nodes, pure, Except.pure, Except.ok.injEq, Prod.mk.injEq] at h
    rw [← h.2]
    exact ⟨fun j s hj => by omega, fun t ht => ht⟩
  | succ n ih =>
    intro i g acc x g1 h
    unfold cgraphw_add_edge_nodes at h
    rw [List.get?_eq_getElem?] at h
    cases hn : nodes[i]? with
    | none => rw [hn] at h; simp at h
    | some o =>
      cases o with
      | none => rw [hn] at h; simp [pure, Except.pure] at h
      | some s =>
        rw [hn] at h
        dsimp only at h
        cases hd : cgraphw_dict_put_text g s true with
        | error e => rw [hd] at h; simp [bind, Except.bind] at h
        | ok r =>
          rw [hd] at h
          simp only [bind, Except.bind] at h
          obtain ⟨a1, a2⟩ := cgraphw_dict_put_text_node g s true r.1 r.2 hd
          obtain ⟨b1, b2⟩ := ih (i + 1) r.2 (acc ++ [r.1]) x g1 h
          constructor
          · intro j s2 hj hs2
            cases j with
            | zero =>
              rw [Nat.add_zero, hn] at hs2
              have : s = s2 := Option.some.inj (Option.some.inj hs2)
              rw [← this]
              exact b2 s (a1 rfl)
            | succ j =>
              exact b1 j s2 (by omega) (by rw [show i + 1 + j = i + (j + 1) by omega]; exact hs2)
          · intro t ht
            exact b2 t (a2 t ht)

/-- After a `cgraphw_add_edge` call that returns 0 the first `rank - 1` node
strings are in the dictionary as node labels. -/
theorem cgraphw_add_edge_node (g : GraphWriterImpl) (rank : Nat) (label : Option (List Nat))
    (nodes : List (Option (List Nat))) (edge_index : Nat) (g1 : GraphWriterImpl)
    (h : cgraphw_add_edge g rank label nodes edge_index = .ok (0, g1)) :
    ∀ j s, j < rank - 1 → nodes[j]? = some (some s) → dict_is_node g1 s := by
  unfold cgraphw_add_edge at h
  cases hc : g.compressed with
  | true => rw [hc] at h; simp [pure, Except.pure] at h
  | false =>
    rw [hc] at h
    simp only [Bool.false_eq_true, if_false] at h
    by_cases hr : rank = 0
    · rw [if_pos hr] at h; simp at h
    · rw [if_neg hr] at h
      cases label with
      | none => simp [pure, Except.pure] at h
      | some l =>
        dsimp only at h
        cases hd : cgraphw_dict_put_text g l false with
        | error e => rw [hd] at h; simp [bind, Except.bind] at h
        | ok r =>
          rw [hd] at h
          simp only [bind, Except.bind] at h
          cases hn : cgraphw_add_edge_nodes nodes (rank - 1) 0 r.2 [] with
          | error e => rw [hn] at h; simp at h
          | ok r2 =>
            obtain ⟨ids, g2⟩ := r2
            cases ids with
            | none => rw [hn] at h; simp [pure, Except.pure] at h
            | some x =>
              rw [hn] at h
              dsimp only at h
              cases hp : hashset_add_edge g2.edges ⟨r.1, rank, x ++ [edge_index]⟩ with
              | error e => rw [hp] at h; simp at h
              | ok r3 =>
                rw [hp] at h
                simp only [pure, Except.pure, Except.ok.injEq, Prod.mk.injEq, true_and] at h
                intro j s hj hs
                obtain ⟨b1, _⟩ := cgraphw_add_edge_nodes_node nodes (rank - 1) 0 r.2 [] x g2 hn
                have := b1 j s hj (by rw [Nat.zero_add]; exact hs)
                rw [← h]
                exact this

/-- Eleven edges of rank 1 with the label "l" and the edge indices 0, 64, ...,
640 have the hashes 0, 64, ..., 640 and fall into bin 0 of the edge set: after
the eleventh call the table has 64 bins and bin 0 is a tree, whose root, the
edge with the index 192, is the first node of the chain; ten calls leave a
chain; the repeat of the first call on the tree bin does not grow the set. -/
theorem cgraphw_add_edges_tree_bin_example :
    (cgraphw_add_edges cgraphw_init
        ((List.range 11).map (fun j => (1, some [108], [], 64 * j)))).toOption.map
        (fun g => ((hashmap_tree_get g.edges.trees 0).isSome, g.edges.table.length,
          hashmap_size g.edges, (cgraphw_edges g).map (fun e => e.nodes)))
      = some (true, 64, 11,
          [[192], [0], [64], [128], [256], [320], [384], [448], [512], [576], [640]]) ∧
    (cgraphw_add_edges cgraphw_init
        ((List.range 10).map (fun j => (1, some [108], [], 64 * j)))).toOption.map
        (fun g => ((hashmap_tree_get g.edges.trees 0).isSome, g.edges.table.length,
          hashmap_size g.edges, (cgraphw_edges g).map (fun e => e.nodes)))
      = some (false, 64, 10,
          [[0], [64], [128], [192], [256], [320], [384], [448], [512], [576]]) ∧
    (cgraphw_add_edges cgraphw_init
        ((List.range 12).map (fun j => (1, some [108], [], 64 * (j % 11))))).toOption.map
        (fun g => ((hashmap_tree_get g.edges.trees 0).isSome, g.edges.table.length,
          hashmap_size g.edges, (cgraphw_edges g).map (fun e => e.nodes)))
      = some (true, 64, 11,
          [[192], [0], [64], [128], [256], [320], [384], [448], [512], [576], [640]]) := by
  refine ⟨?_, ?_, ?_⟩ <;> decide!

/-- C30: `hedge_cmp` returns 0 exactly for two edges with the same label, the
same rank and equal nodes at every position; it is antisymmetric and
transitive.  Hence the edge set of a writer handle after any list of
`cgraphw_add_edge` calls, whatever they return, holds no edge twice (no two of
its elements compare equal, and its size is the number of its elements); a
further call that returns 0 adds its edge when the edge is not in the set and
leaves the set as it is otherwise, the exact repeat of that call leaves the
set as it is, and a call that returns -1 leaves the set as it is.  Every list
of calls with a rank of at least 1 and an array of node strings with the
`rank - 1` entries the call reads returns at every call, whatever the bins of
the hash tables hold, chains or trees.  The two edges of rank 3 with the node strings a, b, c and
a, c, b are both kept, and repeating the first call does not grow the set. -/
theorem hedge_cmp_dedup :
    (∀ e1 e2 : HEdge, hedge_cmp e1 e2 = 0 ↔
      e1.label = e2.label ∧ e1.rank = e2.rank ∧
        ∀ i, i < e1.rank → e1.nodes.getD i 0 = e2.nodes.getD i 0) ∧
    (∀ e1 e2 : HEdge, hedge_cmp e1 e2 = - hedge_cmp e2 e1) ∧
    (∀ e1 e2 e3 : HEdge, hedge_cmp e1 e2 ≤ 0 → hedge_cmp e2 e3 ≤ 0 → hedge_cmp e1 e3 ≤ 0) ∧
    (∀ calls g, cgraphw_add_edges cgraphw_init calls = .ok g →
      (cgraphw_edges g).Nodup ∧ hashmap_size g.edges = (cgraphw_edges g).length ∧
      (∀ e1 ∈ cgraphw_edges g, ∀ e2 ∈ cgraphw_edges g, hedge_cmp e1 e2 = 0 → e1 = e2) ∧
      (∀ rank label nodes edge_index g1,
        cgraphw_add_edge g rank label nodes edge_index = .ok (0, g1) →
        (∃ e : HEdge, e.rank = rank ∧ e ∈ cgraphw_edges g1 ∧
          (e ∈ cgraphw_edges g → g1.edges = g.edges) ∧
          (e ∉ cgraphw_edges g → (cgraphw_edges g1).Perm (e :: cgraphw_edges g) ∧
            hashmap_size g1.edges = hashmap_size g.edges + 1)) ∧
        ∃ g2, cgraphw_add_edge g1 rank label nodes edge_index = .ok (0, g2) ∧
          g2.edges = g1.edges) ∧
      (∀ rank label nodes edge_index ret g1,
        cgraphw_add_edge g rank label nodes edge_index = .ok (ret, g1) → ret ≠ 0 →
        g1.edges = g.edges) ∧
      ∀ rank l nodes edge_index, 1 ≤ rank →
        (∀ j, j < rank - 1 → ∃ s, nodes[j]? = some (some s)) →
        ∃ g1, cgraphw_add_edge g rank (some l) nodes edge_index = .ok (0, g1)) ∧
    (∀ calls : List (Nat × Option (List Nat) × List (Option (List Nat)) × Nat),
      (∀ c ∈ calls, 1 ≤ c.1 ∧ ∀ j, j < c.1 - 1 → ∃ x, c.2.2.1[j]? = some x) →
      ∃ g, cgraphw_add_edges cgraphw_init calls = .ok g) ∧
    (cgraphw_add_edges cgraphw_init
        [(3, some [108], [some [97], some [98], some [99]], 7),
         (3, some [108], [some [97], some [99], some [98]], 7)]).toOption.map
        (fun g => (cgraphw_edges g, hashmap_size g.edges))
      = some ([⟨0, 3, [1, 3, 7]⟩, ⟨0, 3, [1, 2, 7]⟩], 2) ∧
    (cgraphw_add_edges cgraphw_init
        [(3, some [108], [some [97], some [98], some [99]], 7),
         (3, some [108], [some [97], some [99], some [98]], 7),
         (3, some [108], [some [97], some [98], some [99]], 7)]).toOption.map
        (fun g => (cgraphw_edges g, hashmap_size g.edges))
      = some ([⟨0, 3, [1, 3, 7]⟩, ⟨0, 3, [1, 2, 7]⟩], 2) := by
  refine ⟨?_, ?_, ?_, ?_, ?_, by decide!, by decide!⟩
  · intro e1 e2
    rw [hedge_cmp_lex, lex_cmp_eq_zero, hedge_seq_eq_iff]
  · intro e1 e2
    rw [hedge_cmp_lex, hedge_cmp_lex]
    exact lex_cmp_antisymm _ _
  · intro e1 e2 e3
    rw [hedge_cmp_lex, hedge_cmp_lex, hedge_cmp_lex]
    exact lex_cmp_trans _ _ _
  · intro calls g hg
    obtain ⟨hc, hinv⟩ := cgraphw_add_edges_inv calls cgraphw_init g cgraphw_init_inv.1
      cgraphw_init_inv.2 hg
    have hed := cgraphw_edges_wf g hinv.1
    refine ⟨?_, ?_, ?_, ?_, ?_, ?_⟩
    · rw [hed]
      exact hinv.1.1.2.2.1
    · rw [hed, List.length_map]
      exact hinv.1.1.2.2.2
    · intro e1 h1 e2 h2 h0
      rw [hed] at h1 h2
      obtain ⟨x1, hx1, hk1⟩ := List.mem_map.mp h1
      obtain ⟨x2, hx2, hk2⟩ := List.mem_map.mp h2
      have o1 := hinv.2 x1 hx1
      have o2 := hinv.2 x2 hx2
      rw [hk1] at o1
      rw [hk2] at o2
      exact (hedge_cmp_eq_zero_ok e1 e2 o1 o2).mp h0
    · intro rank label nodes edge_index g1 hcall
      obtain ⟨_, hr, ⟨l, hl⟩, hall⟩ := cgraphw_add_edge_zero g rank label nodes edge_index g1 hcall
      subst hl
      obtain ⟨g2, lid, ids, hok, hc2, hinv2, hlen, hlid, hids, _, hmem, hin, hout⟩ :=
        cgraphw_add_edge_spec g rank l nodes edge_index hc hr hinv hall
      · rw [hok] at hcall
        have : g2 = g1 := (Prod.mk.inj (Except.ok.inj hcall)).2
        subst this
        refine ⟨⟨_, rfl, hmem, hin, hout⟩, ?_⟩
        refine cgraphw_add_edge_repeat g2 rank l nodes edge_index lid ids hc2 hr hinv2 hlid hlen
          ?_ hmem
        intro j hj
        obtain ⟨s, hs⟩ := hall j hj
        obtain ⟨id, h1, h2⟩ := hids j s hs hj
        exact ⟨s, id, hs, h1, h2⟩
    · intro rank label nodes edge_index ret g1 hcall hret
      exact (cgraphw_add_edge_failed g rank label nodes edge_index ret g1 hcall hret).1
    · intro rank l nodes edge_index hr hall
      obtain ⟨g1, _, _, hok, _⟩ := cgraphw_add_edge_spec g rank l nodes edge_index hc hr hinv hall
      exact ⟨g1, hok⟩
  · intro calls hall
    exact cgraphw_add_edges_ok calls cgraphw_init hall

/-- The theorem at the two calls with the node strings a, b, c and a, c, b:
the edge set has no edge twice, and a third call with the node strings b, a, c
adds its edge. -/
theorem hedge_cmp_dedup_witness :
    cgraphw_add_edges cgraphw_init
        [(3, some [108], [some [97], some [98], some [99]], 7),
         (3, some [108], [some [97], some [99], some [98]], 7)]
      = .ok ⟨false, cgraphw_init.params,
          [([97], ⟨1, .OCC_NODE⟩), ([98], ⟨2, .OCC_NODE⟩), ([99], ⟨3, .OCC_NODE⟩),
            ([108], ⟨0, .OCC_EDGE⟩)], true, 0, 0,
          ⟨[⟨0, 0, [108]⟩] :: [⟨1, 1, [97]⟩] :: [⟨2, 2, [98]⟩] :: [⟨3, 3, [99]⟩]
              :: List.replicate 12 [], 4, 12, []⟩,
          ⟨List.replicate 5 [] ++ [[⟨1061, ⟨0, 3, [1, 3, 7]⟩, ()⟩], [⟨1030, ⟨0, 3, [1, 2, 7]⟩, ()⟩]]
              ++ List.replicate 9 [], 2, 12, []⟩,
          [], [], none⟩ ∧
    (cgraphw_edges
      ⟨false, cgraphw_init.params,
        [([97], ⟨1, .OCC_NODE⟩), ([98], ⟨2, .OCC_NODE⟩), ([99], ⟨3, .OCC_NODE⟩),
          ([108], ⟨0, .OCC_EDGE⟩)], true, 0, 0,
        ⟨[⟨0, 0, [108]⟩] :: [⟨1, 1, [97]⟩] :: [⟨2, 2, [98]⟩] :: [⟨3, 3, [99]⟩]
            :: List.replicate 12 [], 4, 12, []⟩,
        ⟨List.replicate 5 [] ++ [[⟨1061, ⟨0, 3, [1, 3, 7]⟩, ()⟩], [⟨1030, ⟨0, 3, [1, 2, 7]⟩, ()⟩]]
            ++ List.replicate 9 [], 2, 12, []⟩,
        [], [], none⟩).Nodup :=
  ⟨by decide!,
    (hedge_cmp_dedup.2.2.2.1
      [(3, some [108], [some [97], some [98], some [99]], 7),
       (3, some [108], [some [97], some [99], some [98]], 7)] _ (by decide!)).1⟩

/-- C29 (the claim fails): the call `cgraphw_add_edge(g, 2, "l", {"a", "b"}, 7)`
on the fresh handle returns 0 and records the edge with the nodes 1 (the id of
"a") and 7 (the edge index), and "b" is not in the dictionary afterwards; the
same call with NULL in place of "b" returns 0 as well and records the same
edge. -/
theorem cgraphw_add_edge_last_node_counterexample :
    (cgraphw_add_edge cgraphw_init 2 (some [108]) [some [97], some [98]] 7).toOption.map
        (fun r => (r.1, cgraphw_edges r.2, treemap_get r.2.dict_ve [97],
          treemap_get r.2.dict_ve [98]))
      = some (0, [⟨0, 2, [1, 7]⟩], some ⟨1, .OCC_NODE⟩, none) ∧
    (cgraphw_add_edge cgraphw_init 2 (some [108]) [some [97], none] 7).toOption.map
        (fun r => (r.1, cgraphw_edges r.2))
      = some (0, [⟨0, 2, [1, 7]⟩]) := by
  constructor <;> decide!

/-- C29 (what the code does): on an uncompressed handle with a well-formed edge
set and for a rank of at least 1, `cgraphw_add_edge` returns -1 and leaves the
handle as it is when the label is NULL; it returns -1 and leaves the edge set
as it is when one of the first `rank - 1` node strings is NULL; with a label
and `rank - 1` node strings it returns 0 and the edge set holds an edge of rank
`rank` whose label is the id of the label string, whose node `j < rank - 1` is
the id of the string `nodes[j]`, which is in the dictionary as a node label,
and whose last node is `edge_index`; the entry `nodes[rank - 1]` is not
read. -/
theorem cgraphw_add_edge_records (g : GraphWriterImpl) (rank : Nat)
    (hc : g.compressed = false) (hr : 1 ≤ rank) (hinv : EdgeSetOk g.edges) :
    (∀ nodes edge_index, cgraphw_add_edge g rank none nodes edge_index = .ok (-1, g)) ∧
    (∀ l nodes edge_index k, k < rank - 1 → nodes[k]? = some none →
      (∀ j, j < k → ∃ s, nodes[j]? = some (some s)) →
      ∃ g1, cgraphw_add_edge g rank (some l) nodes edge_index = .ok (-1, g1) ∧
        g1.edges = g.edges) ∧
    (∀ l nodes edge_index, (∀ j, j < rank - 1 → ∃ s, nodes[j]? = some (some s)) →
      ∃ g1 lid ids, cgraphw_add_edge g rank (some l) nodes edge_index = .ok (0, g1) ∧
        (⟨lid, rank, ids ++ [edge_index]⟩ : HEdge) ∈ cgraphw_edges g1 ∧
        ids.length = rank - 1 ∧
        (treemap_get g1.dict_ve l).map (fun x => x.value) = some lid ∧
        ∀ j s, nodes[j]? = some (some s) → j < rank - 1 →
          dict_is_node g1 s ∧
          ∃ id, ids[j]? = some id ∧
            (treemap_get g1.dict_ve s).map (fun x => x.value) = some id) ∧
    (∀ label nodes1 nodes2 edge_index, (∀ j, j < rank - 1 → nodes1[j]? = nodes2[j]?) →
      cgraphw_add_edge g rank label nodes1 edge_index
        = cgraphw_add_edge g rank label nodes2 edge_index) := by
  refine ⟨?_, ?_, ?_, ?_⟩
  · intro nodes edge_index
    unfold cgraphw_add_edge
    rw [hc]
    simp only [Bool.false_eq_true, if_false]
    rw [if_neg (by omega)]
    rfl
  · intro l nodes edge_index k hk hnull hall
    unfold cgraphw_add_edge
    rw [hc]
    simp only [Bool.false_eq_true, if_false]
    rw [if_neg (by omega)]
    obtain ⟨lid, ga, hok, _, _, hedges, _⟩ := cgraphw_dict_put_text_spec g l false
    · rw [hok]
      simp only [bind, Except.bind]
      obtain ⟨g1, h1, h2, _⟩ := cgraphw_add_edge_nodes_null nodes (rank - 1) 0 ga [] k hk
        (by rw [Nat.zero_add]; exact hnull)
        (by intro j hj; rw [Nat.zero_add]; exact hall j hj)
      · rw [h1]
        exact ⟨g1, rfl, by rw [h2, hedges]⟩
  · intro l nodes edge_index hall
    obtain ⟨g1, lid, ids, hok, _, _, hlen, hlid, hids, _, hmem, _, _⟩ :=
      cgraphw_add_edge_spec g rank l nodes edge_index hc hr hinv hall
    · refine ⟨g1, lid, ids, hok, hmem, hlen, hlid, ?_⟩
      intro j s hs hj
      exact ⟨cgraphw_add_edge_node g rank (some l) nodes edge_index g1 hok j s hj hs,
        hids j s hs hj⟩
  · intro label nodes1 nodes2 edge_index hsame
    unfold cgraphw_add_edge
    rw [hc]
    simp only [Bool.false_eq_true, if_false]
    rw [if_neg (by omega), if_neg (by omega)]
    cases label with
    | none => rfl
    | some l =>
      dsimp only
      cases cgraphw_dict_put_text g l false with
      | error e => rfl
      | ok r =>
        simp only [bind, Except.bind]
        rw [cgraphw_add_edge_nodes_congr nodes1 nodes2 (rank - 1) 0 r.2 []
          (by intro j hj; rw [Nat.zero_add]; exact hsame j hj)]

/-- The theorem at the fresh handle and rank 2: the call with the label "l" and
the node strings "a", "b" records an edge whose last node is the edge index 7,
and the call with the strings "a", "c" gives the same result. -/
theorem cgraphw_add_edge_records_witness :
    cgraphw_init.compressed = false ∧ 1 ≤ 2 ∧ EdgeSetOk cgraphw_init.edges ∧
    (∃ g1 lid ids,
        cgraphw_add_edge cgraphw_init 2 (some [108]) [some [97], some [98]] 7 = .ok (0, g1) ∧
        (⟨lid, 2, ids ++ [7]⟩ : HEdge) ∈ cgraphw_edges g1 ∧
        ids.length = 2 - 1 ∧
        (treemap_get g1.dict_ve [108]).map (fun x => x.value) = some lid ∧
        ∀ j s, [some [97], some [98]][j]? = some (some s) → j < 2 - 1 →
          dict_is_node g1 s ∧
          ∃ id, ids[j]? = some id ∧
            (treemap_get g1.dict_ve s).map (fun x => x.value) = some id) ∧
    cgraphw_add_edge cgraphw_init 2 (some [108]) [some [97], some [98]] 7
      = cgraphw_add_edge cgraphw_init 2 (some [108]) [some [97], some [99]] 7 :=
  ⟨rfl, by decide, cgraphw_init_inv.2,
    (cgraphw_add_edge_records cgraphw_init 2 rfl (by decide) cgraphw_init_inv.2).2.2.1
      [108] [some [97], some [98]] 7
      (by intro j hj
          have hj0 : j = 0 := by omega
          subst hj0
          exact ⟨[97], rfl⟩),
    (cgraphw_add_edge_records cgraphw_init 2 rfl (by decide) cgraphw_init_inv.2).2.2.2
      (some [108]) [some [97], some [98]] [some [97], some [99]] 7
      (by intro j hj
          have hj0 : j = 0 := by omega
          subst hj0
          rfl)⟩

/-! ## eliasfano.c: the search for a label or the next label -/

/-- C26 (the claim fails): for the sorted list `[5]` and the target 3, and for
the sorted list `[4, 7, 9]` and the target 2, every value is greater than the
target, and `eliasfano_binary_search_lowest_or_next_label` on the window of
the whole list returns `(uint64_t) -1` and not the index 0: the first test of
the function returns -1 whenever the value at index 0 is greater than the
target.  With a target that is not below the first value the function does
return the index of the target or of the next greater value (`[4, 7, 9]` with
the targets 4, 5, 7, 8 and 9), and -1 when no value reaches it (target 10). -/
theorem eliasfano_search_next_label_below_first :
    eliasfano_get [5] 0 = .ok 5 ∧
    eliasfano_binary_search_lowest_or_next_label [5] 3 0 0 = .ok U64_MINUS_ONE ∧
    eliasfano_binary_search_lowest_or_next_label [4, 7, 9] 2 0 2 = .ok U64_MINUS_ONE ∧
    eliasfano_binary_search_lowest_or_next_label [4, 7, 9] 4 0 2 = .ok 0 ∧
    eliasfano_binary_search_lowest_or_next_label [4, 7, 9] 5 0 2 = .ok 1 ∧
    eliasfano_binary_search_lowest_or_next_label [4, 7, 9] 7 0 2 = .ok 1 ∧
    eliasfano_binary_search_lowest_or_next_label [4, 7, 9] 8 0 2 = .ok 2 ∧
    eliasfano_binary_search_lowest_or_next_label [4, 7, 9] 9 0 2 = .ok 2 ∧
    eliasfano_binary_search_lowest_or_next_label [4, 7, 9] 10 0 2 = .ok U64_MINUS_ONE := by
  decide!
/-! ## bitarray.c at the byte level -/

namespace Wire

theorem bit_eq_testBit (x k : Nat) : (((x >>> k) &&& 1) == 1) = x.testBit k := by
  unfold Nat.testBit
  rw [Nat.and_one_is_mod, Nat.one_and_eq_mod_two]
  rcases Nat.mod_two_eq_zero_or_one (x >>> k) with h | h <;> simp [h]

theorem testBit_set_byte (x k j : Nat) (hk : k < 8) (hj : j < 8) :
    ((x ||| (1 <<< k) % 256) % 256).testBit j = (decide (j = k) || x.testBit j) := by
  have h1 : (1 <<< k) % 256 = 2 ^ k := by
    rw [Nat.one_shiftLeft]; apply Nat.mod_eq_of_lt
    calc 2 ^ k < 2 ^ 8 := Nat.pow_lt_pow_right (by omega) hk
      _ = 256 := by norm_num
  rw [h1, show (256 : Nat) = 2 ^ 8 by norm_num, Nat.testBit_mod_two_pow, Nat.testBit_or,
    Nat.testBit_two_pow]
  simp [hj, Bool.or_comm, eq_comm]

theorem testBit_clear_byte (x k j : Nat) (hk : k < 8) (hj : j < 8) :
    (x &&& (255 - (1 <<< k) % 256)).testBit j = (!decide (j = k) && x.testBit j) := by
  have h2 : ∀ k < 8, ∀ j < 8, (255 - (1 <<< k) % 256).testBit j = !decide (j = k) := by decide
  rw [Nat.testBit_and, h2 k hk j hj, Bool.and_comm]


theorem bitarray_get_eq (b : BitArray) (i : Nat) (hi : i < b.len) (x : Nat)
    (hx : b.data.get? (i / 8) = some x) :
    bitarray_get b i = .ok (x.testBit (7 - i % 8)) := by
  unfold bitarray_get
  rw [if_neg (by omega)]
  simp only [hx]
  rw [show 8 - i % 8 - 1 = 7 - i % 8 by omega, bit_eq_testBit]

theorem bitarray_get_set_data (b : BitArray) (i j : Nat) (y : Nat) (hij : i / 8 ≠ j / 8) :
    bitarray_get { b with data := b.data.set (i / 8) y } j = bitarray_get b j := by
  unfold bitarray_get
  simp only [List.get?_eq_getElem?, List.getElem?_set_ne hij]

/-- C20: on a `BitArray` whose bytes hold its `len` bits, `bitarray_set(b, i, v)`
with `i < len` succeeds, leaves `len` as it is, makes `bitarray_get(b, i)`
return `v`, and leaves `bitarray_get(b, j)` unchanged for every other
`j < len`. -/
theorem bitarray_get_after_set (b : BitArray) (i : Nat) (v : Bool) (hi : i < b.len)
    (hcap : b.len ≤ 8 * b.data.length) :
    ∃ b', bitarray_set b i v = .ok b' ∧ b'.len = b.len ∧ bitarray_get b' i = .ok v ∧
      ∀ j, j < b.len → j ≠ i → bitarray_get b' j = bitarray_get b j := by
  have hlt : i / 8 < b.data.length := by omega
  have hx : b.data.get? (i / 8) = some (b.data[i / 8]) := by
    rw [List.get?_eq_getElem?, List.getElem?_eq_getElem hlt]
  have hk : 7 - i % 8 < 8 := by omega
  have hset : ∀ y, ({ b with data := b.data.set (i / 8) y } : BitArray).data.get? (i / 8)
      = some y := by
    intro y
    simp only [List.get?_eq_getElem?]
    rw [List.getElem?_set_self hlt]
  have hother : ∀ (y : Nat), (∀ k, k < 8 → k ≠ 7 - i % 8 → y.testBit k = (b.data[i / 8]).testBit k) →
      ∀ j, j < b.len → j ≠ i →
        bitarray_get { b with data := b.data.set (i / 8) y } j = bitarray_get b j := by
    intro y hy j hj hji
    by_cases hb : i / 8 = j / 8
    · have hxj : b.data.get? (j / 8) = some (b.data[i / 8]) := by rw [← hb]; exact hx
      rw [bitarray_get_eq ⟨b.len, b.data.set (i / 8) y⟩ j hj y (by rw [← hb]; exact hset y),
        bitarray_get_eq b j hj _ hxj, hy (7 - j % 8) (by omega) (by omega)]
    · exact bitarray_get_set_data b i j y hb
  unfold bitarray_set
  rw [if_neg (by omega)]
  simp only [hx, show 8 - i % 8 - 1 = 7 - i % 8 by omega]
  cases v with
  | true =>
    refine ⟨_, rfl, rfl, ?_, ?_⟩
    · rw [bitarray_get_eq ⟨b.len, b.data.set (i / 8) _⟩ i hi _ (hset _),
        testBit_set_byte _ _ _ hk hk]
      simp
    · apply hother
      intro k hk8 hne
      rw [testBit_set_byte _ _ _ hk hk8]
      simp [hne]
  | false =>
    refine ⟨_, rfl, rfl, ?_, ?_⟩
    · rw [bitarray_get_eq ⟨b.len, b.data.set (i / 8) _⟩ i hi _ (hset _),
        testBit_clear_byte _ _ _ hk hk]
      simp
    · apply hother
      intro k hk8 hne
      rw [testBit_clear_byte _ _ _ hk hk8]
      simp [hne]

theorem bitarray_get_after_set_witness :
    ∃ b', bitarray_set (bitarray_init 12) 9 true = .ok b' ∧ b'.len = (bitarray_init 12).len ∧
      bitarray_get b' 9 = .ok true ∧
      ∀ j, j < (bitarray_init 12).len → j ≠ 9 →
        bitarray_get b' j = bitarray_get (bitarray_init 12) j :=
  bitarray_get_after_set (bitarray_init 12) 9 true (by decide) (by decide)

end Wire
/-! ## Bits of byte strings -/

namespace Wire

theorem to_int_append (l : List Nat) (x : Nat) : to_int (l ++ [x]) = 2 ^ 8 * to_int l + x := by
  simp [to_int, List.foldl_append, Nat.mul_comm]

theorem mm_bit_append_left (l1 l2 : List Nat) (p : Nat) (h : p < 8 * l1.length) :
    mm_bit (l1 ++ l2) p = mm_bit l1 p := by
  unfold mm_bit
  have h1 : p / 8 < l1.length := by omega
  simp [List.getD_eq_getElem?_getD, List.getElem?_append_left h1]

theorem mm_bit_append_right (l1 l2 : List Nat) (p : Nat) (h : 8 * l1.length ≤ p) :
    mm_bit (l1 ++ l2) p = mm_bit l2 (p - 8 * l1.length) := by
  unfold mm_bit
  have h1 : l1.length ≤ p / 8 := by omega
  have h2 : (p - 8 * l1.length) / 8 = p / 8 - l1.length := by omega
  have h3 : (p - 8 * l1.length) % 8 = p % 8 := by omega
  simp [List.getD_eq_getElem?_getD, List.getElem?_append_right h1, h2, h3]

theorem mm_bit_ge (l : List Nat) (p : Nat) (h : 8 * l.length ≤ p) : mm_bit l p = false := by
  unfold mm_bit
  have h1 : l.length ≤ p / 8 := by omega
  simp [List.getD_eq_getElem?_getD, List.getElem?_eq_none h1]

theorem testBit_to_int (data : List Nat) (hb : AllBytes data) (j : Nat) :
    (to_int data).testBit j =
      (decide (j < 8 * data.length) && mm_bit data (8 * data.length - 1 - j)) := by
  induction data using List.reverseRecOn generalizing j with
  | nil => simp [to_int]
  | append_singleton l x ih =>
    have hx : x < 2 ^ 8 := hb x (by simp)
    have hl : AllBytes l := fun y hy => hb y (by simp [hy])
    rw [to_int_append, Nat.testBit_mul_pow_two_add _ hx]
    simp only [List.length_append, List.length_singleton]
    by_cases hj : j < 8
    · rw [if_pos hj, mm_bit_append_right _ _ _ (by omega)]
      have h1 : 8 * (l.length + 1) - 1 - j - 8 * l.length = 7 - j := by omega
      rw [h1]
      unfold mm_bit
      have h2 : (7 - j) / 8 = 0 := by omega
      have h3 : 7 - (7 - j) % 8 = j := by omega
      simp [h2, h3]
      omega
    · rw [if_neg hj, ih hl]
      by_cases hj2 : j < 8 * (l.length + 1)
      · rw [mm_bit_append_left _ _ _ (by omega)]
        have h1 : 8 * (l.length + 1) - 1 - j = 8 * l.length - 1 - (j - 8) := by omega
        rw [h1]
        congr 1
        exact decide_eq_decide.mpr (by omega)
      · rw [decide_eq_false (by omega : ¬ (j - 8 < 8 * l.length)), decide_eq_false hj2]
        simp

theorem to_int_lt (data : List Nat) (hb : AllBytes data) : to_int data < 2 ^ (8 * data.length) := by
  apply Nat.lt_pow_two_of_testBit
  intro i hi
  rw [testBit_to_int data hb]
  simp
  intro h; omega

theorem mm_bit_drop_take (mm : List Nat) (a m p : Nat) (hp : p < 8 * m) :
    mm_bit ((mm.drop a).take m) p = mm_bit mm (8 * a + p) := by
  unfold mm_bit
  have h1 : p / 8 < m := by omega
  have h2 : (8 * a + p) / 8 = a + p / 8 := by omega
  have h3 : (8 * a + p) % 8 = p % 8 := by omega
  rw [h2, h3]
  simp [List.getD_eq_getElem?_getD, List.getElem?_take, h1, List.getElem?_drop]


theorem testBit_false_of_lt {x i j : Nat} (h : x < 2 ^ i) (hij : i ≤ j) : x.testBit j = false :=
  Nat.testBit_lt_two_pow (Nat.lt_of_lt_of_le h (Nat.pow_le_pow_right (by omega) hij))

theorem arr_get_eq {α : Type} (a : List α) (i : Nat) (h : i < a.length) :
    arr_get a i = .ok (a[i]) := by
  unfold arr_get
  rw [List.get?_eq_getElem?, List.getElem?_eq_getElem h]

theorem mm_bit_eq_getElem (mm : List Nat) (p : Nat) (h : p / 8 < mm.length) :
    mm_bit mm p = (mm[p / 8]).testBit (7 - p % 8) := by
  unfold mm_bit
  rw [List.getD_eq_getElem?_getD, List.getElem?_eq_getElem h]
  rfl

theorem readint_generic (mm : List Nat) (p n bl shift V v : Nat)
    (hV : ∀ j, V.testBit j = (decide (j < 8 * bl) && mm_bit mm (8 * (p / 8) + 8 * bl - 1 - j)))
    (hbl : bl = (p + n + 7) / 8 - p / 8) (hshift : shift = 8 * bl - n - p % 8)
    (hv : ∀ k, v.testBit k = (decide (k < n) && V.testBit (k + shift))) :
    v < 2 ^ n ∧ ∀ k < n, v.testBit k = mm_bit mm (p + n - 1 - k) := by
  constructor
  · apply Nat.lt_pow_two_of_testBit
    intro i hi
    rw [hv]
    simp
    intro h; omega
  · intro k hk
    rw [hv, hV]
    have h1 : k + shift < 8 * bl := by omega
    have h2 : 8 * (p / 8) + 8 * bl - 1 - (k + shift) = p + n - 1 - k := by omega
    simp [hk, h1, h2]

theorem reader_readint_spec (r : Reader) (n : Nat) (hb : AllBytes r.mm) (hn1 : 1 ≤ n)
    (hn : n ≤ 63) (hrem : r.bitpos + n ≤ 8 * r.mm.length) :
    ∃ v, reader_readint r n = .ok (v, { r with bitpos := r.bitpos + n }) ∧ v < 2 ^ n ∧
      ∀ k < n, v.testBit k = mm_bit r.mm (r.bitpos + n - 1 - k) := by
  obtain ⟨mm, bitoff0, p⟩ := r
  simp only at hb hrem ⊢
  have hlen : ((mm.drop (p / 8)).take (BYTE_LEN (p + n) - p / 8)).length
      = (p + n + 7) / 8 - p / 8 := by
    simp [BYTE_LEN, DIVUP]
    omega
  have hbd : AllBytes ((mm.drop (p / 8)).take (BYTE_LEN (p + n) - p / 8)) := by
    intro x hx
    exact hb x (List.mem_of_mem_drop (List.mem_of_mem_take hx))
  have hV := testBit_to_int _ hbd
  rw [hlen] at hV
  have hV2 : ∀ j, (to_int ((mm.drop (p / 8)).take (BYTE_LEN (p + n) - p / 8))).testBit j =
      (decide (j < 8 * ((p + n + 7) / 8 - p / 8)) &&
        mm_bit mm (8 * (p / 8) + 8 * ((p + n + 7) / 8 - p / 8) - 1 - j)) := by
    intro j
    rw [hV]
    by_cases hj : j < 8 * ((p + n + 7) / 8 - p / 8)
    · have hbl : BYTE_LEN (p + n) - p / 8 = (p + n + 7) / 8 - p / 8 := by
        simp [BYTE_LEN, DIVUP]
      rw [hbl, mm_bit_drop_take _ _ _ _ (by omega)]
      congr 2
      omega
    · simp [hj]
  have hx : p / 8 < mm.length := by omega
  unfold reader_readint check_remaining reader_bitlen
  simp only [show ¬ (n > 64) by omega, if_false, show ¬ (p + n > 8 * mm.length) by omega,
    bind, Except.bind, pure, Except.pure]
  have hblen : BYTE_LEN (p + n) - p / 8 = (p + n + 7) / 8 - p / 8 := by simp [BYTE_LEN, DIVUP]
  by_cases hoff : p % 8 = 0
  · rw [if_pos hoff]
    by_cases h8 : n < 8
    · rw [if_pos h8, arr_get_eq _ _ hx]
      refine ⟨_, rfl, ?_, ?_⟩
      · apply Nat.lt_pow_two_of_testBit
        intro i hi
        rw [Nat.testBit_shiftRight]
        exact testBit_false_of_lt (show mm[p / 8] < 2 ^ 8 from hb _ (List.getElem_mem _)) (by omega)
      · intro k hk
        rw [Nat.testBit_shiftRight, mm_bit_eq_getElem mm _ (by omega)]
        have h1 : (p + n - 1 - k) / 8 = p / 8 := by omega
        have h2 : 7 - (p + n - 1 - k) % 8 = 8 - n + k := by omega
        simp only [h1, h2]
    · rw [if_neg h8]
      by_cases h88 : n = 8
      · rw [if_pos h88, arr_get_eq _ _ hx]
        refine ⟨_, rfl, ?_, ?_⟩
        · subst h88
          exact hb _ (List.getElem_mem _)
        · intro k hk
          rw [mm_bit_eq_getElem mm _ (by omega)]
          have h1 : (p + n - 1 - k) / 8 = p / 8 := by omega
          have h2 : 7 - (p + n - 1 - k) % 8 = k := by omega
          simp only [h1, h2]
      · rw [if_neg h88]
        by_cases hbl : 8 * (BYTE_LEN (p + n) - p / 8) = n
        · rw [if_pos hbl]
          refine ⟨_, rfl, ?_⟩
          apply readint_generic mm p n _ 0 _ _ hV2 rfl (by omega)
          intro k
          rw [hblen] at hbl
          by_cases hk : k < n
          · simp [hk]
          · rw [hV2 k, hbl]
            simp [hk]
        · rw [if_neg hbl]
          refine ⟨_, rfl, ?_⟩
          apply readint_generic mm p n _ (8 * (BYTE_LEN (p + n) - p / 8) - n) _ _ hV2 rfl
            (by rw [hblen]; omega)
          intro k
          rw [Nat.testBit_shiftRight, Nat.add_comm _ k]
          by_cases hk : k < n
          · simp [hk]
          · rw [hV2, hblen, decide_eq_false (by omega)]
            simp [hk]
  · rw [if_neg hoff]
    by_cases h9 : BYTE_LEN (p + n) - p / 8 > 8
    · rw [if_pos h9, if_neg (by omega)]
      refine ⟨_, rfl, ?_⟩
      apply readint_generic mm p n _ (8 * (BYTE_LEN (p + n) - p / 8) - n - p % 8) _ _ hV2 rfl
        (by rw [hblen])
      intro k
      rw [Nat.testBit_and, Nat.testBit_two_pow_sub_one,
        show (18446744073709551616 : Nat) = 2 ^ 64 by norm_num, Nat.testBit_mod_two_pow,
        Nat.testBit_shiftRight, Nat.add_comm _ k]
      by_cases hk : k < n
      · have : k < 64 := by omega
        simp [hk, this]
      · simp [hk]
    · rw [if_neg h9, if_neg (by omega)]
      refine ⟨_, rfl, ?_⟩
      apply readint_generic mm p n _ (8 * (BYTE_LEN (p + n) - p / 8) - n - p % 8) _ _ hV2 rfl
        (by rw [hblen])
      intro k
      rw [Nat.testBit_and, Nat.testBit_two_pow_sub_one, Nat.testBit_shiftRight, Nat.add_comm _ k]
      by_cases hk : k < n <;> simp [hk]

end Wire
/-! ## The writer: what `bitarray_append_bits` and the `bitwriter_write_*` functions append -/

namespace Wire

theorem mm_bit_set_same (data : List Nat) (i y p : Nat) (hi : i < data.length) (hp : p / 8 = i) :
    mm_bit (data.set i y) p = y.testBit (7 - p % 8) := by
  unfold mm_bit
  rw [hp, List.getD_eq_getElem?_getD, List.getElem?_set_self hi]
  rfl

theorem mm_bit_set_other (data : List Nat) (i y p : Nat) (hp : p / 8 ≠ i) :
    mm_bit (data.set i y) p = mm_bit data p := by
  unfold mm_bit
  rw [List.getD_eq_getElem?_getD, List.getD_eq_getElem?_getD, List.getElem?_set_ne (Ne.symm hp)]

theorem allBytes_set (data : List Nat) (i y : Nat) (h : AllBytes data) (hy : y < 256) :
    AllBytes (data.set i y) := by
  intro x hx
  rcases List.mem_or_eq_of_mem_set hx with h1 | h1
  · exact h x h1
  · rw [h1]; exact hy

theorem testBit_or_shr_byte (x bits m j : Nat) (hj : j < 8) :
    ((x ||| (bits >>> m)) % 256).testBit j = (x.testBit j || bits.testBit (m + j)) := by
  rw [show (256 : Nat) = 2 ^ 8 by norm_num, Nat.testBit_mod_two_pow, Nat.testBit_or,
    Nat.testBit_shiftRight]
  simp [hj]

theorem testBit_or_shl_byte (x bits s j : Nat) (hj : j < 8) :
    ((x ||| (bits <<< s) % 18446744073709551616) % 256).testBit j =
      (x.testBit j || (decide (s ≤ j) && bits.testBit (j - s))) := by
  rw [show (256 : Nat) = 2 ^ 8 by norm_num, Nat.testBit_mod_two_pow, Nat.testBit_or,
    show (18446744073709551616 : Nat) = 2 ^ 64 by norm_num, Nat.testBit_mod_two_pow,
    Nat.testBit_shiftLeft]
  have : j < 64 := by omega
  simp [hj, this]

theorem wok_aligned (len : Nat) (data : List Nat) (h : AllBytes data) (hl : len % 8 = 0)
    (hc : len ≤ 8 * data.length) : WOk ⟨len, data⟩ :=
  ⟨h, fun _ _ _ h3 => absurd hl h3, hc⟩

theorem append_bits_loop_spec (bits : Nat) : ∀ (fuel : Nat) (d : BitArray) (n : Nat),
    n < fuel → WOk d → BYTE_LEN (d.len + n) ≤ d.data.length → (d.len % 8 = 0 ∨ bits < 2 ^ n) →
    ∃ d', bitarray_append_bits_loop bits fuel d n = .ok d' ∧ WOk d' ∧ d'.len = d.len + n ∧
      d'.data.length = d.data.length ∧
      (∀ p < d.len, mm_bit d'.data p = mm_bit d.data p) ∧
      (∀ k < n, mm_bit d'.data (d.len + k) = bits.testBit (n - 1 - k)) := by
  intro fuel
  induction fuel with
  | zero => intro d n h; omega
  | succ fuel ih =>
    intro d n hfuel hok hcap hinv
    unfold bitarray_append_bits_loop
    by_cases hn0 : n = 0
    · rw [if_pos hn0]
      subst hn0
      exact ⟨d, rfl, hok, rfl, rfl, fun _ _ => rfl, fun k hk => by omega⟩
    rw [if_neg hn0]
    have hcap2 : (d.len + n + 7) / 8 ≤ d.data.length := by
      simpa [BYTE_LEN, DIVUP] using hcap
    have hidx : d.len / 8 < d.data.length := by omega
    have hget : d.data.get? (d.len / 8) = some (d.data[d.len / 8]) := by
      rw [List.get?_eq_getElem?, List.getElem?_eq_getElem hidx]
    simp only [hget]
    -- the bits of the current byte from `bit_count` on are 0
    have hx : ∀ q, d.len % 8 ≤ q → q < 8 →
        (if d.len % 8 = 0 then 0 else d.data[d.len / 8]).testBit (7 - q) = false := by
      intro q hq1 hq2
      by_cases hz : d.len % 8 = 0
      · simp [hz]
      · rw [if_neg hz]
        have h1 := hok.2.1 (8 * (d.len / 8) + q) (by omega) (by omega) hz
        rw [mm_bit_eq_getElem _ _ (by omega)] at h1
        have e1 : (8 * (d.len / 8) + q) / 8 = d.len / 8 := by omega
        have e2 : (8 * (d.len / 8) + q) % 8 = q := by omega
        simp only [e1, e2] at h1
        exact h1
    have hxold : ∀ q, q < d.len % 8 →
        (if d.len % 8 = 0 then 0 else d.data[d.len / 8]).testBit (7 - q)
          = mm_bit d.data (8 * (d.len / 8) + q) := by
      intro q hq
      rw [if_neg (by omega), mm_bit_eq_getElem _ _ (by omega)]
      have e1 : (8 * (d.len / 8) + q) / 8 = d.len / 8 := by omega
      have e2 : (8 * (d.len / 8) + q) % 8 = q := by omega
      simp only [e1, e2]
    have hhigh : ∀ j, d.len % 8 ≠ 0 → n ≤ j → bits.testBit j = false := by
      intro j hz hj
      rcases hinv with h | h
      · exact absurd h hz
      · exact testBit_false_of_lt h hj
    by_cases hbig : d.len % 8 + n ≥ 8
    · rw [if_pos hbig]
      obtain ⟨d', hrun, hok', hlen', hdl', hpre', hnew'⟩ :=
        ih ⟨d.len + (8 - d.len % 8), d.data.set (d.len / 8)
            (((if d.len % 8 = 0 then 0 else d.data[d.len / 8]) |||
              bits >>> (n - (8 - d.len % 8))) % 256)⟩
          (n - (8 - d.len % 8)) (by omega)
          (wok_aligned _ _ (allBytes_set _ _ _ hok.1 (Nat.mod_lt _ (by norm_num))) (by omega)
            (by simp only [List.length_set]; omega))
          (by simp only [BYTE_LEN, DIVUP, List.length_set]; omega)
          (Or.inl (by simp only; omega))
      simp only [List.length_set] at hdl'
      simp only at hlen' hpre' hnew'
      refine ⟨d', hrun, hok', by omega, hdl', ?_, ?_⟩
      · intro p hp
        rw [hpre' p (by omega)]
        by_cases hpb : p / 8 = d.len / 8
        · rw [mm_bit_set_same _ _ _ _ hidx hpb, testBit_or_shr_byte _ _ _ _ (by omega),
            hxold (p % 8) (by omega), hhigh _ (by omega) (by omega)]
          have : 8 * (d.len / 8) + p % 8 = p := by omega
          simp [this]
        · exact mm_bit_set_other _ _ _ _ hpb
      · intro k hk
        by_cases hk1 : k < 8 - d.len % 8
        · rw [hpre' _ (by omega), mm_bit_set_same _ _ _ _ hidx (by omega),
            testBit_or_shr_byte _ _ _ _ (by omega)]
          have e1 : 7 - (d.len + k) % 8 = 7 - (d.len % 8 + k) := by omega
          rw [e1, hx (d.len % 8 + k) (by omega) (by omega)]
          have e2 : n - (8 - d.len % 8) + (7 - (d.len % 8 + k)) = n - 1 - k := by omega
          simp [e2]
        · have h1 := hnew' (k - (8 - d.len % 8)) (by omega)
          have e1 : d.len + (8 - d.len % 8) + (k - (8 - d.len % 8)) = d.len + k := by omega
          have e2 : n - (8 - d.len % 8) - 1 - (k - (8 - d.len % 8)) = n - 1 - k := by omega
          rw [e1, e2] at h1
          exact h1
    · rw [if_neg hbig]
      refine ⟨_, rfl, ⟨allBytes_set _ _ _ hok.1 (Nat.mod_lt _ (by norm_num)), ?_,
        by simp only [List.length_set]; omega⟩, rfl, by simp, ?_, ?_⟩
      · intro p h1 h2 h3
        simp only at h1 h2 h3 ⊢
        rw [mm_bit_set_same _ _ _ _ hidx (by omega), testBit_or_shl_byte _ _ _ _ (by omega),
          hx (p % 8) (by omega) (by omega)]
        simp
        intro h; omega
      · intro p hp
        simp only
        by_cases hpb : p / 8 = d.len / 8
        · rw [mm_bit_set_same _ _ _ _ hidx hpb, testBit_or_shl_byte _ _ _ _ (by omega),
            hxold (p % 8) (by omega), hhigh _ (by omega) (by omega)]
          have : 8 * (d.len / 8) + p % 8 = p := by omega
          simp [this]
        · exact mm_bit_set_other _ _ _ _ hpb
      · intro k hk
        simp only
        rw [mm_bit_set_same _ _ _ _ hidx (by omega), testBit_or_shl_byte _ _ _ _ (by omega)]
        have e1 : 7 - (d.len + k) % 8 = 7 - (d.len % 8 + k) := by omega
        rw [e1, hx (d.len % 8 + k) (by omega) (by omega)]
        have e2 : 7 - (d.len % 8 + k) - (8 - (d.len % 8 + n)) = n - 1 - k := by omega
        have e3 : 8 - (d.len % 8 + n) ≤ 7 - (d.len % 8 + k) := by omega
        simp [e2, e3]



theorem mm_bit_append_zeros (data : List Nat) (k p : Nat) :
    mm_bit (data ++ List.replicate k 0) p = mm_bit data p := by
  by_cases h : p < 8 * data.length
  · exact mm_bit_append_left _ _ _ h
  · rw [mm_bit_append_right _ _ _ (by omega), mm_bit_ge data p (by omega)]
    unfold mm_bit
    rw [List.getD_eq_getElem?_getD]
    by_cases h2 : (p - 8 * data.length) / 8 < k
    · rw [List.getElem?_replicate_of_lt h2]; simp
    · rw [List.getElem?_eq_none (by simp; omega)]; simp

theorem bitarray_resize_spec (b : BitArray) (m : Nat) :
    ∃ k, (bitarray_resize b m).data = b.data ++ List.replicate k 0 ∧
      (bitarray_resize b m).len = b.len ∧ m ≤ (bitarray_resize b m).data.length := by
  unfold bitarray_resize
  by_cases h0 : b.data.length > 0
  · rw [if_pos h0]
    by_cases h1 : m ≤ b.data.length
    · rw [if_pos h1]
      exact ⟨0, by simp, rfl, h1⟩
    · rw [if_neg h1]
      refine ⟨_, rfl, rfl, ?_⟩
      simp only [List.length_append, List.length_replicate]
      omega
  · rw [if_neg h0]
    have : b.data = [] := List.length_eq_zero.mp (by omega)
    refine ⟨max BITARRAY_DEFAULT_CAP m, by simp [this], rfl, ?_⟩
    simp

theorem allBytes_append_zeros (data : List Nat) (k : Nat) (h : AllBytes data) :
    AllBytes (data ++ List.replicate k 0) := by
  intro x hx
  rcases List.mem_append.mp hx with h1 | h1
  · exact h x h1
  · rw [(List.mem_replicate.mp h1).2]; norm_num

theorem bitarray_append_bits_spec (d : BitArray) (v n : Nat) (hok : WOk d) (hn : n ≤ 64)
    (hv : v < 2 ^ n) :
    ∃ d', bitarray_append_bits d v n = .ok d' ∧ WOk d' ∧ d'.len = d.len + n ∧
      (∀ p < d.len, mm_bit d'.data p = mm_bit d.data p) ∧
      (∀ k < n, mm_bit d'.data (d.len + k) = v.testBit (n - 1 - k)) := by
  unfold bitarray_append_bits
  rw [if_neg (by omega)]
  by_cases hn0 : n = 0
  · rw [if_pos hn0]
    subst hn0
    exact ⟨d, rfl, hok, rfl, fun _ _ => rfl, fun k hk => by omega⟩
  rw [if_neg hn0]
  obtain ⟨k, hdata, hlen, hcap⟩ := bitarray_resize_spec d (BYTE_LEN (d.len + n))
  have hv64 : v % 18446744073709551616 = v := by
    apply Nat.mod_eq_of_lt
    calc v < 2 ^ n := hv
      _ ≤ 2 ^ 64 := Nat.pow_le_pow_right (by omega) hn
      _ = 18446744073709551616 := by norm_num
  rw [hv64]
  have hok1 : WOk (bitarray_resize d (BYTE_LEN (d.len + n))) := by
    refine ⟨?_, ?_, ?_⟩
    · rw [hdata]; exact allBytes_append_zeros _ _ hok.1
    · intro p h1 h2 h3
      rw [hlen] at h1 h2 h3
      rw [hdata, mm_bit_append_zeros]
      exact hok.2.1 p h1 h2 h3
    · rw [hlen]
      have := hok.2.2
      rw [hdata, List.length_append]
      omega
  obtain ⟨d', hrun, hok', hlen', _, hpre, hnew⟩ :=
    append_bits_loop_spec v (n + 1) _ n (by omega) hok1 (by rw [hlen]; exact hcap)
      (Or.inr hv)
  rw [hlen] at hlen' hpre hnew
  refine ⟨d', hrun, hok', hlen', ?_, hnew⟩
  intro p hp
  rw [hpre p hp, hdata, mm_bit_append_zeros]

theorem bitarray_bits_append (d d' : BitArray) (l : List Bool)
    (hlen : d'.len = d.len + l.length)
    (hpre : ∀ p < d.len, mm_bit d'.data p = mm_bit d.data p)
    (hnew : ∀ k, (h : k < l.length) → mm_bit d'.data (d.len + k) = l[k]) :
    bitarray_bits d' = bitarray_bits d ++ l := by
  apply List.ext_getElem
  · simp [bitarray_bits, hlen]
  · intro i h1 h2
    simp only [bitarray_bits, List.getElem_map, List.getElem_range]
    by_cases hi : i < d.len
    · rw [List.getElem_append_left (by simpa [bitarray_bits] using hi)]
      simp only [List.getElem_map, List.getElem_range]
      exact hpre i hi
    · rw [List.getElem_append_right (by simpa [bitarray_bits] using hi)]
      simp only [bitarray_bits, List.length_map, List.length_range]
      have := hnew (i - d.len) (by simp [bitarray_bits, hlen] at h1; omega)
      rw [← this]
      congr 1
      omega

theorem bits_be_length (v n : Nat) : (bits_be v n).length = n := by simp [bits_be]

theorem bits_be_getElem (v n k : Nat) (h : k < (bits_be v n).length) :
    (bits_be v n)[k] = v.testBit (n - 1 - k) := by
  simp [bits_be]

/-- What `bitwriter_write_bits` appends. -/
theorem bitwriter_write_bits_spec (w : BitWriter) (v n : Nat) (hok : WOk w.data) (hn : n ≤ 64)
    (hv : v < 2 ^ n) :
    ∃ w', bitwriter_write_bits w v n = .ok w' ∧ WOk w'.data ∧
      bitarray_bits w'.data = bitarray_bits w.data ++ bits_be v n := by
  obtain ⟨d', hrun, hok', hlen', hpre, hnew⟩ := bitarray_append_bits_spec w.data v n hok hn hv
  refine ⟨⟨d'⟩, ?_, hok', ?_⟩
  · unfold bitwriter_write_bits
    rw [if_neg (by omega), hrun]
    rfl
  · apply bitarray_bits_append _ _ _ (by rw [hlen', bits_be_length]) hpre
    intro k hk
    rw [bits_be_getElem]
    exact hnew k (by simpa [bits_be_length] using hk)

theorem bitarray_bits_length (d : BitArray) : (bitarray_bits d).length = d.len := by
  simp [bitarray_bits]


theorem bits_be_zero (k : Nat) : bits_be 0 k = List.replicate k false := by
  apply List.ext_getElem
  · simp [bits_be]
  · intro i h1 h2
    simp [bits_be]

theorem bitwriter_write_byte_spec (w : BitWriter) (x : Nat) (hok : WOk w.data) (hx : x < 256) :
    ∃ w', bitwriter_write_byte w x = .ok w' ∧ WOk w'.data ∧
      bitarray_bits w'.data = bitarray_bits w.data ++ bits_be x 8 :=
  bitwriter_write_bits_spec w x 8 hok (by omega) (by norm_num; exact hx)

theorem bitwriter_write_bit_spec (w : BitWriter) (x : Nat) (hok : WOk w.data) (hx : x < 2) :
    ∃ w', bitwriter_write_bit w x = .ok w' ∧ WOk w'.data ∧
      bitarray_bits w'.data = bitarray_bits w.data ++ bits_be x 1 :=
  bitwriter_write_bits_spec w x 1 hok (by omega) (by norm_num; exact hx)

theorem bitwriter_flush_spec (w : BitWriter) (hok : WOk w.data) :
    ∃ w', bitwriter_flush w = .ok w' ∧ WOk w'.data ∧ w'.data.len % 8 = 0 ∧
      bitarray_bits w'.data
        = bitarray_bits w.data ++ List.replicate ((8 - w.data.len % 8) % 8) false := by
  unfold bitwriter_flush
  by_cases h : w.data.len % 8 > 0
  · obtain ⟨d', hrun, hok', hlen', hpre, hnew⟩ :=
      bitarray_append_bits_spec w.data 0 (8 - w.data.len % 8) hok (by omega) (Nat.two_pow_pos _)
    simp only [h, if_true, hrun, bind, Except.bind, pure, Except.pure]
    refine ⟨_, rfl, hok', by simp only; omega, ?_⟩
    simp only
    have e : (8 - w.data.len % 8) % 8 = 8 - w.data.len % 8 := by omega
    rw [e, ← bits_be_zero]
    apply bitarray_bits_append _ _ _ (by rw [hlen', bits_be_length]) hpre
    intro k hk
    rw [bits_be_getElem]
    exact hnew k (by simpa [bits_be_length] using hk)
  · simp only [h, if_false, pure, Except.pure]
    refine ⟨w, rfl, hok, by omega, ?_⟩
    have e : (8 - w.data.len % 8) % 8 = 0 := by omega
    simp [e]

theorem bytes_bits_cons (x : Nat) (l : List Nat) :
    bytes_bits (x :: l) = bits_be x 8 ++ bytes_bits l := by
  simp [bytes_bits]

theorem bytes_bits_append (l1 l2 : List Nat) :
    bytes_bits (l1 ++ l2) = bytes_bits l1 ++ bytes_bits l2 := by
  simp [bytes_bits]

theorem bytes_bits_length (l : List Nat) : (bytes_bits l).length = 8 * l.length := by
  induction l with
  | nil => simp [bytes_bits]
  | cons x l ih => rw [bytes_bits_cons, List.length_append, bits_be_length, ih]; simp; omega

theorem bytes_bits_getElem (l : List Nat) (p : Nat) (h : p < (bytes_bits l).length) :
    (bytes_bits l)[p] = mm_bit l p := by
  induction l generalizing p with
  | nil => simp [bytes_bits] at h
  | cons x l ih =>
    simp only [bytes_bits_cons]
    by_cases hp : p < 8
    · rw [List.getElem_append_left (by rw [bits_be_length]; exact hp), bits_be_getElem]
      unfold mm_bit
      have h1 : p / 8 = 0 := by omega
      have h2 : p % 8 = p := by omega
      simp [h1, h2]
    · rw [List.getElem_append_right (by rw [bits_be_length]; omega)]
      simp only [bits_be_length]
      rw [ih]
      have := mm_bit_append_right [x] l p (by simp; omega)
      simp at this
      rw [this]

theorem foldlM_range_succ {α : Type} (f : α → Nat → Except Err α) (a : α) (n : Nat) :
    (List.range (n + 1)).foldlM f a = ((List.range n).foldlM f a) >>= (fun b => f b n) := by
  rw [List.range_succ, List.foldlM_append]
  congr 1
  funext b
  simp only [List.foldlM_cons, List.foldlM_nil, bind_pure]

theorem bitwriter_write_bytes_spec (data : List Nat) (hb : AllBytes data) :
    ∀ (size : Nat) (w : BitWriter), size ≤ data.length → WOk w.data →
    ∃ w', bitwriter_write_bytes w data size = .ok w' ∧ WOk w'.data ∧
      bitarray_bits w'.data = bitarray_bits w.data ++ bytes_bits (data.take size) := by
  intro size
  induction size with
  | zero =>
    intro w _ hok
    exact ⟨w, rfl, hok, by simp [bytes_bits]⟩
  | succ k ih =>
    intro w hk hok
    obtain ⟨w1, hrun1, hok1, hbits1⟩ := ih w (by omega) hok
    unfold bitwriter_write_bytes at hrun1 ⊢
    rw [foldlM_range_succ, hrun1]
    have hget : arr_get data k = .ok (data[k]) := arr_get_eq data k (by omega)
    obtain ⟨w2, hrun2, hok2, hbits2⟩ :=
      bitwriter_write_byte_spec w1 (data[k]) hok1 (hb _ (List.getElem_mem _))
    refine ⟨w2, ?_, hok2, ?_⟩
    · show (do let x ← arr_get data k; bitwriter_write_byte w1 x) = Except.ok w2
      rw [hget]
      exact hrun2
    · rw [hbits2, hbits1, List.append_assoc]
      congr 1
      rw [List.take_succ, bytes_bits_append]
      congr 1
      rw [List.getElem?_eq_getElem (by omega)]
      simp [bytes_bits]


/-- What `bitwriter_write_bitarray` appends: the bits of the array. -/
theorem bitwriter_write_bitarray_spec (w : BitWriter) (b : BitArray) (hok : WOk w.data)
    (hb : AllBytes b.data) (hcap : b.len ≤ 8 * b.data.length) :
    ∃ w', bitwriter_write_bitarray w b = .ok w' ∧ WOk w'.data ∧
      bitarray_bits w'.data = bitarray_bits w.data ++ bitarray_bits b := by
  unfold bitwriter_write_bitarray
  by_cases h0 : b.len = 0
  · simp only [h0, if_true, pure, Except.pure]
    exact ⟨w, rfl, hok, by simp [bitarray_bits, h0]⟩
  simp only [h0, if_false]
  by_cases hl : b.len % 8 > 0
  · have he : BYTE_LEN b.len - 1 = b.len / 8 := by simp [BYTE_LEN, DIVUP]; omega
    simp only [hl, if_true, he]
    obtain ⟨w1, hrun1, hok1, hbits1⟩ :=
      bitwriter_write_bytes_spec b.data hb (b.len / 8) w (by omega) hok
    have hidx : b.len / 8 < b.data.length := by omega
    have hxb : b.data[b.len / 8] < 2 ^ 8 := hb _ (List.getElem_mem _)
    have hval : (b.data[b.len / 8] >>> (8 - b.len % 8)) % 256 < 2 ^ (b.len % 8) := by
      apply Nat.lt_pow_two_of_testBit
      intro i hi
      rw [show (256 : Nat) = 2 ^ 8 by norm_num, Nat.testBit_mod_two_pow, Nat.testBit_shiftRight]
      rw [testBit_false_of_lt hxb (by omega)]
      simp
    obtain ⟨w2, hrun2, hok2, hbits2⟩ :=
      bitwriter_write_bits_spec w1 _ (b.len % 8) hok1 (by omega) hval
    refine ⟨w2, ?_, hok2, ?_⟩
    · simp only [hrun1, bind, Except.bind, arr_get_eq _ _ hidx]
      exact hrun2
    · rw [hbits2, hbits1, List.append_assoc]
      congr 1
      apply List.ext_getElem
      · simp [bytes_bits_length, bits_be_length, bitarray_bits_length]
        omega
      · intro p h1 h2
        simp only [bitarray_bits, List.getElem_map, List.getElem_range]
        by_cases hp : p < 8 * (b.len / 8)
        · rw [List.getElem_append_left (by simp [bytes_bits_length]; omega), bytes_bits_getElem]
          have := mm_bit_drop_take b.data 0 (b.len / 8) p hp
          simp at this
          exact this
        · rw [List.getElem_append_right (by simp [bytes_bits_length]; omega), bits_be_getElem]
          simp only [bytes_bits_length, List.length_take]
          have hmin : min (b.len / 8) b.data.length = b.len / 8 := by omega
          rw [hmin, show (256 : Nat) = 2 ^ 8 by norm_num, Nat.testBit_mod_two_pow,
            Nat.testBit_shiftRight, mm_bit_eq_getElem _ _ (by
              simp [bitarray_bits_length] at h2; omega)]
          have hp2 : p < b.len := by simpa [bitarray_bits_length] using h2
          have e1 : p / 8 = b.len / 8 := by omega
          have e2 : 8 - b.len % 8 + (b.len % 8 - 1 - (p - 8 * (b.len / 8))) = 7 - p % 8 := by
            omega
          have e3 : b.len % 8 - 1 - (p - 8 * (b.len / 8)) < 8 := by omega
          simp only [e1, e2, e3, decide_True, Bool.true_and]
  · have he : BYTE_LEN b.len = b.len / 8 := by simp [BYTE_LEN, DIVUP]; omega
    simp only [hl, if_false, he]
    obtain ⟨w1, hrun1, hok1, hbits1⟩ :=
      bitwriter_write_bytes_spec b.data hb (b.len / 8) w (by omega) hok
    refine ⟨w1, ?_, hok1, ?_⟩
    · simp only [hrun1, bind, Except.bind, pure, Except.pure]
    · rw [hbits1]
      congr 1
      apply List.ext_getElem
      · simp [bytes_bits_length, bitarray_bits_length]
        omega
      · intro p h1 h2
        simp only [bitarray_bits, List.getElem_map, List.getElem_range]
        rw [bytes_bits_getElem]
        have hp2 : p < b.len := by simpa [bitarray_bits_length] using h2
        have := mm_bit_drop_take b.data 0 (b.len / 8) p (by omega)
        simp at this
        exact this

theorem vbyte_bytes_allBytes : ∀ (fuel n : Nat), AllBytes (vbyte_bytes fuel n) := by
  intro fuel
  induction fuel with
  | zero => intro n x hx; simp [vbyte_bytes] at hx
  | succ fuel ih =>
    intro n x hx
    unfold vbyte_bytes at hx
    by_cases h : n > 127
    · rw [if_pos h] at hx
      rcases List.mem_cons.mp hx with h1 | h1
      · rw [h1]
        have : n &&& 127 ≤ 127 := Nat.and_le_right
        omega
      · exact ih _ x h1
    · rw [if_neg h] at hx
      simp at hx
      rw [hx]
      have h1 : n ||| 128 < 2 ^ 8 :=
        Nat.or_lt_two_pow (by norm_num; omega) (by norm_num)
      simpa using h1

/-- What `bitwriter_write_vbyte` appends: the bytes `vbyte_bytes`. -/
theorem bitwriter_write_vbyte_loop_spec : ∀ (fuel : Nat) (w : BitWriter) (n : Nat),
    n < 2 ^ (7 * (fuel + 1)) → WOk w.data →
    ∃ w', bitwriter_write_vbyte_loop (fuel + 1) w n = .ok w' ∧ WOk w'.data ∧
      bitarray_bits w'.data = bitarray_bits w.data ++ bytes_bits (vbyte_bytes (fuel + 1) n) := by
  intro fuel
  induction fuel with
  | zero =>
    intro w n hn hok
    unfold bitwriter_write_vbyte_loop vbyte_bytes
    have h : ¬ n > 127 := by norm_num at hn; omega
    simp only [h, if_false]
    have hb : n ||| 128 < 256 := by
      have h1 : n ||| 128 < 2 ^ 8 :=
        Nat.or_lt_two_pow (by norm_num; omega) (by norm_num)
      simpa using h1
    obtain ⟨w1, hrun1, hok1, hbits1⟩ := bitwriter_write_byte_spec w _ hok hb
    refine ⟨w1, hrun1, hok1, ?_⟩
    rw [hbits1]
    simp [bytes_bits]
  | succ fuel ih =>
    intro w n hn hok
    unfold bitwriter_write_vbyte_loop vbyte_bytes
    by_cases h : n > 127
    · simp only [h, if_true]
      have hb : n &&& 127 < 256 := by
        have : n &&& 127 ≤ 127 := Nat.and_le_right
        omega
      obtain ⟨w1, hrun1, hok1, hbits1⟩ := bitwriter_write_byte_spec w _ hok hb
      have hn2 : n >>> 7 < 2 ^ (7 * (fuel + 1)) := by
        rw [Nat.shiftRight_eq_div_pow]
        apply Nat.div_lt_of_lt_mul
        rw [← Nat.pow_add]
        have : 7 + 7 * (fuel + 1) = 7 * (fuel + 1 + 1) := by ring
        rw [this]
        exact hn
      obtain ⟨w2, hrun2, hok2, hbits2⟩ := ih w1 (n >>> 7) hn2 hok1
      refine ⟨w2, ?_, hok2, ?_⟩
      · simp only [hrun1, bind, Except.bind]
        exact hrun2
      · rw [hbits2, hbits1, List.append_assoc, bytes_bits_cons]
    · simp only [h, if_false]
      have hb : n ||| 128 < 256 := by
        have h1 : n ||| 128 < 2 ^ 8 :=
          Nat.or_lt_two_pow (by norm_num; omega) (by norm_num)
        simpa using h1
      obtain ⟨w1, hrun1, hok1, hbits1⟩ := bitwriter_write_byte_spec w _ hok hb
      refine ⟨w1, hrun1, hok1, ?_⟩
      rw [hbits1]
      simp [bytes_bits]

theorem bitwriter_write_vbyte_spec (w : BitWriter) (n : Nat) (hn : n < 2 ^ 64) (hok : WOk w.data) :
    ∃ w', bitwriter_write_vbyte w n = .ok w' ∧ WOk w'.data ∧
      bitarray_bits w'.data = bitarray_bits w.data ++ bytes_bits (vbyte_bytes 10 n) := by
  unfold bitwriter_write_vbyte
  have : n % 18446744073709551616 = n := Nat.mod_eq_of_lt (by norm_num at hn ⊢; exact hn)
  rw [this]
  exact bitwriter_write_vbyte_loop_spec 9 w n
    (Nat.lt_of_lt_of_le hn (Nat.pow_le_pow_right (by norm_num) (by norm_num))) hok


theorem bits_be_inj (x y n : Nat) (hx : x < 2 ^ n) (hy : y < 2 ^ n)
    (h : bits_be x n = bits_be y n) : x = y := by
  apply Nat.eq_of_testBit_eq
  intro j
  by_cases hj : j < n
  · have hlx : n - 1 - j < (bits_be x n).length := by rw [bits_be_length]; omega
    have hly : n - 1 - j < (bits_be y n).length := by rw [bits_be_length]; omega
    have h1 : (bits_be x n)[n - 1 - j] = (bits_be y n)[n - 1 - j] := by
      simp only [h]
    rw [bits_be_getElem, bits_be_getElem] at h1
    have e : n - 1 - (n - 1 - j) = j := by omega
    rw [e] at h1
    exact h1
  · rw [testBit_false_of_lt hx (by omega), testBit_false_of_lt hy (by omega)]

theorem bytes_bits_split : ∀ (hdr mm : List Nat) (rest : List Bool), AllBytes mm → AllBytes hdr →
    bytes_bits mm = bytes_bits hdr ++ rest →
    ∃ body, mm = hdr ++ body ∧ bytes_bits body = rest := by
  intro hdr
  induction hdr with
  | nil =>
    intro mm rest _ _ h
    exact ⟨mm, rfl, by simpa [bytes_bits] using h⟩
  | cons y hdr ih =>
    intro mm rest hmm hhdr h
    cases mm with
    | nil =>
      have := congrArg List.length h
      simp [bytes_bits_length, bits_be_length, bytes_bits] at this
      omega
    | cons x mm =>
      rw [bytes_bits_cons, bytes_bits_cons, List.append_assoc] at h
      have h2 := List.append_inj h (by rw [bits_be_length, bits_be_length])
      have hxy : x = y :=
        bits_be_inj x y 8 (by norm_num; exact hmm x (by simp))
          (by norm_num; exact hhdr y (by simp)) h2.1
      obtain ⟨body, hb1, hb2⟩ := ih mm rest (fun z hz => hmm z (by simp [hz]))
        (fun z hz => hhdr z (by simp [hz])) h2.2
      exact ⟨body, by rw [hxy, hb1]; rfl, hb2⟩

/-- The bytes of a flushed writer spell its bits. -/
theorem bitwriter_bytes_spec (w : BitWriter) (hok : WOk w.data) (hal : w.data.len % 8 = 0) :
    AllBytes (bitwriter_bytes w) ∧ bytes_bits (bitwriter_bytes w) = bitarray_bits w.data := by
  have hlen : (bitwriter_bytes w).length = w.data.len / 8 := by
    have := hok.2.2
    simp [bitwriter_bytes, bitwriter_bytelen, bitwriter_len, BYTE_LEN, DIVUP]
    omega
  constructor
  · intro x hx
    exact hok.1 x (List.mem_of_mem_take hx)
  · apply List.ext_getElem
    · rw [bytes_bits_length, hlen, bitarray_bits_length]; omega
    · intro p h1 h2
      rw [bytes_bits_getElem]
      simp only [bitarray_bits, List.getElem_map, List.getElem_range]
      have hp : p < w.data.len := by simpa [bitarray_bits_length] using h2
      have hbl : bitwriter_bytelen w = w.data.len / 8 := by
        simp [bitwriter_bytelen, bitwriter_len, BYTE_LEN, DIVUP]; omega
      have := mm_bit_drop_take w.data.data 0 (w.data.len / 8) p (by omega)
      simp at this
      simp only [bitwriter_bytes, hbl]
      exact this

theorem wok_init : WOk (bitwriter_init).data := by
  refine ⟨?_, ?_, ?_⟩
  · intro x hx; simp [bitwriter_init, bitarray_init] at hx
  · intro p _ _ h3; simp [bitwriter_init, bitarray_init] at h3
  · simp [bitwriter_init, bitarray_init]

theorem bitarray_bits_init : bitarray_bits (bitwriter_init).data = [] := by
  simp [bitwriter_init, bitarray_init, bitarray_bits]

/-- The bytes of a REGULAR sequence: the type, the length and the bits. -/
theorem bitsequence_regular_bytes (b : BitArray) (p : BitsequenceParams) (hb : AllBytes b.data)
    (hcap : b.len ≤ 8 * b.data.length) (hlen : b.len ≤ 200) :
    ∃ w body, bitwriter_write_bitsequence bitwriter_init b p = .ok w ∧
      bitwriter_bytes w = BITSEQUENCE_REGULAR :: (vbyte_bytes 10 b.len ++ body) ∧
      AllBytes body ∧
      bytes_bits body = bitarray_bits b ++ List.replicate ((8 - b.len % 8) % 8) false := by
  unfold bitwriter_write_bitsequence
  simp only [hlen, if_true]
  obtain ⟨w1, hr1, hok1, hb1⟩ := bitwriter_write_byte_spec bitwriter_init BITSEQUENCE_REGULAR
    wok_init (by decide)
  obtain ⟨w2, hr2, hok2, hb2⟩ := bitwriter_write_vbyte_spec w1 b.len (by omega) hok1
  obtain ⟨w3, hr3, hok3, hb3⟩ := bitwriter_write_bitarray_spec w2 b hok2 hb hcap
  obtain ⟨w4, hr4, hok4, hal4, hb4⟩ := bitwriter_flush_spec w3 hok3
  obtain ⟨hbytes, hbits⟩ := bitwriter_bytes_spec w4 hok4 hal4
  have hl3 : w3.data.len = 8 + 8 * (vbyte_bytes 10 b.len).length + b.len := by
    have := congrArg List.length hb3
    rw [hb2, hb1, bitarray_bits_init] at this
    simp [bitarray_bits_length, bits_be_length, bytes_bits_length] at this
    omega
  have hpad : (8 - w3.data.len % 8) % 8 = (8 - b.len % 8) % 8 := by omega
  rw [hb4, hb3, hb2, hb1, bitarray_bits_init, hpad] at hbits
  have hhdr : AllBytes (BITSEQUENCE_REGULAR :: vbyte_bytes 10 b.len) := by
    intro x hx
    rcases List.mem_cons.mp hx with h | h
    · rw [h]; decide
    · exact vbyte_bytes_allBytes _ _ x h
  obtain ⟨body, hmm, hbody⟩ := bytes_bits_split (BITSEQUENCE_REGULAR :: vbyte_bytes 10 b.len)
    (bitwriter_bytes w4) (bitarray_bits b ++ List.replicate ((8 - b.len % 8) % 8) false)
    hbytes hhdr (by
      rw [hbits, bytes_bits_cons]
      simp only [List.nil_append, List.append_assoc])
  refine ⟨w4, body, ?_, by rw [hmm]; rfl, ?_, hbody⟩
  · simp only [hr1, hr2, hr3, bind, Except.bind]
    exact hr4
  · intro x hx
    exact hbytes x (by rw [hmm]; simp [hx])


end Wire
/-! ## The reader: bytes and variable-length integers -/

namespace Wire

theorem reader_readbyte_aligned (r : Reader) (k : Nat) (hpos : r.bitpos = 8 * k)
    (hk : k < r.mm.length) :
    reader_readbyte r = .ok (r.mm[k], { r with bitpos := 8 * (k + 1) }) := by
  unfold reader_readbyte check_remaining reader_bitlen
  have h1 : ¬ (r.bitpos + 8 > 8 * r.mm.length) := by omega
  have h2 : r.bitpos % 8 = 0 := by omega
  have h3 : r.bitpos / 8 = k := by omega
  simp only [h1, if_false, h2, if_true, h3, bind, Except.bind, arr_get_eq _ _ hk, pure,
    Except.pure]
  congr 3
  omega

theorem vbyte_combine (m s : Nat) :
    ((m &&& 127) <<< s) ||| ((m >>> 7) <<< (s + 7)) = m <<< s := by
  apply Nat.eq_of_testBit_eq
  intro j
  rw [Nat.testBit_or, Nat.testBit_shiftLeft, Nat.testBit_shiftLeft, Nat.testBit_shiftLeft,
    Nat.testBit_and, Nat.testBit_shiftRight, show (127 : Nat) = 2 ^ 7 - 1 by norm_num,
    Nat.testBit_two_pow_sub_one]
  by_cases h1 : j ≥ s
  · by_cases h2 : j ≥ s + 7
    · have e : 7 + (j - (s + 7)) = j - s := by omega
      have h3 : ¬ (j - s < 7) := by omega
      simp [h1, h2, e, h3]
    · have h3 : j - s < 7 := by omega
      simp [h1, h2, h3]
  · have h2 : ¬ (j ≥ s + 7) := by omega
    simp [h1, h2]

theorem vbyte_bytes_length_pos (fuel n : Nat) : 0 < (vbyte_bytes (fuel + 1) n).length := by
  unfold vbyte_bytes
  split <;> simp

theorem vbyte_bytes_length_le : ∀ (fuel n : Nat), (vbyte_bytes fuel n).length ≤ fuel := by
  intro fuel
  induction fuel with
  | zero => intro n; simp [vbyte_bytes]
  | succ fuel ih =>
    intro n
    unfold vbyte_bytes
    split
    · simp; exact ih _
    · simp

/-- Reading back what `bitwriter_write_vbyte` wrote. -/
theorem reader_vbyte_loop_spec (mm : List Nat) (bitoff : Nat) :
    ∀ (fuel : Nat) (rfuel : Nat) (k m val cnt shift : Nat) (post : List Nat),
      (mm.drop k = vbyte_bytes (fuel + 1) m ++ post) → m < 2 ^ (7 * (fuel + 1)) →
      m < 2 ^ (64 - shift) → shift < 64 → (vbyte_bytes (fuel + 1) m).length ≤ rfuel →
      reader_vbyte_loop rfuel ⟨mm, bitoff, 8 * k⟩ val cnt shift
        = .ok (val ||| (m <<< shift), cnt + (vbyte_bytes (fuel + 1) m).length,
            ⟨mm, bitoff, 8 * (k + (vbyte_bytes (fuel + 1) m).length)⟩) := by
  intro fuel
  induction fuel with
  | zero =>
    intro rfuel k m val cnt shift post hdrop hm hm2 hs hrf
    obtain ⟨rfuel, rfl⟩ : ∃ f, rfuel = f + 1 :=
      ⟨rfuel - 1, by have := vbyte_bytes_length_pos 0 m; omega⟩
    have hle : ¬ m > 127 := by norm_num at hm; omega
    have hvb : vbyte_bytes (0 + 1) m = [m ||| 128] := by
      unfold vbyte_bytes; rw [if_neg hle]
    rw [hvb] at hdrop ⊢
    have hk : k < mm.length := by
      by_contra hc
      rw [List.drop_eq_nil_of_le (by omega)] at hdrop
      simp at hdrop
    have hget : mm[k] = m ||| 128 := by
      have := List.getElem_drop (h := (by simp [hdrop] : 0 < (mm.drop k).length))
      simp [hdrop] at this
      exact this.symm
    unfold reader_vbyte_loop
    rw [reader_readbyte_aligned ⟨mm, bitoff, 8 * k⟩ k rfl hk]
    simp only [bind, Except.bind, hget, show ¬ shift ≥ 64 by omega, if_false]
    have h127 : (m ||| 128) &&& 127 = m := by
      apply Nat.eq_of_testBit_eq
      intro j
      rw [Nat.testBit_and, Nat.testBit_or, show (127 : Nat) = 2 ^ 7 - 1 by norm_num,
        Nat.testBit_two_pow_sub_one, show (128 : Nat) = 2 ^ 7 by norm_num, Nat.testBit_two_pow]
      by_cases hj : j < 7
      · have : ¬ (7 = j) := by omega
        simp [hj, this]
      · simp [hj]
        exact testBit_false_of_lt (show m < 2 ^ 7 by norm_num; omega) (by omega)
    have h128 : (m ||| 128) &&& 128 > 0 := by
      have : ((m ||| 128) &&& 128).testBit 7 = true := by
        rw [Nat.testBit_and, Nat.testBit_or, show (128 : Nat) = 2 ^ 7 by norm_num,
          Nat.testBit_two_pow]
        simp
      by_contra hc
      have h0 : (m ||| 128) &&& 128 = 0 := by omega
      rw [h0] at this
      simp at this
    have hmod : (m <<< shift) % 18446744073709551616 = m <<< shift := by
      apply Nat.mod_eq_of_lt
      rw [Nat.shiftLeft_eq]
      calc m * 2 ^ shift < 2 ^ (64 - shift) * 2 ^ shift :=
            Nat.mul_lt_mul_of_pos_right hm2 (Nat.two_pow_pos _)
        _ = 2 ^ 64 := by rw [← Nat.pow_add]; congr 1; omega
        _ = 18446744073709551616 := by norm_num
    rw [h127, hmod, if_pos h128]
    simp [pure, Except.pure]
  | succ fuel ih =>
    intro rfuel k m val cnt shift post hdrop hm hm2 hs hrf
    obtain ⟨rfuel, rfl⟩ : ∃ f, rfuel = f + 1 :=
      ⟨rfuel - 1, by have := vbyte_bytes_length_pos (fuel + 1) m; omega⟩
    by_cases hle : m > 127
    · have hvb : vbyte_bytes (fuel + 1 + 1) m = (m &&& 127) :: vbyte_bytes (fuel + 1) (m >>> 7) := by
        rw [vbyte_bytes, if_pos hle]
      rw [hvb] at hdrop ⊢
      rw [hvb, List.length_cons] at hrf
      have hk : k < mm.length := by
        by_contra hc
        rw [List.drop_eq_nil_of_le (by omega)] at hdrop
        simp at hdrop
      have hget : mm[k] = m &&& 127 := by
        have := List.getElem_drop (h := (by simp [hdrop] : 0 < (mm.drop k).length))
        simp [hdrop] at this
        exact this.symm
      have hdrop2 : mm.drop (k + 1) = vbyte_bytes (fuel + 1) (m >>> 7) ++ post := by
        have : mm.drop (k + 1) = (mm.drop k).drop 1 := by rw [List.drop_drop]
        rw [this, hdrop]
        simp
      unfold reader_vbyte_loop
      rw [reader_readbyte_aligned ⟨mm, bitoff, 8 * k⟩ k rfl hk]
      simp only [bind, Except.bind, hget, show ¬ shift ≥ 64 by omega, if_false]
      have h127 : (m &&& 127) &&& 127 = m &&& 127 := by
        rw [Nat.and_assoc, Nat.and_self]
      have h128 : ¬ ((m &&& 127) &&& 128 > 0) := by
        have : (m &&& 127) &&& 128 = 0 := by
          rw [Nat.and_assoc, show (127 : Nat) &&& 128 = 0 by decide, Nat.and_zero]
        omega
      have hpow : (2 : Nat) ^ (64 - shift) = 2 ^ 7 * 2 ^ (64 - (shift + 7)) ∨ 64 - shift < 7 := by
        by_cases h7 : 64 - shift < 7
        · exact Or.inr h7
        · left
          rw [← Nat.pow_add]; congr 1; omega
      have hshift7 : shift + 7 < 64 := by
        by_contra hc
        have : m < 2 ^ 7 :=
          Nat.lt_of_lt_of_le hm2 (Nat.pow_le_pow_right (by norm_num) (by omega))
        norm_num at this
        omega
      have hm3 : m >>> 7 < 2 ^ (64 - (shift + 7)) := by
        rw [Nat.shiftRight_eq_div_pow]
        apply Nat.div_lt_of_lt_mul
        rw [← Nat.pow_add]
        have : 7 + (64 - (shift + 7)) = 64 - shift := by omega
        rw [this]
        exact hm2
      have hm4 : m >>> 7 < 2 ^ (7 * (fuel + 1)) := by
        rw [Nat.shiftRight_eq_div_pow]
        apply Nat.div_lt_of_lt_mul
        rw [← Nat.pow_add]
        have : 7 + 7 * (fuel + 1) = 7 * (fuel + 1 + 1) := by ring
        rw [this]
        exact hm
      have hmod : ((m &&& 127) <<< shift) % 18446744073709551616 = (m &&& 127) <<< shift := by
        apply Nat.mod_eq_of_lt
        have h1 : m &&& 127 ≤ m := Nat.and_le_left
        rw [Nat.shiftLeft_eq]
        calc (m &&& 127) * 2 ^ shift ≤ m * 2 ^ shift := Nat.mul_le_mul_right _ h1
          _ < 2 ^ (64 - shift) * 2 ^ shift :=
            Nat.mul_lt_mul_of_pos_right hm2 (Nat.two_pow_pos _)
          _ = 2 ^ 64 := by rw [← Nat.pow_add]; congr 1; omega
          _ = 18446744073709551616 := by norm_num
      rw [h127, hmod, if_neg h128]
      have := ih rfuel (k + 1) (m >>> 7) (val ||| (m &&& 127) <<< shift) (cnt + 1) (shift + 7)
        post hdrop2 hm4 hm3 hshift7 (by omega)
      rw [show 8 * (k + 1) = 8 * k + 8 by ring] at this
      rw [show 8 * (k + 1) = 8 * k + 8 by ring]
      rw [this, Nat.or_assoc, vbyte_combine]
      simp only [List.length_cons]
      congr 3
      · omega
      · congr 1; omega
    · have hvb : vbyte_bytes (fuel + 1 + 1) m = vbyte_bytes (0 + 1) m := by
        rw [vbyte_bytes, if_neg hle, vbyte_bytes, if_neg hle]
      rw [hvb] at hdrop ⊢
      have := ih
      clear ih this
      -- the single final byte: as in the base case
      have hk : k < mm.length := by
        by_contra hc
        rw [List.drop_eq_nil_of_le (by omega)] at hdrop
        rw [vbyte_bytes, if_neg hle] at hdrop
        simp at hdrop
      have hvb1 : vbyte_bytes (0 + 1) m = [m ||| 128] := by
        unfold vbyte_bytes; rw [if_neg hle]
      rw [hvb1] at hdrop ⊢
      have hget : mm[k] = m ||| 128 := by
        have := List.getElem_drop (h := (by simp [hdrop] : 0 < (mm.drop k).length))
        simp [hdrop] at this
        exact this.symm
      unfold reader_vbyte_loop
      rw [reader_readbyte_aligned ⟨mm, bitoff, 8 * k⟩ k rfl hk]
      simp only [bind, Except.bind, hget, show ¬ shift ≥ 64 by omega, if_false]
      have h127 : (m ||| 128) &&& 127 = m := by
        apply Nat.eq_of_testBit_eq
        intro j
        rw [Nat.testBit_and, Nat.testBit_or, show (127 : Nat) = 2 ^ 7 - 1 by norm_num,
          Nat.testBit_two_pow_sub_one, show (128 : Nat) = 2 ^ 7 by norm_num, Nat.testBit_two_pow]
        by_cases hj : j < 7
        · have : ¬ (7 = j) := by omega
          simp [hj, this]
        · simp [hj]
          exact testBit_false_of_lt (show m < 2 ^ 7 by norm_num; omega) (by omega)
      have h128 : (m ||| 128) &&& 128 > 0 := by
        have : ((m ||| 128) &&& 128).testBit 7 = true := by
          rw [Nat.testBit_and, Nat.testBit_or, show (128 : Nat) = 2 ^ 7 by norm_num,
            Nat.testBit_two_pow]
          simp
        by_contra hc
        have h0 : (m ||| 128) &&& 128 = 0 := by omega
        rw [h0] at this
        simp at this
      have hmod : (m <<< shift) % 18446744073709551616 = m <<< shift := by
        apply Nat.mod_eq_of_lt
        rw [Nat.shiftLeft_eq]
        calc m * 2 ^ shift < 2 ^ (64 - shift) * 2 ^ shift :=
              Nat.mul_lt_mul_of_pos_right hm2 (Nat.two_pow_pos _)
          _ = 2 ^ 64 := by rw [← Nat.pow_add]; congr 1; omega
          _ = 18446744073709551616 := by norm_num
      rw [h127, hmod, if_pos h128]
      simp [pure, Except.pure]


theorem vbyte_bytes_length_pos' (n : Nat) : 0 < (vbyte_bytes 10 n).length :=
  vbyte_bytes_length_pos 9 n

theorem reader_vbyte_spec (mm : List Nat) (bitoff k n : Nat) (post : List Nat)
    (hdrop : mm.drop k = vbyte_bytes 10 n ++ post) (hn : n < 2 ^ 64) :
    reader_vbyte ⟨mm, bitoff, 8 * k⟩
      = .ok (n, (vbyte_bytes 10 n).length, ⟨mm, bitoff, 8 * (k + (vbyte_bytes 10 n).length)⟩) := by
  unfold reader_vbyte
  have hlen : (vbyte_bytes 10 n).length ≤ mm.length + 1 := by
    have := congrArg List.length hdrop
    simp at this
    omega
  have := reader_vbyte_loop_spec mm bitoff 9 (mm.length + 1) k n 0 0 0 post hdrop
    (Nat.lt_of_lt_of_le hn (Nat.pow_le_pow_right (by norm_num) (by norm_num))) hn (by norm_num)
    hlen
  simp only [Nat.zero_or, Nat.shiftLeft_zero, Nat.zero_add] at this
  exact this

theorem bitcount_zero (f : Nat → Bool) (a : Nat) : bitcount f a 0 = 0 := by
  simp [bitcount]

theorem bitcount_succ (f : Nat → Bool) (a n : Nat) :
    bitcount f a (n + 1) = bitcount f a n + (if f (a + n) then 1 else 0) := by
  simp only [bitcount, List.range_succ, List.filter_append, List.length_append]
  by_cases h : f (a + n) <;> simp [h]

theorem bitcount_add (f : Nat → Bool) (a n m : Nat) :
    bitcount f a (n + m) = bitcount f a n + bitcount f (a + n) m := by
  induction m with
  | zero => simp [bitcount_zero]
  | succ m ih =>
    rw [← Nat.add_assoc, bitcount_succ, ih, bitcount_succ, Nat.add_assoc a n m]
    omega

theorem bitcount_congr (f g : Nat → Bool) (a b n : Nat) (h : ∀ k < n, f (a + k) = g (b + k)) :
    bitcount f a n = bitcount g b n := by
  induction n with
  | zero => simp [bitcount_zero]
  | succ n ih =>
    rw [bitcount_succ, bitcount_succ, ih (fun k hk => h k (by omega)), h n (by omega)]

theorem bitcount_le (f : Nat → Bool) (a n : Nat) : bitcount f a n ≤ n := by
  induction n with
  | zero => simp [bitcount_zero]
  | succ n ih => rw [bitcount_succ]; split <;> omega

theorem bitcount_mono (f : Nat → Bool) (a n m : Nat) (h : n ≤ m) :
    bitcount f a n ≤ bitcount f a m := by
  obtain ⟨k, rfl⟩ : ∃ k, m = n + k := ⟨m - n, by omega⟩
  rw [bitcount_add]
  omega

set_option maxRecDepth 100000 in
theorem popcnt8_shift_byte : ∀ x < 256, ∀ e < 9,
    POPCNT8 (x >>> e) = bitcount (mm_bit [x]) 0 (8 - e) := by
  decide

theorem popcnt_spec (data : List Nat) (hb : AllBytes data) :
    ∀ size, size ≤ data.length → popcnt data size = bitcount (mm_bit data) 0 (8 * size) := by
  intro size
  induction size with
  | zero => intro _; simp [popcnt, bitcount_zero]
  | succ k ih =>
    intro hk
    have h1 : popcnt data (k + 1) = popcnt data k + POPCNT8 (data[k]) := by
      simp only [popcnt]
      rw [List.take_succ, List.getElem?_eq_getElem (by omega), List.map_append, List.sum_append]
      simp
    rw [h1, ih (by omega), show 8 * (k + 1) = 8 * k + 8 by ring, bitcount_add]
    congr 1
    have h2 := popcnt8_shift_byte (data[k]) (hb _ (List.getElem_mem _)) 0 (by norm_num)
    simp only [Nat.shiftRight_zero, Nat.sub_zero] at h2
    rw [h2]
    apply bitcount_congr
    intro j hj
    simp only [Nat.zero_add]
    rw [mm_bit_eq_getElem data _ (by omega), mm_bit_eq_getElem [data[k]] _ (by simp; omega)]
    have e1 : (8 * k + j) / 8 = k := by omega
    have e2 : (8 * k + j) % 8 = j := by omega
    have e3 : j / 8 = 0 := by omega
    have e4 : j % 8 = j := by omega
    simp only [e1, e2, e3, e4, List.getElem_cons_zero]


theorem reader_bitpos_spec (r : Reader) (pos : Nat) (h : pos + r.bitoff < 8 * r.mm.length) :
    reader_bitpos r pos = .ok { r with bitpos := pos + r.bitoff } := by
  unfold reader_bitpos reader_bitlen
  simp only [show ¬ (pos + r.bitoff ≥ 8 * r.mm.length) by omega, if_false]

theorem reader_read_spec (mm : List Nat) (bitoff a n : Nat) (h : a + n ≤ mm.length) :
    reader_read ⟨mm, bitoff, 8 * a⟩ n
      = .ok ((mm.drop a).take n, ⟨mm, bitoff, 8 * a + 8 * n⟩) := by
  unfold reader_read check_remaining reader_bitlen
  have h1 : ¬ (8 * a + 8 * n > 8 * mm.length) := by omega
  have h2 : ¬ (8 * a % 8 > 0) := by omega
  have h3 : 8 * a / 8 = a := by omega
  simp only [h1, if_false, h2, h3, bind, Except.bind, pure, Except.pure]

/-- The tail of `bitsequence_reader_rank1`: the set bits among `L` bits of the
file from byte `a` on, counted from whole bytes and a shifted last byte. -/
theorem tail_count (mm : List Nat) (hb : AllBytes mm) (a L : Nat) (hL : 1 ≤ L)
    (hfit : 8 * a + L ≤ 8 * mm.length) :
    (if BYTE_LEN L * 8 - L ≠ 0 then
        popcnt ((mm.drop a).take (BYTE_LEN L)) (BYTE_LEN L - 1)
          + POPCNT8 ((((mm.drop a).take (BYTE_LEN L)).getD (BYTE_LEN L - 1) 0)
              >>> (BYTE_LEN L * 8 - L))
      else popcnt ((mm.drop a).take (BYTE_LEN L)) (BYTE_LEN L))
      = bitcount (mm_bit mm) (8 * a) L := by
  have hn : BYTE_LEN L = (L + 7) / 8 := by simp [BYTE_LEN, DIVUP]
  have hdl : ((mm.drop a).take (BYTE_LEN L)).length = BYTE_LEN L := by
    simp [hn]; omega
  have hbd : AllBytes ((mm.drop a).take (BYTE_LEN L)) := by
    intro x hx
    exact hb x (List.mem_of_mem_drop (List.mem_of_mem_take hx))
  have hbits : ∀ m, m ≤ BYTE_LEN L →
      bitcount (mm_bit ((mm.drop a).take (BYTE_LEN L))) 0 (8 * m)
        = bitcount (mm_bit mm) (8 * a) (8 * m) := by
    intro m hm
    apply bitcount_congr
    intro k hk
    rw [Nat.zero_add, mm_bit_drop_take _ _ _ _ (by omega)]
  by_cases he : BYTE_LEN L * 8 - L ≠ 0
  · rw [if_pos he, popcnt_spec _ hbd _ (by rw [hdl]; omega), hbits _ (by omega)]
    have hidx : BYTE_LEN L - 1 < ((mm.drop a).take (BYTE_LEN L)).length := by rw [hdl]; omega
    rw [List.getD_eq_getElem?_getD, List.getElem?_eq_getElem hidx, Option.getD_some,
      popcnt8_shift_byte _ (hbd _ (List.getElem_mem _)) _ (by omega)]
    have e : L = 8 * (BYTE_LEN L - 1) + (8 - (BYTE_LEN L * 8 - L)) := by omega
    conv_rhs => rw [e, bitcount_add]
    congr 1
    apply bitcount_congr
    intro k hk
    rw [Nat.zero_add, mm_bit_eq_getElem [_] _ (by simp; omega)]
    have e1 : k / 8 = 0 := by omega
    have e2 : k % 8 = k := by omega
    simp only [e1, e2, List.getElem_cons_zero]
    rw [mm_bit_eq_getElem mm _ (by omega)]
    simp only [List.getElem_take, List.getElem_drop]
    have e3 : (8 * a + 8 * (BYTE_LEN L - 1) + k) / 8 = a + (BYTE_LEN L - 1) := by omega
    have e4 : (8 * a + 8 * (BYTE_LEN L - 1) + k) % 8 = k := by omega
    simp only [e3, e4]
  · rw [if_neg he, popcnt_spec _ hbd _ (by rw [hdl]), hbits _ (by omega)]
    have e : 8 * BYTE_LEN L = L := by omega
    rw [e]


theorem arr_get_getD (a : List Nat) (i : Nat) (h : i < a.length) :
    arr_get a i = .ok (a.getD i 0) := by
  rw [arr_get_eq a i h, List.getD_eq_getElem?_getD, List.getElem?_eq_getElem h, Option.getD_some]

/-- The part of `bitsequence_reader_rank1` after the super-block rank `res` is
known: the bits from block `aux` up to bit `i` are counted from the file. -/
theorem rank1_tail (bs : BitsequenceReader) (f : Nat → Bool) (hf : BsFacts bs f)
    (n aux res : Nat) (hn : n ≤ bs.len) (haux : BLOCKW * aux ≤ n) :
    (if n - BLOCKW * aux ≠ 0 then do
        let r ← reader_bitpos bs.r (bs.off + BLOCKW * aux)
        let byte_len := BYTE_LEN (n - BLOCKW * aux)
        let (data, _) ← reader_read r byte_len
        let endbits := byte_len * 8 - (n - BLOCKW * aux)
        if endbits ≠ 0 then
          let end_byte := byte_len - 1
          let x ← arr_get data end_byte
          pure (res + popcnt data end_byte + POPCNT8 (x >>> endbits))
        else pure (res + popcnt data byte_len)
      else pure res : Except Err Nat)
      = .ok (res + bitcount f (BLOCKW * aux) (n - BLOCKW * aux)) := by
  obtain ⟨hb, hbo, hoff, hfit, _, hbits, _⟩ := hf
  by_cases h0 : n - BLOCKW * aux ≠ 0
  · rw [if_pos h0]
    have hB : BLOCKW = 32 := rfl
    rw [hB] at haux h0 ⊢
    have hpos : bs.off + 32 * aux + bs.r.bitoff < 8 * bs.r.mm.length := by omega
    rw [reader_bitpos_spec _ _ hpos]
    have hform : ({ bs.r with bitpos := bs.off + 32 * aux + bs.r.bitoff } : Reader)
        = ⟨bs.r.mm, bs.r.bitoff, 8 * (bs.off / 8 + 4 * aux)⟩ := by
      show Reader.mk _ _ _ = Reader.mk _ _ _
      congr 1
      omega
    have hbl : BYTE_LEN (n - 32 * aux) = (n - 32 * aux + 7) / 8 := by simp [BYTE_LEN, DIVUP]
    have hcap : bs.off / 8 + 4 * aux + BYTE_LEN (n - 32 * aux) ≤ bs.r.mm.length := by omega
    simp only [bind, Except.bind, hform, reader_read_spec _ _ _ _ hcap]
    have hdl : ((bs.r.mm.drop (bs.off / 8 + 4 * aux)).take (BYTE_LEN (n - 32 * aux))).length
        = BYTE_LEN (n - 32 * aux) := by
      simp; omega
    have htc := tail_count bs.r.mm hb (bs.off / 8 + 4 * aux) (n - 32 * aux) (by omega) (by omega)
    have hcount : bitcount (mm_bit bs.r.mm) (8 * (bs.off / 8 + 4 * aux)) (n - 32 * aux)
        = bitcount f (32 * aux) (n - 32 * aux) := by
      apply bitcount_congr
      intro k hk
      have := hbits (32 * aux + k) (by omega)
      rw [← this]
      congr 1
      omega
    rw [hcount] at htc
    by_cases he : BYTE_LEN (n - 32 * aux) * 8 - (n - 32 * aux) ≠ 0
    · rw [if_pos he] at htc
      rw [if_pos he, arr_get_getD _ _ (by rw [hdl]; omega)]
      simp only [pure, Except.pure]
      rw [← htc]
      congr 1
      omega
    · rw [if_neg he] at htc
      rw [if_neg he]
      simp only [pure, Except.pure]
      rw [← htc]
  · rw [if_neg h0]
    have : n - BLOCKW * aux = 0 := by omega
    rw [this, bitcount_zero]
    rfl


theorem eq_of_bits (v w x : Nat) (hv : v < 2 ^ w) (hx : x < 2 ^ w)
    (h : ∀ k < w, v.testBit k = x.testBit k) : v = x := by
  apply Nat.eq_of_testBit_eq
  intro j
  by_cases hj : j < w
  · exact h j hj
  · rw [testBit_false_of_lt hv (by omega), testBit_false_of_lt hx (by omega)]

theorem rs_value_spec (bs : BitsequenceReader) (f : Nat → Bool) (hf : BsFacts bs f)
    (hrg : RgFacts bs f) (m : Nat) (hm : m ≤ bs.len / bs.s) :
    rs_value bs m = .ok (bitcount f 0 (m * bs.s)) := by
  obtain ⟨hb, hbo, _, _, _, _, _⟩ := hf
  obtain ⟨_, _, _, hw1, hw2, _, hfit, hfield⟩ := hrg
  unfold rs_value
  by_cases h0 : m = 0
  · simp [h0, bitcount_zero, pure, Except.pure]
  rw [if_neg h0]
  have hmul : bs.bits_per_rs * (m - 1) + bs.bits_per_rs ≤ bs.bits_per_rs * (bs.len / bs.s) := by
    calc bs.bits_per_rs * (m - 1) + bs.bits_per_rs = bs.bits_per_rs * m := by
          rw [← Nat.mul_succ]; congr 1; omega
      _ ≤ bs.bits_per_rs * (bs.len / bs.s) := Nat.mul_le_mul_left _ hm
  have hpos : bs.rs_off + bs.bits_per_rs * (m - 1) + bs.r.bitoff < 8 * bs.r.mm.length := by omega
  rw [reader_bitpos_spec _ _ hpos]
  obtain ⟨v, hrun, hv, hvbits⟩ := reader_readint_spec
    { bs.r with bitpos := bs.rs_off + bs.bits_per_rs * (m - 1) + bs.r.bitoff } bs.bits_per_rs
    hb hw1 hw2 (by simp only; omega)
  simp only [bind, Except.bind, hrun, pure, Except.pure]
  congr 1
  obtain ⟨hR, hRbits⟩ := hfield m (by omega) hm
  apply eq_of_bits v bs.bits_per_rs _ hv hR
  intro k hk
  rw [hvbits k hk]
  simp only
  have := hRbits (bs.bits_per_rs - 1 - k) (by omega)
  have e : bs.bits_per_rs - 1 - (bs.bits_per_rs - 1 - k) = k := by omega
  rw [e] at this
  rw [← this]
  congr 1
  omega

/-- The function `bitsequence_reader_rank1` counts the 1 bits up to `i`. -/
theorem rank1_of_facts (bs : BitsequenceReader) (f : Nat → Bool) (hf : BsFacts bs f)
    (i : Nat) (hi : i < bs.len) :
    bitsequence_reader_rank1 bs (i : Int) = .ok (bitcount f 0 (i + 1)) := by
  unfold bitsequence_reader_rank1
  rw [if_neg (by omega), if_neg (by omega)]
  simp only [Int.toNat_ofNat]
  rcases hf.2.2.2.2.2.2 with hreg | hrg
  · simp only [hreg, if_true, bind, Except.bind, pure, Except.pure]
    have := rank1_tail bs f hf (i + 1) 0 0 (by omega) (by omega)
    simp only [bind, Except.bind, pure, Except.pure, Nat.mul_zero, Nat.sub_zero, Nat.zero_add,
      Nat.add_zero] at this ⊢
    exact this
  · have htype : ¬ (bs.type = BITSEQUENCE_REGULAR) := by rw [hrg.1]; decide
    have hs : bs.s ≠ 0 := by have := hrg.2.1; have := hrg.2.2.1; omega
    have hm : (i + 1) / bs.s ≤ bs.len / bs.s := Nat.div_le_div_right (by omega)
    simp only [htype, if_false, hs, bind, Except.bind, rs_value_spec bs f hf hrg _ hm, pure,
      Except.pure]
    have hmul : BLOCKW * ((i + 1) / bs.s * bs.factor) = (i + 1) / bs.s * bs.s := by
      rw [hrg.2.2.1, show BLOCKW = 32 from rfl]; ring
    have hle : (i + 1) / bs.s * bs.s ≤ i + 1 := Nat.div_mul_le_self _ _
    have := rank1_tail bs f hf (i + 1) ((i + 1) / bs.s * bs.factor)
      (bitcount f 0 ((i + 1) / bs.s * bs.s)) (by omega) (by rw [hmul]; exact hle)
    simp only [bind, Except.bind, pure, Except.pure] at this ⊢
    rw [this, hmul]
    congr 1
    have e : i + 1 = (i + 1) / bs.s * bs.s + (i + 1 - (i + 1) / bs.s * bs.s) := by omega
    conv_rhs => rw [e, bitcount_add, Nat.zero_add]


theorem popcnt_drop (data : List Nat) (hb : AllBytes data) (a m : Nat) (h : a + m ≤ data.length) :
    popcnt (data.drop a) m = bitcount (mm_bit data) (8 * a) (8 * m) := by
  have hbd : AllBytes (data.drop a) := fun x hx => hb x (List.mem_of_mem_drop hx)
  rw [popcnt_spec _ hbd m (by simp; omega)]
  apply bitcount_congr
  intro k hk
  have := mm_bit_drop_take data a (data.length - a) k (by omega)
  rw [List.take_of_length_le (by simp)] at this
  rw [Nat.zero_add, this]

theorem popcnt_le (data : List Nat) (hb : AllBytes data) (a m : Nat) (h : a + m ≤ data.length) :
    popcnt (data.drop a) m ≤ 8 * m := by
  rw [popcnt_drop data hb a m h]
  exact bitcount_le _ _ _

theorem u64_ofNat (n : Nat) (h : n < 2 ^ 64) : u64 (n : Int) = n := by
  unfold u64
  rw [show (18446744073709551616 : Int) = ((18446744073709551616 : Nat) : Int) by norm_num,
    ← Int.ofNat_emod, Int.toNat_ofNat]
  exact Nat.mod_eq_of_lt (by norm_num at h ⊢; exact h)

/-- The function `bitarray_count` on a whole block of 32 bits. -/
theorem bitarray_count_block (b : BitArray) (hb : AllBytes b.data)
    (hcap : b.len ≤ 8 * b.data.length) (i : Nat) (hi : i * BLOCKW + BLOCKW ≤ b.len) :
    bitarray_count b (i * BLOCKW) BLOCKW true = .ok (bitcount (mm_bit b.data) (32 * i) 32) := by
  have hB : BLOCKW = 32 := rfl
  rw [hB] at hi ⊢
  unfold bitarray_count
  have h1 : i * 32 / 8 = 4 * i := by omega
  have h2 : BYTE_LEN (i * 32 + 32) - 1 = 4 * i + 3 := by simp [BYTE_LEN, DIVUP]; omega
  have h3 : i * 32 % 8 = 0 := by omega
  have hg1 : b.data.get? (4 * i) = some (b.data[4 * i]) := by
    rw [List.get?_eq_getElem?, List.getElem?_eq_getElem]
  have hg2 : b.data.get? (4 * i + 3) = some (b.data[4 * i + 3]) := by
    rw [List.get?_eq_getElem?, List.getElem?_eq_getElem]
  simp only [show ¬ ((32 : Nat) = 0) by norm_num, if_false,
    show ¬ (i * 32 + 32 > b.len) by omega, h1, h2, h3, hg1, hg2, lt_irrefl, if_true,
    show 4 * i + 3 - 4 * i = 3 by omega, show (4 * i + 3 + 1) * 8 - (i * 32 + 32) = 0 by omega,
    Nat.shiftRight_zero]
  have hp3 := popcnt_drop b.data hb (4 * i) 3 (by omega)
  have hp8 := popcnt8_shift_byte (b.data[4 * i + 3])
    (hb _ (List.getElem_mem _)) 0 (by norm_num)
  simp only [Nat.shiftRight_zero, Nat.sub_zero] at hp8
  have hle1 : popcnt (b.data.drop (4 * i)) 3 ≤ 24 := popcnt_le b.data hb (4 * i) 3 (by omega)
  have hle2 : POPCNT8 (b.data[4 * i + 3]) ≤ 8 := by
    rw [hp8]; exact bitcount_le _ _ _
  have hcast : ((popcnt (b.data.drop (4 * i)) 3 : Nat) : Int) + (POPCNT8 (b.data[4 * i + 3]) : Nat)
      = ((popcnt (b.data.drop (4 * i)) 3 + POPCNT8 (b.data[4 * i + 3]) : Nat) : Int) := by
    push_cast; ring
  rw [hcast, u64_ofNat _ (by norm_num; omega), hp3, hp8]
  have hsplit := bitcount_add (mm_bit b.data) (32 * i) 24 8
  rw [show (24 : Nat) + 8 = 32 by norm_num] at hsplit
  rw [hsplit]
  congr 2
  · apply bitcount_congr
    intro k hk
    congr 1
    omega
  · apply bitcount_congr
    intro k hk
    rw [Nat.zero_add, mm_bit_eq_getElem [_] _ (by simp; omega),
      mm_bit_eq_getElem b.data _ (by omega)]
    have e1 : k / 8 = 0 := by omega
    have e2 : k % 8 = k := by omega
    have e3 : (32 * i + 24 + k) / 8 = 4 * i + 3 := by omega
    have e4 : (32 * i + 24 + k) % 8 = k := by omega
    simp only [e1, e2, e3, e4, List.getElem_cons_zero]

end Wire
/-! ## The RG encoding: super-block ranks -/

namespace Wire

theorem ok_bind' {α β : Type} (a : α) (f : α → Except Err β) :
    ((Except.ok a : Except Err α) >>= f) = f a := rfl

/-- The function `build_rank_sub` over whole blocks. -/
theorem build_rank_sub_spec (b : BitArray) (hb : AllBytes b.data)
    (hcap : b.len ≤ 8 * b.data.length) (start : Nat) :
    ∀ blocks, 32 * (start + blocks) ≤ b.len →
    build_rank_sub b start blocks = .ok (bitcount (mm_bit b.data) (32 * start) (32 * blocks)) := by
  intro blocks
  induction blocks with
  | zero => intro _; simp [build_rank_sub, bitcount_zero, pure, Except.pure]
  | succ k ih =>
    intro hk
    have ih' := ih (by omega)
    unfold build_rank_sub at ih' ⊢
    rw [foldlM_range_succ, ih', ok_bind']
    have hnb : start + k < DIVUP b.len BLOCKW := by
      simp [DIVUP, BLOCKW]; omega
    rw [if_pos hnb, bitarray_count_block b hb hcap (start + k) (by simp [BLOCKW]; omega)]
    simp only [bind, Except.bind, pure, Except.pure]
    congr 1
    rw [show 32 * (k + 1) = 32 * k + 32 by ring, bitcount_add]
    congr 2
    ring

theorem foldlM_range_inv {σ : Type} (f : σ → Nat → Except Err σ) (P : Nat → σ → Prop) :
    ∀ (n : Nat) (s0 : σ), P 0 s0 →
      (∀ k s, k < n → P k s → ∃ s', f s k = .ok s' ∧ P (k + 1) s') →
      ∃ s', (List.range n).foldlM f s0 = .ok s' ∧ P n s' := by
  intro n
  induction n with
  | zero => intro s0 h0 _; exact ⟨s0, rfl, h0⟩
  | succ n ih =>
    intro s0 h0 hstep
    obtain ⟨s1, hrun, hP⟩ := ih s0 h0 (fun k s hk hp => hstep k s (by omega) hp)
    obtain ⟨s2, hrun2, hP2⟩ := hstep n s1 (by omega) hP
    exact ⟨s2, by rw [foldlM_range_succ, hrun, ok_bind', hrun2], hP2⟩

/-- The loop of `bitsequence_build`: the ranks before every super-block. -/
theorem bitsequence_build_loop (b : BitArray) (hb : AllBytes b.data)
    (hcap : b.len ≤ 8 * b.data.length) (factor n : Nat) (hn : n * (32 * factor) ≤ b.len) :
    (List.range n).foldlM
      (fun (rs : List Nat) k => do
        let i := k + 1
        let prev ← arr_get rs (i - 1)
        let r ← build_rank_sub b ((i - 1) * factor) factor
        pure (rs ++ [prev + r]))
      [0]
      = .ok ((List.range (n + 1)).map (fun m => bitcount (mm_bit b.data) 0 (m * (32 * factor)))) := by
  induction n with
  | zero =>
    rw [show List.range (0 + 1) = [0] from rfl]
    simp [bitcount_zero, pure, Except.pure]
  | succ k ih =>
    have hkk : k * (32 * factor) + 32 * factor ≤ b.len := by
      calc k * (32 * factor) + 32 * factor = (k + 1) * (32 * factor) := by ring
        _ ≤ b.len := hn
    rw [foldlM_range_succ, ih (by omega), ok_bind']
    have hprev : arr_get ((List.range (k + 1)).map
        (fun m => bitcount (mm_bit b.data) 0 (m * (32 * factor)))) k
        = .ok (bitcount (mm_bit b.data) 0 (k * (32 * factor))) := by
      rw [arr_get_eq _ k (by simp)]
      congr 1
      simp
    have hsub := build_rank_sub_spec b hb hcap (k * factor) factor (by
      calc 32 * (k * factor + factor) = k * (32 * factor) + 32 * factor := by ring
        _ ≤ b.len := hkk)
    simp only [Nat.add_sub_cancel, hprev, hsub, bind, Except.bind, pure, Except.pure]
    congr 1
    rw [List.range_succ (k + 1), List.map_append]
    congr 1
    simp only [List.map_cons, List.map_nil]
    congr 1
    rw [show 32 * (k * factor) = k * (32 * factor) by ring,
      show (k + 1) * (32 * factor) = k * (32 * factor) + 32 * factor by ring,
      bitcount_add, Nat.zero_add]

/-- The function `bitsequence_build`: the ranks before every super-block. -/
theorem bitsequence_build_spec (b : BitArray) (hb : AllBytes b.data)
    (hcap : b.len ≤ 8 * b.data.length) (factor : Int) (hf1 : 1 ≤ factor) (hf2 : factor < 2 ^ 26) :
    bitsequence_build b factor = .ok
      { bits := b, factor := factor.toNat, s := 32 * factor.toNat,
        rs := (List.range (b.len / (32 * factor.toNat) + 1)).map
          (fun m => bitcount (mm_bit b.data) 0 (m * (32 * factor.toNat))) } := by
  unfold bitsequence_build
  have hB : BLOCKW = 32 := rfl
  have hfn : (factor.toNat : Int) = factor := Int.toNat_of_nonneg (by omega)
  have hfn2 : factor.toNat < 2 ^ 26 := by
    have : (factor.toNat : Int) < 2 ^ 26 := by rw [hfn]; exact hf2
    exact_mod_cast this
  rw [if_neg (show ¬ (factor ≤ 0) by omega)]
  simp only [hB]
  rw [if_neg (show ¬ (32 * factor.toNat > INT_MAX) by unfold INT_MAX; norm_num at hfn2; omega),
    Nat.add_sub_cancel,
    bitsequence_build_loop b hb hcap factor.toNat _ (Nat.div_mul_le_self _ _)]
  rfl


theorem fields_bits_append (l1 l2 : List Nat) (w : Nat) :
    fields_bits (l1 ++ l2) w = fields_bits l1 w ++ fields_bits l2 w := by
  simp [fields_bits]

theorem fields_bits_length (l : List Nat) (w : Nat) : (fields_bits l w).length = w * l.length := by
  induction l with
  | nil => simp [fields_bits]
  | cons x l ih =>
    have : fields_bits (x :: l) w = bits_be x w ++ fields_bits l w := by simp [fields_bits]
    rw [this, List.length_append, bits_be_length, ih, List.length_cons]
    ring

theorem fields_bits_getElem (l : List Nat) (w j k : Nat) (hj : j < l.length) (hk : k < w)
    (h : w * j + k < (fields_bits l w).length) :
    (fields_bits l w)[w * j + k] = (l[j]).testBit (w - 1 - k) := by
  induction l generalizing j with
  | nil => simp at hj
  | cons x l ih =>
    have hc : fields_bits (x :: l) w = bits_be x w ++ fields_bits l w := by simp [fields_bits]
    simp only [hc]
    cases j with
    | zero =>
      rw [List.getElem_append_left (by rw [bits_be_length]; omega)]
      simp [bits_be_getElem]
    | succ j =>
      rw [List.getElem_append_right (by rw [bits_be_length, Nat.mul_succ]; omega)]
      simp only [bits_be_length, List.getElem_cons_succ]
      have e : w * (j + 1) + k - w = w * j + k := by rw [Nat.mul_succ]; omega
      have := ih j (by simpa using hj) (by
        rw [fields_bits_length]
        have : j < l.length := by simpa using hj
        calc w * j + k < w * j + w := by omega
          _ = w * (j + 1) := by ring
          _ ≤ w * l.length := Nat.mul_le_mul_left _ this)
      simp only [e]
      exact this

/-- The loop of `bitwriter_write_bitsequence_rg` that writes the ranks. -/
theorem write_rs_loop (rs : List Nat) (bprs : Nat) (hw : bprs ≤ 64)
    (hrs : ∀ x ∈ rs, x < 2 ^ bprs) :
    ∀ (n : Nat) (w : BitWriter), n ≤ rs.length → WOk w.data →
    ∃ w', (List.range n).foldlM
        (fun w i =>
          if i > 0 then do
            let x ← arr_get rs i
            bitwriter_write_bits w x bprs
          else pure w)
        w = .ok w' ∧ WOk w'.data ∧
      bitarray_bits w'.data = bitarray_bits w.data ++ fields_bits ((rs.take n).drop 1) bprs := by
  intro n
  induction n with
  | zero => intro w _ hok; exact ⟨w, rfl, hok, by simp [fields_bits]⟩
  | succ k ih =>
    intro w hk hok
    obtain ⟨w1, hrun1, hok1, hb1⟩ := ih w (by omega) hok
    rw [foldlM_range_succ, hrun1, ok_bind']
    by_cases h0 : k > 0
    · rw [if_pos h0, arr_get_eq rs k (by omega)]
      obtain ⟨w2, hrun2, hok2, hb2⟩ := bitwriter_write_bits_spec w1 (rs[k]) bprs hok1 hw
        (hrs _ (List.getElem_mem _))
      refine ⟨w2, hrun2, hok2, ?_⟩
      rw [hb2, hb1, List.append_assoc]
      congr 1
      rw [List.take_succ, List.getElem?_eq_getElem (by omega)]
      have hne : 1 ≤ (rs.take k).length := by simp; omega
      rw [List.drop_append_of_le_length hne, fields_bits_append]
      simp [fields_bits]
    · rw [if_neg h0]
      refine ⟨w1, rfl, hok1, ?_⟩
      have : k = 0 := by omega
      subst this
      have e1 : (rs.take (0 + 1)).drop 1 = [] :=
        List.drop_eq_nil_of_le (by rw [List.length_take]; omega)
      rw [hb1, e1]
      simp [fields_bits]

theorem bits_needed_spec (n : Nat) : n < 2 ^ BITS_NEEDED n ∧ 1 ≤ BITS_NEEDED n := by
  unfold BITS_NEEDED
  by_cases h : n = 0
  · simp [h]
  · rw [if_neg h]
    exact ⟨Nat.lt_log2_self, by omega⟩

theorem bits_needed_le (n k : Nat) (hk : 1 ≤ k) (h : n < 2 ^ k) : BITS_NEEDED n ≤ k := by
  unfold BITS_NEEDED
  by_cases h0 : n = 0
  · simp [h0]; exact hk
  · rw [if_neg h0]
    have := (Nat.log2_lt h0).mpr h
    omega


theorem range_map_drop_one (R : Nat → Nat) (n : Nat) :
    ((List.range (n + 1)).map R).drop 1 = (List.range n).map (fun m => R (m + 1)) := by
  rw [List.range_succ_eq_map]
  simp [Function.comp]

theorem u64_of_small (x : Int) (h0 : 0 ≤ x) (h1 : x < 2 ^ 64) : u64 x = x.toNat := by
  have hx : (x.toNat : Int) = x := Int.toNat_of_nonneg h0
  have h2 : x.toNat < 2 ^ 64 := by
    have : (x.toNat : Int) < 2 ^ 64 := by rw [hx]; exact h1
    exact_mod_cast this
  calc u64 x = u64 (x.toNat : Int) := by rw [hx]
    _ = x.toNat := u64_ofNat _ h2

/-- The bytes of an RG sequence: the type, the length, the factor, the width
of a rank, then the bits followed by the ranks of the super-blocks. -/
theorem bitsequence_rg_bytes (b : BitArray) (p : BitsequenceParams) (hb : AllBytes b.data)
    (hcap : b.len ≤ 8 * b.data.length) (hlen : 200 < b.len) (hl63 : b.len < 2 ^ 63)
    (hf1 : 1 ≤ p.factor) (hf2 : p.factor < 2 ^ 26) :
    ∃ wr body pad, bitwriter_write_bitsequence bitwriter_init b p = .ok wr ∧
      bitwriter_bytes wr = BITSEQUENCE_RG :: (vbyte_bytes 10 b.len ++
        (vbyte_bytes 10 p.factor.toNat ++
          (vbyte_bytes 10 (BITS_NEEDED (bitcount (mm_bit b.data) 0
              (b.len / (32 * p.factor.toNat) * (32 * p.factor.toNat)))) ++ body))) ∧
      AllBytes body ∧
      bytes_bits body = bitarray_bits b ++
        (fields_bits ((List.range (b.len / (32 * p.factor.toNat))).map
            (fun m => bitcount (mm_bit b.data) 0 ((m + 1) * (32 * p.factor.toNat))))
          (BITS_NEEDED (bitcount (mm_bit b.data) 0
              (b.len / (32 * p.factor.toNat) * (32 * p.factor.toNat)))) ++
          List.replicate pad false) := by
  unfold bitwriter_write_bitsequence
  rw [if_neg (by omega)]
  unfold bitwriter_write_bitsequence_rg
  rw [bitsequence_build_spec b hb hcap p.factor hf1 hf2, ok_bind']
  simp only
  generalize hF : p.factor.toNat = F
  generalize hR : (fun m => bitcount (mm_bit b.data) 0 (m * (32 * F))) = R
  have hRm : ∀ m, bitcount (mm_bit b.data) 0 (m * (32 * F)) = R m := fun m => by rw [← hR]
  have hlast : arr_get ((List.range (b.len / (32 * F) + 1)).map R)
      (((List.range (b.len / (32 * F) + 1)).map R).length - 1) = .ok (R (b.len / (32 * F))) := by
    rw [arr_get_eq _ _ (by simp)]
    congr 1
    simp
  rw [hlast, ok_bind']
  simp only [hRm]
  generalize hW : BITS_NEEDED (R (b.len / (32 * F))) = W
  have hW1 : 1 ≤ W := by rw [← hW]; exact (bits_needed_spec _).2
  have hRle : ∀ m, R m ≤ b.len ∨ True := fun _ => Or.inr trivial
  have hRlast : R (b.len / (32 * F)) < 2 ^ 63 := by
    rw [← hRm]
    calc bitcount (mm_bit b.data) 0 (b.len / (32 * F) * (32 * F))
        ≤ b.len / (32 * F) * (32 * F) := bitcount_le _ _ _
      _ ≤ b.len := Nat.div_mul_le_self _ _
      _ < 2 ^ 63 := hl63
  have hW63 : W ≤ 63 := by rw [← hW]; exact bits_needed_le _ 63 (by norm_num) hRlast
  have hrsW : ∀ x ∈ (List.range (b.len / (32 * F) + 1)).map R, x < 2 ^ W := by
    intro x hx
    obtain ⟨m, hm, rfl⟩ := List.mem_map.mp hx
    have hm' : m ≤ b.len / (32 * F) := by
      have := List.mem_range.mp hm; omega
    calc R m ≤ R (b.len / (32 * F)) := by
          rw [← hRm, ← hRm]
          exact bitcount_mono _ _ _ _ (Nat.mul_le_mul_right _ hm')
      _ < 2 ^ W := by rw [← hW]; exact (bits_needed_spec _).1
  obtain ⟨w1, hr1, hok1, hb1⟩ := bitwriter_write_byte_spec bitwriter_init BITSEQUENCE_RG
    wok_init (by decide)
  obtain ⟨w2, hr2, hok2, hb2⟩ := bitwriter_write_vbyte_spec w1 b.len
    (Nat.lt_of_lt_of_le hl63 (Nat.pow_le_pow_right (by norm_num) (by norm_num))) hok1
  have hFlt : F < 2 ^ 26 := by
    have h1 : (p.factor.toNat : Int) = p.factor := Int.toNat_of_nonneg (by omega)
    have : (p.factor.toNat : Int) < 2 ^ 26 := by rw [h1]; exact hf2
    rw [← hF]
    exact_mod_cast this
  have hu : u64 p.factor = F := by
    rw [u64_of_small p.factor (by omega) (by
      calc p.factor < 2 ^ 26 := hf2
        _ < 2 ^ 64 := by norm_num), hF]
  obtain ⟨w3, hr3, hok3, hb3⟩ := bitwriter_write_vbyte_spec w2 F
    (Nat.lt_of_lt_of_le hFlt (Nat.pow_le_pow_right (by norm_num) (by norm_num))) hok2
  obtain ⟨w4, hr4, hok4, hb4⟩ := bitwriter_write_vbyte_spec w3 W
    (Nat.lt_of_le_of_lt hW63 (by norm_num)) hok3
  obtain ⟨w5, hr5, hok5, hb5⟩ := bitwriter_write_bitarray_spec w4 b hok4 hb hcap
  obtain ⟨w6, hr6, hok6, hb6⟩ := write_rs_loop ((List.range (b.len / (32 * F) + 1)).map R) W
    (by omega) hrsW ((List.range (b.len / (32 * F) + 1)).map R).length w5 (le_refl _) hok5
  obtain ⟨w7, hr7, hok7, hal7, hb7⟩ := bitwriter_flush_spec w6 hok6
  obtain ⟨hbytes, hbits⟩ := bitwriter_bytes_spec w7 hok7 hal7
  rw [List.take_length, range_map_drop_one] at hb6
  rw [hb7, hb6, hb5, hb4, hb3, hb2, hb1, bitarray_bits_init] at hbits
  have hhdr : AllBytes (BITSEQUENCE_RG :: (vbyte_bytes 10 b.len ++
      (vbyte_bytes 10 F ++ vbyte_bytes 10 W))) := by
    intro x hx
    rcases List.mem_cons.mp hx with h | h
    · rw [h]; decide
    · rcases List.mem_append.mp h with h | h
      · exact vbyte_bytes_allBytes _ _ x h
      · rcases List.mem_append.mp h with h | h
        · exact vbyte_bytes_allBytes _ _ x h
        · exact vbyte_bytes_allBytes _ _ x h
  obtain ⟨body, hmm, hbody⟩ := bytes_bits_split
    (BITSEQUENCE_RG :: (vbyte_bytes 10 b.len ++ (vbyte_bytes 10 F ++ vbyte_bytes 10 W)))
    (bitwriter_bytes w7)
    (bitarray_bits b ++ (fields_bits ((List.range (b.len / (32 * F))).map (fun m => R (m + 1))) W
      ++ List.replicate ((8 - w6.data.len % 8) % 8) false))
    hbytes hhdr (by
      rw [hbits, bytes_bits_cons, bytes_bits_append, bytes_bits_append]
      simp only [List.nil_append, List.append_assoc])
  refine ⟨w7, body, (8 - w6.data.len % 8) % 8, ?_, ?_, ?_, hbody⟩
  · rw [hr1, ok_bind', hr2, ok_bind', hu, hr3, ok_bind', hr4, ok_bind', hr5, ok_bind', hr6,
      ok_bind']
    exact hr7
  · rw [hmm]
    simp only [List.cons_append, List.append_assoc]
  · intro x hx
    exact hbytes x (by rw [hmm]; simp [hx])


theorem hdr_body_bit (hdr body : List Nat) (q : Nat) (S : List Bool) (hS : bytes_bits body = S)
    (hq : q < S.length) : mm_bit (hdr ++ body) (8 * hdr.length + q) = S[q] := by
  subst hS
  rw [mm_bit_append_right _ _ _ (by omega), bytes_bits_getElem]
  congr 1
  omega

theorem bmod_small (x : Nat) (h : x < 2 ^ 63) :
    Int.bmod (x : Int) 18446744073709551616 = x := by
  unfold Int.bmod
  have h1 : (x : Int) % ((18446744073709551616 : Nat) : Int) = x := by
    apply Int.emod_eq_of_lt
    · omega
    · norm_num at h ⊢; omega
  simp only [h1]
  norm_num at h ⊢
  omega

theorem bsFacts_ones (bs : BitsequenceReader) (f : Nat → Bool) (x : Nat) (h : BsFacts bs f) :
    BsFacts { bs with ones := x } f := h

/-- Opening the bytes of a REGULAR sequence. -/
theorem init_regular (len : Nat) (body : List Nat) (f : Nat → Bool) (hlen : len < 2 ^ 63)
    (hbody : AllBytes body) (hfit : len ≤ 8 * body.length)
    (hbits : ∀ p < len, mm_bit body p = f p) :
    ∃ bs, (reader_initf (BITSEQUENCE_REGULAR :: (vbyte_bytes 10 len ++ body)) 0
        >>= bitsequence_reader_init) = .ok bs ∧
      bs.len = len ∧ bs.type = BITSEQUENCE_REGULAR ∧ bs.ones = bitcount f 0 len ∧
      BsFacts bs f := by
  generalize hmm : BITSEQUENCE_REGULAR :: (vbyte_bytes 10 len ++ body) = mm
  have hmmlen : mm.length = 1 + (vbyte_bytes 10 len).length + body.length := by
    rw [← hmm]; simp; omega
  have hall : AllBytes mm := by
    rw [← hmm]
    intro x hx
    rcases List.mem_cons.mp hx with h | h
    · rw [h]; decide
    · rcases List.mem_append.mp h with h | h
      · exact vbyte_bytes_allBytes _ _ x h
      · exact hbody x h
  have hinit : reader_initf mm 0 = .ok ⟨mm, 0, 0⟩ := by
    unfold reader_initf
    rw [reader_bitpos_spec _ _ (by simp only; omega)]
    rfl
  rw [hinit, ok_bind']
  unfold bitsequence_reader_init
  have h0 : mm[0] = BITSEQUENCE_REGULAR := by
    simp only [← hmm, List.getElem_cons_zero]
  have hrb := reader_readbyte_aligned ⟨mm, 0, 0⟩ 0 rfl (by simp only; omega)
  simp only at hrb
  rw [hrb, ok_bind']
  simp only [h0]
  rw [if_neg (by decide)]
  have hdrop : mm.drop 1 = vbyte_bytes 10 len ++ body := by rw [← hmm]; rfl
  have hvb := reader_vbyte_spec mm 0 1 len body hdrop
    (Nat.lt_of_lt_of_le hlen (Nat.pow_le_pow_right (by norm_num) (by norm_num)))
  rw [show 8 * (0 + 1) = 8 * 1 by norm_num, hvb, ok_bind']
  simp only [if_true, pure, Except.pure, ok_bind']
  generalize hL : (vbyte_bytes 10 len).length = L at *
  have hfacts : BsFacts (⟨⟨mm, 0, 0⟩, BITSEQUENCE_REGULAR, len, 8 * (L + 1), 0, 0, 0, 0, 0⟩ :
      BitsequenceReader) f := by
    refine ⟨hall, rfl, by simp only; omega, by simp only; omega, hlen, ?_, Or.inl rfl⟩
    intro p hp
    simp only
    rw [← hbits p hp, ← hmm]
    have := mm_bit_append_right (BITSEQUENCE_REGULAR :: vbyte_bytes 10 len) body
      (8 * (L + 1) + p) (by simp [hL])
    simp only [List.cons_append] at this
    rw [this]
    congr 1
    simp [hL]
  by_cases hpos : len > 0
  · rw [if_pos hpos]
    have hcast : ((len : Int) - 1) = ((len - 1 : Nat) : Int) := by omega
    rw [hcast, bmod_small _ (by omega), rank1_of_facts _ f hfacts (len - 1) (by simp only; omega),
      ok_bind']
    refine ⟨_, rfl, rfl, rfl, ?_, bsFacts_ones _ f _ hfacts⟩
    simp only
    congr 1
    omega
  · rw [if_neg hpos]
    refine ⟨_, rfl, rfl, rfl, ?_, hfacts⟩
    have : len = 0 := by omega
    simp [this, bitcount_zero]


/-- Opening the bytes of an RG sequence. -/
theorem init_rg (len F W : Nat) (body : List Nat) (f : Nat → Bool) (hlen : len < 2 ^ 63)
    (hF1 : 1 ≤ F) (hF2 : F < 2 ^ 26) (hW1 : 1 ≤ W) (hW2 : W ≤ 63)
    (hbody : AllBytes body) (hfit : len + W * (len / (32 * F)) ≤ 8 * body.length)
    (hbits : ∀ p < len, mm_bit body p = f p)
    (hfields : ∀ m, 1 ≤ m → m ≤ len / (32 * F) →
      bitcount f 0 (m * (32 * F)) < 2 ^ W ∧
      ∀ k < W, mm_bit body (len + W * (m - 1) + k)
        = (bitcount f 0 (m * (32 * F))).testBit (W - 1 - k)) :
    ∃ bs, (reader_initf (BITSEQUENCE_RG :: (vbyte_bytes 10 len ++
          (vbyte_bytes 10 F ++ (vbyte_bytes 10 W ++ body)))) 0
        >>= bitsequence_reader_init) = .ok bs ∧
      bs.len = len ∧ bs.type = BITSEQUENCE_RG ∧ bs.ones = bitcount f 0 len ∧
      BsFacts bs f := by
  generalize hmm : BITSEQUENCE_RG :: (vbyte_bytes 10 len ++
          (vbyte_bytes 10 F ++ (vbyte_bytes 10 W ++ body))) = mm
  generalize hL1 : (vbyte_bytes 10 len).length = L1 at *
  generalize hL2 : (vbyte_bytes 10 F).length = L2 at *
  generalize hL3 : (vbyte_bytes 10 W).length = L3 at *
  have hmmlen : mm.length = 1 + L1 + L2 + L3 + body.length := by
    rw [← hmm]; simp [hL1, hL2, hL3]; omega
  have hall : AllBytes mm := by
    rw [← hmm]
    intro x hx
    rcases List.mem_cons.mp hx with h | h
    · rw [h]; decide
    · rcases List.mem_append.mp h with h | h
      · exact vbyte_bytes_allBytes _ _ x h
      · rcases List.mem_append.mp h with h | h
        · exact vbyte_bytes_allBytes _ _ x h
        · rcases List.mem_append.mp h with h | h
          · exact vbyte_bytes_allBytes _ _ x h
          · exact hbody x h
  have hinit : reader_initf mm 0 = .ok ⟨mm, 0, 0⟩ := by
    unfold reader_initf
    rw [reader_bitpos_spec _ _ (by simp only; omega)]
    rfl
  rw [hinit, ok_bind']
  unfold bitsequence_reader_init
  have h0 : mm[0] = BITSEQUENCE_RG := by
    simp only [← hmm, List.getElem_cons_zero]
  have hrb := reader_readbyte_aligned ⟨mm, 0, 0⟩ 0 rfl (by simp only; omega)
  simp only at hrb
  rw [hrb, ok_bind']
  simp only [h0]
  rw [if_neg (by decide)]
  have hdrop1 : mm.drop 1 = vbyte_bytes 10 len ++ (vbyte_bytes 10 F ++ (vbyte_bytes 10 W ++ body)) := by
    rw [← hmm]; rfl
  have hdrop2 : mm.drop (1 + L1) = vbyte_bytes 10 F ++ (vbyte_bytes 10 W ++ body) := by
    rw [← List.drop_drop, hdrop1, List.drop_left' hL1]
  have hdrop3 : mm.drop (1 + L1 + L2) = vbyte_bytes 10 W ++ body := by
    rw [← List.drop_drop, hdrop2, List.drop_left' hL2]
  have hvb1 := reader_vbyte_spec mm 0 1 len _ hdrop1
    (Nat.lt_of_lt_of_le hlen (Nat.pow_le_pow_right (by norm_num) (by norm_num)))
  have hvb2 := reader_vbyte_spec mm 0 (1 + L1) F _ hdrop2
    (Nat.lt_of_lt_of_le hF2 (Nat.pow_le_pow_right (by norm_num) (by norm_num)))
  have hvb3 := reader_vbyte_spec mm 0 (1 + L1 + L2) W _ hdrop3
    (Nat.lt_of_le_of_lt hW2 (by norm_num))
  rw [hL1] at hvb1
  rw [hL2] at hvb2
  rw [hL3] at hvb3
  rw [show 8 * (0 + 1) = 8 * 1 by norm_num, hvb1, ok_bind']
  simp only [show ¬ (BITSEQUENCE_RG = BITSEQUENCE_REGULAR) by decide, if_false]
  rw [hvb2, ok_bind']
  simp only
  rw [hvb3, ok_bind']
  simp only [BLOCKW]
  rw [if_neg (by unfold INT_MAX; norm_num at hF2; omega)]
  simp only [pure, Except.pure, ok_bind']
  have hoff : L1 + 1 + L2 + L3 = 1 + L1 + L2 + L3 := by omega
  have hmmbit : ∀ q, mm_bit mm (8 * (L1 + 1 + L2 + L3) + q) = mm_bit body q := by
    intro q
    rw [← hmm]
    have := mm_bit_append_right (BITSEQUENCE_RG :: (vbyte_bytes 10 len ++
      (vbyte_bytes 10 F ++ vbyte_bytes 10 W))) body (8 * (L1 + 1 + L2 + L3) + q)
      (by simp [hL1, hL2, hL3]; omega)
    simp only [List.cons_append, List.append_assoc] at this
    rw [this]
    congr 1
    simp [hL1, hL2, hL3]
    omega
  have hfacts : BsFacts (⟨⟨mm, 0, 0⟩, BITSEQUENCE_RG, len, 8 * (L1 + 1 + L2 + L3), F, W, 32 * F,
      8 * (L1 + 1 + L2 + L3) + len, 0⟩ : BitsequenceReader) f := by
    refine ⟨hall, rfl, by simp only; omega, by simp only; omega, hlen, ?_, Or.inr ?_⟩
    · intro p hp
      simp only
      rw [hmmbit, hbits p hp]
    · refine ⟨rfl, hF1, rfl, hW1, hW2, rfl, by simp only; omega, ?_⟩
      intro m hm1 hm2
      obtain ⟨h1, h2⟩ := hfields m hm1 hm2
      refine ⟨h1, ?_⟩
      intro k hk
      simp only
      rw [← h2 k hk, ← hmmbit]
      congr 1
      omega
  by_cases hpos : len > 0
  · rw [if_pos hpos]
    have hcast : ((len : Int) - 1) = ((len - 1 : Nat) : Int) := by omega
    rw [hcast, bmod_small _ (by omega), rank1_of_facts _ f hfacts (len - 1) (by simp only; omega),
      ok_bind']
    refine ⟨_, rfl, rfl, rfl, ?_, bsFacts_ones _ f _ hfacts⟩
    simp only
    congr 1
    omega
  · rw [if_neg hpos]
    refine ⟨_, rfl, rfl, rfl, ?_, hfacts⟩
    have : len = 0 := by omega
    simp [this, bitcount_zero]

end Wire
namespace Wire

theorem bitarray_get_mm_bit (b : BitArray) (j : Nat) (hj : j < b.len)
    (hcap : b.len ≤ 8 * b.data.length) : bitarray_get b j = .ok (mm_bit b.data j) := by
  have hidx : j / 8 < b.data.length := by omega
  rw [bitarray_get_eq b j hj (b.data[j / 8])
    (by rw [List.get?_eq_getElem?, List.getElem?_eq_getElem hidx]), mm_bit_eq_getElem _ _ hidx]

theorem bitarray_rank_eq (b : BitArray) (n : Nat) (hn : n ≤ b.len)
    (hcap : b.len ≤ 8 * b.data.length) : bitarray_rank b n = bitcount (mm_bit b.data) 0 n := by
  unfold bitarray_rank
  apply bitcount_congr
  intro k hk
  rw [Nat.zero_add, bitarray_get_mm_bit b k (by omega) hcap]
  cases mm_bit b.data k <;> rfl

theorem bitarray_bits_getElem (b : BitArray) (p : Nat) (h : p < (bitarray_bits b).length) :
    (bitarray_bits b)[p] = mm_bit b.data p := by
  simp [bitarray_bits]

/-- What `bitsequence_reader_init` holds after `bitwriter_write_bitsequence`. -/
theorem bitsequence_written_facts (b : BitArray) (p : BitsequenceParams) (hb : BitArrayOk b)
    (hf1 : 1 ≤ p.factor) (hf2 : p.factor < 2 ^ 26) :
    ∃ bs, bitsequence_written b p = .ok bs ∧ bs.len = b.len ∧
      bs.type = (if b.len ≤ 200 then BITSEQUENCE_REGULAR else BITSEQUENCE_RG) ∧
      bs.ones = bitcount (mm_bit b.data) 0 b.len ∧ BsFacts bs (mm_bit b.data) := by
  obtain ⟨hbytes, hcap, hl63⟩ := hb
  unfold bitsequence_written
  by_cases hlen : b.len ≤ 200
  · obtain ⟨w, body, hrun, hmm, hbody, hbits⟩ := bitsequence_regular_bytes b p hbytes hcap hlen
    rw [hrun, ok_bind', hmm, if_pos hlen]
    have hblen : 8 * body.length = b.len + (8 - b.len % 8) % 8 := by
      have := congrArg List.length hbits
      rw [bytes_bits_length, List.length_append, bitarray_bits_length, List.length_replicate] at this
      exact this
    obtain ⟨bs, h1, h2, h3, h4, h5⟩ := init_regular b.len body (mm_bit b.data) hl63 hbody
      (by omega) (by
        intro q hq
        have hq1 : q < (bytes_bits body).length := by rw [bytes_bits_length]; omega
        rw [← bytes_bits_getElem body q hq1]
        simp only [hbits]
        rw [List.getElem_append_left (by rw [bitarray_bits_length]; exact hq),
          bitarray_bits_getElem])
    exact ⟨bs, h1, h2, h3, h4, h5⟩
  · obtain ⟨w, body, pad, hrun, hmm, hbody, hbits⟩ :=
      bitsequence_rg_bytes b p hbytes hcap (by omega) hl63 hf1 hf2
    rw [hrun, ok_bind', hmm, if_neg hlen]
    generalize hF : p.factor.toNat = F at *
    have hF1 : 1 ≤ F := by rw [← hF]; omega
    have hF2 : F < 2 ^ 26 := by
      have h1 : (p.factor.toNat : Int) = p.factor := Int.toNat_of_nonneg (by omega)
      have : (p.factor.toNat : Int) < 2 ^ 26 := by rw [h1]; exact hf2
      rw [← hF]
      exact_mod_cast this
    generalize hW : BITS_NEEDED (bitcount (mm_bit b.data) 0 (b.len / (32 * F) * (32 * F))) = W at *
    have hW1 : 1 ≤ W := by rw [← hW]; exact (bits_needed_spec _).2
    have hlast : bitcount (mm_bit b.data) 0 (b.len / (32 * F) * (32 * F)) < 2 ^ 63 := by
      calc bitcount (mm_bit b.data) 0 (b.len / (32 * F) * (32 * F))
          ≤ b.len / (32 * F) * (32 * F) := bitcount_le _ _ _
        _ ≤ b.len := Nat.div_mul_le_self _ _
        _ < 2 ^ 63 := hl63
    have hW63 : W ≤ 63 := by rw [← hW]; exact bits_needed_le _ 63 (by norm_num) hlast
    have hblen : 8 * body.length = b.len + (W * (b.len / (32 * F)) + pad) := by
      have := congrArg List.length hbits
      rw [bytes_bits_length, List.length_append, bitarray_bits_length, List.length_append,
        fields_bits_length, List.length_replicate, List.length_map, List.length_range] at this
      exact this
    obtain ⟨bs, h1, h2, h3, h4, h5⟩ := init_rg b.len F W body (mm_bit b.data) hl63 hF1 hF2 hW1
      hW63 hbody (by omega) (by
        intro q hq
        have hq1 : q < (bytes_bits body).length := by rw [bytes_bits_length]; omega
        rw [← bytes_bits_getElem body q hq1]
        simp only [hbits]
        rw [List.getElem_append_left (by rw [bitarray_bits_length]; exact hq),
          bitarray_bits_getElem]) (by
        intro m hm1 hm2
        have hmono : bitcount (mm_bit b.data) 0 (m * (32 * F)) < 2 ^ W := by
          calc bitcount (mm_bit b.data) 0 (m * (32 * F))
              ≤ bitcount (mm_bit b.data) 0 (b.len / (32 * F) * (32 * F)) :=
                bitcount_mono _ _ _ _ (Nat.mul_le_mul_right _ hm2)
            _ < 2 ^ W := by rw [← hW]; exact (bits_needed_spec _).1
        refine ⟨hmono, ?_⟩
        intro k hk
        have hWm : W * (m - 1) + k < W * (b.len / (32 * F)) := by
          calc W * (m - 1) + k < W * (m - 1) + W := by omega
            _ = W * m := by rw [← Nat.mul_succ]; congr 1; omega
            _ ≤ W * (b.len / (32 * F)) := Nat.mul_le_mul_left _ hm2
        have hq1 : b.len + W * (m - 1) + k < (bytes_bits body).length := by
          rw [bytes_bits_length]; omega
        rw [← bytes_bits_getElem body _ hq1]
        simp only [hbits]
        rw [List.getElem_append_right (by rw [bitarray_bits_length]; omega)]
        simp only [bitarray_bits_length]
        rw [List.getElem_append_left (by
          rw [fields_bits_length, List.length_map, List.length_range]; omega)]
        have e : b.len + W * (m - 1) + k - b.len = W * (m - 1) + k := by omega
        simp only [e]
        rw [fields_bits_getElem _ W (m - 1) k (by simp; omega) hk]
        simp only [List.getElem_map, List.getElem_range]
        have e2 : m - 1 + 1 = m := by omega
        rw [e2])
    exact ⟨bs, h1, h2, h3, h4, h5⟩


theorem rank0_of_rank1 (bs : BitsequenceReader) (i r : Nat) (hi : i < 2 ^ 63) (hr : r ≤ i + 1)
    (h : bitsequence_reader_rank1 bs (i : Int) = .ok r) :
    bitsequence_reader_rank0 bs (i : Int) = .ok (i + 1 - r) := by
  unfold bitsequence_reader_rank0
  have h0 : ¬ ((i : Int) < 0) := by omega
  simp only [h0, if_false, h, bind, Except.bind, pure, Except.pure]
  congr 1
  have e : (i : Int) + 1 - (r : Int) = ((i + 1 - r : Nat) : Int) := by omega
  rw [e, u64_ofNat]
  have : (2 : Nat) ^ 63 < 2 ^ 64 := by norm_num
  omega

/-- C19, amended (`bitsequence_reader_rank1`, `bitsequence_reader_rank0`): a
bit array `b` written by `bitwriter_write_bitsequence` with a factor from 1 to
`2^26 - 1`, the factors for which the `int` product `BLOCKW * factor` is
defined, and opened by `bitsequence_reader_init` is REGULAR for `len ≤ 200`
and RG otherwise; in both encodings `rank1(i)` is the number of 1 bits among
`b[0..i]` for every `i < len`, `rank0(i) + rank1(i) = i + 1`, the stored
`ones` is the number of 1 bits of `b`, and `rank1(len - 1)` returns it. -/
theorem bitsequence_written_rank1 (b : BitArray) (p : BitsequenceParams) (hb : BitArrayOk b)
    (hf1 : 1 ≤ p.factor) (hf2 : p.factor < 2 ^ 26) :
    ∃ bs, bitsequence_written b p = .ok bs ∧
      bs.type = (if b.len ≤ 200 then BITSEQUENCE_REGULAR else BITSEQUENCE_RG) ∧
      bs.ones = bitarray_rank b b.len ∧
      (∀ i, i < b.len →
        bitsequence_reader_rank1 bs (i : Int) = .ok (bitarray_rank b (i + 1)) ∧
        ∃ r0, bitsequence_reader_rank0 bs (i : Int) = .ok r0 ∧
          r0 + bitarray_rank b (i + 1) = i + 1) ∧
      (0 < b.len → bitsequence_reader_rank1 bs ((b.len : Int) - 1) = .ok bs.ones) := by
  obtain ⟨bs, h1, h2, h3, h4, h5⟩ := bitsequence_written_facts b p hb hf1 hf2
  obtain ⟨_, hcap, hl63⟩ := hb
  have hr : ∀ i, i < b.len →
      bitsequence_reader_rank1 bs (i : Int) = .ok (bitarray_rank b (i + 1)) := by
    intro i hi
    rw [rank1_of_facts bs _ h5 i (by omega), bitarray_rank_eq b (i + 1) (by omega) hcap]
  refine ⟨bs, h1, h3, ?_, ?_, ?_⟩
  · rw [h4, bitarray_rank_eq b b.len (Nat.le_refl _) hcap]
  · intro i hi
    have hle : bitarray_rank b (i + 1) ≤ i + 1 := bitcount_le _ _ _
    exact ⟨hr i hi, _, rank0_of_rank1 bs i _ (by omega) hle (hr i hi), by omega⟩
  · intro hpos
    have e : (b.len : Int) - 1 = ((b.len - 1 : Nat) : Int) := by omega
    have e2 : b.len - 1 + 1 = b.len := by omega
    rw [e, hr (b.len - 1) (by omega), h4, e2, bitarray_rank_eq b b.len (Nat.le_refl _) hcap]

/-- The theorem at a sequence of 12 bits with bits 3 and 8 set. -/
theorem bitsequence_written_rank1_witness :
    ∃ bs, bitsequence_written ⟨12, [16, 128]⟩ ⟨8⟩ = .ok bs ∧
      bs.type = (if (12 : Nat) ≤ 200 then BITSEQUENCE_REGULAR else BITSEQUENCE_RG) ∧
      bs.ones = bitarray_rank ⟨12, [16, 128]⟩ 12 ∧
      (∀ i : Nat, i < 12 →
        bitsequence_reader_rank1 bs (i : Int) = .ok (bitarray_rank ⟨12, [16, 128]⟩ (i + 1)) ∧
        ∃ r0, bitsequence_reader_rank0 bs (i : Int) = .ok r0 ∧
          r0 + bitarray_rank ⟨12, [16, 128]⟩ (i + 1) = i + 1) ∧
      (0 < 12 → bitsequence_reader_rank1 bs (((12 : Nat) : Int) - 1) = .ok bs.ones) :=
  bitsequence_written_rank1 ⟨12, [16, 128]⟩ ⟨8⟩
    ⟨by intro x hx; simp at hx; omega, by decide, by norm_num⟩ (by decide) (by decide)

/-- C19, as stated, fails for a factor of `2^26`: a bit array of 208 bits is
written in the RG encoding, `bitsequence_build` computes `BLOCKW * factor` in
an `int`, and the product `2^31` is outside the type, so no bit sequence is
written whose ranks could be asked for. -/
theorem bitsequence_written_rank1_factor_counterexample :
    1 ≤ (⟨67108864⟩ : BitsequenceParams).factor ∧
    bitsequence_written ⟨208, List.replicate 26 255⟩ ⟨67108864⟩ = .error .undefined := by
  decide

end Wire
/-! ### select1 on the bytes of a written bit sequence -/

namespace Wire

theorem le_val_append (l : List Nat) (x : Nat) :
    le_val (l ++ [x]) = 2 ^ (8 * l.length) * x + le_val l := by
  unfold le_val
  rw [List.enum_append]
  simp only [List.map_append, List.sum_append, List.enumFrom_singleton, List.map_cons,
    List.map_nil, List.sum_cons, List.sum_nil, Nat.add_zero, List.enum_length]
  rw [show (256 : Nat) ^ l.length = 2 ^ (8 * l.length) by
    rw [show (256 : Nat) = 2 ^ 8 by norm_num, ← Nat.pow_mul]]
  rw [Nat.mul_comm x, Nat.add_comm]

theorem le_val_spec (data : List Nat) (hb : AllBytes data) :
    le_val data < 2 ^ (8 * data.length) ∧
      ∀ j, (le_val data).testBit j = (data.getD (j / 8) 0).testBit (j % 8) := by
  induction data using List.reverseRecOn with
  | nil => simp [le_val]
  | append_singleton l x ih =>
    have hbl : AllBytes l := fun y hy => hb y (List.mem_append_left _ hy)
    have hx : x < 2 ^ 8 := hb x (by simp)
    obtain ⟨ih1, ih2⟩ := ih hbl
    rw [le_val_append]
    constructor
    · rw [List.length_append, List.length_singleton, Nat.mul_add, Nat.pow_add]
      calc 2 ^ (8 * l.length) * x + _ < 2 ^ (8 * l.length) * x + 2 ^ (8 * l.length) :=
            Nat.add_lt_add_left ih1 _
        _ = 2 ^ (8 * l.length) * (x + 1) := by ring
        _ ≤ 2 ^ (8 * l.length) * 2 ^ (8 * 1) := Nat.mul_le_mul_left _ (by omega)
    · intro j
      rw [Nat.testBit_mul_pow_two_add _ ih1]
      by_cases hj : j < 8 * l.length
      · rw [if_pos hj, ih2 j, List.getD_eq_getElem?_getD, List.getD_eq_getElem?_getD,
          List.getElem?_append_left (by omega)]
      · rw [if_neg hj]
        by_cases hj2 : j / 8 = l.length
        · rw [List.getD_eq_getElem?_getD, hj2, List.getElem?_append_right (Nat.le_refl _)]
          simp only [Nat.sub_self, List.getElem?_cons_zero, Option.getD_some]
          congr 1
          omega
        · rw [List.getD_eq_getElem?_getD, List.getElem?_eq_none (by simp; omega)]
          simp only [Option.getD_none, Nat.zero_testBit]
          exact testBit_false_of_lt hx (by omega)

set_option maxRecDepth 100000 in
theorem byte_reverse_spec : ∀ d < 256, byte_reverse d < 256 ∧
    ∀ t < 8, (byte_reverse d).testBit t = d.testBit (7 - t) := by
  decide

set_option maxRecDepth 100000 in
theorem bitcount_byte_mirror : ∀ d < 256,
    bitcount (fun t => d.testBit t) 0 8 = bitcount (fun t => d.testBit (7 - t)) 0 8 := by
  decide

theorem bitcount_chunks (f g : Nat → Bool)
    (h : ∀ k < 4, bitcount f (8 * k) 8 = bitcount g (8 * k) 8) :
    bitcount f 0 32 = bitcount g 0 32 := by
  have e : (32 : Nat) = 8 + 8 + 8 + 8 := rfl
  rw [e, bitcount_add, bitcount_add, bitcount_add, bitcount_add, bitcount_add, bitcount_add]
  have h0 : bitcount f 0 8 = bitcount g 0 8 := h 0 (by omega)
  have h1 : bitcount f (0 + 8) 8 = bitcount g (0 + 8) 8 := h 1 (by omega)
  have h2 : bitcount f (0 + (8 + 8)) 8 = bitcount g (0 + (8 + 8)) 8 := h 2 (by omega)
  have h3 : bitcount f (0 + (8 + 8 + 8)) 8 = bitcount g (0 + (8 + 8 + 8)) 8 := h 3 (by omega)
  omega

theorem getD_lt_256 (data : List Nat) (hb : AllBytes data) (k : Nat) : data.getD k 0 < 256 := by
  rw [List.getD_eq_getElem?_getD]
  by_cases h : k < data.length
  · rw [List.getElem?_eq_getElem h, Option.getD_some]
    exact hb _ (List.getElem_mem h)
  · rw [List.getElem?_eq_none (by omega)]
    simp

theorem le_val_byte (data : List Nat) (hb : AllBytes data) (k : Nat) :
    (le_val data >>> (8 * k)) % 256 = data.getD k 0 := by
  apply eq_of_bits _ 8 _ (Nat.mod_lt _ (by norm_num)) (getD_lt_256 data hb k)
  intro t ht
  rw [Nat.testBit_mod_two_pow, Nat.testBit_shiftRight, (le_val_spec data hb).2]
  have e1 : (8 * k + t) / 8 = k := by omega
  have e2 : (8 * k + t) % 8 = t := by omega
  simp [ht, e1, e2]

theorem block_reverse_eq (v : Nat) :
    block_reverse v = le_val ((List.range 4).map (fun k => byte_reverse ((v >>> (8 * k)) % 256))) := by
  simp [block_reverse, le_val, List.range_succ, List.enum, List.enumFrom]

theorem block_reverse_spec (data : List Nat) (hb : AllBytes data) :
    block_reverse (le_val data) < 2 ^ 32 ∧
      ∀ m, m < 32 → (block_reverse (le_val data)).testBit m = mm_bit data m := by
  rw [block_reverse_eq]
  have hL : AllBytes ((List.range 4).map
      (fun k => byte_reverse ((le_val data >>> (8 * k)) % 256))) := by
    intro x hx
    obtain ⟨k, _, rfl⟩ := List.mem_map.mp hx
    exact (byte_reverse_spec _ (Nat.mod_lt _ (by norm_num))).1
  obtain ⟨h1, h2⟩ := le_val_spec _ hL
  refine ⟨by simpa using h1, ?_⟩
  intro m hm
  rw [h2 m, List.getD_eq_getElem?_getD, List.getElem?_eq_getElem (by simp; omega)]
  simp only [List.getElem_map, List.getElem_range, Option.getD_some]
  rw [le_val_byte data hb, (byte_reverse_spec _ (getD_lt_256 data hb _)).2 _ (Nat.mod_lt _ (by norm_num))]
  rfl

theorem popcnt32_le_val (data : List Nat) (hb : AllBytes data) (hlen : data.length ≤ 4) :
    POPCNT32 (le_val data) = bitcount (mm_bit data) 0 32 := by
  obtain ⟨h1, h2⟩ := le_val_spec data hb
  have hlt : le_val data < 4294967296 :=
    Nat.lt_of_lt_of_le h1 (by
      rw [show (4294967296 : Nat) = 2 ^ 32 by norm_num]
      exact Nat.pow_le_pow_right (by norm_num) (by omega))
  have e : POPCNT32 (le_val data) = bitcount (fun j => (le_val data).testBit j) 0 32 := by
    simp only [POPCNT32, bitcount, Nat.zero_add, Nat.mod_eq_of_lt hlt]
  rw [e]
  apply bitcount_chunks
  intro k _
  have ea : bitcount (fun j => (le_val data).testBit j) (8 * k) 8
      = bitcount (fun t => (data.getD k 0).testBit t) 0 8 := by
    apply bitcount_congr
    intro t ht
    have e1 : (8 * k + t) / 8 = k := by omega
    have e2 : (8 * k + t) % 8 = t := by omega
    simp only [h2, e1, e2, Nat.zero_add]
  have eb : bitcount (mm_bit data) (8 * k) 8
      = bitcount (fun t => (data.getD k 0).testBit (7 - t)) 0 8 := by
    apply bitcount_congr
    intro t ht
    have e1 : (8 * k + t) / 8 = k := by omega
    have e2 : (8 * k + t) % 8 = t := by omega
    simp only [mm_bit, e1, e2, Nat.zero_add]
  rw [ea, eb]
  exact bitcount_byte_mirror _ (getD_lt_256 data hb k)

/-- The block that `block_get` reads, seen through `block_reverse`: bit `m` of
the mirrored block is bit `32 * pos + m` of the sequence, and `POPCNT32` counts
the bits of the block. -/
theorem block_get_spec (bs : BitsequenceReader) (f : Nat → Bool) (hf : BsFacts bs f)
    (pos : Nat) (hpos : 32 * pos < bs.len) :
    ∃ j, block_get bs pos = .ok j ∧ block_reverse j < 2 ^ 32 ∧
      POPCNT32 j = bitcount (fun m => (block_reverse j).testBit m) 0 32 ∧
      ∀ m, m < 32 → 32 * pos + m < bs.len → (block_reverse j).testBit m = f (32 * pos + m) := by
  obtain ⟨hb, hbo, hoff, hfit, _, hbits, _⟩ := hf
  have key : ∀ n, n ≤ 4 → bs.off / 8 + 4 * pos + n ≤ bs.r.mm.length →
      min 32 (bs.len - 32 * pos) ≤ 8 * n →
      ∃ j, j = le_val ((bs.r.mm.drop (bs.off / 8 + 4 * pos)).take n) ∧ block_reverse j < 2 ^ 32 ∧
        POPCNT32 j = bitcount (fun m => (block_reverse j).testBit m) 0 32 ∧
        ∀ m, m < 32 → 32 * pos + m < bs.len →
          (block_reverse j).testBit m = f (32 * pos + m) := by
    intro n hn hcap hcover
    have hd : AllBytes ((bs.r.mm.drop (bs.off / 8 + 4 * pos)).take n) :=
      fun x hx => hb x (List.mem_of_mem_drop (List.mem_of_mem_take hx))
    have hdl : ((bs.r.mm.drop (bs.off / 8 + 4 * pos)).take n).length ≤ 4 := by
      rw [List.length_take]; omega
    obtain ⟨h1, h2⟩ := block_reverse_spec _ hd
    refine ⟨_, rfl, h1, ?_, ?_⟩
    · rw [popcnt32_le_val _ hd hdl]
      apply bitcount_congr
      intro k hk
      rw [Nat.zero_add, h2 k hk]
    · intro m hm hlt
      rw [h2 m hm, mm_bit_drop_take _ _ _ _ (by omega), ← hbits _ hlt]
      congr 1
      omega
  have hB : BLOCKW = 32 := rfl
  unfold block_get
  rw [hB]
  have hp : bs.off + pos * 32 + bs.r.bitoff < 8 * bs.r.mm.length := by omega
  rw [reader_bitpos_spec _ _ hp]
  have hform : ({ bs.r with bitpos := bs.off + pos * 32 + bs.r.bitoff } : Reader)
      = ⟨bs.r.mm, bs.r.bitoff, 8 * (bs.off / 8 + 4 * pos)⟩ := by
    show Reader.mk _ _ _ = Reader.mk _ _ _
    congr 1
    omega
  by_cases hfull : pos * 32 + 32 ≤ bs.len
  · have hcap : bs.off / 8 + 4 * pos + 32 / 8 ≤ bs.r.mm.length := by omega
    obtain ⟨j, hj, h1, h2, h3⟩ := key 4 (by omega) (by omega) (by omega)
    refine ⟨j, ?_, h1, h2, h3⟩
    simp only [bind, Except.bind, hform, if_pos hfull, reader_read_spec _ _ _ _ hcap, pure,
      Except.pure, hj]
  · have hbl : BYTE_LEN (bs.len - pos * 32) = (bs.len - pos * 32 + 7) / 8 := by
      simp [BYTE_LEN, DIVUP]
    have hcap : bs.off / 8 + 4 * pos + BYTE_LEN (bs.len - pos * 32) ≤ bs.r.mm.length := by omega
    obtain ⟨j, hj, h1, h2, h3⟩ := key (BYTE_LEN (bs.len - pos * 32)) (by omega) hcap (by omega)
    refine ⟨j, ?_, h1, h2, h3⟩
    have hgt : ¬ (pos * 32 > bs.len) := by omega
    simp only [bind, Except.bind, hform, if_neg hfull, if_neg hgt, reader_read_spec _ _ _ _ hcap,
      pure, Except.pure, hj]

/-- The position of the set bit number `n` among the first `N` positions. -/
theorem nth_true (g : Nat → Bool) (N : Nat) :
    ∀ n, n < bitcount g 0 N →
      ∃ k, ((List.range N).filter g).get? n = some k ∧ k < N ∧ g k = true ∧
        bitcount g 0 k = n := by
  induction N with
  | zero => intro n hn; simp [bitcount_zero] at hn
  | succ N ih =>
    intro n hn
    have hlen : ((List.range N).filter g).length = bitcount g 0 N := by
      simp [bitcount]
    rw [bitcount_succ, Nat.zero_add] at hn
    rw [List.range_succ, List.filter_append]
    by_cases hlt : n < bitcount g 0 N
    · obtain ⟨k, h1, h2, h3, h4⟩ := ih n hlt
      refine ⟨k, ?_, by omega, h3, h4⟩
      rw [List.get?_eq_getElem?, List.getElem?_append_left (by omega), ← List.get?_eq_getElem?]
      exact h1
    · have hg : g N = true := by
        by_contra hc
        simp only [hc] at hn
        simp at hn
        omega
      simp only [hg, if_true] at hn
      have hn2 : n = bitcount g 0 N := by omega
      refine ⟨N, ?_, by omega, hg, hn2.symm⟩
      rw [List.get?_eq_getElem?, List.getElem?_append_right (by omega), hlen, hn2]
      simp [hg]

theorem select_bit_spec (v n : Nat) (hv : v < 2 ^ 32)
    (hn : n < bitcount (fun m => v.testBit m) 0 32) :
    select_bit v n < 32 ∧ v.testBit (select_bit v n) = true ∧
      bitcount (fun m => v.testBit m) 0 (select_bit v n) = n := by
  obtain ⟨k, h1, h2, h3, h4⟩ := nth_true (fun m => v.testBit m) 32 n hn
  have e : select_bit v n = k := by
    unfold select_bit
    rw [Nat.mod_eq_of_lt (by norm_num at hv ⊢; exact hv), h1]
  rw [e]
  exact ⟨h2, h3, h4⟩

/-- The loop of `select1_blocks` started at block `pos` with a number `i` of 1
bits that the sequence holds from that block on: it ends at the 1 bit number
`i` after the start of the block. -/
theorem select1_blocks_loop_spec (bs : BitsequenceReader) (f : Nat → Bool) (hf : BsFacts bs f) :
    ∀ fuel i pos, 1 ≤ i → i ≤ bitcount f (32 * pos) (bs.len - 32 * pos) →
      DIVUP bs.len BLOCKW ≤ fuel + pos →
      ∃ p, select1_blocks_loop bs (DIVUP bs.len BLOCKW) fuel i pos = .ok p ∧ p < bs.len ∧
        f p = true ∧ bitcount f 0 p = bitcount f 0 (32 * pos) + (i - 1) := by
  have hnb : DIVUP bs.len BLOCKW = (bs.len + 31) / 32 := by simp [DIVUP, BLOCKW]
  intro fuel
  induction fuel with
  | zero =>
    intro i pos hi1 hi2 hfuel
    have := bitcount_le f (32 * pos) (bs.len - 32 * pos)
    omega
  | succ fuel ih =>
    intro i pos hi1 hi2 hfuel
    have hle := bitcount_le f (32 * pos) (bs.len - 32 * pos)
    have hpos : 32 * pos < bs.len := by omega
    obtain ⟨j, hj, hj32, hpop, hbits⟩ := block_get_spec bs f hf pos hpos
    have hcong : ∀ c, c ≤ 32 → 32 * pos + c ≤ bs.len →
        bitcount (fun m => (block_reverse j).testBit m) 0 c = bitcount f (32 * pos) c := by
      intro c hc1 hc2
      apply bitcount_congr
      intro k hk
      rw [Nat.zero_add]
      exact hbits k (by omega) (by omega)
    simp only [select1_blocks_loop, hj, bind, Except.bind]
    by_cases hfound : POPCNT32 j ≥ i
    · rw [if_pos hfound]
      obtain ⟨hk1, hk2, hk3⟩ := select_bit_spec (block_reverse j) (i - 1) hj32 (by omega)
      generalize select_bit (block_reverse j) (i - 1) = k at hk1 hk2 hk3
      have hkc : 32 * pos + k < bs.len := by
        by_contra hc
        have h1 := hcong (bs.len - 32 * pos) (by omega) (by omega)
        have h2 := bitcount_mono (fun m => (block_reverse j).testBit m) 0 (bs.len - 32 * pos) k
          (by omega)
        omega
      refine ⟨_, rfl, ?_, ?_, ?_⟩
      · show 32 * pos + k < bs.len
        exact hkc
      · show f (32 * pos + k) = true
        rw [← hbits k hk1 hkc]
        exact hk2
      · show bitcount f 0 (32 * pos + k) = _
        rw [bitcount_add, Nat.zero_add, ← hcong k (by omega) (by omega), hk3]
    · rw [if_neg hfound]
      have hfullb : 32 * pos + 32 ≤ bs.len := by
        by_contra hc
        have h1 := hcong (bs.len - 32 * pos) (by omega) (by omega)
        have h2 := bitcount_mono (fun m => (block_reverse j).testBit m) 0 (bs.len - 32 * pos) 32
          (by omega)
        omega
      have h32 := hcong 32 (by omega) hfullb
      have hsplit : bitcount f (32 * pos) (bs.len - 32 * pos)
          = bitcount f (32 * pos) 32 + bitcount f (32 * (pos + 1)) (bs.len - 32 * (pos + 1)) := by
        have e : bs.len - 32 * pos = 32 + (bs.len - 32 * (pos + 1)) := by omega
        rw [e, bitcount_add]
        have e2 : 32 * pos + 32 = 32 * (pos + 1) := by ring
        rw [e2]
      have hle2 := bitcount_le f (32 * (pos + 1)) (bs.len - 32 * (pos + 1))
      have hnext : ¬ (pos + 1 > DIVUP bs.len BLOCKW) := by omega
      rw [if_neg hnext]
      obtain ⟨p, hp1, hp2, hp3, hp4⟩ := ih (i - POPCNT32 j) (pos + 1) (by omega) (by omega)
        (by omega)
      refine ⟨p, hp1, hp2, hp3, ?_⟩
      rw [hp4]
      have e4 : bitcount f 0 (32 * (pos + 1)) = bitcount f 0 (32 * pos) + bitcount f (32 * pos) 32 := by
        rw [show 32 * (pos + 1) = 32 * pos + 32 by ring, bitcount_add, Nat.zero_add]
      omega

theorem select1_blocks_spec (bs : BitsequenceReader) (f : Nat → Bool) (hf : BsFacts bs f)
    (i pos : Nat) (hi1 : 1 ≤ i) (hi2 : i ≤ bitcount f (32 * pos) (bs.len - 32 * pos)) :
    ∃ p, select1_blocks bs i pos = .ok p ∧ p < bs.len ∧
      f p = true ∧ bitcount f 0 p = bitcount f 0 (32 * pos) + (i - 1) := by
  unfold select1_blocks
  exact select1_blocks_loop_spec bs f hf _ i pos hi1 hi2 (by omega)

/-- The binary search of `select1_rg` ends at a super-block whose rank is
below `i`. -/
theorem select1_rg_loop_spec (bs : BitsequenceReader) (f : Nat → Bool) (hf : BsFacts bs f)
    (hrg : RgFacts bs f) (i : Nat) (hi1 : 1 ≤ i) :
    ∀ fuel lv rv mid, rv ≤ bs.len / bs.s → lv ≤ rv + 1 → mid = (lv + rv) / 2 →
      (lv = 0 ∨ bitcount f 0 ((lv - 1) * bs.s) < i) → rv + 2 ≤ fuel + lv →
      ∃ m, select1_rg_loop bs i fuel lv rv mid (bitcount f 0 (mid * bs.s))
          = .ok (m, bitcount f 0 (m * bs.s)) ∧
        m ≤ bs.len / bs.s ∧ bitcount f 0 (m * bs.s) < i := by
  have hl63 : bs.len < 2 ^ 63 := hf.2.2.2.2.1
  have hR : bs.len / bs.s ≤ bs.len := Nat.div_le_self _ _
  intro fuel
  induction fuel with
  | zero => intro lv rv mid h1 h2 h3 h4 h5; omega
  | succ fuel ih =>
    intro lv rv mid h1 h2 h3 h4 h5
    by_cases hloop : lv ≤ rv
    · simp only [select1_rg_loop, if_pos hloop]
      by_cases hlt : bitcount f 0 (mid * bs.s) < i
      · simp only [if_pos hlt]
        have hsum : (mid + 1 + rv) % 18446744073709551616 = mid + 1 + rv := by
          apply Nat.mod_eq_of_lt
          norm_num at hl63 ⊢
          omega
        rw [hsum, rs_value_spec bs f hf hrg _ (by omega)]
        simp only [bind, Except.bind]
        exact ih (mid + 1) rv _ h1 (by omega) rfl (Or.inr (by simpa using hlt)) (by omega)
      · simp only [if_neg hlt]
        have hmid : mid ≠ 0 := by
          intro h0
          rw [h0, Nat.zero_mul, bitcount_zero] at hlt
          omega
        have hu : u64 ((mid : Int) - 1) = mid - 1 := by
          have e : (mid : Int) - 1 = ((mid - 1 : Nat) : Int) := by omega
          rw [e, u64_ofNat]
          have : (2 : Nat) ^ 63 < 2 ^ 64 := by norm_num
          omega
        have hsum : (lv + (mid - 1)) % 18446744073709551616 = lv + (mid - 1) := by
          apply Nat.mod_eq_of_lt
          norm_num at hl63 ⊢
          omega
        rw [hu, hsum, rs_value_spec bs f hf hrg _ (by omega)]
        simp only [bind, Except.bind]
        exact ih lv (mid - 1) _ (by omega) (by omega) rfl h4 (by omega)
    · simp only [select1_rg_loop, if_neg hloop, pure, Except.pure]
      have hm : mid = lv - 1 := by omega
      refine ⟨mid, rfl, by omega, ?_⟩
      rcases h4 with h0 | h4
      · omega
      · rw [hm]; exact h4

theorem select1_rg_spec (bs : BitsequenceReader) (f : Nat → Bool) (hf : BsFacts bs f)
    (hrg : RgFacts bs f) (i : Nat) (hi1 : 1 ≤ i) (hi2 : i ≤ bitcount f 0 bs.len) :
    ∃ p, select1_rg bs i = .ok p ∧ p < bs.len ∧ f p = true ∧ bitcount f 0 p = i - 1 := by
  have hs : bs.s ≠ 0 := by have := hrg.2.1; have := hrg.2.2.1; omega
  unfold select1_rg
  rw [if_neg hs]
  simp only [Nat.zero_add]
  rw [rs_value_spec bs f hf hrg _ (Nat.div_le_self _ _)]
  obtain ⟨m, hm1, hm2, hm3⟩ := select1_rg_loop_spec bs f hf hrg i hi1 (bs.len / bs.s + 2) 0
    (bs.len / bs.s) (bs.len / bs.s / 2) (Nat.le_refl _) (Nat.zero_le _) (by rw [Nat.zero_add])
    (Or.inl rfl) (Nat.le_refl _)
  simp only [bind, Except.bind, hm1]
  have hms : 32 * (m * bs.factor) = m * bs.s := by rw [hrg.2.2.1]; ring
  have hle : m * bs.s ≤ bs.len := by
    calc m * bs.s ≤ bs.len / bs.s * bs.s := Nat.mul_le_mul_right _ hm2
      _ ≤ bs.len := Nat.div_mul_le_self _ _
  have hsplit : bitcount f 0 bs.len
      = bitcount f 0 (m * bs.s) + bitcount f (m * bs.s) (bs.len - m * bs.s) := by
    have e : bs.len = m * bs.s + (bs.len - m * bs.s) := by omega
    conv_lhs => rw [e, bitcount_add, Nat.zero_add]
  obtain ⟨p, hp1, hp2, hp3, hp4⟩ := select1_blocks_spec bs f hf (i - bitcount f 0 (m * bs.s))
    (m * bs.factor) (by omega) (by rw [hms]; omega)
  refine ⟨p, hp1, hp2, hp3, ?_⟩
  rw [hp4, hms]
  omega

/-- The function `bitsequence_reader_select1` at an `i` between 1 and the
number of 1 bits: the position of the 1 bit number `i`. -/
theorem select1_of_facts (bs : BitsequenceReader) (f : Nat → Bool) (hf : BsFacts bs f)
    (hones : bs.ones = bitcount f 0 bs.len) (i : Nat) (hi1 : 1 ≤ i) (hi2 : i ≤ bs.ones) :
    ∃ p : Nat, bitsequence_reader_select1 bs i = .ok (p : Int) ∧ p < bs.len ∧ f p = true ∧
      bitcount f 0 p = i - 1 := by
  have hl63 : bs.len < 2 ^ 63 := hf.2.2.2.2.1
  unfold bitsequence_reader_select1
  rw [if_neg (by omega)]
  rcases hf.2.2.2.2.2.2 with hreg | hrg
  · rw [if_pos hreg]
    obtain ⟨p, hp1, hp2, hp3, hp4⟩ := select1_blocks_spec bs f hf i 0 hi1
      (by rw [Nat.mul_zero, Nat.sub_zero, ← hones]; exact hi2)
    refine ⟨p, ?_, hp2, hp3, ?_⟩
    · simp only [bind, Except.bind, hp1, pure, Except.pure]
      rw [bmod_small p (by omega)]
    · rw [hp4, Nat.mul_zero, bitcount_zero, Nat.zero_add]
  · have htype : ¬ (bs.type = BITSEQUENCE_REGULAR) := by rw [hrg.1]; decide
    rw [if_neg htype, if_pos hrg.1]
    obtain ⟨p, hp1, hp2, hp3, hp4⟩ := select1_rg_spec bs f hf hrg i hi1 (by rw [← hones]; exact hi2)
    refine ⟨p, ?_, hp2, hp3, hp4⟩
    simp only [bind, Except.bind, hp1, pure, Except.pure]
    rw [bmod_small p (by omega)]

theorem select1_none (bs : BitsequenceReader) (i : Nat) (h : i = 0 ∨ i > bs.ones) :
    bitsequence_reader_select1 bs i = .ok (-1) := by
  unfold bitsequence_reader_select1
  rw [if_pos h]
  rfl

theorem bitcount_inj (f : Nat → Bool) (p q : Nat) (hp : f p = true) (hq : f q = true)
    (h : bitcount f 0 p = bitcount f 0 q) : p = q := by
  have key : ∀ x y, x < y → f x = true → bitcount f 0 x < bitcount f 0 y := by
    intro x y hxy hx
    have h1 := bitcount_mono f 0 (x + 1) y (by omega)
    rw [bitcount_succ, Nat.zero_add, hx] at h1
    simp only [if_true] at h1
    omega
  rcases Nat.lt_trichotomy p q with hlt | heq | hgt
  · have := key p q hlt hp; omega
  · exact heq
  · have := key q p hgt hq; omega

theorem bitcount_eq_zero (f : Nat → Bool) (a n : Nat) (h : ∀ k < n, f (a + k) = false) :
    bitcount f a n = 0 := by
  induction n with
  | zero => exact bitcount_zero f a
  | succ n ih =>
    rw [bitcount_succ, ih (fun k hk => h k (by omega)), h n (by omega)]
    simp

theorem access_of_facts (bs : BitsequenceReader) (f : Nat → Bool) (hf : BsFacts bs f)
    (i : Nat) (hi : i < bs.len) : bitsequence_reader_access bs i = .ok (f i) := by
  obtain ⟨hb, hbo, hoff, hfit, _, hbits, _⟩ := hf
  unfold bitsequence_reader_access
  rw [if_neg (by omega), reader_bitpos_spec _ _ (by omega)]
  have hidx : (bs.off + i + bs.r.bitoff) / 8 < bs.r.mm.length := by omega
  have hrem : ¬ (bs.off + i + bs.r.bitoff + 1 > 8 * bs.r.mm.length) := by omega
  simp only [bind, Except.bind, reader_readbit, check_remaining, reader_bitlen, hrem, if_false,
    arr_get_eq _ _ hidx, pure, Except.pure]
  congr 1
  rw [bit_eq_testBit, ← hbits i hi, mm_bit_eq_getElem _ _ (by omega)]
  simp only [hbo, Nat.add_zero]
  congr 1
  omega

/-- The function `bitsequence_reader_selectprev1` at a position that holds or
follows a 1 bit: the last 1 bit up to the position. -/
theorem selectprev1_of_facts (bs : BitsequenceReader) (f : Nat → Bool) (hf : BsFacts bs f)
    (hones : bs.ones = bitcount f 0 bs.len) (i j : Nat) (hi : i < bs.len) (hj : j ≤ i)
    (hfj : f j = true) (hlast : ∀ k, j < k → k ≤ i → f k = false) :
    bitsequence_reader_selectprev1 bs i = .ok (j : Int) := by
  have hl63 : bs.len < 2 ^ 63 := hf.2.2.2.2.1
  unfold bitsequence_reader_selectprev1
  rw [access_of_facts bs f hf i hi, bmod_small i (by omega)]
  simp only [bind, Except.bind]
  by_cases hfi : f i = true
  · have hji : j = i := by
      by_contra hne
      have := hlast i (by omega) (Nat.le_refl _)
      rw [this] at hfi
      exact Bool.noConfusion hfi
    simp only [hfi, if_true, pure, Except.pure, hji]
  · have hfi2 : f i = false := by simpa using hfi
    have hji : j < i := by
      rcases Nat.lt_or_ge j i with h | h
      · exact h
      · have : j = i := by omega
        rw [this] at hfj
        rw [hfj] at hfi2
        exact Bool.noConfusion hfi2
    have hr : bitcount f 0 (i + 1) = bitcount f 0 j + 1 := by
      have e : i + 1 = (j + 1) + (i - j) := by omega
      rw [e, bitcount_add, bitcount_succ, Nat.zero_add, Nat.zero_add, hfj,
        bitcount_eq_zero f (j + 1) (i - j) (fun k hk => hlast _ (by omega) (by omega))]
      simp
    have hle : bitcount f 0 (i + 1) ≤ bs.ones := by
      rw [hones]; exact bitcount_mono f 0 _ _ (by omega)
    obtain ⟨q, hq1, hq2, hq3, hq4⟩ := select1_of_facts bs f hf hones (bitcount f 0 (i + 1))
      (by omega) hle
    have hqj : q = j := bitcount_inj f q j hq3 hfj (by omega)
    simp only [hfi2, rank1_of_facts bs f hf i hi, Bool.false_eq_true, if_false,
      show ¬ (bitcount f 0 (i + 1) = 0) by omega, hq1, hqj]

theorem selectprev1_none (bs : BitsequenceReader) (f : Nat → Bool) (hf : BsFacts bs f)
    (i : Nat) (hi : i < bs.len) (hnone : ∀ k, k ≤ i → f k = false) :
    bitsequence_reader_selectprev1 bs i = .ok (-1) := by
  have hl63 : bs.len < 2 ^ 63 := hf.2.2.2.2.1
  unfold bitsequence_reader_selectprev1
  rw [access_of_facts bs f hf i hi, bmod_small i (by omega)]
  have hr : bitcount f 0 (i + 1) = 0 :=
    bitcount_eq_zero f 0 (i + 1) (fun k hk => by rw [Nat.zero_add]; exact hnone k (by omega))
  simp only [bind, Except.bind, hnone i (Nat.le_refl _), rank1_of_facts bs f hf i hi, hr,
    Bool.false_eq_true, if_false, if_true, pure, Except.pure]

theorem select1_rank1_of_facts (bs : BitsequenceReader) (f : Nat → Bool) (hf : BsFacts bs f)
    (hones : bs.ones = bitcount f 0 bs.len) (i : Nat) (hi : i < bs.len) (hfi : f i = true) :
    bitsequence_reader_select1 bs (bitcount f 0 (i + 1)) = .ok (i : Int) := by
  have hr : bitcount f 0 (i + 1) = bitcount f 0 i + 1 := by
    rw [bitcount_succ, Nat.zero_add, hfi]
    simp
  have hle : bitcount f 0 (i + 1) ≤ bs.ones := by
    rw [hones]; exact bitcount_mono f 0 _ _ (by omega)
  obtain ⟨q, hq1, hq2, hq3, hq4⟩ := select1_of_facts bs f hf hones (bitcount f 0 (i + 1))
    (by omega) hle
  have hqi : q = i := bitcount_inj f q i hq3 hfi (by omega)
  rw [hq1, hqi]

end Wire
namespace Wire

/-- C16 (`bitsequence_reader_select1`): on a bit array `b` written by
`bitwriter_write_bitsequence` (REGULAR or RG) and read back, `select1(i)`
returns -1 when `i = 0` or `i` is greater than the number of 1 bits of `b`,
and otherwise the position `q < len(b)` of the 1 bit number `i`: bit `q` is 1
and `i - 1` bits before it are 1. -/
theorem bitsequence_written_select1 (b : BitArray) (p : BitsequenceParams) (hb : BitArrayOk b)
    (hf1 : 1 ≤ p.factor) (hf2 : p.factor < 2 ^ 26) :
    ∃ bs, bitsequence_written b p = .ok bs ∧
      ∀ i : Nat,
        ((i = 0 ∨ bitarray_rank b b.len < i) → bitsequence_reader_select1 bs i = .ok (-1)) ∧
        (1 ≤ i → i ≤ bitarray_rank b b.len →
          ∃ q : Nat, bitsequence_reader_select1 bs i = .ok (q : Int) ∧ q < b.len ∧
            bitarray_get b q = .ok true ∧ bitarray_rank b q = i - 1) := by
  obtain ⟨bs, h1, h2, _, h4, h5⟩ := bitsequence_written_facts b p hb hf1 hf2
  obtain ⟨_, hcap, _⟩ := hb
  have hones : bs.ones = bitcount (mm_bit b.data) 0 bs.len := by rw [h4, h2]
  have hrank : bitarray_rank b b.len = bs.ones := by
    rw [bitarray_rank_eq b b.len (Nat.le_refl _) hcap, h4]
  refine ⟨bs, h1, fun i => ⟨?_, ?_⟩⟩
  · intro hi
    exact select1_none bs i (by rw [← hrank]; exact hi)
  · intro hi1 hi2
    obtain ⟨q, hq1, hq2, hq3, hq4⟩ := select1_of_facts bs _ h5 hones i hi1 (by omega)
    refine ⟨q, hq1, by omega, ?_, ?_⟩
    · rw [bitarray_get_mm_bit b q (by omega) hcap, hq3]
    · rw [bitarray_rank_eq b q (by omega) hcap, hq4]

/-- The theorem at a sequence of 12 bits with bits 3 and 8 set. -/
theorem bitsequence_written_select1_witness :
    ∃ bs, bitsequence_written ⟨12, [16, 128]⟩ ⟨8⟩ = .ok bs ∧
      ∀ i : Nat,
        ((i = 0 ∨ bitarray_rank ⟨12, [16, 128]⟩ 12 < i) →
          bitsequence_reader_select1 bs i = .ok (-1)) ∧
        (1 ≤ i → i ≤ bitarray_rank ⟨12, [16, 128]⟩ 12 →
          ∃ q : Nat, bitsequence_reader_select1 bs i = .ok (q : Int) ∧ q < 12 ∧
            bitarray_get ⟨12, [16, 128]⟩ q = .ok true ∧
            bitarray_rank ⟨12, [16, 128]⟩ q = i - 1) :=
  bitsequence_written_select1 ⟨12, [16, 128]⟩ ⟨8⟩
    ⟨by intro x hx; simp at hx; omega, by decide, by norm_num⟩ (by decide) (by decide)

/-- C17, amended (`bitsequence_reader_rank1`, `bitsequence_reader_select1`):
on a bit array written by `bitwriter_write_bitsequence` (REGULAR or RG) with a
factor from 1 to `2^26 - 1`, the factors for which the `int` product
`BLOCKW * factor` is defined, and read back, `select1(rank1(i)) = i` at every
position `i < len` whose bit is 1. -/
theorem bitsequence_written_select1_rank1 (b : BitArray) (p : BitsequenceParams)
    (hb : BitArrayOk b) (hf1 : 1 ≤ p.factor) (hf2 : p.factor < 2 ^ 26) :
    ∃ bs, bitsequence_written b p = .ok bs ∧
      ∀ i : Nat, i < b.len → bitarray_get b i = .ok true →
        ∃ r, bitsequence_reader_rank1 bs (i : Int) = .ok r ∧
          bitsequence_reader_select1 bs r = .ok (i : Int) := by
  obtain ⟨bs, h1, h2, _, h4, h5⟩ := bitsequence_written_facts b p hb hf1 hf2
  obtain ⟨_, hcap, _⟩ := hb
  have hones : bs.ones = bitcount (mm_bit b.data) 0 bs.len := by rw [h4, h2]
  refine ⟨bs, h1, ?_⟩
  intro i hi hget
  rw [bitarray_get_mm_bit b i hi hcap] at hget
  have hfi : mm_bit b.data i = true := by injection hget
  exact ⟨_, rank1_of_facts bs _ h5 i (by omega),
    select1_rank1_of_facts bs _ h5 hones i (by omega) hfi⟩

/-- The theorem at a sequence of 12 bits with bits 3 and 8 set. -/
theorem bitsequence_written_select1_rank1_witness :
    ∃ bs, bitsequence_written ⟨12, [16, 128]⟩ ⟨8⟩ = .ok bs ∧
      ∀ i : Nat, i < 12 → bitarray_get ⟨12, [16, 128]⟩ i = .ok true →
        ∃ r, bitsequence_reader_rank1 bs (i : Int) = .ok r ∧
          bitsequence_reader_select1 bs r = .ok (i : Int) :=
  bitsequence_written_select1_rank1 ⟨12, [16, 128]⟩ ⟨8⟩
    ⟨by intro x hx; simp at hx; omega, by decide, by norm_num⟩ (by decide) (by decide)

/-- C17, as stated, fails for a factor of `2^27`: the bit 0 of a bit array of
256 bits is 1, but the array is written in the RG encoding, for which
`bitsequence_build` computes `BLOCKW * factor` in an `int`; the product `2^32`
is outside the type, so there is no bit sequence on which `rank1` and
`select1` could be called. -/
theorem bitsequence_written_select1_rank1_factor_counterexample :
    bitarray_get ⟨256, List.replicate 32 170⟩ 0 = .ok true ∧
    bitsequence_written ⟨256, List.replicate 32 170⟩ ⟨134217728⟩ = .error .undefined := by
  decide

/-- C18 (`bitsequence_reader_selectprev1`): on a bit array written by
`bitwriter_write_bitsequence` and read back, `selectprev1(i)` at a position
`i < len` returns the greatest position `j ≤ i` whose bit is 1, and -1 when no
bit at or before `i` is 1. -/
theorem bitsequence_written_selectprev1 (b : BitArray) (p : BitsequenceParams)
    (hb : BitArrayOk b) (hf1 : 1 ≤ p.factor) (hf2 : p.factor < 2 ^ 26) :
    ∃ bs, bitsequence_written b p = .ok bs ∧
      ∀ i : Nat, i < b.len →
        ((∀ k, k ≤ i → bitarray_get b k = .ok false) →
          bitsequence_reader_selectprev1 bs i = .ok (-1)) ∧
        (∀ j : Nat, j ≤ i → bitarray_get b j = .ok true →
          (∀ k, j < k → k ≤ i → bitarray_get b k = .ok false) →
          bitsequence_reader_selectprev1 bs i = .ok (j : Int)) := by
  obtain ⟨bs, h1, h2, _, h4, h5⟩ := bitsequence_written_facts b p hb hf1 hf2
  obtain ⟨_, hcap, _⟩ := hb
  have hones : bs.ones = bitcount (mm_bit b.data) 0 bs.len := by rw [h4, h2]
  have hbit : ∀ k v, k < b.len → bitarray_get b k = .ok v → mm_bit b.data k = v := by
    intro k v hk hget
    rw [bitarray_get_mm_bit b k hk hcap] at hget
    injection hget
  refine ⟨bs, h1, fun i hi => ⟨?_, ?_⟩⟩
  · intro hnone
    exact selectprev1_none bs _ h5 i (by omega) (fun k hk => hbit k _ (by omega) (hnone k hk))
  · intro j hj hget hlast
    exact selectprev1_of_facts bs _ h5 hones i j (by omega) hj (hbit j _ (by omega) hget)
      (fun k hk1 hk2 => hbit k _ (by omega) (hlast k hk1 hk2))

/-- The theorem at a sequence of 12 bits with bits 3 and 8 set. -/
theorem bitsequence_written_selectprev1_witness :
    ∃ bs, bitsequence_written ⟨12, [16, 128]⟩ ⟨8⟩ = .ok bs ∧
      ∀ i : Nat, i < 12 →
        ((∀ k, k ≤ i → bitarray_get ⟨12, [16, 128]⟩ k = .ok false) →
          bitsequence_reader_selectprev1 bs i = .ok (-1)) ∧
        (∀ j : Nat, j ≤ i → bitarray_get ⟨12, [16, 128]⟩ j = .ok true →
          (∀ k, j < k → k ≤ i → bitarray_get ⟨12, [16, 128]⟩ k = .ok false) →
          bitsequence_reader_selectprev1 bs i = .ok (j : Int)) :=
  bitsequence_written_selectprev1 ⟨12, [16, 128]⟩ ⟨8⟩
    ⟨by intro x hx; simp at hx; omega, by decide, by norm_num⟩ (by decide) (by decide)

end Wire
namespace Wire

/-- C11 (`set_bits`, `eliasfano_write`): the list `[8589934593]` of the one
value `2^33 + 1` needs 34 low bits, and `eliasfano_write` reaches in
`set_bits` the expression `1 << 33` on the `int` constant 1, which C leaves
undefined: no bytes are defined from which `eliasfano_get` could return the
value. -/
theorem eliasfano_write_shift_undefined :
    assert_is_sorted [8589934593] = true ∧ eliasfano_lower_bits 8589934593 1 = 34 ∧
    set_bits (bitarray_init 34) 0 8589934593 34 = .error .undefined ∧
    eliasfano_write [8589934593] bitwriter_init ⟨8⟩ = .error .undefined := by
  decide!

/-- C12 (`huffman_create_coding`, `wavelet_tree_build`): for a string of one
distinct byte the Huffman tree is a single leaf and the code of the byte has
length 0; `wavelet_tree_build` reads bit 0 of that code and `bitarray_get`
panics, so `wavelet_tree_write` writes no tree for `aaa` nor for `a`. -/
theorem wavelet_tree_write_single_symbol :
    (huffman_create_coding [97, 97, 97] >>= fun coding => arr_get coding 97)
      = .ok (bitarray_init 0) ∧
    wavelet_tree_write [97, 97, 97] bitwriter_init ⟨8⟩ = .error .panic ∧
    wavelet_tree_write [97] bitwriter_init ⟨8⟩ = .error .panic := by
  decide!

end Wire
/-! ### The Huffman queue and the code table -/

namespace Wire

theorem perm_cons_eraseIdx {α : Type} : ∀ (l : List α) (i : Nat) (h : i < l.length),
    l.Perm (l[i] :: l.eraseIdx i) := by
  intro l
  induction l with
  | nil => intro i h; simp at h
  | cons a t ih =>
    intro i h
    cases i with
    | zero => simp
    | succ i =>
      simp only [List.getElem_cons_succ, List.eraseIdx_cons_succ]
      have := ih i (by simpa using h)
      exact (List.Perm.cons a this).trans (List.Perm.swap _ _ _)

theorem eraseIdx_set_self {α : Type} : ∀ (l : List α) (i : Nat) (x : α),
    (l.set i x).eraseIdx i = l.eraseIdx i := by
  intro l
  induction l with
  | nil => intro i x; simp
  | cons a t ih =>
    intro i x
    cases i with
    | zero => simp
    | succ i => simp [ih]

/-- Writing `x` into the hole `k` of an array. -/
theorem set_hole_perm {α : Type} (l : List α) (k : Nat) (x : α) (h : k < l.length) :
    (l.set k x).Perm (x :: l.eraseIdx k) := by
  have := perm_cons_eraseIdx (l.set k x) k (by simpa using h)
  rw [eraseIdx_set_self] at this
  simpa using this

/-- Moving the element at `j` into the hole `k` makes `j` the hole. -/
theorem move_hole_perm {α : Type} (l : List α) (k j : Nat) (hk : k < l.length)
    (hj : j < l.length) (hne : j ≠ k) :
    ((l.set k (l[j])).eraseIdx j).Perm (l.eraseIdx k) := by
  have h1 := set_hole_perm l k (l[j]) hk
  have h2 := perm_cons_eraseIdx (l.set k (l[j])) j (by simpa using hj)
  have hj2 : j < (l.set k (l[j])).length := by simpa using hj
  have e : (l.set k (l[j]))[j] = l[j] := by
    rw [List.getElem_set_ne (Ne.symm hne)]
  rw [e] at h2
  exact (List.perm_cons _).mp (h2.symm.trans h1)

theorem arr_set_ok {α : Type} (a : List α) (i : Nat) (x : α) (h : i < a.length) :
    arr_set a i x = .ok (a.set i x) := by
  unfold arr_set
  rw [if_pos h]

/-- The function `huffman_enqueue` fills the hole `k` of the queue: the result
holds `key` and the nodes outside the hole, and is unchanged above `k`. -/
theorem huffman_enqueue_spec (key : HuffmanNode) :
    ∀ (fuel : Nat) (es : List HuffmanNode) (k : Nat), k < fuel → k < es.length →
      ∃ es', huffman_enqueue fuel es k key = .ok es' ∧ es'.Perm (key :: es.eraseIdx k) ∧
        es'.length = es.length ∧ ∀ j, k < j → es'[j]? = es[j]? := by
  intro fuel
  induction fuel with
  | zero => intro es k h; omega
  | succ fuel ih =>
    intro es k hf hk
    unfold huffman_enqueue
    have hbase : ∃ es', arr_set es k key = .ok es' ∧ es'.Perm (key :: es.eraseIdx k) ∧
        es'.length = es.length ∧ ∀ j, k < j → es'[j]? = es[j]? :=
      ⟨es.set k key, arr_set_ok _ _ _ hk, set_hole_perm es k key hk, by simp,
        fun j hj => by rw [List.getElem?_set_ne (by omega)]⟩
    by_cases hk0 : k > 0
    · rw [if_pos hk0]
      have hpar : (k - 1) >>> 1 < k := by
        rw [Nat.shiftRight_eq_div_pow]; omega
      generalize (k - 1) >>> 1 = parent at hpar
      dsimp only
      rw [arr_get_eq es parent (by omega), ok_bind']
      by_cases hge : key.freq ≥ (es[parent]).freq
      · rw [if_pos hge]
        exact hbase
      · rw [if_neg hge, arr_set_ok _ _ _ hk, ok_bind']
        obtain ⟨es', h1, h2, h3, h4⟩ := ih (es.set k (es[parent])) parent (by omega)
          (by simp; omega)
        refine ⟨es', h1, h2.trans (List.Perm.cons _ ?_), by rw [h3]; simp, ?_⟩
        · exact move_hole_perm es k parent hk (by omega) (by omega)
        · intro j hj
          rw [h4 j (by omega), List.getElem?_set_ne (by omega)]
    · rw [if_neg hk0]
      exact hbase

/-- The function `huffman_shiftdown` fills the hole `k` of a queue of `n`
nodes. -/
theorem huffman_shiftdown_spec (key : HuffmanNode) (n : Nat) :
    ∀ (fuel : Nat) (k : Nat) (es : List HuffmanNode), n ≤ es.length → k < n → n < fuel + k →
      ∃ es', huffman_shiftdown fuel k key es n = .ok es' ∧ es'.Perm (key :: es.eraseIdx k) ∧
        es'.length = es.length ∧ ∀ j, n ≤ j → es'[j]? = es[j]? := by
  intro fuel
  induction fuel with
  | zero => intro k es h1 h2 h3; omega
  | succ fuel ih =>
    intro k es hn hk hf
    unfold huffman_shiftdown
    have hbase : ∃ es', arr_set es k key = .ok es' ∧ es'.Perm (key :: es.eraseIdx k) ∧
        es'.length = es.length ∧ ∀ j, n ≤ j → es'[j]? = es[j]? :=
      ⟨es.set k key, arr_set_ok _ _ _ (by omega), set_hole_perm es k key (by omega), by simp,
        fun j hj => by rw [List.getElem?_set_ne (by omega)]⟩
    have hhalf : n >>> 1 = n / 2 := by rw [Nat.shiftRight_eq_div_pow]
    have hch : (k <<< 1) + 1 = 2 * k + 1 := by rw [Nat.shiftLeft_eq]; omega
    simp only [hhalf, hch]
    by_cases hlt : k < n / 2
    · rw [if_pos hlt]
      have hc : 2 * k + 1 < es.length := by omega
      rw [arr_get_eq es _ hc, ok_bind']
      have hcont : ∀ j (hj : j < es.length), k < j → j < n →
          ∃ es', (if key.freq ≤ (es[j]).freq then arr_set es k key
              else do
                let es ← arr_set es k (es[j])
                huffman_shiftdown fuel j key es n) = .ok es' ∧
            es'.Perm (key :: es.eraseIdx k) ∧ es'.length = es.length ∧
            ∀ j, n ≤ j → es'[j]? = es[j]? := by
        intro j hjl hj1 hj2
        by_cases hle : key.freq ≤ (es[j]).freq
        · rw [if_pos hle]
          exact hbase
        · rw [if_neg hle, arr_set_ok _ _ _ (by omega), ok_bind']
          obtain ⟨es', h1, h2, h3, h4⟩ := ih j (es.set k (es[j])) (by simp; omega) hj2 (by omega)
          refine ⟨es', h1, h2.trans (List.Perm.cons _ ?_), by rw [h3]; simp, ?_⟩
          · exact move_hole_perm es k j (by omega) (by omega) (by omega)
          · intro i hi
            rw [h4 i hi, List.getElem?_set_ne (by omega)]
      by_cases hr : 2 * k + 1 + 1 < n
      · rw [if_pos hr, arr_get_eq es _ (by omega), ok_bind']
        by_cases hgt : (es[2 * k + 1]).freq > (es[2 * k + 1 + 1]).freq
        · rw [if_pos hgt]
          exact hcont (2 * k + 1 + 1) (by omega) (by omega) hr
        · rw [if_neg hgt]
          exact hcont (2 * k + 1) (by omega) (by omega) (by omega)
      · rw [if_neg hr]
        exact hcont (2 * k + 1) (by omega) (by omega) (by omega)
    · rw [if_neg hlt]
      exact hbase

/-- The function `huffman_dequeue` takes one node out of a queue of `size`
nodes and leaves the others in the first `size - 1` slots. -/
theorem huffman_dequeue_spec (es : List HuffmanNode) (size : Nat) (h1 : 1 ≤ size)
    (h2 : size ≤ es.length) :
    ∃ result es', huffman_dequeue es size = .ok (result, es') ∧
      (result :: es'.take (size - 1)).Perm (es.take size) ∧ es'.length = es.length := by
  unfold huffman_dequeue
  rw [if_neg (by omega), arr_get_eq es 0 (by omega), ok_bind']
  dsimp only
  rw [arr_get_eq es (size - 1) (by omega), ok_bind']
  by_cases hn : size - 1 > 0
  · rw [if_pos hn]
    obtain ⟨es', e1, e2, e3, e4⟩ := huffman_shiftdown_spec (es[size - 1]) (size - 1)
      (size - 1 + 1) 0 es (by omega) (by omega) (by omega)
    rw [e1, ok_bind']
    refine ⟨_, _, rfl, ?_, e3⟩
    -- the slots from `size - 1` on are unchanged
    have hdrop : es'.drop (size - 1) = es.drop (size - 1) := by
      apply List.ext_getElem?
      intro i
      rw [List.getElem?_drop, List.getElem?_drop]
      exact e4 _ (by omega)
    have hes' : es' = es'.take (size - 1) ++ es.drop (size - 1) := by
      rw [← hdrop, List.take_append_drop]
    have hes : es = es.take (size - 1) ++ es.drop (size - 1) := by
      rw [List.take_append_drop]
    have hA : es.take (size - 1) = es[0] :: (es.take (size - 1)).eraseIdx 0 := by
      cases hh : es.take (size - 1) with
      | nil =>
        have hl : (es.take (size - 1)).length = size - 1 := by rw [List.length_take]; omega
        rw [hh] at hl
        simp at hl
        omega
      | cons a t =>
        have : es[0] = a := by
          have h0 : (es.take (size - 1))[0]? = some a := by rw [hh]; simp
          rw [List.getElem?_take] at h0
          simp only [hn, if_true] at h0
          rw [List.getElem?_eq_getElem (by omega)] at h0
          injection h0
        rw [this]
        rfl
    have herase : es.eraseIdx 0 = (es.take (size - 1)).eraseIdx 0 ++ es.drop (size - 1) := by
      conv_lhs => rw [hes]
      rw [List.eraseIdx_append_of_lt_length (by simp; omega)]
    have hx : es.drop (size - 1) = es[size - 1] :: es.drop size := by
      rw [List.drop_eq_getElem_cons (by omega)]
      congr 2
      omega
    -- cancel the unchanged part
    have hp : (es'.take (size - 1) ++ es.drop (size - 1)).Perm
        ((es[size - 1] :: (es.take (size - 1)).eraseIdx 0) ++ es.drop (size - 1)) := by
      rw [← hes']
      refine e2.trans ?_
      rw [herase]
      rfl
    have hp2 := (List.perm_append_right_iff _).mp hp
    have htake : es.take size = es.take (size - 1) ++ [es[size - 1]] := by
      have e : size = (size - 1) + 1 := by omega
      conv_lhs => rw [e, List.take_succ]
      rw [List.getElem?_eq_getElem (by omega)]
      rfl
    rw [htake, hA]
    refine (List.Perm.cons _ hp2).trans ?_
    exact List.Perm.cons _ (List.perm_append_singleton _ _).symm
  · rw [if_neg hn]
    refine ⟨_, _, rfl, ?_, rfl⟩
    have e : size = 1 := by omega
    subst e
    simp only [Nat.sub_self, List.take_zero]
    rw [List.take_one]
    cases es with
    | nil => simp at h2
    | cons a t => simp

theorem bitsOf_len (b : BitArray) (l : List Bool) (h : BitsOf b l) : b.len = l.length := by
  rw [← h.2.2, bitarray_bits_length]

theorem bitsOf_init : BitsOf (bitarray_init 0) [] := by
  refine ⟨?_, ?_, ?_⟩
  · intro x hx; simp [bitarray_init] at hx
  · simp [bitarray_init]
  · simp [bitarray_bits, bitarray_init]

/-- The function `bitarray_append` adds one bit. -/
theorem bitarray_append_spec (b : BitArray) (v : Bool) (l : List Bool) (h : BitsOf b l) :
    ∃ b', bitarray_append b v = .ok b' ∧ BitsOf b' (l ++ [v]) := by
  obtain ⟨hb, hcap, hbits⟩ := h
  unfold bitarray_append
  dsimp only
  by_cases h0 : b.len % 8 = 0
  · rw [if_pos h0]
    obtain ⟨k, hk1, hk2⟩ : ∃ k, (if b.len / 8 = b.data.length
        then bitarray_resize b (b.data.length + 1) else b).data = b.data ++ List.replicate k 0 ∧
        b.len / 8 < (if b.len / 8 = b.data.length
          then bitarray_resize b (b.data.length + 1) else b).data.length ∧
        (if b.len / 8 = b.data.length
          then bitarray_resize b (b.data.length + 1) else b).len = b.len := by
      by_cases hfull : b.len / 8 = b.data.length
      · rw [if_pos hfull]
        obtain ⟨k, e1, e2, e3⟩ := bitarray_resize_spec b (b.data.length + 1)
        exact ⟨k, e1, by omega, e2⟩
      · rw [if_neg hfull]
        exact ⟨0, by simp, by omega, rfl⟩
    generalize (if b.len / 8 = b.data.length
      then bitarray_resize b (b.data.length + 1) else b) = b1 at hk1 hk2
    obtain ⟨hk2, hk3⟩ := hk2
    rw [if_pos hk2]
    refine ⟨_, rfl, ?_, ?_, ?_⟩
    · exact allBytes_set _ _ _ (by rw [hk1]; exact allBytes_append_zeros _ _ hb)
        (by split <;> norm_num)
    · simp only [List.length_set]
      omega
    · rw [← hbits]
      apply bitarray_bits_append
      · simp [hk3]
      · intro p hp
        simp only
        rw [mm_bit_set_other _ _ _ _ (by omega), hk1, mm_bit_append_zeros]
      · intro j hj
        have hj0 : j = 0 := by simpa using hj
        subst hj0
        simp only [List.getElem_cons_zero, Nat.add_zero]
        rw [mm_bit_set_same _ _ _ _ hk2 rfl]
        have e : 7 - b.len % 8 = 7 := by omega
        rw [e]
        cases v <;> decide
  · rw [if_neg h0]
    have hidx : b.len / 8 < b.data.length := by omega
    rw [List.get?_eq_getElem?, List.getElem?_eq_getElem hidx]
    dsimp only
    have hk : 8 - b.len % 8 - 1 < 8 := by omega
    have hy : (if v = true then (b.data[b.len / 8] ||| 1 <<< (8 - b.len % 8 - 1) % 256) % 256
        else b.data[b.len / 8] &&& (255 - 1 <<< (8 - b.len % 8 - 1) % 256)) < 256 := by
      split
      · exact Nat.mod_lt _ (by norm_num)
      · exact Nat.lt_of_le_of_lt Nat.and_le_left (hb _ (List.getElem_mem _))
    have hbit : ∀ j < 8, (if v = true
          then (b.data[b.len / 8] ||| 1 <<< (8 - b.len % 8 - 1) % 256) % 256
          else b.data[b.len / 8] &&& (255 - 1 <<< (8 - b.len % 8 - 1) % 256)).testBit j
        = if j = 8 - b.len % 8 - 1 then v else (b.data[b.len / 8]).testBit j := by
      intro j hj
      cases v
      · simp only [Bool.false_eq_true, if_false]
        rw [testBit_clear_byte _ _ _ hk hj]
        by_cases e : j = 8 - b.len % 8 - 1 <;> simp [e]
      · simp only [if_true]
        rw [testBit_set_byte _ _ _ hk hj]
        by_cases e : j = 8 - b.len % 8 - 1 <;> simp [e]
    refine ⟨_, rfl, ?_, ?_, ?_⟩
    · exact allBytes_set _ _ _ hb hy
    · simp only [List.length_set]
      omega
    · rw [← hbits]
      apply bitarray_bits_append
      · simp
      · intro p hp
        simp only
        by_cases hpb : p / 8 = b.len / 8
        · rw [mm_bit_set_same _ _ _ _ hidx hpb, hbit _ (by omega), if_neg (by omega),
            mm_bit_eq_getElem _ _ (by omega)]
          simp only [hpb]
        · rw [mm_bit_set_other _ _ _ _ hpb]
      · intro j hj
        have hj0 : j = 0 := by simpa using hj
        subst hj0
        simp only [List.getElem_cons_zero, Nat.add_zero]
        rw [mm_bit_set_same _ _ _ _ hidx rfl, hbit _ (by omega), if_pos (by omega)]

/-- The function `huffman_code` stores for every leaf of the tree the way to
it, after the bits `π` of the way to the tree. -/
theorem huffman_code_spec : ∀ (h : HuffmanNode) (code : BitArray) (coding : List BitArray)
    (π : List Bool), BitsOf code π → coding.length = 256 → (∀ v ∈ h.leaves, v < 256) →
    h.leaves.Nodup →
    ∃ coding', huffman_code h code coding = .ok coding' ∧ coding'.length = 256 ∧
      (∀ v ∈ h.leaves, ∃ c, coding'[v]? = some c ∧ BitsOf c (π ++ h.code v)) ∧
      (∀ v, v ∉ h.leaves → coding'[v]? = coding[v]?) := by
  intro h
  induction h with
  | leaf value freq =>
    intro code coding π hcode hlen hlt _
    have hv : value < coding.length := by
      rw [hlen]; exact hlt value (by simp [HuffmanNode.leaves])
    refine ⟨coding.set value code, ?_, by simp [hlen], ?_, ?_⟩
    · simp only [huffman_code]
      exact arr_set_ok _ _ _ hv
    · intro v hvm
      have e : v = value := by simpa [HuffmanNode.leaves] using hvm
      subst e
      refine ⟨code, by rw [List.getElem?_set_self hv], ?_⟩
      simpa [HuffmanNode.code] using hcode
    · intro v hvm
      have e : v ≠ value := by simpa [HuffmanNode.leaves] using hvm
      rw [List.getElem?_set_ne (Ne.symm e)]
  | inner freq l r ihl ihr =>
    intro code coding π hcode hlen hlt hnd
    simp only [HuffmanNode.leaves] at hlt hnd
    have hndl : l.leaves.Nodup := (List.nodup_append.mp hnd).1
    have hndr : r.leaves.Nodup := (List.nodup_append.mp hnd).2.1
    have hdisj : ∀ v, v ∈ l.leaves → v ∈ r.leaves → False := by
      intro v h1 h2
      exact (List.nodup_append.mp hnd).2.2 h1 h2
    obtain ⟨cl, hcl1, hcl2⟩ := bitarray_append_spec code false π hcode
    obtain ⟨cr, hcr1, hcr2⟩ := bitarray_append_spec code true π hcode
    obtain ⟨coding1, h1, h2, h3, h4⟩ := ihl cl coding (π ++ [false]) hcl2 hlen
      (fun v hv => hlt v (List.mem_append_left _ hv)) hndl
    obtain ⟨coding2, g1, g2, g3, g4⟩ := ihr cr coding1 (π ++ [true]) hcr2 h2
      (fun v hv => hlt v (List.mem_append_right _ hv)) hndr
    refine ⟨coding2, ?_, g2, ?_, ?_⟩
    · simp only [huffman_code, bitarray_clone]
      rw [hcl1, ok_bind', hcr1, ok_bind', h1, ok_bind']
      exact g1
    · intro v hv
      rcases List.mem_append.mp hv with hvl | hvr
      · obtain ⟨c, e1, e2⟩ := h3 v hvl
        refine ⟨c, ?_, ?_⟩
        · rw [g4 v (fun hr => hdisj v hvl hr)]
          exact e1
        · simpa [HuffmanNode.code, hvl] using e2
      · obtain ⟨c, e1, e2⟩ := g3 v hvr
        refine ⟨c, e1, ?_⟩
        have hnl : v ∉ l.leaves := fun hl => hdisj v hl hvr
        simpa [HuffmanNode.code, hnl] using e2
    · intro v hv
      have hv1 : v ∉ l.leaves := fun hh => hv (List.mem_append_left _ hh)
      have hv2 : v ∉ r.leaves := fun hh => hv (List.mem_append_right _ hh)
      rw [g4 v hv2, h4 v hv1]

/-- After `huffman_enqueue` at slot `k` the first `k + 1` slots hold the key
and the nodes of the first `k` slots. -/
theorem huffman_enqueue_take (key : HuffmanNode) (fuel : Nat) (es : List HuffmanNode) (k : Nat)
    (hf : k < fuel) (hk : k < es.length) :
    ∃ es', huffman_enqueue fuel es k key = .ok es' ∧ es'.length = es.length ∧
      (es'.take (k + 1)).Perm (key :: es.take k) := by
  obtain ⟨es', h1, h2, h3, h4⟩ := huffman_enqueue_spec key fuel es k hf hk
  refine ⟨es', h1, h3, ?_⟩
  have hdrop : es'.drop (k + 1) = es.drop (k + 1) := by
    apply List.ext_getElem?
    intro i
    rw [List.getElem?_drop, List.getElem?_drop]
    exact h4 _ (by omega)
  have hp : (es'.take (k + 1) ++ es'.drop (k + 1)).Perm
      ((key :: es.take k) ++ es'.drop (k + 1)) := by
    rw [List.take_append_drop, hdrop]
    refine h2.trans ?_
    rw [List.eraseIdx_eq_take_drop_succ]
    rfl
  exact (List.perm_append_right_iff _).mp hp

/-- What a queue holds: trees whose leaves are, without repetition, the byte
values with the property `S`. -/
theorem forest_perm (l1 l2 : List HuffmanNode) (S : Nat → Prop) (hp : l1.Perm l2)
    (h : (forest_leaves l1).Nodup ∧ ∀ v, v ∈ forest_leaves l1 ↔ S v) :
    (forest_leaves l2).Nodup ∧ ∀ v, v ∈ forest_leaves l2 ↔ S v := by
  have hp2 : (forest_leaves l1).Perm (forest_leaves l2) := List.Perm.flatMap_right _ hp
  exact ⟨(List.Perm.nodup_iff hp2).mp h.1, fun v => (List.Perm.mem_iff hp2).symm.trans (h.2 v)⟩

/-- The loop of `huffman_create_coding` joins the trees of the queue into
one. -/
theorem huffman_join_spec (S : Nat → Prop) :
    ∀ (fuel : Nat) (nodes : List HuffmanNode) (count : Nat), count ≤ fuel → 1 ≤ count →
      count ≤ nodes.length →
      ((forest_leaves (nodes.take count)).Nodup ∧ ∀ v, v ∈ forest_leaves (nodes.take count) ↔ S v) →
      ∃ nodes', huffman_join fuel nodes count = .ok nodes' ∧ nodes'.length = nodes.length ∧
        (forest_leaves (nodes'.take 1)).Nodup ∧ ∀ v, v ∈ forest_leaves (nodes'.take 1) ↔ S v := by
  intro fuel
  induction fuel with
  | zero => intro nodes count h1 h2; omega
  | succ fuel ih =>
    intro nodes count hf h1 hlen hQ
    unfold huffman_join
    by_cases hc : count > 1
    · rw [if_pos hc]
      obtain ⟨n1, es1, d1, p1, l1⟩ := huffman_dequeue_spec nodes count h1 hlen
      obtain ⟨n2, es2, d2, p2, l2⟩ := huffman_dequeue_spec es1 (count - 1) (by omega) (by omega)
      obtain ⟨es3, e1, l3, p3⟩ := huffman_enqueue_take (HuffmanNode.inner (n1.freq + n2.freq) n1 n2)
        (count + 1) es2 (count - 2) (by omega) (by omega)
      rw [d1, ok_bind']
      dsimp only
      rw [d2, ok_bind']
      dsimp only
      rw [e1, ok_bind']
      have e : count - 2 + 1 = count - 1 := by omega
      rw [e] at p3
      have e2 : count - 1 - 1 = count - 2 := by omega
      rw [e2] at p2
      have hQ3 : (forest_leaves (es3.take (count - 1))).Nodup ∧
          ∀ v, v ∈ forest_leaves (es3.take (count - 1)) ↔ S v := by
        apply forest_perm _ _ S p3.symm
        have hQ2 := forest_perm _ _ S
          (p1.symm.trans (List.Perm.cons n1 p2.symm)) hQ
        simpa [forest_leaves, HuffmanNode.leaves, List.append_assoc] using hQ2
      obtain ⟨nodes', r1, r2, r3⟩ := ih es3 (count - 1) (by omega) (by omega) (by omega) hQ3
      exact ⟨nodes', r1, by rw [r2, l3, l2, l1], r3⟩
    · rw [if_neg hc]
      have e : count = 1 := by omega
      subst e
      exact ⟨nodes, rfl, rfl, hQ⟩

/-- The function `huffman_create_coding` on a non-empty byte string: there is
a Huffman tree whose leaves are the byte values of the string, each once, and
the table holds the code of every leaf and the empty code elsewhere. -/
theorem huffman_create_coding_spec (data : List Nat) (hd : ∀ x ∈ data, x < 256)
    (hne : data ≠ []) :
    ∃ (H : HuffmanNode) (coding : List BitArray), huffman_create_coding data = .ok coding ∧ H.leaves.Nodup ∧
      (∀ v, v ∈ H.leaves ↔ v ∈ data) ∧ coding.length = 256 ∧
      (∀ v ∈ H.leaves, ∃ c, coding[v]? = some c ∧ BitsOf c (H.code v)) ∧
      (∀ v, v ∉ H.leaves → v < 256 → coding[v]? = some (bitarray_init 0)) := by
  unfold huffman_create_coding
  dsimp only
  have hB : BYTE_COUNT = 256 := rfl
  rw [hB]
  -- the first loop
  obtain ⟨st, hrun, hl, hcnt, hQ⟩ := foldlM_range_inv
    (fun (st : List HuffmanNode × Nat) c =>
      if ((List.range 256).map (fun c => data.count c)).getD c 0 > 0 then do
        let nodes ← huffman_enqueue (st.2 + 1) st.1 st.2
          (HuffmanNode.leaf c (((List.range 256).map (fun c => data.count c)).getD c 0))
        pure (nodes, st.2 + 1)
      else pure st)
    (fun c st => st.1.length = 512 ∧ st.2 ≤ c ∧
      (forest_leaves (st.1.take st.2)).Nodup ∧
      ∀ v, v ∈ forest_leaves (st.1.take st.2) ↔ (v < c ∧ v ∈ data))
    256 (List.replicate (2 * 256) (HuffmanNode.leaf 0 0), 0)
    ⟨List.length_replicate _ _, Nat.le_refl _,
      by simp only [List.take_zero, forest_leaves, List.flatMap_nil, List.nodup_nil],
      by simp only [List.take_zero, forest_leaves, List.flatMap_nil, List.not_mem_nil, false_iff,
          not_and]; intro v hv; omega⟩
    (by
      intro c st hc ⟨h1, h2, h3, h4⟩
      have hfreq : ((List.range 256).map (fun c => data.count c)).getD c 0 = data.count c := by
        rw [List.getD_eq_getElem _ _ (by simp; omega)]
        simp
      dsimp only
      rw [hfreq]
      by_cases hpos : data.count c > 0
      · rw [if_pos hpos]
        have hmem : c ∈ data := List.count_pos_iff.mp hpos
        obtain ⟨es', e1, e2, e3⟩ := huffman_enqueue_take (HuffmanNode.leaf c (data.count c))
          (st.2 + 1) st.1 st.2 (by omega) (by omega)
        refine ⟨(es', st.2 + 1), by rw [e1]; rfl, by rw [e2, h1], by simp only; omega, ?_⟩
        have hQ := forest_perm _ _ (fun v => v < c + 1 ∧ v ∈ data) e3.symm (by
          constructor
          · simp only [forest_leaves, List.flatMap_cons, HuffmanNode.leaves, List.singleton_append,
              List.nodup_cons]
            refine ⟨fun hin => ?_, h3⟩
            have := (h4 c).mp hin
            omega
          · intro v
            simp only [forest_leaves, List.flatMap_cons, HuffmanNode.leaves, List.singleton_append,
              List.mem_cons]
            constructor
            · rintro (rfl | hin)
              · exact ⟨by omega, hmem⟩
              · have := (h4 v).mp hin
                exact ⟨by omega, this.2⟩
            · rintro ⟨hv1, hv2⟩
              by_cases e : v = c
              · exact Or.inl e
              · exact Or.inr ((h4 v).mpr ⟨by omega, hv2⟩))
        exact hQ
      · rw [if_neg hpos]
        have hnm : c ∉ data := fun hm => hpos (List.count_pos_iff.mpr hm)
        refine ⟨st, rfl, h1, by omega, h3, ?_⟩
        intro v
        rw [h4 v]
        constructor
        · rintro ⟨hv1, hv2⟩
          exact ⟨by omega, hv2⟩
        · rintro ⟨hv1, hv2⟩
          refine ⟨?_, hv2⟩
          by_contra hge
          have : v = c := by omega
          rw [this] at hv2
          exact hnm hv2)
  rw [hrun, ok_bind']
  obtain ⟨nodes, count⟩ := st
  simp only at hl hcnt hQ ⊢
  obtain ⟨hnd, hmem⟩ := hQ
  have hmem' : ∀ v, v ∈ forest_leaves (nodes.take count) ↔ v ∈ data := by
    intro v
    rw [hmem v]
    exact ⟨fun h => h.2, fun h => ⟨hd v h, h⟩⟩
  have hc1 : 1 ≤ count := by
    obtain ⟨a, ha⟩ := List.exists_mem_of_ne_nil _ hne
    have := (hmem' a).mpr ha
    by_contra hc0
    have e : count = 0 := by omega
    rw [e] at this
    simp [forest_leaves] at this
  obtain ⟨nodes', j1, j2, j3, j4⟩ := huffman_join_spec (fun v => v ∈ data) (count + 1) nodes count
    (by omega) hc1 (by omega) ⟨hnd, hmem'⟩
  rw [j1, ok_bind']
  have hsz : (if count > 1 then 1 else count) = 1 := by
    split <;> omega
  rw [hsz]
  obtain ⟨node, es2, d1, d2, d3⟩ := huffman_dequeue_spec nodes' 1 (Nat.le_refl _) (by omega)
  rw [d1, ok_bind']
  dsimp only
  have hQ1 := forest_perm _ _ (fun v => v ∈ data) d2.symm ⟨j3, j4⟩
  simp only [Nat.sub_self, List.take_zero, forest_leaves, List.flatMap_cons, List.flatMap_nil,
    List.append_nil] at hQ1
  obtain ⟨coding, c1, c2, c3, c4⟩ := huffman_code_spec node (bitarray_init 0)
    (List.replicate 256 (bitarray_init 0)) [] bitsOf_init (List.length_replicate _ _)
    (fun v hv => hd v ((hQ1.2 v).mp hv)) hQ1.1
  refine ⟨node, coding, c1, hQ1.1, hQ1.2, c2, ?_, ?_⟩
  · intro v hv
    obtain ⟨c, e1, e2⟩ := c3 v hv
    exact ⟨c, e1, by simpa using e2⟩
  · intro v hv hlt
    rw [c4 v hv, List.getElem?_replicate_of_lt hlt]

end Wire
/-! ### The writer of the wavelet tree -/

namespace Wire

/-- The function `bitarray_set` in terms of the bits. -/
theorem bitarray_set_spec (b : BitArray) (i : Nat) (v : Bool) (hi : i < b.len)
    (hb : AllBytes b.data) (hcap : b.len ≤ 8 * b.data.length) :
    ∃ b', bitarray_set b i v = .ok b' ∧ b'.len = b.len ∧ b'.data.length = b.data.length ∧
      AllBytes b'.data ∧ ∀ p, mm_bit b'.data p = if p = i then v else mm_bit b.data p := by
  unfold bitarray_set
  rw [if_neg (by omega)]
  dsimp only
  have hidx : i / 8 < b.data.length := by omega
  rw [List.get?_eq_getElem?, List.getElem?_eq_getElem hidx]
  dsimp only
  have hk : 8 - i % 8 - 1 < 8 := by omega
  have hy : (if v = true then (b.data[i / 8] ||| 1 <<< (8 - i % 8 - 1) % 256) % 256
      else b.data[i / 8] &&& (255 - 1 <<< (8 - i % 8 - 1) % 256)) < 256 := by
    split
    · exact Nat.mod_lt _ (by norm_num)
    · exact Nat.lt_of_le_of_lt Nat.and_le_left (hb _ (List.getElem_mem _))
  have hbit : ∀ j < 8, (if v = true
        then (b.data[i / 8] ||| 1 <<< (8 - i % 8 - 1) % 256) % 256
        else b.data[i / 8] &&& (255 - 1 <<< (8 - i % 8 - 1) % 256)).testBit j
      = if j = 8 - i % 8 - 1 then v else (b.data[i / 8]).testBit j := by
    intro j hj
    cases v
    · simp only [Bool.false_eq_true, if_false]
      rw [testBit_clear_byte _ _ _ hk hj]
      by_cases e : j = 8 - i % 8 - 1 <;> simp [e]
    · simp only [if_true]
      rw [testBit_set_byte _ _ _ hk hj]
      by_cases e : j = 8 - i % 8 - 1 <;> simp [e]
  have key : ∀ y, y < 256 → (∀ j < 8, y.testBit j
        = if j = 8 - i % 8 - 1 then v else (b.data[i / 8]).testBit j) →
      ∃ b', (Except.ok ({ b with data := b.data.set (i / 8) y } : BitArray) : Except Err BitArray)
          = .ok b' ∧ b'.len = b.len ∧
        b'.data.length = b.data.length ∧ AllBytes b'.data ∧
        ∀ p, mm_bit b'.data p = if p = i then v else mm_bit b.data p := by
    intro y hy1 hy2
    refine ⟨_, rfl, rfl, by simp, allBytes_set _ _ _ hb hy1, ?_⟩
    intro p
    simp only
    by_cases hpb : p / 8 = i / 8
    · rw [mm_bit_set_same _ _ _ _ hidx hpb, hy2 _ (by omega)]
      by_cases hpi : p = i
      · rw [if_pos (by omega), if_pos hpi]
      · rw [if_neg (by omega), if_neg hpi, mm_bit_eq_getElem _ _ (by omega)]
        simp only [hpb]
    · rw [mm_bit_set_other _ _ _ _ hpb, if_neg (by intro e; rw [e] at hpb; exact hpb rfl)]
  cases v
  · simp only [Bool.false_eq_true, if_false] at hy hbit ⊢
    exact key _ hy hbit
  · simp only [if_true] at hy hbit ⊢
    exact key _ hy hbit

theorem bitsOf_zeros (n : Nat) :
    AllBytes (bitarray_init n).data ∧ (bitarray_init n).len = n ∧
      n ≤ 8 * (bitarray_init n).data.length ∧ ∀ p, mm_bit (bitarray_init n).data p = false := by
  unfold bitarray_init
  by_cases h : n ≠ 0
  · rw [if_pos h]
    refine ⟨?_, rfl, ?_, ?_⟩
    · intro x hx
      rw [(List.mem_replicate.mp hx).2]; norm_num
    · simp only [List.length_replicate, BYTE_LEN, DIVUP, BITARRAY_DEFAULT_CAP]
      omega
    · intro p
      have := mm_bit_append_zeros [] (max (BYTE_LEN n) BITARRAY_DEFAULT_CAP) p
      simp only [List.nil_append] at this
      rw [this]
      exact mm_bit_ge [] p (by simp)
  · rw [if_neg h]
    refine ⟨fun x hx => by simp at hx, rfl, by simp at h; omega, fun p => mm_bit_ge [] p (by simp)⟩

theorem foldlM_enumFrom_inv {σ α : Type} (f : σ → Nat × α → Except Err σ) (P : Nat → σ → Prop) :
    ∀ (l : List α) (n : Nat) (s0 : σ), P n s0 →
      (∀ k (hk : k < l.length) s, P (n + k) s →
        ∃ s', f s (n + k, l[k]) = .ok s' ∧ P (n + k + 1) s') →
      ∃ s', (l.enumFrom n).foldlM f s0 = .ok s' ∧ P (n + l.length) s' := by
  intro l
  induction l with
  | nil => intro n s0 h0 _; exact ⟨s0, rfl, h0⟩
  | cons a t ih =>
    intro n s0 h0 hstep
    obtain ⟨s1, h1, h2⟩ := hstep 0 (by simp) s0 h0
    simp only [List.getElem_cons_zero, Nat.add_zero] at h1 h2
    obtain ⟨s2, h3, h4⟩ := ih (n + 1) s1 h2 (by
      intro k hk s hP
      have := hstep (k + 1) (by simp; omega) s (by
        have e : n + (k + 1) = n + 1 + k := by omega
        rw [e]; exact hP)
      simp only [List.getElem_cons_succ] at this
      have e : n + (k + 1) = n + 1 + k := by omega
      rw [e] at this
      exact this)
    refine ⟨s2, ?_, ?_⟩
    · rw [List.enumFrom_cons, List.foldlM_cons, h1, ok_bind']
      exact h3
    · have e : n + (a :: t).length = n + 1 + t.length := by simp; omega
      rw [e]; exact h4

theorem foldlM_enum_inv {σ α : Type} (f : σ → Nat × α → Except Err σ) (P : Nat → σ → Prop)
    (l : List α) (s0 : σ) (h0 : P 0 s0)
    (hstep : ∀ k (hk : k < l.length) s, P k s → ∃ s', f s (k, l[k]) = .ok s' ∧ P (k + 1) s') :
    ∃ s', l.enum.foldlM f s0 = .ok s' ∧ P l.length s' := by
  have := foldlM_enumFrom_inv f P l 0 s0 h0 (by
    intro k hk s hP
    rw [Nat.zero_add] at hP ⊢
    exact hstep k hk s hP)
  rw [Nat.zero_add] at this
  exact this

/-- The first loop of `wavelet_tree_build`: bit `i` of the bitmap is the bit
at depth `d` of the code of byte `i`. -/
theorem wavelet_bitmap_spec (data : List Nat) (d : Nat) (coding : List BitArray) (g : Nat → Bool)
    (hg : ∀ v ∈ data, ∃ c, arr_get coding v = .ok c ∧ bitarray_get c d = .ok (g v)) :
    ∃ bm, wavelet_bitmap data d coding = .ok bm ∧ BitsOf bm (data.map g) := by
  unfold wavelet_bitmap
  obtain ⟨h1, h2, h3, h4⟩ := bitsOf_zeros data.length
  obtain ⟨bm, hrun, hl, hb, hcap, hbits⟩ := foldlM_enum_inv
    (fun (bitmap : BitArray) (iv : Nat × Nat) => do
      let c ← arr_get coding iv.2
      if ← bitarray_get c d then bitarray_set bitmap iv.1 true else pure bitmap)
    (fun k b => b.len = data.length ∧ AllBytes b.data ∧ data.length ≤ 8 * b.data.length ∧
      ∀ p, mm_bit b.data p = (decide (p < k) && g (data.getD p 0)))
    data (bitarray_init data.length) ⟨h2, h1, h3, fun p => by rw [h4 p]; simp⟩
    (by
      intro k hk b ⟨e1, e2, e3, e4⟩
      obtain ⟨c, hc1, hc2⟩ := hg (data[k]) (List.getElem_mem _)
      dsimp only
      rw [hc1, ok_bind', hc2, ok_bind']
      have hgd : data.getD k 0 = data[k] := List.getD_eq_getElem _ _ hk
      by_cases hgv : g (data[k]) = true
      · rw [hgv, if_pos rfl]
        obtain ⟨b', r1, r2, r3, r4, r5⟩ := bitarray_set_spec b k true (by omega) e2 (by omega)
        refine ⟨b', r1, by omega, r4, by omega, ?_⟩
        intro p
        rw [r5 p, e4 p]
        by_cases hp : p = k
        · subst hp
          rw [if_pos rfl, hgd, hgv]
          simp
        · rw [if_neg hp]
          by_cases hp2 : p < k
          · simp [hp2, show p < k + 1 by omega]
          · simp [hp2, show ¬ p < k + 1 by omega]
      · have hgf : g (data[k]) = false := by simpa using hgv
        rw [hgf]
        refine ⟨b, rfl, e1, e2, e3, ?_⟩
        intro p
        rw [e4 p]
        by_cases hp : p = k
        · subst hp
          rw [hgd, hgf]
          simp
        · by_cases hp2 : p < k
          · simp [hp2, show p < k + 1 by omega]
          · simp [hp2, show ¬ p < k + 1 by omega])
  refine ⟨bm, hrun, hb, by omega, ?_⟩
  apply List.ext_getElem
  · simp [bitarray_bits, hl]
  · intro i hi1 hi2
    simp only [bitarray_bits, List.getElem_map, List.getElem_range]
    have hi : i < data.length := by simpa using hi2
    rw [hbits i, List.getD_eq_getElem _ _ hi]
    simp [hi]

theorem bitsOf_get (b : BitArray) (l : List Bool) (h : BitsOf b l) (k : Nat) (hk : k < l.length) :
    bitarray_get b k = .ok (l[k]) := by
  have hlen := bitsOf_len b l h
  obtain ⟨_, hcap, hbits⟩ := h
  rw [bitarray_get_mm_bit b k (by omega) hcap]
  congr 1
  have hk2 : k < (bitarray_bits b).length := by rw [hbits]; exact hk
  have := bitarray_bits_getElem b k hk2
  rw [← this]
  simp only [hbits]

/-- The flag that `wavelet_tree_build` keeps for one side: it stays set as
long as every byte added equals the one before it. -/
theorem leaf_flag_snoc (l : List Nat) (x : Nat) (flag : Bool)
    (h : flag = true ↔ ∀ a ∈ l, ∀ b ∈ l, a = b) :
    ((if (l ++ [x]).length > 1 ∧
          (l ++ [x]).getD ((l ++ [x]).length - 1) 0 ≠ (l ++ [x]).getD ((l ++ [x]).length - 2) 0
        then false else flag) = true) ↔ ∀ a ∈ l ++ [x], ∀ b ∈ l ++ [x], a = b := by
  rcases List.eq_nil_or_concat l with hnil | ⟨l', y, hl⟩
  · subst hnil
    simp only [List.nil_append, List.length_singleton, gt_iff_lt, Nat.lt_irrefl, false_and,
      if_false, List.mem_singleton]
    constructor
    · intro _ a ha b hb; rw [ha, hb]
    · intro _; exact h.mpr (fun a ha => by simp at ha)
  · rw [List.concat_eq_append] at hl
    subst hl
    have hlen : (l' ++ [y] ++ [x]).length = l'.length + 2 := by simp
    have e1 : (l' ++ [y] ++ [x]).getD ((l' ++ [y] ++ [x]).length - 1) 0 = x := by
      rw [hlen, List.getD_eq_getElem?_getD, List.getElem?_append_right (by simp)]
      simp
    have e2 : (l' ++ [y] ++ [x]).getD ((l' ++ [y] ++ [x]).length - 2) 0 = y := by
      rw [hlen, List.getD_eq_getElem?_getD, List.getElem?_append_left (by simp),
        List.getElem?_append_right (by simp)]
      simp
    rw [e1, e2, hlen]
    by_cases hxy : x = y
    · subst hxy
      simp only [ne_eq, not_true_eq_false, and_false, if_false]
      rw [h]
      constructor
      · intro hall a ha b hb
        have ha' : a ∈ l' ++ [x] := by
          rcases List.mem_append.mp ha with h1 | h1
          · exact h1
          · simp at h1; simp [h1]
        have hb' : b ∈ l' ++ [x] := by
          rcases List.mem_append.mp hb with h1 | h1
          · exact h1
          · simp at h1; simp [h1]
        exact hall a ha' b hb'
      · intro hall a ha b hb
        exact hall a (List.mem_append_left _ ha) b (List.mem_append_left _ hb)
    · have hc : l'.length + 2 > 1 ∧ x ≠ y := ⟨by omega, hxy⟩
      rw [if_pos hc]
      constructor
      · intro hf; exact absurd hf (by simp)
      · intro hall
        exact absurd (hall x (by simp) y (by simp)) hxy

/-- The second loop of `wavelet_tree_build`: the bytes with bit 0 and with
bit 1, and whether each side holds one byte value only. -/
theorem wavelet_split_spec (data : List Nat) (bitmap : BitArray) (g : Nat → Bool)
    (hbm : BitsOf bitmap (data.map g)) :
    ∃ ll lr, wavelet_split data bitmap
        = .ok (data.filter (fun v => !g v), data.filter g, ll, lr) ∧
      (ll = true ↔ ∀ a ∈ data.filter (fun v => !g v), ∀ b ∈ data.filter (fun v => !g v), a = b) ∧
      (lr = true ↔ ∀ a ∈ data.filter g, ∀ b ∈ data.filter g, a = b) := by
  unfold wavelet_split
  obtain ⟨st, hrun, e1, e2, e3, e4⟩ := foldlM_enum_inv
    (fun (st : List Nat × List Nat × Bool × Bool) (iv : Nat × Nat) => do
      let (left, right, leaf_left, leaf_right) := st
      if !(← bitarray_get bitmap iv.1) then
        let left := left ++ [iv.2]
        let n := left.length
        let leaf_left := if n > 1 ∧ left.getD (n - 1) 0 ≠ left.getD (n - 2) 0 then false else leaf_left
        pure (left, right, leaf_left, leaf_right)
      else
        let right := right ++ [iv.2]
        let n := right.length
        let leaf_right :=
          if n > 1 ∧ right.getD (n - 1) 0 ≠ right.getD (n - 2) 0 then false else leaf_right
        pure (left, right, leaf_left, leaf_right))
    (fun k st => st.1 = (data.take k).filter (fun v => !g v) ∧ st.2.1 = (data.take k).filter g ∧
      (st.2.2.1 = true ↔ ∀ a ∈ st.1, ∀ b ∈ st.1, a = b) ∧
      (st.2.2.2 = true ↔ ∀ a ∈ st.2.1, ∀ b ∈ st.2.1, a = b))
    data ([], [], true, true)
    ⟨by simp, by simp, by simp, by simp⟩
    (by
      intro k hk st ⟨s1, s2, s3, s4⟩
      obtain ⟨left, right, fl, fr⟩ := st
      simp only at s1 s2 s3 s4
      have hget : bitarray_get bitmap k = .ok (g (data[k])) := by
        rw [bitsOf_get bitmap _ hbm k (by simpa using hk)]
        simp
      have htake : data.take (k + 1) = data.take k ++ [data[k]] := by
        rw [List.take_succ, List.getElem?_eq_getElem hk]
        rfl
      dsimp only
      rw [hget, ok_bind']
      by_cases hgv : g (data[k]) = true
      · rw [hgv]
        simp only [Bool.not_true, Bool.false_eq_true, if_false]
        refine ⟨_, rfl, ?_, ?_, s3, ?_⟩
        · simp only [htake, List.filter_append, s1]
          simp [hgv]
        · simp only [htake, List.filter_append, s2]
          simp [hgv]
        · exact leaf_flag_snoc right (data[k]) fr s4
      · have hgf : g (data[k]) = false := by simpa using hgv
        rw [hgf]
        simp only [Bool.not_false, if_true]
        refine ⟨_, rfl, ?_, ?_, ?_, s4⟩
        · simp only [htake, List.filter_append, s1]
          simp [hgf]
        · simp only [htake, List.filter_append, s2]
          simp [hgf]
        · exact leaf_flag_snoc left (data[k]) fl s3)
  obtain ⟨left, right, fl, fr⟩ := st
  simp only [List.take_length] at e1 e2 e3 e4
  subst e1 e2
  exact ⟨fl, fr, hrun, e3, e4⟩

theorem leaves_ne_nil : ∀ (h : HuffmanNode), h.leaves ≠ [] := by
  intro h
  induction h with
  | leaf v f => simp [HuffmanNode.leaves]
  | inner f l r ihl ihr => simp [HuffmanNode.leaves, ihl]

theorem inner_two_leaves (f : Nat) (l r : HuffmanNode)
    (hnd : (HuffmanNode.inner f l r).leaves.Nodup) :
    ∃ a b, a ∈ (HuffmanNode.inner f l r).leaves ∧ b ∈ (HuffmanNode.inner f l r).leaves ∧ a ≠ b := by
  simp only [HuffmanNode.leaves] at hnd ⊢
  obtain ⟨a, ha⟩ := List.exists_mem_of_ne_nil _ (leaves_ne_nil l)
  obtain ⟨b, hb⟩ := List.exists_mem_of_ne_nil _ (leaves_ne_nil r)
  refine ⟨a, b, List.mem_append_left _ ha, List.mem_append_right _ hb, ?_⟩
  intro e
  rw [e] at ha
  exact (List.nodup_append.mp hnd).2.2 ha hb

/-- A child of a node in `wavelet_tree_build`: a leaf when its side holds one
byte value, else the tree built one level deeper. -/
theorem wavelet_child_spec (coding : List BitArray) (fuel d : Nat) (c : HuffmanNode)
    (sc : List Nat) (flag : Bool) (hnd : c.leaves.Nodup) (hmem : ∀ v, v ∈ c.leaves ↔ v ∈ sc)
    (hflag : flag = true ↔ ∀ a ∈ sc, ∀ b ∈ sc, a = b)
    (ih : 1 ≤ c.height → ∃ t, wavelet_tree_build fuel sc (d + 1) coding = .ok t ∧ TreeOf c sc t) :
    ∃ tc, (if sc.length > 0 then
        if flag then pure (some (WaveletNode.leaf (sc.getD 0 0)))
        else do
          let t ← wavelet_tree_build fuel sc (d + 1) coding
          pure (some t)
      else pure none : Except Err (Option WaveletNode)) = .ok (some tc) ∧ TreeOf c sc tc := by
  have hpos : sc.length > 0 := by
    obtain ⟨a, ha⟩ := List.exists_mem_of_ne_nil _ (leaves_ne_nil c)
    exact List.length_pos_of_mem ((hmem a).mp ha)
  rw [if_pos hpos]
  cases c with
  | leaf v f =>
    have hall : ∀ a ∈ sc, a = v := by
      intro a ha
      have := (hmem a).mpr ha
      simpa [HuffmanNode.leaves] using this
    have hf : flag = true := hflag.mpr (fun a ha b hb => by rw [hall a ha, hall b hb])
    rw [hf, if_pos rfl]
    refine ⟨WaveletNode.leaf v, ?_, rfl⟩
    have h0 : sc.getD 0 0 = v := by
      rw [List.getD_eq_getElem _ _ hpos]
      exact hall _ (List.getElem_mem _)
    rw [h0]
    rfl
  | inner f l r =>
    obtain ⟨a, b, ha, hb, hab⟩ := inner_two_leaves f l r hnd
    have hf : flag = false := by
      cases hfl : flag with
      | false => rfl
      | true =>
        exact absurd (hflag.mp hfl a ((hmem a).mp ha) b ((hmem b).mp hb)) hab
    rw [hf]
    simp only [Bool.false_eq_true, if_false]
    obtain ⟨t, h1, h2⟩ := ih (by simp [HuffmanNode.height])
    rw [h1, ok_bind']
    exact ⟨t, rfl, h2⟩

theorem arr_get_of_getElem? {α : Type} (a : List α) (i : Nat) (x : α) (h : a[i]? = some x) :
    arr_get a i = .ok x := by
  unfold arr_get
  rw [List.get?_eq_getElem?, h]

theorem ite_child_bind {β : Type} (c : Prop) [Decidable c] (f : Bool) (a : Option WaveletNode)
    (m : Except Err WaveletNode) (K : Option WaveletNode → Except Err β) :
    (if c then if f = true then (pure a >>= K) else (m >>= fun t => pure (some t) >>= K)
      else (pure none >>= K))
      = ((if c then if f = true then pure a else (m >>= fun t => pure (some t)) else pure none)
          >>= K) := by
  by_cases hc : c
  · rw [if_pos hc, if_pos hc]
    cases f
    · simp only [Bool.false_eq_true, if_false]
      cases m <;> rfl
    · simp only [if_true]
  · rw [if_neg hc, if_neg hc]

/-- The function `wavelet_tree_build` at an inner node `h` of the Huffman
tree, with the bytes `s` of the leaves below it and the codes of the table
continuing at depth `d`. -/
theorem wavelet_tree_build_spec (coding : List BitArray) :
    ∀ (h : HuffmanNode) (fuel d : Nat) (s : List Nat), 1 ≤ h.height → h.height ≤ fuel →
      h.leaves.Nodup → (∀ v, v ∈ h.leaves ↔ v ∈ s) →
      (∀ v ∈ h.leaves, ∃ c π, coding[v]? = some c ∧ π.length = d ∧ BitsOf c (π ++ h.code v)) →
      ∃ t, wavelet_tree_build fuel s d coding = .ok t ∧ TreeOf h s t := by
  intro h
  induction h with
  | leaf v f => intro fuel d s h1; simp [HuffmanNode.height] at h1
  | inner f l r ihl ihr =>
    intro fuel d s _ hfuel hnd hmem hcode
    obtain ⟨fuel, rfl⟩ : ∃ k, fuel = k + 1 := ⟨fuel - 1, by simp [HuffmanNode.height] at hfuel; omega⟩
    simp only [HuffmanNode.height] at hfuel
    have hndl : l.leaves.Nodup := by
      simp only [HuffmanNode.leaves] at hnd; exact (List.nodup_append.mp hnd).1
    have hndr : r.leaves.Nodup := by
      simp only [HuffmanNode.leaves] at hnd; exact (List.nodup_append.mp hnd).2.1
    have hdisj : ∀ v, v ∈ l.leaves → v ∈ r.leaves → False := by
      intro v h1 h2
      simp only [HuffmanNode.leaves] at hnd
      exact (List.nodup_append.mp hnd).2.2 h1 h2
    have hleaves : ∀ v, v ∈ (HuffmanNode.inner f l r).leaves ↔ v ∈ l.leaves ∨ v ∈ r.leaves := by
      intro v; simp [HuffmanNode.leaves]
    -- the bitmap
    obtain ⟨bm, hbm1, hbm2⟩ := wavelet_bitmap_spec s d coding (fun v => !decide (v ∈ l.leaves)) (by
      intro v hv
      obtain ⟨c, π, e1, e2, e3⟩ := hcode v ((hmem v).mpr hv)
      refine ⟨c, arr_get_of_getElem? _ _ _ e1, ?_⟩
      have hlen : d < (π ++ (HuffmanNode.inner f l r).code v).length := by
        simp only [HuffmanNode.code, List.length_append]
        split <;> simp <;> omega
      rw [bitsOf_get c _ e3 d hlen, List.getElem_append_right (by omega)]
      congr 1
      simp only [e2, Nat.sub_self, HuffmanNode.code]
      by_cases hvl : v ∈ l.leaves <;> simp [hvl])
    obtain ⟨ll, lr, hsp, hll, hlr⟩ := wavelet_split_spec s bm _ hbm2
    have hfl : (fun v => !(fun v => !decide (v ∈ l.leaves)) v) = (fun v => decide (v ∈ l.leaves)) := by
      funext v; simp
    simp only [hfl] at hsp hll
    -- the children
    obtain ⟨tl, hl1, hl2⟩ := wavelet_child_spec coding fuel d l
      (s.filter (fun v => decide (v ∈ l.leaves))) ll hndl (by
        intro v
        simp only [List.mem_filter, decide_eq_true_eq]
        exact ⟨fun hv => ⟨(hmem v).mp ((hleaves v).mpr (Or.inl hv)), hv⟩, fun hv => hv.2⟩) hll
      (fun hh => ihl fuel (d + 1) _ hh (by omega) hndl (by
          intro v
          simp only [List.mem_filter, decide_eq_true_eq]
          exact ⟨fun hv => ⟨(hmem v).mp ((hleaves v).mpr (Or.inl hv)), hv⟩, fun hv => hv.2⟩) (by
          intro v hv
          obtain ⟨c, π, e1, e2, e3⟩ := hcode v ((hleaves v).mpr (Or.inl hv))
          refine ⟨c, π ++ [false], e1, by simp [e2], ?_⟩
          simpa [HuffmanNode.code, hv] using e3))
    have hrmem : ∀ v, v ∈ r.leaves ↔ v ∈ s.filter (fun v => !decide (v ∈ l.leaves)) := by
      intro v
      simp only [List.mem_filter, Bool.not_eq_true', decide_eq_false_iff_not]
      constructor
      · intro hv
        exact ⟨(hmem v).mp ((hleaves v).mpr (Or.inr hv)), fun hvl => hdisj v hvl hv⟩
      · rintro ⟨hv1, hv2⟩
        rcases (hleaves v).mp ((hmem v).mpr hv1) with h1 | h1
        · exact absurd h1 hv2
        · exact h1
    obtain ⟨tr, hr1, hr2⟩ := wavelet_child_spec coding fuel d r
      (s.filter (fun v => !decide (v ∈ l.leaves))) lr hndr hrmem hlr
      (fun hh => ihr fuel (d + 1) _ hh (by omega) hndr hrmem (by
          intro v hv
          obtain ⟨c, π, e1, e2, e3⟩ := hcode v ((hleaves v).mpr (Or.inr hv))
          have hvl : v ∉ l.leaves := fun hvl => hdisj v hvl hv
          refine ⟨c, π ++ [true], e1, by simp [e2], ?_⟩
          simpa [HuffmanNode.code, hvl] using e3))
    refine ⟨WaveletNode.inner bm (some tl) (some tr), ?_, bm, tl, tr, rfl, hbm2, hl2, hr2⟩
    unfold wavelet_tree_build
    rw [hbm1, ok_bind', hsp, ok_bind']
    dsimp only
    rw [ite_child_bind, hl1, ok_bind', ite_child_bind, hr1, ok_bind']
    rfl

theorem append_first_byte (d0 s0 off t : Nat) (h1 : 1 ≤ off) (h2 : off ≤ 7) (ht : t < 8)
    (hs : s0 < 256) :
    (((d0 &&& (255 - (255 >>> off))) ||| (s0 >>> off)) % 256).testBit t
      = if 8 - off ≤ t then d0.testBit t else s0.testBit (t + off) := by
  have hmask : ∀ off, 1 ≤ off → off ≤ 7 → ∀ t < 8,
      (255 - (255 >>> off)).testBit t = decide (8 - off ≤ t) := by decide
  rw [show (256 : Nat) = 2 ^ 8 by norm_num, Nat.testBit_mod_two_pow, Nat.testBit_or,
    Nat.testBit_and, Nat.testBit_shiftRight, hmask off h1 h2 t ht]
  by_cases hc : 8 - off ≤ t
  · have : s0.testBit (off + t) = false := testBit_false_of_lt (show s0 < 2 ^ 8 from hs) (by omega)
    simp [ht, hc, this]
  · simp [ht, hc, Nat.add_comm]

theorem append_mid_byte (p q off t : Nat) (h1 : 1 ≤ off) (h2 : off ≤ 7) (ht : t < 8)
    (hq : q < 256) :
    ((((p <<< (8 - off)) &&& 255) ||| (q >>> off)) % 256).testBit t
      = if 8 - off ≤ t then p.testBit (t - (8 - off)) else q.testBit (t + off) := by
  have h255 : ∀ t < 8, (255 : Nat).testBit t = true := by decide
  rw [show (256 : Nat) = 2 ^ 8 by norm_num, Nat.testBit_mod_two_pow, Nat.testBit_or,
    Nat.testBit_and, Nat.testBit_shiftRight, Nat.testBit_shiftLeft, h255 t ht]
  by_cases hc : 8 - off ≤ t
  · have : q.testBit (off + t) = false := testBit_false_of_lt (show q < 2 ^ 8 from hq) (by omega)
    simp [ht, hc, this]
  · simp [ht, hc, Nat.add_comm]

theorem append_last_byte (p off t : Nat) (ht : t < 8) :
    ((p <<< (8 - off)) % 256).testBit t
      = (decide (8 - off ≤ t) && p.testBit (t - (8 - off))) := by
  rw [show (256 : Nat) = 2 ^ 8 by norm_num, Nat.testBit_mod_two_pow, Nat.testBit_shiftLeft]
  simp [ht]

theorem mm_bit_set (data : List Nat) (i y p : Nat) (hi : i < data.length) :
    mm_bit (data.set i y) p = if p / 8 = i then y.testBit (7 - p % 8) else mm_bit data p := by
  by_cases h : p / 8 = i
  · rw [if_pos h, mm_bit_set_same _ _ _ _ hi h]
  · rw [if_neg h, mm_bit_set_other _ _ _ _ h]

theorem mm_bit_take (mm : List Nat) (m p : Nat) (hp : p < 8 * m) :
    mm_bit (mm.take m) p = mm_bit mm p := by
  have := mm_bit_drop_take mm 0 m p hp
  simpa using this

theorem bitsOf_of_bits (b b' : BitArray) (L M : List Bool) (hb : BitsOf b L)
    (hlen : b'.len = b.len + M.length) (hbytes : AllBytes b'.data)
    (hcap : b'.len ≤ 8 * b'.data.length)
    (hpre : ∀ p < b.len, mm_bit b'.data p = mm_bit b.data p)
    (hnew : ∀ k, (h : k < M.length) → mm_bit b'.data (b.len + k) = M[k]) :
    BitsOf b' (L ++ M) := by
  refine ⟨hbytes, hcap, ?_⟩
  rw [← hb.2.2]
  exact bitarray_bits_append b b' M hlen hpre hnew

theorem bitsOf_bit (b : BitArray) (L : List Bool) (h : BitsOf b L) (k : Nat) (hk : k < L.length) :
    mm_bit b.data k = L[k] := by
  have hk2 : k < (bitarray_bits b).length := by rw [h.2.2]; exact hk
  have := bitarray_bits_getElem b k hk2
  rw [← this]
  simp only [h.2.2]

/-- The unaligned branch of `bitarray_append_bitarray`: the bytes of `bs`
are shifted by `off` bits into the bytes of `D` from byte `base` on. -/
theorem append_shifted (D S : List Nat) (base off N last : Nat) (hD : AllBytes D)
    (hS : AllBytes S) (hoff1 : 1 ≤ off) (hoff2 : off ≤ 7) (hN : 1 ≤ N) (hNS : N ≤ S.length)
    (hcap : base + N ≤ D.length) (hcap2 : last + off > 8 → base + N < D.length) :
    ∃ data, (∀ (β : Type) (K : List Nat → Except Err β), (do
        let d0 ← arr_get D base
        let s0 ← arr_get S 0
        let data ← arr_set D base (((d0 &&& (255 - (255 >>> off))) ||| (s0 >>> off)) % 256)
        let data ← (List.range (N - 1)).foldlM
          (fun (data : List Nat) k => do
            let i := k + 1
            let p ← arr_get S (i - 1)
            let q ← arr_get S i
            arr_set data (base + i) ((((p <<< (8 - off)) &&& 255) ||| (q >>> off)) % 256))
          data
        let data ←
          if last + off > 8 then do
            let p ← arr_get S (N - 1)
            arr_set data (base + N) ((p <<< (8 - off)) % 256)
          else pure data
        K data : Except Err β) = K data) ∧
      data.length = D.length ∧ AllBytes data ∧
      (∀ p, p < 8 * base + off → mm_bit data p = mm_bit D p) ∧
      (∀ m, m < 8 * N → ((8 * base + off + m) / 8 < base + N ∨ last + off > 8) →
        mm_bit data (8 * base + off + m) = mm_bit S m) := by
  have hbase : base < D.length := by omega
  -- the loop
  obtain ⟨data1, hrun, hl1, hb1, hp1, hm1⟩ := foldlM_range_inv
    (fun (data : List Nat) k => do
      let i := k + 1
      let p ← arr_get S (i - 1)
      let q ← arr_get S i
      arr_set data (base + i) ((((p <<< (8 - off)) &&& 255) ||| (q >>> off)) % 256))
    (fun k data => data.length = D.length ∧ AllBytes data ∧
      (∀ p, p < 8 * base + off → mm_bit data p = mm_bit D p) ∧
      (∀ m, m < 8 * N → (8 * base + off + m) / 8 ≤ base + k →
        mm_bit data (8 * base + off + m) = mm_bit S m))
    (N - 1) (D.set base (((D[base] &&& (255 - (255 >>> off))) ||| (S[0] >>> off)) % 256))
    (by
      refine ⟨by simp, allBytes_set _ _ _ hD (Nat.mod_lt _ (by norm_num)), ?_, ?_⟩
      · intro p hp
        rw [mm_bit_set _ _ _ _ hbase]
        by_cases hpb : p / 8 = base
        · rw [if_pos hpb, append_first_byte _ _ _ _ hoff1 hoff2 (by omega)
            (hS _ (List.getElem_mem _)), if_pos (by omega), mm_bit_eq_getElem _ _ (by omega)]
          simp only [hpb]
        · rw [if_neg hpb]
      · intro m hm hle
        rw [mm_bit_set _ _ _ _ hbase, if_pos (by omega),
          append_first_byte _ _ _ _ hoff1 hoff2 (by omega) (hS _ (List.getElem_mem _)),
          if_neg (by omega), mm_bit_eq_getElem _ _ (by omega)]
        have e1 : m / 8 = 0 := by omega
        simp only [e1]
        congr 1
        omega)
    (by
      intro k data hk ⟨hl, hb, hp, hm⟩
      dsimp only
      have e : k + 1 - 1 = k := by omega
      rw [e, arr_get_eq S k (by omega), ok_bind', arr_get_eq S (k + 1) (by omega), ok_bind']
      have hidx : base + (k + 1) < data.length := by omega
      refine ⟨_, arr_set_ok _ _ _ hidx, by simp [hl],
        allBytes_set _ _ _ hb (Nat.mod_lt _ (by norm_num)), ?_, ?_⟩
      · intro p hpp
        rw [mm_bit_set _ _ _ _ hidx, if_neg (by omega)]
        exact hp p hpp
      · intro m hmN hle
        rw [mm_bit_set _ _ _ _ hidx]
        by_cases hbyte : (8 * base + off + m) / 8 = base + (k + 1)
        · rw [if_pos hbyte, append_mid_byte _ _ _ _ hoff1 hoff2 (by omega)
            (hS _ (List.getElem_mem _))]
          by_cases hj : 8 - off ≤ 7 - (8 * base + off + m) % 8
          · rw [if_pos hj, mm_bit_eq_getElem _ _ (by omega)]
            have e1 : m / 8 = k := by omega
            simp only [e1]
            congr 1
            omega
          · rw [if_neg hj, mm_bit_eq_getElem _ _ (by omega)]
            have e1 : m / 8 = k + 1 := by omega
            simp only [e1]
            congr 1
            omega
        · rw [if_neg hbyte]
          exact hm m hmN (by omega))
  have hstart : ∀ (β : Type) (K : List Nat → Except Err β), (do
        let d0 ← arr_get D base
        let s0 ← arr_get S 0
        let data ← arr_set D base (((d0 &&& (255 - (255 >>> off))) ||| (s0 >>> off)) % 256)
        let data ← (List.range (N - 1)).foldlM
          (fun (data : List Nat) k => do
            let i := k + 1
            let p ← arr_get S (i - 1)
            let q ← arr_get S i
            arr_set data (base + i) ((((p <<< (8 - off)) &&& 255) ||| (q >>> off)) % 256))
          data
        let data ←
          if last + off > 8 then do
            let p ← arr_get S (N - 1)
            arr_set data (base + N) ((p <<< (8 - off)) % 256)
          else pure data
        K data : Except Err β)
      = ((if last + off > 8 then do
            let p ← arr_get S (N - 1)
            arr_set data1 (base + N) ((p <<< (8 - off)) % 256)
          else pure data1) >>= K) := by
    intro β K
    rw [arr_get_eq D base hbase, ok_bind', arr_get_eq S 0 (by omega), ok_bind',
      arr_set_ok _ _ _ hbase, ok_bind', hrun, ok_bind']
    dsimp only
    by_cases h : last + off > 8
    · rw [if_pos h, if_pos h]
      cases arr_get S (N - 1) <;> rfl
    · rw [if_neg h, if_neg h]
  by_cases hlast : last + off > 8
  · have hidx : base + N < data1.length := by have := hcap2 hlast; omega
    refine ⟨data1.set (base + N) ((S[N - 1] <<< (8 - off)) % 256), ?_, by simp [hl1],
      allBytes_set _ _ _ hb1 (Nat.mod_lt _ (by norm_num)), ?_, ?_⟩
    · intro β K
      rw [hstart, if_pos hlast, arr_get_eq S (N - 1) (by omega), ok_bind',
        arr_set_ok _ _ _ hidx, ok_bind']
    · intro p hpp
      rw [mm_bit_set _ _ _ _ hidx, if_neg (by omega)]
      exact hp1 p hpp
    · intro m hmN _
      rw [mm_bit_set _ _ _ _ hidx]
      by_cases hbyte : (8 * base + off + m) / 8 = base + N
      · rw [if_pos hbyte, append_last_byte _ _ _ (by omega)]
        have hj : 8 - off ≤ 7 - (8 * base + off + m) % 8 := by omega
        rw [decide_eq_true hj, Bool.true_and, mm_bit_eq_getElem _ _ (by omega)]
        have e1 : m / 8 = N - 1 := by omega
        simp only [e1]
        congr 1
        omega
      · rw [if_neg hbyte]
        exact hm1 m hmN (by omega)
  · refine ⟨data1, ?_, hl1, hb1, hp1, ?_⟩
    · intro β K
      rw [hstart, if_neg hlast]
      rfl
    · intro m hmN hor
      rcases hor with h | h
      · exact hm1 m hmN (by omega)
      · exact absurd h hlast

theorem byte_len_eq (n : Nat) : BYTE_LEN n = (n + 7) / 8 := by
  simp [BYTE_LEN, DIVUP]

/-- The function `bitarray_append_bitarray` appends the bits of `bs`. -/
theorem bitarray_append_bitarray_spec (b bs : BitArray) (L M : List Bool) (hb : BitsOf b L)
    (hbs : BitsOf bs M) :
    ∃ b', bitarray_append_bitarray b bs = .ok b' ∧ BitsOf b' (L ++ M) := by
  have hL := bitsOf_len b L hb
  have hM := bitsOf_len bs M hbs
  unfold bitarray_append_bitarray
  by_cases h0 : bs.len = 0
  · rw [if_pos h0]
    have : M = [] := List.eq_nil_of_length_eq_zero (by omega)
    subst this
    exact ⟨b, rfl, by simpa using hb⟩
  rw [if_neg h0]
  by_cases h1 : b.len = 0
  · rw [if_pos h1]
    have : L = [] := List.eq_nil_of_length_eq_zero (by omega)
    subst this
    exact ⟨_, rfl, by simpa using hbs⟩
  rw [if_neg h1]
  dsimp only
  obtain ⟨k, hD, hlen1, hcap1⟩ := bitarray_resize_spec b (BYTE_LEN (b.len + bs.len))
  generalize bitarray_resize b (BYTE_LEN (b.len + bs.len)) = b1 at hD hlen1 hcap1 ⊢
  rw [byte_len_eq] at hcap1
  have hDb : AllBytes b1.data := by rw [hD]; exact allBytes_append_zeros _ _ hb.1
  have hN : BYTE_LEN bs.len = (bs.len + 7) / 8 := byte_len_eq _
  have hScap : bs.len ≤ 8 * bs.data.length := hbs.2.1
  by_cases hoff : b1.len % 8 > 0
  · rw [if_pos hoff]
    obtain ⟨data, hK, hdl, hdb, hpre, hnew⟩ := append_shifted b1.data bs.data (b1.len / 8)
      (b1.len % 8) (BYTE_LEN bs.len) (if bs.len % 8 = 0 then 8 else bs.len % 8) hDb hbs.1
      (by omega) (by omega) (by omega) (by omega) (by omega) (by
        intro hlast
        split at hlast <;> omega)
    have hK' := hK BitArray (fun y => pure { len := b1.len + bs.len, data := y })
    dsimp only at hK'
    rw [hK']
    refine ⟨_, rfl, ?_⟩
    apply bitsOf_of_bits b _ L M hb
    · simp only; omega
    · exact hdb
    · simp only; omega
    · intro p hp
      simp only
      rw [hpre p (by omega), hD, mm_bit_append_zeros]
    · intro j hj
      simp only
      have := hnew j (by omega) (by
        by_cases hc : (if bs.len % 8 = 0 then 8 else bs.len % 8) + b1.len % 8 > 8
        · exact Or.inr hc
        · left
          split at hc <;> omega)
      have e : 8 * (b1.len / 8) + b1.len % 8 + j = b.len + j := by omega
      rw [e] at this
      rw [this, bitsOf_bit bs M hbs j hj]
  · rw [if_neg hoff]
    have hc : ¬ (bs.data.length < BYTE_LEN bs.len ∨
        b1.data.length < b1.len / 8 + BYTE_LEN bs.len) := by
      rw [hN]; omega
    rw [if_neg hc]
    refine ⟨_, rfl, ?_⟩
    have hlt : (b1.data.take (b1.len / 8)).length = b1.len / 8 := by
      rw [List.length_take]; omega
    have hls : (bs.data.take (BYTE_LEN bs.len)).length = BYTE_LEN bs.len := by
      rw [List.length_take, hN]; omega
    apply bitsOf_of_bits b _ L M hb
    · simp only; omega
    · intro x hx
      simp only [List.mem_append] at hx
      rcases hx with (hx | hx) | hx
      · exact hDb x (List.mem_of_mem_take hx)
      · exact hbs.1 x (List.mem_of_mem_take hx)
      · exact hDb x (List.mem_of_mem_drop hx)
    · simp only [List.length_append, List.length_drop, hlt, hls]
      rw [hN]
      omega
    · intro p hp
      simp only
      rw [List.append_assoc, mm_bit_append_left _ _ _ (by rw [hlt]; omega),
        mm_bit_take _ _ _ (by omega), hD, mm_bit_append_zeros]
    · intro j hj
      simp only
      rw [mm_bit_append_left _ _ _ (by
          rw [List.length_append, hlt, hls, hN]; omega),
        mm_bit_append_right _ _ _ (by rw [hlt]; omega), hlt,
        mm_bit_take _ _ _ (by rw [hN]; omega)]
      have e : b.len + j - 8 * (b1.len / 8) = j := by omega
      rw [e, bitsOf_bit bs M hbs j hj]

/-- The function `wavelet_tree_encode_nodes` writes the shape of the tree and
collects the bits of its inner nodes. -/
theorem wavelet_tree_encode_nodes_spec :
    ∀ (h : HuffmanNode) (s : List Nat) (t : WaveletNode) (w : BitWriter) (bits : BitArray)
      (L : List Bool), TreeOf h s t → (∀ v ∈ h.leaves, v < 256) → WOk w.data → BitsOf bits L →
      ∃ w' bits', wavelet_tree_encode_nodes t w bits = .ok (w', bits') ∧ WOk w'.data ∧
        bitarray_bits w'.data = bitarray_bits w.data ++ shape_bits h ∧
        BitsOf bits' (L ++ node_bits h s) := by
  intro h
  induction h with
  | leaf v f =>
    intro s t w bits L ht hlt hw hbits
    simp only [TreeOf] at ht
    subst ht
    obtain ⟨w1, r1, k1, b1⟩ := bitwriter_write_bit_spec w 1 hw (by omega)
    obtain ⟨w2, r2, k2, b2⟩ := bitwriter_write_byte_spec w1 v k1
      (hlt v (by simp [HuffmanNode.leaves]))
    refine ⟨w2, bits, ?_, k2, ?_, ?_⟩
    · simp only [wavelet_tree_encode_nodes]
      rw [r1, ok_bind', r2, ok_bind']
      rfl
    · rw [b2, b1, List.append_assoc]
      rfl
    · simpa [node_bits] using hbits
  | inner f l r ihl ihr =>
    intro s t w bits L ht hlt hw hbits
    simp only [TreeOf] at ht
    obtain ⟨bm, tl, tr, rfl, hbm, htl, htr⟩ := ht
    obtain ⟨w1, r1, k1, b1⟩ := bitwriter_write_bit_spec w 0 hw (by omega)
    obtain ⟨bits1, a1, a2⟩ := bitarray_append_bitarray_spec bits bm L _ hbits hbm
    obtain ⟨w2, bits2, e1, e2, e3, e4⟩ := ihl _ tl w1 bits1 _ htl
      (fun v hv => hlt v (by simp [HuffmanNode.leaves, hv])) k1 a2
    obtain ⟨w3, bits3, g1, g2, g3, g4⟩ := ihr _ tr w2 bits2 _ htr
      (fun v hv => hlt v (by simp [HuffmanNode.leaves, hv])) e2 e4
    refine ⟨w3, bits3, ?_, g2, ?_, ?_⟩
    · simp only [wavelet_tree_encode_nodes]
      rw [r1, ok_bind', a1, ok_bind', e1, ok_bind']
      exact g1
    · rw [g3, e3, b1]
      simp only [shape_bits, List.append_assoc]
      rfl
    · simpa [node_bits, List.append_assoc] using g4

theorem bits_len (w : BitWriter) : w.data.len = (bitarray_bits w.data).length := by
  rw [bitarray_bits_length]

/-- The function `bitwriter_write_bitsequence` on any writer: it appends the
payload of the sequence and pads to a byte. -/
theorem bitwriter_write_bitsequence_stream (w : BitWriter) (b : BitArray) (p : BitsequenceParams)
    (hw : WOk w.data) (hb : BitArrayOk b) (hf1 : 1 ≤ p.factor) (hf2 : p.factor < 2 ^ 26) :
    ∃ w', bitwriter_write_bitsequence w b p = .ok w' ∧ WOk w'.data ∧ w'.data.len % 8 = 0 ∧
      bitarray_bits w'.data = bitarray_bits w.data ++ (bitsequence_payload b p.factor.toNat ++
        List.replicate
          ((8 - (w.data.len + (bitsequence_payload b p.factor.toNat).length) % 8) % 8) false) := by
  obtain ⟨hbytes, hcap, hl63⟩ := hb
  unfold bitwriter_write_bitsequence bitsequence_payload
  by_cases hlen : b.len ≤ 200
  · simp only [hlen, if_true]
    obtain ⟨w1, hr1, hok1, hb1⟩ := bitwriter_write_byte_spec w BITSEQUENCE_REGULAR hw (by decide)
    obtain ⟨w2, hr2, hok2, hb2⟩ := bitwriter_write_vbyte_spec w1 b.len (by omega) hok1
    obtain ⟨w3, hr3, hok3, hb3⟩ := bitwriter_write_bitarray_spec w2 b hok2 hbytes hcap
    obtain ⟨w4, hr4, hok4, hal4, hb4⟩ := bitwriter_flush_spec w3 hok3
    refine ⟨w4, ?_, hok4, hal4, ?_⟩
    · simp only [hr1, hr2, hr3, bind, Except.bind]
      exact hr4
    · have hl3 : w3.data.len = w.data.len + (bytes_bits (BITSEQUENCE_REGULAR ::
          vbyte_bytes 10 b.len) ++ bitarray_bits b).length := by
        rw [bits_len w3, hb3, hb2, hb1, bits_len w, bytes_bits_cons]
        simp only [List.length_append, List.nil_append]
        omega
      rw [hb4, hb3, hb2, hb1, hl3, bytes_bits_cons]
      simp only [List.append_assoc, List.nil_append]
  · rw [if_neg hlen, if_neg hlen]
    unfold bitwriter_write_bitsequence_rg
    rw [bitsequence_build_spec b hbytes hcap p.factor hf1 hf2, ok_bind']
    simp only
    generalize hF : p.factor.toNat = F
    generalize hR : (fun m => bitcount (mm_bit b.data) 0 (m * (32 * F))) = R
    have hRm : ∀ m, bitcount (mm_bit b.data) 0 (m * (32 * F)) = R m := fun m => by rw [← hR]
    have hlast : arr_get ((List.range (b.len / (32 * F) + 1)).map R)
        (((List.range (b.len / (32 * F) + 1)).map R).length - 1) = .ok (R (b.len / (32 * F))) := by
      rw [arr_get_eq _ _ (by simp)]
      congr 1
      simp
    rw [hlast, ok_bind']
    simp only [hRm]
    generalize hW : BITS_NEEDED (R (b.len / (32 * F))) = W
    have hRlast : R (b.len / (32 * F)) < 2 ^ 63 := by
      rw [← hRm]
      calc bitcount (mm_bit b.data) 0 (b.len / (32 * F) * (32 * F))
          ≤ b.len / (32 * F) * (32 * F) := bitcount_le _ _ _
        _ ≤ b.len := Nat.div_mul_le_self _ _
        _ < 2 ^ 63 := hl63
    have hW63 : W ≤ 63 := by rw [← hW]; exact bits_needed_le _ 63 (by norm_num) hRlast
    have hrsW : ∀ x ∈ (List.range (b.len / (32 * F) + 1)).map R, x < 2 ^ W := by
      intro x hx
      obtain ⟨m, hm, rfl⟩ := List.mem_map.mp hx
      have hm' : m ≤ b.len / (32 * F) := by
        have := List.mem_range.mp hm; omega
      calc R m ≤ R (b.len / (32 * F)) := by
            rw [← hRm, ← hRm]
            exact bitcount_mono _ _ _ _ (Nat.mul_le_mul_right _ hm')
        _ < 2 ^ W := by rw [← hW]; exact (bits_needed_spec _).1
    obtain ⟨w1, hr1, hok1, hb1⟩ := bitwriter_write_byte_spec w BITSEQUENCE_RG hw (by decide)
    obtain ⟨w2, hr2, hok2, hb2⟩ := bitwriter_write_vbyte_spec w1 b.len
      (Nat.lt_of_lt_of_le hl63 (Nat.pow_le_pow_right (by norm_num) (by norm_num))) hok1
    have hFlt : F < 2 ^ 26 := by
      have h1 : (p.factor.toNat : Int) = p.factor := Int.toNat_of_nonneg (by omega)
      have : (p.factor.toNat : Int) < 2 ^ 26 := by rw [h1]; exact hf2
      rw [← hF]
      exact_mod_cast this
    have hu : u64 p.factor = F := by
      rw [u64_of_small p.factor (by omega) (by
        calc p.factor < 2 ^ 26 := hf2
          _ < 2 ^ 64 := by norm_num), hF]
    obtain ⟨w3, hr3, hok3, hb3⟩ := bitwriter_write_vbyte_spec w2 F
      (Nat.lt_of_lt_of_le hFlt (Nat.pow_le_pow_right (by norm_num) (by norm_num))) hok2
    obtain ⟨w4, hr4, hok4, hb4⟩ := bitwriter_write_vbyte_spec w3 W
      (Nat.lt_of_le_of_lt hW63 (by norm_num)) hok3
    obtain ⟨w5, hr5, hok5, hb5⟩ := bitwriter_write_bitarray_spec w4 b hok4 hbytes hcap
    obtain ⟨w6, hr6, hok6, hb6⟩ := write_rs_loop ((List.range (b.len / (32 * F) + 1)).map R) W
      (by omega) hrsW ((List.range (b.len / (32 * F) + 1)).map R).length w5 (le_refl _) hok5
    obtain ⟨w7, hr7, hok7, hal7, hb7⟩ := bitwriter_flush_spec w6 hok6
    rw [List.take_length, range_map_drop_one] at hb6
    refine ⟨w7, ?_, hok7, hal7, ?_⟩
    · rw [hr1, ok_bind', hr2, ok_bind', hu, hr3, ok_bind', hr4, ok_bind', hr5, ok_bind', hr6,
        ok_bind']
      exact hr7
    · have hl6 : w6.data.len = w.data.len + (bytes_bits (BITSEQUENCE_RG :: (vbyte_bytes 10 b.len ++
          (vbyte_bytes 10 F ++ vbyte_bytes 10 W))) ++ (bitarray_bits b ++
          fields_bits ((List.range (b.len / (32 * F))).map (fun m => R (m + 1))) W)).length := by
        rw [bits_len w6, hb6, hb5, hb4, hb3, hb2, hb1, bits_len w, bytes_bits_cons,
          bytes_bits_append, bytes_bits_append]
        simp only [List.length_append, List.nil_append]
        omega
      rw [hb7, hb6, hb5, hb4, hb3, hb2, hb1, hl6, bytes_bits_cons, bytes_bits_append,
        bytes_bits_append]
      simp only [List.append_assoc, List.nil_append]

theorem bitwriter_write_bitwriter_spec (w src : BitWriter) (hw : WOk w.data)
    (hal : w.data.len % 8 = 0) (hsrc : WOk src.data) (hsal : src.data.len % 8 = 0) :
    ∃ w', bitwriter_write_bitwriter w src = .ok w' ∧ WOk w'.data ∧ w'.data.len % 8 = 0 ∧
      bitarray_bits w'.data = bitarray_bits w.data ++ bitarray_bits src.data := by
  unfold bitwriter_write_bitwriter
  rw [if_neg (by omega)]
  obtain ⟨w1, r1, k1, b1⟩ := bitwriter_write_bitarray_spec w src.data hw hsrc.1 hsrc.2.2
  obtain ⟨w2, r2, k2, a2, b2⟩ := bitwriter_flush_spec w1 k1
  have hl1 : w1.data.len % 8 = 0 := by
    rw [bits_len w1, b1, List.length_append, ← bits_len w, bitarray_bits_length]
    omega
  refine ⟨w2, ?_, k2, a2, ?_⟩
  · rw [r1, ok_bind']
    exact r2
  · rw [b2, b1, hl1]
    simp

theorem bytes_bits_inj (x y : List Nat) (hx : AllBytes x) (hy : AllBytes y)
    (h : bytes_bits x = bytes_bits y) : x = y := by
  obtain ⟨body, h1, h2⟩ := bytes_bits_split y x [] hx hy (by rw [h]; simp)
  have : body = [] := by
    have := congrArg List.length h2
    rw [bytes_bits_length] at this
    exact List.eq_nil_of_length_eq_zero (by simpa using this)
  rw [h1, this, List.append_nil]

theorem bitwriter_bytes_length (w : BitWriter) (hw : WOk w.data) :
    (bitwriter_bytes w).length = bitwriter_bytelen w := by
  unfold bitwriter_bytes
  rw [List.length_take]
  have := hw.2.2
  unfold bitwriter_bytelen bitwriter_len
  rw [byte_len_eq]
  omega

theorem nodup_length_le (l : List Nat) (n : Nat) (hnd : l.Nodup) (h : ∀ v ∈ l, v < n) :
    l.length ≤ n := by
  have h1 : l.toFinset ⊆ Finset.range n := by
    intro v hv
    rw [List.mem_toFinset] at hv
    exact Finset.mem_range.mpr (h v hv)
  have h2 := Finset.card_le_card h1
  rw [List.toFinset_card_of_nodup hnd, Finset.card_range] at h2
  exact h2

theorem height_lt_leaves : ∀ (h : HuffmanNode), h.height < h.leaves.length := by
  intro h
  induction h with
  | leaf v f => simp [HuffmanNode.height, HuffmanNode.leaves]
  | inner f l r ihl ihr =>
    simp only [HuffmanNode.height, HuffmanNode.leaves, List.length_append]
    omega

theorem shape_bits_length : ∀ (h : HuffmanNode), (shape_bits h).length + 1 = 10 * h.leaves.length := by
  intro h
  induction h with
  | leaf v f => simp [shape_bits, HuffmanNode.leaves, bits_be_length]
  | inner f l r ihl ihr =>
    simp only [shape_bits, HuffmanNode.leaves, List.length_append, List.length_cons]
    omega

theorem filter_length_split (s : List Nat) (q : Nat → Bool) :
    (s.filter q).length + (s.filter (fun v => !q v)).length = s.length := by
  induction s with
  | nil => rfl
  | cons a t ih =>
    by_cases h : q a = true
    · simp only [List.filter_cons, h, if_true, Bool.not_true, Bool.false_eq_true, if_false,
        List.length_cons]
      omega
    · have h' : q a = false := by simpa using h
      simp only [List.filter_cons, h', Bool.false_eq_true, if_false, Bool.not_false, if_true,
        List.length_cons]
      omega

theorem node_bits_length_le : ∀ (h : HuffmanNode) (s : List Nat),
    (node_bits h s).length ≤ h.height * s.length := by
  intro h
  induction h with
  | leaf v f => intro s; simp [node_bits]
  | inner f l r ihl ihr =>
    intro s
    simp only [node_bits, HuffmanNode.height, List.length_append, List.length_map]
    have h1 := ihl (s.filter (fun v => decide (v ∈ l.leaves)))
    have h2 := ihr (s.filter (fun v => !decide (v ∈ l.leaves)))
    have h3 := filter_length_split s (fun v => decide (v ∈ l.leaves))
    have h4 : l.height * (s.filter (fun v => decide (v ∈ l.leaves))).length
        ≤ max l.height r.height * (s.filter (fun v => decide (v ∈ l.leaves))).length :=
      Nat.mul_le_mul_right _ (le_max_left _ _)
    have h5 : r.height * (s.filter (fun v => !decide (v ∈ l.leaves))).length
        ≤ max l.height r.height * (s.filter (fun v => !decide (v ∈ l.leaves))).length :=
      Nat.mul_le_mul_right _ (le_max_right _ _)
    have h6 : (max l.height r.height + 1) * s.length
        = max l.height r.height * (s.filter (fun v => decide (v ∈ l.leaves))).length
          + max l.height r.height * (s.filter (fun v => !decide (v ∈ l.leaves))).length
          + s.length := by
      rw [← h3]; ring
    omega

end Wire
namespace Wire

/-- The bytes that `wavelet_tree_write` produces: the length, the number of
bytes of the shape, the shape of a Huffman tree `H` of the byte values and
the bit sequence of the bits of its inner nodes. -/
theorem wavelet_tree_write_layout (data : List Nat) (p : BitsequenceParams)
    (hd : ∀ x ∈ data, x < 256) (h2 : ∃ a ∈ data, ∃ b ∈ data, a ≠ b)
    (hlen : data.length < 2 ^ 55) (hf1 : 1 ≤ p.factor) (hf2 : p.factor < 2 ^ 26) :
    ∃ (H : HuffmanNode) (w : BitWriter) (nodes : List Nat) (bits : BitArray) (pad : Nat)
      (wf : BitWriter),
      wavelet_tree_write data bitwriter_init p = .ok w ∧
      H.leaves.Nodup ∧ (∀ v, v ∈ H.leaves ↔ v ∈ data) ∧ 1 ≤ H.height ∧
      BitsOf bits (node_bits H data) ∧ bits.len < 2 ^ 63 ∧
      AllBytes nodes ∧ pad < 8 ∧
      bytes_bits nodes = shape_bits H ++ List.replicate pad false ∧
      bitwriter_write_bitsequence bitwriter_init bits p = .ok wf ∧
      bitwriter_bytes w = vbyte_bytes 10 data.length ++
        (vbyte_bytes 10 nodes.length ++ (nodes ++ bitwriter_bytes wf)) := by
  obtain ⟨a, ha, b, hb, hab⟩ := h2
  have hne : data ≠ [] := List.ne_nil_of_mem ha
  obtain ⟨H, coding, c1, hnd, hmem, c4, c5, c6⟩ := huffman_create_coding_spec data hd hne
  have hlt : ∀ v ∈ H.leaves, v < 256 := fun v hv => hd v ((hmem v).mp hv)
  have hleaves : H.leaves.length ≤ 256 := nodup_length_le _ _ hnd hlt
  have hheight := height_lt_leaves H
  have hh1 : 1 ≤ H.height := by
    cases H with
    | leaf v f =>
      have e1 := (hmem a).mpr ha
      have e2 := (hmem b).mpr hb
      simp only [HuffmanNode.leaves, List.mem_singleton] at e1 e2
      exact absurd (e1.trans e2.symm) hab
    | inner f l r => simp [HuffmanNode.height]
  obtain ⟨tree, t1, t2⟩ := wavelet_tree_build_spec coding H (BYTE_COUNT + 1) 0 data hh1
    (by rw [show BYTE_COUNT = 256 from rfl]; omega) hnd hmem (by
      intro v hv
      obtain ⟨c, e1, e2⟩ := c5 v hv
      exact ⟨c, [], e1, rfl, by simpa using e2⟩)
  obtain ⟨nw, bits, n1, n2, n3, n4⟩ := wavelet_tree_encode_nodes_spec H data tree bitwriter_init
    (bitarray_init 0) [] t2 hlt wok_init bitsOf_init
  rw [bitarray_bits_init] at n3
  simp only [List.nil_append] at n3 n4
  obtain ⟨nw2, f1, f2, f3, f4⟩ := bitwriter_flush_spec nw n2
  obtain ⟨hnb1, hnb2⟩ := bitwriter_bytes_spec nw2 f2 f3
  have hnl := bitwriter_bytes_length nw2 f2
  obtain ⟨w1, v1, v2, v3⟩ := bitwriter_write_vbyte_spec bitwriter_init data.length
    (Nat.lt_of_lt_of_le hlen (Nat.pow_le_pow_right (by norm_num) (by norm_num))) wok_init
  rw [bitarray_bits_init, List.nil_append] at v3
  have hshape := shape_bits_length H
  have hnbound : bitwriter_bytelen nw2 < 2 ^ 64 := by
    rw [← hnl]
    have e := congrArg List.length hnb2
    rw [bytes_bits_length, f4, n3, List.length_append, List.length_replicate] at e
    have : (8 - nw.data.len % 8) % 8 < 8 := Nat.mod_lt _ (by norm_num)
    have h64 : (2 : Nat) ^ 64 = 18446744073709551616 := by norm_num
    omega
  obtain ⟨w2, u1, u2, u3⟩ := bitwriter_write_vbyte_spec w1 (bitwriter_bytelen nw2) hnbound v2
  have hal2 : w2.data.len % 8 = 0 := by
    rw [bits_len w2, u3, v3, List.length_append, bytes_bits_length, bytes_bits_length]
    omega
  obtain ⟨w3, x1, x2, x3, x4⟩ := bitwriter_write_bitwriter_spec w2 nw2 u2 hal2 f2 f3
  have hbl : bits.len < 2 ^ 63 := by
    rw [bitsOf_len bits _ n4]
    have h1 := node_bits_length_le H data
    have h3 : H.height * data.length ≤ 256 * data.length := Nat.mul_le_mul_right _ (by omega)
    have h55 : (2 : Nat) ^ 55 = 36028797018963968 := by norm_num
    have h63 : (2 : Nat) ^ 63 = 9223372036854775808 := by norm_num
    omega
  have hbok : BitArrayOk bits := ⟨n4.1, n4.2.1, hbl⟩
  obtain ⟨w4, y1, y2, y3, y4⟩ := bitwriter_write_bitsequence_stream w3 bits p x2 hbok hf1 hf2
  obtain ⟨wf, z1, z2, z3, z4⟩ := bitwriter_write_bitsequence_stream bitwriter_init bits p
    wok_init hbok hf1 hf2
  obtain ⟨w5, q1, q2, q3, q4⟩ := bitwriter_flush_spec w4 y2
  rw [y3] at q4
  simp only [Nat.sub_zero, Nat.mod_self, List.replicate_zero, List.append_nil] at q4
  obtain ⟨hwb1, hwb2⟩ := bitwriter_bytes_spec w5 q2 q3
  obtain ⟨hfb1, hfb2⟩ := bitwriter_bytes_spec wf z2 z3
  have hpad : (8 - (w3.data.len + (bitsequence_payload bits p.factor.toNat).length) % 8) % 8
      = (8 - ((bitwriter_init).data.len + (bitsequence_payload bits p.factor.toNat).length) % 8)
          % 8 := by
    have : (bitwriter_init).data.len = 0 := rfl
    rw [this]
    omega
  refine ⟨H, w5, bitwriter_bytes nw2, bits, (8 - nw.data.len % 8) % 8, wf, ?_, hnd, hmem, hh1,
    n4, hbl, hnb1, Nat.mod_lt _ (by norm_num), ?_, z1, ?_⟩
  · unfold wavelet_tree_write
    rw [c1, ok_bind', t1, ok_bind', n1, ok_bind']
    dsimp only
    rw [f1, ok_bind', v1, ok_bind', u1, ok_bind', x1, ok_bind', y1, ok_bind']
    exact q1
  · rw [hnb2, f4, n3]
  · apply bytes_bits_inj _ _ hwb1
    · intro x hx
      simp only [List.mem_append] at hx
      rcases hx with hx | hx | hx | hx
      · exact vbyte_bytes_allBytes _ _ x hx
      · exact vbyte_bytes_allBytes _ _ x hx
      · exact hnb1 x hx
      · exact hfb1 x hx
    · rw [hwb2, q4, y4, x4, u3, v3, hpad, ← hnb2, hnl, bytes_bits_append, bytes_bits_append,
        bytes_bits_append, hfb2, z4, bitarray_bits_init]
      simp only [List.append_assoc, List.nil_append]

end Wire
/-! ### A bit sequence that lies behind other bytes of the file -/

namespace Wire

theorem arr_get_append_right {α : Type} (pre mm : List α) (k : Nat) :
    arr_get (pre ++ mm) (pre.length + k) = arr_get mm k := by
  unfold arr_get
  simp only [List.get?_eq_getElem?]
  rw [List.getElem?_append_right (by omega)]
  congr 2
  omega

theorem reader_bitpos_shifted (pre : List Nat) (r : Reader) (pos : Nat) :
    reader_bitpos (r.shifted pre) pos = (reader_bitpos r pos).map (Reader.shifted pre) := by
  unfold reader_bitpos reader_bitlen Reader.shifted
  simp only [List.length_append]
  by_cases h : pos + r.bitoff ≥ 8 * r.mm.length
  · rw [if_pos (by omega), if_pos h]; rfl
  · rw [if_neg (by omega), if_neg h]
    simp only [Except.map]
    congr 2
    omega

theorem check_remaining_shifted (pre : List Nat) (r : Reader) (n : Nat) :
    check_remaining (r.shifted pre) n = check_remaining r n := by
  unfold check_remaining reader_bitlen Reader.shifted
  simp only [List.length_append]
  by_cases h : r.bitpos + n > 8 * r.mm.length
  · rw [if_pos (by omega), if_pos h]
  · rw [if_neg (by omega), if_neg h]

theorem shifted_div (pre : List Nat) (r : Reader) :
    (r.shifted pre).bitpos / 8 = pre.length + r.bitpos / 8 := by
  unfold Reader.shifted
  simp only
  omega

theorem shifted_mod (pre : List Nat) (r : Reader) :
    (r.shifted pre).bitpos % 8 = r.bitpos % 8 := by
  unfold Reader.shifted
  simp only
  omega

theorem reader_read_shifted (pre : List Nat) (r : Reader) (n : Nat) :
    reader_read (r.shifted pre) n
      = (reader_read r n).map (fun x => (x.1, x.2.shifted pre)) := by
  unfold reader_read
  rw [check_remaining_shifted, shifted_div, shifted_mod]
  cases check_remaining r (8 * n) with
  | error e => rfl
  | ok u =>
    simp only [ok_bind']
    by_cases h : r.bitpos % 8 > 0
    · rw [if_pos h, if_pos h]; rfl
    · rw [if_neg h, if_neg h]
      simp only [pure, Except.pure, Except.map, Reader.shifted]
      congr 2
      · congr 1
        rw [List.drop_append_eq_append_drop, List.drop_of_length_le (by omega)]
        simp
      · congr 1
        omega

theorem drop_shifted (pre mm : List Nat) (k : Nat) :
    (pre ++ mm).drop (pre.length + k) = mm.drop k := by
  rw [List.drop_append_eq_append_drop, List.drop_of_length_le (by omega)]
  simp

theorem reader_readint_shifted (pre : List Nat) (r : Reader) (bits : Nat) :
    reader_readint (r.shifted pre) bits
      = (reader_readint r bits).map (fun x => (x.1, x.2.shifted pre)) := by
  unfold reader_readint
  by_cases hb : bits > 64
  · rw [if_pos hb, if_pos hb]; rfl
  rw [if_neg hb, if_neg hb, check_remaining_shifted]
  cases check_remaining r bits with
  | error e => rfl
  | ok u =>
    simp only [ok_bind']
    have e1 : (r.shifted pre).bitpos / 8 = pre.length + r.bitpos / 8 := shifted_div pre r
    have e2 : (r.shifted pre).bitpos % 8 = r.bitpos % 8 := shifted_mod pre r
    have e3 : BYTE_LEN ((r.shifted pre).bitpos + bits) - (r.shifted pre).bitpos / 8
        = BYTE_LEN (r.bitpos + bits) - r.bitpos / 8 := by
      unfold BYTE_LEN DIVUP Reader.shifted
      simp only
      omega
    have e4 : (r.shifted pre).mm = pre ++ r.mm := rfl
    have e5 : (⟨(r.shifted pre).mm, (r.shifted pre).bitoff, (r.shifted pre).bitpos + bits⟩ : Reader)
        = Reader.shifted pre ⟨r.mm, r.bitoff, r.bitpos + bits⟩ := by
      unfold Reader.shifted
      simp only
      congr 1
      omega
    rw [e3, e5, e1, e2, e4, drop_shifted, arr_get_append_right]
    by_cases h0 : r.bitpos % 8 = 0
    · rw [if_pos h0, if_pos h0]
      by_cases h8 : bits < 8
      · rw [if_pos h8, if_pos h8]
        cases arr_get r.mm (r.bitpos / 8) <;> rfl
      rw [if_neg h8, if_neg h8]
      by_cases h9 : bits = 8
      · rw [if_pos h9, if_pos h9]
        cases arr_get r.mm (r.bitpos / 8) <;> rfl
      rw [if_neg h9, if_neg h9]
      by_cases h10 : 8 * (BYTE_LEN (r.bitpos + bits) - r.bitpos / 8) = bits
      · rw [if_pos h10, if_pos h10]; rfl
      · rw [if_neg h10, if_neg h10]; rfl
    · rw [if_neg h0, if_neg h0]
      by_cases h11 : BYTE_LEN (r.bitpos + bits) - r.bitpos / 8 > 8
      · rw [if_pos h11, if_pos h11]
        by_cases h12 : bits ≥ 64
        · rw [if_pos h12, if_pos h12]; rfl
        · rw [if_neg h12, if_neg h12]; rfl
      · rw [if_neg h11, if_neg h11]
        by_cases h12 : bits ≥ 64
        · rw [if_pos h12, if_pos h12]; rfl
        · rw [if_neg h12, if_neg h12]; rfl

theorem reader_readbyte_shifted (pre : List Nat) (r : Reader) :
    reader_readbyte (r.shifted pre)
      = (reader_readbyte r).map (fun x => (x.1, x.2.shifted pre)) := by
  unfold reader_readbyte
  rw [check_remaining_shifted]
  cases check_remaining r 8 with
  | error e => rfl
  | ok u =>
    simp only [ok_bind']
    have e1 : (r.shifted pre).bitpos / 8 = pre.length + r.bitpos / 8 := shifted_div pre r
    have e2 : (r.shifted pre).bitpos % 8 = r.bitpos % 8 := shifted_mod pre r
    have e4 : (r.shifted pre).mm = pre ++ r.mm := rfl
    have e5 : (⟨(r.shifted pre).mm, (r.shifted pre).bitoff, (r.shifted pre).bitpos + 8⟩ : Reader)
        = Reader.shifted pre ⟨r.mm, r.bitoff, r.bitpos + 8⟩ := by
      unfold Reader.shifted
      simp only
      congr 1
      omega
    rw [e5, e1, e2, e4, arr_get_append_right, Nat.add_assoc, arr_get_append_right]
    by_cases h0 : r.bitpos % 8 = 0
    · rw [if_pos h0, if_pos h0]
      cases arr_get r.mm (r.bitpos / 8) <;> rfl
    · rw [if_neg h0, if_neg h0]
      cases arr_get r.mm (r.bitpos / 8) with
      | error e => rfl
      | ok d0 =>
        simp only [ok_bind']
        cases arr_get r.mm (r.bitpos / 8 + 1) <;> rfl

theorem reader_vbyte_loop_shifted (pre : List Nat) :
    ∀ (fuel : Nat) (r : Reader) (val n shift : Nat) (x : Nat × Nat × Reader),
      reader_vbyte_loop fuel r val n shift = .ok x →
      ∀ fuel2, fuel ≤ fuel2 →
        reader_vbyte_loop fuel2 (r.shifted pre) val n shift
          = .ok (x.1, x.2.1, x.2.2.shifted pre) := by
  intro fuel
  induction fuel with
  | zero => intro r val n shift x h; exact absurd h (by simp [reader_vbyte_loop])
  | succ fuel ih =>
    intro r val n shift x h fuel2 hf
    obtain ⟨f2, rfl⟩ : ∃ f2, fuel2 = f2 + 1 := ⟨fuel2 - 1, by omega⟩
    unfold reader_vbyte_loop at h ⊢
    rw [reader_readbyte_shifted]
    cases hrb : reader_readbyte r with
    | error e => rw [hrb] at h; exact absurd h (by simp [bind, Except.bind])
    | ok y =>
      obtain ⟨nib, r1⟩ := y
      rw [hrb, ok_bind'] at h
      simp only [Except.map, ok_bind']
      dsimp only at h ⊢
      by_cases hs : shift ≥ 64
      · rw [if_pos hs] at h; exact absurd h (by simp)
      rw [if_neg hs] at h ⊢
      by_cases hn : nib &&& 128 > 0
      · rw [if_pos hn] at h ⊢
        simp only [pure, Except.pure, Except.ok.injEq] at h
        rw [← h]; rfl
      · rw [if_neg hn] at h ⊢
        exact ih _ _ _ _ _ h _ (by omega)

theorem reader_vbyte_shifted (pre : List Nat) (r : Reader) (x : Nat × Nat × Reader)
    (h : reader_vbyte r = .ok x) :
    reader_vbyte (r.shifted pre) = .ok (x.1, x.2.1, x.2.2.shifted pre) := by
  unfold reader_vbyte at h ⊢
  exact reader_vbyte_loop_shifted pre _ _ _ _ _ _ h _ (by
    unfold Reader.shifted
    simp only [List.length_append]
    omega)

theorem rs_value_shifted (pre : List Nat) (b : BitsequenceReader) (i : Nat) :
    rs_value (b.shifted pre) i = rs_value b i := by
  unfold rs_value
  by_cases h : i = 0
  · rw [if_pos h, if_pos h]
  rw [if_neg h, if_neg h]
  have e : (b.shifted pre).r = b.r.shifted pre := rfl
  have e1 : (b.shifted pre).rs_off = b.rs_off := rfl
  have e2 : (b.shifted pre).bits_per_rs = b.bits_per_rs := rfl
  rw [e, e1, e2, reader_bitpos_shifted]
  cases reader_bitpos b.r (b.rs_off + b.bits_per_rs * (i - 1)) with
  | error e => rfl
  | ok r =>
    simp only [Except.map, ok_bind']
    rw [reader_readint_shifted]
    cases reader_readint r b.bits_per_rs <;> rfl

theorem bitsequence_reader_rank1_shifted (pre : List Nat) (b : BitsequenceReader) (i : Int) :
    bitsequence_reader_rank1 (b.shifted pre) i = bitsequence_reader_rank1 b i := by
  unfold bitsequence_reader_rank1
  have e : (b.shifted pre).r = b.r.shifted pre := rfl
  have e1 : (b.shifted pre).len = b.len := rfl
  have e2 : (b.shifted pre).ones = b.ones := rfl
  have e3 : (b.shifted pre).type = b.type := rfl
  have e4 : (b.shifted pre).s = b.s := rfl
  have e5 : (b.shifted pre).factor = b.factor := rfl
  have e6 : (b.shifted pre).off = b.off := rfl
  rw [e, e1, e2, e3, e4, e5, e6]
  simp only [rs_value_shifted]
  by_cases h : i < 0
  · rw [if_pos h, if_pos h]
  rw [if_neg h, if_neg h]
  by_cases h1 : i ≥ b.len
  · rw [if_pos h1, if_pos h1]
  rw [if_neg h1, if_neg h1]
  have tail : ∀ res aux : Nat,
      (if i.toNat + 1 - BLOCKW * aux ≠ 0 then do
        let r ← reader_bitpos (Reader.shifted pre b.r) (b.off + BLOCKW * aux)
        let x ← reader_read r (BYTE_LEN (i.toNat + 1 - BLOCKW * aux))
        if BYTE_LEN (i.toNat + 1 - BLOCKW * aux) * 8 - (i.toNat + 1 - BLOCKW * aux) ≠ 0 then do
          let y ← arr_get x.1 (BYTE_LEN (i.toNat + 1 - BLOCKW * aux) - 1)
          (pure (res + popcnt x.1 (BYTE_LEN (i.toNat + 1 - BLOCKW * aux) - 1) + POPCNT8 (y >>>
            (BYTE_LEN (i.toNat + 1 - BLOCKW * aux) * 8 - (i.toNat + 1 - BLOCKW * aux)))) :
              Except Err Nat)
        else pure (res + popcnt x.1 (BYTE_LEN (i.toNat + 1 - BLOCKW * aux)))
      else pure res) =
      (if i.toNat + 1 - BLOCKW * aux ≠ 0 then do
        let r ← reader_bitpos b.r (b.off + BLOCKW * aux)
        let x ← reader_read r (BYTE_LEN (i.toNat + 1 - BLOCKW * aux))
        if BYTE_LEN (i.toNat + 1 - BLOCKW * aux) * 8 - (i.toNat + 1 - BLOCKW * aux) ≠ 0 then do
          let y ← arr_get x.1 (BYTE_LEN (i.toNat + 1 - BLOCKW * aux) - 1)
          (pure (res + popcnt x.1 (BYTE_LEN (i.toNat + 1 - BLOCKW * aux) - 1) + POPCNT8 (y >>>
            (BYTE_LEN (i.toNat + 1 - BLOCKW * aux) * 8 - (i.toNat + 1 - BLOCKW * aux)))) :
              Except Err Nat)
        else pure (res + popcnt x.1 (BYTE_LEN (i.toNat + 1 - BLOCKW * aux)))
      else pure res) := by
    intro res aux
    by_cases h2 : i.toNat + 1 - BLOCKW * aux ≠ 0
    · rw [if_pos h2, if_pos h2, reader_bitpos_shifted]
      cases reader_bitpos b.r (b.off + BLOCKW * aux) with
      | error e => rfl
      | ok r =>
        simp only [Except.map, ok_bind']
        rw [reader_read_shifted]
        cases reader_read r (BYTE_LEN (i.toNat + 1 - BLOCKW * aux)) <;> rfl
    · rw [if_neg h2, if_neg h2]
  by_cases hreg : b.type = BITSEQUENCE_REGULAR
  · rw [if_pos hreg, if_pos hreg]
    simp only [pure, Except.pure, ok_bind']
    exact tail 0 0
  rw [if_neg hreg, if_neg hreg]
  by_cases hs : b.s = 0
  · rw [if_pos hs, if_pos hs]; rfl
  rw [if_neg hs, if_neg hs]
  cases rs_value b ((i.toNat + 1) / b.s) with
  | error e => rfl
  | ok res =>
    simp only [pure, Except.pure, ok_bind']
    exact tail res _

theorem bitsequence_reader_init_shifted (pre : List Nat) (r : Reader) (b : BitsequenceReader)
    (h : bitsequence_reader_init r = .ok b) :
    bitsequence_reader_init (r.shifted pre) = .ok (b.shifted pre) := by
  unfold bitsequence_reader_init at h ⊢
  rw [reader_readbyte_shifted]
  cases hrb : reader_readbyte r with
  | error e => rw [hrb] at h; exact absurd h (by simp [bind, Except.bind])
  | ok y =>
    obtain ⟨t, r1⟩ := y
    rw [hrb, ok_bind'] at h
    simp only [Except.map, ok_bind']
    dsimp only at h ⊢
    by_cases ht : t ≠ BITSEQUENCE_REGULAR ∧ t ≠ BITSEQUENCE_RG
    · rw [if_pos ht] at h; exact absurd h (by simp)
    rw [if_neg ht] at h ⊢
    cases hv1 : reader_vbyte r1 with
    | error e => rw [hv1] at h; exact absurd h (by simp [bind, Except.bind])
    | ok y =>
      obtain ⟨len, nb, r2⟩ := y
      rw [hv1, ok_bind'] at h
      rw [reader_vbyte_shifted pre r1 _ hv1, ok_bind']
      dsimp only at h ⊢
      by_cases hreg : t = BITSEQUENCE_REGULAR
      · rw [if_pos hreg] at h ⊢
        simp only [pure, Except.pure, ok_bind'] at h ⊢
        by_cases hl : len > 0
        · rw [if_pos hl] at h ⊢
          have := bitsequence_reader_rank1_shifted pre
            ⟨r, t, len, 8 * (nb + 1), 0, 0, 0, 0, 0⟩
            (Int.bmod ((len : Int) - 1) 18446744073709551616)
          unfold BitsequenceReader.shifted at this
          dsimp only at this
          rw [this]
          cases hrk : bitsequence_reader_rank1 ⟨r, t, len, 8 * (nb + 1), 0, 0, 0, 0, 0⟩
            (Int.bmod ((len : Int) - 1) 18446744073709551616) with
          | error e => rw [hrk] at h; exact absurd h (by simp [bind, Except.bind])
          | ok ones =>
            rw [hrk, ok_bind'] at h
            rw [ok_bind']
            simp only [Except.ok.injEq] at h
            rw [← h]; rfl
        · rw [if_neg hl] at h ⊢
          simp only [Except.ok.injEq] at h
          rw [← h]; rfl
      · rw [if_neg hreg] at h ⊢
        cases hv2 : reader_vbyte r2 with
        | error e => rw [hv2] at h; exact absurd h (by simp [bind, Except.bind])
        | ok y =>
          obtain ⟨factor, nb2, r3⟩ := y
          rw [hv2, ok_bind'] at h
          rw [reader_vbyte_shifted pre r2 _ hv2, ok_bind']
          dsimp only at h ⊢
          cases hv3 : reader_vbyte r3 with
          | error e => rw [hv3] at h; exact absurd h (by simp [bind, Except.bind])
          | ok y =>
            obtain ⟨bprs, nb3, r4⟩ := y
            rw [hv3, ok_bind'] at h
            rw [reader_vbyte_shifted pre r3 _ hv3, ok_bind']
            dsimp only at h ⊢
            by_cases hmax : BLOCKW * factor > INT_MAX
            · rw [if_pos hmax] at h; exact absurd h (by simp [bind, Except.bind])
            rw [if_neg hmax] at h ⊢
            simp only [pure, Except.pure, ok_bind'] at h ⊢
            by_cases hl : len > 0
            · rw [if_pos hl] at h ⊢
              have := bitsequence_reader_rank1_shifted pre
                ⟨r, t, len, 8 * (nb + 1 + nb2 + nb3), factor, bprs, BLOCKW * factor,
                  8 * (nb + 1 + nb2 + nb3) + len, 0⟩
                (Int.bmod ((len : Int) - 1) 18446744073709551616)
              unfold BitsequenceReader.shifted at this
              dsimp only at this
              rw [this]
              cases hrk : bitsequence_reader_rank1 ⟨r, t, len, 8 * (nb + 1 + nb2 + nb3), factor,
                  bprs, BLOCKW * factor, 8 * (nb + 1 + nb2 + nb3) + len, 0⟩
                (Int.bmod ((len : Int) - 1) 18446744073709551616) with
              | error e => rw [hrk] at h; exact absurd h (by simp [bind, Except.bind])
              | ok ones =>
                rw [hrk, ok_bind'] at h
                rw [ok_bind']
                simp only [Except.ok.injEq] at h
                rw [← h]; rfl
            · rw [if_neg hl] at h ⊢
              simp only [Except.ok.injEq] at h
              rw [← h]; rfl

end Wire
/-! ### Reading the shape of a wavelet tree -/

namespace Wire

theorem and_one_testBit (x k : Nat) : (((x >>> k) &&& 1) == 1) = x.testBit k := by
  rw [Nat.testBit_to_div_mod, Nat.and_one_is_mod, Nat.shiftRight_eq_div_pow]
  by_cases h : x / 2 ^ k % 2 = 1
  · simp [h]
  · simp [h]

theorem reader_readbit_spec (r : Reader) (h : r.bitpos < 8 * r.mm.length) :
    reader_readbit r = .ok (mm_bit r.mm r.bitpos, { r with bitpos := r.bitpos + 1 }) := by
  unfold reader_readbit check_remaining reader_bitlen
  rw [if_neg (by omega), ok_bind']
  have hk : r.bitpos / 8 < r.mm.length := by omega
  dsimp only
  rw [arr_get_eq _ _ hk, ok_bind']
  simp only [pure, Except.pure]
  congr 2
  rw [mm_bit_eq_getElem _ _ hk, show 8 - r.bitpos % 8 - 1 = 7 - r.bitpos % 8 by omega,
    and_one_testBit]

theorem byte_of_two (d0 d1 b : Nat) (hb0 : 0 < b) (hb : b < 8) (h1 : d1 < 256) (k : Nat)
    (hk : k < 8) :
    (((d0 <<< b) ||| (d1 >>> (8 - b))) % 256).testBit (7 - k)
      = if k + b < 8 then d0.testBit (7 - (b + k)) else d1.testBit (15 - (b + k)) := by
  rw [show 256 = 2 ^ 8 by norm_num, Nat.testBit_mod_two_pow, Nat.testBit_or,
    Nat.testBit_shiftLeft, Nat.testBit_shiftRight]
  have h7 : 7 - k < 8 := by omega
  simp only [h7, decide_True, Bool.true_and]
  by_cases hc : k + b < 8
  · rw [if_pos hc]
    have : 7 - k ≥ b := by omega
    simp only [this, decide_True, Bool.true_and]
    rw [show 7 - k - b = 7 - (b + k) by omega]
    have : d1.testBit (8 - b + (7 - k)) = false := by
      apply Nat.testBit_lt_two_pow
      calc d1 < 256 := h1
        _ = 2 ^ 8 := by norm_num
        _ ≤ 2 ^ (8 - b + (7 - k)) := Nat.pow_le_pow_right (by norm_num) (by omega)
    rw [this, Bool.or_false]
  · rw [if_neg hc]
    have : ¬ (7 - k ≥ b) := by omega
    simp only [this, decide_False, Bool.false_and, Bool.false_or]
    congr 1
    omega

theorem reader_readbyte_bits (r : Reader) (hall : AllBytes r.mm)
    (h : r.bitpos + 8 ≤ 8 * r.mm.length) (v : Nat) (hv : v < 256)
    (hbits : ∀ k < 8, mm_bit r.mm (r.bitpos + k) = v.testBit (7 - k)) :
    reader_readbyte r = .ok (v, ⟨r.mm, r.bitoff, r.bitpos + 8⟩) := by
  unfold reader_readbyte check_remaining reader_bitlen
  rw [if_neg (by omega), ok_bind']
  dsimp only
  have hk : r.bitpos / 8 < r.mm.length := by omega
  by_cases h0 : r.bitpos % 8 = 0
  · rw [if_pos h0, arr_get_eq _ _ hk, ok_bind']
    simp only [pure, Except.pure]
    congr 2
    apply eq_of_bits _ 8 _ (hall _ (List.getElem_mem _)) hv
    intro j hj
    have := hbits (7 - j) (by omega)
    rw [mm_bit_eq_getElem _ _ (by omega)] at this
    rw [show 7 - (7 - j) = j by omega] at this
    rw [← this]
    congr 1
    · congr 1
      omega
    · omega
  · rw [if_neg h0, arr_get_eq _ _ hk, ok_bind']
    have hk1 : r.bitpos / 8 + 1 < r.mm.length := by omega
    rw [arr_get_eq _ _ hk1, ok_bind']
    simp only [pure, Except.pure]
    congr 2
    apply eq_of_bits _ 8 _ (Nat.mod_lt _ (by norm_num)) hv
    intro j hj
    have e := byte_of_two (r.mm[r.bitpos / 8]) (r.mm[r.bitpos / 8 + 1]) (r.bitpos % 8)
      (by omega) (Nat.mod_lt _ (by norm_num)) (hall _ (List.getElem_mem _)) (7 - j) (by omega)
    rw [show 7 - (7 - j) = j by omega] at e
    refine Eq.trans e ?_
    have := hbits (7 - j) (by omega)
    rw [show 7 - (7 - j) = j by omega] at this
    rw [← this]
    by_cases hc : 7 - j + r.bitpos % 8 < 8
    · rw [if_pos hc, mm_bit_eq_getElem _ _ (by omega)]
      congr 1
      · congr 1
        omega
      · omega
    · rw [if_neg hc, mm_bit_eq_getElem _ _ (by omega)]
      congr 1
      · congr 1
        omega
      · omega

theorem treeAt_congr (t1 t2 : List WaveletRNode) :
    ∀ (h : HuffmanNode) (i : Nat), TreeAt t1 h i →
      (∀ j, i ≤ j → j < i + h.size → t2[j]? = t1[j]?) → TreeAt t2 h i := by
  intro h
  induction h with
  | leaf v f =>
    intro i ht hc
    obtain ⟨n, h1, h2⟩ := ht
    exact ⟨n, by rw [hc i (Nat.le_refl _) (by simp [HuffmanNode.size]), h1], h2⟩
  | inner f l r ihl ihr =>
    intro i ht hc
    obtain ⟨n, h1, h2, h3, h4, h5, h6⟩ := ht
    simp only [HuffmanNode.size] at hc
    refine ⟨n, by rw [hc i (Nat.le_refl _) (by omega), h1], h2, h3, h4, ?_, ?_⟩
    · exact ihl _ h5 (fun j hj1 hj2 => hc j (by omega) (by omega))
    · exact ihr _ h6 (fun j hj1 hj2 => hc j (by omega) (by omega))

theorem size_pos (h : HuffmanNode) : 0 < h.size := by
  cases h <;> simp [HuffmanNode.size]

theorem read_tree_spec (mm : List Nat) (hall : AllBytes mm) (bitoff : Nat) :
    ∀ (h : HuffmanNode) (fuel q i : Nat) (tree : List WaveletRNode),
      h.height < fuel → (∀ v ∈ h.leaves, v < 256) →
      q + (shape_bits h).length ≤ 8 * mm.length →
      (∀ k (hk : k < (shape_bits h).length), mm_bit mm (q + k) = (shape_bits h)[k]) →
      i + h.size < MAX_NODES → i + h.size ≤ tree.length →
      ∃ tree2, read_tree fuel ⟨mm, bitoff, q⟩ tree i
          = .ok (⟨mm, bitoff, q + (shape_bits h).length⟩, tree2, i + h.size) ∧
        tree2.length = tree.length ∧ TreeAt tree2 h i ∧
        (∀ j, j < i ∨ i + h.size ≤ j → tree2[j]? = tree[j]?) := by
  intro h
  induction h with
  | leaf v f =>
    intro fuel q i tree hf hv hq hbits hi hlen
    obtain ⟨fuel, rfl⟩ : ∃ f2, fuel = f2 + 1 := ⟨fuel - 1, by omega⟩
    simp only [shape_bits, List.length_cons, bits_be_length, HuffmanNode.size] at hq hbits hi hlen ⊢
    unfold read_tree
    dsimp only
    rw [if_neg (by omega)]
    have hb := reader_readbit_spec ⟨mm, bitoff, q⟩ (by simp only; omega)
    have h0 := hbits 0 (by omega)
    simp only [Nat.add_zero, List.getElem_cons_zero] at h0
    rw [hb, ok_bind', h0]
    dsimp only
    rw [if_pos rfl]
    have hrb := reader_readbyte_bits ⟨mm, bitoff, q + 1⟩ hall (by simp only; omega) v
      (hv v (by simp [HuffmanNode.leaves])) (by
        intro k hk
        have := hbits (k + 1) (by omega)
        simp only [List.getElem_cons_succ, bits_be_getElem] at this
        simp only
        rw [show q + 1 + k = q + (k + 1) by omega, this])
    rw [hrb, ok_bind']
    dsimp only
    unfold arr_set
    rw [if_pos (by omega), ok_bind']
    simp only [pure, Except.pure]
    refine ⟨_, by rw [show q + 1 + 8 = q + (8 + 1) by omega], by simp, ?_, ?_⟩
    · exact ⟨_, List.getElem?_set_self (by omega), rfl, rfl⟩
    · intro j hj
      exact List.getElem?_set_ne (by omega)
  | inner f l r ihl ihr =>
    intro fuel q i tree hf hv hq hbits hi hlen
    obtain ⟨fuel, rfl⟩ : ∃ f2, fuel = f2 + 1 := ⟨fuel - 1, by omega⟩
    simp only [shape_bits, List.length_cons, List.length_append, HuffmanNode.size,
      HuffmanNode.height, HuffmanNode.leaves, List.mem_append] at hf hq hbits hi hlen hv ⊢
    unfold read_tree
    dsimp only
    rw [if_neg (by omega)]
    have hb := reader_readbit_spec ⟨mm, bitoff, q⟩ (by simp only; omega)
    have h0 := hbits 0 (by omega)
    simp only [Nat.add_zero, List.getElem_cons_zero] at h0
    rw [hb, ok_bind', h0]
    dsimp only
    rw [if_neg Bool.false_ne_true]
    obtain ⟨t1, a1, a2, a3, a4⟩ := ihl fuel (q + 1) (i + 1) tree (by omega)
      (fun v hv1 => hv v (Or.inl hv1)) (by omega) (by
        intro k hk
        have := hbits (k + 1) (by omega)
        simp only [List.getElem_cons_succ] at this
        rw [show q + 1 + k = q + (k + 1) by omega, this, List.getElem_append_left hk])
      (by omega) (by omega)
    rw [a1, ok_bind']
    dsimp only
    obtain ⟨t2, b1, b2, b3, b4⟩ := ihr fuel (q + 1 + (shape_bits l).length) (i + 1 + l.size) t1
      (by omega) (fun v hv1 => hv v (Or.inr hv1)) (by omega) (by
        intro k hk
        have := hbits ((shape_bits l).length + k + 1) (by omega)
        simp only [List.getElem_cons_succ] at this
        rw [show q + 1 + (shape_bits l).length + k = q + ((shape_bits l).length + k + 1) by omega,
          this, List.getElem_append_right (by omega)]
        congr 1
        omega)
      (by omega) (by omega)
    rw [b1, ok_bind']
    dsimp only
    unfold arr_set
    rw [if_pos (by omega), ok_bind']
    simp only [pure, Except.pure]
    refine ⟨t2.set i ⟨false, 0, i + 1, i + 1 + l.size, 0, 0⟩, ?_, ?_, ?_, ?_⟩
    · rw [show q + 1 + (shape_bits l).length + (shape_bits r).length
          = q + ((shape_bits l).length + (shape_bits r).length + 1) by omega,
        show i + 1 + l.size + r.size = i + (1 + l.size + r.size) by omega]
    · rw [List.length_set, b2, a2]
    · refine ⟨_, List.getElem?_set_self (by omega), rfl, rfl, rfl, ?_, ?_⟩
      · apply treeAt_congr t1 _ l (i + 1) a3
        intro j hj1 hj2
        rw [List.getElem?_set_ne (by omega), b4 j (Or.inl (by omega))]
      · apply treeAt_congr t2 _ r (i + 1 + l.size) b3
        intro j hj1 hj2
        rw [List.getElem?_set_ne (by omega)]
    · intro j hj
      rw [List.getElem?_set_ne (by omega), b4 j (by omega), a4 j (by omega)]

theorem u64_sub (a b : Nat) (h : b ≤ a) (ha : a < 2 ^ 64) : u64 ((a : Int) - b) = a - b := by
  have e : ((a : Int) - b) = ((a - b : Nat) : Int) := by omega
  rw [e, u64_ofNat _ (by omega)]

theorem bmod_pred (m : Nat) (h : m ≤ 2 ^ 63) :
    Int.bmod ((m : Int) - 1) 18446744073709551616 = (m : Int) - 1 := by
  rcases Nat.eq_zero_or_pos m with h0 | h0
  · subst h0
    decide
  · have e : ((m : Int) - 1) = ((m - 1 : Nat) : Int) := by omega
    rw [e, bmod_small _ (by omega)]

theorem bitcount_list (F : Nat → Bool) (off : Nat) (q : Nat → Bool) :
    ∀ (s : List Nat), (∀ k, k < s.length → (s.map q)[k]? = some (F (off + k))) →
      bitcount F off s.length = (s.filter q).length := by
  intro s
  induction s using List.reverseRecOn with
  | nil => intro _; simp [bitcount_zero]
  | append_singleton s a ih =>
    intro h
    rw [List.length_append, List.length_singleton, bitcount_succ, List.filter_append,
      List.length_append]
    rw [ih (fun k hk => by
      have := h k (by simp; omega)
      rw [List.map_append, List.getElem?_append_left (by simpa using hk)] at this
      exact this)]
    have := h s.length (by simp)
    rw [List.map_append, List.getElem?_append_right (by simp)] at this
    simp only [List.length_map, Nat.sub_self, List.map_cons, List.map_nil,
      List.getElem?_cons_zero, Option.some.injEq] at this
    rw [← this]
    by_cases hq : q a = true <;> simp [hq]

theorem treeData_congr (F : Nat → Bool) (t1 t2 : List WaveletRNode) :
    ∀ (h : HuffmanNode) (s : List Nat) (i off : Nat), TreeData t1 F h s i off →
      (∀ j, i ≤ j → j < i + h.size → t2[j]? = t1[j]?) → TreeData t2 F h s i off := by
  intro h
  induction h with
  | leaf v f =>
    intro s i off ht hc
    obtain ⟨n, h1, h2⟩ := ht
    exact ⟨n, by rw [hc i (Nat.le_refl _) (by simp [HuffmanNode.size]), h1], h2⟩
  | inner f l r ihl ihr =>
    intro s i off ht hc
    obtain ⟨n, h1, h2, h3, h4, h5, h6, h7, h8⟩ := ht
    simp only [HuffmanNode.size] at hc
    refine ⟨n, by rw [hc i (Nat.le_refl _) (by omega), h1], h2, h3, h4, h5, h6, ?_, ?_⟩
    · exact ihl _ _ _ h7 (fun j hj1 hj2 => hc j (by omega) (by omega))
    · exact ihr _ _ _ h8 (fun j hj1 hj2 => hc j (by omega) (by omega))

theorem ite_bind_pull {α β : Type} (c : Prop) [Decidable c] (a b : Except Err α)
    (K : α → Except Err β) :
    (if c then a >>= K else b >>= K) = ((if c then a else b) >>= K) := by
  split <;> rfl

theorem tree_data_spec (bs : BitsequenceReader) (F : Nat → Bool) (hlen : bs.len < 2 ^ 63)
    (hrank : ∀ m ≤ bs.len, bitsequence_reader_rank1 bs ((m : Int) - 1) = .ok (bitcount F 0 m)) :
    ∀ (h : HuffmanNode) (fuel : Nat) (s : List Nat) (i off : Nat) (tree : List WaveletRNode),
      h.height < fuel → TreeAt tree h i →
      off + (node_bits h s).length ≤ bs.len →
      (∀ k, k < (node_bits h s).length → (node_bits h s)[k]? = some (F (off + k))) →
      ∃ tree2, tree_data bs fuel tree i s.length off
          = .ok (tree2, off + (node_bits h s).length) ∧
        tree2.length = tree.length ∧ TreeData tree2 F h s i off ∧
        (∀ j, j < i ∨ i + h.size ≤ j → tree2[j]? = tree[j]?) := by
  intro h
  induction h with
  | leaf v f =>
    intro fuel s i off tree hf ht hq hbits
    obtain ⟨fuel, rfl⟩ : ∃ f2, fuel = f2 + 1 := ⟨fuel - 1, by omega⟩
    obtain ⟨n, h1, h2, h3⟩ := ht
    unfold tree_data
    rw [arr_get_of_getElem? _ _ _ h1, ok_bind', h2]
    simp only [Bool.not_true, Bool.false_eq_true, if_false, pure, Except.pure, node_bits,
      List.length_nil, Nat.add_zero]
    exact ⟨tree, rfl, rfl, ⟨n, h1, h2, h3⟩, fun _ _ => rfl⟩
  | inner f l r ihl ihr =>
    intro fuel s i off tree hf ht hq hbits
    obtain ⟨fuel, rfl⟩ : ∃ f2, fuel = f2 + 1 := ⟨fuel - 1, by omega⟩
    obtain ⟨n, h1, h2, h3, h4, h5, h6⟩ := ht
    simp only [node_bits, List.length_append, List.length_map, HuffmanNode.height,
      HuffmanNode.size] at hf hq hbits ⊢
    generalize hsl : s.filter (fun v => decide (v ∈ l.leaves)) = sl at *
    generalize hsr : s.filter (fun v => !decide (v ∈ l.leaves)) = sr at *
    have hsplit : sl.length + sr.length = s.length := by
      rw [← hsl, ← hsr]
      exact filter_length_split s (fun v => decide (v ∈ l.leaves))
    have hcnt : bitcount F off s.length = sr.length := by
      rw [← hsr]
      apply bitcount_list F off (fun v => !decide (v ∈ l.leaves)) s
      intro k hk
      rw [← hbits k (by omega), List.getElem?_append_left (by simpa using hk)]
    have hi : i < tree.length := by
      by_contra hc
      rw [List.getElem?_eq_none (by omega)] at h1
      exact absurd h1 (by simp)
    unfold tree_data
    rw [arr_get_of_getElem? _ _ _ h1, ok_bind', h2]
    simp only [Bool.not_false, if_true]
    have hr1 : (if off > 0 then bitsequence_reader_rank1 bs ((off : Int) - 1) else pure 0)
        = .ok (bitcount F 0 off) := by
      by_cases h0 : off > 0
      · rw [if_pos h0, hrank off (by omega)]
      · rw [if_neg h0]
        have : off = 0 := by omega
        rw [this, bitcount_zero]
        rfl
    rw [ite_bind_pull, hr1, ok_bind']
    have hcast : ((off : Int) + (s.length : Int) - 1) = (((off + s.length : Nat) : Int) - 1) := by
      push_cast
      rfl
    rw [hcast, bmod_pred _ (by omega), hrank _ (by omega), ok_bind']
    have hle := bitcount_le F off s.length
    have hadd := bitcount_add F 0 off s.length
    rw [Nat.zero_add] at hadd
    have hlr : u64 (((bitcount F 0 (off + s.length) : Nat) : Int) - (bitcount F 0 off : Nat))
        = sr.length := by
      rw [u64_sub _ _ (by omega) (by
        have := bitcount_le F 0 (off + s.length)
        have h63 : (2 : Nat) ^ 63 = 9223372036854775808 := by norm_num
        have h64 : (2 : Nat) ^ 64 = 18446744073709551616 := by norm_num
        omega)]
      omega
    rw [hlr]
    have hll : u64 ((s.length : Int) - (sr.length : Nat)) = sl.length := by
      rw [u64_sub _ _ (by omega) (by
        have h63 : (2 : Nat) ^ 63 = 9223372036854775808 := by norm_num
        have h64 : (2 : Nat) ^ 64 = 18446744073709551616 := by norm_num
        omega)]
      omega
    rw [hll]
    unfold arr_set
    rw [if_pos hi, ok_bind']
    have hmod : (off + s.length) % 18446744073709551616 = off + s.length := by
      apply Nat.mod_eq_of_lt
      have h63 : (2 : Nat) ^ 63 = 9223372036854775808 := by norm_num
      omega
    rw [hmod, h3, h4]
    generalize hn1 : (⟨false, n.value, i + 1, i + 1 + l.size, off, bitcount F 0 off⟩ :
      WaveletRNode) = n1
    have hn1l : n1.leaf = false := by rw [← hn1]
    have hn1a : n1.left = i + 1 := by rw [← hn1]
    have hn1b : n1.right = i + 1 + l.size := by rw [← hn1]
    have hn1c : n1.bitoff = off := by rw [← hn1]
    have hn1d : n1.bitoff_rank1 = bitcount F 0 off := by rw [← hn1]
    obtain ⟨t1, a1, a2, a3, a4⟩ := ihl fuel sl (i + 1) (off + s.length) (tree.set i n1)
      (by omega)
      (treeAt_congr tree _ l (i + 1) h5 (fun j hj1 hj2 => List.getElem?_set_ne (by omega)))
      (by omega) (by
        intro k hk
        rw [show off + s.length + k = off + (s.length + k) by omega, ← hbits _ (by omega),
          List.getElem?_append_right (by simp), List.getElem?_append_left (by simpa using hk)]
        simp)
    rw [a1, ok_bind']
    dsimp only
    obtain ⟨t2, b1, b2, b3, b4⟩ := ihr fuel sr (i + 1 + l.size)
      (off + s.length + (node_bits l sl).length) t1 (by omega)
      (treeAt_congr tree _ r (i + 1 + l.size) h6 (fun j hj1 hj2 => by
        rw [a4 j (Or.inr (by omega)), List.getElem?_set_ne (by omega)]))
      (by omega) (by
        intro k hk
        rw [show off + s.length + (node_bits l sl).length + k
            = off + (s.length + (node_bits l sl).length + k) by omega, ← hbits _ (by omega),
          List.getElem?_append_right (by simp; omega),
          List.getElem?_append_right (by simp; omega)]
        congr 1
        simp
        omega)
    rw [b1]
    refine ⟨t2, ?_, ?_, ?_, ?_⟩
    · rw [show off + s.length + (node_bits l sl).length + (node_bits r sr).length
          = off + (s.length + ((node_bits l sl).length + (node_bits r sr).length)) by omega]
    · rw [b2, a2, List.length_set]
    · refine ⟨n1, ?_, hn1l, hn1a, hn1b, hn1c, hn1d, ?_, ?_⟩
      rotate_left 2
      · rw [hsr, hsl]; exact b3
      · rw [b4 i (Or.inl (by omega)), a4 i (Or.inl (by omega)), List.getElem?_set_self hi]
      · rw [hsl]
        exact treeData_congr F t1 _ l sl (i + 1) _ a3 (fun j hj1 hj2 => b4 j (Or.inl (by omega)))
    · intro j hj
      rw [b4 j (by omega), a4 j (by omega), List.getElem?_set_ne (by omega)]

theorem treeData_treeAt (F : Nat → Bool) (tree : List WaveletRNode) :
    ∀ (h : HuffmanNode) (s : List Nat) (i off : Nat), TreeData tree F h s i off →
      TreeAt tree h i := by
  intro h
  induction h with
  | leaf v f => intro s i off ht; exact ht
  | inner f l r ihl ihr =>
    intro s i off ht
    obtain ⟨n, h1, h2, h3, h4, _, _, h7, h8⟩ := ht
    exact ⟨n, h1, h2, h3, h4, ihl _ _ _ h7, ihr _ _ _ h8⟩

theorem build_coding_spec (tree : List WaveletRNode) :
    ∀ (h : HuffmanNode) (fuel : Nat) (coding : List BitArray) (i : Nat) (path : BitArray)
      (π : List Bool), h.height < fuel → TreeAt tree h i → BitsOf path π →
      (∀ v ∈ h.leaves, v < coding.length) → h.leaves.Nodup →
      ∃ coding2, build_coding tree fuel coding i path = .ok coding2 ∧
        coding2.length = coding.length ∧
        (∀ v ∈ h.leaves, ∃ c, coding2[v]? = some c ∧ BitsOf c (π ++ h.code v)) ∧
        (∀ v, v ∉ h.leaves → coding2[v]? = coding[v]?) := by
  intro h
  induction h with
  | leaf value freq =>
    intro fuel coding i path π hf ht hpath hlt _
    obtain ⟨fuel, rfl⟩ : ∃ f2, fuel = f2 + 1 := ⟨fuel - 1, by omega⟩
    obtain ⟨n, h1, h2, h3⟩ := ht
    have hv : value < coding.length := hlt value (by simp [HuffmanNode.leaves])
    refine ⟨coding.set value path, ?_, by simp, ?_, ?_⟩
    · unfold build_coding
      rw [arr_get_of_getElem? _ _ _ h1, ok_bind', h2, if_pos rfl, h3]
      exact arr_set_ok _ _ _ hv
    · intro v hvm
      have e : v = value := by simpa [HuffmanNode.leaves] using hvm
      subst e
      refine ⟨path, by rw [List.getElem?_set_self hv], ?_⟩
      simpa [HuffmanNode.code] using hpath
    · intro v hvm
      have e : v ≠ value := by simpa [HuffmanNode.leaves] using hvm
      rw [List.getElem?_set_ne (Ne.symm e)]
  | inner freq l r ihl ihr =>
    intro fuel coding i path π hf ht hpath hlt hnd
    obtain ⟨fuel, rfl⟩ : ∃ f2, fuel = f2 + 1 := ⟨fuel - 1, by omega⟩
    obtain ⟨n, h1, h2, h3, h4, h5, h6⟩ := ht
    simp only [HuffmanNode.leaves, HuffmanNode.height] at hlt hnd hf
    have hndl : l.leaves.Nodup := (List.nodup_append.mp hnd).1
    have hndr : r.leaves.Nodup := (List.nodup_append.mp hnd).2.1
    have hdisj : ∀ v, v ∈ l.leaves → v ∈ r.leaves → False := by
      intro v h1 h2
      exact (List.nodup_append.mp hnd).2.2 h1 h2
    obtain ⟨cl, hcl1, hcl2⟩ := bitarray_append_spec path false π hpath
    obtain ⟨cr, hcr1, hcr2⟩ := bitarray_append_spec path true π hpath
    obtain ⟨coding1, a1, a2, a3, a4⟩ := ihl fuel coding (i + 1) cl (π ++ [false]) (by omega) h5
      hcl2 (fun v hv => hlt v (List.mem_append_left _ hv)) hndl
    obtain ⟨coding2, g1, g2, g3, g4⟩ := ihr fuel coding1 (i + 1 + l.size) cr (π ++ [true])
      (by omega) h6 hcr2 (fun v hv => by rw [a2]; exact hlt v (List.mem_append_right _ hv)) hndr
    refine ⟨coding2, ?_, by rw [g2, a2], ?_, ?_⟩
    · unfold build_coding
      rw [arr_get_of_getElem? _ _ _ h1, ok_bind', h2, if_neg Bool.false_ne_true]
      simp only [bitarray_clone]
      rw [hcl1, ok_bind', hcr1, ok_bind', h3, a1, ok_bind', h4]
      exact g1
    · intro v hv
      rcases List.mem_append.mp hv with hvl | hvr
      · obtain ⟨c, e1, e2⟩ := a3 v hvl
        refine ⟨c, ?_, ?_⟩
        · rw [g4 v (fun hr => hdisj v hvl hr)]
          exact e1
        · simpa [HuffmanNode.code, hvl] using e2
      · obtain ⟨c, e1, e2⟩ := g3 v hvr
        refine ⟨c, e1, ?_⟩
        have hnl : v ∉ l.leaves := fun hl => hdisj v hl hvr
        simpa [HuffmanNode.code, hnl] using e2
    · intro v hv
      have hv1 : v ∉ l.leaves := fun hh => hv (List.mem_append_left _ hh)
      have hv2 : v ∉ r.leaves := fun hh => hv (List.mem_append_right _ hh)
      rw [g4 v hv2, a4 v hv1]

end Wire
/-! ### The rank of a byte in an opened wavelet tree -/

namespace Wire

theorem bmod_u64_pred (off cnt : Nat) (h : off + cnt ≤ 2 ^ 63) :
    Int.bmod ((off : Int) + ((u64 ((cnt : Int) - 1) : Nat) : Int)) 18446744073709551616
      = ((off + cnt : Nat) : Int) - 1 := by
  have h63 : (2 : Nat) ^ 63 = 9223372036854775808 := by norm_num
  rcases Nat.eq_zero_or_pos cnt with h0 | h0
  · subst h0
    have e : u64 (((0 : Nat) : Int) - 1) = 18446744073709551615 := by decide
    rw [e, Nat.add_zero]
    have e2 : ((off : Int) + ((18446744073709551615 : Nat) : Int))
        = ((off : Int) - 1) + ((18446744073709551616 : Nat) : Int) := by omega
    rw [e2, Int.bmod_add_cancel, bmod_pred _ (by omega)]
  · have e1 : ((cnt : Int) - 1) = ((cnt - 1 : Nat) : Int) := by omega
    rw [e1, u64_ofNat _ (by norm_num; omega)]
    have e2 : ((off : Int) + ((cnt - 1 : Nat) : Int)) = ((off + cnt : Nat) : Int) - 1 := by omega
    rw [e2, bmod_pred _ (by omega)]

theorem rank0_pred (bs : BitsequenceReader) (F : Nat → Bool) (hlen : bs.len < 2 ^ 63)
    (hrank : ∀ m ≤ bs.len, bitsequence_reader_rank1 bs ((m : Int) - 1) = .ok (bitcount F 0 m))
    (m : Nat) (hm : m ≤ bs.len) :
    bitsequence_reader_rank0 bs ((m : Int) - 1) = .ok (m - bitcount F 0 m) := by
  unfold bitsequence_reader_rank0
  have hle := bitcount_le F 0 m
  have h63 : (2 : Nat) ^ 63 = 9223372036854775808 := by norm_num
  rcases Nat.eq_zero_or_pos m with h0 | h0
  · subst h0
    rw [if_pos (by decide)]
    rfl
  · rw [if_neg (by omega), hrank m hm, ok_bind']
    simp only [pure, Except.pure]
    congr 1
    have e : ((m : Int) - 1 + 1 - ((bitcount F 0 m : Nat) : Int))
        = (m : Int) - ((bitcount F 0 m : Nat) : Int) := by omega
    rw [e, u64_sub _ _ hle (by norm_num; omega)]

theorem w_bits_rank1_spec (w : WaveletTreeReader) (F : Nat → Bool) (hlen : w.bits.len < 2 ^ 63)
    (hrank : ∀ m ≤ w.bits.len,
      bitsequence_reader_rank1 w.bits ((m : Int) - 1) = .ok (bitcount F 0 m))
    (n : WaveletRNode) (cnt : Nat) (hn : n.bitoff_rank1 = bitcount F 0 n.bitoff)
    (hc : n.bitoff + cnt ≤ w.bits.len) :
    w_bits_rank1 w n (u64 ((cnt : Int) - 1)) = .ok (bitcount F n.bitoff cnt) := by
  unfold w_bits_rank1
  have h63 : (2 : Nat) ^ 63 = 9223372036854775808 := by norm_num
  rw [bmod_u64_pred _ _ (by omega), hrank _ hc, ok_bind', hn]
  simp only [pure, Except.pure]
  congr 1
  have hadd := bitcount_add F 0 n.bitoff cnt
  rw [Nat.zero_add] at hadd
  have hle := bitcount_le F 0 (n.bitoff + cnt)
  rw [u64_sub _ _ (by omega) (by norm_num; omega)]
  omega

theorem w_bits_rank0_spec (w : WaveletTreeReader) (F : Nat → Bool) (hlen : w.bits.len < 2 ^ 63)
    (hrank : ∀ m ≤ w.bits.len,
      bitsequence_reader_rank1 w.bits ((m : Int) - 1) = .ok (bitcount F 0 m))
    (n : WaveletRNode) (cnt : Nat) (hn : n.bitoff_rank1 = bitcount F 0 n.bitoff)
    (hc : n.bitoff + cnt ≤ w.bits.len) :
    w_bits_rank0 w n (u64 ((cnt : Int) - 1)) = .ok (cnt - bitcount F n.bitoff cnt) := by
  unfold w_bits_rank0
  have h63 : (2 : Nat) ^ 63 = 9223372036854775808 := by norm_num
  rw [bmod_u64_pred _ _ (by omega), rank0_pred w.bits F hlen hrank _ hc, ok_bind', hn]
  simp only [pure, Except.pure]
  congr 1
  have hadd := bitcount_add F 0 n.bitoff cnt
  rw [Nat.zero_add] at hadd
  have hle := bitcount_le F 0 (n.bitoff + cnt)
  have hle2 := bitcount_le F 0 n.bitoff
  have hle3 := bitcount_le F n.bitoff cnt
  have e : (((n.bitoff + cnt - bitcount F 0 (n.bitoff + cnt) : Nat) : Int)
      - ((n.bitoff : Int) - ((bitcount F 0 n.bitoff : Nat) : Int)))
      = ((cnt - bitcount F n.bitoff cnt : Nat) : Int) := by omega
  rw [e, u64_ofNat _ (by norm_num; omega)]

theorem treeData_node (F : Nat → Bool) (tree : List WaveletRNode) (h : HuffmanNode)
    (s : List Nat) (i off : Nat) (ht : TreeData tree F h s i off) : ∃ n, tree[i]? = some n := by
  cases h with
  | leaf v f => obtain ⟨n, h1, _⟩ := ht; exact ⟨n, h1⟩
  | inner f l r => obtain ⟨n, h1, _⟩ := ht; exact ⟨n, h1⟩

/-- The loop of `wavelet_rank` below a node: it counts the byte `c` in the
bytes `t`, a start of the bytes `s` of the node. -/
theorem wavelet_rank_loop_spec (w : WaveletTreeReader) (F : Nat → Bool)
    (hlen : w.bits.len < 2 ^ 63)
    (hrank : ∀ m ≤ w.bits.len,
      bitsequence_reader_rank1 w.bits ((m : Int) - 1) = .ok (bitcount F 0 m))
    (code : BitArray) (c : Nat) :
    ∀ (h : HuffmanNode) (fuel : Nat) (s t : List Nat) (i off : Nat) (π : List Bool)
      (n : WaveletRNode),
      h.height < fuel → TreeData w.tree F h s i off → w.tree[i]? = some n → c ∈ h.leaves →
      h.leaves.Nodup → (∀ x ∈ s, x ∈ h.leaves) → t <+: s →
      off + (node_bits h s).length ≤ w.bits.len →
      (∀ k, k < (node_bits h s).length → (node_bits h s)[k]? = some (F (off + k))) →
      BitsOf code (π ++ h.code c) →
      ∃ n2, wavelet_rank_loop w code fuel n π.length (u64 ((t.length : Int) - 1))
          = .ok (n2, u64 (((t.count c : Nat) : Int) - 1)) ∧ n2.value = c := by
  intro h
  induction h with
  | leaf v f =>
    intro fuel s t i off π n hf ht hn hc hnd hs hpre hq hbits hcode
    obtain ⟨fuel, rfl⟩ : ∃ f2, fuel = f2 + 1 := ⟨fuel - 1, by omega⟩
    obtain ⟨n1, h1, h2, h3⟩ := ht
    rw [hn] at h1
    have e : n = n1 := Option.some.inj h1
    subst e
    have hcv : c = v := by simpa [HuffmanNode.leaves] using hc
    unfold wavelet_rank_loop
    rw [h2]
    simp only [Bool.not_true, Bool.false_eq_true, if_false, pure, Except.pure]
    refine ⟨n, ?_, by rw [h3, hcv]⟩
    have hcount : t.count c = t.length := by
      rw [List.count_eq_length]
      intro b hb
      have := hs b (hpre.subset hb)
      simp only [HuffmanNode.leaves, List.mem_singleton] at this
      rw [this, hcv]
    rw [hcount]
  | inner f l r ihl ihr =>
    intro fuel s t i off π n hf ht hn hc hnd hs hpre hq hbits hcode
    obtain ⟨fuel, rfl⟩ : ∃ f2, fuel = f2 + 1 := ⟨fuel - 1, by omega⟩
    obtain ⟨n1, h1, h2, h3, h4, h5, h6, h7, h8⟩ := ht
    rw [hn] at h1
    have e : n = n1 := Option.some.inj h1
    subst e
    simp only [node_bits, List.length_append, List.length_map, HuffmanNode.height,
      HuffmanNode.leaves, List.mem_append] at hf hq hbits hc hnd hs
    have hndl : l.leaves.Nodup := (List.nodup_append.mp hnd).1
    have hndr : r.leaves.Nodup := (List.nodup_append.mp hnd).2.1
    have hdisj : ∀ v, v ∈ l.leaves → v ∈ r.leaves → False := by
      intro v h1 h2
      exact (List.nodup_append.mp hnd).2.2 h1 h2
    generalize hsl : s.filter (fun v => decide (v ∈ l.leaves)) = sl at *
    generalize hsr : s.filter (fun v => !decide (v ∈ l.leaves)) = sr at *
    have hsplit : sl.length + sr.length = s.length := by
      rw [← hsl, ← hsr]
      exact filter_length_split s (fun v => decide (v ∈ l.leaves))
    have htsplit := filter_length_split t (fun v => decide (v ∈ l.leaves))
    have htlen : t.length ≤ s.length := hpre.length_le
    have hcnt : bitcount F off t.length
        = (t.filter (fun v => !decide (v ∈ l.leaves))).length := by
      apply bitcount_list F off (fun v => !decide (v ∈ l.leaves)) t
      intro k hk
      rw [← hbits k (by omega), List.getElem?_append_left (by simp; omega)]
      obtain ⟨u, hu⟩ := hpre
      rw [← hu, List.map_append, List.getElem?_append_left (by simpa using hk)]
    have hnr : n.bitoff_rank1 = bitcount F 0 n.bitoff := by rw [h6, h5]
    have hlevel : π.length < (π ++ (HuffmanNode.inner f l r).code c).length := by
      simp only [List.length_append, HuffmanNode.code]
      split <;> simp
    have hget := bitsOf_get code _ hcode π.length hlevel
    rw [List.getElem_append_right (Nat.le_refl _)] at hget
    unfold wavelet_rank_loop
    rw [h2]
    simp only [Bool.not_false, if_true]
    by_cases hcl : c ∈ l.leaves
    · have hcodec : (HuffmanNode.inner f l r).code c = false :: l.code c := by
        simp [HuffmanNode.code, hcl]
      simp only [hcodec, Nat.sub_self, List.getElem_cons_zero] at hget
      rw [hget, ok_bind']
      simp only [Bool.not_false, if_true]
      rw [w_bits_rank0_spec w F hlen hrank n t.length hnr (by rw [h5]; omega), ok_bind', h5,
        hcnt, h3]
      obtain ⟨nl, hnl⟩ := treeData_node F _ l _ _ _ h7
      rw [arr_get_of_getElem? _ _ _ hnl, ok_bind']
      have hr : t.length - (t.filter (fun v => !decide (v ∈ l.leaves))).length
          = (t.filter (fun v => decide (v ∈ l.leaves))).length := by omega
      rw [hr]
      obtain ⟨n2, e1, e2⟩ := ihl fuel sl (t.filter (fun v => decide (v ∈ l.leaves))) (i + 1)
        (off + s.length) (π ++ [false]) nl (by omega) h7 hnl hcl hndl
        (by
          intro x hx
          rw [← hsl] at hx
          simpa using (List.mem_filter.mp hx).2)
        (by rw [← hsl]; exact hpre.filter _)
        (by omega)
        (by
          intro k hk
          rw [show off + s.length + k = off + (s.length + k) by omega, ← hbits _ (by omega),
            List.getElem?_append_right (by simp), List.getElem?_append_left (by simpa using hk)]
          simp)
        (by rw [List.append_assoc]; rw [hcodec] at hcode; exact hcode)
      rw [List.length_append, List.length_singleton] at e1
      rw [e1]
      refine ⟨n2, ?_, e2⟩
      rw [List.count_filter (by simpa using hcl)]
    · have hcr : c ∈ r.leaves := by
        rcases hc with hc | hc
        · exact absurd hc hcl
        · exact hc
      have hcodec : (HuffmanNode.inner f l r).code c = true :: r.code c := by
        simp [HuffmanNode.code, hcl]
      simp only [hcodec, Nat.sub_self, List.getElem_cons_zero] at hget
      rw [hget, ok_bind']
      simp only [Bool.not_true, Bool.false_eq_true, if_false]
      rw [w_bits_rank1_spec w F hlen hrank n t.length hnr (by rw [h5]; omega), ok_bind', h5,
        hcnt, h4]
      obtain ⟨nr, hnr2⟩ := treeData_node F _ r _ _ _ h8
      rw [arr_get_of_getElem? _ _ _ hnr2, ok_bind']
      obtain ⟨n2, e1, e2⟩ := ihr fuel sr (t.filter (fun v => !decide (v ∈ l.leaves)))
        (i + 1 + l.size) (off + s.length + (node_bits l sl).length) (π ++ [true]) nr (by omega)
        h8 hnr2 hcr hndr
        (by
          intro x hx
          rw [← hsr] at hx
          have hx2 := List.mem_filter.mp hx
          rcases hs x hx2.1 with hh | hh
          · exact absurd hh (by simpa using hx2.2)
          · exact hh)
        (by rw [← hsr]; exact hpre.filter _)
        (by omega)
        (by
          intro k hk
          rw [show off + s.length + (node_bits l sl).length + k
              = off + (s.length + (node_bits l sl).length + k) by omega, ← hbits _ (by omega),
            List.getElem?_append_right (by simp; omega),
            List.getElem?_append_right (by simp; omega)]
          congr 1
          simp
          omega)
        (by rw [List.append_assoc]; rw [hcodec] at hcode; exact hcode)
      rw [List.length_append, List.length_singleton] at e1
      rw [e1]
      refine ⟨n2, ?_, e2⟩
      rw [List.count_filter (by simpa using hcl)]

end Wire
/-! ### The rank of a byte in a written wavelet tree -/

namespace Wire

theorem size_eq : ∀ (h : HuffmanNode), h.size + 1 = 2 * h.leaves.length := by
  intro h
  induction h with
  | leaf v f => simp [HuffmanNode.size, HuffmanNode.leaves]
  | inner f l r ihl ihr =>
    simp only [HuffmanNode.size, HuffmanNode.leaves, List.length_append]
    omega

theorem u64_succ_pred (cnt : Nat) (h : cnt < 2 ^ 64) :
    u64 (((u64 ((cnt : Int) - 1) : Nat) : Int) + 1) = cnt := by
  rcases Nat.eq_zero_or_pos cnt with h0 | h0
  · subst h0
    decide
  · have e1 : ((cnt : Int) - 1) = ((cnt - 1 : Nat) : Int) := by omega
    rw [e1, u64_ofNat _ (by omega)]
    have e2 : (((cnt - 1 : Nat) : Int) + 1) = (cnt : Int) := by omega
    rw [e2, u64_ofNat _ h]

theorem rank1_pred_of_facts (bs : BitsequenceReader) (F : Nat → Bool) (hf : BsFacts bs F)
    (pre : List Nat) (m : Nat) (hm : m ≤ bs.len) :
    bitsequence_reader_rank1 (bs.shifted pre) ((m : Int) - 1) = .ok (bitcount F 0 m) := by
  rw [bitsequence_reader_rank1_shifted]
  rcases Nat.eq_zero_or_pos m with h0 | h0
  · subst h0
    unfold bitsequence_reader_rank1
    rw [if_pos (by decide), bitcount_zero]
    rfl
  · have e1 : ((m : Int) - 1) = ((m - 1 : Nat) : Int) := by omega
    rw [e1, rank1_of_facts bs F hf (m - 1) (by omega)]
    congr 2
    omega

theorem written_reader (b : BitArray) (p : BitsequenceParams) (wf : BitWriter)
    (bs : BitsequenceReader) (h1 : bitwriter_write_bitsequence bitwriter_init b p = .ok wf)
    (h2 : bitsequence_written b p = .ok bs) :
    bitwriter_bytes wf ≠ [] ∧ bitsequence_reader_init ⟨bitwriter_bytes wf, 0, 0⟩ = .ok bs := by
  unfold bitsequence_written at h2
  rw [h1, ok_bind'] at h2
  unfold reader_initf reader_bitpos reader_bitlen at h2
  by_cases hc : 0 + 0 ≥ 8 * (bitwriter_bytes wf).length
  · simp only at h2
    rw [if_pos hc] at h2
    exact absurd h2 (by simp [bind, Except.bind])
  · simp only at h2
    rw [if_neg hc, ok_bind'] at h2
    refine ⟨?_, h2⟩
    intro e
    rw [e] at hc
    exact hc (by simp)

/-- Opening the bytes of a wavelet tree: the shape `H` is read into the slots,
every inner node gets the offset of its bits, and every byte of `H` gets its
code. -/
theorem wavelet_init_spec (data : List Nat) (H : HuffmanNode) (nodes bsb : List Nat)
    (bits : BitArray) (pad : Nat) (bs : BitsequenceReader)
    (hd : data.length < 2 ^ 64) (hnd : H.leaves.Nodup) (hlt : ∀ v ∈ H.leaves, v < 256)
    (hbits : BitsOf bits (node_bits H data)) (hnodes : AllBytes nodes) (hpad : pad < 8)
    (hshape : bytes_bits nodes = shape_bits H ++ List.replicate pad false)
    (hbsb : bsb ≠ []) (hbsball : AllBytes bsb)
    (hinit : bitsequence_reader_init ⟨bsb, 0, 0⟩ = .ok bs) (hbslen : bs.len = bits.len)
    (hfacts : BsFacts bs (mm_bit bits.data)) :
    ∃ tree coding,
      wavelet_init ⟨vbyte_bytes 10 data.length ++ (vbyte_bytes 10 nodes.length ++ (nodes ++ bsb)),
          0, 0⟩
        = .ok ⟨bs.shifted (vbyte_bytes 10 data.length ++ (vbyte_bytes 10 nodes.length ++ nodes)),
            tree, coding⟩ ∧
      TreeData tree (mm_bit bits.data) H data 0 0 ∧ coding.length = 256 ∧
      (∀ v ∈ H.leaves, ∃ c, coding[v]? = some c ∧ BitsOf c (H.code v)) ∧
      (∀ v, v ∉ H.leaves → v < 256 → coding[v]? = some (bitarray_init 0)) := by
  generalize hvb1 : vbyte_bytes 10 data.length = vb1
  generalize hvb2 : vbyte_bytes 10 nodes.length = vb2
  generalize hfile : vb1 ++ (vb2 ++ (nodes ++ bsb)) = file
  generalize hpre : vb1 ++ (vb2 ++ nodes) = pre
  have hfile2 : file = pre ++ bsb := by rw [← hfile, ← hpre]; simp
  have hfile3 : file = (vb1 ++ vb2) ++ ((nodes ++ bsb)) := by rw [← hfile]; simp
  have hprelen : pre.length = vb1.length + vb2.length + nodes.length := by
    rw [← hpre]; simp; omega
  have hbsblen : 0 < bsb.length := List.length_pos.mpr hbsb
  have hfilelen : file.length = vb1.length + vb2.length + nodes.length + bsb.length := by
    rw [hfile2, List.length_append, hprelen]
  have hall : AllBytes file := by
    rw [← hfile, ← hvb1, ← hvb2]
    intro x hx
    simp only [List.mem_append] at hx
    rcases hx with hx | hx | hx | hx
    · exact vbyte_bytes_allBytes _ _ x hx
    · exact vbyte_bytes_allBytes _ _ x hx
    · exact hnodes x hx
    · exact hbsball x hx
  have hleaves : H.leaves.length ≤ 256 := nodup_length_le _ _ hnd hlt
  have hheight := height_lt_leaves H
  have hsize := size_eq H
  have hshapelen := shape_bits_length H
  have hnodeslen : (shape_bits H).length + pad = 8 * nodes.length := by
    have := congrArg List.length hshape
    rw [bytes_bits_length, List.length_append, List.length_replicate] at this
    omega
  have hnl : nodes.length < 2 ^ 64 := by
    have h64 : (2 : Nat) ^ 64 = 18446744073709551616 := by norm_num
    omega
  have hbl := bitsOf_len bits _ hbits
  -- the two lengths
  have hv1 : reader_vbyte ⟨file, 0, 0⟩
      = .ok (data.length, vb1.length, ⟨file, 0, 8 * (0 + vb1.length)⟩) := by
    have := reader_vbyte_spec file 0 0 data.length (vb2 ++ (nodes ++ bsb))
      (by rw [List.drop_zero, ← hfile, hvb1]) hd
    rw [hvb1] at this
    exact this
  have hv2 : reader_vbyte ⟨file, 0, 8 * (0 + vb1.length)⟩
      = .ok (nodes.length, vb2.length, ⟨file, 0, 8 * (0 + vb1.length + vb2.length)⟩) := by
    have := reader_vbyte_spec file 0 (0 + vb1.length) nodes.length (nodes ++ bsb)
      (by rw [Nat.zero_add, ← hfile, List.drop_left, hvb2]) hnl
    rw [hvb2] at this
    exact this
  unfold wavelet_init
  rw [hv1, ok_bind']
  dsimp only
  rw [hv2, ok_bind']
  dsimp only
  -- the bit sequence
  have hri : reader_init ⟨file, 0, 0⟩ (vb1.length + vb2.length + nodes.length)
      = .ok (Reader.shifted pre ⟨bsb, 0, 0⟩) := by
    unfold reader_init
    rw [reader_bitpos_spec _ _ (by simp only; omega)]
    unfold Reader.shifted
    simp only [hfile2, hprelen, Nat.zero_add]
  rw [hri, ok_bind', bitsequence_reader_init_shifted pre _ bs hinit, ok_bind']
  -- the shape
  have hrb : reader_bitpos ⟨file, 0, 0⟩ (8 * (vb1.length + vb2.length))
      = .ok ⟨file, 0, 8 * (vb1.length + vb2.length)⟩ := by
    rw [reader_bitpos_spec _ _ (by simp only; omega)]
    rfl
  rw [hrb, ok_bind']
  obtain ⟨tree1, a1, a2, a3, a4⟩ := read_tree_spec file hall 0 H (MAX_NODES + 1)
    (8 * (vb1.length + vb2.length)) 0
    (List.replicate MAX_NODES (⟨false, 0, 0, 0, 0, 0⟩ : WaveletRNode))
    (by rw [show MAX_NODES = 512 from rfl]; omega) hlt (by omega)
    (by
      intro k hk
      have e := hdr_body_bit (vb1 ++ vb2) (nodes ++ bsb) k
        (shape_bits H ++ (List.replicate pad false ++ bytes_bits bsb))
        (by rw [bytes_bits_append, hshape, List.append_assoc])
        (by rw [List.length_append]; omega)
      rw [List.getElem_append_left hk, ← hfile3, List.length_append] at e
      exact e)
    (by rw [show MAX_NODES = 512 from rfl]; omega)
    (by rw [List.length_replicate, show MAX_NODES = 512 from rfl]; omega)
  rw [a1, ok_bind']
  dsimp only
  -- the offsets
  have hshl : (bs.shifted pre).len = bs.len := rfl
  obtain ⟨tree2, b1, b2, b3, b4⟩ := tree_data_spec (bs.shifted pre) (mm_bit bits.data)
    (by rw [hshl]; exact hfacts.2.2.2.2.1)
    (fun m hm => rank1_pred_of_facts bs _ hfacts pre m hm)
    H (MAX_NODES + 1) data 0 0 tree1
    (by rw [show MAX_NODES = 512 from rfl]; omega) a3
    (by rw [hshl, hbslen, hbl]; omega)
    (by
      intro k hk
      rw [← hbits.2.2, Nat.zero_add]
      unfold bitarray_bits
      rw [List.getElem?_map, List.getElem?_range (by rw [hbl]; exact hk)]
      rfl)
  rw [b1, ok_bind']
  dsimp only
  -- the codes
  obtain ⟨coding, c1, c2, c3, c4⟩ := build_coding_spec tree2 H (MAX_NODES + 1)
    (List.replicate MAX_LEAFS (bitarray_init 0)) 0 (bitarray_init 0) []
    (by rw [show MAX_NODES = 512 from rfl]; omega)
    (treeData_treeAt _ _ H data 0 0 b3) bitsOf_init
    (by
      intro v hv
      rw [List.length_replicate]
      exact hlt v hv) hnd
  rw [c1, ok_bind']
  refine ⟨tree2, coding, rfl, b3, by rw [c2, List.length_replicate]; rfl, ?_, ?_⟩
  · intro v hv
    obtain ⟨c, e1, e2⟩ := c3 v hv
    exact ⟨c, e1, by simpa using e2⟩
  · intro v hv hv2
    rw [c4 v hv, List.getElem?_replicate]
    rw [if_pos (by rw [show MAX_LEAFS = 256 from rfl]; exact hv2)]

/-- A byte string written by `wavelet_tree_write` and opened by
`wavelet_init`: for a start `t` of the string, `wavelet_rank` at the index of
the last byte of `t` counts the byte `c` in `t`. -/
theorem wavelet_written_start (s : List Nat) (p : BitsequenceParams)
    (hs : ∀ x ∈ s, x < 256) (h2 : ∃ a ∈ s, ∃ b ∈ s, a ≠ b) (hlen : s.length < 2 ^ 55)
    (hf1 : 1 ≤ p.factor) (hf2 : p.factor < 2 ^ 26) :
    ∃ w, wavelet_written s p = .ok w ∧
      ∀ c, c < 256 → ∀ t, t <+: s →
        wavelet_rank w c (u64 ((t.length : Int) - 1)) = .ok (t.count c) := by
  obtain ⟨H, w0, nodes, bits, pad, wf, l1, hnd, hmem, hh1, hbits, hbl, hnodes, hpad, hshape, z1,
    hbytes⟩ := wavelet_tree_write_layout s p hs h2 hlen hf1 hf2
  have hbok : BitArrayOk bits := ⟨hbits.1, hbits.2.1, hbl⟩
  obtain ⟨bs, f1, f2, _, _, hfacts⟩ := bitsequence_written_facts bits p hbok hf1 hf2
  obtain ⟨hbsb, hinit⟩ := written_reader bits p wf bs z1 f1
  have hbsball : AllBytes (bitwriter_bytes wf) := by
    obtain ⟨wf2, y1, y2, y3, _⟩ := bitwriter_write_bitsequence_stream bitwriter_init bits p
      wok_init hbok hf1 hf2
    rw [z1] at y1
    have e : wf = wf2 := Except.ok.inj y1
    subst e
    exact (bitwriter_bytes_spec wf y2 y3).1
  have h55 : (2 : Nat) ^ 55 = 36028797018963968 := by norm_num
  have h64 : (2 : Nat) ^ 64 = 18446744073709551616 := by norm_num
  have hlt : ∀ v ∈ H.leaves, v < 256 := fun v hv => hs v ((hmem v).mp hv)
  obtain ⟨tree, coding, i1, i2, i3, i4, i5⟩ := wavelet_init_spec s H nodes (bitwriter_bytes wf)
    bits pad bs (by omega) hnd hlt hbits hnodes hpad hshape hbsb hbsball hinit f2 hfacts
  have hbl2 := bitsOf_len bits _ hbits
  refine ⟨⟨bs.shifted (vbyte_bytes 10 s.length ++ (vbyte_bytes 10 nodes.length ++ nodes)), tree,
    coding⟩, ?_, ?_⟩
  · unfold wavelet_written
    rw [l1, ok_bind', hbytes]
    unfold reader_initf
    rw [reader_bitpos_spec _ _ (by
      have := List.length_pos.mpr hbsb
      simp only [List.length_append]
      omega), ok_bind']
    exact i1
  · intro c hc t ht
    unfold wavelet_rank
    by_cases hcs : c ∈ s
    · have hcl : c ∈ H.leaves := (hmem c).mpr hcs
      obtain ⟨code, e1, e2⟩ := i4 c hcl
      simp only
      rw [arr_get_of_getElem? _ _ _ e1, ok_bind']
      have hcode : code.len ≠ 0 := by
        rw [bitsOf_len code _ e2]
        cases H with
        | leaf v f => simp [HuffmanNode.height] at hh1
        | inner f l r =>
          simp only [HuffmanNode.code]
          split <;> simp
      rw [if_neg hcode]
      obtain ⟨n0, hn0⟩ := treeData_node _ _ H s 0 0 i2
      rw [arr_get_of_getElem? _ _ _ hn0, ok_bind']
      obtain ⟨n2, g1, g2⟩ := wavelet_rank_loop_spec
        ⟨bs.shifted (vbyte_bytes 10 s.length ++ (vbyte_bytes 10 nodes.length ++ nodes)), tree,
          coding⟩ (mm_bit bits.data) (by
            show bs.len < 2 ^ 63
            rw [f2]; exact hbl)
        (fun m hm => rank1_pred_of_facts bs _ hfacts _ m hm) code c H (MAX_NODES + 1) s t 0 0 []
        n0 (by
          have := height_lt_leaves H
          have := nodup_length_le _ _ hnd hlt
          rw [show MAX_NODES = 512 from rfl]
          omega) i2 hn0 hcl hnd (fun x hx => (hmem x).mpr hx) ht (by
            show 0 + (node_bits H s).length ≤ bs.len
            rw [f2, hbl2]; omega)
        (by
          intro k hk
          rw [← hbits.2.2, Nat.zero_add]
          unfold bitarray_bits
          rw [List.getElem?_map, List.getElem?_range (by rw [hbl2]; exact hk)]
          rfl)
        (by simpa using e2)
      rw [List.length_nil] at g1
      rw [g1, ok_bind']
      dsimp only
      rw [if_neg (by rw [g2]; simp)]
      simp only [pure, Except.pure]
      congr 1
      apply u64_succ_pred
      have := List.count_le_length c t
      have := ht.length_le
      omega
    · have hcl : c ∉ H.leaves := fun hh => hcs ((hmem c).mp hh)
      simp only
      rw [arr_get_of_getElem? _ _ _ (i5 c hcl hc), ok_bind']
      rw [if_pos (by rfl)]
      simp only [pure, Except.pure]
      congr 1
      symm
      apply List.count_eq_zero_of_not_mem
      intro hct
      exact hcs (ht.subset hct)

/-- C13: for every byte string `s` with at least two distinct byte values,
every byte value `c` (occurring in `s` or not) and every `i < |s|`,
`wavelet_rank(c, i)` on the tree written from `s` and opened again is the
number of positions `j ≤ i` with `s[j] = c`; for `i = -1` (passed as the
all-ones unsigned value) it returns 0.  The string has fewer than `2^55` bytes
and the factor of the bit sequence is between 1 and `2^26 - 1`. -/
theorem wavelet_written_rank (s : List Nat) (p : BitsequenceParams)
    (hs : ∀ x ∈ s, x < 256) (h2 : ∃ a ∈ s, ∃ b ∈ s, a ≠ b) (hlen : s.length < 2 ^ 55)
    (hf1 : 1 ≤ p.factor) (hf2 : p.factor < 2 ^ 26) :
    ∃ w, wavelet_written s p = .ok w ∧
      (∀ c i, c < 256 → i < s.length →
        wavelet_rank w c i = .ok ((s.take (i + 1)).count c)) ∧
      (∀ c, c < 256 → wavelet_rank w c U64_MINUS_ONE = .ok 0) := by
  obtain ⟨w, h1, h3⟩ := wavelet_written_start s p hs h2 hlen hf1 hf2
  refine ⟨w, h1, ?_, ?_⟩
  · intro c i hc hi
    have := h3 c hc (s.take (i + 1)) (List.take_prefix _ _)
    rw [List.length_take, Nat.min_eq_left (by omega)] at this
    have e : (((i + 1 : Nat) : Int) - 1) = (i : Int) := by omega
    have h55 : (2 : Nat) ^ 55 = 36028797018963968 := by norm_num
    rw [e, u64_ofNat _ (by norm_num; omega)] at this
    exact this
  · intro c hc
    have := h3 c hc [] List.nil_prefix
    exact this

/-- The theorem at the bytes `a b a c` of "abac". -/
theorem wavelet_written_rank_witness :
    ∃ w, wavelet_written [97, 98, 97, 99] ⟨8⟩ = .ok w ∧
      (∀ c i : Nat, c < 256 → i < ([97, 98, 97, 99] : List Nat).length →
        wavelet_rank w c i = .ok ((([97, 98, 97, 99] : List Nat).take (i + 1)).count c)) ∧
      (∀ c : Nat, c < 256 → wavelet_rank w c U64_MINUS_ONE = .ok 0) :=
  wavelet_written_rank [97, 98, 97, 99] ⟨8⟩ (by intro x hx; simp at hx; omega)
    ⟨97, by simp, 98, by simp, by decide⟩ (by norm_num) (by decide) (by decide)

end Wire
/-! ### The codes of integers: vbyte and bits -/

namespace Wire

theorem vbyte_bytes_msb : ∀ (fuel n : Nat), n < 2 ^ (7 * fuel) →
    ∀ i x, (vbyte_bytes fuel n)[i]? = some x →
      x < 256 ∧ (128 ≤ x ↔ i + 1 = (vbyte_bytes fuel n).length) := by
  intro fuel
  induction fuel with
  | zero => intro n _ i x h; simp [vbyte_bytes] at h
  | succ f ih =>
    intro n hn i x h
    unfold vbyte_bytes at h ⊢
    by_cases h127 : n > 127
    · rw [if_pos h127] at h ⊢
      have hf : 0 < f := by
        rcases Nat.eq_zero_or_pos f with h0 | h0
        · subst h0; norm_num at hn; omega
        · exact h0
      obtain ⟨g, rfl⟩ : ∃ g, f = g + 1 := ⟨f - 1, by omega⟩
      have hn7 : n >>> 7 < 2 ^ (7 * (g + 1)) := by
        rw [Nat.shiftRight_eq_div_pow]
        apply Nat.div_lt_of_lt_mul
        rw [← Nat.pow_add]
        calc n < 2 ^ (7 * (g + 1 + 1)) := hn
          _ = 2 ^ (7 + 7 * (g + 1)) := by congr 1; omega
      have hpos := vbyte_bytes_length_pos g (n >>> 7)
      cases i with
      | zero =>
        simp only [List.getElem?_cons_zero, Option.some.injEq] at h
        subst h
        have h1 : n &&& 127 < 128 := by
          have := Nat.and_lt_two_pow n (show 127 < 2 ^ 7 by norm_num)
          norm_num at this
          exact this
        refine ⟨by omega, ?_⟩
        simp only [List.length_cons]
        constructor
        · intro h2; omega
        · intro h2; omega
      | succ j =>
        simp only [List.getElem?_cons_succ] at h
        obtain ⟨e1, e2⟩ := ih (n >>> 7) hn7 j x h
        refine ⟨e1, ?_⟩
        simp only [List.length_cons]
        rw [e2]
        omega
    · rw [if_neg h127] at h ⊢
      cases i with
      | zero =>
        simp only [List.getElem?_cons_zero, Option.some.injEq] at h
        subst h
        have key : ∀ m < 128, 128 ≤ m ||| 128 ∧ m ||| 128 < 256 := by decide
        obtain ⟨h2, h1⟩ := key n (by omega)
        refine ⟨h1, ?_⟩
        simp [h2]
      | succ j => simp at h

/-- C21: for every unsigned 64-bit integer `n`, `bitwriter_write_vbyte(n)`
emits between 1 and 10 bytes of which exactly the last has its most
significant bit set, and `reader_vbyte` on those bytes, after any bytes `pre`
and followed by arbitrary further bytes `post`, returns `n` and reports
exactly the number of bytes that were written.  The bytes are the same for
every writer they are appended to. -/
theorem vbyte_roundtrip (n : Nat) (hn : n < 2 ^ 64) :
    ∃ w vb, bitwriter_write_vbyte bitwriter_init n = .ok w ∧ bitwriter_bytes w = vb ∧
      1 ≤ vb.length ∧ vb.length ≤ 10 ∧
      (∀ i x, vb[i]? = some x → x < 256 ∧ (128 ≤ x ↔ i + 1 = vb.length)) ∧
      (∀ w0, WOk w0.data → ∃ w1, bitwriter_write_vbyte w0 n = .ok w1 ∧
        bitarray_bits w1.data = bitarray_bits w0.data ++ bytes_bits vb) ∧
      ∀ (pre post : List Nat) (bitoff : Nat),
        reader_vbyte ⟨pre ++ (vb ++ post), bitoff, 8 * pre.length⟩
          = .ok (n, vb.length, ⟨pre ++ (vb ++ post), bitoff, 8 * (pre.length + vb.length)⟩) := by
  obtain ⟨w, h1, h2, h3⟩ := bitwriter_write_vbyte_spec bitwriter_init n hn wok_init
  rw [bitarray_bits_init, List.nil_append] at h3
  have hal : w.data.len % 8 = 0 := by
    rw [bits_len w, h3, bytes_bits_length]
    omega
  obtain ⟨hb1, hb2⟩ := bitwriter_bytes_spec w h2 hal
  have hvb : bitwriter_bytes w = vbyte_bytes 10 n :=
    bytes_bits_inj _ _ hb1 (vbyte_bytes_allBytes 10 n) (by rw [hb2, h3])
  have h70 : n < 2 ^ (7 * 10) :=
    Nat.lt_of_lt_of_le hn (Nat.pow_le_pow_right (by norm_num) (by norm_num))
  refine ⟨w, vbyte_bytes 10 n, h1, hvb, vbyte_bytes_length_pos 9 n, vbyte_bytes_length_le 10 n,
    vbyte_bytes_msb 10 n h70, ?_, ?_⟩
  · intro w0 hw0
    obtain ⟨w1, g1, _, g3⟩ := bitwriter_write_vbyte_spec w0 n hn hw0
    exact ⟨w1, g1, g3⟩
  · intro pre post bitoff
    exact reader_vbyte_spec _ bitoff pre.length n post (by rw [List.drop_left]) hn

/-- The theorem at `n = 300`: the bytes are 44 and 130. -/
theorem vbyte_roundtrip_witness :
    ∃ w vb, bitwriter_write_vbyte bitwriter_init 300 = .ok w ∧ bitwriter_bytes w = vb ∧
      1 ≤ vb.length ∧ vb.length ≤ 10 ∧
      (∀ i x, vb[i]? = some x → x < 256 ∧ (128 ≤ x ↔ i + 1 = vb.length)) ∧
      (∀ w0, WOk w0.data → ∃ w1, bitwriter_write_vbyte w0 300 = .ok w1 ∧
        bitarray_bits w1.data = bitarray_bits w0.data ++ bytes_bits vb) ∧
      ∀ (pre post : List Nat) (bitoff : Nat),
        reader_vbyte ⟨pre ++ (vb ++ post), bitoff, 8 * pre.length⟩
          = .ok (300, vb.length,
              ⟨pre ++ (vb ++ post), bitoff, 8 * (pre.length + vb.length)⟩) :=
  vbyte_roundtrip 300 (by norm_num)

/-- C23: for every in-memory `BitWriter` state, every `n` with `0 ≤ n ≤ 64`
and every value `v < 2^n`, `bitwriter_write_bits(w, v, n)` increases
`bitwriter_len(w)` by exactly `n`, leaves every previously written bit
unchanged, and makes the `n` new bits the binary digits of `v` from most
significant to least significant.  The state is one a writer builds (`WOk`):
the spare bits of its last byte are 0. -/
theorem bitwriter_write_bits_appends (w : BitWriter) (v n : Nat) (hok : WOk w.data)
    (hn : n ≤ 64) (hv : v < 2 ^ n) :
    ∃ w2, bitwriter_write_bits w v n = .ok w2 ∧ WOk w2.data ∧
      bitwriter_len w2 = bitwriter_len w + n ∧
      (∀ p, p < bitwriter_len w → bitarray_get w2.data p = bitarray_get w.data p) ∧
      (∀ k, k < n → bitarray_get w2.data (bitwriter_len w + k) = .ok (v.testBit (n - 1 - k))) := by
  obtain ⟨d2, hrun, hok2, hlen2, hpre, hnew⟩ := bitarray_append_bits_spec w.data v n hok hn hv
  refine ⟨⟨d2⟩, ?_, hok2, hlen2, ?_, ?_⟩
  · unfold bitwriter_write_bits
    rw [if_neg (by omega), hrun]
    rfl
  · intro p hp
    unfold bitwriter_len at hp
    rw [bitarray_get_mm_bit d2 p (by omega) hok2.2.2, bitarray_get_mm_bit w.data p hp hok.2.2,
      hpre p hp]
  · intro k hk
    unfold bitwriter_len
    rw [bitarray_get_mm_bit d2 _ (by omega) hok2.2.2, hnew k hk]

/-- The theorem at a writer that holds the bits `101` and the five bits of
`v = 19`. -/
theorem bitwriter_write_bits_appends_witness :
    ∃ w2, bitwriter_write_bits ⟨⟨3, [160]⟩⟩ 19 5 = .ok w2 ∧ WOk w2.data ∧
      bitwriter_len w2 = bitwriter_len ⟨⟨3, [160]⟩⟩ + 5 ∧
      (∀ p, p < bitwriter_len ⟨⟨3, [160]⟩⟩ →
        bitarray_get w2.data p = bitarray_get (⟨3, [160]⟩ : BitArray) p) ∧
      (∀ k, k < 5 → bitarray_get w2.data (bitwriter_len ⟨⟨3, [160]⟩⟩ + k)
        = .ok (Nat.testBit 19 (5 - 1 - k))) :=
  bitwriter_write_bits_appends ⟨⟨3, [160]⟩⟩ 19 5
    ⟨by intro x hx; simp at hx; omega,
     by
      intro p h1 h2 _
      have hp : p < 8 := by
        have h3 : p / 8 = 0 := h2
        omega
      have h3 : 3 ≤ p := h1
      interval_cases p <;> decide,
     by decide⟩ (by decide) (by decide)

end Wire
/-! ### The Elias-delta code -/

namespace Wire

theorem bit_len_loop_spec : ∀ (fuel n : Nat), n < 2 ^ fuel → 0 < n →
    1 ≤ bit_len_loop fuel n ∧ 2 ^ (bit_len_loop fuel n - 1) ≤ n ∧ n < 2 ^ bit_len_loop fuel n := by
  intro fuel
  induction fuel with
  | zero =>
    intro n h1 h2
    simp at h1
    omega
  | succ fuel ih =>
    intro n h1 h2
    unfold bit_len_loop
    rw [if_neg (by omega)]
    by_cases h : n / 2 = 0
    · have hn : n = 1 := by omega
      subst hn
      cases fuel with
      | zero => simp [bit_len_loop]
      | succ f => simp [bit_len_loop]
    · have hlt : n / 2 < 2 ^ fuel := by
        rw [Nat.pow_succ] at h1
        omega
      obtain ⟨a, b, c⟩ := ih (n / 2) hlt (by omega)
      refine ⟨by omega, ?_, ?_⟩
      · rw [Nat.add_sub_cancel]
        have e : bit_len_loop fuel (n / 2) = (bit_len_loop fuel (n / 2) - 1) + 1 := by omega
        rw [e, Nat.pow_succ]
        omega
      · rw [Nat.pow_succ]
        omega

theorem bit_len_pos (m : Nat) (hm : 0 < m) (h64 : m < 2 ^ 64) :
    1 ≤ BIT_LEN m ∧ 2 ^ (BIT_LEN m - 1) ≤ m ∧ m < 2 ^ BIT_LEN m := by
  unfold BIT_LEN
  have e : m % 18446744073709551616 = m := Nat.mod_eq_of_lt (by norm_num at h64; exact h64)
  rw [e]
  exact bit_len_loop_spec 64 m h64 hm

theorem bit_len_le (m k : Nat) (h : m < 2 ^ k) : BIT_LEN m ≤ k := by
  unfold BIT_LEN
  have hlt : m % 18446744073709551616 < 2 ^ 64 := by
    have := Nat.mod_lt m (show 18446744073709551616 > 0 by norm_num)
    norm_num
    exact this
  have hle : m % 18446744073709551616 ≤ m := Nat.mod_le _ _
  by_cases h0 : m % 18446744073709551616 = 0
  · rw [h0]
    simp [bit_len_loop]
  · obtain ⟨a, b, c⟩ := bit_len_loop_spec 64 _ hlt (by omega)
    have hb : 2 ^ (bit_len_loop 64 (m % 18446744073709551616) - 1) < 2 ^ k := by omega
    have := (Nat.pow_lt_pow_iff_right (by norm_num : 1 < 2)).mp hb
    omega

theorem testBit_top (m k : Nat) (h1 : 2 ^ k ≤ m) (h2 : m < 2 ^ (k + 1)) : m.testBit k = true := by
  rw [Nat.testBit_to_div_mod]
  have : m / 2 ^ k = 1 := by
    apply Nat.div_eq_of_lt_le
    · rw [Nat.one_mul]; exact h1
    · rw [show 1 + 1 = 2 from rfl, Nat.mul_comm, ← Nat.pow_succ]; exact h2
  simp [this]

theorem shr_and_one (v i : Nat) :
    (v >>> i) &&& 1 < 2 ∧ ((v >>> i) &&& 1).testBit 0 = v.testBit i := by
  constructor
  · rw [Nat.and_one_is_mod]; omega
  · rw [← and_one_testBit v i, Nat.testBit_zero, Nat.and_one_is_mod]
    by_cases h : (v >>> i) % 2 = 1
    · simp [h]
    · have : (v >>> i) % 2 = 0 := by omega
      simp [this]

/-- A loop that writes one bit per round. -/
theorem write_bit_loop (f : Nat → Nat) (hf : ∀ k, f k < 2) (m : Nat) (w : BitWriter)
    (hok : WOk w.data) :
    ∃ w2, (List.range m).foldlM (fun w k => bitwriter_write_bit w (f k)) w = .ok w2 ∧
      WOk w2.data ∧
      bitarray_bits w2.data
        = bitarray_bits w.data ++ (List.range m).map (fun k => (f k).testBit 0) := by
  apply foldlM_range_inv (fun w k => bitwriter_write_bit w (f k))
    (fun k w2 => WOk w2.data ∧ bitarray_bits w2.data
        = bitarray_bits w.data ++ (List.range k).map (fun k => (f k).testBit 0)) m w
  · exact ⟨hok, by simp⟩
  · intro k s hk hP
    obtain ⟨s2, h1, h2, h3⟩ := bitwriter_write_bit_spec s (f k) hP.1 (hf k)
    refine ⟨s2, h1, h2, ?_⟩
    rw [h3, hP.2, List.range_succ, List.map_append, List.append_assoc]
    rfl

theorem bitwriter_write_eliasdelta_spec (w : BitWriter) (n : Nat) (hn : n + 1 < 2 ^ 64)
    (hok : WOk w.data) :
    ∃ w2, bitwriter_write_eliasdelta w n = .ok w2 ∧ WOk w2.data ∧
      bitarray_bits w2.data = bitarray_bits w.data ++ eliasdelta_bits n := by
  unfold bitwriter_write_eliasdelta eliasdelta_bits
  have hmod : (n + 1) % 18446744073709551616 = n + 1 :=
    Nat.mod_eq_of_lt (by norm_num at hn ⊢; exact hn)
  dsimp only
  simp only [hmod]
  have hn1 : n + 1 < 2 ^ 64 := by norm_num at hn ⊢; omega
  obtain ⟨hl1, hl2, hl3⟩ := bit_len_pos (n + 1) (by omega) hn1
  have hl64 := bit_len_le (n + 1) 64 hn1
  generalize BIT_LEN (n + 1) = len at *
  obtain ⟨hll1, hll2, hll3⟩ := bit_len_pos len (by omega) (by norm_num; omega)
  generalize hLL : BIT_LEN len = LL at *
  have e1 : (((LL : Nat) : Int) - 1).toNat = LL - 1 := by omega
  have e2 : (((LL : Nat) : Int) - 1 + 1).toNat = LL := by omega
  have e3 : (((len : Nat) : Int) - 1).toNat = len - 1 := by omega
  rw [e1, e2, e3]
  obtain ⟨w1, a1, a2, a3⟩ := write_bit_loop (fun _ => 0) (fun _ => by norm_num) (LL - 1) w hok
  obtain ⟨w2, b1, b2, b3⟩ := write_bit_loop (fun k => (len >>> (LL - 1 - k)) &&& 1)
    (fun k => (shr_and_one _ _).1) LL w1 a2
  obtain ⟨w3, c1, c2, c3⟩ := write_bit_loop (fun k => ((n + 1) >>> (len - 2 - k)) &&& 1)
    (fun k => (shr_and_one _ _).1) (len - 1) w2 b2
  rw [a1, ok_bind', b1, ok_bind', c1]
  refine ⟨w3, rfl, c2, ?_⟩
  have hz : List.map (fun _ : Nat => Nat.testBit 0 0) (List.range (LL - 1))
      = List.replicate (LL - 1) false := by
    apply List.ext_getElem
    · simp
    · intro i h1 h2
      simp
  have hb : List.map (fun k => (len >>> (LL - 1 - k) &&& 1).testBit 0) (List.range LL)
      = bits_be len LL := by
    unfold bits_be
    apply List.map_congr_left
    intro k hk
    rw [(shr_and_one _ _).2]
  have hc : List.map (fun k => ((n + 1) >>> (len - 2 - k) &&& 1).testBit 0)
      (List.range (len - 1)) = bits_be (n + 1) (len - 1) := by
    unfold bits_be
    apply List.map_congr_left
    intro k hk
    rw [(shr_and_one _ _).2]
    congr 1
  rw [c3, b3, a3, hz, hb, hc, List.append_assoc, List.append_assoc]

theorem two_mul_or_one (a : Nat) : (2 * a) ||| 1 = 2 * a + 1 := by
  apply Nat.eq_of_testBit_eq
  intro i
  rw [Nat.testBit_or]
  cases i with
  | zero => simp [Nat.testBit_zero]; omega
  | succ j =>
    rw [Nat.testBit_succ, Nat.testBit_succ, Nat.testBit_succ]
    have h1 : 2 * a / 2 = a := by omega
    have h2 : (2 * a + 1) / 2 = a := by omega
    rw [h1, h2]
    simp

theorem acc_step (x M k : Nat) (hk : k < M) :
    x % 2 ^ M / 2 ^ (M - (k + 1))
      = 2 * (x % 2 ^ M / 2 ^ (M - k)) + (if x.testBit (M - 1 - k) then 1 else 0) := by
  generalize hy : x % 2 ^ M = y
  have hj : M - k = (M - (k + 1)) + 1 := by omega
  have hjj : M - 1 - k = M - (k + 1) := by omega
  rw [hj, hjj]
  generalize hj2 : M - (k + 1) = j
  have hjM : j < M := by omega
  have htb : x.testBit j = y.testBit j := by
    rw [← hy, Nat.testBit_mod_two_pow]
    simp [hjM]
  rw [htb, Nat.testBit_to_div_mod, Nat.pow_succ, ← Nat.div_div_eq_div_mul]
  have := Nat.div_add_mod (y / 2 ^ j) 2
  by_cases h : y / 2 ^ j % 2 = 1
  · simp only [h, decide_True, if_true]
    omega
  · simp only [h, decide_False]
    simp only [Bool.false_eq_true, if_false]
    omega

theorem reader_zeros_spec (mm : List Nat) (bitoff : Nat) :
    ∀ (z fuel q k0 : Nat), z < fuel → q + z + 1 ≤ 8 * mm.length →
      (∀ j, j < z → mm_bit mm (q + j) = false) → mm_bit mm (q + z) = true →
      k0 + z ≤ INT_MAX →
      reader_eliasdelta_zeros fuel ⟨mm, bitoff, q⟩ k0 = .ok (k0 + z, ⟨mm, bitoff, q + z + 1⟩) := by
  intro z
  induction z with
  | zero =>
    intro fuel q k0 hf hq _ h1 _
    obtain ⟨fuel, rfl⟩ : ∃ f2, fuel = f2 + 1 := ⟨fuel - 1, by omega⟩
    unfold reader_eliasdelta_zeros
    rw [reader_readbit_spec _ (by simp only; omega), ok_bind']
    simp only [Nat.add_zero] at h1 ⊢
    rw [h1]
    rfl
  | succ z ih =>
    intro fuel q k0 hf hq h0 h1 hk
    obtain ⟨fuel, rfl⟩ : ∃ f2, fuel = f2 + 1 := ⟨fuel - 1, by omega⟩
    unfold reader_eliasdelta_zeros
    rw [reader_readbit_spec _ (by simp only; omega), ok_bind']
    have hb := h0 0 (by omega)
    simp only [Nat.add_zero] at hb ⊢
    rw [hb]
    rw [if_neg Bool.false_ne_true, if_neg (by omega)]
    have := ih fuel (q + 1) (k0 + 1) (by omega) (by omega)
      (fun j hj => by rw [show q + 1 + j = q + (j + 1) by omega]; exact h0 (j + 1) (by omega))
      (by rw [show q + 1 + z = q + (z + 1) by omega]; exact h1) (by omega)
    rw [this]
    congr 2
    · omega
    · congr 1
      omega

theorem read_len_loop (mm : List Nat) (bitoff v M q : Nat) (hq : q + M ≤ 8 * mm.length)
    (hbits : ∀ k, k < M → mm_bit mm (q + k) = v.testBit (M - 1 - k))
    (hmax : 2 ^ M + v % 2 ^ M ≤ INT_MAX) :
    (List.range M).foldlM
      (fun (st : Nat × Reader) (_ : Nat) => do
        let len := st.1 * 2
        if len > INT_MAX then (Except.error Err.undefined : Except Err (Nat × Reader))
        else
          let (b, r) ← reader_readbit st.2
          pure (if b then len ||| 1 else len, r))
      (1, ⟨mm, bitoff, q⟩)
      = .ok (2 ^ M + v % 2 ^ M, ⟨mm, bitoff, q + M⟩) := by
  have hy : v % 2 ^ M < 2 ^ M := Nat.mod_lt _ (Nat.two_pow_pos M)
  obtain ⟨s, h1, h2⟩ := foldlM_range_inv
    (fun (st : Nat × Reader) (_ : Nat) => do
        let len := st.1 * 2
        if len > INT_MAX then (Except.error Err.undefined : Except Err (Nat × Reader))
        else
          let (b, r) ← reader_readbit st.2
          pure (if b then len ||| 1 else len, r))
    (fun k st => st = (2 ^ k + v % 2 ^ M / 2 ^ (M - k), (⟨mm, bitoff, q + k⟩ : Reader)))
    M (1, ⟨mm, bitoff, q⟩)
    (by
      simp only [Nat.sub_zero, Nat.add_zero, Nat.pow_zero]
      rw [Nat.div_eq_of_lt hy])
    (by
      intro k st hk hP
      subst hP
      dsimp only
      have hstep := acc_step v M k hk
      have hle : v % 2 ^ M / 2 ^ (M - (k + 1)) ≤ v % 2 ^ M := Nat.div_le_self _ _
      have hpow : 2 ^ (k + 1) ≤ 2 ^ M := Nat.pow_le_pow_right (by norm_num) (by omega)
      have hps : 2 ^ (k + 1) = 2 * 2 ^ k := by rw [Nat.pow_succ]; omega
      rw [if_neg (by split at hstep <;> omega),
        reader_readbit_spec _ (by simp only; omega), ok_bind']
      simp only
      rw [hbits k hk]
      refine ⟨_, rfl, ?_⟩
      congr 1
      rw [hstep]
      by_cases hb : v.testBit (M - 1 - k) = true
      · rw [if_pos hb, if_pos hb]
        rw [show (2 ^ k + v % 2 ^ M / 2 ^ (M - k)) * 2 = 2 * (2 ^ k + v % 2 ^ M / 2 ^ (M - k)) by
          omega, two_mul_or_one]
        omega
      · rw [if_neg hb, if_neg hb]
        omega)
  rw [h1, h2]
  simp

theorem read_n_loop (mm : List Nat) (bitoff v M q : Nat) (hq : q + M ≤ 8 * mm.length)
    (hbits : ∀ k, k < M → mm_bit mm (q + k) = v.testBit (M - 1 - k))
    (hmax : 2 ^ M + v % 2 ^ M < 2 ^ 64) :
    (List.range M).foldlM
      (fun (st : Nat × Reader) (_ : Nat) => do
        let n := (st.1 * 2) % 18446744073709551616
        let (b, r) ← reader_readbit st.2
        pure (if b then n ||| 1 else n, r))
      (1, ⟨mm, bitoff, q⟩)
      = .ok (2 ^ M + v % 2 ^ M, ⟨mm, bitoff, q + M⟩) := by
  have hy : v % 2 ^ M < 2 ^ M := Nat.mod_lt _ (Nat.two_pow_pos M)
  have h64 : (2 : Nat) ^ 64 = 18446744073709551616 := by norm_num
  obtain ⟨s, h1, h2⟩ := foldlM_range_inv
    (fun (st : Nat × Reader) (_ : Nat) => do
        let n := (st.1 * 2) % 18446744073709551616
        let (b, r) ← reader_readbit st.2
        pure (if b then n ||| 1 else n, r))
    (fun k st => st = (2 ^ k + v % 2 ^ M / 2 ^ (M - k), (⟨mm, bitoff, q + k⟩ : Reader)))
    M (1, ⟨mm, bitoff, q⟩)
    (by
      simp only [Nat.sub_zero, Nat.add_zero, Nat.pow_zero]
      rw [Nat.div_eq_of_lt hy])
    (by
      intro k st hk hP
      subst hP
      dsimp only
      have hstep := acc_step v M k hk
      have hle : v % 2 ^ M / 2 ^ (M - (k + 1)) ≤ v % 2 ^ M := Nat.div_le_self _ _
      have hpow : 2 ^ (k + 1) ≤ 2 ^ M := Nat.pow_le_pow_right (by norm_num) (by omega)
      have hps : 2 ^ (k + 1) = 2 * 2 ^ k := by rw [Nat.pow_succ]; omega
      rw [Nat.mod_eq_of_lt (by split at hstep <;> omega),
        reader_readbit_spec _ (by simp only; omega), ok_bind']
      simp only
      rw [hbits k hk]
      refine ⟨_, rfl, ?_⟩
      congr 1
      rw [hstep]
      by_cases hb : v.testBit (M - 1 - k) = true
      · rw [if_pos hb, if_pos hb]
        rw [show (2 ^ k + v % 2 ^ M / 2 ^ (M - k)) * 2 = 2 * (2 ^ k + v % 2 ^ M / 2 ^ (M - k)) by
          omega, two_mul_or_one]
        omega
      · rw [if_neg hb, if_neg hb]
        omega)
  rw [h1, h2]
  simp

theorem pow_add_mod (x M : Nat) (h1 : 2 ^ M ≤ x) (h2 : x < 2 ^ (M + 1)) :
    2 ^ M + x % 2 ^ M = x := by
  rw [Nat.pow_succ] at h2
  rw [Nat.mod_eq_sub_mod h1, Nat.mod_eq_of_lt (by omega)]
  omega

theorem eliasdelta_bits_length (n : Nat) :
    (eliasdelta_bits n).length
      = BIT_LEN (BIT_LEN (n + 1)) - 1 + (BIT_LEN (BIT_LEN (n + 1)) + (BIT_LEN (n + 1) - 1)) := by
  unfold eliasdelta_bits
  simp [bits_be_length]

theorem reader_eliasdelta_spec (n : Nat) (hn : n + 1 < 2 ^ 64) (r : Reader)
    (hq : r.bitpos + (eliasdelta_bits n).length ≤ 8 * r.mm.length)
    (hbits : ∀ k, k < (eliasdelta_bits n).length →
      (eliasdelta_bits n)[k]? = some (mm_bit r.mm (r.bitpos + k))) :
    reader_eliasdelta r
      = .ok (n, ⟨r.mm, r.bitoff, r.bitpos + (eliasdelta_bits n).length⟩) := by
  obtain ⟨mm, bitoff, q⟩ := r
  rw [eliasdelta_bits_length] at hq hbits ⊢
  unfold eliasdelta_bits at hbits
  simp only at hq hbits ⊢
  obtain ⟨hl1, hl2, hl3⟩ := bit_len_pos (n + 1) (by omega) hn
  have hl64 := bit_len_le (n + 1) 64 hn
  generalize BIT_LEN (n + 1) = len at *
  obtain ⟨hll1, hll2, hll3⟩ := bit_len_pos len (by omega) (by norm_num; omega)
  have hll7 := bit_len_le len 7 (by norm_num; omega)
  generalize BIT_LEN len = LL at *
  have hA : ∀ j, j < LL - 1 → mm_bit mm (q + j) = false := by
    intro j hj
    have := hbits j (by omega)
    rw [List.getElem?_append_left (by simpa using hj), List.getElem?_replicate,
      if_pos hj] at this
    exact (Option.some.inj this).symm
  have hB : ∀ k, k < LL → mm_bit mm (q + (LL - 1) + k) = len.testBit (LL - 1 - k) := by
    intro k hk
    have := hbits (LL - 1 + k) (by omega)
    rw [List.getElem?_append_right (by simp), List.length_replicate,
      List.getElem?_append_left (by rw [bits_be_length]; omega),
      show LL - 1 + k - (LL - 1) = k by omega,
      List.getElem?_eq_getElem (by rw [bits_be_length]; exact hk), bits_be_getElem] at this
    rw [Nat.add_assoc]
    exact (Option.some.inj this).symm
  have hC : ∀ k, k < len - 1 →
      mm_bit mm (q + (LL - 1) + LL + k) = (n + 1).testBit (len - 1 - 1 - k) := by
    intro k hk
    have := hbits (LL - 1 + (LL + k)) (by omega)
    rw [List.getElem?_append_right (by simp), List.length_replicate,
      List.getElem?_append_right (by rw [bits_be_length]; omega), bits_be_length,
      show LL - 1 + (LL + k) - (LL - 1) - LL = k by omega,
      List.getElem?_eq_getElem (by rw [bits_be_length]; exact hk), bits_be_getElem] at this
    rw [show q + (LL - 1) + LL + k = q + (LL - 1 + (LL + k)) by omega]
    exact (Option.some.inj this).symm
  have hz := reader_zeros_spec mm bitoff (LL - 1) (8 * mm.length + 1) q 0 (by omega) (by omega)
    hA (by
      have := hB 0 (by omega)
      rw [Nat.add_zero, Nat.sub_zero] at this
      rw [this]
      exact testBit_top len (LL - 1) hll2 (by rw [show LL - 1 + 1 = LL by omega]; exact hll3))
    (by rw [show INT_MAX = 2147483647 from rfl]; omega)
  have hlen := read_len_loop mm bitoff len (LL - 1) (q + (LL - 1) + 1) (by omega)
    (by
      intro k hk
      have := hB (k + 1) (by omega)
      rw [show q + (LL - 1) + 1 + k = q + (LL - 1) + (k + 1) by omega, this]
      congr 1
      omega)
    (by
      rw [pow_add_mod len (LL - 1) hll2 (by rw [show LL - 1 + 1 = LL by omega]; exact hll3),
        show INT_MAX = 2147483647 from rfl]
      omega)
  rw [pow_add_mod len (LL - 1) hll2 (by rw [show LL - 1 + 1 = LL by omega]; exact hll3)] at hlen
  have hnl := read_n_loop mm bitoff (n + 1) (len - 1) (q + (LL - 1) + 1 + (LL - 1)) (by omega)
    (by
      intro k hk
      have := hC k hk
      rw [show q + (LL - 1) + 1 + (LL - 1) + k = q + (LL - 1) + LL + k by omega, this])
    (by
      rw [pow_add_mod (n + 1) (len - 1) hl2
        (by rw [show len - 1 + 1 = len by omega]; exact hl3)]
      exact hn)
  rw [pow_add_mod (n + 1) (len - 1) hl2
    (by rw [show len - 1 + 1 = len by omega]; exact hl3)] at hnl
  unfold reader_eliasdelta
  simp only
  rw [hz, ok_bind']
  simp only [Nat.zero_add]
  rw [hlen, ok_bind']
  simp only
  rw [hnl, ok_bind']
  simp only [pure, Except.pure]
  congr 2
  · have e : (((n + 1 : Nat) : Int) - 1) = (n : Int) := by omega
    rw [e, u64_ofNat n (by omega)]
  · congr 1
    omega

theorem eliasdelta_write_all_spec : ∀ (l : List Nat) (w : BitWriter),
    (∀ x ∈ l, x + 1 < 2 ^ 64) → WOk w.data →
    ∃ w2, eliasdelta_write_all w l = .ok w2 ∧ WOk w2.data ∧
      bitarray_bits w2.data = bitarray_bits w.data ++ l.flatMap eliasdelta_bits := by
  intro l
  induction l with
  | nil => intro w _ hok; exact ⟨w, rfl, hok, by simp⟩
  | cons a l ih =>
    intro w hl hok
    obtain ⟨w1, h1, h2, h3⟩ := bitwriter_write_eliasdelta_spec w a (hl a (by simp)) hok
    obtain ⟨w2, g1, g2, g3⟩ := ih w1 (fun x hx => hl x (by simp [hx])) h2
    refine ⟨w2, ?_, g2, ?_⟩
    · unfold eliasdelta_write_all at g1 ⊢
      rw [List.foldlM_cons, h1, ok_bind']
      exact g1
    · rw [g3, h3, List.flatMap_cons, List.append_assoc]

theorem eliasdelta_read_all_spec (mm : List Nat) (bitoff : Nat) : ∀ (l : List Nat) (q : Nat),
    (∀ x ∈ l, x + 1 < 2 ^ 64) → q + (l.flatMap eliasdelta_bits).length ≤ 8 * mm.length →
    (∀ k, k < (l.flatMap eliasdelta_bits).length →
      (l.flatMap eliasdelta_bits)[k]? = some (mm_bit mm (q + k))) →
    eliasdelta_read_all l.length ⟨mm, bitoff, q⟩
      = .ok (l, ⟨mm, bitoff, q + (l.flatMap eliasdelta_bits).length⟩) := by
  intro l
  induction l with
  | nil => intro q _ _ _; rfl
  | cons a l ih =>
    intro q hl hq hbits
    rw [List.flatMap_cons, List.length_append] at hq hbits
    have h1 := reader_eliasdelta_spec a (hl a (by simp)) ⟨mm, bitoff, q⟩ (by simp only; omega)
      (by
        intro k hk
        have := hbits k (by omega)
        rw [List.getElem?_append_left hk] at this
        exact this)
    have h2 := ih (q + (eliasdelta_bits a).length) (fun x hx => hl x (by simp [hx])) (by omega)
      (by
        intro k hk
        have := hbits ((eliasdelta_bits a).length + k) (by omega)
        rw [List.getElem?_append_right (by omega), Nat.add_sub_cancel_left] at this
        rw [Nat.add_assoc]
        exact this)
    simp only [List.length_cons]
    unfold eliasdelta_read_all
    rw [h1, ok_bind']
    simp only
    rw [h2, ok_bind']
    simp only [pure, Except.pure, List.flatMap_cons, List.length_append]
    congr 3
    omega

/-- The bits of the bytes of a finished writer. -/
theorem written_bit (w : BitWriter) (hok : WOk w.data) (hal : w.data.len % 8 = 0)
    (post : List Nat) (p : Nat) (hp : p < w.data.len) :
    (bitarray_bits w.data)[p]? = some (mm_bit (bitwriter_bytes w ++ post) p) := by
  obtain ⟨_, h2⟩ := bitwriter_bytes_spec w hok hal
  have hlen : (bytes_bits (bitwriter_bytes w)).length = w.data.len := by
    rw [h2, bitarray_bits_length]
  have hp2 : p < (bytes_bits (bitwriter_bytes w)).length := by omega
  rw [← h2, List.getElem?_eq_getElem hp2, bytes_bits_getElem,
    mm_bit_append_left _ _ _ (by rw [bytes_bits_length] at hp2; exact hp2)]

/-- C22: for every integer `n` with `0 ≤ n < 2^64 - 1` and every starting bit
offset, `reader_eliasdelta` on the bits written by
`bitwriter_write_eliasdelta(n)`, followed by arbitrary further bits, returns
`n` and advances the read position by exactly the number of bits written, so a
sequence of codes written back to back decodes to the same sequence of values.
The writer is in any state a writer builds, and the reader is at the position
of the code in any file that holds the bits there; for a list `l` written to
a writer `w`, flushed and followed by any bytes `post`, the reader at the
length of `w` reads `l` and stops at the end of the last code. -/
theorem eliasdelta_roundtrip :
    (∀ (n : Nat) (w : BitWriter), n < 2 ^ 64 - 1 → WOk w.data →
      ∃ w2, bitwriter_write_eliasdelta w n = .ok w2 ∧ WOk w2.data ∧
        bitwriter_len w2 = bitwriter_len w + (eliasdelta_bits n).length ∧
        bitarray_bits w2.data = bitarray_bits w.data ++ eliasdelta_bits n) ∧
    (∀ (n : Nat) (r : Reader), n < 2 ^ 64 - 1 →
      r.bitpos + (eliasdelta_bits n).length ≤ 8 * r.mm.length →
      (∀ k, k < (eliasdelta_bits n).length →
        (eliasdelta_bits n)[k]? = some (mm_bit r.mm (r.bitpos + k))) →
      reader_eliasdelta r
        = .ok (n, ⟨r.mm, r.bitoff, r.bitpos + (eliasdelta_bits n).length⟩)) ∧
    (∀ (l : List Nat) (w : BitWriter), (∀ x ∈ l, x < 2 ^ 64 - 1) → WOk w.data →
      ∃ w1 w2, eliasdelta_write_all w l = .ok w1 ∧ bitwriter_flush w1 = .ok w2 ∧
        ∀ (post : List Nat) (bitoff : Nat),
          eliasdelta_read_all l.length ⟨bitwriter_bytes w2 ++ post, bitoff, bitwriter_len w⟩
            = .ok (l, ⟨bitwriter_bytes w2 ++ post, bitoff, bitwriter_len w1⟩)) := by
  have h64 : (2 : Nat) ^ 64 = 18446744073709551616 := by norm_num
  refine ⟨?_, ?_, ?_⟩
  · intro n w hn hok
    obtain ⟨w2, h1, h2, h3⟩ := bitwriter_write_eliasdelta_spec w n (by omega) hok
    refine ⟨w2, h1, h2, ?_, h3⟩
    unfold bitwriter_len
    rw [bits_len w2, h3, List.length_append, bitarray_bits_length]
  · intro n r hn hq hbits
    exact reader_eliasdelta_spec n (by omega) r hq hbits
  · intro l w hl hok
    obtain ⟨w1, h1, h2, h3⟩ := eliasdelta_write_all_spec l w (fun x hx => by
      have := hl x hx
      omega) hok
    obtain ⟨w2, f1, f2, f3, f4⟩ := bitwriter_flush_spec w1 h2
    refine ⟨w1, w2, h1, f1, ?_⟩
    intro post bitoff
    have hlen1 : w1.data.len = w.data.len + (l.flatMap eliasdelta_bits).length := by
      rw [bits_len w1, h3, List.length_append, bitarray_bits_length]
    have hlen2 : w1.data.len ≤ w2.data.len := by
      rw [bits_len w2, f4, List.length_append, bitarray_bits_length]
      omega
    have hcap : w2.data.len = 8 * (bitwriter_bytes w2).length := by
      have := (bitwriter_bytes_spec w2 f2 f3).2
      have := congrArg List.length this
      rw [bytes_bits_length, bitarray_bits_length] at this
      omega
    have := eliasdelta_read_all_spec (bitwriter_bytes w2 ++ post) bitoff l w.data.len
      (fun x hx => by
        have := hl x hx
        omega)
      (by rw [List.length_append]; omega)
      (by
        intro k hk
        rw [← written_bit w2 f2 f3 post (w.data.len + k) (by omega), f4, h3,
          List.append_assoc, List.getElem?_append_right (by rw [bitarray_bits_length]; omega),
          bitarray_bits_length, Nat.add_sub_cancel_left, List.getElem?_append_left hk])
    unfold bitwriter_len
    rw [this, hlen1]

/-- The theorem at the values 5, 0 and 300 written after the bits `101`. -/
theorem eliasdelta_roundtrip_witness :
    ∃ w1 w2, eliasdelta_write_all ⟨⟨3, [160]⟩⟩ [5, 0, 300] = .ok w1 ∧
      bitwriter_flush w1 = .ok w2 ∧
      ∀ (post : List Nat) (bitoff : Nat),
        eliasdelta_read_all ([5, 0, 300] : List Nat).length
            ⟨bitwriter_bytes w2 ++ post, bitoff, bitwriter_len ⟨⟨3, [160]⟩⟩⟩
          = .ok ([5, 0, 300], ⟨bitwriter_bytes w2 ++ post, bitoff, bitwriter_len w1⟩) :=
  eliasdelta_roundtrip.2.2 [5, 0, 300] ⟨⟨3, [160]⟩⟩
    (by intro x hx; simp at hx; rcases hx with rfl | rfl | rfl <;> norm_num)
    ⟨by intro x hx; simp at hx; omega,
     by
      intro p h1 h2 _
      have hp : p < 8 := by
        have h3 : p / 8 = 0 := h2
        omega
      have h3 : 3 ≤ p := h1
      interval_cases p <;> decide,
     by decide⟩

end Wire
namespace Wire

/-- C24 (`NEXT_POW2`, `k2_write`): for a matrix of width `2^30 + 1` and height 1
without pairs the side length is `NEXT_POW2(2^30 + 1)`, which `k2_write`
computes as `1 << 31` on the `int` constant 1: C leaves this shift undefined,
so no side length `2^31` is stored and no k2-tree is defined that `k2_init`
could open.  The width `2^30` is the largest for which the macro is defined;
there the stored side length is `2^30`.  On the written matrix of width and
height 3 with the pairs (0,0), (2,1), (1,2), (2,2), (2,1) `k2_get(r, c)` is
true exactly for the cells (r, c) = (0,0), (1,2), (2,1), (2,2). -/
theorem k2_write_next_pow2_undefined :
    BIT_LEN (max (max 1073741825 1) 2 - 1) = 31 ∧
    NEXT_POW2 (max (max 1073741825 1) 2) = .error .undefined ∧
    k2_write 1073741825 1 [] 0 bitwriter_init ⟨8⟩ = .error .undefined ∧
    k2_written 1073741825 1 [] ⟨8⟩ = .error .undefined ∧
    NEXT_POW2 (max (max 1073741824 1) 2) = .ok 1073741824 ∧
    (k2_written 1073741824 1 [] ⟨8⟩).toOption.map (fun k => k.map (fun k => k.n))
      = some (some 1073741824) ∧
    (do
      let k ← k2_written 3 3 [(0, 0), (2, 1), (1, 2), (2, 2), (2, 1)] ⟨8⟩
      match k with
      | none => .error .failed
      | some k =>
        ([(0, 0), (0, 1), (0, 2), (1, 0), (1, 1), (1, 2), (2, 0), (2, 1), (2, 2)] :
          List (Nat × Nat)).mapM (fun (rc : Nat × Nat) => k2_get k rc.1 rc.2))
      = .ok [true, false, false, false, false, true, false, true, true] := by
  decide!

end Wire
/-! ### The ring queue -/

namespace Wire

theorem mod_succ_wrap (w cap : Nat) (h : w < cap) :
    (if w + 1 = cap then 0 else w + 1) = (w + 1) % cap := by
  by_cases hc : w + 1 = cap
  · rw [if_pos hc, hc, Nat.mod_self]
  · rw [if_neg hc, Nat.mod_eq_of_lt (by omega)]

theorem mod_add_succ (r i cap : Nat) (hr : r < cap) :
    (r + (i + 1)) % cap = ((if r + 1 = cap then 0 else r + 1) + i) % cap := by
  rw [mod_succ_wrap r cap hr, Nat.mod_add_mod]
  congr 1
  omega

theorem mod_inj_lt (r i j cap : Nat) (hi : i < cap) (hj : j < cap)
    (h : (r + i) % cap = (r + j) % cap) : i = j := by
  have h1 : Nat.ModEq cap (r + i) (r + j) := h
  have h2 : Nat.ModEq cap i j := Nat.ModEq.add_left_cancel' r h1
  have h3 : i % cap = j % cap := h2
  rw [Nat.mod_eq_of_lt hi, Nat.mod_eq_of_lt hj] at h3
  exact h3

theorem rq_init {α : Type} (cap : Nat) : RqRep (ringqueue_init cap : RingQueue α) [] := by
  unfold RqRep ringqueue_init
  exact ⟨rfl, Or.inl ⟨rfl, rfl, rfl, rfl⟩⟩

theorem rq_empty {α : Type} (q : RingQueue α) (l : List α) (h : RqRep q l) :
    ringqueue_empty q = true ↔ l = [] := by
  unfold ringqueue_empty
  rw [beq_iff_eq, h.1]
  exact List.length_eq_zero

theorem rq_dequeue {α : Type} (q : RingQueue α) (v : α) (l : List α) (h : RqRep q (v :: l)) :
    ∃ q1, ringqueue_dequeue q = .ok (some v, q1) ∧ RqRep q1 l := by
  obtain ⟨hlen, hrep⟩ := h
  rcases hrep with ⟨_, hnil, _, _⟩ | ⟨d, hd, hdl, hcap, hread, hle, hw, hel⟩
  · exact absurd hnil (by simp)
  · have h0 := hel 0 v (by simp)
    rw [Nat.add_zero, Nat.mod_eq_of_lt hread] at h0
    unfold ringqueue_dequeue
    rw [if_neg (by rw [hlen]; simp), hd]
    simp only [List.get?_eq_getElem?, h0]
    refine ⟨_, rfl, ?_, Or.inr ⟨d, ?_, ?_, ?_, ?_, ?_, ?_, ?_⟩⟩
    · simp only [hlen, List.length_cons, Nat.add_sub_cancel]
    · rfl
    · exact hdl
    · exact hcap
    · show (if q.read + 1 = q.cap then 0 else q.read + 1) < q.cap
      split <;> omega
    · simp only [List.length_cons] at hle
      show l.length ≤ q.cap
      omega
    · show q.write = ((if q.read + 1 = q.cap then 0 else q.read + 1) + l.length) % q.cap
      rw [hw, List.length_cons, mod_add_succ _ _ _ hread]
    · intro i w hi
      simp only
      rw [← mod_add_succ _ _ _ hread]
      exact hel (i + 1) w (by simpa using hi)

theorem rq_enqueue {α : Type} (q : RingQueue α) (v : α) (l : List α) (h : RqRep q l) :
    ∃ q1, ringqueue_enqueue q v = .ok q1 ∧ RqRep q1 (l ++ [v]) := by
  obtain ⟨hlen, hrep⟩ := h
  have key : ∀ (q1 : RingQueue α) (d : List (Option α)), q1.len = l.length →
      q1.data = some d → d.length = q1.cap → 0 < q1.cap → q1.read < q1.cap →
      l.length < q1.cap → q1.write = (q1.read + l.length) % q1.cap →
      (∀ i w, l[i]? = some w → d[(q1.read + i) % q1.cap]? = some (some w)) →
      ∃ q2, (match q1.data with
        | none => (Except.error Err.undefined : Except Err (RingQueue α))
        | some d =>
          if q1.write < d.length then
            .ok { q1 with data := some (d.set q1.write (some v))
                          write := if q1.write + 1 = q1.cap then 0 else q1.write + 1
                          len := q1.len + 1 }
          else .error .undefined) = .ok q2 ∧ RqRep q2 (l ++ [v]) := by
    intro q1 d h1 h2 h3 h4 h5 h6 h7 h8
    have hwlt : q1.write < q1.cap := by rw [h7]; exact Nat.mod_lt _ h4
    rw [h2]
    simp only
    rw [if_pos (by rw [h3]; exact hwlt)]
    refine ⟨_, rfl, ?_, Or.inr ⟨_, rfl, ?_, h4, h5, ?_, ?_, ?_⟩⟩
    · simp [h1]
    · simp [h3]
    · simp only [List.length_append, List.length_singleton]
      omega
    · simp only [List.length_append, List.length_singleton]
      rw [mod_succ_wrap _ _ hwlt, h7, Nat.mod_add_mod, Nat.add_assoc]
    · intro i w hi
      simp only
      by_cases hil : i < l.length
      · rw [List.getElem?_append_left hil] at hi
        rw [List.getElem?_set_ne, h8 i w hi]
        intro hc
        rw [h7] at hc
        have := mod_inj_lt q1.read l.length i q1.cap h6 (by omega) hc
        omega
      · have hi2 : i = l.length := by
          have := (List.getElem?_eq_some.mp hi).1
          simp only [List.length_append, List.length_singleton] at this
          omega
        subst hi2
        rw [List.getElem?_append_right (Nat.le_refl _), Nat.sub_self] at hi
        have hw : v = w := by simpa using hi
        rw [← h7, List.getElem?_set_self (by rw [h3]; exact hwlt), hw]
  unfold ringqueue_enqueue
  rcases hrep with ⟨hnone, hnil, hr0, hw0⟩ | ⟨d, hd, hdl, hcap, hread, hle, hw, hel⟩
  · subst hnil
    have e1 : (if q.data.isNone = true ∨ q.len = q.cap then ringqueue_resize q (q.len + 1) else q)
        = ringqueue_resize q (q.len + 1) := by
      rw [if_pos (Or.inl (by rw [hnone]; rfl))]
    simp only [e1]
    have e2 : ringqueue_resize q (q.len + 1)
        = { q with cap := 16, data := some (List.replicate 16 none) } := by
      unfold ringqueue_resize
      rw [hnone]
      simp only [hlen, List.length_nil, RING_QUEUE_DEFAULT_CAPACITY]
      rfl
    rw [e2]
    exact key { q with cap := 16, data := some (List.replicate 16 none) }
      (List.replicate 16 none) hlen rfl (by simp) (Nat.succ_pos 15) (by simp [hr0])
      (by simp) (by simp [hr0, hw0]) (by intro i w hi; simp at hi)
  · by_cases hfull : q.len = q.cap
    · have e1 : (if q.data.isNone = true ∨ q.len = q.cap then ringqueue_resize q (q.len + 1)
          else q) = ringqueue_resize q (q.len + 1) := by
        rw [if_pos (Or.inr hfull)]
      simp only [e1]
      have hmin : u64 (((q.len + 1 : Nat) : Int) - (q.cap : Int)) = 1 := by
        rw [hfull]
        have : (((q.cap + 1 : Nat) : Int) - (q.cap : Int)) = 1 := by push_cast; ring
        rw [this]
        rfl
      have hwr : q.write = q.read := by
        rw [hw, ← hlen, hfull, Nat.add_mod_right, Nat.mod_eq_of_lt hread]
      by_cases hw0 : q.write = 0
      · have e2 : ringqueue_resize q (q.len + 1)
            = { q with write := q.cap
                       cap := q.cap + max 1 ((q.len + 1) >>> 1)
                       data := some (d ++ List.replicate
                         (q.cap + max 1 ((q.len + 1) >>> 1) - q.cap) none) } := by
          unfold ringqueue_resize
          rw [hd]
          simp only [if_pos hcap, hmin, if_pos hw0]
        rw [e2]
        have hr0 : q.read = 0 := by rw [← hwr]; exact hw0
        refine key { q with write := q.cap
                            cap := q.cap + max 1 ((q.len + 1) >>> 1)
                            data := some (d ++ List.replicate
                              (q.cap + max 1 ((q.len + 1) >>> 1) - q.cap) none) }
          _ hlen rfl ?_ (by simp only; omega) (by simp only; omega)
          (by simp only; omega) ?_ ?_
        · simp only [List.length_append, List.length_replicate, hdl]
          omega
        · simp only
          rw [hr0, Nat.zero_add, ← hlen, hfull, Nat.mod_eq_of_lt (by omega)]
        · intro i w hi
          simp only
          have hil : i < l.length := (List.getElem?_eq_some.mp hi).1
          have := hel i w hi
          rw [hr0, Nat.zero_add, Nat.mod_eq_of_lt (by omega)] at this ⊢
          rw [List.getElem?_append_left (by omega)]
          exact this
      · have e2 : ringqueue_resize q (q.len + 1)
            = { q with read := 0, write := q.len
                       cap := q.cap + max 1 ((q.len + 1) >>> 1)
                       data := some ((d.drop q.read).take (q.cap - q.read)
                         ++ d.take (q.len - (q.cap - q.read))
                         ++ List.replicate (q.cap + max 1 ((q.len + 1) >>> 1) - q.len) none) } := by
          unfold ringqueue_resize
          rw [hd]
          simp only [if_pos hcap, hmin, if_neg hw0]
        rw [e2]
        have hl1 : ((d.drop q.read).take (q.cap - q.read)).length = q.cap - q.read := by
          rw [List.length_take, List.length_drop, hdl]
          omega
        have hl2 : (d.take (q.len - (q.cap - q.read))).length = q.len - (q.cap - q.read) := by
          rw [List.length_take, hdl]
          omega
        refine key { q with read := 0, write := q.len
                            cap := q.cap + max 1 ((q.len + 1) >>> 1)
                            data := some ((d.drop q.read).take (q.cap - q.read)
                              ++ d.take (q.len - (q.cap - q.read))
                              ++ List.replicate
                                (q.cap + max 1 ((q.len + 1) >>> 1) - q.len) none) }
          _ hlen rfl ?_ (by simp only; omega) (by simp only; omega)
          (by simp only; omega) ?_ ?_
        · simp only [List.length_append, List.length_replicate, hl1, hl2]
          omega
        · simp only
          rw [Nat.zero_add, ← hlen, Nat.mod_eq_of_lt (by omega)]
        · intro i w hi
          simp only
          have hil : i < l.length := (List.getElem?_eq_some.mp hi).1
          have := hel i w hi
          rw [Nat.zero_add, Nat.mod_eq_of_lt (by omega)]
          by_cases hiu : i < q.cap - q.read
          · rw [Nat.mod_eq_of_lt (by omega)] at this
            rw [List.append_assoc, List.getElem?_append_left (by rw [hl1]; exact hiu),
              List.getElem?_take_of_lt hiu, List.getElem?_drop]
            exact this
          · have hmod : (q.read + i) % q.cap = i - (q.cap - q.read) := by
              rw [Nat.mod_eq_sub_mod (by omega), Nat.mod_eq_of_lt (by omega)]
              omega
            rw [hmod] at this
            rw [List.append_assoc, List.getElem?_append_right (by rw [hl1]; omega), hl1,
              List.getElem?_append_left (by rw [hl2]; omega),
              List.getElem?_take_of_lt (by omega)]
            exact this
    · have e1 : (if q.data.isNone = true ∨ q.len = q.cap then ringqueue_resize q (q.len + 1)
          else q) = q := by
        rw [if_neg]
        intro hc
        rcases hc with hc | hc
        · rw [hd] at hc
          exact absurd hc (by simp)
        · exact hfull hc
      simp only [e1]
      exact key q d hlen hd hdl hcap hread (by omega) hw hel

end Wire
/-! ### The levels of a k2-tree -/

namespace Wire

theorem k2_level_end_mono (fT : Nat → Bool) : ∀ d, k2_level_end fT d ≤ k2_level_end fT (d + 1) := by
  intro d
  induction d with
  | zero => simp [k2_level_end]
  | succ d ih =>
    have h1 : k2_level_end fT (d + 1 + 1) = 4 * (1 + bitcount fT 0 (k2_level_end fT (d + 1))) := rfl
    have h2 : k2_level_end fT (d + 1) = 4 * (1 + bitcount fT 0 (k2_level_end fT d)) := rfl
    have := bitcount_mono fT 0 _ _ ih
    omega

theorem k2_level_end_le (fT : Nat → Bool) (d e : Nat) (h : d ≤ e) :
    k2_level_end fT d ≤ k2_level_end fT e := by
  induction e with
  | zero =>
    have : d = 0 := by omega
    rw [this]
  | succ e ih =>
    by_cases hd : d = e + 1
    · rw [hd]
    · exact Nat.le_trans (ih (by omega)) (k2_level_end_mono fT e)

theorem pow_half (m : Nat) (hm : 0 < m) : 2 ^ m / 2 = 2 ^ (m - 1) ∧ 2 ^ m = 2 * 2 ^ (m - 1) := by
  have e : m = (m - 1) + 1 := by omega
  have : 2 ^ m = 2 * 2 ^ (m - 1) := by
    conv_lhs => rw [e, Nat.pow_succ]
    omega
  constructor
  · rw [this]; omega
  · exact this

/-- The elements that the iterator puts into the queue for an element of the
level `d` lie in the level `d + 1`. -/
theorem k2_child_valid (fT : Nat → Bool) (h d : Nat) (l : K2IteratorElement)
    (hv : K2Valid fT h d l) (hd : d < h) (hgo : l.x = -1 ∨ fT l.x.toNat = true) (j : Nat)
    (hj : j < 2) : K2Valid fT h (d + 1) (k2_child fT l j) := by
  obtain ⟨_, hn, hp, hq, hx⟩ := hv
  obtain ⟨hh1, hh2⟩ := pow_half (h - d) (by omega)
  have hnpos : 0 < 2 ^ (h - d - 1) := Nat.pos_pow_of_pos _ (by decide)
  have hsub : h - (d + 1) = h - d - 1 := by omega
  have hn2 : l.n / 2 = 2 ^ (h - d - 1) := by rw [hn, hh1]
  have hpd : l.p / (l.n / 2) < 2 := by
    rw [hn2]
    apply (Nat.div_lt_iff_lt_mul hnpos).mpr
    rw [hn] at hp
    omega
  unfold K2Valid k2_child
  simp only
  refine ⟨by omega, by rw [hn2, hsub], ?_, ?_, Or.inr ⟨by omega, ?_⟩⟩
  · rw [hn2]
    exact Nat.mod_lt _ hnpos
  · rw [hn2]
    rw [hn, hh2] at hq
    have : 2 ^ (h - d - 1) * j ≤ 2 ^ (h - d - 1) := by
      have hj1 : j ≤ 1 := by omega
      calc 2 ^ (h - d - 1) * j ≤ 2 ^ (h - d - 1) * 1 := Nat.mul_le_mul_left _ hj1
        _ = 2 ^ (h - d - 1) := Nat.mul_one _
    omega
  · rw [Nat.add_sub_cancel]
    have hE : k2_level_end fT (d + 1) = 4 * (1 + bitcount fT 0 (k2_level_end fT d)) := rfl
    rcases hx with ⟨hd0, hx1⟩ | ⟨hd1, hlo, hhi⟩
    · subst hd0
      have hr : k2_rank fT l.x = 0 := by
        unfold k2_rank
        rw [if_pos (by omega)]
      rw [hr, hE]
      have : k2_level_end fT 0 = 0 := rfl
      rw [this, bitcount_zero]
      constructor <;> omega
    · have hx0 : 0 ≤ l.x := by omega
      have hfx : fT l.x.toNat = true := by
        rcases hgo with h1 | h1
        · omega
        · exact h1
      have hr : k2_rank fT l.x = bitcount fT 0 (l.x.toNat + 1) := by
        unfold k2_rank
        rw [if_neg (by omega)]
      have hE0 : k2_level_end fT d = 4 * (1 + bitcount fT 0 (k2_level_end fT (d - 1))) := by
        have e : d = (d - 1) + 1 := by omega
        conv_lhs => rw [e]
        rfl
      have h1 : bitcount fT 0 (k2_level_end fT (d - 1)) + 1 ≤ bitcount fT 0 (l.x.toNat + 1) := by
        rw [bitcount_succ, Nat.zero_add, hfx]
        simp only [if_true]
        have := bitcount_mono fT 0 (k2_level_end fT (d - 1)) l.x.toNat (by omega)
        omega
      have h2 : bitcount fT 0 (l.x.toNat + 1) ≤ bitcount fT 0 (k2_level_end fT d) :=
        bitcount_mono fT 0 _ _ (by omega)
      rw [hr, hE]
      constructor <;> omega

/-- An element of the queue is read from `L` exactly when it lies in the last
level. -/
theorem k2_valid_leaf (fT : Nat → Bool) (h d : Nat) (l : K2IteratorElement) (hh : 1 ≤ h)
    (hv : K2Valid fT h d l) : (l.x ≥ (k2_level_end fT (h - 1) : Int)) ↔ d = h := by
  obtain ⟨hdh, _, _, _, hx⟩ := hv
  rcases hx with ⟨hd0, hx1⟩ | ⟨hd1, hlo, hhi⟩
  · constructor
    · intro hc
      omega
    · intro hc
      omega
  · constructor
    · intro hc
      by_contra hne
      have := k2_level_end_le fT d (h - 1) (by omega)
      omega
    · intro hc
      subst hc
      omega

/-- A bit of `L` that is read without an error is read by `reader_bitpos` and
`reader_readbit`. -/
theorem k2_leaf_read (l : Reader) (y : Nat) (b : Bool)
    (h : (do
      let r ← reader_bitpos l y
      let br ← reader_readbit r
      pure br.1) = Except.ok b) :
    ∃ r1 r2, reader_bitpos l y = .ok r1 ∧ reader_readbit r1 = .ok (b, r2) := by
  cases h1 : reader_bitpos l y with
  | error e =>
    rw [h1] at h
    cases h
  | ok r1 =>
    rw [h1, ok_bind'] at h
    cases h2 : reader_readbit r1 with
    | error e =>
      rw [h2] at h
      cases h
    | ok br =>
      rw [h2, ok_bind'] at h
      obtain ⟨b1, r2⟩ := br
      have hb : b1 = b := by
        injection h
      exact ⟨r1, r2, rfl, by rw [h2, hb]⟩

end Wire
namespace Wire

/-- The columns that `k2_cols` lists below an element are the columns of its
square, inside the width, whose cell `k2_sub` finds set. -/
theorem k2_cols_mem (fT fL : Nat → Bool) (h width : Nat) (hh : 1 ≤ h) :
    ∀ (m d : Nat) (l : K2IteratorElement), K2Valid fT h d l → m = h - d + 1 →
      ∀ c, c ∈ k2_cols fT fL (k2_level_end fT (h - 1)) width m l ↔
        l.q ≤ c ∧ c < l.q + l.n ∧ c < width ∧
          k2_sub fT fL (k2_level_end fT (h - 1)) m l.x l.n l.p (c - l.q) = true := by
  intro m
  induction m with
  | zero => intro d l _ hm; omega
  | succ m ih =>
    intro d l hv hm c
    have hleaf := k2_valid_leaf fT h d l hh hv
    unfold k2_cols k2_sub
    by_cases hw : l.q ≥ width
    · rw [if_pos hw]
      constructor
      · intro hc
        exact absurd hc (List.not_mem_nil _)
      · intro ⟨h1, _, h3, _⟩
        omega
    · rw [if_neg hw]
      by_cases hl : l.x ≥ (k2_level_end fT (h - 1) : Int)
      · rw [if_pos hl, if_pos hl]
        have hdh : d = h := hleaf.mp hl
        have hn : l.n = 1 := by rw [hv.2.1, hdh, Nat.sub_self]; rfl
        by_cases hb : fL (l.x.toNat - k2_level_end fT (h - 1)) = true
        · rw [if_pos hb, List.mem_singleton]
          constructor
          · intro hc
            subst hc
            exact ⟨Nat.le_refl _, by omega, by omega, hb⟩
          · intro ⟨h1, h2, _, _⟩
            omega
        · rw [if_neg hb]
          constructor
          · intro hc
            exact absurd hc (List.not_mem_nil _)
          · intro ⟨_, _, _, h4⟩
            exact absurd h4 hb
      · rw [if_neg hl, if_neg hl]
        have hdh : d < h := by
          have := hv.1
          have : d ≠ h := fun e => hl (hleaf.mpr e)
          omega
        by_cases hgo : l.x = -1 ∨ fT l.x.toNat = true
        · rw [if_pos hgo, if_pos hgo, List.mem_append]
          have v0 := k2_child_valid fT h d l hv hdh hgo 0 (by decide)
          have v1 := k2_child_valid fT h d l hv hdh hgo 1 (by decide)
          rw [ih (d + 1) _ v0 (by omega) c, ih (d + 1) _ v1 (by omega) c]
          obtain ⟨hh1, hh2⟩ := pow_half (h - d) (by omega)
          have hpos : 0 < 2 ^ (h - d - 1) := Nat.pos_pow_of_pos _ (by decide)
          have hn2 : l.n / 2 = 2 ^ (h - d - 1) := by rw [hv.2.1, hh1]
          have hn : l.n = 2 * 2 ^ (h - d - 1) := by rw [hv.2.1, hh2]
          simp only [k2_child, Nat.mul_zero, Nat.add_zero, Nat.mul_one]
          rw [hn2, hn]
          generalize 2 ^ (h - d - 1) = n2 at hpos
          constructor
          · intro hc
            rcases hc with ⟨a1, a2, a3, a4⟩ | ⟨a1, a2, a3, a4⟩
            · refine ⟨a1, by omega, a3, ?_⟩
              have e1 : (c - l.q) / n2 = 0 := Nat.div_eq_of_lt (by omega)
              have e2 : (c - l.q) % n2 = c - l.q := Nat.mod_eq_of_lt (by omega)
              rw [e1, e2]
              exact a4
            · refine ⟨by omega, by omega, a3, ?_⟩
              have e0 : c - l.q = (c - (l.q + n2)) + n2 := by omega
              have e1 : (c - l.q) / n2 = 1 := by
                rw [e0, Nat.add_div_right _ hpos, Nat.div_eq_of_lt (by omega)]
              have e2 : (c - l.q) % n2 = c - (l.q + n2) := by
                rw [e0, Nat.add_mod_right, Nat.mod_eq_of_lt (by omega)]
              rw [e1, e2]
              exact a4
          · intro ⟨a1, a2, a3, a4⟩
            by_cases hc : c < l.q + n2
            · left
              have e1 : (c - l.q) / n2 = 0 := Nat.div_eq_of_lt (by omega)
              have e2 : (c - l.q) % n2 = c - l.q := Nat.mod_eq_of_lt (by omega)
              rw [e1, e2] at a4
              exact ⟨a1, hc, a3, a4⟩
            · right
              have e0 : c - l.q = (c - (l.q + n2)) + n2 := by omega
              have e1 : (c - l.q) / n2 = 1 := by
                rw [e0, Nat.add_div_right _ hpos, Nat.div_eq_of_lt (by omega)]
              have e2 : (c - l.q) % n2 = c - (l.q + n2) := by
                rw [e0, Nat.add_mod_right, Nat.mod_eq_of_lt (by omega)]
              rw [e1, e2] at a4
              exact ⟨by omega, by omega, a3, a4⟩
        · rw [if_neg hgo, if_neg hgo]
          constructor
          · intro hc
            exact absurd hc (List.not_mem_nil _)
          · intro ⟨_, _, _, h4⟩
            exact absurd h4 (by simp)

/-- The columns that `k2_cols` lists are in strictly ascending order. -/
theorem k2_cols_sorted (fT fL : Nat → Bool) (h width : Nat) (hh : 1 ≤ h) :
    ∀ (m d : Nat) (l : K2IteratorElement), K2Valid fT h d l → m = h - d + 1 →
      (k2_cols fT fL (k2_level_end fT (h - 1)) width m l).Pairwise (fun a b => a < b) := by
  intro m
  induction m with
  | zero => intro d l _ hm; omega
  | succ m ih =>
    intro d l hv hm
    have hleaf := k2_valid_leaf fT h d l hh hv
    unfold k2_cols
    by_cases hw : l.q ≥ width
    · rw [if_pos hw]
      exact List.Pairwise.nil
    · rw [if_neg hw]
      by_cases hl : l.x ≥ (k2_level_end fT (h - 1) : Int)
      · rw [if_pos hl]
        split
        · exact List.pairwise_singleton _ _
        · exact List.Pairwise.nil
      · rw [if_neg hl]
        have hdh : d < h := by
          have := hv.1
          have : d ≠ h := fun e => hl (hleaf.mpr e)
          omega
        by_cases hgo : l.x = -1 ∨ fT l.x.toNat = true
        · rw [if_pos hgo]
          have v0 := k2_child_valid fT h d l hv hdh hgo 0 (by decide)
          have v1 := k2_child_valid fT h d l hv hdh hgo 1 (by decide)
          rw [List.pairwise_append]
          refine ⟨ih (d + 1) _ v0 (by omega), ih (d + 1) _ v1 (by omega), ?_⟩
          intro a ha b hb
          have h0 := (k2_cols_mem fT fL h width hh m (d + 1) _ v0 (by omega) a).mp ha
          have h1 := (k2_cols_mem fT fL h width hh m (d + 1) _ v1 (by omega) b).mp hb
          simp only [k2_child, Nat.mul_zero, Nat.add_zero, Nat.mul_one] at h0 h1
          omega
        · rw [if_neg hgo]
          exact List.Pairwise.nil

end Wire
namespace Wire

/-- The loop of `k2_get` from a position of the level `d` on: it ends, at a 0
bit of `T` where `k2_sub` is false or at the position of the leaf whose bit
`k2_sub` gives. -/
theorem k2_get_loop_spec (fT fL : Nat → Bool) (h : Nat) (t : BitsequenceReader)
    (hh : 1 ≤ h) (hE : k2_level_end fT h < 2 ^ 62)
    (hlen : t.len = k2_level_end fT (h - 1))
    (hacc : ∀ x, x < t.len → bitsequence_reader_access t x = .ok (fT x))
    (hrank : ∀ x, x < t.len →
      bitsequence_reader_rank1 t (x : Int) = .ok (bitcount fT 0 (x + 1))) :
    ∀ (m d n p q x fuel : Nat), m = h - d + 1 →
      K2Valid fT h d { n := n, p := p, q := 0, x := (x : Int) } → 1 ≤ d → q < n → m ≤ fuel →
      ∃ res, k2_get_loop 2 t fuel n p q x = .ok res ∧
        ((res = none ∧ k2_sub fT fL (k2_level_end fT (h - 1)) m x n p q = false) ∨
         ∃ xf, res = some xf ∧ k2_level_end fT (h - 1) ≤ xf ∧ xf < k2_level_end fT h ∧
           k2_sub fT fL (k2_level_end fT (h - 1)) m x n p q =
             fL (xf - k2_level_end fT (h - 1))) := by
  intro m
  induction m with
  | zero => intro d n p q x fuel hm; omega
  | succ m ih =>
    intro d n p q x fuel hm hv hd hq hfuel
    obtain ⟨fuel, rfl⟩ : ∃ f, fuel = f + 1 := ⟨fuel - 1, by omega⟩
    have hleaf := k2_valid_leaf fT h d _ hh hv
    simp only at hleaf
    have hsub1 : k2_sub fT fL (k2_level_end fT (h - 1)) (m + 1) (x : Int) n p q =
        if (x : Int) ≥ (k2_level_end fT (h - 1) : Int) then
          fL ((x : Int).toNat - k2_level_end fT (h - 1))
        else if (x : Int) = -1 ∨ fT (x : Int).toNat = true then
          k2_sub fT fL (k2_level_end fT (h - 1)) m
            ((4 * k2_rank fT (x : Int) + 2 * (p / (n / 2)) + q / (n / 2) : Nat) : Int)
            (n / 2) (p % (n / 2)) (q % (n / 2))
        else false := by
      conv_lhs => unfold k2_sub
    rw [hsub1]
    unfold k2_get_loop
    unfold bitsequence_reader_len
    by_cases hx : x < t.len
    · have hdh : d < h := by
        have := hv.1
        have : d ≠ h := fun e => by
          have := hleaf.mpr e
          omega
        omega
      have hnl : ¬ ((x : Int) ≥ (k2_level_end fT (h - 1) : Int)) := by omega
      rw [if_pos hx, if_neg hnl, hacc x hx, ok_bind']
      cases hb : fT x
      · have hng : ¬ ((x : Int) = -1 ∨ fT (x : Int).toNat = true) := by
          intro hc
          rcases hc with hc | hc
          · omega
          · rw [Int.toNat_ofNat, hb] at hc
            exact Bool.noConfusion hc
        rw [if_neg hng]
        exact ⟨none, rfl, Or.inl ⟨rfl, rfl⟩⟩
      · have hgo : ((x : Int) = -1 ∨ fT (x : Int).toNat = true) := by
          right
          rw [Int.toNat_ofNat]
          exact hb
        rw [if_pos hgo]
        have hj : q / (n / 2) < 2 := by
          obtain ⟨hh1, hh2⟩ := pow_half (h - d) (by omega)
          have hpos : 0 < 2 ^ (h - d - 1) := Nat.pos_pow_of_pos _ (by decide)
          have hn : n = 2 ^ (h - d) := hv.2.1
          rw [hn, hh1]
          apply (Nat.div_lt_iff_lt_mul hpos).mpr
          rw [hn, hh2] at hq
          omega
        have vc := k2_child_valid fT h d _ hv hdh hgo (q / (n / 2)) hj
        have hr : k2_rank fT (x : Int) = bitcount fT 0 (x + 1) := by
          unfold k2_rank
          rw [if_neg (by omega), Int.toNat_ofNat]
        simp only [k2_child, hr] at vc
        have hn2 : n / 2 ≠ 0 := by
          have := vc.2.1
          simp only at this
          rw [this]
          exact Nat.pos_iff_ne_zero.mp (Nat.pos_pow_of_pos _ (by decide))
        have hlt : 4 * bitcount fT 0 (x + 1) + 2 * (p / (n / 2)) + q / (n / 2) <
            k2_level_end fT h := by
          have h1 := vc.2.2.2.2
          simp only at h1
          rcases h1 with ⟨h1, _⟩ | ⟨_, _, h1⟩
          · omega
          · have := k2_level_end_le fT (d + 1) h (by omega)
            omega
        have hxe : (bitcount fT 0 (x + 1) * (2 * 2) + 2 * (p / (n / 2)) + q / (n / 2)) %
            18446744073709551616 =
            4 * bitcount fT 0 (x + 1) + 2 * (p / (n / 2)) + q / (n / 2) := by
          rw [Nat.mod_eq_of_lt (by omega)]
          omega
        have vc2 : K2Valid fT h (d + 1)
            { n := n / 2, p := p % (n / 2), q := 0
              x := ((4 * bitcount fT 0 (x + 1) + 2 * (p / (n / 2)) + q / (n / 2) : Nat) : Int) } := by
          refine ⟨vc.1, vc.2.1, vc.2.2.1, ?_, vc.2.2.2.2⟩
          have h1 := vc.2.2.2.1
          simp only at h1 ⊢
          omega
        obtain ⟨res, hres, hcase⟩ := ih (d + 1) (n / 2) (p % (n / 2)) (q % (n / 2))
          (4 * bitcount fT 0 (x + 1) + 2 * (p / (n / 2)) + q / (n / 2)) fuel (by omega) vc2
          (by omega) (Nat.mod_lt _ (Nat.pos_of_ne_zero hn2)) (by omega)
        refine ⟨res, ?_, ?_⟩
        · have e1 : ((!true) = true) = False := by simp
          have e2 : ((2 : Nat) = 0) = False := by simp
          have e3 : (2 * 2 > INT_MAX) = False := by simp [INT_MAX]
          simp only [e1, e2, e3, if_false]
          rw [hrank x hx, ok_bind', if_neg hn2, hxe]
          exact hres
        · rw [hr]
          exact hcase
    · have hl : ((x : Int) ≥ (k2_level_end fT (h - 1) : Int)) := by omega
      rw [if_neg hx, if_pos hl]
      have hdh : d = h := hleaf.mp hl
      have hlt : x < k2_level_end fT h := by
        have h1 := hv.2.2.2.2
        simp only at h1
        rcases h1 with ⟨h1, _⟩ | ⟨_, _, h1⟩
        · omega
        · rw [hdh] at h1
          omega
      refine ⟨some x, rfl, Or.inr ⟨x, rfl, by omega, hlt, ?_⟩⟩
      rw [Int.toNat_ofNat]

/-- A cell of an opened k2-tree, as `k2_get` gives it, is the cell `k2_sub`
finds from the root. -/
theorem k2_get_spec (k : K2Reader) (h : Nat) (fT fL : Nat → Bool) (hok : K2Ok k h fT fL)
    (r c : Nat) (hr : r < k.height) (hc : c < k.width) :
    k2_get k r c = .ok (k2_sub fT fL (k2_level_end fT (h - 1)) (h + 1) (-1) k.n r c) := by
  obtain ⟨hk, hn, hh, hh61, hw, hht, hE, t, ht, hlen, hacc, hrank, hL⟩ := hok
  have hroot : K2Valid fT h 0 { n := k.n, p := r, q := 0, x := -1 } :=
    ⟨Nat.zero_le _, by simp only [Nat.sub_zero]; exact hn, by simp only; omega,
      by simp only; omega, Or.inl ⟨rfl, rfl⟩⟩
  have hgo : ((-1 : Int) = -1 ∨ fT (-1 : Int).toNat = true) := Or.inl rfl
  have hj : c / (k.n / 2) < 2 := by
    obtain ⟨hh1, hh2⟩ := pow_half h (by omega)
    have hpos : 0 < 2 ^ (h - 1) := Nat.pos_pow_of_pos _ (by decide)
    rw [hn, hh1]
    apply (Nat.div_lt_iff_lt_mul hpos).mpr
    rw [hn, hh2] at hw
    omega
  have vc := k2_child_valid fT h 0 _ hroot (by omega) hgo (c / (k.n / 2)) hj
  have hr0 : k2_rank fT (-1 : Int) = 0 := by
    unfold k2_rank
    rw [if_pos (by decide)]
  simp only [k2_child, hr0, Nat.mul_zero, Nat.zero_add] at vc
  have hn2 : k.n / 2 ≠ 0 := by
    have := vc.2.1
    simp only at this
    rw [this]
    exact Nat.pos_iff_ne_zero.mp (Nat.pos_pow_of_pos _ (by decide))
  have hlt : 2 * (r / (k.n / 2)) + c / (k.n / 2) < k2_level_end fT h := by
    have h1 := vc.2.2.2.2
    simp only at h1
    rcases h1 with ⟨h1, _⟩ | ⟨_, _, h1⟩
    · omega
    · have := k2_level_end_le fT 1 h (by omega)
      omega
  have vc2 : K2Valid fT h 1
      { n := k.n / 2, p := r % (k.n / 2), q := 0
        x := ((2 * (r / (k.n / 2)) + c / (k.n / 2) : Nat) : Int) } := by
    refine ⟨vc.1, vc.2.1, vc.2.2.1, ?_, vc.2.2.2.2⟩
    have h1 := vc.2.2.2.1
    simp only at h1 ⊢
    omega
  obtain ⟨res, hres, hcase⟩ := k2_get_loop_spec fT fL h t hh hE hlen hacc hrank h 1 (k.n / 2)
    (r % (k.n / 2)) (c % (k.n / 2)) (2 * (r / (k.n / 2)) + c / (k.n / 2)) 65 (by omega) vc2
    (Nat.le_refl _) (Nat.mod_lt _ (Nat.pos_of_ne_zero hn2)) (by omega)
  have hsub : k2_sub fT fL (k2_level_end fT (h - 1)) (h + 1) (-1) k.n r c =
      k2_sub fT fL (k2_level_end fT (h - 1)) h
        ((2 * (r / (k.n / 2)) + c / (k.n / 2) : Nat) : Int) (k.n / 2) (r % (k.n / 2))
        (c % (k.n / 2)) := by
    conv_lhs => unfold k2_sub
    rw [if_neg (by omega), if_pos hgo, hr0, Nat.mul_zero, Nat.zero_add]
  unfold k2_get
  have hin : ¬ (r ≥ k.height ∨ c ≥ k.width) := by omega
  rw [if_neg hin, ht]
  simp only
  have hx0 : (2 * (r / (k.n / 2)) + c / (k.n / 2)) % 18446744073709551616 =
      2 * (r / (k.n / 2)) + c / (k.n / 2) := Nat.mod_eq_of_lt (by omega)
  rw [hk, if_neg (by decide), if_neg hn2, hx0, hres, ok_bind', hsub]
  rcases hcase with ⟨rfl, hf⟩ | ⟨xf, rfl, hlo, hhi, hf⟩
  · simp only
    rw [hf]
    rfl
  · simp only
    unfold bitsequence_reader_len
    rw [hlen]
    have hu : u64 ((xf : Int) - (k2_level_end fT (h - 1) : Nat)) = xf - k2_level_end fT (h - 1) := by
      rw [u64_of_small _ (by omega) (by omega)]
      omega
    rw [hu]
    obtain ⟨r1, r2, e1, e2⟩ := k2_leaf_read _ _ _ (hL (xf - k2_level_end fT (h - 1)) (by omega))
    rw [e1, ok_bind', e2, ok_bind', hf]
    rfl

end Wire
namespace Wire

/-- One round of the loop of `k2_iter_next_element` on a row iterator: the
element at the front of the queue is dropped when it has no column to give, is
a set leaf whose column is returned, or is replaced by its two halves at the
back of the queue. -/
theorem k2_iter_step (k : K2Reader) (h : Nat) (fT fL : Nat → Bool) (hok : K2Ok k h fT fL)
    (t : BitsequenceReader) (ht : k.t = some t) (d : Nat) (e : K2IteratorElement)
    (rest : List K2IteratorElement) (queue : RingQueue K2IteratorElement)
    (hv : K2Valid fT h d e) (hq : RqRep queue (e :: rest)) :
    (k2_cols fT fL (k2_level_end fT (h - 1)) k.width (h + 1 - d) e = [] ∧
      ∃ q1, RqRep q1 rest ∧ ∀ fuel,
        k2_iter_next_element_loop k t true (fuel + 1) queue =
          k2_iter_next_element_loop k t true fuel q1) ∨
    (d = h ∧ k2_cols fT fL (k2_level_end fT (h - 1)) k.width (h + 1 - d) e = [e.q] ∧
      ∃ q1, RqRep q1 rest ∧ ∀ fuel,
        k2_iter_next_element_loop k t true (fuel + 1) queue = .ok (1, e.q, q1)) ∨
    (d < h ∧
      k2_cols fT fL (k2_level_end fT (h - 1)) k.width (h + 1 - d) e =
        k2_cols fT fL (k2_level_end fT (h - 1)) k.width (h - d) (k2_child fT e 0) ++
          k2_cols fT fL (k2_level_end fT (h - 1)) k.width (h - d) (k2_child fT e 1) ∧
      K2Valid fT h (d + 1) (k2_child fT e 0) ∧ K2Valid fT h (d + 1) (k2_child fT e 1) ∧
      ∃ q2, RqRep q2 (rest ++ [k2_child fT e 0, k2_child fT e 1]) ∧ ∀ fuel,
        k2_iter_next_element_loop k t true (fuel + 1) queue =
          k2_iter_next_element_loop k t true fuel q2) := by
  obtain ⟨hk, hn, hh, hh61, hw, hht, hE, t1, ht1, hlen, hacc, hrank, hL⟩ := hok
  have htt : t = t1 := by
    rw [ht1] at ht
    exact (Option.some.inj ht).symm
  subst htt
  have hne : ringqueue_empty queue = false := by
    cases hb : ringqueue_empty queue
    · rfl
    · exact absurd ((rq_empty queue _ hq).mp hb) (by simp)
  obtain ⟨q1, hdq, hq1⟩ := rq_dequeue queue e rest hq
  have hleaf := k2_valid_leaf fT h d e hh hv
  have hm : h + 1 - d = (h - d) + 1 := by
    have := hv.1
    omega
  have hcols : k2_cols fT fL (k2_level_end fT (h - 1)) k.width (h + 1 - d) e =
      if e.q ≥ k.width then []
      else if e.x ≥ (k2_level_end fT (h - 1) : Int) then
        (if fL (e.x.toNat - k2_level_end fT (h - 1)) then [e.q] else [])
      else if e.x = -1 ∨ fT e.x.toNat = true then
        k2_cols fT fL (k2_level_end fT (h - 1)) k.width (h - d) (k2_child fT e 0) ++
          k2_cols fT fL (k2_level_end fT (h - 1)) k.width (h - d) (k2_child fT e 1)
      else [] := by
    rw [hm]
    conv_lhs => unfold k2_cols
  have hlenlt : k2_level_end fT (h - 1) < 2 ^ 62 :=
    Nat.lt_of_le_of_lt (k2_level_end_le fT (h - 1) h (by omega)) hE
  have hbm : Int.bmod ((bitsequence_reader_len t : Nat) : Int) 18446744073709551616 =
      (k2_level_end fT (h - 1) : Int) := by
    unfold bitsequence_reader_len
    rw [hlen]
    exact bmod_small _ (by omega)
  have hhead : ∀ fuel, k2_iter_next_element_loop k t true (fuel + 1) queue =
      (if (e.q ≥ k.width) then k2_iter_next_element_loop k t true fuel q1
       else if e.x ≥ (k2_level_end fT (h - 1) : Int) then
         (reader_bitpos k.l (u64 (e.x - (k2_level_end fT (h - 1) : Nat))) >>= fun rl =>
          reader_readbit rl >>= fun br =>
          if br.1 = true then pure (1, e.q, q1)
          else k2_iter_next_element_loop k t true fuel q1)
       else
         ((if e.x = -1 then pure true else bitsequence_reader_access t (u64 e.x)) >>= fun go =>
          if go = true then
            (bitsequence_reader_rank1 t e.x >>= fun r1 =>
              if e.n / 2 = 0 then .error .undefined
              else
                ((ringqueue_enqueue q1
                  { n := e.n / 2, p := e.p % (e.n / 2)
                    q := (e.q + e.n / 2 * 0) % 18446744073709551616
                    x := Int.bmod ((((r1 * (2 * 2)) % 18446744073709551616 +
                      2 * (e.p / (e.n / 2))) % 18446744073709551616 + 0) %
                      18446744073709551616 : Nat) 18446744073709551616 } >>= fun qa =>
                 ringqueue_enqueue qa
                  { n := e.n / 2, p := e.p % (e.n / 2)
                    q := (e.q + e.n / 2 * 1) % 18446744073709551616
                    x := Int.bmod ((((r1 * (2 * 2)) % 18446744073709551616 +
                      2 * (e.p / (e.n / 2))) % 18446744073709551616 + 1) %
                      18446744073709551616 : Nat) 18446744073709551616 } >>= fun qb =>
                 pure qb) >>= fun qc =>
                 k2_iter_next_element_loop k t true fuel qc))
          else k2_iter_next_element_loop k t true fuel q1)) := by
    intro fuel
    conv_lhs => unfold k2_iter_next_element_loop
    rw [hne, hdq, ok_bind', hbm, hk]
    have e2 : ((2 : Nat) = 0) = False := by simp
    have er : List.range 2 = [0, 1] := rfl
    simp only [Bool.false_eq_true, if_false, true_and, not_true_eq_false, false_and, or_false,
      if_true, e2, er, List.foldlM_cons, List.foldlM_nil]
    unfold bitsequence_reader_len
    rw [hlen]
    by_cases hx1 : e.x = -1
    · simp only [hx1, if_true]
    · simp only [hx1, if_false]
  clear hbm
  have hxlt : e.x < (k2_level_end fT h : Int) := by
    rcases hv.2.2.2.2 with ⟨_, h1⟩ | ⟨_, _, h1⟩
    · omega
    · have := k2_level_end_le fT d h hv.1
      omega
  by_cases hwd : e.q ≥ k.width
  · left
    exact ⟨by rw [hcols, if_pos hwd], q1, hq1, fun fuel => by rw [hhead, if_pos hwd]⟩
  · by_cases hl : e.x ≥ (k2_level_end fT (h - 1) : Int)
    · have hdh : d = h := hleaf.mp hl
      have hu : u64 (e.x - (k2_level_end fT (h - 1) : Nat)) =
          e.x.toNat - k2_level_end fT (h - 1) := by
        rw [u64_of_small _ (by omega) (by omega)]
        omega
      obtain ⟨r1, r2, e1, e2⟩ :=
        k2_leaf_read _ _ _ (hL (e.x.toNat - k2_level_end fT (h - 1)) (by omega))
      cases hb : fL (e.x.toNat - k2_level_end fT (h - 1))
      · left
        refine ⟨by rw [hcols, if_neg hwd, if_pos hl, hb]; rfl, q1, hq1, fun fuel => ?_⟩
        rw [hhead, if_neg hwd, if_pos hl, hu, e1, ok_bind', e2, ok_bind', hb]
        rfl
      · right
        left
        refine ⟨hdh, by rw [hcols, if_neg hwd, if_pos hl, hb]; rfl, q1, hq1, fun fuel => ?_⟩
        rw [hhead, if_neg hwd, if_pos hl, hu, e1, ok_bind', e2, ok_bind', hb]
        rfl
    · have hdh : d < h := by
        have := hv.1
        have : d ≠ h := fun c => hl (hleaf.mpr c)
        omega
      by_cases hgo : e.x = -1 ∨ fT e.x.toNat = true
      · right
        right
        have v0 := k2_child_valid fT h d e hv hdh hgo 0 (by decide)
        have v1 := k2_child_valid fT h d e hv hdh hgo 1 (by decide)
        refine ⟨hdh, by rw [hcols, if_neg hwd, if_neg hl, if_pos hgo], v0, v1, ?_⟩
        have hgo1 : (if e.x = -1 then (pure true : Except Err Bool)
            else bitsequence_reader_access t (u64 e.x)) = .ok true := by
          by_cases hx1 : e.x = -1
          · rw [if_pos hx1]
            rfl
          · rw [if_neg hx1]
            have hx0 : 0 ≤ e.x := by
              rcases hv.2.2.2.2 with ⟨_, h1⟩ | ⟨_, h1, _⟩
              · exact absurd h1 hx1
              · omega
            rw [u64_of_small _ hx0 (by omega), hacc _ (by omega)]
            rcases hgo with h1 | h1
            · exact absurd h1 hx1
            · rw [h1]
        have hrk : bitsequence_reader_rank1 t e.x = .ok (k2_rank fT e.x) := by
          unfold k2_rank
          by_cases hx1 : e.x < 0
          · rw [if_pos hx1]
            unfold bitsequence_reader_rank1
            rw [if_pos hx1]
            rfl
          · rw [if_neg hx1]
            have hc : e.x = ((e.x.toNat : Nat) : Int) := by omega
            rw [hc, hrank _ (by omega), Int.toNat_ofNat]
        have hn2 : e.n / 2 ≠ 0 := by
          have := v0.2.1
          simp only [k2_child] at this
          rw [this]
          exact Nat.pos_iff_ne_zero.mp (Nat.pos_pow_of_pos _ (by decide))
        have hpow : 2 ^ h ≤ 2 ^ 61 := Nat.pow_le_pow_right (by decide) hh61
        have hx1lt : 4 * k2_rank fT e.x + 2 * (e.p / (e.n / 2)) + 1 < 2 ^ 62 := by
          rcases v1.2.2.2.2 with ⟨h1, _⟩ | ⟨_, _, h1⟩
          · omega
          · simp only [k2_child] at h1
            have := k2_level_end_le fT (d + 1) h (by omega)
            omega
        have hq1lt : e.q + e.n / 2 * 1 < 2 ^ 61 + 1 := by
          have := v1.2.2.2.1
          simp only [k2_child] at this
          omega
        have hc0 : K2IteratorElement.mk (e.n / 2) (e.p % (e.n / 2))
            ((e.q + e.n / 2 * 0) % 18446744073709551616)
            (Int.bmod ((((k2_rank fT e.x * (2 * 2)) % 18446744073709551616 +
              2 * (e.p / (e.n / 2))) % 18446744073709551616 + 0) %
              18446744073709551616 : Nat) 18446744073709551616) =
            k2_child fT e 0 := by
          unfold k2_child
          have a1 : (e.q + e.n / 2 * 0) % 18446744073709551616 = e.q + e.n / 2 * 0 := by omega
          have a2 : (((k2_rank fT e.x * (2 * 2)) % 18446744073709551616 +
              2 * (e.p / (e.n / 2))) % 18446744073709551616 + 0) % 18446744073709551616 =
              4 * k2_rank fT e.x + 2 * (e.p / (e.n / 2)) + 0 := by omega
          rw [a1, a2, bmod_small _ (by omega)]
        have hc1 : K2IteratorElement.mk (e.n / 2) (e.p % (e.n / 2))
            ((e.q + e.n / 2 * 1) % 18446744073709551616)
            (Int.bmod ((((k2_rank fT e.x * (2 * 2)) % 18446744073709551616 +
              2 * (e.p / (e.n / 2))) % 18446744073709551616 + 1) %
              18446744073709551616 : Nat) 18446744073709551616) =
            k2_child fT e 1 := by
          unfold k2_child
          have a1 : (e.q + e.n / 2 * 1) % 18446744073709551616 = e.q + e.n / 2 * 1 := by omega
          have a2 : (((k2_rank fT e.x * (2 * 2)) % 18446744073709551616 +
              2 * (e.p / (e.n / 2))) % 18446744073709551616 + 1) % 18446744073709551616 =
              4 * k2_rank fT e.x + 2 * (e.p / (e.n / 2)) + 1 := by omega
          rw [a1, a2, bmod_small _ (by omega)]
        obtain ⟨qa, hqa, hra⟩ := rq_enqueue q1 (k2_child fT e 0) rest hq1
        obtain ⟨qb, hqb, hrb⟩ := rq_enqueue qa (k2_child fT e 1) _ hra
        refine ⟨qb, by rw [List.append_assoc] at hrb; exact hrb, fun fuel => ?_⟩
        rw [hhead, if_neg hwd, if_neg hl, hgo1, ok_bind', if_pos rfl, hrk, ok_bind', if_neg hn2,
          hc0, hc1, hqa, ok_bind', hqb, ok_bind']
        rfl
      · left
        refine ⟨by rw [hcols, if_neg hwd, if_neg hl, if_neg hgo], q1, hq1, fun fuel => ?_⟩
        have hx1 : ¬ e.x = -1 := fun c => hgo (Or.inl c)
        have hx0 : 0 ≤ e.x := by
          rcases hv.2.2.2.2 with ⟨_, h1⟩ | ⟨_, h1, _⟩
          · exact absurd h1 hx1
          · omega
        have hf : fT e.x.toNat = false := by
          cases hc : fT e.x.toNat
          · rfl
          · exact absurd (Or.inr hc) hgo
        rw [hhead, if_neg hwd, if_neg hl, if_neg hx1, u64_of_small _ hx0 (by omega),
          hacc _ (by omega), ok_bind', hf]
        rfl

end Wire
namespace Wire

/-- The loop of `k2_iter_next_element` on the elements `A` of one level, given
what it does once only elements of the next level are left. -/
theorem k2_iter_loop_level (k : K2Reader) (h : Nat) (fT fL : Nat → Bool)
    (hok : K2Ok k h fT fL) (t : BitsequenceReader) (ht : k.t = some t) (d : Nat)
    (hnext : ∀ (B : List K2IteratorElement) (queue : RingQueue K2IteratorElement),
      B ≠ [] → K2Inv fT h d [] B queue →
      ∃ F res v q1,
        (∀ fuel, F ≤ fuel → k2_iter_next_element_loop k t true fuel queue = .ok (res, v, q1)) ∧
        ((res = 0 ∧ v = 0 ∧ k2_outs fT fL (k2_level_end fT (h - 1)) k.width h d [] B = []) ∨
         (res = 1 ∧ ∃ d1 A1 B1, K2Inv fT h d1 A1 B1 q1 ∧
           k2_outs fT fL (k2_level_end fT (h - 1)) k.width h d [] B =
             v :: k2_outs fT fL (k2_level_end fT (h - 1)) k.width h d1 A1 B1))) :
    ∀ (A B : List K2IteratorElement) (queue : RingQueue K2IteratorElement),
      K2Inv fT h d A B queue →
      ∃ F res v q1,
        (∀ fuel, F ≤ fuel → k2_iter_next_element_loop k t true fuel queue = .ok (res, v, q1)) ∧
        ((res = 0 ∧ v = 0 ∧ k2_outs fT fL (k2_level_end fT (h - 1)) k.width h d A B = []) ∨
         (res = 1 ∧ ∃ d1 A1 B1, K2Inv fT h d1 A1 B1 q1 ∧
           k2_outs fT fL (k2_level_end fT (h - 1)) k.width h d A B =
             v :: k2_outs fT fL (k2_level_end fT (h - 1)) k.width h d1 A1 B1)) := by
  intro A
  induction A with
  | nil =>
    intro B queue hinv
    by_cases hB : B = []
    · subst hB
      have hq : RqRep queue [] := hinv.2.2.2.2
      have he : ringqueue_empty queue = true := (rq_empty queue [] hq).mpr rfl
      refine ⟨1, 0, 0, queue, ?_, Or.inl ⟨rfl, rfl, rfl⟩⟩
      intro fuel hf
      obtain ⟨f, rfl⟩ : ∃ f, fuel = f + 1 := ⟨fuel - 1, by omega⟩
      unfold k2_iter_next_element_loop
      rw [he, if_pos rfl]
      rfl
    · exact hnext B queue hB hinv
  | cons e A ih =>
    intro B queue hinv
    obtain ⟨hd, hA, hB, hdB, hq⟩ := hinv
    have hve : K2Valid fT h d e := hA e (List.mem_cons_self _ _)
    have hA1 : ∀ x ∈ A, K2Valid fT h d x := fun x hx => hA x (List.mem_cons_of_mem _ hx)
    rcases k2_iter_step k h fT fL hok t ht d e (A ++ B) queue hve hq with
      ⟨hc, q1, hq1, hl⟩ | ⟨hdh, hc, q1, hq1, hl⟩ | ⟨hdh, hc, v0, v1, q2, hq2, hl⟩
    · obtain ⟨F, res, v, qf, hf, hcase⟩ := ih B q1 ⟨hd, hA1, hB, hdB, hq1⟩
      have ho : k2_outs fT fL (k2_level_end fT (h - 1)) k.width h d (e :: A) B =
          k2_outs fT fL (k2_level_end fT (h - 1)) k.width h d A B := by
        unfold k2_outs
        rw [List.map_cons, List.flatten_cons, hc, List.nil_append]
      refine ⟨F + 1, res, v, qf, ?_, by rw [ho]; exact hcase⟩
      intro fuel hfu
      obtain ⟨f, rfl⟩ : ∃ f, fuel = f + 1 := ⟨fuel - 1, by omega⟩
      rw [hl f]
      exact hf f (by omega)
    · have hBn : B = [] := hdB hdh
      subst hBn
      refine ⟨1, 1, e.q, q1, ?_, Or.inr ⟨rfl, d, A, [], ⟨hd, hA1, hB, hdB, hq1⟩, ?_⟩⟩
      · intro fuel hfu
        obtain ⟨f, rfl⟩ : ∃ f, fuel = f + 1 := ⟨fuel - 1, by omega⟩
        exact hl f
      · unfold k2_outs
        rw [List.map_cons, List.flatten_cons, hc]
        rfl
    · have hB2 : ∀ x ∈ B ++ [k2_child fT e 0, k2_child fT e 1], K2Valid fT h (d + 1) x := by
        intro x hx
        rcases List.mem_append.mp hx with hx | hx
        · exact hB x hx
        · rcases List.mem_cons.mp hx with hx | hx
          · rw [hx]; exact v0
          · rw [List.mem_singleton.mp hx]; exact v1
      have hq3 : RqRep q2 (A ++ (B ++ [k2_child fT e 0, k2_child fT e 1])) := by
        rw [← List.append_assoc]
        exact hq2
      obtain ⟨F, res, v, qf, hf, hcase⟩ := ih _ q2 ⟨hd, hA1, hB2, fun c => by omega, hq3⟩
      have ho : k2_outs fT fL (k2_level_end fT (h - 1)) k.width h d (e :: A) B =
          k2_outs fT fL (k2_level_end fT (h - 1)) k.width h d A
            (B ++ [k2_child fT e 0, k2_child fT e 1]) := by
        unfold k2_outs
        rw [List.map_cons, List.flatten_cons, hc, List.map_append, List.flatten_append]
        simp only [List.map_cons, List.map_nil, List.flatten_cons, List.flatten_nil,
          List.append_nil, List.append_assoc]
      refine ⟨F + 1, res, v, qf, ?_, by rw [ho]; exact hcase⟩
      intro fuel hfu
      obtain ⟨f, rfl⟩ : ∃ f, fuel = f + 1 := ⟨fuel - 1, by omega⟩
      rw [hl f]
      exact hf f (by omega)

/-- One call of the loop of `k2_iter_next_element` on the queue of a row
iterator: with enough fuel it returns 0 when no column is left, and otherwise
1 with the first of the columns still to come, leaving a queue that gives the
remaining ones. -/
theorem k2_iter_loop_spec (k : K2Reader) (h : Nat) (fT fL : Nat → Bool)
    (hok : K2Ok k h fT fL) (t : BitsequenceReader) (ht : k.t = some t) :
    ∀ (r d : Nat) (A B : List K2IteratorElement) (queue : RingQueue K2IteratorElement),
      h - d = r → K2Inv fT h d A B queue →
      ∃ F res v q1,
        (∀ fuel, F ≤ fuel → k2_iter_next_element_loop k t true fuel queue = .ok (res, v, q1)) ∧
        ((res = 0 ∧ v = 0 ∧ k2_outs fT fL (k2_level_end fT (h - 1)) k.width h d A B = []) ∨
         (res = 1 ∧ ∃ d1 A1 B1, K2Inv fT h d1 A1 B1 q1 ∧
           k2_outs fT fL (k2_level_end fT (h - 1)) k.width h d A B =
             v :: k2_outs fT fL (k2_level_end fT (h - 1)) k.width h d1 A1 B1)) := by
  intro r
  induction r with
  | zero =>
    intro d A B queue hr hinv
    apply k2_iter_loop_level k h fT fL hok t ht d _ A B queue hinv
    intro B1 queue1 hB1 hinv1
    exact absurd (hinv1.2.2.2.1 (by have := hinv1.1; omega)) hB1
  | succ r ihr =>
    intro d A B queue hr hinv
    apply k2_iter_loop_level k h fT fL hok t ht d _ A B queue hinv
    intro B1 queue1 hB1 hinv1
    obtain ⟨hd, _, hB, hdB, hq⟩ := hinv1
    have hinv2 : K2Inv fT h (d + 1) B1 [] queue1 := by
      refine ⟨by omega, hB, fun x hx => absurd hx (List.not_mem_nil _), fun _ => rfl, ?_⟩
      rw [List.append_nil]
      rw [List.nil_append] at hq
      exact hq
    have ho : k2_outs fT fL (k2_level_end fT (h - 1)) k.width h d [] B1 =
        k2_outs fT fL (k2_level_end fT (h - 1)) k.width h (d + 1) B1 [] := by
      unfold k2_outs
      rw [Nat.add_sub_add_right]
      simp only [List.map_nil, List.flatten_nil, List.append_nil, List.nil_append]
    rw [ho]
    exact ihr (d + 1) B1 [] queue1 (by omega) hinv2

end Wire
namespace Wire

/-- The calls of `k2_iter_next` on a row iterator whose queue gives the
columns `O`: they return these columns in order, then 0, and the iterator is
finished. -/
theorem k2_iter_all_spec (k : K2Reader) (h : Nat) (fT fL : Nat → Bool)
    (hok : K2Ok k h fT fL) :
    ∀ (O : List Nat) (d : Nat) (A B : List K2IteratorElement)
      (queue : RingQueue K2IteratorElement), K2Inv fT h d A B queue →
      k2_outs fT fL (k2_level_end fT (h - 1)) k.width h d A B = O →
      ∃ F C, ∀ fuel calls, F ≤ fuel → C ≤ calls →
        ∃ itf, k2_iter_all fuel calls { k := k, row := true, has_next := true, queue := queue } =
            .ok (O, 0, itf) ∧ itf.has_next = false ∧ itf.k = k := by
  obtain ⟨t, ht⟩ : ∃ t, k.t = some t := by
    obtain ⟨_, _, _, _, _, _, _, t, ht, _⟩ := hok
    exact ⟨t, ht⟩
  intro O
  induction O with
  | nil =>
    intro d A B queue hinv ho
    obtain ⟨F, res, v, q1, hf, hcase⟩ :=
      k2_iter_loop_spec k h fT fL hok t ht (h - d) d A B queue rfl hinv
    rcases hcase with ⟨rfl, rfl, _⟩ | ⟨_, d1, A1, B1, _, hc⟩
    · refine ⟨F, 1, ?_⟩
      intro fuel calls hfu hca
      obtain ⟨c, rfl⟩ : ∃ c, calls = c + 1 := ⟨calls - 1, by omega⟩
      refine ⟨{ k := k, row := true, has_next := false, queue := ringqueue_init 0 }, ?_, rfl, rfl⟩
      unfold k2_iter_all k2_iter_next
      simp only [Bool.not_true, Bool.false_eq_true, if_false, ht]
      rw [hf fuel hfu]
      rfl
    · rw [ho] at hc
      exact absurd hc (by simp)
  | cons v0 vs ih =>
    intro d A B queue hinv ho
    obtain ⟨F, res, v, q1, hf, hcase⟩ :=
      k2_iter_loop_spec k h fT fL hok t ht (h - d) d A B queue rfl hinv
    rcases hcase with ⟨_, _, hc⟩ | ⟨rfl, d1, A1, B1, hinv1, hc⟩
    · rw [ho] at hc
      exact absurd hc (by simp)
    · rw [ho] at hc
      have hv : v0 = v := (List.cons.inj hc).1
      have hvs : k2_outs fT fL (k2_level_end fT (h - 1)) k.width h d1 A1 B1 = vs :=
        (List.cons.inj hc).2.symm
      subst hv
      obtain ⟨F2, C2, hall⟩ := ih d1 A1 B1 q1 hinv1 hvs
      refine ⟨max F F2, C2 + 1, ?_⟩
      intro fuel calls hfu hca
      obtain ⟨c, rfl⟩ : ∃ c, calls = c + 1 := ⟨calls - 1, by omega⟩
      obtain ⟨itf, hitf, hn, hk⟩ := hall fuel c (by omega) (by omega)
      refine ⟨itf, ?_, hn, hk⟩
      unfold k2_iter_all k2_iter_next
      simp only [Bool.not_true, Bool.false_eq_true, if_false, ht]
      rw [hf fuel (by omega)]
      simp only [ok_bind', ne_eq, not_true_eq_false, if_false, if_true]
      rw [show (pure ((1 : Int), v0,
          ({ k := k, row := true, has_next := true, queue := q1 } : K2Iterator)) :
          Except Err (Int × Nat × K2Iterator)) =
          Except.ok (1, v0, { k := k, row := true, has_next := true, queue := q1 }) from rfl,
        ok_bind', if_pos rfl, hitf]
      rfl

end Wire
namespace Wire

/-- C25 (`k2_iter_init_row`, `k2_iter_next`, `k2_get`): on an opened non-empty
k2-tree of arity 2 with `h` levels whose readers give the bits `fT` of `T` and
`fL` of `L` (`K2Ok`), for every row `p` below the height `k2_iter_init_row`
gives an iterator, and there is a list `cols` of columns, strictly ascending
(so each column stands in it once), holding exactly the columns `q` below the
width for which `k2_get(p, q)` returns true, such that with enough fuel for the
loop the calls of `k2_iter_next` return 1 with the columns of `cols` in order
and then 0, which leaves the iterator without a next element: every further
call returns -1. -/
theorem k2_iter_row_spec (k : K2Reader) (h : Nat) (fT fL : Nat → Bool)
    (hok : K2Ok k h fT fL) (p : Nat) (hp : p < k.height) :
    ∃ it0 cols F C,
      k2_iter_init_row k p = .ok it0 ∧
      cols.Pairwise (fun a b => a < b) ∧
      (∀ q, q ∈ cols ↔ q < k.width ∧ k2_get k p q = .ok true) ∧
      ∀ fuel calls, F ≤ fuel → C ≤ calls →
        ∃ itf, k2_iter_all fuel calls it0 = .ok (cols, 0, itf) ∧ itf.has_next = false ∧
          k2_iter_next fuel itf = .ok (-1, 0, itf) := by
  have hok1 := hok
  obtain ⟨hk, hn, hh, hh61, hw, hht, hE, t, ht, hlen, hacc, hrank, hL⟩ := hok1
  have hroot : K2Valid fT h 0 { n := k.n, p := p, q := 0, x := -1 } :=
    ⟨Nat.zero_le _, by simp only [Nat.sub_zero]; exact hn, by simp only; omega,
      by simp only; omega, Or.inl ⟨rfl, rfl⟩⟩
  obtain ⟨q0, hq0, hr0⟩ := rq_enqueue (ringqueue_init (min k.height 16))
    ({ n := k.n, p := p, q := 0, x := -1 } : K2IteratorElement) [] (rq_init _)
  have hinv : K2Inv fT h 0 [{ n := k.n, p := p, q := 0, x := -1 }] [] q0 := by
    refine ⟨Nat.zero_le _, ?_, fun x hx => absurd hx (List.not_mem_nil _), fun _ => rfl, hr0⟩
    intro x hx
    rw [List.mem_singleton.mp hx]
    exact hroot
  have hout : k2_outs fT fL (k2_level_end fT (h - 1)) k.width h 0
      [{ n := k.n, p := p, q := 0, x := -1 }] [] =
      k2_cols fT fL (k2_level_end fT (h - 1)) k.width (h - 0 + 1)
        { n := k.n, p := p, q := 0, x := -1 } := by
    unfold k2_outs
    simp only [List.map_nil, List.flatten_nil, List.nil_append, List.map_cons, List.flatten_cons,
      List.append_nil, Nat.sub_zero]
  obtain ⟨F, C, hall⟩ := k2_iter_all_spec k h fT fL hok _ 0 _ [] q0 hinv hout
  refine ⟨{ k := k, row := true, has_next := true, queue := q0 }, _, F, C, ?_,
    k2_cols_sorted fT fL h k.width hh _ 0 _ hroot rfl, ?_, ?_⟩
  · unfold k2_iter_init_row k2_iter_init
    rw [ht]
    simp only [if_true]
    rw [hq0]
    rfl
  · intro q
    rw [k2_cols_mem fT fL h k.width hh _ 0 _ hroot rfl q]
    simp only [Nat.zero_le, true_and, Nat.zero_add, Nat.sub_zero]
    constructor
    · intro ⟨_, h2, h3⟩
      refine ⟨h2, ?_⟩
      rw [k2_get_spec k h fT fL hok p q hp h2, h3]
    · intro ⟨h2, h3⟩
      rw [k2_get_spec k h fT fL hok p q hp h2] at h3
      exact ⟨by omega, h2, Except.ok.inj h3⟩
  · intro fuel calls hfu hca
    obtain ⟨itf, h1, h2, _⟩ := hall fuel calls hfu hca
    refine ⟨itf, h1, h2, ?_⟩
    unfold k2_iter_next
    rw [h2]
    rfl

theorem k2_iter_row_spec_witness :
    k2_written 3 3 [(0, 0), (1, 2), (2, 2)] ⟨8⟩ = .ok (some k2_sample) ∧
    K2Ok k2_sample 2 k2_sample_T k2_sample_L ∧ 2 < k2_sample.height ∧
    ∃ it0 cols F C,
      k2_iter_init_row k2_sample 2 = .ok it0 ∧
      cols.Pairwise (fun a b => a < b) ∧
      (∀ q, q ∈ cols ↔ q < k2_sample.width ∧ k2_get k2_sample 2 q = .ok true) ∧
      ∀ fuel calls, F ≤ fuel → C ≤ calls →
        ∃ itf, k2_iter_all fuel calls it0 = .ok (cols, 0, itf) ∧ itf.has_next = false ∧
          k2_iter_next fuel itf = .ok (-1, 0, itf) :=
  have hlev : k2_level_end k2_sample_T 2 = 16 := by decide
  have hleaves : ∀ y, y < 12 →
      (do
        let r ← reader_bitpos k2_sample.l y
        let b ← reader_readbit r
        pure b.1) = Except.ok (k2_sample_L y) := by decide!
  have hok : K2Ok k2_sample 2 k2_sample_T k2_sample_L :=
    ⟨rfl, rfl, by decide, by decide, by decide, by decide, by decide!, _, rfl, rfl,
      by decide!, by decide!,
      fun y hy => hleaves y (by
        have hy2 : 4 + y < 16 := by rw [← hlev]; exact hy
        omega)⟩
  ⟨by decide!, hok, by decide, k2_iter_row_spec k2_sample 2 k2_sample_T k2_sample_L hok 2 (by decide)⟩

end Wire
namespace Wire

/-- The calls on a queue that holds the elements `l`: none of them fails, the
calls of `ringqueue_dequeue` return what first in, first out gives, and the
queue holds the elements that are left. -/
theorem ringqueue_calls_spec {α : Type} :
    ∀ (cs : List (RqCall α)) (q : RingQueue α) (l : List α), RqRep q l →
      ∃ q1, ringqueue_calls q cs = .ok ((fifo_calls l cs).1, q1) ∧
        RqRep q1 (fifo_calls l cs).2 := by
  intro cs
  induction cs with
  | nil =>
    intro q l h
    exact ⟨q, rfl, h⟩
  | cons c cs ih =>
    intro q l h
    cases c with
    | enqueue v =>
      obtain ⟨q1, h1, hr1⟩ := rq_enqueue q v l h
      obtain ⟨q2, h2, hr2⟩ := ih q1 (l ++ [v]) hr1
      refine ⟨q2, ?_, hr2⟩
      show (ringqueue_enqueue q v >>= fun q => ringqueue_calls q cs) = _
      rw [h1, ok_bind']
      exact h2
    | dequeue =>
      cases l with
      | nil =>
        obtain ⟨q2, h2, hr2⟩ := ih q [] h
        refine ⟨q2, ?_, hr2⟩
        have hlen : q.len = 0 := h.1
        have hd : ringqueue_dequeue q = .ok (none, q) := by
          unfold ringqueue_dequeue
          rw [if_pos hlen]
        show (ringqueue_dequeue q >>= fun rq => ringqueue_calls rq.2 cs >>= fun rs =>
          pure (rq.1 :: rs.1, rs.2)) = _
        rw [hd, ok_bind', h2]
        rfl
      | cons x l =>
        obtain ⟨q1, h1, hr1⟩ := rq_dequeue q x l h
        obtain ⟨q2, h2, hr2⟩ := ih q1 l hr1
        refine ⟨q2, ?_, hr2⟩
        show (ringqueue_dequeue q >>= fun rq => ringqueue_calls rq.2 cs >>= fun rs =>
          pure (rq.1 :: rs.1, rs.2)) = _
        rw [h1, ok_bind', h2]
        rfl

/-- The number of elements that wait after the calls: those that waited
before and those enqueued, without those that a dequeue returned. -/
theorem fifo_calls_length {α : Type} :
    ∀ (cs : List (RqCall α)) (l : List α),
      (fifo_calls l cs).2.length + ((fifo_calls l cs).1.filter Option.isSome).length =
        l.length + (cs.filter RqCall.is_enqueue).length := by
  intro cs
  induction cs with
  | nil =>
    intro l
    simp [fifo_calls]
  | cons c cs ih =>
    intro l
    cases c with
    | enqueue v =>
      have := ih (l ++ [v])
      simp only [fifo_calls, List.filter_cons, RqCall.is_enqueue, if_true, List.length_cons,
        List.length_append, List.length_nil] at this ⊢
      omega
    | dequeue =>
      cases l with
      | nil =>
        have := ih []
        simp only [fifo_calls, List.filter_cons, RqCall.is_enqueue, Option.isSome,
          Bool.false_eq_true, if_false, List.length_nil] at this ⊢
        omega
      | cons x l =>
        have := ih l
        simp only [fifo_calls, List.filter_cons, RqCall.is_enqueue, Option.isSome,
          Bool.false_eq_true, if_false, if_true, List.length_cons] at this ⊢
        omega

/-- C38 (`ringqueue_init`, `ringqueue_resize`, `ringqueue_enqueue`,
`ringqueue_dequeue`): for every initial capacity and every sequence of calls
of `ringqueue_enqueue` and `ringqueue_dequeue` on the queue `ringqueue_init`
gives, no call fails, the calls of `ringqueue_dequeue` return the elements
first in, first out and NULL (`none`) when nothing waits, and after the calls
`len` is the number of elements that wait, which with the number of dequeues
that returned an element makes the number of enqueues.  The growth of the
buffer, also with the elements wrapped around its end, is part of every
`ringqueue_enqueue`. -/
theorem ringqueue_fifo {α : Type} (cap : Nat) (cs : List (RqCall α)) :
    ∃ q, ringqueue_calls (ringqueue_init cap) cs = .ok ((fifo_calls [] cs).1, q) ∧
      q.len = (fifo_calls [] cs).2.length ∧
      q.len + ((fifo_calls [] cs).1.filter Option.isSome).length =
        (cs.filter RqCall.is_enqueue).length := by
  obtain ⟨q, h, hr⟩ := ringqueue_calls_spec cs (ringqueue_init cap) [] (rq_init cap)
  refine ⟨q, h, hr.1, ?_⟩
  rw [hr.1, fifo_calls_length cs []]
  simp

end Wire
/-! ## The rule that `repair_prune` inlines -/

theorem size_of_rule_spec (g : SLHRGrammar) (n : Nat) (rule : HGraph) (hn : g.min_nt ≤ n)
    (hr : g.rules.get? (n - g.min_nt) = some (some rule))
    (hh : ∀ oe ∈ rule.edges, oe ≠ none) :
    slhr_grammar_size_of_rule g n = .ok (hgraph_size rule) := by
  unfold slhr_grammar_size_of_rule
  rw [if_neg (by omega), hr]
  simp only
  obtain ⟨r, hrun, hinv⟩ := range_foldlM_inv
    (fun size i => do
      let edge ← hgraph_edge_deref rule i
      pure (size + edge.rank))
    (fun k size => size = rule.edges.length +
      (((rule.edges.take k).filterMap id).map (fun e => e.rank)).sum)
    (hgraph_len rule) (hgraph_len rule) (by simp [hgraph_len])
    (by
      intro k hk size hs
      have hk1 : k < rule.edges.length := hk
      have hmem : rule.edges[k] ∈ rule.edges := List.getElem_mem hk1
      cases he : rule.edges[k] with
      | none => exact absurd he (hh _ hmem)
      | some e =>
        have hget : rule.edges.get? k = some (some e) := by
          rw [List.get?_eq_getElem?, List.getElem?_eq_getElem hk1, he]
        refine ⟨size + e.rank, ?_, ?_⟩
        · dsimp only
          rw [hgraph_edge_deref_ok rule k e hget, ok_bind]
          rfl
        · dsimp only
          have ht : rule.edges.take (k + 1) = rule.edges.take k ++ [some e] := by
            rw [List.take_succ, List.getElem?_eq_getElem hk1, he]
            rfl
          rw [ht, List.filterMap_append, List.map_append, List.sum_append, hs]
          simp only [List.filterMap_cons, id, List.filterMap_nil, List.map_cons, List.map_nil,
            List.sum_cons, List.sum_nil]
          omega)
  rw [hrun, hinv]
  unfold hgraph_size hgraph_len
  rw [List.take_length]

/-- The selection loop of `repair_rule_to_insert` gives an entry of the least
count. -/
theorem repair_rule_min_spec (items : List (HashmapNode Nat Nat)) :
    (items = [] ∧ repair_rule_min items = none) ∨
    ∃ n c, repair_rule_min items = some (n, c) ∧
      (∃ node ∈ items, node.key = n ∧ node.val = c) ∧ ∀ node ∈ items, c ≤ node.val := by
  have key : ∀ (xs seen : List (HashmapNode Nat Nat)) (init : Option (Nat × Nat)),
      ((seen = [] ∧ init = none) ∨ ∃ n c, init = some (n, c) ∧
        (∃ node ∈ seen, node.key = n ∧ node.val = c) ∧ ∀ node ∈ seen, c ≤ node.val) →
      ((seen ++ xs = [] ∧ xs.foldl
        (fun res item =>
          match res with
          | none => some (item.key, item.val)
          | some (_, res_count) =>
            if item.val ≤ res_count then some (item.key, item.val) else res) init = none) ∨
        ∃ n c, xs.foldl
          (fun res item =>
            match res with
            | none => some (item.key, item.val)
            | some (_, res_count) =>
              if item.val ≤ res_count then some (item.key, item.val) else res) init = some (n, c) ∧
          (∃ node ∈ seen ++ xs, node.key = n ∧ node.val = c) ∧
          ∀ node ∈ seen ++ xs, c ≤ node.val) := by
    intro xs
    induction xs with
    | nil =>
      intro seen init h
      rw [List.append_nil]
      exact h
    | cons x xs ih =>
      intro seen init h
      have e1 : seen ++ x :: xs = (seen ++ [x]) ++ xs := by simp
      rw [e1, List.foldl_cons]
      apply ih
      right
      rcases h with ⟨hs, hi⟩ | ⟨n, c, hi, ⟨node, hm, hk, hv⟩, hall⟩
      · subst hs hi
        refine ⟨x.key, x.val, rfl, ⟨x, by simp, rfl, rfl⟩, ?_⟩
        intro node hnode
        simp only [List.nil_append, List.mem_singleton] at hnode
        rw [hnode]
      · subst hi
        by_cases hle : x.val ≤ c
        · refine ⟨x.key, x.val, by simp only [if_pos hle], ⟨x, by simp, rfl, rfl⟩, ?_⟩
          intro nd hnd
          rcases List.mem_append.mp hnd with h1 | h1
          · exact Nat.le_trans hle (hall nd h1)
          · rw [List.mem_singleton.mp h1]
        · refine ⟨n, c, by simp only [if_neg hle], ⟨node, List.mem_append_left _ hm, hk, hv⟩, ?_⟩
          intro nd hnd
          rcases List.mem_append.mp hnd with h1 | h1
          · exact hall nd h1
          · rw [List.mem_singleton.mp h1]
            omega
  have := key items [] none (Or.inl ⟨rfl, rfl⟩)
  rw [List.nil_append] at this
  exact this

/-- C33, as stated, fails: in `usedFourGrammar` the rule 1 has rank 5 and is
used by four edges, so that `count * rank + rank > count * (rank + 1)` holds
(25 > 24), but `repair_prune` returns the grammar unchanged: its test is
`count * (rank + 1) + size > count * size` with the size 8 of the rule body
(32 > 32 fails).  In `usedThriceGrammar` the rule 1 has rank 2 and is used by
three edges, so that the inequality of the claim fails (8 > 9), but
`repair_prune` inlines the rule (13 > 12) and removes it. -/
theorem repair_prune_inequality_counterexample :
    (repair_count_rules usedFourGrammar).toOption.map (fun m => hashmap_get m 1) =
      some (some 4) ∧
    slhr_grammar_rank_of_rule usedFourGrammar 1 = .ok 5 ∧
    4 * 5 + 5 > 4 * (5 + 1) ∧
    repair_prune 10 usedFourGrammar = .ok usedFourGrammar ∧
    (repair_count_rules usedThriceGrammar).toOption.map (fun m => hashmap_get m 1) =
      some (some 3) ∧
    slhr_grammar_rank_of_rule usedThriceGrammar 1 = .ok 2 ∧
    ¬ (3 * 2 + 2 > 3 * (2 + 1)) ∧
    repair_prune 10 usedThriceGrammar = .ok
      { min_nt := 1
        start_symbol :=
          { edges := [some { label := 0, rank := 3, nodes := [0, 0, 7] },
                      some { label := 0, rank := 3, nodes := [1, 1, 8] },
                      some { label := 0, rank := 3, nodes := [2, 2, 9] }]
            rank := -1 }
        rule_max := 0
        rules := [none, none, none, none, none, none, none, none] } := by
  decide!

theorem int_of_size_t_small (s : Nat) (h : s < 2147483648) : int_of_size_t s = (s : Int) := by
  unfold int_of_size_t Int.bmod
  have e : ((s : Int) % ((4294967296 : Nat) : Int)) = (s : Int) := by
    apply Int.emod_eq_of_lt
    · omega
    · omega
  simp only [e]
  rw [if_pos (by omega)]

theorem should_continue_inserting_rules_spec (g : SLHRGrammar) (n c : Nat) (rule : HGraph)
    (hn : g.min_nt ≤ n) (hr : g.rules.get? (n - g.min_nt) = some (some rule))
    (hh : ∀ oe ∈ rule.edges, oe ≠ none) (h0 : 0 ≤ rule.rank) (h1 : rule.rank < 2147483647)
    (hs : hgraph_size rule < 2147483648)
    (hb : (c + 1) * (rule.rank.toNat + 1 + hgraph_size rule) < 2 ^ 64) :
    should_continue_inserting_rules g n c = .ok
      (decide (c * (rule.rank.toNat + 1) + hgraph_size rule > c * hgraph_size rule)) := by
  unfold should_continue_inserting_rules
  have hrk : slhr_grammar_rank_of_rule g n = .ok rule.rank := by
    unfold slhr_grammar_rank_of_rule
    rw [if_neg (by omega), hr]
  rw [hrk, ok_bind, if_neg (by omega), size_of_rule_spec g n rule hn hr hh, ok_bind,
    int_of_size_t_small _ hs]
  have hrt : rule.rank = ((rule.rank.toNat : Nat) : Int) := (Int.toNat_of_nonneg h0).symm
  generalize rule.rank.toNat = k at hb hrt ⊢
  rw [hrt]
  generalize hgraph_size rule = s at hb ⊢
  have hmul : (c + 1) * (k + 1 + s) = c * (k + 1) + c * s + (k + 1 + s) := by ring
  have e1 : u64 ((c : Int) * ((k : Int) + 1) + (s : Int)) = c * (k + 1) + s := by
    have : ((c : Int) * ((k : Int) + 1) + (s : Int)) = ((c * (k + 1) + s : Nat) : Int) := by
      push_cast
      ring
    rw [this, Wire.u64_ofNat _ (by omega)]
  have e2 : u64 ((c : Int) * (s : Int)) = c * s := by
    have : ((c : Int) * (s : Int)) = ((c * s : Nat) : Int) := by push_cast; ring
    rw [this, Wire.u64_ofNat _ (by omega)]
  simp only [pure_eq_ok]
  rw [e1, e2]

/-- The selection loop of `repair_rule_to_insert` gives the last entry among
those of the least count. -/
theorem repair_rule_min_last (items : List (HashmapNode Nat Nat)) :
    (items = [] ∧ repair_rule_min items = none) ∨
    ∃ l1 node l2, items = l1 ++ node :: l2 ∧
      repair_rule_min items = some (node.key, node.val) ∧
      (∀ x ∈ l1, node.val ≤ x.val) ∧ ∀ x ∈ l2, node.val < x.val := by
  induction items using List.reverseRecOn with
  | nil => exact Or.inl ⟨rfl, rfl⟩
  | append_singleton xs x ih =>
    right
    unfold repair_rule_min at ih ⊢
    rw [List.foldl_append]
    simp only [List.foldl_cons, List.foldl_nil]
    rcases ih with ⟨h1, h2⟩ | ⟨l1, node, l2, h1, h2, h3, h4⟩
    · rw [h2, h1]
      refine ⟨[], x, [], rfl, rfl, ?_, ?_⟩
      · intro y hy
        cases hy
      · intro y hy
        cases hy
    · rw [h2]
      simp only
      by_cases hle : x.val ≤ node.val
      · rw [if_pos hle]
        refine ⟨xs, x, [], rfl, rfl, ?_, ?_⟩
        · intro y hy
          rw [h1] at hy
          rcases List.mem_append.mp hy with hy | hy
          · exact Nat.le_trans hle (h3 y hy)
          · rcases List.mem_cons.mp hy with hy | hy
            · rw [hy]
              exact hle
            · exact Nat.le_trans hle (Nat.le_of_lt (h4 y hy))
        · intro y hy
          cases hy
      · rw [if_neg hle]
        refine ⟨l1, node, l2 ++ [x], ?_, rfl, h3, ?_⟩
        · rw [h1]
          simp
        · intro y hy
          rcases List.mem_append.mp hy with hy | hy
          · exact h4 y hy
          · rw [List.mem_singleton.mp hy]
            omega

/-! ## One round of `repair_prune` -/

theorem foldlM_inv_prefix {α β : Type} (f : β → α → Except Err β) (Inv : List α → β → Prop) :
    ∀ (l pre : List α) (b r : β), l.foldlM f b = .ok r → Inv pre b →
      (∀ pre x b b', Inv pre b → f b x = .ok b' → Inv (pre ++ [x]) b') → Inv (pre ++ l) r := by
  intro l
  induction l with
  | nil =>
    intro pre b r h h0 _
    simp only [List.foldlM] at h
    cases h
    rw [List.append_nil]
    exact h0
  | cons x xs ih =>
    intro pre b r h h0 hstep
    simp only [List.foldlM] at h
    obtain ⟨b1, hb1, h1⟩ := bind_ok h
    have := ih (pre ++ [x]) b1 r h1 (hstep pre x b b1 h0 hb1) hstep
    rw [List.append_assoc] at this
    exact this

/-- The edges `rule_inserter_edges_for_hyperedge` puts in place of the edge at
`index`: the slots before `index` stay, and the slot `index` holds an edge
with the label of an edge of the inserted rule. -/
theorem rule_inserter_at (rti rule : HGraph) (hyperedge : HEdge) (index : Nat) (rule' : HGraph)
    (hne : 0 < hgraph_len rti)
    (h : rule_inserter_edges_for_hyperedge rti rule hyperedge index = .ok rule') :
    (∀ j, j < index → rule'.edges.get? j = rule.edges.get? j) ∧
    ∃ e' e0, rule'.edges.get? index = some (some e') ∧ some e0 ∈ rti.edges ∧
      e'.label = e0.label := by
  unfold rule_inserter_edges_for_hyperedge at h
  obtain ⟨n, hn⟩ : ∃ n, hgraph_len rti = n + 1 := ⟨hgraph_len rti - 1, by omega⟩
  rw [hn, List.range_succ_eq_map, List.foldlM_cons] at h
  obtain ⟨r1, h1, h⟩ := bind_ok h
  obtain ⟨e, he, h1⟩ := bind_ok h1
  obtain ⟨nodes, _, h1⟩ := bind_ok h1
  simp only [if_true] at h1
  unfold hgraph_edge_set at h1
  split at h1
  swap
  · cases h1
  rename_i hlt
  cases h1
  have hI : (∀ j, j < index → rule'.edges.get? j = rule.edges.get? j) ∧
      rule'.edges.get? index = some (some { label := e.label, rank := e.rank, nodes := nodes }) ∧
      index < rule'.edges.length := by
    refine foldlM_inv _
      (fun (r : HGraph) => (∀ j, j < index → r.edges.get? j = rule.edges.get? j) ∧
        r.edges.get? index = some (some { label := e.label, rank := e.rank, nodes := nodes }) ∧
        index < r.edges.length) _ _ _ h ?_ ?_
    · refine ⟨?_, ?_, ?_⟩
      · intro j hj
        simp only [List.get?_eq_getElem?]
        exact List.getElem?_set_ne (by omega)
      · simp only [List.get?_eq_getElem?]
        exact List.getElem?_set_self hlt
      · simp only [List.length_set]
        exact hlt
    · intro b x b' hx hb hf
      obtain ⟨i, _, hi⟩ := List.mem_map.mp hx
      obtain ⟨e2, _, hf⟩ := bind_ok hf
      obtain ⟨nodes2, _, hf⟩ := bind_ok hf
      rw [← hi] at hf
      simp only [Nat.succ_ne_zero, if_false] at hf
      cases hf
      obtain ⟨hb1, hb2, hb3⟩ := hb
      unfold hgraph_add_edge
      refine ⟨?_, ?_, ?_⟩
      · intro j hj
        simp only [List.get?_eq_getElem?]
        rw [List.getElem?_append_left (by omega)]
        simp only [← List.get?_eq_getElem?]
        exact hb1 j hj
      · simp only [List.get?_eq_getElem?]
        rw [List.getElem?_append_left hb3]
        simp only [← List.get?_eq_getElem?]
        exact hb2
      · simp only [List.length_append, List.length_singleton]
        omega
  exact ⟨hI.1, _, e, hI.2.1, hgraph_edge_deref_mem rti 0 e he, rfl⟩

/-- The loop of `repair_prune` over the edges of one rule leaves no edge with
the label of the inlined rule, when the body of the inlined rule has an edge
and none with its own label. -/
theorem prune_rule_edges_clean (name : Nat) (rti : HGraph) (hne : 0 < hgraph_len rti)
    (hrti : ∀ e, some e ∈ rti.edges → e.label ≠ name) :
    ∀ (fuel index : Nat) (rc rc' : HGraph × Nat),
      (∀ j e, j < index → rc.1.edges.get? j = some (some e) → e.label ≠ name) →
      prune_rule_edges name rti fuel index rc = .ok rc' →
      ∀ e, some e ∈ rc'.1.edges → e.label ≠ name := by
  intro fuel
  induction fuel with
  | zero =>
    intro index rc rc' _ h
    simp [prune_rule_edges] at h
  | succ n ih =>
    intro index rc rc' hrc h
    obtain ⟨rule, count⟩ := rc
    simp only [prune_rule_edges] at h
    split at h
    · rename_i hlt
      obtain ⟨edge, hedge, h⟩ := bind_ok h
      split at h
      · obtain ⟨rule1, h1, h⟩ := bind_ok h
        obtain ⟨hkeep, e', e0, hat, hmem, hlab⟩ :=
          rule_inserter_at rti rule edge index rule1 hne h1
        refine ih _ _ rc' ?_ h
        intro j e hj hget
        simp only at hget
        by_cases hji : j = index
        · rw [hji, hat] at hget
          cases hget
          rw [hlab]
          exact hrti e0 hmem
        · rw [hkeep j (by omega)] at hget
          exact hrc j e (by omega) hget
      · rename_i hlab
        refine ih _ _ rc' ?_ h
        intro j e hj hget
        simp only at hget
        by_cases hji : j = index
        · have hd := hgraph_edge_deref_ok rule index e (by rw [← hji]; exact hget)
          rw [hd] at hedge
          cases hedge
          exact hlab
        · exact hrc j e (by omega) hget
    · rename_i hge
      cases h
      intro e he
      obtain ⟨j, hj⟩ := List.mem_iff_get?.mp he
      have hjl : j < rule.edges.length := by
        by_contra hc
        rw [List.get?_eq_none.mpr (Nat.le_of_not_lt hc)] at hj
        cases hj
      exact hrc j e (by unfold hgraph_len at hge; omega) hj

theorem rule_get_store_same (g : SLHRGrammar) (x : Nat) (r r1 : HGraph)
    (h : slhr_grammar_rule_get g x = .ok r) :
    slhr_grammar_rule_get (slhr_grammar_rule_store g x r1) x = .ok r1 := by
  unfold slhr_grammar_rule_get at h ⊢
  unfold slhr_grammar_rule_store
  by_cases hx : x = START_SYMBOL
  · rw [if_pos hx, if_pos hx]
  · rw [if_neg hx] at h ⊢
    rw [if_neg hx]
    split at h
    · cases h
    · rename_i h1
      split at h
      · cases h
      · rename_i h2
        simp only
        rw [if_neg h1, if_neg h2]
        have hlt : x - g.min_nt < g.rules.length := by
          by_contra hc
          rw [List.get?_eq_none.mpr (Nat.le_of_not_lt hc)] at h
          cases h
        rw [List.get?_eq_getElem?, List.getElem?_set_self hlt]

theorem rule_get_store_other (g : SLHRGrammar) (i x : Nat) (r r0 r1 : HGraph) (hix : i ≠ x)
    (h : slhr_grammar_rule_get g i = .ok r) (h0 : slhr_grammar_rule_get g x = .ok r0) :
    slhr_grammar_rule_get (slhr_grammar_rule_store g x r1) i = .ok r := by
  unfold slhr_grammar_rule_get at h h0 ⊢
  unfold slhr_grammar_rule_store
  by_cases hx : x = START_SYMBOL
  · rw [if_pos hx]
    have hi : i ≠ START_SYMBOL := by
      rw [← hx]
      exact hix
    rw [if_neg hi] at h ⊢
    exact h
  · rw [if_neg hx]
    rw [if_neg hx] at h0
    by_cases hi : i = START_SYMBOL
    · rw [if_pos hi] at h ⊢
      exact h
    · rw [if_neg hi] at h ⊢
      split at h0
      · cases h0
      · rename_i hxm
        split at h
        · cases h
        · rename_i h1
          split at h
          · cases h
          · rename_i h2
            simp only
            rw [if_neg h1, if_neg h2, List.get?_eq_getElem?, List.getElem?_set_ne (by omega),
              ← List.get?_eq_getElem?]
            exact h

/-- The loop of `repair_prune` over the rules: every rule it visits is left
without an edge that has the label of the inlined rule. -/
theorem prune_symbols_clean (fuel0 name : Nat) (rti : HGraph) (hne : 0 < hgraph_len rti)
    (hrti : ∀ e, some e ∈ rti.edges → e.label ≠ name) (syms : List Nat)
    (st st' : SLHRGrammar × Nat)
    (h : syms.foldlM
      (fun (st : SLHRGrammar × Nat) i => do
        let rule ← slhr_grammar_rule_get st.1 i
        let (rule, count) ← prune_rule_edges name rti fuel0 0 (rule, st.2)
        pure (slhr_grammar_rule_store st.1 i rule, count)) st = .ok st') :
    ∀ i ∈ syms, ∃ rule, slhr_grammar_rule_get st'.1 i = .ok rule ∧
      ∀ e, some e ∈ rule.edges → e.label ≠ name := by
  have := foldlM_inv_prefix _
    (fun (pre : List Nat) (s : SLHRGrammar × Nat) =>
      ∀ i ∈ pre, ∃ rule, slhr_grammar_rule_get s.1 i = .ok rule ∧
        ∀ e, some e ∈ rule.edges → e.label ≠ name) syms [] st st' h
    (by
      intro i hi
      cases hi)
    (by
      intro pre x b b' hb hf
      obtain ⟨rule, hrule, hf⟩ := bind_ok hf
      obtain ⟨rc, hprune, hf⟩ := bind_ok hf
      obtain ⟨rule1, c1⟩ := rc
      cases hf
      have hclean := prune_rule_edges_clean name rti hne hrti fuel0 0 (rule, b.2) (rule1, c1)
        (by
          intro j e hj _
          omega) hprune
      intro i hi
      by_cases hix : i = x
      · rw [hix]
        exact ⟨rule1, rule_get_store_same b.1 x rule rule1 hrule, hclean⟩
      · rcases List.mem_append.mp hi with hi | hi
        · obtain ⟨ri, hri, hci⟩ := hb i hi
          exact ⟨ri, rule_get_store_other b.1 i x ri rule rule1 hix hri hrule, hci⟩
        · exact absurd (List.mem_singleton.mp hi) hix)
  rw [List.nil_append] at this
  exact this

theorem rule_del_none (g g' : SLHRGrammar) (name : Nat)
    (h : slhr_grammar_rule_del g name = .ok g') :
    g'.rules.get? (name - g.min_nt) = some none := by
  unfold slhr_grammar_rule_del at h
  split at h
  · cases h
  · split at h
    · cases h
    · simp only [] at h
      split at h
      · rename_i r heq
        have hlt : name - g.min_nt < g.rules.length := by
          by_contra hc
          rw [List.get?_eq_none.mpr (Nat.le_of_not_lt hc)] at heq
          cases heq
        split at h
        · cases h
          simp only [List.get?_eq_getElem?]
          exact List.getElem?_set_self hlt
        · cases h
          simp only [List.get?_eq_getElem?]
          exact List.getElem?_set_self hlt
      · cases h
      · cases h

/-- C33, amended (`repair_rule_to_insert`, `should_continue_inserting_rules`,
`slhr_grammar_size_of_rule`, `repair_prune`): in every round `repair_prune`
looks at one non-terminal only, the last entry in iteration order among the
entries of the least count `c` in the count table, and goes on with it
exactly when `should_continue_inserting_rules` holds for it, which for a rule
without holes whose rank and size fit an `int`, without overflow, is
`c * (rank + 1) + size > c * size` with `size` the number of edges of the rule
body plus the sum of their ranks.  When the table is empty or the test fails
the pass ends there with the grammar as it is.  When the test holds, the rule
is inlined and deleted before the next round: if its body has an edge and no
edge with its own label, every rule the loop visits (the start symbol and
every stored rule) is left without an edge with the label of the rule, and
`slhr_grammar_rule_del` then removes the rule. -/
theorem repair_rule_to_insert_least (g : SLHRGrammar) (rd : Hashmap Nat Nat) :
    ((hashmap_items rd = [] ∧ repair_rule_to_insert g rd = .ok none) ∨
     ∃ l1 node l2, hashmap_items rd = l1 ++ node :: l2 ∧
      (∀ x ∈ l1, node.val ≤ x.val) ∧ (∀ x ∈ l2, node.val < x.val) ∧
      repair_rule_to_insert g rd =
        (do
          let b ← should_continue_inserting_rules g node.key node.val
          pure (if b then some node.key else none)) ∧
      ∀ rule, g.min_nt ≤ node.key → g.rules.get? (node.key - g.min_nt) = some (some rule) →
        (∀ oe ∈ rule.edges, oe ≠ none) → 0 ≤ rule.rank → rule.rank < 2147483647 →
        hgraph_size rule < 2147483648 →
        (node.val + 1) * (rule.rank.toNat + 1 + hgraph_size rule) < 2 ^ 64 →
        should_continue_inserting_rules g node.key node.val = .ok
          (decide (node.val * (rule.rank.toNat + 1) + hgraph_size rule >
            node.val * hgraph_size rule))) ∧
    (∀ fuel0 fuel, repair_rule_to_insert g rd = .ok none →
      prune_loop fuel0 (fuel + 1) (g, rd) = .ok g) ∧
    ∀ fuel0 fuel name rti r, repair_rule_to_insert g rd = .ok (some name) →
      slhr_grammar_rule_get g name = .ok rti → 0 < hgraph_len rti →
      (∀ e, some e ∈ rti.edges → e.label ≠ name) →
      prune_loop fuel0 (fuel + 1) (g, rd) = .ok r →
      ∃ g1 g2 rd2,
        (∀ i ∈ slhr_grammar_symbols g, ∃ rule, slhr_grammar_rule_get g1 i = .ok rule ∧
          ∀ e, some e ∈ rule.edges → e.label ≠ name) ∧
        slhr_grammar_rule_del g1 name = .ok g2 ∧
        g2.rules.get? (name - g.min_nt) = some none ∧
        prune_loop fuel0 fuel (g2, rd2) = .ok r := by
  refine ⟨?_, ?_, ?_⟩
  · rcases repair_rule_min_last (hashmap_items rd) with ⟨h1, h2⟩ | ⟨l1, node, l2, h1, h2, h3, h4⟩
    · left
      refine ⟨h1, ?_⟩
      unfold repair_rule_to_insert
      rw [h2]
      rfl
    · right
      refine ⟨l1, node, l2, h1, h3, h4, ?_, ?_⟩
      · unfold repair_rule_to_insert
        rw [h2]
        simp only
        cases should_continue_inserting_rules g node.key node.val with
        | error e => rfl
        | ok b => cases b <;> rfl
      · intro rule hn hr hh h0 h1 hs hb
        exact should_continue_inserting_rules_spec g node.key node.val rule hn hr hh h0 h1 hs hb
  · intro fuel0 fuel h
    unfold prune_loop
    rw [h]
    rfl
  · intro fuel0 fuel name rti r hsel hget hne hrti h
    simp only [prune_loop] at h
    rw [hsel, ok_bind] at h
    simp only [] at h
    rw [hget, ok_bind] at h
    obtain ⟨gc, hfold, h⟩ := bind_ok h
    obtain ⟨g1, count⟩ := gc
    simp only [] at h
    obtain ⟨rd1, _, h⟩ := bind_ok h
    obtain ⟨g2, hdel, h⟩ := bind_ok h
    have hmin : g1.min_nt = g.min_nt :=
      prune_symbols_min_nt fuel0 name rti g _ (g, 0) (g1, count) rfl hfold
    refine ⟨g1, g2, _, ?_, hdel, ?_, h⟩
    · exact prune_symbols_clean fuel0 name rti hne hrti _ (g, 0) (g1, count) hfold
    · rw [← hmin]
      exact rule_del_none g1 g2 name hdel

/-- The theorem at `usedThriceGrammar` and its count table, for which
`repair_rule_to_insert` selects the rule 1. -/
theorem repair_rule_to_insert_least_witness :
    repair_rule_to_insert usedThriceGrammar usedThriceCounts = .ok (some 1) ∧
    (((hashmap_items usedThriceCounts = [] ∧ repair_rule_to_insert usedThriceGrammar usedThriceCounts = .ok none) ∨
      ∃ l1 node l2, hashmap_items usedThriceCounts = l1 ++ node :: l2 ∧
       (∀ x ∈ l1, node.val ≤ x.val) ∧ (∀ x ∈ l2, node.val < x.val) ∧
       repair_rule_to_insert usedThriceGrammar usedThriceCounts =
         (do
           let b ← should_continue_inserting_rules usedThriceGrammar node.key node.val
           pure (if b then some node.key else none)) ∧
       ∀ rule, usedThriceGrammar.min_nt ≤ node.key → usedThriceGrammar.rules.get? (node.key - usedThriceGrammar.min_nt) = some (some rule) →
         (∀ oe ∈ rule.edges, oe ≠ none) → 0 ≤ rule.rank → rule.rank < 2147483647 →
         hgraph_size rule < 2147483648 →
         (node.val + 1) * (rule.rank.toNat + 1 + hgraph_size rule) < 2 ^ 64 →
         should_continue_inserting_rules usedThriceGrammar node.key node.val = .ok
           (decide (node.val * (rule.rank.toNat + 1) + hgraph_size rule >
             node.val * hgraph_size rule))) ∧
     (∀ fuel0 fuel, repair_rule_to_insert usedThriceGrammar usedThriceCounts = .ok none →
       prune_loop fuel0 (fuel + 1) (usedThriceGrammar, usedThriceCounts) = .ok usedThriceGrammar) ∧
     ∀ fuel0 fuel name rti r, repair_rule_to_insert usedThriceGrammar usedThriceCounts = .ok (some name) →
       slhr_grammar_rule_get usedThriceGrammar name = .ok rti → 0 < hgraph_len rti →
       (∀ e, some e ∈ rti.edges → e.label ≠ name) →
       prune_loop fuel0 (fuel + 1) (usedThriceGrammar, usedThriceCounts) = .ok r →
       ∃ g1 g2 rd2,
         (∀ i ∈ slhr_grammar_symbols usedThriceGrammar, ∃ rule, slhr_grammar_rule_get g1 i = .ok rule ∧
           ∀ e, some e ∈ rule.edges → e.label ≠ name) ∧
         slhr_grammar_rule_del g1 name = .ok g2 ∧
         g2.rules.get? (name - usedThriceGrammar.min_nt) = some none ∧
         prune_loop fuel0 fuel (g2, rd2) = .ok r) :=
  ⟨by decide, repair_rule_to_insert_least usedThriceGrammar usedThriceCounts⟩
/-! ## The digram that `repair_replace_digrams` replaces -/

/-- The selection loop of `repair_digram_to_replace` gives an entry of the
greatest count. -/
theorem repair_digram_max_spec (items : List (HashmapNode Digram Int)) :
    (items = [] ∧ repair_digram_max items = none) ∨
    ∃ d c, repair_digram_max items = some (d, c) ∧
      (∃ node ∈ items, node.key = d ∧ node.val = c) ∧ ∀ node ∈ items, node.val ≤ c := by
  have key : ∀ (xs seen : List (HashmapNode Digram Int)) (init : Option (Digram × Int)),
      ((seen = [] ∧ init = none) ∨ ∃ d c, init = some (d, c) ∧
        (∃ node ∈ seen, node.key = d ∧ node.val = c) ∧ ∀ node ∈ seen, node.val ≤ c) →
      ((seen ++ xs = [] ∧ xs.foldl
        (fun res item =>
          match res with
          | none => some (item.key, item.val)
          | some (_, res_count) =>
            if item.val > res_count then some (item.key, item.val) else res) init = none) ∨
        ∃ d c, xs.foldl
          (fun res item =>
            match res with
            | none => some (item.key, item.val)
            | some (_, res_count) =>
              if item.val > res_count then some (item.key, item.val) else res) init = some (d, c) ∧
          (∃ node ∈ seen ++ xs, node.key = d ∧ node.val = c) ∧
          ∀ node ∈ seen ++ xs, node.val ≤ c) := by
    intro xs
    induction xs with
    | nil =>
      intro seen init h
      rw [List.append_nil]
      exact h
    | cons x xs ih =>
      intro seen init h
      have e1 : seen ++ x :: xs = (seen ++ [x]) ++ xs := by simp
      rw [e1, List.foldl_cons]
      apply ih
      right
      rcases h with ⟨hs, hi⟩ | ⟨n, c, hi, ⟨node, hm, hk, hv⟩, hall⟩
      · subst hs hi
        refine ⟨x.key, x.val, rfl, ⟨x, by simp, rfl, rfl⟩, ?_⟩
        intro node hnode
        simp only [List.nil_append, List.mem_singleton] at hnode
        rw [hnode]
      · subst hi
        by_cases hle : x.val > c
        · refine ⟨x.key, x.val, by simp only [if_pos hle], ⟨x, by simp, rfl, rfl⟩, ?_⟩
          intro nd hnd
          rcases List.mem_append.mp hnd with h1 | h1
          · exact Int.le_trans (hall nd h1) (Int.le_of_lt hle)
          · rw [List.mem_singleton.mp h1]
        · refine ⟨n, c, by simp only [if_neg hle], ⟨node, List.mem_append_left _ hm, hk, hv⟩, ?_⟩
          intro nd hnd
          rcases List.mem_append.mp hnd with h1 | h1
          · exact hall nd h1
          · rw [List.mem_singleton.mp h1]
            omega
  have := key items [] none (Or.inl ⟨rfl, rfl⟩)
  rw [List.nil_append] at this
  exact this

theorem should_continue_replacing_digram_spec (g : SLHRGrammar) (d : Digram) (c r0 r1 : Nat)
    (h0 : slhr_grammar_rank_of_rule g d.adj0.label = .ok (r0 : Int))
    (h1 : slhr_grammar_rank_of_rule g d.adj1.label = .ok (r1 : Int))
    (hb : (c + 1) * (r0 + r1 + 2) < 2 ^ 64) :
    should_continue_replacing_digram g d c = .ok
      (decide (c * (r0 + r1) + (r0 + r1 + 2) < c * (r0 + r1 + 2))) := by
  unfold should_continue_replacing_digram
  rw [h0, ok_bind, h1, ok_bind]
  have hmul : (c + 1) * (r0 + r1 + 2) = c * (r0 + r1) + 2 * c + (r0 + r1 + 2) := by ring
  have hmul2 : c * (r0 + r1 + 2) = c * (r0 + r1) + 2 * c := by ring
  have e1 : u64 ((c : Int) * ((r0 : Int) + (r1 : Int)) + ((r0 : Int) + (r1 : Int) + 2)) =
      c * (r0 + r1) + (r0 + r1 + 2) := by
    have : ((c : Int) * ((r0 : Int) + (r1 : Int)) + ((r0 : Int) + (r1 : Int) + 2)) =
        ((c * (r0 + r1) + (r0 + r1 + 2) : Nat) : Int) := by
      push_cast
      ring
    rw [this, Wire.u64_ofNat _ (by omega)]
  have e2 : u64 ((c : Int) * ((r0 : Int) + (r1 : Int) + 2)) = c * (r0 + r1 + 2) := by
    have : ((c : Int) * ((r0 : Int) + (r1 : Int) + 2)) = ((c * (r0 + r1 + 2) : Nat) : Int) := by
      push_cast
      ring
    rw [this, Wire.u64_ofNat _ (by omega)]
  simp only [pure_eq_ok]
  rw [e1, e2]

/-- C32, as stated, fails: on `chainGraph 6 5` with `max_rank = 12` the pass
ends, `repair_digram_to_replace` returning false, while the count table still
holds the digram of the terminals 5 and 4 with the count 5, which respects
`max_rank` and satisfies the inequality (38 < 40): the function looks only at
the most frequent digram, which then has the count 6 and ranks 7 and 3 and
fails the inequality (72 < 72). -/
theorem repair_digram_to_replace_counterexample :
    (do
      let gr := slhr_grammar_init (chainGraph 6 5) 6
      let adj_dict ← repair_create_node_adjacency_dict gr.start_symbol 79
      let digram_count ← repair_count_digrams adj_dict
      let st ← replace_digrams_loop 12 100
        { g := gr, adj_dict := adj_dict, digram_count := digram_count }
      let r ← repair_digram_to_replace st.g st.digram_count
      let ok ← should_continue_replacing_digram st.g ⟨⟨5, 0⟩, ⟨4, 2⟩⟩ 5
      let over ← digram_over_max_rank st.g 12 ⟨⟨5, 0⟩, ⟨4, 2⟩⟩
      pure (r, (hashmap_items st.digram_count).map
        (fun (n : HashmapNode Digram Int) => (n.key, n.val)), ok, over)) =
    (.ok (none, [(⟨⟨5, 0⟩, ⟨4, 2⟩⟩, 5), (⟨⟨7, 6⟩, ⟨3, 0⟩⟩, 6)], true, false) :
      Except Err (Option Digram × List (Digram × Int) × Bool × Bool)) ∧
    5 * (3 + 3) + (3 + 3 + 2) < 5 * (3 + 3 + 2) ∧ ¬ (6 * (7 + 3) + (7 + 3 + 2) < 6 * (7 + 3 + 2)) := by
  decide!

/-- C32, amended (`repair_digram_to_replace`,
`should_continue_replacing_digram`, `repair_replace_digrams`):
`repair_digram_to_replace` looks at one digram only, an entry of the greatest
count `c` among all digrams of the count table, and returns it exactly when
`should_continue_replacing_digram` holds for it, which without overflow is
`c * (rank_a + rank_b) + (rank_a + rank_b + 2) < c * (rank_a + rank_b + 2)`;
it does not look at `max_rank`.  When the table is empty or the test fails it
returns false and the pass ends there. -/
theorem repair_digram_to_replace_greatest (g : SLHRGrammar) (dc : Hashmap Digram Int) :
    ((hashmap_items dc = [] ∧ repair_digram_to_replace g dc = .ok none) ∨
     ∃ d c, (∃ node ∈ hashmap_items dc, node.key = d ∧ node.val = c) ∧
      (∀ node ∈ hashmap_items dc, node.val ≤ c) ∧
      repair_digram_to_replace g dc =
        (do
          let b ← should_continue_replacing_digram g d c
          pure (if b then some d else none)) ∧
      ∀ n r0 r1 : Nat, c = (n : Int) →
        slhr_grammar_rank_of_rule g d.adj0.label = .ok (r0 : Int) →
        slhr_grammar_rank_of_rule g d.adj1.label = .ok (r1 : Int) →
        (n + 1) * (r0 + r1 + 2) < 2 ^ 64 →
        should_continue_replacing_digram g d c = .ok
          (decide (n * (r0 + r1) + (r0 + r1 + 2) < n * (r0 + r1 + 2)))) ∧
    ∀ max_rank fuel st, st.g = g → st.digram_count = dc →
      repair_digram_to_replace g dc = .ok none →
      replace_digrams_loop max_rank (fuel + 1) st = .ok st := by
  constructor
  · rcases repair_digram_max_spec (hashmap_items dc) with ⟨h1, h2⟩ | ⟨d, c, h1, h2, h3⟩
    · left
      refine ⟨h1, ?_⟩
      unfold repair_digram_to_replace
      rw [h2]
      rfl
    · right
      refine ⟨d, c, h2, h3, ?_, ?_⟩
      · unfold repair_digram_to_replace
        rw [h1]
        simp only
        cases should_continue_replacing_digram g d c with
        | error e => rfl
        | ok b => cases b <;> rfl
      · intro n r0 r1 hc h0 h1 hb
        rw [hc]
        exact should_continue_replacing_digram_spec g d n r0 r1 h0 h1 hb
  · intro max_rank fuel st hg hdc h
    unfold replace_digrams_loop
    rw [hg, hdc, h]
    rfl

theorem repair_digram_to_replace_greatest_witness :
    ((hashmap_items oneDigramTable = [] ∧
      repair_digram_to_replace usedFourGrammar oneDigramTable = .ok none) ∨
     ∃ d c, (∃ node ∈ hashmap_items oneDigramTable,
        node.key = d ∧ node.val = c) ∧
      (∀ node ∈ hashmap_items oneDigramTable, node.val ≤ c) ∧
      repair_digram_to_replace usedFourGrammar oneDigramTable =
        (do
          let b ← should_continue_replacing_digram usedFourGrammar d c
          pure (if b then some d else none)) ∧
      ∀ n r0 r1 : Nat, c = (n : Int) →
        slhr_grammar_rank_of_rule usedFourGrammar d.adj0.label = .ok (r0 : Int) →
        slhr_grammar_rank_of_rule usedFourGrammar d.adj1.label = .ok (r1 : Int) →
        (n + 1) * (r0 + r1 + 2) < 2 ^ 64 →
        should_continue_replacing_digram usedFourGrammar d c = .ok
          (decide (n * (r0 + r1) + (r0 + r1 + 2) < n * (r0 + r1 + 2)))) ∧
    ∀ max_rank fuel (st : ReplaceState), st.g = usedFourGrammar →
      st.digram_count = oneDigramTable →
      repair_digram_to_replace usedFourGrammar oneDigramTable = .ok none →
      replace_digrams_loop max_rank (fuel + 1) st = .ok st :=
  repair_digram_to_replace_greatest usedFourGrammar oneDigramTable
namespace Collections

theorem entry_count_keys {K V : Type} (e : TreemapEntry K V) :
    entry_count e = (entry_keys e).length := by
  induction e with
  | null => rfl
  | node l k v c w r ihl ihr => simp [entry_count, entry_keys, ihl, ihr]; omega

theorem mapentry_up_keys {K V : Type} (f : TreemapFrame K V) (e : TreemapEntry K V) :
    entry_keys (mapentry_up f e) =
      (if f.dir then entry_keys f.other ++ [f.key] else []) ++ entry_keys e ++
        (if f.dir then [] else f.key :: entry_keys f.other) := by
  unfold mapentry_up
  cases f.dir <;> simp [entry_keys]

theorem plug_keys {K V : Type} (fs : List (TreemapFrame K V)) (e : TreemapEntry K V) :
    entry_keys (plug fs e) = frames_left fs ++ entry_keys e ++ frames_right fs := by
  induction fs generalizing e with
  | nil => simp [plug, frames_left, frames_right]
  | cons f fs ih =>
    simp only [plug, ih, mapentry_up_keys, frames_left, frames_right, List.append_assoc]

theorem mapentry_up_count {K V : Type} (f : TreemapFrame K V) (e : TreemapEntry K V) :
    entry_count (mapentry_up f e) = entry_count e + 1 + entry_count f.other := by
  unfold mapentry_up
  cases f.dir
  · simp [entry_count]
  · simp [entry_count]; omega

theorem mapentry_up_weights {K V : Type} (f : TreemapFrame K V) (e : TreemapEntry K V) :
    WeightsOk (mapentry_up f e) ↔
      (f.weight = entry_count e + 1 + entry_count f.other ∧ WeightsOk f.other ∧ WeightsOk e) := by
  unfold mapentry_up
  cases f.dir
  · simp only [WeightsOk, Bool.false_eq_true, if_false]
    constructor
    · rintro ⟨h1, h2, h3⟩; exact ⟨h1, h3, h2⟩
    · rintro ⟨h1, h2, h3⟩; exact ⟨h1, h3, h2⟩
  · simp only [WeightsOk, if_true]
    constructor
    · rintro ⟨h1, h2, h3⟩; exact ⟨by omega, h2, h3⟩
    · rintro ⟨h1, h2, h3⟩; exact ⟨by omega, h2, h3⟩

theorem plug_weights {K V : Type} (fs : List (TreemapFrame K V)) (e : TreemapEntry K V) :
    WeightsOk (plug fs e) ↔ (WeightsOk e ∧ FramesOk (entry_count e) fs) := by
  induction fs generalizing e with
  | nil => simp [plug, FramesOk]
  | cons f fs ih =>
    simp only [plug, ih, mapentry_up_weights, FramesOk, mapentry_up_count]
    constructor
    · rintro ⟨⟨h1, h2, h3⟩, h4⟩
      exact ⟨h3, h1, h2, by rw [h1]; exact h4⟩
    · rintro ⟨h3, h1, h2, h4⟩
      exact ⟨⟨h1, h2, h3⟩, by rw [← h1]; exact h4⟩

theorem plug_count_le {K V : Type} (fs : List (TreemapFrame K V)) (e : TreemapEntry K V) :
    entry_count e ≤ entry_count (plug fs e) := by
  induction fs generalizing e with
  | nil => simp [plug]
  | cons f fs ih =>
    have := ih (mapentry_up f e)
    rw [mapentry_up_count] at this
    simp only [plug]; omega

theorem frames_weight_le {K V : Type} (fs : List (TreemapFrame K V)) (e : TreemapEntry K V)
    (h : FramesOk (entry_count e) fs) : ∀ f ∈ fs, f.weight ≤ entry_count (plug fs e) := by
  induction fs generalizing e with
  | nil => simp
  | cons f fs ih =>
    obtain ⟨h1, h2, h3⟩ := h
    have hc : entry_count (mapentry_up f e) = f.weight := by rw [mapentry_up_count, h1]
    intro g hg
    simp only [plug]
    rcases List.mem_cons.1 hg with rfl | hg
    · rw [← hc]; exact plug_count_le _ _
    · exact ih (mapentry_up f e) (by rw [hc]; exact h3) g hg

/-- A replaced subtree with the same keys and right weights keeps the tree. -/
theorem plug_replace {K V : Type} (fs : List (TreemapFrame K V)) (a b : TreemapEntry K V)
    (hk : entry_keys b = entry_keys a) (hw : WeightsOk b) (h : PtrOk fs a) :
    PtrOk fs b ∧ entry_keys (plug fs b) = entry_keys (plug fs a) := by
  have hc : entry_count b = entry_count a := by rw [entry_count_keys, entry_count_keys, hk]
  obtain ⟨h1, h2⟩ := h
  rw [plug_weights] at h1
  refine ⟨⟨?_, ?_⟩, ?_⟩
  · rw [plug_weights, hc]; exact ⟨hw, h1.2⟩
  · rw [entry_count_keys, plug_keys, hk, ← plug_keys, ← entry_count_keys]; exact h2
  · rw [plug_keys, plug_keys, hk]

theorem bmod_weight (x : Nat) (h : x < 9223372036854775808) :
    Int.bmod (x : Int) 18446744073709551616 = x := by
  rw [Int.bmod_def]
  simp only [show ((18446744073709551616 : Nat) : Int) = 18446744073709551616 from rfl]
  have h1 : (x : Int) % 18446744073709551616 = x := Int.emod_eq_of_lt (by omega) (by omega)
  rw [h1, if_pos (by omega)]

theorem weight_of_count {K V : Type} (e : TreemapEntry K V) (hw : WeightsOk e)
    (hb : entry_count e < 9223372036854775808) : WEIGHT_OF e = entry_count e := by
  cases e with
  | null => rfl
  | node l k v c w r =>
    obtain ⟨h1, -, -⟩ := hw
    simp only [WEIGHT_OF, entry_count] at *
    rw [bmod_weight w (by omega), h1]

theorem ssize_t_val_ok (x : Int) (h1 : -9223372036854775808 ≤ x) (h2 : x < 9223372036854775808) :
    ssize_t_val x = .ok x := by
  unfold ssize_t_val
  rw [if_pos ⟨h1, h2⟩]; rfl

theorem weight_add_eq (w : Nat) (d : Int) (n : Nat) (h : (w : Int) + d = n)
    (hn : n < 18446744073709551616) : weight_add w d = n := by
  unfold weight_add u64
  rw [h, Int.emod_eq_of_lt (by omega) (by omega)]
  simp

theorem weight_add_add (w : Nat) (a b : Int) :
    weight_add (weight_add w a) b = weight_add w (a + b) := by
  unfold weight_add u64
  rw [Int.toNat_of_nonneg (Int.emod_nonneg _ (by decide)), Int.emod_add_emod, add_assoc]

theorem frames_update_weight_add {K V : Type} (fs : List (TreemapFrame K V)) (a b : Int) :
    frames_update_weight (frames_update_weight fs a) b = frames_update_weight fs (a + b) := by
  unfold frames_update_weight
  rw [List.map_map]
  apply List.map_congr_left
  intro f _
  simp [weight_add_add]

theorem frames_update_weight_zero {K V : Type} (fs : List (TreemapFrame K V))
    (h : ∀ f ∈ fs, f.weight < 18446744073709551616) : frames_update_weight fs 0 = fs := by
  unfold frames_update_weight
  conv_rhs => rw [← List.map_id fs]
  apply List.map_congr_left
  intro f hf
  have := weight_add_eq f.weight 0 f.weight (by simp) (h f hf)
  simp [this]

theorem ptr_ok_parts {K V : Type} (fs : List (TreemapFrame K V)) (x : TreemapEntry K V)
    (h : PtrOk fs x) :
    WeightsOk x ∧ FramesOk (entry_count x) fs ∧ entry_count x < 9223372036854775808 ∧
      ∀ f ∈ fs, f.weight < 9223372036854775808 := by
  obtain ⟨h1, h2⟩ := h
  rw [plug_weights] at h1
  refine ⟨h1.1, h1.2, ?_, ?_⟩
  · have := plug_count_le fs x; omega
  · intro f hf
    have := frames_weight_le fs x h1.2 f hf; omega

end Collections
namespace Collections

theorem frames_update_three {K V : Type} (fs : List (TreemapFrame K V)) (a b c : Int)
    (h : ∀ f ∈ fs, f.weight < 9223372036854775808) (hs : a + b + c = 0) :
    frames_update_weight (frames_update_weight (frames_update_weight fs a) b) c = fs := by
  rw [frames_update_weight_add, frames_update_weight_add, ← add_assoc, hs]
  exact frames_update_weight_zero fs (fun f hf => by have := h f hf; omega)

theorem mapentry_rotate_left_spec {K V : Type} (fs : List (TreemapFrame K V))
    (pl : TreemapEntry K V) (pk : K) (pv : V) (pc : Bool) (pw : Nat)
    (rl : TreemapEntry K V) (rk : K) (rv : V) (rc : Bool) (rw : Nat) (rr : TreemapEntry K V)
    (h : PtrOk fs (.node pl pk pv pc pw (.node rl rk rv rc rw rr))) :
    mapentry_rotate_left fs (.node pl pk pv pc pw (.node rl rk rv rc rw rr)) =
        .ok (fs, .node (.node pl pk pv pc (entry_count pl + 1 + entry_count rl) rl) rk rv rc pw rr) ∧
      PtrOk fs (.node (.node pl pk pv pc (entry_count pl + 1 + entry_count rl) rl) rk rv rc pw rr) ∧
      entry_keys (plug fs
          (.node (.node pl pk pv pc (entry_count pl + 1 + entry_count rl) rl) rk rv rc pw rr)) =
        entry_keys (plug fs (.node pl pk pv pc pw (.node rl rk rv rc rw rr))) := by
  obtain ⟨hw, hf, hb, hfb⟩ := ptr_ok_parts _ _ h
  obtain ⟨hpw, hwl, hrw, hwrl, hwrr⟩ := hw
  simp only [entry_count] at hpw hrw hb
  have hW : WeightsOk (TreemapEntry.node (.node pl pk pv pc (entry_count pl + 1 + entry_count rl) rl)
      rk rv rc pw rr) := by
    refine ⟨?_, ⟨rfl, hwl, hwrl⟩, hwrr⟩
    simp only [entry_count]; omega
  have hrep := plug_replace fs _ _ (by simp [entry_keys]) hW h
  refine ⟨?_, hrep.1, hrep.2⟩
  have hcrl : entry_count rl < 9223372036854775808 := by omega
  have hrwb : rw < 9223372036854775808 := by omega
  have hp1b : entry_count pl + 1 + entry_count rl < 9223372036854775808 := by omega
  have a1 : (pw : Int) + ((entry_count rl : Int) - rw) =
      ((entry_count pl + 1 + entry_count rl : Nat) : Int) := by push_cast; omega
  have a2 : (rw : Int) + (((entry_count pl + 1 + entry_count rl : Nat) : Int) - entry_count rl) =
      (pw : Int) := by push_cast; omega
  have hpwb : pw < 18446744073709551616 := by omega
  have b1 : -9223372036854775808 ≤ (entry_count rl : Int) - rw ∧
      (entry_count rl : Int) - rw < 9223372036854775808 := by omega
  have b2 : -9223372036854775808 ≤ (rw : Int) - ((entry_count pl + 1 + entry_count rl : Nat) : Int) ∧
      (rw : Int) - ((entry_count pl + 1 + entry_count rl : Nat) : Int) < 9223372036854775808 := by
    push_cast; omega
  have b3 : -9223372036854775808 ≤
      ((entry_count pl + 1 + entry_count rl : Nat) : Int) - (entry_count rl : Int) ∧
      ((entry_count pl + 1 + entry_count rl : Nat) : Int) - (entry_count rl : Int) <
        9223372036854775808 := by
    push_cast; omega
  have hsum : ((entry_count rl : Int) - rw) +
      ((rw : Int) - ((entry_count pl + 1 + entry_count rl : Nat) : Int)) +
      (((entry_count pl + 1 + entry_count rl : Nat) : Int) - (entry_count rl : Int)) = 0 := by
    push_cast; omega
  have e1 : WEIGHT_OF rl = entry_count rl := weight_of_count rl hwrl hcrl
  have e2 : WEIGHT_OF (TreemapEntry.node rl rk rv rc rw rr) = rw := by
    simp only [WEIGHT_OF]; exact bmod_weight rw hrwb
  have w1 : weight_add pw ((entry_count rl : Int) - rw) = entry_count pl + 1 + entry_count rl :=
    weight_add_eq _ _ _ a1 (by omega)
  have e3 : WEIGHT_OF (TreemapEntry.node pl pk pv pc (entry_count pl + 1 + entry_count rl) rl) =
      ((entry_count pl + 1 + entry_count rl : Nat) : Int) := by
    simp only [WEIGHT_OF]; exact bmod_weight _ hp1b
  have w2 : weight_add rw (((entry_count pl + 1 + entry_count rl : Nat) : Int) - entry_count rl) = pw :=
    weight_add_eq _ _ _ a2 hpwb
  have hmid : mapentry_replace_child (frames_update_weight fs ((entry_count rl : Int) - rw))
      (TreemapEntry.node pl pk pv pc (entry_count pl + 1 + entry_count rl) rl)
      (TreemapEntry.node rl rk rv rc rw rr) =
      .ok (frames_update_weight (frames_update_weight fs ((entry_count rl : Int) - rw))
        ((rw : Int) - ((entry_count pl + 1 + entry_count rl : Nat) : Int))) := by
    unfold mapentry_replace_child
    rw [e2, e3]
    cases hfs : frames_update_weight fs ((entry_count rl : Int) - rw) with
    | nil => rfl
    | cons g rest => simp only []; rw [ssize_t_val_ok _ b2.1 b2.2, ok_bind]; rfl
  have hun : mapentry_rotate_left fs (.node pl pk pv pc pw (.node rl rk rv rc rw rr)) =
      (ssize_t_val (WEIGHT_OF rl - WEIGHT_OF (TreemapEntry.node rl rk rv rc rw rr)) >>= fun delta =>
        mapentry_replace_child (frames_update_weight fs delta)
          (TreemapEntry.node pl pk pv pc (weight_add pw delta) rl)
          (TreemapEntry.node rl rk rv rc rw rr) >>= fun fs1 =>
        ssize_t_val (WEIGHT_OF (TreemapEntry.node pl pk pv pc (weight_add pw delta) rl) -
          WEIGHT_OF rl) >>= fun d3 =>
        pure (frames_update_weight fs1 d3,
          TreemapEntry.node (.node pl pk pv pc (weight_add pw delta) rl) rk rv rc
            (weight_add rw d3) rr)) := rfl
  rw [hun, e1, e2, ssize_t_val_ok _ b1.1 b1.2, ok_bind, w1, e3, hmid, ok_bind,
    ssize_t_val_ok _ b3.1 b3.2, ok_bind, w2, frames_update_three fs _ _ _ hfb hsum]
  rfl

theorem mapentry_rotate_right_spec {K V : Type} (fs : List (TreemapFrame K V))
    (ll : TreemapEntry K V) (lk : K) (lv : V) (lc : Bool) (lw : Nat) (lr : TreemapEntry K V)
    (pk : K) (pv : V) (pc : Bool) (pw : Nat) (pr : TreemapEntry K V)
    (h : PtrOk fs (.node (.node ll lk lv lc lw lr) pk pv pc pw pr)) :
    mapentry_rotate_right fs (.node (.node ll lk lv lc lw lr) pk pv pc pw pr) =
        .ok (fs, .node ll lk lv lc pw (.node lr pk pv pc (entry_count lr + 1 + entry_count pr) pr)) ∧
      PtrOk fs (.node ll lk lv lc pw (.node lr pk pv pc (entry_count lr + 1 + entry_count pr) pr)) ∧
      entry_keys (plug fs
          (.node ll lk lv lc pw (.node lr pk pv pc (entry_count lr + 1 + entry_count pr) pr))) =
        entry_keys (plug fs (.node (.node ll lk lv lc lw lr) pk pv pc pw pr)) := by
  obtain ⟨hw, hf, hb, hfb⟩ := ptr_ok_parts _ _ h
  obtain ⟨hpw, ⟨hlw, hwll, hwlr⟩, hwpr⟩ := hw
  simp only [entry_count] at hpw hlw hb
  have hW : WeightsOk (TreemapEntry.node ll lk lv lc pw
      (.node lr pk pv pc (entry_count lr + 1 + entry_count pr) pr)) := by
    refine ⟨?_, hwll, ⟨rfl, hwlr, hwpr⟩⟩
    simp only [entry_count]; omega
  have hrep := plug_replace fs _ _ (by simp [entry_keys]) hW h
  refine ⟨?_, hrep.1, hrep.2⟩
  have hclr : entry_count lr < 9223372036854775808 := by omega
  have hlwb : lw < 9223372036854775808 := by omega
  have hp1b : entry_count lr + 1 + entry_count pr < 9223372036854775808 := by omega
  have a1 : (pw : Int) + ((entry_count lr : Int) - lw) =
      ((entry_count lr + 1 + entry_count pr : Nat) : Int) := by push_cast; omega
  have a2 : (lw : Int) + (((entry_count lr + 1 + entry_count pr : Nat) : Int) - entry_count lr) =
      (pw : Int) := by push_cast; omega
  have hpwb : pw < 18446744073709551616 := by omega
  have b1 : -9223372036854775808 ≤ (entry_count lr : Int) - lw ∧
      (entry_count lr : Int) - lw < 9223372036854775808 := by omega
  have b2 : -9223372036854775808 ≤ (lw : Int) - ((entry_count lr + 1 + entry_count pr : Nat) : Int) ∧
      (lw : Int) - ((entry_count lr + 1 + entry_count pr : Nat) : Int) < 9223372036854775808 := by
    push_cast; omega
  have b3 : -9223372036854775808 ≤
      ((entry_count lr + 1 + entry_count pr : Nat) : Int) - (entry_count lr : Int) ∧
      ((entry_count lr + 1 + entry_count pr : Nat) : Int) - (entry_count lr : Int) <
        9223372036854775808 := by
    push_cast; omega
  have hsum : ((entry_count lr : Int) - lw) +
      ((lw : Int) - ((entry_count lr + 1 + entry_count pr : Nat) : Int)) +
      (((entry_count lr + 1 + entry_count pr : Nat) : Int) - (entry_count lr : Int)) = 0 := by
    push_cast; omega
  have e1 : WEIGHT_OF lr = entry_count lr := weight_of_count lr hwlr hclr
  have e2 : WEIGHT_OF (TreemapEntry.node ll lk lv lc lw lr) = lw := by
    simp only [WEIGHT_OF]; exact bmod_weight lw hlwb
  have w1 : weight_add pw ((entry_count lr : Int) - lw) = entry_count lr + 1 + entry_count pr :=
    weight_add_eq _ _ _ a1 (by omega)
  have e3 : WEIGHT_OF (TreemapEntry.node lr pk pv pc (entry_count lr + 1 + entry_count pr) pr) =
      ((entry_count lr + 1 + entry_count pr : Nat) : Int) := by
    simp only [WEIGHT_OF]; exact bmod_weight _ hp1b
  have w2 : weight_add lw (((entry_count lr + 1 + entry_count pr : Nat) : Int) - entry_count lr) = pw :=
    weight_add_eq _ _ _ a2 hpwb
  have hmid : mapentry_replace_child (frames_update_weight fs ((entry_count lr : Int) - lw))
      (TreemapEntry.node lr pk pv pc (entry_count lr + 1 + entry_count pr) pr)
      (TreemapEntry.node ll lk lv lc lw lr) =
      .ok (frames_update_weight (frames_update_weight fs ((entry_count lr : Int) - lw))
        ((lw : Int) - ((entry_count lr + 1 + entry_count pr : Nat) : Int))) := by
    unfold mapentry_replace_child
    rw [e2, e3]
    cases hfs : frames_update_weight fs ((entry_count lr : Int) - lw) with
    | nil => rfl
    | cons g rest => simp only []; rw [ssize_t_val_ok _ b2.1 b2.2, ok_bind]; rfl
  have hun : mapentry_rotate_right fs (.node (.node ll lk lv lc lw lr) pk pv pc pw pr) =
      (ssize_t_val (WEIGHT_OF lr - WEIGHT_OF (TreemapEntry.node ll lk lv lc lw lr)) >>= fun delta =>
        mapentry_replace_child (frames_update_weight fs delta)
          (TreemapEntry.node lr pk pv pc (weight_add pw delta) pr)
          (TreemapEntry.node ll lk lv lc lw lr) >>= fun fs1 =>
        ssize_t_val (WEIGHT_OF (TreemapEntry.node lr pk pv pc (weight_add pw delta) pr) -
          WEIGHT_OF lr) >>= fun d3 =>
        pure (frames_update_weight fs1 d3,
          TreemapEntry.node ll lk lv lc (weight_add lw d3)
            (.node lr pk pv pc (weight_add pw delta) pr))) := rfl
  rw [hun, e1, e2, ssize_t_val_ok _ b1.1 b1.2, ok_bind, w1, e3, hmid, ok_bind,
    ssize_t_val_ok _ b3.1 b3.2, ok_bind, w2, frames_update_three fs _ _ _ hfb hsum]
  rfl

end Collections
namespace Collections

theorem set_color_keys {K V : Type} (y : TreemapEntry K V) (c : Bool) :
    entry_keys (SET_COLOR y c) = entry_keys y := by
  cases y <;> rfl

theorem set_color_weights {K V : Type} (y : TreemapEntry K V) (c : Bool) :
    WeightsOk (SET_COLOR y c) ↔ WeightsOk y := by
  cases y <;> exact Iff.rfl

theorem set_color_count {K V : Type} (y : TreemapEntry K V) (c : Bool) :
    entry_count (SET_COLOR y c) = entry_count y := by
  cases y <;> rfl

theorem fix_loop_black {K V : Type} (n : Nat) (f : TreemapFrame K V)
    (rest : List (TreemapFrame K V)) (x : TreemapEntry K V) (hc : f.color = BLACK) :
    treemap_fix_after_insert_loop (n + 1) (f :: rest) x = .ok (f :: rest, x) := by
  cases x with
  | null => rfl
  | node xl xk xv xc xw xr =>
    simp only [treemap_fix_after_insert_loop, hc, BLACK, RED]
    simp

theorem ptr_ok_node_keys {K V : Type} (fs : List (TreemapFrame K V)) (x : TreemapEntry K V)
    (hx : x ≠ .null) : entry_keys (plug fs x) ≠ [] := by
  rw [plug_keys]
  cases x with
  | null => exact absurd rfl hx
  | node l k v c w r => simp [entry_keys]

theorem fix_loop_spec {K V : Type} : ∀ (fuel : Nat) (fs : List (TreemapFrame K V))
    (x : TreemapEntry K V), fs.length < fuel → x ≠ .null → PtrOk fs x →
    ∃ fs1 x1, treemap_fix_after_insert_loop fuel fs x = .ok (fs1, x1) ∧ PtrOk fs1 x1 ∧
      entry_keys (plug fs1 x1) = entry_keys (plug fs x) := by
  intro fuel
  induction fuel with
  | zero => intro fs x h; omega
  | succ n ih =>
    intro fs x hlen hx hok
    cases x with
    | null => exact absurd rfl hx
    | node xl xk xv xc xw xr =>
    cases fs with
    | nil => exact ⟨[], _, rfl, hok, rfl⟩
    | cons f0 fs1 =>
    obtain ⟨d0, k0, v0, c0, w0, o0⟩ := f0
    cases c0 with
    | true => exact ⟨_, _, fix_loop_black n _ fs1 _ rfl, hok, rfl⟩
    | false =>
    cases fs1 with
    | nil =>
      cases d0 with
      | false =>
        have hok1 : PtrOk ([] : List (TreemapFrame K V))
            (.node (.node xl xk xv xc xw xr) k0 v0 false w0 o0) := hok
        obtain ⟨r1, r2, r3⟩ := mapentry_rotate_right_spec _ _ _ _ _ _ _ _ _ _ _ _ hok1
        have hR : PtrOk ([] : List (TreemapFrame K V)) (.node xl xk xv xc w0
            (.node xr k0 v0 false (entry_count xr + 1 + entry_count o0) o0)) := r2
        have hG := plug_replace [] _ (TreemapEntry.node xl xk xv true w0
            (.node xr k0 v0 false (entry_count xr + 1 + entry_count o0) o0))
          (by simp [entry_keys])
          (by have := (ptr_ok_parts _ _ hR).1
              simpa [WeightsOk, entry_count] using this) hR
        simp only [treemap_fix_after_insert_loop, RED, mapentry_up]
        simp only [ne_eq, not_true_eq_false, if_false, if_true, Bool.false_eq_true]
        rw [r1]
        simp only [ok_bind, right_ptr, pure_eq_ok, set_color_parent, set_color_grandparent,
          BLACK, Bool.false_eq_true, if_false]
        obtain ⟨m, rfl⟩ : ∃ m, n = m + 1 := ⟨n - 1, by simp at hlen; omega⟩
        rw [fix_loop_black _ _ _ _ rfl]
        exact ⟨_, _, rfl, hG.1, hG.2.trans r3⟩
      | true =>
        have hR : PtrOk ([] : List (TreemapFrame K V))
            (.node o0 k0 v0 false w0 (.node xl xk xv xc xw xr)) := hok
        have hG := plug_replace [] _ (TreemapEntry.node o0 k0 v0 true w0
            (.node xl xk xv xc xw xr))
          (by simp [entry_keys])
          (by have := (ptr_ok_parts _ _ hR).1
              simpa [WeightsOk, entry_count] using this) hR
        simp only [treemap_fix_after_insert_loop, RED, mapentry_up]
        simp only [ne_eq, not_true_eq_false, if_false, if_true, Bool.false_eq_true]
        simp only [ok_bind, right_ptr, pure_eq_ok, set_color_parent, set_color_grandparent,
          BLACK, Bool.false_eq_true, if_false]
        obtain ⟨m, rfl⟩ : ∃ m, n = m + 1 := ⟨n - 1, by simp at hlen; omega⟩
        rw [fix_loop_black _ _ _ _ rfl]
        exact ⟨_, _, rfl, hG.1, hG.2⟩
    | cons f1 rest =>
      obtain ⟨d1, k1, v1, c1, w1, o1⟩ := f1
      by_cases hy : COLOR_OF o1 = RED
      · -- both the parent and its sibling are red: recolour and go on at the grandparent
        have hok1 : PtrOk rest (mapentry_up ⟨d1, k1, v1, c1, w1, o1⟩
            (mapentry_up ⟨d0, k0, v0, false, w0, o0⟩ (.node xl xk xv xc xw xr))) := hok
        have hG := plug_replace rest _ (mapentry_up ⟨d1, k1, v1, RED, w1, SET_COLOR o1 BLACK⟩
            (mapentry_up ⟨d0, k0, v0, BLACK, w0, o0⟩ (.node xl xk xv xc xw xr)))
          (by simp only [mapentry_up_keys, set_color_keys])
          (by have := (ptr_ok_parts _ _ hok1).1
              simpa only [mapentry_up_weights, mapentry_up_count, set_color_weights,
                set_color_count] using this) hok1
        obtain ⟨fs2, x2, e1, e2, e3⟩ := ih rest _ (by simp at hlen ⊢; omega)
          (by unfold mapentry_up; split <;> simp) hG.1
        refine ⟨fs2, x2, ?_, e2, e3.trans hG.2⟩
        rw [← e1]
        have hy1 : COLOR_OF o1 = false := hy
        cases d1 with
        | false =>
          simp only [treemap_fix_after_insert_loop, RED]
          simp only [ne_eq, not_true_eq_false, if_false, if_true]
          rw [if_pos hy1]
        | true =>
          simp only [treemap_fix_after_insert_loop, RED]
          simp only [ne_eq, not_true_eq_false, if_false, if_true, Bool.true_eq_false,
              Bool.false_eq_true]
          rw [if_pos hy1]
      · have hy1 : ¬ COLOR_OF o1 = false := hy
        cases d1 with
        | false =>
          cases d0 with
          | true =>
            have hok1 : PtrOk (⟨false, k1, v1, c1, w1, o1⟩ :: rest)
                (.node o0 k0 v0 false w0 (.node xl xk xv xc xw xr)) := hok
            obtain ⟨r1, r2, r3⟩ := mapentry_rotate_left_spec _ _ _ _ _ _ _ _ _ _ _ _ hok1
            simp only [treemap_fix_after_insert_loop, RED, mapentry_up]
            simp only [ne_eq, not_true_eq_false, if_false, if_true]
            rw [if_neg hy1, r1]
            simp only [ok_bind, left_ptr, pure_eq_ok, set_color_parent, set_color_grandparent,
              BLACK, Bool.false_eq_true, if_false]
            have hR : PtrOk rest (.node ((TreemapEntry.node o0 k0 v0 false
                (entry_count o0 + 1 + entry_count xl) xl).node xk xv xc w0 xr) k1 v1 c1 w1 o1) := r2
            have hG := plug_replace rest _ (((TreemapEntry.node o0 k0 v0 false
                (entry_count o0 + 1 + entry_count xl) xl).node xk xv true w0 xr).node k1 v1 false w1 o1)
              (by simp [entry_keys])
              (by have := (ptr_ok_parts _ _ hR).1
                  simpa [WeightsOk, entry_count] using this) hR
            obtain ⟨q1, q2, q3⟩ := mapentry_rotate_right_spec _ _ _ _ _ _ _ _ _ _ _ _ hG.1
            rw [q1]
            simp only [ok_bind]
            obtain ⟨m, rfl⟩ : ∃ m, n = m + 1 := ⟨n - 1, by simp at hlen; omega⟩
            rw [fix_loop_black _ _ _ _ rfl]
            exact ⟨_, _, rfl, q2, q3.trans (hG.2.trans r3)⟩
          | false =>
            have hR : PtrOk rest (.node (TreemapEntry.node (.node xl xk xv xc xw xr) k0 v0 false w0 o0)
                k1 v1 c1 w1 o1) := hok
            have hG := plug_replace rest _ ((TreemapEntry.node (.node xl xk xv xc xw xr) k0 v0 true w0
                o0).node k1 v1 false w1 o1)
              (by simp [entry_keys])
              (by have := (ptr_ok_parts _ _ hR).1
                  simpa [WeightsOk, entry_count] using this) hR
            obtain ⟨q1, q2, q3⟩ := mapentry_rotate_right_spec _ _ _ _ _ _ _ _ _ _ _ _ hG.1
            simp only [treemap_fix_after_insert_loop, RED, mapentry_up]
            simp only [ne_eq, not_true_eq_false, if_false, if_true]
            rw [if_neg hy1]
            simp only [ok_bind, left_ptr, pure_eq_ok, set_color_parent, set_color_grandparent,
              BLACK, Bool.false_eq_true, if_false]
            rw [q1]
            simp only [ok_bind]
            obtain ⟨m, rfl⟩ : ∃ m, n = m + 1 := ⟨n - 1, by simp at hlen; omega⟩
            rw [fix_loop_black _ _ _ _ rfl]
            exact ⟨_, _, rfl, q2, q3.trans hG.2⟩
        | true =>
          cases d0 with
          | false =>
            have hok1 : PtrOk (⟨true, k1, v1, c1, w1, o1⟩ :: rest)
                (.node (.node xl xk xv xc xw xr) k0 v0 false w0 o0) := hok
            obtain ⟨r1, r2, r3⟩ := mapentry_rotate_right_spec _ _ _ _ _ _ _ _ _ _ _ _ hok1
            simp only [treemap_fix_after_insert_loop, RED, mapentry_up]
            simp only [ne_eq, not_true_eq_false, if_false, if_true, Bool.true_eq_false,
              Bool.false_eq_true]
            rw [if_neg hy1, r1]
            simp only [ok_bind, right_ptr, pure_eq_ok, set_color_parent, set_color_grandparent,
              BLACK, Bool.false_eq_true, if_false, if_true]
            have hR : PtrOk rest (.node o1 k1 v1 c1 w1 (TreemapEntry.node xl xk xv xc w0
                (.node xr k0 v0 false (entry_count xr + 1 + entry_count o0) o0))) := r2
            have hG := plug_replace rest _ (TreemapEntry.node o1 k1 v1 false w1
                (TreemapEntry.node xl xk xv true w0
                  (.node xr k0 v0 false (entry_count xr + 1 + entry_count o0) o0)))
              (by simp [entry_keys])
              (by have := (ptr_ok_parts _ _ hR).1
                  simpa [WeightsOk, entry_count] using this) hR
            obtain ⟨q1, q2, q3⟩ := mapentry_rotate_left_spec _ _ _ _ _ _ _ _ _ _ _ _ hG.1
            rw [q1]
            simp only [ok_bind]
            obtain ⟨m, rfl⟩ : ∃ m, n = m + 1 := ⟨n - 1, by simp at hlen; omega⟩
            rw [fix_loop_black _ _ _ _ rfl]
            exact ⟨_, _, rfl, q2, q3.trans (hG.2.trans r3)⟩
          | true =>
            have hR : PtrOk rest (.node o1 k1 v1 c1 w1
                (TreemapEntry.node o0 k0 v0 false w0 (.node xl xk xv xc xw xr))) := hok
            have hG := plug_replace rest _ (TreemapEntry.node o1 k1 v1 false w1
                (TreemapEntry.node o0 k0 v0 true w0 (.node xl xk xv xc xw xr)))
              (by simp [entry_keys])
              (by have := (ptr_ok_parts _ _ hR).1
                  simpa [WeightsOk, entry_count] using this) hR
            obtain ⟨q1, q2, q3⟩ := mapentry_rotate_left_spec _ _ _ _ _ _ _ _ _ _ _ _ hG.1
            simp only [treemap_fix_after_insert_loop, RED, mapentry_up]
            simp only [ne_eq, not_true_eq_false, if_false, if_true, Bool.true_eq_false,
              Bool.false_eq_true]
            rw [if_neg hy1]
            simp only [ok_bind, right_ptr, pure_eq_ok, set_color_parent, set_color_grandparent,
              BLACK, Bool.false_eq_true, if_false, if_true]
            rw [q1]
            simp only [ok_bind]
            obtain ⟨m, rfl⟩ : ∃ m, n = m + 1 := ⟨n - 1, by simp at hlen; omega⟩
            rw [fix_loop_black _ _ _ _ rfl]
            exact ⟨_, _, rfl, q2, q3.trans hG.2⟩

end Collections
namespace Collections

theorem treemap_fix_after_insert_spec {K V : Type} (fs : List (TreemapFrame K V))
    (l : TreemapEntry K V) (k : K) (v : V) (c : Bool) (w : Nat) (r : TreemapEntry K V)
    (h : PtrOk fs (.node l k v c w r)) :
    ∃ root, treemap_fix_after_insert fs (.node l k v c w r) = .ok root ∧ root ≠ .null ∧
      WeightsOk root ∧ entry_count root < 9223372036854775808 ∧
      entry_keys root = entry_keys (plug fs (.node l k v c w r)) := by
  have hG := plug_replace fs _ (TreemapEntry.node l k v RED w r) (by simp [entry_keys])
    (by have := (ptr_ok_parts _ _ h).1
        simpa [WeightsOk, entry_count] using this) h
  obtain ⟨fs1, x1, e1, e2, e3⟩ := fix_loop_spec (fs.length + 2) fs _ (by omega) (by simp) hG.1
  have hne : entry_keys (plug fs1 x1) ≠ [] := by
    rw [e3]; exact ptr_ok_node_keys fs _ (by simp)
  unfold treemap_fix_after_insert
  simp only []
  rw [e1]
  simp only [ok_bind]
  cases hp : plug fs1 x1 with
  | null => rw [hp] at hne; exact absurd rfl hne
  | node a b c1 d e f =>
    refine ⟨_, rfl, by simp [SET_COLOR], ?_, ?_, ?_⟩
    · rw [set_color_weights, ← hp]; exact e2.1
    · rw [set_color_count, ← hp]; exact e2.2
    · rw [set_color_keys, ← hp, e3, hG.2]

theorem treemap_get_entry_spec {K V : Type} (cmp : K → K → Int)
    (hc : TotalOrderCmp cmp) (key : K) : ∀ (e : TreemapEntry K V) (fs : List (TreemapFrame K V)),
    plug (treemap_get_entry cmp key fs e).1 (treemap_get_entry cmp key fs e).2 = plug fs e ∧
      (∃ gs, (treemap_get_entry cmp key fs e).1 = gs ++ fs ∧
        ∀ f ∈ gs, (f.dir = true → cmp key f.key > 0) ∧ (f.dir = false → cmp key f.key < 0)) ∧
      ((treemap_get_entry cmp key fs e).2 = .null ∨
        ∃ l v c w r, (treemap_get_entry cmp key fs e).2 = .node l key v c w r) := by
  intro e
  induction e with
  | null => intro fs; exact ⟨rfl, ⟨[], rfl, by simp⟩, Or.inl rfl⟩
  | node l k v c w r ihl ihr =>
    intro fs
    unfold treemap_get_entry
    by_cases h1 : cmp key k < 0
    · rw [if_pos h1]
      obtain ⟨a1, ⟨gs, a2, a3⟩, a4⟩ := ihl (⟨false, k, v, c, w, r⟩ :: fs)
      refine ⟨a1, ⟨gs ++ [⟨false, k, v, c, w, r⟩], by rw [a2]; simp, ?_⟩, a4⟩
      intro f hf
      rcases List.mem_append.1 hf with hf | hf
      · exact a3 f hf
      · simp at hf; subst hf; simp [h1]
    · rw [if_neg h1]
      by_cases h2 : cmp key k > 0
      · rw [if_pos h2]
        obtain ⟨a1, ⟨gs, a2, a3⟩, a4⟩ := ihr (⟨true, k, v, c, w, l⟩ :: fs)
        refine ⟨a1, ⟨gs ++ [⟨true, k, v, c, w, l⟩], by rw [a2]; simp, ?_⟩, a4⟩
        intro f hf
        rcases List.mem_append.1 hf with hf | hf
        · exact a3 f hf
        · simp at hf; subst hf; simp [h2]
      · rw [if_neg h2]
        have : key = k := (hc.1 key k).1 (by omega)
        subst this
        exact ⟨rfl, ⟨[], rfl, by simp⟩, Or.inr ⟨l, v, c, w, r, rfl⟩⟩

theorem cmp_self {K : Type} (cmp : K → K → Int) (hc : TotalOrderCmp cmp) (a : K) :
    cmp a a = 0 := (hc.1 a a).2 rfl

theorem frames_left_lt {K V : Type} (cmp : K → K → Int) (hc : TotalOrderCmp cmp) (key : K)
    (fs : List (TreemapFrame K V))
    (hs : List.Pairwise (fun a b => cmp a b < 0) (frames_left fs))
    (hd : ∀ f ∈ fs, f.dir = true → cmp key f.key > 0) :
    ∀ a ∈ frames_left fs, cmp a key < 0 := by
  induction fs with
  | nil => simp [frames_left]
  | cons f fs ih =>
    simp only [frames_left] at hs ⊢
    rw [List.pairwise_append] at hs
    obtain ⟨h1, h2, h3⟩ := hs
    intro a ha
    rcases List.mem_append.1 ha with ha | ha
    · exact ih h1 (fun g hg => hd g (List.mem_cons_of_mem _ hg)) a ha
    · cases hdir : f.dir with
      | false => rw [hdir] at ha; simp at ha
      | true =>
        rw [hdir] at ha h2
        simp only [if_true] at ha h2
        have hk : cmp f.key key < 0 := (hc.2.1 f.key key).2 (hd f (List.mem_cons_self _ _) hdir)
        rcases List.mem_append.1 ha with ha | ha
        · rw [List.pairwise_append] at h2
          exact hc.2.2 a f.key key (h2.2.2 a ha f.key (by simp)) hk
        · simp at ha; subst ha; exact hk

theorem frames_right_gt {K V : Type} (cmp : K → K → Int) (hc : TotalOrderCmp cmp) (key : K)
    (fs : List (TreemapFrame K V))
    (hs : List.Pairwise (fun a b => cmp a b < 0) (frames_right fs))
    (hd : ∀ f ∈ fs, f.dir = false → cmp key f.key < 0) :
    ∀ a ∈ frames_right fs, cmp key a < 0 := by
  induction fs with
  | nil => simp [frames_right]
  | cons f fs ih =>
    simp only [frames_right] at hs ⊢
    rw [List.pairwise_append] at hs
    obtain ⟨h1, h2, h3⟩ := hs
    intro a ha
    rcases List.mem_append.1 ha with ha | ha
    · cases hdir : f.dir with
      | true => rw [hdir] at ha; simp at ha
      | false =>
        rw [hdir] at ha h1
        simp only [Bool.false_eq_true, if_false] at ha h1
        have hk : cmp key f.key < 0 := hd f (List.mem_cons_self _ _) hdir
        rcases List.mem_cons.1 ha with ha | ha
        · subst ha; exact hk
        · rw [List.pairwise_cons] at h1
          exact hc.2.2 key f.key a hk (h1.1 a ha)
    · exact ih h2 (fun g hg => hd g (List.mem_cons_of_mem _ hg)) a ha

end Collections
namespace Collections

theorem frames_update_left {K V : Type} (fs : List (TreemapFrame K V)) (d : Int) :
    frames_left (frames_update_weight fs d) = frames_left fs := by
  induction fs with
  | nil => rfl
  | cons f fs ih =>
    have : frames_update_weight (f :: fs) d =
        { f with weight := weight_add f.weight d } :: frames_update_weight fs d := rfl
    rw [this]
    simp only [frames_left]
    rw [ih]

theorem frames_update_right {K V : Type} (fs : List (TreemapFrame K V)) (d : Int) :
    frames_right (frames_update_weight fs d) = frames_right fs := by
  induction fs with
  | nil => rfl
  | cons f fs ih =>
    have : frames_update_weight (f :: fs) d =
        { f with weight := weight_add f.weight d } :: frames_update_weight fs d := rfl
    rw [this]
    simp only [frames_right]
    rw [ih]

theorem frames_ok_succ {K V : Type} (fs : List (TreemapFrame K V)) :
    ∀ n, FramesOk n fs → (∀ f ∈ fs, f.weight < 9223372036854775808) →
      FramesOk (n + 1) (frames_update_weight fs 1) := by
  induction fs with
  | nil => intro n _ _; trivial
  | cons f fs ih =>
    intro n h hb
    obtain ⟨h1, h2, h3⟩ := h
    have hfw := hb f (List.mem_cons_self _ _)
    have hw : weight_add f.weight 1 = f.weight + 1 :=
      weight_add_eq _ _ _ (by push_cast; rfl) (by omega)
    have : frames_update_weight (f :: fs) 1 =
        { f with weight := weight_add f.weight 1 } :: frames_update_weight fs 1 := rfl
    rw [this, hw]
    refine ⟨?_, h2, ih _ h3 (fun g hg => hb g (List.mem_cons_of_mem _ hg))⟩
    show f.weight + 1 = n + 1 + 1 + entry_count f.other
    omega

theorem pairwise_insert {α : Type} (r : α → α → Prop) (l1 l2 : List α) (x : α)
    (h : List.Pairwise r (l1 ++ l2)) (h1 : ∀ a ∈ l1, r a x) (h2 : ∀ b ∈ l2, r x b) :
    List.Pairwise r (l1 ++ x :: l2) := by
  rw [List.pairwise_append] at h ⊢
  refine ⟨h.1, List.pairwise_cons.2 ⟨h2, h.2.1⟩, ?_⟩
  intro a ha b hb
  rcases List.mem_cons.1 hb with hb | hb
  · subst hb; exact h1 a ha
  · exact h.2.2 a ha b hb

theorem treemap_put_spec {K V : Type} (cmp : K → K → Int) (hc : TotalOrderCmp cmp)
    (m : Treemap K V) (key : K) (val : V) (hw : WeightsOk m.root)
    (hs : List.Pairwise (fun a b => cmp a b < 0) (entry_keys m.root))
    (hb : entry_count m.root + 1 < 9223372036854775808) :
    ∃ code m1, treemap_put cmp m key val = .ok (code, m1) ∧ WeightsOk m1.root ∧
      List.Pairwise (fun a b => cmp a b < 0) (entry_keys m1.root) ∧
      (∀ a, a ∈ entry_keys m1.root ↔ (a = key ∨ a ∈ entry_keys m.root)) ∧
      entry_count m1.root ≤ entry_count m.root + 1 ∧
      (m.size = entry_count m.root → m1.size = entry_count m1.root) := by
  cases hroot : m.root with
  | null =>
    refine ⟨0, ⟨1, .node .null key val BLACK 1 .null⟩, ?_, ?_, ?_, ?_, ?_, ?_⟩
    · unfold treemap_put; rw [hroot]; rfl
    · exact ⟨rfl, trivial, trivial⟩
    · simp [entry_keys]
    · intro a; simp [entry_keys]
    · simp [entry_count]
    · intro _; rfl
  | node tl tk tv tc tw tr =>
    rw [hroot] at hw hs hb
    obtain ⟨a1, ⟨gs, a2, a3⟩, a4⟩ := treemap_get_entry_spec cmp hc key
      (TreemapEntry.node tl tk tv tc tw tr) []
    have hput : treemap_put cmp m key val =
        (match treemap_get_entry cmp key [] (TreemapEntry.node tl tk tv tc tw tr) with
        | (fs, .node l k _ c w r) =>
          pure (1, { m with root := plug fs (.node l k val c w r) })
        | (fs, .null) => do
          let (fs1, e) := mapentry_update_weight fs (.node .null key val BLACK 0 .null) 1
          let root ← treemap_fix_after_insert fs1 e
          pure (0, { size := u64 ((m.size : Int) + 1), root := root })) := by
      unfold treemap_put
      rw [hroot]
      try rfl
    rw [hput]
    generalize treemap_get_entry cmp key [] (TreemapEntry.node tl tk tv tc tw tr) = res at a1 a2 a3 a4
    obtain ⟨fs, e⟩ := res
    simp only [List.append_nil, plug] at a1 a2 a4
    subst a2
    rcases a4 with a4 | ⟨l, v, c, w, r, a4⟩
    · subst a4
      have hk0 : entry_keys (TreemapEntry.node tl tk tv tc tw tr) =
          frames_left fs ++ frames_right fs := by
        rw [← a1, plug_keys]; simp [entry_keys]
      rw [hk0] at hs
      have hL := frames_left_lt cmp hc key fs (List.pairwise_append.1 hs).1
        (fun f hf => (a3 f hf).1)
      have hR := frames_right_gt cmp hc key fs (List.pairwise_append.1 hs).2.1
        (fun f hf => (a3 f hf).2)
      have hok0 : PtrOk fs (TreemapEntry.null : TreemapEntry K V) := by
        refine ⟨by rw [a1]; exact hw, by rw [a1]; omega⟩
      obtain ⟨-, hf0, -, hfb⟩ := ptr_ok_parts _ _ hok0
      have hw1 : weight_add 0 1 = 1 := weight_add_eq _ _ _ (by rfl) (by decide)
      have hkeys : entry_keys (plug (frames_update_weight fs 1)
          (TreemapEntry.node .null key val BLACK 1 .null)) =
          frames_left fs ++ key :: frames_right fs := by
        rw [plug_keys, frames_update_left, frames_update_right]; simp [entry_keys]
      have hok1 : PtrOk (frames_update_weight fs 1)
          (TreemapEntry.node .null key val BLACK 1 .null) := by
        refine ⟨?_, ?_⟩
        · rw [plug_weights]
          exact ⟨⟨rfl, trivial, trivial⟩, frames_ok_succ fs 0 hf0 hfb⟩
        · rw [entry_count_keys, hkeys]
          rw [entry_count_keys, hk0] at hb
          simp at hb ⊢; omega
      obtain ⟨root, r1, r2, r3, r4, r5⟩ := treemap_fix_after_insert_spec _ _ _ _ _ _ _ hok1
      simp only [mapentry_update_weight, hw1]
      rw [r1]
      refine ⟨0, _, rfl, r3, ?_, ?_, ?_, ?_⟩
      · show List.Pairwise _ (entry_keys root)
        rw [r5, hkeys]
        exact pairwise_insert _ _ _ _ hs hL hR
      · intro a
        show a ∈ entry_keys root ↔ _
        rw [r5, hkeys, hk0]
        simp only [List.mem_append, List.mem_cons]
        tauto
      · show entry_count root ≤ _
        rw [entry_count_keys, r5, hkeys, entry_count_keys, hk0]
        simp; omega
      · intro hsz
        show u64 ((m.size : Int) + 1) = entry_count root
        rw [hsz]
        have e1 : entry_count root = entry_count (TreemapEntry.node tl tk tv tc tw tr) + 1 := by
          rw [entry_count_keys, r5, hkeys, entry_count_keys, hk0]
          simp; omega
        rw [e1]
        unfold u64
        rw [Int.emod_eq_of_lt (by omega) (by omega)]
        omega
    · subst a4
      have hok0 : PtrOk fs (TreemapEntry.node l key v c w r) := by
        refine ⟨by rw [a1]; exact hw, by rw [a1]; omega⟩
      have hG := plug_replace fs _ (TreemapEntry.node l key val c w r) (by simp [entry_keys])
        (by have := (ptr_ok_parts _ _ hok0).1
            simpa [WeightsOk, entry_count] using this) hok0
      rw [a1] at hG
      refine ⟨1, _, rfl, hG.1.1, ?_, ?_, ?_, ?_⟩
      · show List.Pairwise _ (entry_keys (plug fs _))
        rw [hG.2]; exact hs
      · intro a
        show a ∈ entry_keys (plug fs _) ↔ _
        rw [hG.2]
        have hmem : key ∈ entry_keys (TreemapEntry.node tl tk tv tc tw tr) := by
          rw [← a1, plug_keys]; simp [entry_keys]
        constructor
        · intro h; exact Or.inr h
        · rintro (h | h)
          · subst h; exact hmem
          · exact h
      · show entry_count (plug fs _) ≤ _
        rw [entry_count_keys, hG.2, ← entry_count_keys]; omega
      · intro hsz
        show m.size = entry_count (plug fs _)
        rw [entry_count_keys, hG.2, ← entry_count_keys, hsz]

end Collections
namespace Collections

theorem frames_ok_other {K V : Type} (B : Nat) (fs : List (TreemapFrame K V)) :
    ∀ n, FramesOk n fs → (∀ f ∈ fs, f.weight < B) →
      ∀ f ∈ fs, WeightsOk f.other ∧ entry_count f.other < B := by
  induction fs with
  | nil => intro n _ _ f hf; simp at hf
  | cons g fs ih =>
    intro n h hb f hf
    obtain ⟨h1, h2, h3⟩ := h
    rcases List.mem_cons.1 hf with rfl | hf
    · have := hb f (List.mem_cons_self _ _)
      exact ⟨h2, by omega⟩
    · exact ih _ h3 (fun a ha => hb a (List.mem_cons_of_mem _ ha)) f hf

theorem treemap_index_of_loop_spec {K V : Type} (cmp : K → K → Int) (key : K)
    (fs : List (TreemapFrame K V)) :
    ∀ (c : TreemapEntry K V) (index : Nat),
      (∀ f ∈ fs, (f.dir = true → cmp key f.key > 0) ∧ (f.dir = false → cmp key f.key < 0)) →
      (∀ f ∈ fs, WeightsOk f.other ∧ entry_count f.other < 9223372036854775808) →
      index + (frames_left fs).length < 9223372036854775808 →
      treemap_index_of_loop cmp key fs c index = .ok (index + (frames_left fs).length) := by
  induction fs with
  | nil => intro c index _ _ _; simp [treemap_index_of_loop, frames_left]
  | cons f fs ih =>
    intro c index hd hw hb
    have hfd := hd f (List.mem_cons_self _ _)
    have hfw := hw f (List.mem_cons_self _ _)
    simp only [frames_left, List.length_append] at hb ⊢
    unfold treemap_index_of_loop
    cases hdir : f.dir with
    | false =>
      have h1 : ¬ cmp key f.key > 0 := by have := hfd.2 hdir; omega
      rw [if_neg h1]
      rw [hdir] at hb
      simp only [Bool.false_eq_true, if_false, List.length_nil, Nat.add_zero] at hb ⊢
      exact ih _ _ (fun g hg => hd g (List.mem_cons_of_mem _ hg))
        (fun g hg => hw g (List.mem_cons_of_mem _ hg)) hb
    | true =>
      have h1 : cmp key f.key > 0 := hfd.1 hdir
      rw [if_pos h1]
      rw [hdir] at hb
      simp only [if_true, List.length_append, List.length_singleton, ← entry_count_keys] at hb ⊢
      rw [weight_of_count _ hfw.1 hfw.2, ssize_t_val_ok _ (by omega) (by omega), ok_bind]
      have hu : u64 ((index : Int) + ((entry_count f.other : Int) + 1)) =
          index + entry_count f.other + 1 := by
        have := weight_add_eq index ((entry_count f.other : Int) + 1)
          (index + entry_count f.other + 1) (by push_cast; omega) (by omega)
        exact this
      rw [hu, ih _ _ (fun g hg => hd g (List.mem_cons_of_mem _ hg))
        (fun g hg => hw g (List.mem_cons_of_mem _ hg)) (by omega)]
      congr 1; omega

theorem pairwise_filter_lt {K : Type} (cmp : K → K → Int) (hc : TotalOrderCmp cmp) (key : K)
    (l1 l2 : List K) (h : List.Pairwise (fun a b => cmp a b < 0) (l1 ++ key :: l2)) :
    (l1 ++ key :: l2).filter (fun a => decide (cmp a key < 0)) = l1 := by
  rw [List.pairwise_append] at h
  obtain ⟨-, h2, h3⟩ := h
  rw [List.pairwise_cons] at h2
  rw [List.filter_append]
  have e1 : l1.filter (fun a => decide (cmp a key < 0)) = l1 := by
    rw [List.filter_eq_self]
    intro a ha
    simpa using h3 a ha key (List.mem_cons_self _ _)
  have e2 : (key :: l2).filter (fun a => decide (cmp a key < 0)) = [] := by
    rw [List.filter_eq_nil_iff]
    intro a ha
    rcases List.mem_cons.1 ha with rfl | ha
    · simp [cmp_self cmp hc a]
    · have := (hc.2.1 key a).1 (h2.1 a ha)
      simp; omega
  rw [e1, e2, List.append_nil]

theorem treemap_index_of_spec {K V : Type} (cmp : K → K → Int) (hc : TotalOrderCmp cmp)
    (m : Treemap K V) (hw : WeightsOk m.root)
    (hs : List.Pairwise (fun a b => cmp a b < 0) (entry_keys m.root))
    (hb : entry_count m.root < 9223372036854775808) (key : K) :
    (key ∉ entry_keys m.root ∧ treemap_index_of cmp m key = .ok (-1)) ∨
    (key ∈ entry_keys m.root ∧
      treemap_index_of cmp m key =
        .ok (((entry_keys m.root).filter (fun a => decide (cmp a key < 0))).length : Int) ∧
      (entry_keys m.root)[((entry_keys m.root).filter
        (fun a => decide (cmp a key < 0))).length]? = some key) := by
  obtain ⟨a1, ⟨gs, a2, a3⟩, a4⟩ := treemap_get_entry_spec cmp hc key m.root []
  have hun : treemap_index_of cmp m key =
      (match treemap_get_entry cmp key [] m.root with
      | (_, .null) => pure (-1)
      | ([], .node l k v c w r) => do
        let a ← ssize_t_val (WEIGHT_OF (TreemapEntry.node l k v c w r) - WEIGHT_OF r)
        ssize_t_val (a - 1)
      | (f :: fs, .node l k v c w r) => do
        let index ← treemap_index_of_loop cmp key (f :: fs) (.node l k v c w r)
          (u64 (WEIGHT_OF l))
        pure (Int.bmod (index : Int) 18446744073709551616)) := rfl
  rw [hun]
  generalize treemap_get_entry cmp key [] m.root = res at a1 a2 a3 a4
  obtain ⟨fs, e⟩ := res
  simp only [List.append_nil, plug] at a1 a2 a4
  subst a2
  have hok0 : PtrOk fs e := ⟨by rw [a1]; exact hw, by rw [a1]; exact hb⟩
  obtain ⟨hwe, hf0, hce, hfb⟩ := ptr_ok_parts _ _ hok0
  have hkeys : entry_keys m.root = frames_left fs ++ entry_keys e ++ frames_right fs := by
    rw [← a1, plug_keys]
  rw [hkeys] at hs ⊢
  rcases a4 with a4 | ⟨l, v, c, w, r, a4⟩
  · subst a4
    left
    simp only [entry_keys, List.append_nil] at hs ⊢
    have hL := frames_left_lt cmp hc key fs (List.pairwise_append.1 hs).1
      (fun f hf => (a3 f hf).1)
    have hR := frames_right_gt cmp hc key fs (List.pairwise_append.1 hs).2.1
      (fun f hf => (a3 f hf).2)
    refine ⟨?_, rfl⟩
    intro hmem
    have h0 := cmp_self cmp hc key
    rcases List.mem_append.1 hmem with h | h
    · have := hL key h; omega
    · have := hR key h; omega
  · subst a4
    right
    have hk2 : frames_left fs ++ entry_keys (TreemapEntry.node l key v c w r) ++ frames_right fs =
        (frames_left fs ++ entry_keys l) ++ key :: (entry_keys r ++ frames_right fs) := by
      simp [entry_keys]
    rw [hk2] at hs ⊢
    rw [pairwise_filter_lt cmp hc key _ _ hs]
    obtain ⟨hw1, hwl, hwr⟩ := hwe
    simp only [entry_count] at hce
    have hcnt : ((frames_left fs ++ entry_keys l).length : Int) =
        ((frames_left fs).length + entry_count l : Nat) := by
      rw [List.length_append, entry_count_keys]
    have hlen : (frames_left fs).length + entry_count l < 9223372036854775808 := by
      have h1 : entry_count m.root = (entry_keys m.root).length := entry_count_keys _
      rw [hkeys, hk2] at h1
      simp only [List.length_append, List.length_cons, ← entry_count_keys] at h1
      omega
    refine ⟨by simp, ?_, by rw [List.getElem?_append_right (le_refl _)]; simp⟩
    rw [hcnt]
    cases fs with
    | nil =>
      simp only []
      have e1 : WEIGHT_OF (TreemapEntry.node l key v c w r) = w := by
        simp only [WEIGHT_OF]; exact bmod_weight w (by omega)
      have hcr : entry_count r < 9223372036854775808 := by omega
      have b1 : -9223372036854775808 ≤ (w : Int) - (entry_count r : Int) ∧
          (w : Int) - (entry_count r : Int) < 9223372036854775808 := by omega
      have b2 : -9223372036854775808 ≤ (w : Int) - (entry_count r : Int) - 1 ∧
          (w : Int) - (entry_count r : Int) - 1 < 9223372036854775808 := by omega
      have b3 : (w : Int) - (entry_count r : Int) - 1 =
          (((frames_left ([] : List (TreemapFrame K V))).length + entry_count l : Nat) : Int) := by
        simp only [frames_left, List.length_nil]; push_cast; omega
      rw [e1, weight_of_count r hwr hcr, ssize_t_val_ok _ b1.1 b1.2, ok_bind,
        ssize_t_val_ok _ b2.1 b2.2, b3]
    | cons f fs1 =>
      simp only []
      have hcl : entry_count l < 9223372036854775808 := by omega
      rw [weight_of_count l hwl hcl]
      have hu : u64 (entry_count l : Int) = entry_count l := by
        have := weight_add_eq (entry_count l) 0 (entry_count l) (by simp) (by omega)
        simpa [weight_add] using this
      rw [hu, treemap_index_of_loop_spec cmp key _ _ _ a3
        (frames_ok_other _ _ _ hf0 hfb) (by omega), ok_bind]
      simp only [pure_eq_ok]
      rw [show ((entry_count l + (frames_left (f :: fs1)).length : Nat) : Int) =
        (((frames_left (f :: fs1)).length + entry_count l : Nat) : Int) by rw [Nat.add_comm]]
      rw [bmod_weight _ hlen]

end Collections
namespace Collections

theorem treemap_put_all_spec {K V : Type} (cmp : K → K → Int) (hc : TotalOrderCmp cmp) :
    ∀ (kvs : List (K × V)) (m : Treemap K V), WeightsOk m.root →
      List.Pairwise (fun a b => cmp a b < 0) (entry_keys m.root) →
      entry_count m.root + kvs.length < 9223372036854775808 →
      ∃ m1, treemap_put_all cmp m kvs = .ok m1 ∧ WeightsOk m1.root ∧
        List.Pairwise (fun a b => cmp a b < 0) (entry_keys m1.root) ∧
        (∀ a, a ∈ entry_keys m1.root ↔ (a ∈ entry_keys m.root ∨ a ∈ kvs.map Prod.fst)) ∧
        entry_count m1.root ≤ entry_count m.root + kvs.length ∧
        (m.size = entry_count m.root → m1.size = entry_count m1.root) := by
  intro kvs
  induction kvs with
  | nil =>
    intro m hw hs _
    exact ⟨m, rfl, hw, hs, by simp, by simp, id⟩
  | cons kv kvs ih =>
    intro m hw hs hb
    simp only [List.length_cons] at hb
    obtain ⟨code, m1, p1, p2, p3, p4, p5, p6⟩ :=
      treemap_put_spec cmp hc m kv.1 kv.2 hw hs (by omega)
    obtain ⟨m2, q1, q2, q3, q4, q5, q6⟩ := ih m1 p2 p3 (by omega)
    refine ⟨m2, ?_, q2, q3, ?_, ?_, fun h => q6 (p6 h)⟩
    · unfold treemap_put_all at q1 ⊢
      rw [List.foldlM_cons, p1]
      exact q1
    · intro a
      rw [q4, p4]
      simp only [List.map_cons, List.mem_cons]
      tauto
    · simp only [List.length_cons]; omega

theorem cmp_uint_cb_total : TotalOrderCmp cmp_uint_cb := by
  refine ⟨?_, ?_, ?_⟩
  · intro a b
    rcases Nat.lt_trichotomy a b with h | h | h
    · have h1 : ¬ a > b := by omega
      have h2 : a ≠ b := by omega
      simp [cmp_uint_cb, h, h1, h2]
    · subst h; simp [cmp_uint_cb]
    · have h1 : ¬ a < b := by omega
      have h2 : a ≠ b := by omega
      simp [cmp_uint_cb, h, h1, h2]
  · intro a b
    rcases Nat.lt_trichotomy a b with h | h | h
    · have h1 : ¬ a > b := by omega
      simp [cmp_uint_cb, h, h1]
    · subst h; simp [cmp_uint_cb]
    · have h1 : ¬ a < b := by omega
      simp [cmp_uint_cb, h, h1]
  · intro a b c; unfold cmp_uint_cb; split_ifs <;> omega

theorem pairwise_lt_nodup {K : Type} (cmp : K → K → Int) (hc : TotalOrderCmp cmp) (l : List K)
    (h : List.Pairwise (fun a b => cmp a b < 0) l) : l.Nodup := by
  refine List.Pairwise.imp ?_ h
  intro a b hab he
  subst he
  have := cmp_self cmp hc a
  omega

theorem filter_length_of_mem_iff {K : Type} [DecidableEq K] (p : K → Bool) (l1 l2 : List K)
    (h1 : l1.Nodup) (h : ∀ a, a ∈ l1 ↔ a ∈ l2) :
    (l1.filter p).length = (l2.dedup.filter p).length := by
  have hp : l1.Perm l2.dedup :=
    (List.perm_ext_iff_of_nodup h1 (List.nodup_dedup _)).2 (fun a => by rw [h a, List.mem_dedup])
  exact (hp.filter p).length_eq

/-- C40 (`treemap_put`, the rotations with `mapentry_update_weight`,
`treemap_index_of`): after every sequence of fewer than `2^63` `treemap_put`
calls on a fresh map, under a comparison function that is a total order, all
calls return, every entry has as weight the number of entries of its subtree,
the iteration order (left, entry, right) is strictly ascending and holds
exactly the keys put, and `treemap_index_of(k)` is `-1` for a key that was
not put and otherwise the number of distinct keys put that are strictly
smaller than `k`, which is the position of `k` in the iteration order. -/
theorem treemap_put_weights_index_of {K V : Type} [DecidableEq K] (cmp : K → K → Int)
    (hc : TotalOrderCmp cmp) (kvs : List (K × V)) (hlen : kvs.length < 9223372036854775808) :
    ∃ m, treemap_put_all cmp treemap_init kvs = .ok m ∧ WeightsOk m.root ∧
      m.size = entry_count m.root ∧
      List.Pairwise (fun a b => cmp a b < 0) (entry_keys m.root) ∧
      (∀ k, k ∈ entry_keys m.root ↔ k ∈ kvs.map Prod.fst) ∧
      ∀ k, (k ∉ kvs.map Prod.fst → treemap_index_of cmp m k = .ok (-1)) ∧
        (k ∈ kvs.map Prod.fst →
          treemap_index_of cmp m k =
            .ok ((((kvs.map Prod.fst).dedup.filter (fun a => decide (cmp a k < 0))).length : Nat) :
              Int) ∧
          (entry_keys m.root)[((kvs.map Prod.fst).dedup.filter
            (fun a => decide (cmp a k < 0))).length]? = some k) := by
  obtain ⟨m, q1, q2, q3, q4, q5, q6⟩ := treemap_put_all_spec cmp hc kvs
    (treemap_init : Treemap K V) trivial List.Pairwise.nil
    (by simp only [treemap_init, entry_count]; omega)
  have hmem : ∀ k, k ∈ entry_keys m.root ↔ k ∈ kvs.map Prod.fst := by
    intro k; rw [q4]; simp [treemap_init, entry_keys]
  have hb : entry_count m.root < 9223372036854775808 := by
    simp only [treemap_init, entry_count] at q5; omega
  refine ⟨m, q1, q2, q6 rfl, q3, hmem, ?_⟩
  intro k
  have hcount := filter_length_of_mem_iff (fun a => decide (cmp a k < 0)) (entry_keys m.root)
    (kvs.map Prod.fst) (pairwise_lt_nodup cmp hc _ q3) hmem
  rcases treemap_index_of_spec cmp hc m q2 q3 hb k with ⟨h1, h2⟩ | ⟨h1, h2, h3⟩
  · exact ⟨fun _ => h2, fun h => absurd ((hmem k).2 h) h1⟩
  · refine ⟨fun h => absurd ((hmem k).1 h1) h, fun _ => ?_⟩
    rw [← hcount]
    exact ⟨h2, h3⟩

theorem treemap_put_weights_index_of_witness :
    ∃ m, treemap_put_all cmp_uint_cb treemap_init [(5, ()), (3, ()), (8, ()), (3, ()), (1, ())] =
        .ok m ∧ WeightsOk m.root ∧
      m.size = entry_count m.root ∧
      List.Pairwise (fun a b => cmp_uint_cb a b < 0) (entry_keys m.root) ∧
      (∀ k, k ∈ entry_keys m.root ↔
        k ∈ ([(5, ()), (3, ()), (8, ()), (3, ()), (1, ())] : List (Nat × Unit)).map Prod.fst) ∧
      ∀ k, (k ∉ ([(5, ()), (3, ()), (8, ()), (3, ()), (1, ())] : List (Nat × Unit)).map Prod.fst →
          treemap_index_of cmp_uint_cb m k = .ok (-1)) ∧
        (k ∈ ([(5, ()), (3, ()), (8, ()), (3, ()), (1, ())] : List (Nat × Unit)).map Prod.fst →
          treemap_index_of cmp_uint_cb m k =
            .ok ((((([(5, ()), (3, ()), (8, ()), (3, ()), (1, ())] : List (Nat × Unit)).map
              Prod.fst).dedup.filter (fun a => decide (cmp_uint_cb a k < 0))).length : Nat) : Int) ∧
          (entry_keys m.root)[((([(5, ()), (3, ()), (8, ()), (3, ()), (1, ())] :
            List (Nat × Unit)).map Prod.fst).dedup.filter
              (fun a => decide (cmp_uint_cb a k < 0))).length]? = some k) :=
  treemap_put_weights_index_of cmp_uint_cb cmp_uint_cb_total
    [(5, ()), (3, ()), (8, ()), (3, ()), (1, ())] (by decide)

end Collections
namespace Collections

theorem treeset_add_all_eq (v : List Nat) : ∀ (s : Treemap Nat Unit),
    v.foldlM (fun s x => do
      let (_, s1) ← treeset_add cmp_uint_cb s x
      pure s1) s = treemap_put_all cmp_uint_cb s (v.map (fun k => (k, ()))) := by
  induction v with
  | nil => intro s; rfl
  | cons x v ih =>
    intro s
    unfold treemap_put_all
    rw [List.map_cons, List.foldlM_cons, List.foldlM_cons]
    unfold treeset_add
    cases h : treemap_put cmp_uint_cb s x () with
    | error e => rfl
    | ok r =>
      obtain ⟨code, s1⟩ := r
      simp only [ok_bind, pure_eq_ok]
      exact ih s1

theorem uint_keys_sort (l v : List Nat)
    (hs : List.Pairwise (fun a b => cmp_uint_cb a b < 0) l) (hm : ∀ k, k ∈ l ↔ k ∈ v) :
    l = v.toFinset.sort (fun a b => a ≤ b) := by
  have hlt : ∀ a b : Nat, cmp_uint_cb a b < 0 → a < b := by
    intro a b h
    unfold cmp_uint_cb at h
    split_ifs at h <;> omega
  have hsl : List.Sorted (fun a b : Nat => a ≤ b) l :=
    List.Pairwise.imp (fun {a b} h => Nat.le_of_lt (hlt a b h)) hs
  have hnd : l.Nodup := pairwise_lt_nodup cmp_uint_cb cmp_uint_cb_total l hs
  apply List.eq_of_perm_of_sorted _ hsl (Finset.sort_sorted _ _)
  apply (List.perm_ext_iff_of_nodup hnd (Finset.sort_nodup _ _)).2
  intro a
  rw [hm a, Finset.mem_sort, List.mem_toFinset]

theorem mapM_map_ok {α β : Type} (f : β → Except Err α) (g : α → β) :
    ∀ xs : List α, (∀ x ∈ xs, f (g x) = .ok x) → (xs.map g).mapM f = .ok xs := by
  intro xs
  induction xs with
  | nil => intro _; rfl
  | cons x xs ih =>
    intro h
    rw [List.map_cons, List.mapM_cons, h x (List.mem_cons_self _ _), ok_bind,
      ih (fun y hy => h y (List.mem_cons_of_mem _ hy)), ok_bind]
    rfl

/-- C34 (`index_function`, the reordering loop of `get_edge`): for a node
vector `v` of rank at most 128, repeated nodes allowed, `index_function`
returns `f` with one entry for every node; with `s` the ascending list of
the distinct nodes of `v`, every `f[j]` is smaller than the length of `s`,
`s[f[j]]` is `v[j]`, and the loop `nodes_order[j] = nodes[indx[j]]` of
`get_edge` over `s` and `f` gives `v` back in its order. -/
theorem index_function_reorders (v : List Nat) (h : v.length ≤ 128) :
    ∃ f, index_function v v.length = .ok f ∧ f.length = v.length ∧
      (∀ j, j < v.length →
        f.getD j 0 < (v.toFinset.sort (fun a b => a ≤ b)).length ∧
        (v.toFinset.sort (fun a b => a ≤ b))[f.getD j 0]? = v[j]?) ∧
      get_edge_nodes_order (v.toFinset.sort (fun a b => a ≤ b)) f = .ok v := by
  have hused : (List.range v.length).mapM (fun i => arr_get v i) = .ok v := by
    rw [mapM_ok_map _ (fun j => v.getD j 0) _
      (fun i hi => arr_get_ok v i (List.mem_range.1 hi)), range_map_getD v _ rfl]
  obtain ⟨m, q1, q2, q3, q4, q5, -⟩ := treemap_put_all_spec cmp_uint_cb cmp_uint_cb_total
    (v.map (fun k => (k, ()))) (treemap_init : Treemap Nat Unit) trivial List.Pairwise.nil
    (by simp only [treemap_init, entry_count, List.length_map]; omega)
  have hmem : ∀ k, k ∈ entry_keys m.root ↔ k ∈ v := by
    intro k; rw [q4]; simp [treemap_init, entry_keys]
  have hb : entry_count m.root < 9223372036854775808 := by
    simp only [treemap_init, entry_count, List.length_map] at q5; omega
  have hsort := uint_keys_sort _ v q3 hmem
  have hidx : ∀ k ∈ v, treemap_index_of cmp_uint_cb m k =
        .ok ((((entry_keys m.root).filter (fun a => decide (cmp_uint_cb a k < 0))).length : Nat) :
          Int) ∧
      (entry_keys m.root)[((entry_keys m.root).filter
        (fun a => decide (cmp_uint_cb a k < 0))).length]? = some k := by
    intro k hk
    rcases treemap_index_of_spec cmp_uint_cb cmp_uint_cb_total m q2 q3 hb k with
      ⟨h1, -⟩ | ⟨-, h2, h3⟩
    · exact absurd ((hmem k).2 hk) h1
    · exact ⟨h2, h3⟩
  have hf : v.mapM (fun x => do
      let index ← treemap_index_of cmp_uint_cb m x
      if index ≥ 0 then pure index.toNat else Except.error Err.assertion) =
      .ok (v.map (fun k =>
        ((entry_keys m.root).filter (fun a => decide (cmp_uint_cb a k < 0))).length)) := by
    apply mapM_ok_map
    intro k hk
    rw [(hidx k hk).1, ok_bind, if_pos (by omega)]
    simp
  refine ⟨v.map (fun k =>
    ((entry_keys m.root).filter (fun a => decide (cmp_uint_cb a k < 0))).length), ?_, ?_, ?_, ?_⟩
  · unfold index_function
    rw [hused, ok_bind, treeset_add_all_eq, q1, ok_bind]
    exact hf
  · rw [List.length_map]
  · intro j hj
    have hk : v[j] ∈ v := List.getElem_mem hj
    have h3 := (hidx _ hk).2
    rw [List.getD_eq_getElem?_getD, List.getElem?_map, List.getElem?_eq_getElem hj,
      Option.map_some', Option.getD_some, ← hsort]
    refine ⟨?_, h3⟩
    by_contra hge
    rw [List.getElem?_eq_none (by omega)] at h3
    exact absurd h3 (by simp)
  · unfold get_edge_nodes_order
    rw [← hsort]
    apply mapM_map_ok
    intro k hk
    have h3 := (hidx k hk).2
    unfold arr_get
    rw [List.get?_eq_getElem?, h3]

theorem index_function_reorders_witness :
    ∃ f, index_function [7, 3, 7, 9, 1, 3] ([7, 3, 7, 9, 1, 3] : List Nat).length = .ok f ∧
      f.length = ([7, 3, 7, 9, 1, 3] : List Nat).length ∧
      (∀ j, j < ([7, 3, 7, 9, 1, 3] : List Nat).length →
        f.getD j 0 < (([7, 3, 7, 9, 1, 3] : List Nat).toFinset.sort (fun a b => a ≤ b)).length ∧
        (([7, 3, 7, 9, 1, 3] : List Nat).toFinset.sort (fun a b => a ≤ b))[f.getD j 0]? =
          ([7, 3, 7, 9, 1, 3] : List Nat)[j]?) ∧
      get_edge_nodes_order (([7, 3, 7, 9, 1, 3] : List Nat).toFinset.sort (fun a b => a ≤ b)) f =
        .ok [7, 3, 7, 9, 1, 3] :=
  index_function_reorders [7, 3, 7, 9, 1, 3] (by decide)

end Collections
/-! ## repair_normalize: the symbols it visits -/

theorem next_scan_spec (g : SLHRGrammar) : ∀ (fuel r : Nat), g.min_nt ≤ r →
    fuel = g.rule_max + 1 - r →
    slhr_grammar_next_scan g fuel r = (List.range' r fuel).find? (rule_stored g) := by
  intro fuel
  induction fuel with
  | zero => intro r _ _; rfl
  | succ n ih =>
    intro r hr hf
    have hle : r ≤ g.rule_max := by omega
    rw [List.range'_succ, List.find?_cons]
    unfold slhr_grammar_next_scan
    rw [if_pos hle]
    unfold rule_stored
    cases h : g.rules.get? (r - g.min_nt) with
    | none => simp only []; exact ih (r + 1) (by omega) (by omega)
    | some o =>
      cases o with
      | none => simp only []; exact ih (r + 1) (by omega) (by omega)
      | some x => simp only []

theorem range'_find_split (p : Nat → Bool) : ∀ (n r s : Nat),
    (List.range' r n).find? p = some s →
    r ≤ s ∧ s < r + n ∧ p s = true ∧
      (List.range' r n).filter p = s :: (List.range' (s + 1) (r + n - (s + 1))).filter p := by
  intro n
  induction n with
  | zero => intro r s h; simp at h
  | succ n ih =>
    intro r s h
    rw [List.range'_succ, List.find?_cons] at h
    rw [List.range'_succ, List.filter_cons]
    cases hp : p r with
    | true =>
      rw [hp] at h
      simp only [Option.some.injEq] at h
      subst h
      refine ⟨le_refl _, by omega, hp, ?_⟩
      simp only [if_true]
      have e : r + (n + 1) - (r + 1) = n := by omega
      rw [e]
    | false =>
      rw [hp] at h
      obtain ⟨h1, h2, h3, h4⟩ := ih (r + 1) s h
      refine ⟨by omega, by omega, h3, ?_⟩
      simp only [Bool.false_eq_true, if_false]
      have e : r + (n + 1) - (s + 1) = r + 1 + n - (s + 1) := by omega
      rw [h4, e]

theorem rules_from_spec (g : SLHRGrammar) : ∀ (fuel r : Nat), g.min_nt ≤ r →
    g.rule_max + 1 - r ≤ fuel →
    slhr_grammar_rules_from g fuel r =
      (List.range' r (g.rule_max + 1 - r)).filter (rule_stored g) := by
  intro fuel
  induction fuel with
  | zero =>
    intro r _ hf
    have : g.rule_max + 1 - r = 0 := by omega
    rw [this]; rfl
  | succ n ih =>
    intro r hr hf
    unfold slhr_grammar_rules_from
    rw [next_scan_spec g _ r hr rfl]
    cases h : (List.range' r (g.rule_max + 1 - r)).find? (rule_stored g) with
    | none =>
      simp only []
      rw [List.find?_eq_none] at h
      symm
      rw [List.filter_eq_nil_iff]
      exact h
    | some s =>
      simp only []
      obtain ⟨h1, h2, h3, h4⟩ := range'_find_split _ _ _ _ h
      have e : r + (g.rule_max + 1 - r) - (s + 1) = g.rule_max + 1 - (s + 1) := by omega
      rw [h4, ih (s + 1) (by omega) (by omega), e]

theorem symbols_spec (g : SLHRGrammar) :
    slhr_grammar_symbols g = START_SYMBOL :: rule_ids g := by
  unfold slhr_grammar_symbols rule_ids
  rw [rules_from_spec g _ _ (le_refl _) (le_refl _)]

theorem rule_ids_mem (g : SLHRGrammar) (r : Nat) :
    r ∈ rule_ids g ↔ (g.min_nt ≤ r ∧ r ≤ g.rule_max ∧ rule_stored g r = true) := by
  unfold rule_ids
  rw [List.mem_filter, List.mem_range'_1]
  constructor
  · rintro ⟨⟨h1, h2⟩, h3⟩; exact ⟨h1, by omega, h3⟩
  · rintro ⟨h1, h2, h3⟩; exact ⟨⟨h1, by omega⟩, h3⟩

theorem rule_ids_sorted (g : SLHRGrammar) : List.Pairwise (fun a b => a < b) (rule_ids g) := by
  unfold rule_ids
  exact List.Pairwise.filter _ (List.pairwise_lt_range' _ _)

theorem rule_ids_nodup (g : SLHRGrammar) : (rule_ids g).Nodup :=
  List.Pairwise.imp (fun h => Nat.ne_of_lt h) (rule_ids_sorted g)


/-! ## repair_normalize: relabelling one body -/

theorem relabel_take_drop (f : Nat → Nat) (edges : List (Option HEdge)) (k : Nat) (e : HEdge)
    (h : edges.get? k = some (some e)) :
    ((edges.take k).map (Option.map (relabel_edge f)) ++ edges.drop k).set k
        (some (relabel_edge f e)) =
      (edges.take (k + 1)).map (Option.map (relabel_edge f)) ++ edges.drop (k + 1) := by
  have hk : k < edges.length := by
    by_contra hc
    rw [List.get?_eq_none.mpr (Nat.le_of_not_lt hc)] at h
    cases h
  rw [List.get?_eq_getElem?] at h
  apply List.ext_getElem?
  intro j
  rw [List.getElem?_set]
  by_cases hj : k = j
  · subst hj
    rw [if_pos rfl, if_pos (by simp; omega)]
    rw [List.getElem?_append_left (by simp; omega), List.getElem?_map, List.getElem?_take,
      if_pos (by omega), h]
    rfl
  · rw [if_neg hj]
    by_cases hlt : j < k
    · rw [List.getElem?_append_left (by simp; omega),
        List.getElem?_append_left (by simp; omega), List.getElem?_map, List.getElem?_map,
        List.getElem?_take, List.getElem?_take, if_pos hlt, if_pos (by omega)]
    · rw [List.getElem?_append_right (by simp; omega),
        List.getElem?_append_right (by simp; omega), List.getElem?_drop, List.getElem?_drop]
      simp only [List.length_map, List.length_take]
      congr 1
      omega

theorem normalize_relabel_spec (nt expected_nt : Nat) (graph : HGraph) (h : NoHoles graph) :
    normalize_relabel nt expected_nt graph =
      .ok (relabel_graph (fun l => if l = nt then expected_nt else l) graph) := by
  unfold normalize_relabel
  obtain ⟨b, hb, hI⟩ := range_foldlM_inv
    (fun gr j => do
      let edge ← hgraph_edge_deref gr j
      if edge.label = nt then hgraph_edge_set gr j (some { edge with label := expected_nt })
      else pure gr)
    (fun k gr => gr.rank = graph.rank ∧ gr.edges =
      (graph.edges.take k).map
        (Option.map (relabel_edge (fun l => if l = nt then expected_nt else l))) ++
        graph.edges.drop k)
    (hgraph_len graph) graph (by simp)
    (by
      intro k hk gr hgr
      obtain ⟨hrank, hgr⟩ := hgr
      have hk' : k < graph.edges.length := hk
      obtain ⟨e, he⟩ : ∃ e, graph.edges.get? k = some (some e) := by
        rw [List.get?_eq_getElem?, List.getElem?_eq_getElem hk']
        cases hx : graph.edges[k] with
        | none => exact absurd hx (h _ (List.getElem_mem hk'))
        | some e => exact ⟨e, rfl⟩
      have hgk : gr.edges.get? k = some (some e) := by
        rw [hgr, List.get?_eq_getElem?]
        rw [List.getElem?_append_right (by simp), List.getElem?_drop]
        simp only [List.length_map, List.length_take]
        rw [← List.get?_eq_getElem?, ← he]
        congr 1
        omega
      have hstep := relabel_take_drop (fun l => if l = nt then expected_nt else l)
        graph.edges k e he
      dsimp only
      rw [hgraph_edge_deref_ok gr k e hgk, ok_bind]
      have hlen : k < gr.edges.length := by
        rw [hgr]; simp; omega
      by_cases hl : e.label = nt
      · rw [if_pos hl]
        unfold hgraph_edge_set
        rw [if_pos hlen]
        refine ⟨_, rfl, hrank, ?_⟩
        rw [← hstep]
        show gr.edges.set k _ = _
        rw [hgr]
        simp only [relabel_edge, hl, if_true]
      · rw [if_neg hl]
        refine ⟨_, rfl, hrank, ?_⟩
        rw [← hstep, ← hgr]
        have hself : relabel_edge (fun l => if l = nt then expected_nt else l) e = e := by
          simp only [relabel_edge, hl, if_false]
        rw [hself]
        symm
        apply List.ext_getElem?
        intro j
        rw [List.getElem?_set]
        by_cases hj : k = j
        · subst hj
          rw [if_pos rfl, if_pos hlen]
          rw [List.get?_eq_getElem?] at hgk
          exact hgk.symm
        · rw [if_neg hj])
  rw [hb]
  obtain ⟨h1, h2⟩ := hI
  unfold hgraph_len at h2
  rw [List.take_length, List.drop_length, List.append_nil] at h2
  congr 1
  cases b
  simp only [relabel_graph] at h1 h2 ⊢
  rw [h1, h2]


/-! ## repair_normalize: relabelling all bodies -/

theorem rule_stored_getD (g : SLHRGrammar) (r : Nat) (h : rule_stored g r = true) :
    ∃ b, g.rules.getD (r - g.min_nt) none = some b ∧ g.rules.get? (r - g.min_nt) = some (some b) := by
  unfold rule_stored at h
  cases hx : g.rules.get? (r - g.min_nt) with
  | none => rw [hx] at h; simp at h
  | some o =>
    cases o with
    | none => rw [hx] at h; simp at h
    | some b =>
      refine ⟨b, ?_, rfl⟩
      rw [List.getD_eq_getElem?_getD, ← List.get?_eq_getElem?, hx]
      rfl

theorem relabel_within_getD (f : Nat → Nat) (g : SLHRGrammar) (S : List Nat) (j : Nat) :
    (relabel_within f g S).rules.getD j none =
      if g.min_nt + j ∈ S then (g.rules.getD j none).map (relabel_graph f)
      else g.rules.getD j none := by
  unfold relabel_within
  simp only [List.getD_eq_getElem?_getD, List.getElem?_map, List.getElem?_range]
  by_cases hj : j < g.rules.length
  · rw [List.getElem?_range hj]; rfl
  · rw [List.getElem?_eq_none (by simp; omega), List.getElem?_eq_none (by omega)]
    simp

theorem relabel_symbol_step (nt expected_nt : Nat) (h : SLHRGrammar) (hw : BodiesWf h)
    (S : List Nat) (i : Nat) (hi : i ∉ S) (hm : i = START_SYMBOL ∨ i ∈ rule_ids h) :
    (do
      let graph ← slhr_grammar_rule_get
        (relabel_within (fun l => if l = nt then expected_nt else l) h S) i
      let graph ← normalize_relabel nt expected_nt graph
      pure (slhr_grammar_rule_store
        (relabel_within (fun l => if l = nt then expected_nt else l) h S) i graph)) =
      .ok (relabel_within (fun l => if l = nt then expected_nt else l) h (S ++ [i])) := by
  obtain ⟨hm1, habove, hstart, hbodies⟩ := hw
  rcases hm with hm | hm
  · subst hm
    have hget : slhr_grammar_rule_get
        (relabel_within (fun l => if l = nt then expected_nt else l) h S) START_SYMBOL =
        .ok h.start_symbol := by
      unfold slhr_grammar_rule_get
      rw [if_pos rfl]
      unfold relabel_within
      simp only [hi, if_false]
    rw [hget, ok_bind, normalize_relabel_spec nt expected_nt _ hstart, ok_bind]
    unfold slhr_grammar_rule_store relabel_within
    rw [if_pos rfl]
    simp only [pure_eq_ok, List.mem_append, List.mem_singleton, or_true, if_true]
    congr 2
    apply List.map_congr_left
    intro j _
    have : ¬ (h.min_nt + j = START_SYMBOL) := by unfold START_SYMBOL; omega
    simp only [this, or_false]
  · obtain ⟨h1, h2, h3⟩ := (rule_ids_mem h i).1 hm
    obtain ⟨b, hb1, hb2⟩ := rule_stored_getD h i h3
    have hlt : i - h.min_nt < h.rules.length := by
      by_contra hc
      rw [List.get?_eq_none.mpr (Nat.le_of_not_lt hc)] at hb2
      cases hb2
    have hne : i ≠ START_SYMBOL := by unfold START_SYMBOL; omega
    have hget : slhr_grammar_rule_get
        (relabel_within (fun l => if l = nt then expected_nt else l) h S) i = .ok b := by
      unfold slhr_grammar_rule_get
      rw [if_neg hne]
      have e1 : (relabel_within (fun l => if l = nt then expected_nt else l) h S).min_nt =
          h.min_nt := rfl
      have e2 : (relabel_within (fun l => if l = nt then expected_nt else l) h S).rule_max =
          h.rule_max := rfl
      rw [e1, e2, if_neg (by omega), if_neg (by omega)]
      have e3 : (relabel_within (fun l => if l = nt then expected_nt else l) h S).rules.get?
          (i - h.min_nt) = some (some b) := by
        have := relabel_within_getD (fun l => if l = nt then expected_nt else l) h S
          (i - h.min_nt)
        rw [show h.min_nt + (i - h.min_nt) = i by omega, if_neg hi, hb1] at this
        rw [List.getD_eq_getElem?_getD] at this
        have hl2 : i - h.min_nt <
            (relabel_within (fun l => if l = nt then expected_nt else l) h S).rules.length := by
          unfold relabel_within; simp; exact hlt
        rw [List.getElem?_eq_getElem hl2] at this
        rw [List.get?_eq_getElem?, List.getElem?_eq_getElem hl2]
        simpa using this
      rw [e3]
    have hnb : NoHoles b := by
      refine hbodies (some b) ?_ b rfl
      have hb3 := hb2
      rw [List.get?_eq_getElem?, List.getElem?_eq_getElem hlt] at hb3
      rw [← Option.some.inj hb3]
      exact List.getElem_mem hlt
    rw [hget, ok_bind, normalize_relabel_spec nt expected_nt _ hnb, ok_bind]
    unfold slhr_grammar_rule_store
    rw [if_neg hne]
    unfold relabel_within
    simp only [pure_eq_ok, List.mem_append, List.mem_singleton]
    have hs0 : ¬ (START_SYMBOL = i) := fun hx => hne hx.symm
    simp only [hs0, or_false]
    congr 2
    apply List.ext_getElem?
    intro j
    rw [List.getElem?_set]
    by_cases hj : i - h.min_nt = j
    · subst hj
      rw [if_pos rfl, if_pos (by simp; exact hlt), List.getElem?_map, List.getElem?_range hlt]
      simp only [Option.map_some']
      rw [show h.min_nt + (i - h.min_nt) = i by omega]
      simp only [or_true, if_true, hb1, Option.map_some']
    · rw [if_neg hj, List.getElem?_map, List.getElem?_map]
      cases hr : (List.range h.rules.length)[j]? with
      | none => rfl
      | some j' =>
        have : j' = j := by
          have := List.getElem?_range (m := j) (n := h.rules.length)
          by_cases hjl : j < h.rules.length
          · rw [List.getElem?_range hjl] at hr; exact (Option.some.inj hr).symm
          · rw [List.getElem?_eq_none (by simp; omega)] at hr; cases hr
        subst this
        simp only [Option.map_some']
        have hne2 : ¬ (h.min_nt + j' = i) := by omega
        simp only [hne2, or_false]

theorem relabel_symbols_fold (nt expected_nt : Nat) (h : SLHRGrammar) (hw : BodiesWf h) :
    ∀ (l S : List Nat), l.Nodup → (∀ i ∈ l, i ∉ S) →
      (∀ i ∈ l, i = START_SYMBOL ∨ i ∈ rule_ids h) →
      l.foldlM (fun g i => do
        let graph ← slhr_grammar_rule_get g i
        let graph ← normalize_relabel nt expected_nt graph
        pure (slhr_grammar_rule_store g i graph))
        (relabel_within (fun l => if l = nt then expected_nt else l) h S) =
      .ok (relabel_within (fun l => if l = nt then expected_nt else l) h (S ++ l)) := by
  intro l
  induction l with
  | nil => intro S _ _ _; rw [List.append_nil]; rfl
  | cons i l ih =>
    intro S hnd hS hm
    rw [List.foldlM_cons, relabel_symbol_step nt expected_nt h hw S i
      (hS i (List.mem_cons_self _ _)) (hm i (List.mem_cons_self _ _)), ok_bind]
    rw [List.nodup_cons] at hnd
    rw [ih (S ++ [i]) hnd.2 ?_ (fun j hj => hm j (List.mem_cons_of_mem _ hj)),
      List.append_assoc]
    · rfl
    · intro j hj hjs
      rcases List.mem_append.1 hjs with hjs | hjs
      · exact hS j (List.mem_cons_of_mem _ hj) hjs
      · rw [List.mem_singleton] at hjs
        subst hjs
        exact hnd.1 hj

theorem relabel_within_nil (f : Nat → Nat) (h : SLHRGrammar) : relabel_within f h [] = h := by
  unfold relabel_within
  simp only [List.not_mem_nil, if_false]
  cases h with
  | mk m s rm rules =>
    simp only [SLHRGrammar.mk.injEq, true_and]
    apply List.ext_getElem?
    intro j
    rw [List.getElem?_map]
    by_cases hj : j < rules.length
    · rw [List.getElem?_range hj, List.getElem?_eq_getElem hj]
      simp [List.getD_eq_getElem?_getD, List.getElem?_eq_getElem hj]
    · rw [List.getElem?_eq_none (by simp; omega), List.getElem?_eq_none (by omega)]
      rfl

theorem relabel_within_all (f : Nat → Nat) (h : SLHRGrammar) (hw : BodiesWf h) :
    relabel_within f h (START_SYMBOL :: rule_ids h) = relabel_grammar f h := by
  obtain ⟨hm1, habove, hstart, hbodies⟩ := hw
  unfold relabel_within relabel_grammar
  simp only [List.mem_cons, true_or, if_true]
  congr 1
  apply List.ext_getElem?
  intro j
  rw [List.getElem?_map, List.getElem?_map]
  by_cases hj : j < h.rules.length
  · rw [List.getElem?_range hj, List.getElem?_eq_getElem hj]
    simp only [Option.map_some', List.getD_eq_getElem?_getD, List.getElem?_eq_getElem hj,
      Option.getD_some]
    have h0 : ¬ (h.min_nt + j = START_SYMBOL) := by unfold START_SYMBOL; omega
    simp only [h0, false_or]
    by_cases hmem : h.min_nt + j ∈ rule_ids h
    · rw [if_pos hmem]
    · rw [if_neg hmem]
      rw [rule_ids_mem] at hmem
      have hnone : h.rules[j] = none := by
        by_cases hr : h.rule_max + 1 - h.min_nt ≤ j
        · have := habove j hj hr
          rw [List.getD_eq_getElem?_getD, List.getElem?_eq_getElem hj] at this
          exact this
        · have hns : rule_stored h (h.min_nt + j) ≠ true := fun hs => hmem ⟨by omega, by omega, hs⟩
          unfold rule_stored at hns
          rw [show h.min_nt + j - h.min_nt = j by omega, List.get?_eq_getElem?,
            List.getElem?_eq_getElem hj] at hns
          cases hx : h.rules[j] with
          | none => rfl
          | some b => rw [hx] at hns; simp at hns
      rw [hnone]; rfl
  · rw [List.getElem?_eq_none (by simp; omega), List.getElem?_eq_none (by omega)]
    rfl

/-- The relabelling pass of `repair_normalize` over all symbols. -/
theorem relabel_all_symbols (nt expected_nt : Nat) (h : SLHRGrammar) (hw : BodiesWf h) :
    (slhr_grammar_symbols h).foldlM (fun g i => do
        let graph ← slhr_grammar_rule_get g i
        let graph ← normalize_relabel nt expected_nt graph
        pure (slhr_grammar_rule_store g i graph)) h =
      .ok (relabel_grammar (fun l => if l = nt then expected_nt else l) h) := by
  have hfold := relabel_symbols_fold nt expected_nt h hw (START_SYMBOL :: rule_ids h) []
    (by
      rw [List.nodup_cons]
      refine ⟨?_, rule_ids_nodup h⟩
      intro hmem
      have := ((rule_ids_mem h START_SYMBOL).1 hmem).1
      have := hw.1
      unfold START_SYMBOL at *
      omega)
    (by intro i _; simp)
    (by
      intro i hi
      rcases List.mem_cons.1 hi with hi | hi
      · exact Or.inl hi
      · exact Or.inr hi)
  rw [relabel_within_nil, List.nil_append, relabel_within_all _ h hw] at hfold
  rw [symbols_spec]
  exact hfold


/-! ## repair_normalize: the renumbering -/

theorem sorted_ge_index : ∀ (l : List Nat) (m : Nat),
    List.Pairwise (fun a b => a < b) l → (∀ x ∈ l, m ≤ x) →
    ∀ k (h : k < l.length), m + k ≤ l[k] := by
  intro l
  induction l with
  | nil => intro m _ _ k h; simp at h
  | cons a l ih =>
    intro m hp hm k h
    cases k with
    | zero => simpa using hm a (List.mem_cons_self _ _)
    | succ k =>
      rw [List.pairwise_cons] at hp
      have hk : k < l.length := by simpa using h
      have := ih (a + 1) hp.2 (fun x hx => hp.1 x hx) k hk
      have ha := hm a (List.mem_cons_self _ _)
      simp only [List.getElem_cons_succ]
      omega

theorem rule_ids_split (g : SLHRGrammar) (k : Nat) (hk : k < (rule_ids g).length) :
    rule_ids g = (rule_ids g).take k ++ (rule_ids g)[k] :: (rule_ids g).drop (k + 1) ∧
    ((rule_ids g).take k).length = k ∧
    (rule_ids g)[k] ∉ (rule_ids g).take k ∧
    (rule_ids g)[k] ∉ (rule_ids g).drop (k + 1) ∧
    (∀ x ∈ (rule_ids g).take k, x ∉ (rule_ids g).drop (k + 1)) ∧
    (∀ x ∈ (rule_ids g).take k, (rule_ids g).indexOf x < k) ∧
    g.min_nt + k ≤ (rule_ids g)[k] ∧
    (∀ x ∈ (rule_ids g).drop (k + 1), (rule_ids g)[k] < x) := by
  have hsplit : rule_ids g = (rule_ids g).take k ++ (rule_ids g)[k] :: (rule_ids g).drop (k + 1) := by
    rw [List.getElem_cons_drop, List.take_append_drop]
  have hlen : ((rule_ids g).take k).length = k := by
    rw [List.length_take]; omega
  have hs := rule_ids_sorted g
  rw [hsplit, List.pairwise_append, List.pairwise_cons] at hs
  obtain ⟨hs1, ⟨hs2, hs3⟩, hs4⟩ := hs
  have hge := sorted_ge_index (rule_ids g) g.min_nt (rule_ids_sorted g)
    (fun x hx => ((rule_ids_mem g x).1 hx).1) k hk
  refine ⟨hsplit, hlen, ?_, ?_, ?_, ?_, hge, hs2⟩
  · intro hmem
    have := hs4 _ hmem _ (List.mem_cons_self _ _)
    omega
  · intro hmem
    have := hs2 _ hmem
    omega
  · intro x hx hx2
    have h1 := hs4 x hx _ (List.mem_cons_of_mem _ hx2)
    omega
  · intro x hx
    rw [List.mem_take_iff_getElem] at hx
    obtain ⟨i, hi, rfl⟩ := hx
    rw [List.indexOf_getElem (rule_ids_nodup g)]
    omega

theorem relabel_graph_comp (f h : Nat → Nat) (gr : HGraph) :
    relabel_graph f (relabel_graph h gr) = relabel_graph (fun l => f (h l)) gr := by
  unfold relabel_graph
  simp only [List.map_map]
  congr 1
  apply List.map_congr_left
  intro o _
  cases o <;> rfl

theorem relabel_graph_id (gr : HGraph) : relabel_graph (fun l => l) gr = gr := by
  unfold relabel_graph
  cases gr with
  | mk edges rank =>
    simp only [HGraph.mk.injEq, and_true]
    conv_rhs => rw [← List.map_id edges]
    apply List.map_congr_left
    intro o _
    cases o <;> rfl

theorem relabel_noHoles (f : Nat → Nat) (gr : HGraph) (h : NoHoles gr) :
    NoHoles (relabel_graph f gr) := by
  intro oe hoe
  unfold relabel_graph at hoe
  simp only [List.mem_map] at hoe
  obtain ⟨o, ho, rfl⟩ := hoe
  cases o with
  | none => exact absurd rfl (h _ ho)
  | some e => simp

theorem renumber_upto_succ (g : SLHRGrammar) (k : Nat) (hk : k < (rule_ids g).length) :
    (fun l => if renumber_upto g k l = (rule_ids g)[k] then g.min_nt + k
      else renumber_upto g k l) = renumber_upto g (k + 1) := by
  obtain ⟨hsplit, hlen, hn1, hn2, hdisj, hlt, hge, hgt⟩ := rule_ids_split g k hk
  have htake : ∀ l, l ∈ (rule_ids g).take (k + 1) ↔
      (l ∈ (rule_ids g).take k ∨ l = (rule_ids g)[k]) := by
    intro l
    rw [List.take_succ, List.getElem?_eq_getElem hk, List.mem_append]
    simp only [Option.toList, List.mem_singleton]
  funext l
  unfold renumber_upto
  by_cases hl : l ∈ (rule_ids g).take k
  · rw [if_pos hl, if_pos ((htake l).2 (Or.inl hl))]
    have hidx := hlt l hl
    rw [if_neg (by omega)]
  · rw [if_neg hl]
    by_cases hl2 : l = (rule_ids g)[k]
    · rw [if_pos hl2, if_pos ((htake l).2 (Or.inr hl2))]
      rw [hl2, List.indexOf_getElem (rule_ids_nodup g)]
    · rw [if_neg hl2, if_neg]
      rw [htake]
      exact fun h => h.elim hl hl2

theorem renumber_upto_zero (g : SLHRGrammar) : renumber_upto g 0 = fun l => l := by
  funext l
  unfold renumber_upto
  simp

theorem renumber_upto_all (g : SLHRGrammar) :
    renumber_upto g (rule_ids g).length = renumber g := by
  funext l
  unfold renumber_upto renumber
  rw [List.take_length]


/-! ## repair_normalize: the state of the loop -/

theorem getD_some_mem {α : Type} (l : List (Option α)) (j : Nat) (b : α)
    (h : l.getD j none = some b) : some b ∈ l := by
  rw [List.getD_eq_getElem?_getD] at h
  by_cases hj : j < l.length
  · rw [List.getElem?_eq_getElem hj] at h
    simp only [Option.getD_some] at h
    rw [← h]
    exact List.getElem_mem hj
  · rw [List.getElem?_eq_none (by omega)] at h
    simp at h

theorem rule_ids_length_le (g : SLHRGrammar) :
    (rule_ids g).length ≤ g.rule_max + 1 - g.min_nt := by
  unfold rule_ids
  have := List.length_filter_le (rule_stored g) (List.range' g.min_nt (g.rule_max + 1 - g.min_nt))
  rw [List.length_range'] at this
  exact this

theorem normalize_state_getD (g : SLHRGrammar) (k j : Nat) (hj : j < g.rules.length) :
    (normalize_state g k).rules.getD j none = normalize_slot g k j := by
  unfold normalize_state
  simp only [List.getD_eq_getElem?_getD, List.getElem?_map, List.getElem?_range hj]
  rfl

theorem normalize_state_getElem? (g : SLHRGrammar) (k j : Nat) (hj : j < g.rules.length) :
    (normalize_state g k).rules[j]? = some (normalize_slot g k j) := by
  unfold normalize_state
  simp only [List.getElem?_map, List.getElem?_range hj]
  rfl

theorem normalize_state_length (g : SLHRGrammar) (k : Nat) :
    (normalize_state g k).rules.length = g.rules.length := by
  unfold normalize_state
  simp

theorem normalize_slot_noHoles (g : SLHRGrammar) (hw : BodiesWf g) (k j : Nat) (r : HGraph)
    (h : normalize_slot g k j = some r) : NoHoles r := by
  unfold normalize_slot at h
  split at h
  · cases hb : g.rules.getD ((rule_ids g).getD j 0 - g.min_nt) none with
    | none => rw [hb] at h; simp at h
    | some b =>
      rw [hb] at h
      simp only [Option.map_some', Option.some.injEq] at h
      rw [← h]
      exact relabel_noHoles _ _ (hw.2.2.2 _ (getD_some_mem _ _ _ hb) _ rfl)
  · split at h
    · cases hb : g.rules.getD j none with
      | none => rw [hb] at h; simp at h
      | some b =>
        rw [hb] at h
        simp only [Option.map_some', Option.some.injEq] at h
        rw [← h]
        exact relabel_noHoles _ _ (hw.2.2.2 _ (getD_some_mem _ _ _ hb) _ rfl)
    · simp at h

theorem normalize_slot_above (g : SLHRGrammar) (k j : Nat) (hk : k ≤ (rule_ids g).length)
    (hj : g.rule_max + 1 - g.min_nt ≤ j) : normalize_slot g k j = none := by
  have hle := rule_ids_length_le g
  unfold normalize_slot
  rw [if_neg (by omega), if_neg]
  intro hmem
  have := ((rule_ids_mem g _).1 (List.mem_of_mem_drop hmem)).2.1
  omega

theorem normalize_state_wf (g : SLHRGrammar) (hw : BodiesWf g) (k : Nat)
    (hk : k ≤ (rule_ids g).length) : BodiesWf (normalize_state g k) := by
  refine ⟨hw.1, ?_, relabel_noHoles _ _ hw.2.2.1, ?_⟩
  · intro j hj hj2
    rw [normalize_state_length] at hj
    rw [normalize_state_getD g k j hj]
    exact normalize_slot_above g k j hk hj2
  · intro o ho r hr
    unfold normalize_state at ho
    simp only [List.mem_map, List.mem_range] at ho
    obtain ⟨j, _, rfl⟩ := ho
    exact normalize_slot_noHoles g hw k j r hr

theorem normalize_slot_succ (g : SLHRGrammar) (k : Nat) (hk : k < (rule_ids g).length)
    (j : Nat) :
    normalize_slot g (k + 1) j =
      if j = k then
        (g.rules.getD ((rule_ids g)[k] - g.min_nt) none).map
          (relabel_graph (renumber_upto g (k + 1)))
      else if j = (rule_ids g)[k] - g.min_nt then none
      else (normalize_slot g k j).map
        (relabel_graph (fun l => if l = (rule_ids g)[k] then g.min_nt + k else l)) := by
  obtain ⟨hsplit, hlen, hn1, hn2, hdisj, hlt, hge, hgt⟩ := rule_ids_split g k hk
  have hcomp : ∀ o : Option HGraph,
      (o.map (relabel_graph (renumber_upto g k))).map
        (relabel_graph (fun l => if l = (rule_ids g)[k] then g.min_nt + k else l)) =
      o.map (relabel_graph (renumber_upto g (k + 1))) := by
    intro o
    rw [Option.map_map]
    congr 1
    funext gr
    simp only [Function.comp]
    rw [relabel_graph_comp, renumber_upto_succ g k hk]
  have hdrop : ∀ x, x ∈ (rule_ids g).drop k ↔
      (x = (rule_ids g)[k] ∨ x ∈ (rule_ids g).drop (k + 1)) := by
    intro x
    rw [List.drop_eq_getElem_cons hk, List.mem_cons]
  by_cases h1 : j = k
  · subst h1
    rw [if_pos rfl]
    unfold normalize_slot
    rw [if_pos (by omega), List.getD_eq_getElem _ _ hk]
  · rw [if_neg h1]
    by_cases h2 : j = (rule_ids g)[k] - g.min_nt
    · rw [if_pos h2]
      unfold normalize_slot
      rw [if_neg (by omega), if_neg]
      rw [show g.min_nt + j = (rule_ids g)[k] by omega]
      exact hn2
    · rw [if_neg h2]
      unfold normalize_slot
      by_cases h3 : j < k
      · rw [if_pos h3, if_pos (by omega), hcomp]
      · rw [if_neg h3, if_neg (by omega)]
        have hne : g.min_nt + j ≠ (rule_ids g)[k] := by omega
        by_cases h4 : g.min_nt + j ∈ (rule_ids g).drop (k + 1)
        · rw [if_pos h4, if_pos ((hdrop _).2 (Or.inr h4)), hcomp]
        · rw [if_neg h4, if_neg]
          · rfl
          · rw [hdrop]
            exact fun h => h.elim hne h4

theorem normalize_slot_same (g : SLHRGrammar) (k : Nat) (hk : k < (rule_ids g).length)
    (he : (rule_ids g)[k] = g.min_nt + k) (j : Nat) :
    normalize_slot g (k + 1) j = normalize_slot g k j := by
  have hτ : (fun l => if l = (rule_ids g)[k] then g.min_nt + k else l) = fun l => l := by
    funext l
    by_cases hl : l = (rule_ids g)[k]
    · rw [if_pos hl, hl, he]
    · rw [if_neg hl]
  have hσ : renumber_upto g (k + 1) = renumber_upto g k := by
    rw [← renumber_upto_succ g k hk]
    funext l
    by_cases hl : renumber_upto g k l = (rule_ids g)[k]
    · rw [if_pos hl, hl, he]
    · rw [if_neg hl]
  have hid : ∀ o : Option HGraph, o.map (relabel_graph fun l => l) = o := by
    intro o
    cases o with
    | none => rfl
    | some b => simp only [Option.map_some', relabel_graph_id]
  rw [normalize_slot_succ g k hk j, hτ, hid]
  by_cases h1 : j = k
  · subst h1
    rw [if_pos rfl, hσ]
    unfold normalize_slot
    rw [if_neg (by omega), if_pos, he]
    · rw [show g.min_nt + j - g.min_nt = j by omega]
    · rw [List.drop_eq_getElem_cons hk, he]
      exact List.mem_cons_self _ _
  · rw [if_neg h1, if_neg (by omega)]


/-! ## repair_normalize: the loop -/

theorem rule_ids_slot (g : SLHRGrammar) (k : Nat) (hk : k < (rule_ids g).length) :
    g.min_nt ≤ (rule_ids g)[k] ∧ (rule_ids g)[k] ≤ g.rule_max ∧
      (rule_ids g)[k] - g.min_nt < g.rules.length ∧
      ∃ b, g.rules.getD ((rule_ids g)[k] - g.min_nt) none = some b := by
  have hmem : (rule_ids g)[k] ∈ rule_ids g := List.getElem_mem hk
  obtain ⟨h1, h2, h3⟩ := (rule_ids_mem g _).1 hmem
  obtain ⟨b, hb1, hb2⟩ := rule_stored_getD g _ h3
  refine ⟨h1, h2, ?_, b, hb1⟩
  by_contra hc
  rw [List.get?_eq_none.mpr (Nat.le_of_not_lt hc)] at hb2
  cases hb2

theorem normalize_step_spec (g : SLHRGrammar) (hw : BodiesWf g) (k : Nat)
    (hk : k < (rule_ids g).length) :
    normalize_step g.min_nt (slhr_grammar_symbols g) (normalize_state g k) (k + 1) =
      .ok (normalize_state g (k + 1)) := by
  obtain ⟨hsplit, hlen, hn1, hn2, hdisj, hlt, hge, hgt⟩ := rule_ids_split g k hk
  obtain ⟨s1, s2, s3, b, hb⟩ := rule_ids_slot g k hk
  have hnts : arr_get (slhr_grammar_symbols g) (k + 1) = .ok (rule_ids g)[k] := by
    rw [symbols_spec]
    unfold arr_get
    rw [List.get?_eq_getElem?, List.getElem?_cons_succ, List.getElem?_eq_getElem hk]
  unfold normalize_step
  rw [hnts, ok_bind]
  have hexp : g.min_nt + (k + 1) - 1 = g.min_nt + k := by omega
  simp only [hexp]
  by_cases he : (rule_ids g)[k] = g.min_nt + k
  · rw [if_neg (by simpa using he)]
    simp only [pure_eq_ok]
    congr 1
    unfold normalize_state
    have hσ : renumber_upto g (k + 1) = renumber_upto g k := by
      rw [← renumber_upto_succ g k hk]
      funext l
      by_cases hl : renumber_upto g k l = (rule_ids g)[k]
      · rw [if_pos hl, hl, he]
      · rw [if_neg hl]
    rw [hσ]
    congr 1
    apply List.map_congr_left
    intro j _
    exact (normalize_slot_same g k hk he j).symm
  · rw [if_pos he]
    have hklt : k < (rule_ids g)[k] - g.min_nt := by omega
    have hmoved : arr_get (normalize_state g k).rules ((rule_ids g)[k] - g.min_nt) =
        .ok ((g.rules.getD ((rule_ids g)[k] - g.min_nt) none).map
          (relabel_graph (renumber_upto g k))) := by
      unfold arr_get
      rw [List.get?_eq_getElem?, normalize_state_getElem? g k _ s3]
      simp only []
      congr 1
      unfold normalize_slot
      rw [if_neg (by omega), if_pos]
      rw [show g.min_nt + ((rule_ids g)[k] - g.min_nt) = (rule_ids g)[k] by omega,
        List.drop_eq_getElem_cons hk]
      exact List.mem_cons_self _ _
    rw [hmoved, ok_bind]
    have hsub : g.min_nt + k - g.min_nt = k := by omega
    simp only [hsub]
    rw [if_neg (by rw [normalize_state_length]; omega)]
    have hwk := normalize_state_wf g hw k (by omega)
    have hw2 : BodiesWf { normalize_state g k with
        rules := ((normalize_state g k).rules.set k
          ((g.rules.getD ((rule_ids g)[k] - g.min_nt) none).map
            (relabel_graph (renumber_upto g k)))).set ((rule_ids g)[k] - g.min_nt) none } := by
      refine ⟨hwk.1, ?_, hwk.2.2.1, ?_⟩
      · intro j hj hj2
        simp only [List.length_set] at hj
        simp only [List.getD_eq_getElem?_getD, List.getElem?_set]
        have hrm : (normalize_state g k).rule_max = g.rule_max := rfl
        have hmn : (normalize_state g k).min_nt = g.min_nt := rfl
        rw [hrm, hmn] at hj2
        rw [normalize_state_length] at hj
        rw [if_neg (by omega), if_neg (by omega), normalize_state_getElem? g k j hj,
          normalize_slot_above g k j (by omega) hj2]
        rfl
      · intro o ho r hr
        rcases mem_set_cases ho with h1 | h1
        · rcases mem_set_cases h1 with h2 | h2
          · exact hwk.2.2.2 o h2 r hr
          · rw [hb] at h2
            rw [h2] at hr
            simp only [Option.map_some', Option.some.injEq] at hr
            rw [← hr]
            exact relabel_noHoles _ _ (hw.2.2.2 _ (getD_some_mem _ _ _ hb) _ rfl)
        · rw [h1] at hr; cases hr
    have hfold := relabel_all_symbols (rule_ids g)[k] (g.min_nt + k) _ hw2
    rw [hfold]
    congr 1
    unfold relabel_grammar
    have hst : (normalize_state g k).start_symbol =
        relabel_graph (renumber_upto g k) g.start_symbol := rfl
    have hfields : normalize_state g (k + 1) =
        { normalize_state g k with
          start_symbol := relabel_graph (renumber_upto g (k + 1)) g.start_symbol
          rules := (List.range g.rules.length).map (normalize_slot g (k + 1)) } := rfl
    rw [hfields]
    simp only [hst, relabel_graph_comp, renumber_upto_succ g k hk]
    congr 1
    apply List.ext_getElem?
    intro j
    rw [List.getElem?_map, List.getElem?_set, List.getElem?_set, List.getElem?_map]
    simp only [List.length_set, normalize_state_length]
    by_cases hj : j < g.rules.length
    · rw [List.getElem?_range hj, normalize_state_getElem? g k j hj]
      simp only [Option.map_some']
      rw [normalize_slot_succ g k hk j]
      by_cases h1 : (rule_ids g)[k] - g.min_nt = j
      · rw [if_pos h1, if_pos (by omega), if_neg (by omega), if_pos h1.symm]
        rfl
      · rw [if_neg h1]
        by_cases h2 : k = j
        · rw [if_pos h2, if_pos (by omega), if_pos h2.symm]
          simp only [Option.map_some']
          congr 1
          rw [Option.map_map]
          congr 1
          funext gr
          simp only [Function.comp]
          rw [relabel_graph_comp, renumber_upto_succ g k hk]
        · rw [if_neg h2, if_neg (fun h => h2 h.symm), if_neg (fun h => h1 h.symm)]
          rfl
    · rw [List.getElem?_eq_none (l := List.range g.rules.length) (by simp; omega)]
      have hnone : (normalize_state g k).rules[j]? = none :=
        List.getElem?_eq_none (by rw [normalize_state_length]; omega)
      rw [if_neg (by omega), if_neg (by omega), hnone]
      rfl

theorem normalize_loop_spec (g : SLHRGrammar) (hw : BodiesWf g) :
    ∀ n, n ≤ (rule_ids g).length →
      (List.range n).foldlM
        (fun st k => normalize_step g.min_nt (slhr_grammar_symbols g) st (k + 1))
        (normalize_state g 0) = .ok (normalize_state g n) := by
  intro n
  induction n with
  | zero => intro _; rfl
  | succ n ih =>
    intro hn
    rw [List.range_succ, List.foldlM_append, ih (by omega), ok_bind]
    simp only [List.foldlM_cons, List.foldlM_nil]
    rw [normalize_step_spec g hw n (by omega), ok_bind]
    rfl

theorem normalize_state_zero (g : SLHRGrammar) (hw : BodiesWf g) : normalize_state g 0 = g := by
  have h := relabel_within_all (fun l => l) g hw
  unfold normalize_state
  rw [renumber_upto_zero, relabel_graph_id]
  cases g with
  | mk m s rm rules =>
    simp only [SLHRGrammar.mk.injEq, true_and]
    apply List.ext_getElem?
    intro j
    rw [List.getElem?_map]
    by_cases hj : j < rules.length
    · rw [List.getElem?_range hj, List.getElem?_eq_getElem hj]
      simp only [Option.map_some', Option.some.injEq]
      unfold normalize_slot
      rw [if_neg (by omega), List.drop_zero]
      simp only [List.getD_eq_getElem?_getD, List.getElem?_eq_getElem hj, Option.getD_some,
        renumber_upto_zero]
      have hid : ∀ o : Option HGraph, o.map (relabel_graph fun l => l) = o := by
        intro o
        cases o with
        | none => rfl
        | some b => simp only [Option.map_some', relabel_graph_id]
      rw [hid]
      by_cases hmem : m + j ∈ rule_ids ⟨m, s, rm, rules⟩
      · rw [if_pos hmem]
      · rw [if_neg hmem]
        rw [rule_ids_mem] at hmem
        symm
        by_cases hr : rm + 1 - m ≤ j
        · have := hw.2.1 j hj hr
          simp only [List.getD_eq_getElem?_getD, List.getElem?_eq_getElem hj,
            Option.getD_some] at this
          exact this
        · have hns : rule_stored ⟨m, s, rm, rules⟩ (m + j) ≠ true :=
            fun hs => hmem ⟨by simp, by simp; omega, hs⟩
          unfold rule_stored at hns
          simp only [show m + j - m = j by omega, List.get?_eq_getElem?,
            List.getElem?_eq_getElem hj] at hns
          cases hx : rules[j] with
          | none => rfl
          | some b => rw [hx] at hns; simp at hns
    · rw [List.getElem?_eq_none (by simp; omega), List.getElem?_eq_none (by omega)]
      rfl


/-! ## repair_normalize: the result -/

theorem rule_ids_empty (g : SLHRGrammar) (hw : PrunedWf g) (h0 : g.rule_max = 0) :
    rule_ids g = [] := by
  unfold rule_ids
  have := hw.1.1
  rw [h0, show 0 + 1 - g.min_nt = 0 by omega]
  rfl

theorem rule_ids_ne_nil (g : SLHRGrammar) (hw : PrunedWf g) (h0 : g.rule_max ≠ 0) :
    rule_ids g ≠ [] := by
  obtain ⟨h1, h2⟩ := hw.2 h0
  intro he
  have : g.rule_max ∈ rule_ids g := (rule_ids_mem g _).2 ⟨h1, le_refl _, h2⟩
  rw [he] at this
  simp at this

/-- The value of `repair_normalize`. -/
theorem repair_normalize_value (g : SLHRGrammar) (hw : PrunedWf g) :
    repair_normalize g =
      .ok (if g.rule_max = 0 then g
        else { normalize_state g (rule_ids g).length with
          rule_max := g.min_nt + (rule_ids g).length - 1 }) := by
  unfold repair_normalize
  by_cases h0 : g.rule_max = 0
  · rw [if_pos h0, if_pos h0]; rfl
  · rw [if_neg h0, if_neg h0]
    have hne := rule_ids_ne_nil g hw h0
    have hpos : 0 < (rule_ids g).length := List.length_pos.2 hne
    simp only [symbols_spec, List.length_cons]
    rw [if_neg (by omega)]
    have hloop := normalize_loop_spec g hw.1 (rule_ids g).length (le_refl _)
    rw [normalize_state_zero g hw.1, symbols_spec] at hloop
    simp only [Nat.add_sub_cancel]
    rw [hloop, ok_bind]
    simp only [pure_eq_ok]
    congr 2

theorem normalize_slot_final (g : SLHRGrammar) (j : Nat) :
    normalize_slot g (rule_ids g).length j =
      if j < (rule_ids g).length then
        (g.rules.getD ((rule_ids g).getD j 0 - g.min_nt) none).map (relabel_graph (renumber g))
      else none := by
  unfold normalize_slot
  rw [renumber_upto_all, List.drop_length]
  simp

theorem normalized_rule_get (g : SLHRGrammar) (hw : PrunedWf g)
    (k : Nat) (hk : k < (rule_ids g).length) :
    ∃ r, slhr_grammar_rule_get g (rule_ids g)[k] = .ok r ∧
      slhr_grammar_rule_get
        { normalize_state g (rule_ids g).length with
          rule_max := g.min_nt + (rule_ids g).length - 1 } (g.min_nt + k) =
        .ok (relabel_graph (renumber g) r) ∧ some r ∈ g.rules := by
  obtain ⟨s1, s2, s3, b, hb⟩ := rule_ids_slot g k hk
  have hm1 := hw.1.1
  have hge := sorted_ge_index (rule_ids g) g.min_nt (rule_ids_sorted g)
    (fun x hx => ((rule_ids_mem g x).1 hx).1) k hk
  have hklt : k < g.rules.length := by omega
  refine ⟨b, ?_, ?_, getD_some_mem _ _ _ hb⟩
  · unfold slhr_grammar_rule_get
    rw [if_neg (by unfold START_SYMBOL; omega), if_neg (by omega), if_neg (by omega)]
    rw [List.getD_eq_getElem?_getD, List.getElem?_eq_getElem s3] at hb
    rw [List.get?_eq_getElem?, List.getElem?_eq_getElem s3]
    simp only [Option.getD_some] at hb
    rw [hb]
  · unfold slhr_grammar_rule_get
    rw [if_neg (by unfold START_SYMBOL; omega)]
    simp only []
    have hmn : (normalize_state g (rule_ids g).length).min_nt = g.min_nt := rfl
    rw [hmn, if_neg (by omega), if_neg (by omega)]
    rw [show g.min_nt + k - g.min_nt = k by omega, List.get?_eq_getElem?,
      normalize_state_getElem? g _ k hklt, normalize_slot_final, if_pos hk,
      List.getD_eq_getElem _ _ hk, hb]
    rfl

theorem bind_congr_arg {α β : Type} {x y : Except Err α} (h : x = y)
    (f : α → Except Err β) : (x >>= f) = (y >>= f) := by
  rw [h]

theorem mapM_map_congr {α β γ : Type} (f : β → Except Err γ) (f1 : α → Except Err γ)
    (h : α → β) : ∀ l : List α, (∀ x ∈ l, f (h x) = f1 x) → (l.map h).mapM f = l.mapM f1 := by
  intro l
  induction l with
  | nil => intro _; rfl
  | cons x l ih =>
    intro hx
    rw [List.map_cons, List.mapM_cons, List.mapM_cons, hx x (List.mem_cons_self _ _),
      ih (fun y hy => hx y (List.mem_cons_of_mem _ hy))]

theorem renumber_terminal (g : SLHRGrammar) (l : Nat) (h : l ∉ rule_ids g) :
    renumber g l = l := by
  unfold renumber
  rw [if_neg h]

theorem renumber_rule (g : SLHRGrammar) (k : Nat) (hk : k < (rule_ids g).length) :
    renumber g (rule_ids g)[k] = g.min_nt + k := by
  unfold renumber
  rw [if_pos (List.getElem_mem hk), List.indexOf_getElem (rule_ids_nodup g)]

theorem rule_inserter_edge_relabel (f : Nat → Nat) (e b : HEdge) :
    rule_inserter_edge (relabel_edge f e) (relabel_edge f b) =
      (rule_inserter_edge e b).map (relabel_edge f) := by
  unfold rule_inserter_edge relabel_edge
  simp only []
  cases (List.range b.rank).mapM (fun j => do
      let k ← arr_get b.nodes j
      arr_get e.nodes k) with
  | error x => rfl
  | ok nodes => rfl

theorem rule_inserter_edge_label (e b e1 : HEdge) (h : rule_inserter_edge e b = .ok e1) :
    e1.label = b.label := by
  unfold rule_inserter_edge at h
  cases hm : (List.range b.rank).mapM (fun j => do
      let k ← arr_get b.nodes j
      arr_get e.nodes k) with
  | error x => rw [hm] at h; cases h
  | ok nodes =>
    rw [hm] at h
    simp only [ok_bind, pure_eq_ok, Except.ok.injEq] at h
    rw [← h]

theorem derive_edge_normalized (g : SLHRGrammar) (hw : PrunedWf g) (hc : ClosedLabels g) :
    ∀ (fuel : Nat) (e : HEdge), (e.label < g.min_nt ∨ e.label ∈ rule_ids g) →
      derive_edge
        { normalize_state g (rule_ids g).length with
          rule_max := g.min_nt + (rule_ids g).length - 1 } fuel (relabel_edge (renumber g) e) =
      derive_edge g fuel e := by
  intro fuel
  induction fuel with
  | zero => intro e _; rfl
  | succ n ih =>
    intro e he
    unfold derive_edge
    have hmn : ({ normalize_state g (rule_ids g).length with
        rule_max := g.min_nt + (rule_ids g).length - 1 } : SLHRGrammar).min_nt = g.min_nt := rfl
    rw [hmn]
    by_cases hlt : e.label < g.min_nt
    · have hnot : e.label ∉ rule_ids g := fun hmem => by
        have := ((rule_ids_mem g _).1 hmem).1
        omega
      have hrel : relabel_edge (renumber g) e = e := by
        unfold relabel_edge
        rw [renumber_terminal g _ hnot]
      rw [hrel, if_pos hlt, if_pos hlt]
    · have hmem : e.label ∈ rule_ids g := he.resolve_left hlt
      obtain ⟨k, hk, hke⟩ := List.getElem_of_mem hmem
      have hlab : (relabel_edge (renumber g) e).label = g.min_nt + k := by
        show renumber g e.label = _
        rw [← hke, renumber_rule g k hk]
      obtain ⟨r, hr1, hr2, hr3⟩ := normalized_rule_get g hw k hk
      rw [hke] at hr1
      rw [hlab, if_neg (by omega), if_neg hlt, hr1, hr2, ok_bind, ok_bind]
      have hmap : (relabel_graph (renumber g) r).edges =
          r.edges.map (Option.map (relabel_edge (renumber g))) := rfl
      rw [hmap]
      refine bind_congr_arg (mapM_map_congr _ _ _ _ ?_) _
      intro oe hoe
      cases oe with
      | none => rfl
      | some b =>
        simp only [Option.map_some']
        rw [rule_inserter_edge_relabel]
        cases hi : rule_inserter_edge e b with
        | error x => rfl
        | ok e1 =>
          simp only [Except.map, ok_bind]
          apply ih
          rw [rule_inserter_edge_label e b e1 hi]
          exact hc.2 _ hr3 r rfl _ hoe b rfl

theorem rule_get_range (g : SLHRGrammar) (id : Nat) (r : HGraph) (h0 : id ≠ START_SYMBOL)
    (h : slhr_grammar_rule_get g id = .ok r) : g.min_nt ≤ id ∧ id ≤ g.rule_max := by
  unfold slhr_grammar_rule_get at h
  rw [if_neg h0] at h
  by_cases h1 : id < g.min_nt
  · rw [if_pos h1] at h; cases h
  · rw [if_neg h1] at h
    by_cases h2 : g.rule_max < id
    · rw [if_pos h2] at h; cases h
    · omega

/-- C31 (amended; `repair_normalize`, `slhr_grammar_next_rule`): for every
grammar as pruning leaves it (no rule stored above `rule_max`, `rule_max` 0 or
the id of a stored rule, no NULL edge in a body), `repair_normalize` returns a
grammar with the same `min_nt` in which a rule exists for an id exactly when
`min_nt <= id <= rule_max`; `rule_max` is `min_nt + n - 1` for `n >= 1`
remaining rules and stays 0 when no rule remains; the `k`-th remaining rule in
ascending id order is the rule of `min_nt + k`, its body and the start symbol
carry the labels mapped by `renumber` (the `k`-th remaining id becomes
`min_nt + k`, every other label, so every terminal, stays); and when every
label is a terminal or the id of a stored rule, the derived graph is the
same. -/
theorem repair_normalize_renumbers (g : SLHRGrammar) (hw : PrunedWf g) :
    ∃ g1, repair_normalize g = .ok g1 ∧ g1.min_nt = g.min_nt ∧
      g1.rule_max = (if rule_ids g = [] then 0 else g.min_nt + (rule_ids g).length - 1) ∧
      (∀ id, id ≠ START_SYMBOL →
        ((∃ r, slhr_grammar_rule_get g1 id = .ok r) ↔ (g1.min_nt ≤ id ∧ id ≤ g1.rule_max))) ∧
      g1.start_symbol = relabel_graph (renumber g) g.start_symbol ∧
      (∀ k (hk : k < (rule_ids g).length),
        ∃ r, slhr_grammar_rule_get g (rule_ids g)[k] = .ok r ∧
          slhr_grammar_rule_get g1 (g.min_nt + k) = .ok (relabel_graph (renumber g) r) ∧
          renumber g (rule_ids g)[k] = g.min_nt + k) ∧
      (∀ l, l ∉ rule_ids g → renumber g l = l) ∧
      (ClosedLabels g → ∀ fuel, derive_graph g1 fuel = derive_graph g fuel) := by
  have hval := repair_normalize_value g hw
  have hm1 := hw.1.1
  by_cases h0 : g.rule_max = 0
  · rw [if_pos h0] at hval
    have hids := rule_ids_empty g hw h0
    have hren : renumber g = fun l => l := by
      funext l
      exact renumber_terminal g l (by rw [hids]; simp)
    refine ⟨g, hval, rfl, by rw [if_pos hids, h0], ?_, by rw [hren, relabel_graph_id], ?_,
      fun l hl => renumber_terminal g l hl, fun _ _ => rfl⟩
    · intro id hid
      constructor
      · rintro ⟨r, hr⟩
        exact rule_get_range g id r hid hr
      · rintro ⟨h1, h2⟩
        omega
    · intro k hk
      rw [hids] at hk
      simp at hk
  · rw [if_neg h0] at hval
    have hne := rule_ids_ne_nil g hw h0
    have hpos : 0 < (rule_ids g).length := List.length_pos.2 hne
    refine ⟨_, hval, rfl, by rw [if_neg hne], ?_, ?_, ?_,
      fun l hl => renumber_terminal g l hl, ?_⟩
    · intro id hid
      constructor
      · rintro ⟨r, hr⟩
        exact rule_get_range _ id r hid hr
      · rintro ⟨h1, h2⟩
        have h1 : g.min_nt ≤ id := h1
        have h2 : id ≤ g.min_nt + (rule_ids g).length - 1 := h2
        obtain ⟨r, -, hr2, -⟩ := normalized_rule_get g hw (id - g.min_nt) (by omega)
        rw [show g.min_nt + (id - g.min_nt) = id by omega] at hr2
        exact ⟨_, hr2⟩
    · show relabel_graph (renumber_upto g (rule_ids g).length) g.start_symbol = _
      rw [renumber_upto_all]
    · intro k hk
      obtain ⟨r, hr1, hr2, -⟩ := normalized_rule_get g hw k hk
      exact ⟨r, hr1, hr2, renumber_rule g k hk⟩
    · intro hc fuel
      unfold derive_graph
      have hst : ({ normalize_state g (rule_ids g).length with
          rule_max := g.min_nt + (rule_ids g).length - 1 } : SLHRGrammar).start_symbol.edges =
          g.start_symbol.edges.map (Option.map (relabel_edge (renumber g))) := by
        show (relabel_graph (renumber_upto g (rule_ids g).length) g.start_symbol).edges = _
        rw [renumber_upto_all]
        rfl
      rw [hst]
      refine bind_congr_arg (mapM_map_congr _ _ _ _ ?_) _
      intro oe hoe
      cases oe with
      | none => rfl
      | some e =>
        simp only [Option.map_some']
        exact derive_edge_normalized g hw hc fuel e (hc.1 _ hoe e rfl)

theorem repair_normalize_renumbers_witness :
    PrunedWf gapPrunedGrammar ∧
    ∃ g1, repair_normalize gapPrunedGrammar = .ok g1 ∧ g1.min_nt = 3 ∧ g1.rule_max = 3 ∧
      slhr_grammar_rule_get g1 3 =
        .ok (relabel_graph (renumber gapPrunedGrammar)
          { edges := [some { label := 0, rank := 3, nodes := [0, 1, 2] },
                      some { label := 0, rank := 3, nodes := [3, 3, 4] }]
            rank := 5 }) ∧
      renumber gapPrunedGrammar 4 = 3 ∧
      derive_graph g1 5 = derive_graph gapPrunedGrammar 5 := by
  have hw : PrunedWf gapPrunedGrammar := by decide
  obtain ⟨g1, h1, h2, h3, -, -, h6, -, h8⟩ := repair_normalize_renumbers gapPrunedGrammar hw
  refine ⟨hw, g1, h1, h2, ?_, ?_, by decide, h8 (by decide) 5⟩
  · rw [h3]; decide
  · obtain ⟨r, hr1, hr2, -⟩ := h6 0 (by decide)
    have e1 : slhr_grammar_rule_get gapPrunedGrammar 4 =
        .ok { edges := [some { label := 0, rank := 3, nodes := [0, 1, 2] },
                        some { label := 0, rank := 3, nodes := [3, 3, 4] }]
              rank := 5 } := by decide
    have e2 : (rule_ids gapPrunedGrammar)[0] = 4 := by decide
    rw [e2, e1] at hr1
    rw [← Except.ok.inj hr1] at hr2
    exact hr2

/-- C31 (counterexample): pruning `prunedAwayGrammar` (terminals 0..2, one
rule with id 3) inlines and deletes its only rule; `repair_normalize` then
leaves `rule_max = 0`, while `min_nt + (number of remaining rules) - 1` is 2.
Pruning `gapGrammar` deletes rule 3 and keeps rule 4. -/
theorem repair_normalize_rule_max_counterexample :
    (do
      let g ← repair_prune 10 prunedAwayGrammar
      let g1 ← repair_normalize g
      pure (rule_ids prunedAwayGrammar, rule_ids g, g1.min_nt, g1.rule_max, rule_ids g1,
        g1.min_nt + (rule_ids g1).length - 1)) = .ok ([3], [], 3, 0, [], 2) ∧
    repair_prune 10 gapGrammar = .ok gapPrunedGrammar := by
  decide!


/-! ## find_occurrence_complete as a sequence of blocks -/

theorem ite_bind_distrib {α β : Type} (c : Prop) [Decidable c] (a b : Except Err α)
    (F : α → Except Err β) :
    ((if c then a else b) >>= F) = if c then a >>= F else b >>= F := by
  split <;> rfl

theorem option_match_bind {α β : Type} (r : Option Nat) (A : Nat → Except Err α)
    (B : Except Err α) (F : α → Except Err β) :
    ((match r with | some idx => A idx | none => B) >>= F) =
      match r with | some idx => A idx >>= F | none => B >>= F := by
  cases r <;> rfl

theorem find_occurrence_complete_eq (start_rule : HGraph) (state : OccState) (i : Nat)
    (edge : HEdge) (node : Nat) (a a2 : AdjacencyType) :
    find_occurrence_complete start_rule state i edge node a a2 =
      find_occurrence_complete_steps start_rule state i edge node a a2 := by
  unfold find_occurrence_complete find_occurrence_complete_steps find_occurrence_take_partner
    find_occurrence_tidy_node find_occurrence_release_edge find_occurrence_release_partner
    occ_state_drop_empty occ_state_unregister occ_state_delete_i
  simp only [bind_assoc, pure_bind, ite_bind_distrib, option_match_bind] <;> rfl

/-! ## The operations on the search state -/

theorem digram_adj_inj (d : Digram) (hne : d.adj0 ≠ d.adj1) (b c : Bool) :
    digram_adj d b = digram_adj d c ↔ b = c := by
  cases b <;> cases c <;> simp [digram_adj, hne, Ne.symm hne]

theorem occ_lists_count_update_some (v : Bool → Option (List Nat)) (b : Bool) (l l1 : List Nat)
    (h : v b = some l) : occ_lists_count (Function.update v b (some l1)) = occ_lists_count v := by
  cases b <;> simp [occ_lists_count, h, Function.update]

theorem occ_lists_count_update_new (v : Bool → Option (List Nat)) (b : Bool) (l1 : List Nat)
    (h : v b = none) :
    occ_lists_count (Function.update v b (some l1)) = occ_lists_count v + 1 := by
  cases b <;> simp [occ_lists_count, h, Function.update] <;> omega

theorem occ_lists_count_update_none (v : Bool → Option (List Nat)) (b : Bool) (l : List Nat)
    (h : v b = some l) :
    occ_lists_count (Function.update v b none) + 1 = occ_lists_count v := by
  cases b <;> simp [occ_lists_count, h, Function.update] <;> omega

theorem occ_lists_count_eq (v : Bool → Option (List Nat)) (b : Bool) :
    occ_lists_count v = (if (v b).isSome then 1 else 0) + (if (v (!b)).isSome then 1 else 0) := by
  cases b <;> simp [occ_lists_count] <;> omega

theorem occ_rep_get {d : Digram} {s : OccState} {σ : Nat → Option (Bool → Option (List Nat))}
    (hr : OccRep d s σ) {n : Nat} {v : Bool → Option (List Nat)} (hv : σ n = some v) :
    ∃ m, hashmap_get s.map n = some (.map m) ∧ HWf m ∧
      (∀ b, hashmap_get m (digram_adj d b) = v b) ∧ hashmap_size m = occ_lists_count v := by
  have := hr.2 n
  rw [hv] at this
  exact this

theorem occ_rep_none {d : Digram} {s : OccState} {σ : Nat → Option (Bool → Option (List Nat))}
    (hr : OccRep d s σ) {n : Nat} (hv : σ n = none) : hashmap_get s.map n = none := by
  have := hr.2 n
  rw [hv] at this
  exact this

theorem occ_elem_map_eq (s : OccState) (n : Nat) (m : Hashmap AdjacencyType (List Nat))
    (flag : Bool) (h : hashmap_get s.map n = some (.map m)) :
    occ_state_elem_map s n flag = .ok m := by
  unfold occ_state_elem_map
  rw [h]

theorem occ_store_rep {d : Digram} {s : OccState} {σ : Nat → Option (Bool → Option (List Nat))}
    (hr : OccRep d s σ) (n : Nat) (m0 : Hashmap AdjacencyType (List Nat))
    (hg : hashmap_get s.map n = some (.map m0)) (m1 : Hashmap AdjacencyType (List Nat))
    (v1 : Bool → Option (List Nat)) (hw1 : HWf m1)
    (hg1 : ∀ b, hashmap_get m1 (digram_adj d b) = v1 b)
    (hs1 : hashmap_size m1 = occ_lists_count v1) :
    OccRep d (occ_state_store s n m1) (Function.update σ n (some v1)) := by
  obtain ⟨a1, a2, _⟩ := hashmap_set_val_spec s.map hr.1 n (OccStateElement.map m1)
  refine ⟨a1, ?_⟩
  intro n1
  by_cases hn : n1 = n
  · subst hn
    rw [Function.update_same]
    refine ⟨m1, ?_, hw1, hg1, hs1⟩
    show hashmap_get (hashmap_set_val s.map n1 (OccStateElement.map m1)) n1 = _
    rw [a2, hg]
    simp
  · rw [Function.update_noteq hn]
    have : hashmap_get (occ_state_store s n m1).map n1 = hashmap_get s.map n1 := by
      show hashmap_get (hashmap_set_val s.map n (OccStateElement.map m1)) n1 = _
      rw [a2, if_neg (fun h => hn h.1)]
    rw [this]
    exact hr.2 n1

theorem occ_contains_node_eq {d : Digram} {s : OccState}
    {σ : Nat → Option (Bool → Option (List Nat))} (hr : OccRep d s σ) (n : Nat) :
    occ_state_contains_node s n = (σ n).isSome := by
  unfold occ_state_contains_node
  rw [hashmap_contains_key_get]
  cases hv : σ n with
  | none =>
    rw [occ_rep_none hr hv]
    rfl
  | some v =>
    obtain ⟨m, hm, _⟩ := occ_rep_get hr hv
    rw [hm]
    rfl

theorem occ_contains_adj_eq {d : Digram} {s : OccState}
    {σ : Nat → Option (Bool → Option (List Nat))} (hr : OccRep d s σ) {n : Nat}
    {v : Bool → Option (List Nat)} (hv : σ n = some v) (b : Bool) :
    occ_state_node_contains_adj s n (digram_adj d b) = .ok (v b).isSome := by
  obtain ⟨m, hm, _, hg, _⟩ := occ_rep_get hr hv
  unfold occ_state_node_contains_adj
  rw [occ_elem_map_eq s n m true hm, ok_bind, hashmap_contains_key_get, hg]
  rfl

theorem occ_len_eq {d : Digram} {s : OccState}
    {σ : Nat → Option (Bool → Option (List Nat))} (hr : OccRep d s σ) {n : Nat}
    {v : Bool → Option (List Nat)} (hv : σ n = some v) :
    occ_state_node_len s n = .ok (occ_lists_count v) := by
  obtain ⟨m, hm, _, _, hs⟩ := occ_rep_get hr hv
  unfold occ_state_node_len
  rw [occ_elem_map_eq s n m true hm, ok_bind, hs]
  rfl

theorem occ_list_eq {d : Digram} {s : OccState}
    {σ : Nat → Option (Bool → Option (List Nat))} (hr : OccRep d s σ) {n : Nat}
    {v : Bool → Option (List Nat)} (hv : σ n = some v) {b : Bool} {l : List Nat}
    (hl : v b = some l) :
    occ_state_node_list s n (digram_adj d b) = .ok l := by
  obtain ⟨m, hm, _, hg, _⟩ := occ_rep_get hr hv
  unfold occ_state_node_list
  rw [occ_elem_map_eq s n m true hm, ok_bind, hg, hl]
  rfl

theorem occ_list_set_spec {d : Digram} (hne : d.adj0 ≠ d.adj1) {s : OccState}
    {σ : Nat → Option (Bool → Option (List Nat))} (hr : OccRep d s σ) {n : Nat}
    {v : Bool → Option (List Nat)} (hv : σ n = some v) {b : Bool} {l : List Nat}
    (hl : v b = some l) (l1 : List Nat) :
    ∃ s1, occ_state_node_list_set s n (digram_adj d b) l1 = .ok s1 ∧
      OccRep d s1 (occ_set σ n b (some l1)) ∧ s1.start = s.start := by
  obtain ⟨m, hm, hw, hg, hs⟩ := occ_rep_get hr hv
  obtain ⟨a1, a2, a3⟩ := hashmap_set_val_spec m hw (digram_adj d b) l1
  refine ⟨occ_state_store s n (hashmap_set_val m (digram_adj d b) l1), ?_, ?_, ?_⟩
  · unfold occ_state_node_list_set
    rw [occ_elem_map_eq s n m true hm, ok_bind]
    rfl
  · unfold occ_set
    rw [hv]
    refine occ_store_rep hr n m hm _ _ a1 ?_ ?_
    · intro c
      rw [a2, hg, hl]
      by_cases hc : c = b
      · subst hc
        simp
      · rw [Function.update_noteq hc, if_neg, hg]
        intro h
        exact hc ((digram_adj_inj d hne c b).mp h.1)
    · show (hashmap_set_val m (digram_adj d b) l1).size = _
      rw [a3, occ_lists_count_update_some v b l l1 hl]
      exact hs
  · rfl

theorem occ_adj_del_spec {d : Digram} (hne : d.adj0 ≠ d.adj1) {s : OccState}
    {σ : Nat → Option (Bool → Option (List Nat))} (hr : OccRep d s σ) {n : Nat}
    {v : Bool → Option (List Nat)} (hv : σ n = some v) {b : Bool} {l : List Nat}
    (hl : v b = some l) :
    ∃ s1, occ_state_node_adj_del s n (digram_adj d b) = .ok s1 ∧
      OccRep d s1 (occ_set σ n b none) ∧ s1.start = s.start := by
  obtain ⟨m, hm, hw, hg, hs⟩ := occ_rep_get hr hv
  obtain ⟨a1, a2, a3⟩ := hashmap_remove_spec m hw (digram_adj d b)
  refine ⟨occ_state_store s n (hashmap_remove m (digram_adj d b)).1, ?_, ?_, ?_⟩
  · unfold occ_state_node_adj_del
    rw [occ_elem_map_eq s n m false hm, ok_bind, hg, hl]
    rfl
  · unfold occ_set
    rw [hv]
    refine occ_store_rep hr n m hm _ _ a1 ?_ ?_
    · intro c
      rw [a2]
      by_cases hc : c = b
      · subst hc
        simp
      · rw [Function.update_noteq hc, if_neg, hg]
        intro h
        exact hc ((digram_adj_inj d hne c b).mp h)
    · rw [hg, hl] at a3
      simp only [Option.isSome_some, if_true] at a3
      have := occ_lists_count_update_none v b l hl
      show (hashmap_remove m (digram_adj d b)).1.size = _
      unfold hashmap_size at hs
      omega
  · rfl

theorem occ_set_i_spec {d : Digram} (hne : d.adj0 ≠ d.adj1) {s : OccState}
    {σ : Nat → Option (Bool → Option (List Nat))} (hr : OccRep d s σ) {n : Nat}
    {v : Bool → Option (List Nat)} (hv : σ n = some v) {b : Bool}
    (hl : v b = none) (i : Nat) :
    ∃ s1, occ_state_node_adj_set_i s n (digram_adj d b) i = .ok s1 ∧
      OccRep d s1 (occ_set σ n b (some [i])) ∧ s1.start = s.start := by
  obtain ⟨m, hm, hw, hg, hs⟩ := occ_rep_get hr hv
  unfold occ_state_node_adj_set_i
  rw [occ_elem_map_eq s n m false hm, ok_bind]
  obtain ⟨m1, r, hp, a1, a2, a3, _⟩ := hashmap_put_spec m hw (digram_adj d b) [i]
  · rw [hp, ok_bind]
    refine ⟨_, rfl, ?_, rfl⟩
    unfold occ_set
    rw [hv]
    refine occ_store_rep hr n m hm _ _ a1 ?_ ?_
    · intro c
      rw [a2]
      by_cases hc : c = b
      · subst hc
        simp
      · rw [Function.update_noteq hc, if_neg, hg]
        intro h
        exact hc ((digram_adj_inj d hne c b).mp h)
    · rw [hg, hl] at a3
      simp only [Option.isSome_none, Bool.false_eq_true, if_false] at a3
      unfold hashmap_size at hs ⊢
      rw [a3, occ_lists_count_update_new v b [i] hl, hs]

theorem occ_node_del_spec {d : Digram} {s : OccState}
    {σ : Nat → Option (Bool → Option (List Nat))} (hr : OccRep d s σ) {n : Nat}
    {v : Bool → Option (List Nat)} (hv : σ n = some v) :
    ∃ s1, occ_state_node_del s n = .ok s1 ∧
      OccRep d s1 (Function.update σ n none) ∧ s1.start = s.start := by
  obtain ⟨m, hm, _⟩ := occ_rep_get hr hv
  obtain ⟨a1, a2, _⟩ := hashmap_remove_spec s.map hr.1 n
  refine ⟨{ s with map := (hashmap_remove s.map n).1 }, ?_, ?_, ?_⟩
  · unfold occ_state_node_del
    rw [hm]
  · refine ⟨a1, ?_⟩
    intro n1
    show match Function.update σ n none n1 with
      | none => hashmap_get (hashmap_remove s.map n).1 n1 = none
      | some v => ∃ m, hashmap_get (hashmap_remove s.map n).1 n1 = some (.map m) ∧ _
    rw [a2]
    by_cases hn : n1 = n
    · subst hn
      rw [Function.update_same, if_pos rfl]
    · rw [Function.update_noteq hn, if_neg hn]
      exact hr.2 n1
  · rfl

theorem occ_adj_init_spec {d : Digram} (hne : d.adj0 ≠ d.adj1) {s : OccState}
    {σ : Nat → Option (Bool → Option (List Nat))} (hr : OccRep d s σ) {n : Nat}
    (hv : σ n = none) (b : Bool) (i : Nat) :
    ∃ s1, occ_state_node_adj_init s n (digram_adj d b) i = .ok s1 ∧
      OccRep d s1 (Function.update σ n
        (some (Function.update (fun _ => none) b (some [i])))) ∧ s1.start = s.start := by
  unfold occ_state_node_adj_init
  obtain ⟨m1, r, hp, a1, a2, a3, _⟩ :=
    hashmap_put_spec (hashmap_init : Hashmap AdjacencyType (List Nat)) hwf_init
      (digram_adj d b) [i]
  · rw [hp, ok_bind]
    obtain ⟨m2, r2, hq, c1, c2, _⟩ := hashmap_put_spec s.map hr.1 n (OccStateElement.map m1)
    · rw [hq, ok_bind]
      refine ⟨_, rfl, ?_, rfl⟩
      refine ⟨c1, ?_⟩
      intro n1
      show match Function.update σ n _ n1 with
        | none => hashmap_get m2 n1 = none
        | some v => ∃ m, hashmap_get m2 n1 = some (.map m) ∧ _
      rw [c2]
      by_cases hn : n1 = n
      · subst hn
        rw [Function.update_same, if_pos rfl]
        refine ⟨m1, rfl, a1, ?_, ?_⟩
        · intro c
          rw [a2, hashmap_get_init]
          by_cases hc : c = b
          · subst hc
            simp
          · rw [Function.update_noteq hc, if_neg]
            intro h
            exact hc ((digram_adj_inj d hne c b).mp h)
        · rw [hashmap_get_init] at a3
          unfold hashmap_size
          rw [a3]
          cases b <;> simp [occ_lists_count, Function.update, hashmap_init]
      · rw [Function.update_noteq hn, if_neg hn]
        exact hr.2 n1

theorem indexOf?_spec (l : List Nat) (i : Nat) :
    match l.indexOf? i with
    | some idx => idx < l.length ∧ i ∈ l ∧ l.eraseIdx idx = l.erase i
    | none => i ∉ l := by
  cases h : l.indexOf? i with
  | none =>
    unfold List.indexOf? at h
    intro hm
    have := List.findIdx?_eq_none_iff.mp h i hm
    simp at this
  | some idx =>
    unfold List.indexOf? at h
    obtain ⟨h1, h2⟩ := List.findIdx?_eq_some_iff_findIdx_eq.mp h
    have hi : List.indexOf i l = idx := h2
    have hm : i ∈ l := List.indexOf_lt_length.mp (by rw [hi]; exact h1)
    exact ⟨h1, hm, by rw [← hi, List.eraseIdx_indexOf_eq_erase]⟩

theorem occ_set_self (σ : Nat → Option (Bool → Option (List Nat))) (n : Nat)
    (v : Bool → Option (List Nat)) (hv : σ n = some v) (b : Bool) (o : Option (List Nat))
    (h : v b = o) : occ_set σ n b o = σ := by
  unfold occ_set
  rw [hv]
  show Function.update σ n (some (Function.update v b o)) = σ
  rw [← h, Function.update_eq_self, ← hv, Function.update_eq_self]

theorem occ_set_get (σ : Nat → Option (Bool → Option (List Nat))) (n : Nat)
    (v : Bool → Option (List Nat)) (hv : σ n = some v) (b : Bool) (o : Option (List Nat)) :
    occ_set σ n b o n = some (Function.update v b o) ∧
      ∀ n1, n1 ≠ n → occ_set σ n b o n1 = σ n1 := by
  unfold occ_set
  rw [hv]
  exact ⟨Function.update_same _ _ _, fun n1 h => Function.update_noteq h _ _⟩

theorem occ_adj_len_eq {d : Digram} {s : OccState}
    {σ : Nat → Option (Bool → Option (List Nat))} (hr : OccRep d s σ) {n : Nat}
    {v : Bool → Option (List Nat)} (hv : σ n = some v) {b : Bool} {l : List Nat}
    (hl : v b = some l) :
    occ_state_node_adj_len s n (digram_adj d b) = .ok l.length := by
  unfold occ_state_node_adj_len
  rw [occ_list_eq hr hv hl]
  rfl

theorem occ_contains_i_eq {d : Digram} {s : OccState}
    {σ : Nat → Option (Bool → Option (List Nat))} (hr : OccRep d s σ) {n : Nat}
    {v : Bool → Option (List Nat)} (hv : σ n = some v) {b : Bool} {l : List Nat}
    (hl : v b = some l) (i : Nat) :
    occ_state_node_adj_contains_i s n (digram_adj d b) i = .ok (l.indexOf? i) := by
  unfold occ_state_node_adj_contains_i
  rw [occ_list_eq hr hv hl]
  rfl

theorem occ_matches_i_eq {d : Digram} {s : OccState}
    {σ : Nat → Option (Bool → Option (List Nat))} (hr : OccRep d s σ) {n : Nat}
    {v : Bool → Option (List Nat)} (hv : σ n = some v) {b : Bool} {l : List Nat}
    (hl : v b = some l) (i : Nat) :
    occ_state_node_adj_matches_i s n (digram_adj d b) i = .ok (decide (l = [i])) := by
  unfold occ_state_node_adj_matches_i
  rw [occ_list_eq hr hv hl, ok_bind]
  congr 1
  cases l with
  | nil => simp
  | cons x t =>
    cases t with
    | nil =>
      simp only [List.length_singleton, beq_self_eq_true, List.head?_cons, Bool.true_and,
        List.cons.injEq, and_true]
      by_cases hxi : x = i
      · subst hxi
        simp
      · simp [hxi]
    | cons y t => simp

theorem occ_append_spec {d : Digram} (hne : d.adj0 ≠ d.adj1) {s : OccState}
    {σ : Nat → Option (Bool → Option (List Nat))} (hr : OccRep d s σ) {n : Nat}
    {v : Bool → Option (List Nat)} (hv : σ n = some v) {b : Bool} {l : List Nat}
    (hl : v b = some l) (i : Nat) :
    ∃ s1, occ_state_node_append s n (digram_adj d b) i = .ok s1 ∧
      OccRep d s1 (occ_set σ n b (some (l ++ [i]))) ∧ s1.start = s.start := by
  unfold occ_state_node_append
  rw [occ_list_eq hr hv hl, ok_bind]
  exact occ_list_set_spec hne hr hv hl _

theorem occ_pop0_spec {d : Digram} (hne : d.adj0 ≠ d.adj1) {s : OccState}
    {σ : Nat → Option (Bool → Option (List Nat))} (hr : OccRep d s σ) {n : Nat}
    {v : Bool → Option (List Nat)} (hv : σ n = some v) {b : Bool} {x : Nat} {l : List Nat}
    (hl : v b = some (x :: l)) :
    ∃ s1, occ_state_node_adj_pop0 s n (digram_adj d b) = .ok (s1, x) ∧
      OccRep d s1 (occ_set σ n b (some l)) ∧ s1.start = s.start := by
  obtain ⟨s1, h1, h2, h3⟩ := occ_list_set_spec hne hr hv hl l
  refine ⟨s1, ?_, h2, h3⟩
  unfold occ_state_node_adj_pop0
  rw [occ_list_eq hr hv hl, ok_bind]
  simp only [h1, ok_bind]
  rfl

theorem occ_pop0_empty {d : Digram} {s : OccState}
    {σ : Nat → Option (Bool → Option (List Nat))} (hr : OccRep d s σ) {n : Nat}
    {v : Bool → Option (List Nat)} (hv : σ n = some v) {b : Bool}
    (hl : v b = some []) :
    occ_state_node_adj_pop0 s n (digram_adj d b) = .error .assertion := by
  unfold occ_state_node_adj_pop0
  rw [occ_list_eq hr hv hl, ok_bind]

theorem occ_delete_i_spec {d : Digram} (hne : d.adj0 ≠ d.adj1) {s : OccState}
    {σ : Nat → Option (Bool → Option (List Nat))} (hr : OccRep d s σ) {n : Nat}
    {v : Bool → Option (List Nat)} (hv : σ n = some v) {b : Bool} {l : List Nat}
    (hl : v b = some l) (i : Nat) :
    ∃ s1, occ_state_delete_i s n (digram_adj d b) i = .ok s1 ∧
      OccRep d s1 (occ_set σ n b (some (l.erase i))) ∧ s1.start = s.start := by
  unfold occ_state_delete_i
  rw [occ_contains_i_eq hr hv hl, ok_bind]
  have hs := indexOf?_spec l i
  cases hx : l.indexOf? i with
  | none =>
    rw [hx] at hs
    refine ⟨s, rfl, ?_, rfl⟩
    rw [List.erase_of_not_mem hs, occ_set_self σ n v hv b _ hl]
    exact hr
  | some idx =>
    rw [hx] at hs
    obtain ⟨h1, _, h3⟩ := hs
    show ∃ s1, occ_state_node_adj_delete_index s n (digram_adj d b) idx = .ok s1 ∧ _
    unfold occ_state_node_adj_delete_index
    rw [occ_list_eq hr hv hl, ok_bind, if_pos h1, h3]
    exact occ_list_set_spec hne hr hv hl _

theorem occ_cleanup_spec {d : Digram} (hne : d.adj0 ≠ d.adj1) {s : OccState}
    {σ : Nat → Option (Bool → Option (List Nat))} (hr : OccRep d s σ) {n : Nat}
    {v : Bool → Option (List Nat)} (hv : σ n = some v) {b : Bool} {l : List Nat}
    (hl : v b = some l) :
    ∃ s1, occ_state_cleanup s n (digram_adj d b) = .ok s1 ∧
      OccRep d s1 (if l = [] then
        (if (v (!b)).isSome then occ_set σ n b none else Function.update σ n none) else σ) ∧
      s1.start = s.start := by
  unfold occ_state_cleanup
  rw [occ_adj_len_eq hr hv hl, ok_bind]
  by_cases hl0 : l = []
  · rw [if_pos hl0, if_pos (by rw [hl0]; rfl)]
    obtain ⟨s1, h1, h2, h3⟩ := occ_adj_del_spec hne hr hv hl
    rw [h1, ok_bind]
    have hg := (occ_set_get σ n v hv b none).1
    rw [occ_len_eq h2 hg, ok_bind]
    have hc : occ_lists_count (Function.update v b none) = if (v (!b)).isSome then 1 else 0 := by
      rw [occ_lists_count_eq _ b]
      cases b <;> simp [Function.update]
    rw [hc]
    by_cases ho : (v (!b)).isSome = true
    · rw [if_pos ho, if_pos ho, if_neg (by decide)]
      exact ⟨s1, rfl, h2, h3⟩
    · rw [if_neg ho, if_neg ho, if_pos rfl]
      obtain ⟨s2, k1, k2, k3⟩ := occ_node_del_spec h2 hg
      refine ⟨s2, k1, ?_, by rw [k3, h3]⟩
      have : Function.update (occ_set σ n b none) n none = Function.update σ n none := by
        unfold occ_set
        rw [hv]
        exact Function.update_idem _ _ _
      rw [← this]
      exact k2
  · rw [if_neg hl0, if_neg (by
      intro h
      exact hl0 (List.length_eq_zero.mp h))]
    exact ⟨s, rfl, hr, rfl⟩

theorem occ_unregister_spec {d : Digram} (hne : d.adj0 ≠ d.adj1) {s : OccState}
    {σ : Nat → Option (Bool → Option (List Nat))} (hr : OccRep d s σ) {n : Nat}
    {v : Bool → Option (List Nat)} (hv : σ n = some v) {b : Bool} {l : List Nat}
    (hl : v b = some l) (i : Nat) :
    ∃ s1, occ_state_unregister s n (digram_adj d b) i = .ok s1 ∧
      OccRep d s1 (occ_unreg σ n b i) ∧ s1.start = s.start := by
  unfold occ_state_unregister
  rw [occ_contains_i_eq hr hv hl, ok_bind]
  have hs := indexOf?_spec l i
  have hu : occ_unreg σ n b i = if i ∈ l then
        (if l.erase i = [] then
          (if (v (!b)).isSome then occ_set σ n b none else Function.update σ n none)
         else occ_set σ n b (some (l.erase i)))
      else σ := by
    unfold occ_unreg
    rw [hv]
    simp only [hl]
  rw [hu]
  cases hx : l.indexOf? i with
  | none =>
    rw [hx] at hs
    rw [if_neg hs]
    exact ⟨s, rfl, hr, rfl⟩
  | some idx =>
    rw [hx] at hs
    obtain ⟨h1, h2, h3⟩ := hs
    rw [if_pos h2]
    show ∃ s1, (occ_state_node_adj_delete_index s n (digram_adj d b) idx >>= fun s =>
      occ_state_cleanup s n (digram_adj d b)) = .ok s1 ∧ _
    have hd : ∃ s1, occ_state_node_adj_delete_index s n (digram_adj d b) idx = .ok s1 ∧
        OccRep d s1 (occ_set σ n b (some (l.erase i))) ∧ s1.start = s.start := by
      unfold occ_state_node_adj_delete_index
      rw [occ_list_eq hr hv hl, ok_bind, if_pos h1, h3]
      exact occ_list_set_spec hne hr hv hl _
    obtain ⟨s1, k1, k2, k3⟩ := hd
    rw [k1, ok_bind]
    obtain ⟨g1, g2⟩ := occ_set_get σ n v hv b (some (l.erase i))
    obtain ⟨s2, j1, j2, j3⟩ := occ_cleanup_spec hne k2 g1 (Function.update_same _ _ _)
    refine ⟨s2, j1, ?_, by rw [j3, k3]⟩
    have e1 : Function.update v b (some (l.erase i)) (!b) = v (!b) :=
      Function.update_noteq (by cases b <;> decide) _ _
    have e2 : occ_set (occ_set σ n b (some (l.erase i))) n b none = occ_set σ n b none := by
      unfold occ_set
      rw [hv]
      simp only [Function.update_same, Function.update_idem]
    have e3 : Function.update (occ_set σ n b (some (l.erase i))) n none =
        Function.update σ n none := by
      unfold occ_set
      rw [hv]
      exact Function.update_idem _ _ _
    rw [e1, e2, e3] at j2
    by_cases he : l.erase i = []
    · rw [if_pos he] at j2 ⊢
      exact j2
    · rw [if_neg he] at j2 ⊢
      exact j2

theorem occ_drop_empty_spec {d : Digram} (hne : d.adj0 ≠ d.adj1) {s : OccState}
    {σ : Nat → Option (Bool → Option (List Nat))} (hr : OccRep d s σ) {n : Nat}
    {v : Bool → Option (List Nat)} (hv : σ n = some v) {b : Bool} {l : List Nat}
    (hl : v b = some l) :
    ∃ s1, occ_state_drop_empty s n (digram_adj d b) = .ok s1 ∧
      OccRep d s1 (if l = [] then occ_set σ n b none else σ) ∧ s1.start = s.start := by
  unfold occ_state_drop_empty
  rw [occ_adj_len_eq hr hv hl, ok_bind]
  by_cases hl0 : l = []
  · rw [if_pos hl0, if_pos (by rw [hl0]; rfl)]
    exact occ_adj_del_spec hne hr hv hl
  · rw [if_neg hl0, if_neg (by
      intro h
      exact hl0 (List.length_eq_zero.mp h))]
    exact ⟨s, rfl, hr, rfl⟩

/-! ## The lists of the search state -/

theorem occ_list_some {σ : Nat → Option (Bool → Option (List Nat))} {n : Nat}
    {v : Bool → Option (List Nat)} (hv : σ n = some v) (c : Bool) :
    occ_list σ n c = (v c).getD [] := by
  unfold occ_list
  rw [hv]

theorem occ_list_none {σ : Nat → Option (Bool → Option (List Nat))} {n : Nat}
    (hv : σ n = none) (c : Bool) : occ_list σ n c = [] := by
  unfold occ_list
  rw [hv]

theorem occ_list_of_ne_nil {σ : Nat → Option (Bool → Option (List Nat))} {n : Nat} {c : Bool}
    (h : occ_list σ n c ≠ []) : ∃ v, σ n = some v ∧ v c = some (occ_list σ n c) := by
  cases hv : σ n with
  | none => exact absurd (occ_list_none hv c) h
  | some v =>
    refine ⟨v, rfl, ?_⟩
    rw [occ_list_some hv c] at h ⊢
    cases hc : v c with
    | none =>
      rw [hc] at h
      exact absurd rfl h
    | some l => rfl

theorem occ_list_set (σ : Nat → Option (Bool → Option (List Nat))) (m : Nat)
    (v : Bool → Option (List Nat)) (hv : σ m = some v) (c : Bool) (o : Option (List Nat))
    (n : Nat) (c1 : Bool) :
    occ_list (occ_set σ m c o) n c1 = if n = m ∧ c1 = c then o.getD [] else occ_list σ n c1 := by
  obtain ⟨g1, g2⟩ := occ_set_get σ m v hv c o
  by_cases hn : n = m
  · subst hn
    rw [occ_list_some g1, occ_list_some hv]
    by_cases hc : c1 = c
    · subst hc
      rw [Function.update_same, if_pos ⟨rfl, rfl⟩]
    · rw [Function.update_noteq hc, if_neg (fun h => hc h.2)]
  · rw [if_neg (fun h => hn h.1)]
    unfold occ_list
    rw [g2 n hn]

theorem occ_list_update_none (σ : Nat → Option (Bool → Option (List Nat))) (m : Nat)
    (n : Nat) (c1 : Bool) :
    occ_list (Function.update σ m none) n c1 = if n = m then [] else occ_list σ n c1 := by
  by_cases hn : n = m
  · subst hn
    rw [if_pos rfl]
    exact occ_list_none (Function.update_same _ _ _) c1
  · rw [if_neg hn]
    unfold occ_list
    rw [Function.update_noteq hn]

theorem occ_unreg_of_not_mem (σ : Nat → Option (Bool → Option (List Nat))) (m : Nat) (c : Bool)
    (e : Nat) (h : e ∉ occ_list σ m c) : occ_unreg σ m c e = σ := by
  unfold occ_unreg
  cases hv : σ m with
  | none => rfl
  | some v =>
    simp only
    cases hc : v c with
    | none => rfl
    | some l =>
      simp only
      rw [occ_list_some hv, hc] at h
      exact if_neg h

theorem occ_unreg_other (σ : Nat → Option (Bool → Option (List Nat))) (m : Nat) (c : Bool)
    (e : Nat) (n : Nat) (hn : n ≠ m) : occ_unreg σ m c e n = σ n := by
  unfold occ_unreg
  cases hv : σ m with
  | none => rfl
  | some v =>
    simp only
    cases hc : v c with
    | none => rfl
    | some l =>
      simp only
      split
      · split
        · split
          · exact (occ_set_get σ m v hv c none).2 n hn
          · exact Function.update_noteq hn _ _
        · exact (occ_set_get σ m v hv c _).2 n hn
      · rfl

theorem occ_list_unreg (σ : Nat → Option (Bool → Option (List Nat))) (m : Nat) (c : Bool)
    (e : Nat) (n : Nat) (c1 : Bool) :
    occ_list (occ_unreg σ m c e) n c1 =
      if n = m ∧ c1 = c then (occ_list σ m c).erase e else occ_list σ n c1 := by
  by_cases hmem : e ∈ occ_list σ m c
  swap
  · rw [occ_unreg_of_not_mem σ m c e hmem, List.erase_of_not_mem hmem]
    split
    · rename_i h
      rw [h.1, h.2]
    · rfl
  obtain ⟨v, hv, hc⟩ := occ_list_of_ne_nil (List.ne_nil_of_mem hmem)
  have hu : occ_unreg σ m c e =
      if (occ_list σ m c).erase e = [] then
        (if (v (!c)).isSome then occ_set σ m c none else Function.update σ m none)
      else occ_set σ m c (some ((occ_list σ m c).erase e)) := by
    unfold occ_unreg
    rw [hv]
    simp only [hc]
    rw [if_pos hmem]
  rw [hu]
  by_cases he : (occ_list σ m c).erase e = []
  · rw [if_pos he, he]
    by_cases ho : (v (!c)).isSome = true
    · rw [if_pos ho, occ_list_set σ m v hv]
      rfl
    · rw [if_neg ho, occ_list_update_none]
      by_cases hn : n = m
      · subst hn
        rw [if_pos rfl]
        by_cases hcc : c1 = c
        · rw [if_pos ⟨rfl, hcc⟩]
        · rw [if_neg (fun h => hcc h.2), occ_list_some hv]
          have : c1 = !c := by
            revert hcc
            cases c <;> cases c1 <;> decide
          rw [this]
          cases hx : v (!c) with
          | none => rfl
          | some l =>
            rw [hx] at ho
            exact absurd rfl ho
      · rw [if_neg hn, if_neg (fun h => hn h.1)]
  · rw [if_neg he, occ_list_set σ m v hv]
    rfl

theorem occ_unreg_tidy_at (σ : Nat → Option (Bool → Option (List Nat))) (m : Nat) (c : Bool)
    (e : Nat) (n : Nat)
    (h : ∀ v, σ n = some v → occ_lists_count v ≠ 0 ∧ ∀ c l, v c = some l → l ≠ []) :
    ∀ v, occ_unreg σ m c e n = some v → occ_lists_count v ≠ 0 ∧ ∀ c l, v c = some l → l ≠ [] := by
  by_cases hn : n = m
  swap
  · rw [occ_unreg_other σ m c e n hn]
    exact h
  subst hn
  by_cases hmem : e ∈ occ_list σ n c
  swap
  · rw [occ_unreg_of_not_mem σ n c e hmem]
    exact h
  obtain ⟨v, hv, hc⟩ := occ_list_of_ne_nil (List.ne_nil_of_mem hmem)
  have hu : occ_unreg σ n c e =
      if (occ_list σ n c).erase e = [] then
        (if (v (!c)).isSome then occ_set σ n c none else Function.update σ n none)
      else occ_set σ n c (some ((occ_list σ n c).erase e)) := by
    unfold occ_unreg
    rw [hv]
    simp only [hc]
    rw [if_pos hmem]
  rw [hu]
  obtain ⟨t1, t2⟩ := h v hv
  by_cases he : (occ_list σ n c).erase e = []
  · rw [if_pos he]
    by_cases ho : (v (!c)).isSome = true
    · rw [if_pos ho, (occ_set_get σ n v hv c none).1]
      intro v1 hv1
      cases hv1
      constructor
      · rw [occ_lists_count_eq _ (!c)]
        rw [Function.update_noteq (by cases c <;> decide), if_pos ho]
        omega
      · intro c1 l1 hl1
        by_cases hcc : c1 = c
        · subst hcc
          rw [Function.update_same] at hl1
          cases hl1
        · rw [Function.update_noteq hcc] at hl1
          exact t2 c1 l1 hl1
    · rw [if_neg ho, Function.update_same]
      intro v1 hv1
      cases hv1
  · rw [if_neg he, (occ_set_get σ n v hv c _).1]
    intro v1 hv1
    cases hv1
    constructor
    · rw [occ_lists_count_update_some v c _ _ hc]
      exact t1
    · intro c1 l1 hl1
      by_cases hcc : c1 = c
      · subst hcc
        rw [Function.update_same] at hl1
        cases hl1
        exact he
      · rw [Function.update_noteq hcc] at hl1
        exact t2 c1 l1 hl1

theorem occ_unreg_keeps (σ : Nat → Option (Bool → Option (List Nat))) (m : Nat) (c : Bool)
    (e : Nat) (v : Bool → Option (List Nat)) (hv : σ m = some v) (l1 : List Nat)
    (hl : v (!c) = some l1) :
    ∃ v1, occ_unreg σ m c e m = some v1 ∧ v1 (!c) = some l1 := by
  have hnc : (!c) ≠ c := by cases c <;> decide
  unfold occ_unreg
  rw [hv]
  simp only
  cases hc : v c with
  | none => exact ⟨v, hv, hl⟩
  | some l =>
    simp only
    split
    · split
      · rw [hl]
        simp only [Option.isSome_some, if_true]
        rw [(occ_set_get σ m v hv c none).1]
        exact ⟨_, rfl, by rw [Function.update_noteq hnc]; exact hl⟩
      · rw [(occ_set_get σ m v hv c _).1]
        exact ⟨_, rfl, by rw [Function.update_noteq hnc]; exact hl⟩
    · exact ⟨v, hv, hl⟩

theorem erase_ne_nil_of_ne (l : List Nat) (i : Nat) (h0 : l ≠ []) (h1 : l ≠ [i]) :
    l.erase i ≠ [] := by
  by_cases hm : i ∈ l
  · intro he
    have := List.length_erase_of_mem hm
    rw [he, List.length_nil] at this
    cases l with
    | nil => exact h0 rfl
    | cons x t =>
      cases t with
      | nil =>
        rw [List.mem_singleton] at hm
        rw [hm] at h1
        exact h1 rfl
      | cons y t => simp at this
  · rw [List.erase_of_not_mem hm]
    exact h0

theorem occ_rep_start {d : Digram} {s : OccState} {σ : Nat → Option (Bool → Option (List Nat))}
    (hr : OccRep d s σ) (k : Nat) : OccRep d { s with start := k } σ := hr

theorem hgraph_edge_get_of_get? (G : HGraph) (e : Nat) (o : Option HEdge)
    (h : G.edges.get? e = some o) : hgraph_edge_get G e = .ok o := by
  unfold hgraph_edge_get
  have hlt : e < G.edges.length := by
    by_contra hge
    rw [List.get?_eq_none.mpr (by omega)] at h
    cases h
  rw [dif_pos hlt]
  rw [List.get?_eq_get hlt] at h
  rw [Option.some.inj h]

theorem hgraph_edge_deref_of_get? (G : HGraph) (e : Nat) (edge : HEdge)
    (h : G.edges.get? e = some (some edge)) : hgraph_edge_deref G e = .ok edge := by
  unfold hgraph_edge_deref
  rw [hgraph_edge_get_of_get? G e _ h]

theorem occ_conn_get {d : Digram} {G : HGraph} (hc : OccConn d G) (e : Nat) (edge : HEdge)
    (h : G.edges.get? e = some (some edge)) (c : Bool)
    (hl : edge.label = (digram_adj d c).label) :
    edge.nodes.get? (digram_adj d c).conn_type ≠ none := by
  have hmem : some edge ∈ G.edges := List.get?_mem h
  have := hc _ hmem edge rfl c hl
  intro hn
  rw [List.get?_eq_none] at hn
  omega

theorem occ_reg_node {d : Digram} {G : HGraph} {i j : Nat} {c : Bool} {e n n1 : Nat}
    (h : OccReg d G i j c e n) (h1 : OccReg d G i j c e n1) : n = n1 := by
  obtain ⟨_, edge, g1, _, g3⟩ := h
  obtain ⟨_, edge1, k1, _, k3⟩ := h1
  rw [g1] at k1
  cases k1
  rw [g3] at k3
  exact Option.some.inj k3

theorem occ_reg_edge {d : Digram} {G : HGraph} {i j : Nat} {c : Bool} {e n : Nat}
    (h : OccReg d G i j c e n) (edge : HEdge) (hg : G.edges.get? e = some (some edge)) :
    edge.label = (digram_adj d c).label ∧
      edge.nodes.get? (digram_adj d c).conn_type = some n := by
  obtain ⟨_, edge1, g1, g2, g3⟩ := h
  rw [hg] at g1
  cases g1
  exact ⟨g2, g3⟩

theorem arr_get_of_get? {α : Type} (l : List α) (k : Nat) (x : α) (h : l.get? k = some x) :
    arr_get l k = .ok x := by
  unfold arr_get
  rw [h]

theorem arr_get_of_none {α : Type} (l : List α) (k : Nat) (h : l.get? k = none) :
    arr_get l k = .error .undefined := by
  unfold arr_get
  rw [h]

theorem find_occurrence_release_edge_spec {d : Digram} (hne : d.adj0 ≠ d.adj1) {s : OccState}
    {σ : Nat → Option (Bool → Option (List Nat))} (hr : OccRep d s σ) (edge : HEdge) (c : Bool)
    (i : Nat) :
    (find_occurrence_release_edge s edge (digram_adj d c) i = .error .undefined ∧
      edge.label = (digram_adj d c).label ∧
      edge.nodes.get? (digram_adj d c).conn_type = none) ∨
    ∃ s1, find_occurrence_release_edge s edge (digram_adj d c) i = .ok s1 ∧
      s1.start = s.start ∧
      ((edge.label ≠ (digram_adj d c).label ∧ OccRep d s1 σ) ∨
        ∃ n0, edge.label = (digram_adj d c).label ∧
          edge.nodes.get? (digram_adj d c).conn_type = some n0 ∧
          OccRep d s1 (occ_unreg σ n0 c i)) := by
  unfold find_occurrence_release_edge
  by_cases hl : edge.label = (digram_adj d c).label
  · rw [if_pos hl]
    cases hg : edge.nodes.get? (digram_adj d c).conn_type with
    | none =>
      left
      rw [arr_get_of_none _ _ hg]
      exact ⟨rfl, hl, rfl⟩
    | some n0 =>
      right
      rw [arr_get_of_get? _ _ _ hg, ok_bind, occ_contains_node_eq hr]
      cases hv : σ n0 with
      | none =>
        refine ⟨s, rfl, rfl, Or.inr ⟨n0, hl, rfl, ?_⟩⟩
        rw [occ_unreg_of_not_mem]
        · exact hr
        · rw [occ_list_none hv]
          exact List.not_mem_nil _
      | some v =>
        simp only [Option.isSome_some, if_true]
        rw [occ_contains_adj_eq hr hv c, ok_bind]
        cases hc : v c with
        | none =>
          refine ⟨s, rfl, rfl, Or.inr ⟨n0, hl, rfl, ?_⟩⟩
          rw [occ_unreg_of_not_mem]
          · exact hr
          · rw [occ_list_some hv, hc]
            exact List.not_mem_nil _
        | some l =>
          simp only [Option.isSome_some, if_true]
          obtain ⟨s1, h1, h2, h3⟩ := occ_unregister_spec hne hr hv hc i
          exact ⟨s1, h1, h3, Or.inr ⟨n0, hl, rfl, h2⟩⟩
  · rw [if_neg hl]
    exact Or.inr ⟨s, rfl, rfl, Or.inl ⟨hl, hr⟩⟩

theorem find_occurrence_release_partner_spec {d : Digram} (hne : d.adj0 ≠ d.adj1)
    {s : OccState} {σ : Nat → Option (Bool → Option (List Nat))} (hr : OccRep d s σ)
    (ev : HEdge) (c : Bool) (x : Nat)
    (hpre : ∀ n1 v, ev.label = (digram_adj d c).label →
      ev.nodes.get? (digram_adj d c).conn_type = some n1 → σ n1 = some v →
      (v c).isSome = true) :
    (find_occurrence_release_partner s ev (digram_adj d c) x = .error .undefined ∧
      ev.label = (digram_adj d c).label ∧
      ev.nodes.get? (digram_adj d c).conn_type = none) ∨
    ∃ s1, find_occurrence_release_partner s ev (digram_adj d c) x = .ok s1 ∧
      s1.start = s.start ∧
      ((ev.label ≠ (digram_adj d c).label ∧ OccRep d s1 σ) ∨
        ∃ n1, ev.label = (digram_adj d c).label ∧
          ev.nodes.get? (digram_adj d c).conn_type = some n1 ∧
          OccRep d s1 (occ_unreg σ n1 c x)) := by
  unfold find_occurrence_release_partner
  by_cases hl : ev.label = (digram_adj d c).label
  · rw [if_pos hl]
    cases hg : ev.nodes.get? (digram_adj d c).conn_type with
    | none =>
      left
      rw [arr_get_of_none _ _ hg]
      exact ⟨rfl, hl, rfl⟩
    | some n1 =>
      right
      rw [arr_get_of_get? _ _ _ hg, ok_bind, occ_contains_node_eq hr]
      cases hv : σ n1 with
      | none =>
        refine ⟨s, rfl, rfl, Or.inr ⟨n1, hl, rfl, ?_⟩⟩
        rw [occ_unreg_of_not_mem]
        · exact hr
        · rw [occ_list_none hv]
          exact List.not_mem_nil _
      | some v =>
        simp only [Option.isSome_some, if_true]
        have := hpre n1 v hl hg hv
        cases hc : v c with
        | none =>
          rw [hc] at this
          cases this
        | some l =>
          obtain ⟨s1, h1, h2, h3⟩ := occ_unregister_spec hne hr hv hc x
          exact ⟨s1, h1, h3, Or.inr ⟨n1, hl, rfl, h2⟩⟩
  · rw [if_neg hl]
    exact Or.inr ⟨s, rfl, rfl, Or.inl ⟨hl, hr⟩⟩

theorem bool_eq_or_not (b c : Bool) : c = b ∨ c = !b := by
  cases b <;> cases c <;> simp

theorem bool_not_ne (b : Bool) : (!b) ≠ b := by
  cases b <;> decide

theorem occ_both {σ : Nat → Option (Bool → Option (List Nat))}
    (hS : ∀ n, occ_list σ n false ≠ [] → occ_list σ n true ≠ [] →
      ∃ e, occ_list σ n false = [e] ∧ occ_list σ n true = [e]) (n : Nat) (b : Bool)
    (h1 : occ_list σ n b ≠ []) (h2 : occ_list σ n (!b) ≠ []) :
    ∃ e, occ_list σ n b = [e] ∧ occ_list σ n (!b) = [e] := by
  cases b with
  | false =>
    obtain ⟨e, k1, k2⟩ := hS n h1 h2
    exact ⟨e, k1, k2⟩
  | true =>
    obtain ⟨e, k1, k2⟩ := hS n h2 h1
    exact ⟨e, k2, k1⟩

theorem occ_not_reg_self {d : Digram} {G : HGraph} {i : Nat} {b : Bool} {n : Nat}
    (h : OccReg d G i (if b then 1 else 0) b i n) : False := by
  have := h.1
  cases b <;> simp at this

theorem find_occurrence_take_partner_spec {d : Digram} (hne : d.adj0 ≠ d.adj1) (G : HGraph)
    {s : OccState} {σ : Nat → Option (Bool → Option (List Nat))} (hr : OccRep d s σ)
    (i : Nat) (b : Bool) (hI : OccInvNe d G i (if b then 1 else 0) σ)
    (node : Nat) (v : Bool → Option (List Nat)) (hv : σ node = some v)
    (hc1 : ¬((v b).isSome = true ∧ occ_lists_count v = 1))
    (hc2 : ¬((v (!b)).isSome = true ∧ occ_lists_count v = 1 ∧ v (!b) = some [i])) :
    ∃ s3 x rest l2,
      find_occurrence_take_partner s i node (digram_adj d b) (digram_adj d (!b)) =
        .ok (s3, x) ∧
      s3.start = s.start ∧ OccRep d s3 (occ_set σ node (!b) (some rest)) ∧
      v (!b) = some l2 ∧ l2.erase i = x :: rest := by
  obtain ⟨hT, hN, hS, hM⟩ := hI
  have F1 : ∀ n, i ∉ occ_list σ n b := fun n hm => occ_not_reg_self ((hM n b i).mp hm)
  have K : ∃ l2, v (!b) = some l2 ∧ l2 ≠ [] ∧ l2 ≠ [i] := by
    obtain ⟨t1, t2⟩ := hT node v hv
    cases hb : v b with
    | none =>
      cases hnb2 : v (!b) with
      | none =>
        exfalso
        apply t1
        rw [occ_lists_count_eq v b, hb, hnb2]
        rfl
      | some l2 =>
        refine ⟨l2, rfl, t2 _ _ hnb2, ?_⟩
        intro h
        apply hc2
        rw [hnb2, h]
        refine ⟨rfl, ?_, rfl⟩
        rw [occ_lists_count_eq v b, hb, hnb2, h]
        rfl
    | some l =>
      cases hnb2 : v (!b) with
      | none =>
        exfalso
        apply hc1
        rw [hb]
        refine ⟨rfl, ?_⟩
        rw [occ_lists_count_eq v b, hb, hnb2]
        rfl
      | some l2 =>
        refine ⟨l2, rfl, t2 _ _ hnb2, ?_⟩
        have hlb : occ_list σ node b = l := by
          rw [occ_list_some hv, hb]
          rfl
        have hl2 : occ_list σ node (!b) = l2 := by
          rw [occ_list_some hv, hnb2]
          rfl
        obtain ⟨e, he1, he2⟩ := occ_both hS node b (by rw [hlb]; exact t2 _ _ hb)
          (by rw [hl2]; exact t2 _ _ hnb2)
        rw [hl2] at he2
        rw [he2]
        intro h
        have hei : e = i := by
          cases h
          rfl
        apply F1 node
        rw [he1, hei]
        exact List.mem_singleton_self _
  obtain ⟨l2, hl2, hl2n, hl2i⟩ := K
  have hne2 := erase_ne_nil_of_ne l2 i hl2n hl2i
  have h1 : ∃ s1, (if (v b).isSome = true then
      occ_state_delete_i s node (digram_adj d b) i else pure s) = Except.ok s1 ∧
      OccRep d s1 σ ∧ s1.start = s.start := by
    cases hb : v b with
    | none => exact ⟨s, rfl, hr, rfl⟩
    | some l =>
      obtain ⟨s1, e1, e2, e3⟩ := occ_delete_i_spec hne hr hv hb i
      refine ⟨s1, e1, ?_, e3⟩
      have : l.erase i = l := List.erase_of_not_mem (by
        have := F1 node
        rw [occ_list_some hv, hb] at this
        exact this)
      rw [this, occ_set_self σ node v hv b _ hb] at e2
      exact e2
  obtain ⟨s1, e1, hr1, st1⟩ := h1
  obtain ⟨s2, e2, hr2, st2⟩ := occ_delete_i_spec hne hr1 hv hl2 i
  obtain ⟨x, rest, hxr⟩ : ∃ x rest, l2.erase i = x :: rest := by
    cases hh : l2.erase i with
    | nil => exact absurd hh hne2
    | cons x rest => exact ⟨x, rest, rfl⟩
  rw [hxr] at hr2
  obtain ⟨g21, _⟩ := occ_set_get σ node v hv (!b) (some (x :: rest))
  obtain ⟨s3, e3, hr3, st3⟩ := occ_pop0_spec hne hr2 g21 (Function.update_same _ _ _)
  have hσ3 : occ_set (occ_set σ node (!b) (some (x :: rest))) node (!b) (some rest) =
      occ_set σ node (!b) (some rest) := by
    unfold occ_set
    rw [hv]
    simp only [Function.update_same, Function.update_idem]
  rw [hσ3] at hr3
  refine ⟨s3, x, rest, l2, ?_, by rw [st3, st2, st1], hr3, hl2, hxr⟩
  unfold find_occurrence_take_partner
  rw [occ_contains_adj_eq hr hv b, ok_bind, e1, ok_bind, e2, ok_bind, e3]

theorem find_occurrence_tidy_node_spec {d : Digram} (hne : d.adj0 ≠ d.adj1)
    {s : OccState} {σ : Nat → Option (Bool → Option (List Nat))} (hr : OccRep d s σ)
    (node : Nat) (b : Bool) (v5 : Bool → Option (List Nat)) (hv : σ node = some v5)
    (rest : List Nat) (hrest : v5 (!b) = some rest) :
    ∃ s8 σ8, find_occurrence_tidy_node s node (digram_adj d b) (digram_adj d (!b)) = .ok s8 ∧
      s8.start = s.start ∧ OccRep d s8 σ8 ∧ (∀ n c, occ_list σ8 n c = occ_list σ n c) ∧
      (∀ n, n ≠ node → σ8 n = σ n) ∧
      (∀ v8, σ8 node = some v8 → occ_lists_count v8 ≠ 0 ∧ ∀ c l, v8 c = some l → l ≠ []) := by
  have hnb := bool_not_ne b
  have h6 : ∃ s6 v6, (if (v5 b).isSome = true then
      occ_state_drop_empty s node (digram_adj d b) else pure s) = Except.ok s6 ∧
      s6.start = s.start ∧ OccRep d s6 (Function.update σ node (some v6)) ∧
      v6 (!b) = some rest ∧ (∀ l, v6 b = some l → l ≠ []) ∧
      (v6 b).getD [] = (v5 b).getD [] := by
    cases hb : v5 b with
    | none =>
      refine ⟨s, v5, rfl, rfl, ?_, hrest, ?_, by rw [hb]⟩
      · rw [← hv, Function.update_eq_self]
        exact hr
      · intro l hl
        rw [hb] at hl
        cases hl
    | some lb =>
      obtain ⟨s6, e6, h6, st6⟩ := occ_drop_empty_spec hne hr hv hb
      by_cases hlb : lb = []
      · rw [if_pos hlb] at h6
        refine ⟨s6, Function.update v5 b none, e6, st6, ?_, ?_, ?_, ?_⟩
        · unfold occ_set at h6
          rw [hv] at h6
          exact h6
        · rw [Function.update_noteq hnb]
          exact hrest
        · intro l hl
          rw [Function.update_same] at hl
          cases hl
        · rw [Function.update_same, hlb]
          rfl
      · rw [if_neg hlb] at h6
        refine ⟨s6, v5, e6, st6, ?_, hrest, ?_, by rw [hb]⟩
        · rw [← hv, Function.update_eq_self]
          exact h6
        · intro l hl
          rw [hb] at hl
          cases hl
          exact hlb
  obtain ⟨s6, v6, e6, st6, hr6, hv6r, hv6b, hv65⟩ := h6
  obtain ⟨s7, e7, hr7, st7⟩ := occ_drop_empty_spec hne hr6 (Function.update_same _ _ _) hv6r
  have h7 : ∃ v7, OccRep d s7 (Function.update σ node (some v7)) ∧ v7 b = v6 b ∧
      v7 (!b) = (if rest = [] then none else some rest) := by
    by_cases hr0 : rest = []
    · rw [if_pos hr0] at hr7
      refine ⟨Function.update v6 (!b) none, ?_, Function.update_noteq hnb.symm _ _, ?_⟩
      · unfold occ_set at hr7
        rw [Function.update_same] at hr7
        simp only [Function.update_idem] at hr7
        exact hr7
      · rw [Function.update_same, if_pos hr0]
    · rw [if_neg hr0] at hr7
      exact ⟨v6, hr7, rfl, by rw [if_neg hr0]; exact hv6r⟩
  obtain ⟨v7, hr7', hv7b, hv7r⟩ := h7
  have hlen := occ_len_eq hr7' (Function.update_same _ _ _)
  have hlist : ∀ c, (v7 c).getD [] = (v5 c).getD [] := by
    intro c
    rcases bool_eq_or_not b c with hc | hc
    · rw [hc, hv7b, hv65]
    · rw [hc, hv7r, hrest]
      by_cases hr0 : rest = []
      · rw [if_pos hr0, hr0]
        rfl
      · rw [if_neg hr0]
  have hfin : ∃ s8, (if occ_lists_count v7 = 0 then occ_state_node_del s7 node else pure s7) =
      Except.ok s8 ∧ s8.start = s7.start ∧
      OccRep d s8 (Function.update σ node (if occ_lists_count v7 = 0 then none else some v7)) := by
    by_cases h0 : occ_lists_count v7 = 0
    · rw [if_pos h0, if_pos h0]
      obtain ⟨s8, e8, hr8, st8⟩ := occ_node_del_spec hr7' (Function.update_same _ _ _)
      rw [Function.update_idem] at hr8
      exact ⟨s8, e8, st8, hr8⟩
    · rw [if_neg h0, if_neg h0]
      exact ⟨s7, rfl, rfl, hr7'⟩
  obtain ⟨s8, e8, st8, hr8⟩ := hfin
  refine ⟨s8, _, ?_, by rw [st8, st7, st6], hr8, ?_, ?_, ?_⟩
  · unfold find_occurrence_tidy_node
    rw [occ_contains_adj_eq hr hv b, ok_bind, e6, ok_bind, e7, ok_bind, hlen, ok_bind]
    exact e8
  · intro n c
    by_cases hn : n = node
    · subst hn
      rw [occ_list_some hv]
      by_cases h0 : occ_lists_count v7 = 0
      · rw [if_pos h0, occ_list_none (Function.update_same _ _ _), ← hlist c]
        rw [occ_lists_count_eq v7 c] at h0
        cases hc : v7 c with
        | none => rfl
        | some l =>
          rw [hc] at h0
          simp at h0
      · rw [if_neg h0, occ_list_some (Function.update_same _ _ _), hlist c]
    · unfold occ_list
      rw [Function.update_noteq hn]
  · intro n hn
    exact Function.update_noteq hn _ _
  · intro v8 hv8
    rw [Function.update_same] at hv8
    by_cases h0 : occ_lists_count v7 = 0
    · rw [if_pos h0] at hv8
      cases hv8
    · rw [if_neg h0] at hv8
      cases hv8
      refine ⟨h0, ?_⟩
      intro c l hl
      rcases bool_eq_or_not b c with hc | hc
      · rw [hc, hv7b] at hl
        exact hv6b l hl
      · rw [hc, hv7r] at hl
        by_cases hr0 : rest = []
        · rw [if_pos hr0] at hl
          cases hl
        · rw [if_neg hr0] at hl
          cases hl
          exact hr0

theorem find_occurrence_complete_spec {d : Digram} (hne : d.adj0 ≠ d.adj1) (G : HGraph)
    {s : OccState} {σ : Nat → Option (Bool → Option (List Nat))} (hr : OccRep d s σ)
    (i : Nat) (b : Bool) (hI : OccInvNe d G i (if b then 1 else 0) σ) (edge : HEdge)
    (hi : G.edges.get? i = some (some edge))
    (node : Nat) (v : Bool → Option (List Nat)) (hv : σ node = some v)
    (hc1 : ¬((v b).isSome = true ∧ occ_lists_count v = 1))
    (hc2 : ¬((v (!b)).isSome = true ∧ occ_lists_count v = 1 ∧ v (!b) = some [i])) :
    (find_occurrence_complete G s i edge node (digram_adj d b) (digram_adj d (!b)) =
        .error .undefined ∧ ¬OccConn d G) ∨
    ∃ s1 e1, find_occurrence_complete G s i edge node (digram_adj d b) (digram_adj d (!b)) =
        .ok (s1, e1) ∧ s1.start = i ∧ e1 < i ∧
      OccReg d G i (if b then 1 else 0) (!b) e1 node ∧
      ∃ σ1, OccRep d s1 σ1 ∧ OccTidy σ1 ∧
        ∀ n c, occ_list σ1 n c = ((occ_list σ n c).erase i).erase e1 := by
  obtain ⟨s3, x, rest, l2, e3, st3, hr3, hl2, hxr⟩ :=
    find_occurrence_take_partner_spec hne G hr i b hI node v hv hc1 hc2
  obtain ⟨hT, hN, hS, hM⟩ := hI
  have hnb := bool_not_ne b
  have F1 : ∀ n, i ∉ occ_list σ n b := fun n hm => occ_not_reg_self ((hM n b i).mp hm)
  have hL2 : occ_list σ node (!b) = l2 := by
    rw [occ_list_some hv, hl2]
    rfl
  have hN2 : l2.Nodup := by
    rw [← hL2]
    exact hN node (!b)
  have hxmem : x ∈ l2.erase i := by
    rw [hxr]
    exact List.mem_cons_self _ _
  have hxl2 : x ∈ l2 := List.mem_of_mem_erase hxmem
  have hxi : x ≠ i := ((List.Nodup.mem_erase_iff hN2).mp hxmem).1
  have hxreg : OccReg d G i (if b then 1 else 0) (!b) x node :=
    (hM node (!b) x).mp (by rw [hL2]; exact hxl2)
  have hxlt : x < i := by
    rcases hxreg.1 with h | h
    · exact h
    · exact absurd h.1 hxi
  obtain ⟨ev, hgx, _, _⟩ := hxreg.2
  have hrest : rest = (l2.erase i).erase x := by
    rw [hxr, List.erase_cons_head]
  have hirest : i ∉ rest := by
    intro h
    have : i ∈ l2.erase i := by
      rw [hxr]
      exact List.mem_cons_of_mem _ h
    exact ((List.Nodup.mem_erase_iff hN2).mp this).1 rfl
  obtain ⟨g31, g32⟩ := occ_set_get σ node v hv (!b) (some rest)
  have L3 : ∀ n c, occ_list (occ_set σ node (!b) (some rest)) n c =
      if n = node ∧ c = (!b) then rest else occ_list σ n c :=
    fun n c => occ_list_set σ node v hv (!b) (some rest) n c
  have Ri : ∀ n, i ∈ occ_list σ n (!b) → edge.label = (digram_adj d (!b)).label ∧
      edge.nodes.get? (digram_adj d (!b)).conn_type = some n :=
    fun n hm => occ_reg_edge ((hM n (!b) i).mp hm) edge hi
  have Rx2 : ∀ n, x ∈ occ_list σ n (!b) → n = node :=
    fun n hm => occ_reg_node ((hM n (!b) x).mp hm) hxreg
  have Rxb : ∀ n, x ∈ occ_list σ n b → ev.label = (digram_adj d b).label ∧
      ev.nodes.get? (digram_adj d b).conn_type = some n :=
    fun n hm => occ_reg_edge ((hM n b x).mp hm) ev hgx
  have Rxb1 : ∀ n1, ev.label = (digram_adj d b).label →
      ev.nodes.get? (digram_adj d b).conn_type = some n1 → x ∈ occ_list σ n1 b :=
    fun n1 h1 h2 => (hM n1 b x).mpr ⟨Or.inl hxlt, ev, hgx, h1, h2⟩
  have tidy3 : ∀ n, n ≠ node → ∀ v4, occ_set σ node (!b) (some rest) n = some v4 →
      occ_lists_count v4 ≠ 0 ∧ ∀ c l, v4 c = some l → l ≠ [] := by
    intro n hn v4 h4
    rw [g32 n hn] at h4
    exact hT n v4 h4
  have hchain : ∀ r, (do
      let s4 ← find_occurrence_release_edge s3 edge (digram_adj d (!b)) i
      let edge_1_val ← hgraph_edge_deref G x
      let s5 ← find_occurrence_release_partner s4 edge_1_val (digram_adj d b) x
      let s8 ← find_occurrence_tidy_node s5 node (digram_adj d b) (digram_adj d (!b))
      pure ({ s8 with start := i }, x)) = r →
      find_occurrence_complete G s i edge node (digram_adj d b) (digram_adj d (!b)) = r := by
    intro r hr0
    rw [find_occurrence_complete_eq]
    unfold find_occurrence_complete_steps
    rw [e3, ok_bind]
    exact hr0
  rcases find_occurrence_release_edge_spec hne hr3 edge (!b) i with
    ⟨e4, h4l, h4n⟩ | ⟨s4, e4, st4, h4⟩
  · left
    refine ⟨hchain _ ?_, fun hconn => occ_conn_get hconn i edge hi (!b) h4l h4n⟩
    rw [e4]
    rfl
  have h4' : ∃ σ4, OccRep d s4 σ4 ∧
      (∀ n c, occ_list σ4 n c = if n = node ∧ c = (!b) then rest
        else if c = (!b) then (occ_list σ n c).erase i else occ_list σ n c) ∧
      σ4 node = some (Function.update v (!b) (some rest)) ∧
      (∀ n, n ≠ node → ∀ v4, σ4 n = some v4 →
        occ_lists_count v4 ≠ 0 ∧ ∀ c l, v4 c = some l → l ≠ []) := by
    rcases h4 with ⟨hlne, hr4⟩ | ⟨n0, hl0, hg0, hr4⟩
    · refine ⟨_, hr4, ?_, g31, tidy3⟩
      intro n c
      rw [L3]
      by_cases h : n = node ∧ c = (!b)
      · rw [if_pos h, if_pos h]
      · rw [if_neg h, if_neg h]
        by_cases hc : c = (!b)
        · rw [if_pos hc, hc]
          exact (List.erase_of_not_mem (fun hm => hlne (Ri n hm).1)).symm
        · rw [if_neg hc]
    · refine ⟨_, hr4, ?_, ?_, ?_⟩
      · intro n c
        rw [occ_list_unreg, L3, L3]
        by_cases hc : c = (!b)
        · by_cases hn : n = node
          · by_cases h0 : n0 = node
            · simp only [hc, hn, h0, and_self, if_true]
              exact List.erase_of_not_mem hirest
            · have h0' : ¬node = n0 := fun h => h0 h.symm
              simp only [hc, hn, h0', and_self, false_and, if_true, if_false]
          · by_cases h0 : n = n0
            · have h0' : ¬n0 = node := fun h => hn (h0.trans h)
              simp only [hc, hn, h0, h0', and_self, false_and, if_true, if_false]
            · simp only [hc, hn, h0, false_and, if_true, if_false]
              refine (List.erase_of_not_mem (fun hm => ?_)).symm
              have := (Ri n hm).2
              rw [hg0] at this
              exact h0 (Option.some.inj this).symm
        · simp only [hc, and_false, if_false]
      · by_cases h0 : node = n0
        · rw [← h0, occ_unreg_of_not_mem]
          · exact g31
          · rw [L3, if_pos ⟨rfl, rfl⟩]
            exact hirest
        · rw [occ_unreg_other _ _ _ _ _ h0]
          exact g31
      · intro n hn
        exact occ_unreg_tidy_at _ n0 (!b) i n (tidy3 n hn)
  obtain ⟨σ4, hr4, L4, hσ4, tidy4⟩ := h4'
  have hdx := hgraph_edge_deref_of_get? G x ev hgx
  have hpre : ∀ n1 v4, ev.label = (digram_adj d b).label →
      ev.nodes.get? (digram_adj d b).conn_type = some n1 → σ4 n1 = some v4 →
      (v4 b).isSome = true := by
    intro n1 v4 h1 h2 h3
    have hm := Rxb1 n1 h1 h2
    have : x ∈ occ_list σ4 n1 b := by
      rw [L4, if_neg (fun h => hnb h.2.symm), if_neg hnb.symm]
      exact hm
    rw [occ_list_some h3] at this
    cases hc : v4 b with
    | none =>
      rw [hc] at this
      exact absurd this (List.not_mem_nil _)
    | some l => rfl
  rcases find_occurrence_release_partner_spec hne hr4 ev b x hpre with
    ⟨e5, h5l, h5n⟩ | ⟨s5, e5, st5, h5⟩
  · left
    refine ⟨hchain _ ?_, fun hconn => occ_conn_get hconn x ev hgx b h5l h5n⟩
    rw [e4, ok_bind, hdx, ok_bind, e5]
    rfl
  have h5' : ∃ σ5, OccRep d s5 σ5 ∧
      (∀ n c, occ_list σ5 n c = if n = node ∧ c = (!b) then rest
        else if c = (!b) then (occ_list σ n c).erase i else (occ_list σ n c).erase x) ∧
      (∃ v5, σ5 node = some v5 ∧ v5 (!b) = some rest) ∧
      (∀ n, n ≠ node → ∀ v4, σ5 n = some v4 →
        occ_lists_count v4 ≠ 0 ∧ ∀ c l, v4 c = some l → l ≠ []) := by
    rcases h5 with ⟨hlne, hr5⟩ | ⟨n1, hl1, hg1, hr5⟩
    · refine ⟨_, hr5, ?_, ⟨_, hσ4, Function.update_same _ _ _⟩, tidy4⟩
      intro n c
      rw [L4]
      by_cases h : n = node ∧ c = (!b)
      · rw [if_pos h, if_pos h]
      · rw [if_neg h, if_neg h]
        by_cases hc : c = (!b)
        · rw [if_pos hc, if_pos hc]
        · rw [if_neg hc, if_neg hc]
          have hcb : c = b := by
            rcases bool_eq_or_not b c with h1 | h1
            · exact h1
            · exact absurd h1 hc
          rw [hcb]
          exact (List.erase_of_not_mem (fun hm => hlne (Rxb n hm).1)).symm
    · refine ⟨_, hr5, ?_, ?_, ?_⟩
      · intro n c
        rw [occ_list_unreg, L4, L4]
        by_cases hc : c = (!b)
        · have hcb : ¬c = b := fun h => hnb (hc.symm.trans h)
          simp only [hcb, and_false, if_false]
          by_cases hh : n = node ∧ c = (!b)
          · rw [if_pos hh, if_pos hh]
          · rw [if_neg hh, if_neg hh, if_pos hc, if_pos hc]
        · have hcb : c = b := by
            rcases bool_eq_or_not b c with h1 | h1
            · exact h1
            · exact absurd h1 hc
          have hbb : ¬b = (!b) := fun h => hnb h.symm
          by_cases h0 : n = n1
          · simp only [hcb, h0, hbb, and_self, and_false, if_true, if_false]
          · simp only [hcb, h0, hbb, false_and, and_false, if_false]
            refine (List.erase_of_not_mem (fun hm => ?_)).symm
            have := (Rxb n hm).2
            rw [hg1] at this
            exact h0 (Option.some.inj this).symm
      · by_cases h0 : node = n1
        · rw [← h0]
          exact occ_unreg_keeps σ4 node b x _ hσ4 rest (Function.update_same _ _ _)
        · rw [occ_unreg_other _ _ _ _ _ h0]
          exact ⟨_, hσ4, Function.update_same _ _ _⟩
      · intro n hn
        exact occ_unreg_tidy_at _ n1 b x n (tidy4 n hn)
  obtain ⟨σ5, hr5, L5, ⟨v5, hv5, hv5r⟩, tidy5⟩ := h5'
  obtain ⟨s8, σ8, e8, st8, hr8, L8, h8o, h8t⟩ :=
    find_occurrence_tidy_node_spec hne hr5 node b v5 hv5 rest hv5r
  right
  refine ⟨{ s8 with start := i }, x, hchain _ ?_, rfl, hxlt, hxreg, σ8, occ_rep_start hr8 i,
    ?_, ?_⟩
  · rw [e4, ok_bind, hdx, ok_bind, e5, ok_bind, e8, ok_bind]
    rfl
  · intro n v8 hv8
    by_cases hn : n = node
    · subst hn
      exact h8t v8 hv8
    · rw [h8o n hn] at hv8
      exact tidy5 n hn v8 hv8
  · intro n c
    rw [L8, L5]
    by_cases h : n = node ∧ c = (!b)
    · rw [if_pos h, h.1, h.2, hL2]
      exact hrest
    · rw [if_neg h]
      by_cases hc : c = (!b)
      · rw [if_pos hc, hc]
        refine (List.erase_of_not_mem (fun hm => ?_)).symm
        exact h ⟨Rx2 n (List.mem_of_mem_erase hm), hc⟩
      · rw [if_neg hc]
        have hcb : c = b := by
          rcases bool_eq_or_not b c with h1 | h1
          · exact h1
          · exact absurd h1 hc
        rw [hcb, List.erase_of_not_mem (F1 n)]

theorem occ_reg_succ {d : Digram} {G : HGraph} {i : Nat} (b : Bool) {edge : HEdge}
    (hi : G.edges.get? i = some (some edge)) (c : Bool) (e n : Nat) :
    OccReg d G i ((if b then 1 else 0) + 1) c e n ↔
      OccReg d G i (if b then 1 else 0) c e n ∨
      (c = b ∧ e = i ∧ edge.label = (digram_adj d b).label ∧
        edge.nodes.get? (digram_adj d b).conn_type = some n) := by
  unfold OccReg
  constructor
  · intro ⟨hp, ed, h1, h2, h3⟩
    by_cases hlt : e < i
    · exact Or.inl ⟨Or.inl hlt, ed, h1, h2, h3⟩
    · have hei : e = i := by
        rcases hp with h | h
        · exact absurd h hlt
        · exact h.1
      have hpos : (if c then 2 else 1) ≤ (if b then 1 else 0) + 1 := by
        rcases hp with h | h
        · exact absurd h hlt
        · exact h.2
      by_cases hcb : c = b
      · right
        rw [hei, hi] at h1
        cases h1
        rw [hcb] at h2 h3
        exact ⟨hcb, hei, h2, h3⟩
      · left
        refine ⟨Or.inr ⟨hei, ?_⟩, ed, h1, h2, h3⟩
        revert hpos hcb
        cases b <;> cases c <;> simp
  · intro h
    rcases h with ⟨hp, ed, h1, h2, h3⟩ | ⟨hcb, hei, h2, h3⟩
    · refine ⟨?_, ed, h1, h2, h3⟩
      rcases hp with h | h
      · exact Or.inl h
      · right
        refine ⟨h.1, ?_⟩
        have := h.2
        omega
    · refine ⟨Or.inr ⟨hei, ?_⟩, edge, by rw [hei]; exact hi, by rw [hcb]; exact h2,
        by rw [hcb]; exact h3⟩
      rw [hcb]
      cases b <;> simp

theorem occ_reg_next {d : Digram} {G : HGraph} {i : Nat} (c : Bool) (e n : Nat) :
    OccReg d G (i + 1) 0 c e n ↔ OccReg d G i 2 c e n := by
  unfold OccReg
  have : (e < i + 1 ∨ e = i + 1 ∧ (if c = true then 2 else 1) ≤ 0) ↔
      (e < i ∨ e = i ∧ (if c = true then 2 else 1) ≤ 2) := by
    cases c <;> simp <;> omega
  rw [this]

theorem occ_reg_skip {d : Digram} {G : HGraph} {i : Nat} (hi : G.edges.get? i = some none)
    (c : Bool) (e n : Nat) :
    OccReg d G (i + 1) 0 c e n ↔ OccReg d G i 0 c e n := by
  unfold OccReg
  constructor
  · intro ⟨hp, ed, h1, h2, h3⟩
    refine ⟨?_, ed, h1, h2, h3⟩
    left
    rcases hp with h | h
    · by_cases hei : e = i
      · rw [hei, hi] at h1
        cases h1
      · omega
    · have := h.2
      revert this
      cases c <;> simp
  · intro ⟨hp, ed, h1, h2, h3⟩
    refine ⟨?_, ed, h1, h2, h3⟩
    left
    rcases hp with h | h
    · omega
    · have := h.2
      revert this
      cases c <;> simp

theorem occ_tidy_update {σ : Nat → Option (Bool → Option (List Nat))} (hT : OccTidy σ)
    (node : Nat) (v1 : Bool → Option (List Nat)) (h1 : occ_lists_count v1 ≠ 0)
    (h2 : ∀ c l, v1 c = some l → l ≠ []) : OccTidy (Function.update σ node (some v1)) := by
  intro n v hv
  by_cases hn : n = node
  · rw [hn, Function.update_same] at hv
    cases hv
    exact ⟨h1, h2⟩
  · rw [Function.update_noteq hn] at hv
    exact hT n v hv

theorem occ_list_update (σ : Nat → Option (Bool → Option (List Nat))) (node : Nat)
    (v1 : Bool → Option (List Nat)) (n : Nat) (c : Bool) :
    occ_list (Function.update σ node (some v1)) n c =
      if n = node then (v1 c).getD [] else occ_list σ n c := by
  by_cases hn : n = node
  · rw [if_pos hn, hn]
    exact occ_list_some (Function.update_same _ _ _) c
  · rw [if_neg hn]
    unfold occ_list
    rw [Function.update_noteq hn]

theorem occ_inv_add {d : Digram} {G : HGraph} {i : Nat} (b : Bool)
    {σ σ1 : Nat → Option (Bool → Option (List Nat))}
    (hI : OccInvNe d G i (if b then 1 else 0) σ) {edge : HEdge}
    (hi : G.edges.get? i = some (some edge)) (hlab : edge.label = (digram_adj d b).label)
    (node : Nat) (hnode : edge.nodes.get? (digram_adj d b).conn_type = some node)
    (hT1 : OccTidy σ1)
    (hL : ∀ n c, occ_list σ1 n c =
      if n = node ∧ c = b then occ_list σ node b ++ [i] else occ_list σ n c)
    (hS1 : occ_list σ node (!b) ≠ [] → occ_list σ node b = [] ∧ occ_list σ node (!b) = [i]) :
    OccInvNe d G i ((if b then 1 else 0) + 1) σ1 := by
  obtain ⟨hT, hN, hS, hM⟩ := hI
  have hnb := bool_not_ne b
  have F1 : ∀ n, i ∉ occ_list σ n b := fun n hm => occ_not_reg_self ((hM n b i).mp hm)
  refine ⟨hT1, ?_, ?_, ?_⟩
  · intro n c
    rw [hL]
    by_cases h : n = node ∧ c = b
    · rw [if_pos h]
      refine List.Nodup.append (hN node b) (List.nodup_singleton _) ?_
      intro x hx1 hx2
      rw [List.mem_singleton] at hx2
      rw [hx2] at hx1
      exact F1 node hx1
    · rw [if_neg h]
      exact hN n c
  · have key : ∀ n, occ_list σ1 n b ≠ [] → occ_list σ1 n (!b) ≠ [] →
        ∃ e, occ_list σ1 n b = [e] ∧ occ_list σ1 n (!b) = [e] := by
      intro n h1 h2
      have e2 : occ_list σ1 n (!b) = occ_list σ n (!b) := by
        rw [hL, if_neg (fun h => hnb h.2)]
      by_cases hn : n = node
      · have e1 : occ_list σ1 n b = occ_list σ node b ++ [i] := by
          rw [hL, if_pos ⟨hn, rfl⟩]
        rw [e2, hn] at h2
        obtain ⟨k1, k2⟩ := hS1 h2
        rw [e1, e2, hn, k1, k2]
        exact ⟨i, rfl, rfl⟩
      · have e1 : occ_list σ1 n b = occ_list σ n b := by
          rw [hL, if_neg (fun h => hn h.1)]
        rw [e1] at h1
        rw [e2] at h2
        rw [e1, e2]
        exact occ_both hS n b h1 h2
    intro n h1 h2
    cases b with
    | false => exact key n h1 h2
    | true =>
      obtain ⟨e, k1, k2⟩ := key n h2 h1
      exact ⟨e, k2, k1⟩
  · intro n c e
    rw [occ_reg_succ b hi, hL, ← hM]
    by_cases h : n = node ∧ c = b
    · rw [if_pos h, List.mem_append, List.mem_singleton, h.1, h.2]
      constructor
      · intro hx
        rcases hx with hx | hx
        · exact Or.inl hx
        · exact Or.inr ⟨rfl, hx, hlab, hnode⟩
      · intro hx
        rcases hx with hx | hx
        · exact Or.inl hx
        · exact Or.inr hx.2.1
    · rw [if_neg h]
      constructor
      · intro hx
        exact Or.inl hx
      · intro hx
        rcases hx with hx | ⟨k1, _, _, k4⟩
        · exact hx
        · rw [hnode] at k4
          exact absurd ⟨(Option.some.inj k4).symm, k1⟩ h

theorem occ_inv_skip_pass {d : Digram} {G : HGraph} {i : Nat} (b : Bool)
    {σ : Nat → Option (Bool → Option (List Nat))}
    (hI : OccInvNe d G i (if b then 1 else 0) σ) {edge : HEdge}
    (hi : G.edges.get? i = some (some edge)) (hlab : edge.label ≠ (digram_adj d b).label) :
    OccInvNe d G i ((if b then 1 else 0) + 1) σ := by
  obtain ⟨hT, hN, hS, hM⟩ := hI
  refine ⟨hT, hN, hS, ?_⟩
  intro n c e
  rw [occ_reg_succ b hi, hM]
  constructor
  · intro h
    exact Or.inl h
  · intro h
    rcases h with h | h
    · exact h
    · exact absurd h.2.2.1 hlab

theorem occ_inv_replaced {d : Digram} {G G1 : HGraph} {i j : Nat}
    {σ σ1 : Nat → Option (Bool → Option (List Nat))} (hI : OccInvNe d G i j σ)
    (e1 : Nat) (a c : Nat) (hac : (a = i ∧ c = e1) ∨ (a = e1 ∧ c = i))
    (hrep : OccReplaced d G G1 a c) (hT1 : OccTidy σ1)
    (hL : ∀ n c, occ_list σ1 n c = ((occ_list σ n c).erase i).erase e1) :
    OccInvNe d G1 i 0 σ1 := by
  obtain ⟨hT, hN, hS, hM⟩ := hI
  have hsub : ∀ n c, (occ_list σ1 n c).Sublist (occ_list σ n c) := by
    intro n c
    rw [hL]
    exact (List.erase_sublist _ _).trans (List.erase_sublist _ _)
  have hmem : ∀ n c e, e ∈ occ_list σ1 n c ↔ e ≠ e1 ∧ e ≠ i ∧ e ∈ occ_list σ n c := by
    intro n c e
    rw [hL, List.Nodup.mem_erase_iff (List.Nodup.erase _ (hN n c)),
      List.Nodup.mem_erase_iff (hN n c)]
  have hset : ∀ e, (e = a ∨ e = c) ↔ (e = i ∨ e = e1) := by
    intro e
    rcases hac with ⟨h1, h2⟩ | ⟨h1, h2⟩
    · rw [h1, h2]
    · rw [h1, h2]
      exact or_comm
  refine ⟨hT1, ?_, ?_, ?_⟩
  · intro n c
    exact List.Nodup.sublist (hsub n c) (hN n c)
  · intro n h1 h2
    have k1 : occ_list σ n false ≠ [] := fun h => h1 (by
      have := hsub n false
      rw [h] at this
      exact List.sublist_nil.mp this)
    have k2 : occ_list σ n true ≠ [] := fun h => h2 (by
      have := hsub n true
      rw [h] at this
      exact List.sublist_nil.mp this)
    obtain ⟨e, g1, g2⟩ := hS n k1 k2
    have s1 := hsub n false
    have s2 := hsub n true
    rw [g1] at s1
    rw [g2] at s2
    refine ⟨e, ?_, ?_⟩
    · rcases List.sublist_singleton.mp s1 with h | h
      · exact absurd h h1
      · exact h
    · rcases List.sublist_singleton.mp s2 with h | h
      · exact absurd h h2
      · exact h
  · intro n b e
    rw [hmem, hM]
    unfold OccReg
    constructor
    · intro ⟨h1, h2, hp, ed, g1, g2, g3⟩
      refine ⟨?_, ed, ?_, g2, g3⟩
      · left
        rcases hp with h | h
        · exact h
        · exact absurd h.1 h2
      · rw [hrep.1 e (fun h => ?_) (fun h => ?_)]
        · exact g1
        · rcases (hset e).mp (Or.inl h) with k | k
          · exact h2 k
          · exact h1 k
        · rcases (hset e).mp (Or.inr h) with k | k
          · exact h2 k
          · exact h1 k
    · intro ⟨hp, ed, g1, g2, g3⟩
      have hnot : ¬(e = a ∨ e = c) := fun h => hrep.2 e ed h g1 b g2
      have hne1 : e ≠ e1 := fun h => hnot ((hset e).mpr (Or.inr h))
      have hnei : e ≠ i := fun h => hnot ((hset e).mpr (Or.inl h))
      refine ⟨hne1, hnei, ?_, ed, ?_, g2, g3⟩
      · left
        rcases hp with h | h
        · exact h
        · exact absurd h.1 hnei
      · rw [← hrep.1 e (fun h => hnot (Or.inl h)) (fun h => hnot (Or.inr h))]
        exact g1

theorem find_occurrence_pass_eq {d : Digram} (G : HGraph)
    {s : OccState} {σ : Nat → Option (Bool → Option (List Nat))} (hr : OccRep d s σ)
    (i : Nat) (b : Bool) (edge : HEdge) (hlab : edge.label = (digram_adj d b).label)
    (node : Nat) (hg : edge.nodes.get? (digram_adj d b).conn_type = some node)
    (v : Bool → Option (List Nat)) (hv : σ node = some v) :
    find_occurrence_pass d G s i edge (if b then 1 else 0) =
      if (v b).isSome = true ∧ occ_lists_count v = 1 then
        (occ_state_node_append s node (digram_adj d b) i >>= fun s1 => pure (s1, none))
      else if (v (!b)).isSome = true ∧ occ_lists_count v = 1 ∧ v (!b) = some [i] then
        (occ_state_node_adj_set_i s node (digram_adj d b) i >>= fun s1 => pure (s1, none))
      else
        (find_occurrence_complete G s i edge node (digram_adj d b) (digram_adj d (!b)) >>=
          fun p => pure (p.1, some (if b then (p.2, i) else (i, p.2)))) := by
  have ea : (if (if b then 1 else 0 : Nat) = 0 then d.adj0 else d.adj1) = digram_adj d b := by
    cases b <;> rfl
  have ea2 : (if (if b then 1 else 0 : Nat) ≠ 0 then d.adj0 else d.adj1) =
      digram_adj d (!b) := by
    cases b <;> rfl
  have eb : ∀ x : Nat, (if (if b then 1 else 0 : Nat) = 0 then (i, x) else (x, i)) =
      (if b then (x, i) else (i, x)) := by
    intro x
    cases b <;> rfl
  have hcnt := occ_lists_count_eq v b
  unfold find_occurrence_pass
  simp only [ea, ea2, eb, if_pos hlab, arr_get_of_get? _ _ _ hg, ok_bind,
    occ_contains_node_eq hr, hv, Option.isSome_some, Bool.not_true, Bool.false_eq_true,
    if_false, occ_contains_adj_eq hr hv, occ_len_eq hr hv]
  cases hb : v b with
  | none =>
    cases hnb2 : v (!b) with
    | none =>
      rw [hb, hnb2] at hcnt
      simp only [Option.isSome_none, Bool.false_eq_true, if_false, pure_eq_ok, ok_bind,
        Bool.false_and, false_and]
    | some l2 =>
      rw [hb, hnb2] at hcnt
      simp only [Option.isSome_none, Option.isSome_some, Bool.false_eq_true, if_false, if_true,
        pure_eq_ok, ok_bind, Bool.false_and, false_and, true_and, Bool.true_and, hcnt,
        occ_matches_i_eq hr hv hnb2]
      by_cases hl : l2 = [i]
      · simp [hl]
      · simp [hl]
  | some l =>
    cases hnb2 : v (!b) with
    | none =>
      rw [hb, hnb2] at hcnt
      simp only [Option.isSome_none, Option.isSome_some, Bool.false_eq_true, if_false, if_true,
        pure_eq_ok, ok_bind, Bool.false_and, false_and, true_and, Bool.true_and, hcnt]
      simp
    | some l2 =>
      rw [hb, hnb2] at hcnt
      simp only [Option.isSome_none, Option.isSome_some, Bool.false_eq_true, if_false, if_true,
        pure_eq_ok, ok_bind, Bool.false_and, false_and, true_and, Bool.true_and, hcnt]
      simp

theorem find_occurrence_pass_spec {d : Digram} (hne : d.adj0 ≠ d.adj1) (G : HGraph)
    {s : OccState} {σ : Nat → Option (Bool → Option (List Nat))} (hr : OccRep d s σ)
    (i : Nat) (b : Bool) (hI : OccInvNe d G i (if b then 1 else 0) σ) (edge : HEdge)
    (hi : G.edges.get? i = some (some edge)) :
    (find_occurrence_pass d G s i edge (if b then 1 else 0) = .error .undefined ∧
      ¬OccConn d G) ∨
    (∃ s1 σ1, find_occurrence_pass d G s i edge (if b then 1 else 0) = .ok (s1, none) ∧
      s1.start = s.start ∧ OccRep d s1 σ1 ∧ OccInvNe d G i ((if b then 1 else 0) + 1) σ1) ∨
    ∃ s1 a c, find_occurrence_pass d G s i edge (if b then 1 else 0) = .ok (s1, some (a, c)) ∧
      s1.start = i ∧ OccPair d G a c ∧
      ∀ G1, OccReplaced d G G1 a c → ∃ σ1, OccRep d s1 σ1 ∧ OccInvNe d G1 i 0 σ1 := by
  have hnb := bool_not_ne b
  by_cases hlab : edge.label = (digram_adj d b).label
  swap
  · right; left
    refine ⟨s, σ, ?_, rfl, hr, occ_inv_skip_pass b hI hi hlab⟩
    have ea : (if (if b then 1 else 0 : Nat) = 0 then d.adj0 else d.adj1) = digram_adj d b := by
      cases b <;> rfl
    unfold find_occurrence_pass
    simp only [ea, if_neg hlab]
    rfl
  cases hg : edge.nodes.get? (digram_adj d b).conn_type with
  | none =>
    left
    refine ⟨?_, fun hc => occ_conn_get hc i edge hi b hlab hg⟩
    have ea : (if (if b then 1 else 0 : Nat) = 0 then d.adj0 else d.adj1) = digram_adj d b := by
      cases b <;> rfl
    unfold find_occurrence_pass
    simp only [ea, if_pos hlab, arr_get_of_none _ _ hg]
    rfl
  | some node =>
    cases hv : σ node with
    | none =>
      have hpass : find_occurrence_pass d G s i edge (if b then 1 else 0) =
          (occ_state_node_adj_init s node (digram_adj d b) i >>= fun s1 => pure (s1, none)) := by
        have ea : (if (if b then 1 else 0 : Nat) = 0 then d.adj0 else d.adj1) =
            digram_adj d b := by
          cases b <;> rfl
        unfold find_occurrence_pass
        simp only [ea, if_pos hlab, arr_get_of_get? _ _ _ hg, ok_bind,
          occ_contains_node_eq hr, hv, Option.isSome_none, Bool.not_false, if_true]
      rw [hpass]
      obtain ⟨s1, h1, h2, h3⟩ := occ_adj_init_spec hne hr hv b i
      · right; left
        refine ⟨s1, _, by rw [h1]; rfl, h3, h2, ?_⟩
        have hl0 : ∀ c, occ_list σ node c = [] := fun c => occ_list_none hv c
        apply occ_inv_add b hI hi hlab node hg
        · apply occ_tidy_update hI.1
          · rw [occ_lists_count_update_new _ b [i] rfl]
            omega
          · intro c l hl
            by_cases hc : c = b
            · rw [hc, Function.update_same] at hl
              cases hl
              exact List.cons_ne_nil _ _
            · rw [Function.update_noteq hc] at hl
              cases hl
        · intro n c
          rw [occ_list_update, hl0 b]
          by_cases hn : n = node
          · rw [if_pos hn]
            by_cases hc : c = b
            · rw [if_pos ⟨hn, hc⟩, hc, Function.update_same]
              rfl
            · rw [if_neg (fun h => hc h.2), Function.update_noteq hc, hn, hl0 c]
              rfl
          · rw [if_neg hn, if_neg (fun h => hn h.1)]
        · intro h
          exact absurd (hl0 (!b)) h
    | some v =>
      rw [find_occurrence_pass_eq G hr i b edge hlab node hg v hv]
      obtain ⟨t1, t2⟩ := hI.1 node v hv
      by_cases hc1 : (v b).isSome = true ∧ occ_lists_count v = 1
      · rw [if_pos hc1]
        obtain ⟨l, hl⟩ := Option.isSome_iff_exists.mp hc1.1
        have hl2 : v (!b) = none := by
          have := occ_lists_count_eq v b
          rw [hc1.2, hl] at this
          cases hx : v (!b) with
          | none => rfl
          | some l2 =>
            rw [hx] at this
            simp at this
        obtain ⟨s1, h1, h2, h3⟩ := occ_append_spec hne hr hv hl i
        right; left
        refine ⟨s1, _, by rw [h1]; rfl, h3, h2, ?_⟩
        apply occ_inv_add b hI hi hlab node hg
        · unfold occ_set
          rw [hv]
          apply occ_tidy_update hI.1
          · rw [occ_lists_count_update_some v b l _ hl]
            exact t1
          · intro c l1 hl1
            by_cases hc : c = b
            · rw [hc, Function.update_same] at hl1
              cases hl1
              exact List.append_ne_nil_of_right_ne_nil _ (List.cons_ne_nil _ _)
            · rw [Function.update_noteq hc] at hl1
              exact t2 c l1 hl1
        · intro n c
          rw [occ_list_set σ node v hv, occ_list_some hv b, hl]
          rfl
        · intro h
          rw [occ_list_some hv, hl2] at h
          exact absurd rfl h
      · rw [if_neg hc1]
        by_cases hc2 : (v (!b)).isSome = true ∧ occ_lists_count v = 1 ∧ v (!b) = some [i]
        · rw [if_pos hc2]
          have hlb : v b = none := by
            have := occ_lists_count_eq v b
            rw [hc2.2.1, hc2.2.2] at this
            cases hx : v b with
            | none => rfl
            | some l2 =>
              rw [hx] at this
              simp at this
          obtain ⟨s1, h1, h2, h3⟩ := occ_set_i_spec hne hr hv hlb i
          · right; left
            refine ⟨s1, _, by rw [h1]; rfl, h3, h2, ?_⟩
            apply occ_inv_add b hI hi hlab node hg
            · unfold occ_set
              rw [hv]
              apply occ_tidy_update hI.1
              · rw [occ_lists_count_update_new v b _ hlb]
                omega
              · intro c l1 hl1
                by_cases hc : c = b
                · rw [hc, Function.update_same] at hl1
                  cases hl1
                  exact List.cons_ne_nil _ _
                · rw [Function.update_noteq hc] at hl1
                  exact t2 c l1 hl1
            · intro n c
              rw [occ_list_set σ node v hv, occ_list_some hv b, hlb]
              rfl
            · intro _
              rw [occ_list_some hv, occ_list_some hv, hlb, hc2.2.2]
              exact ⟨rfl, rfl⟩
        · rw [if_neg hc2]
          rcases find_occurrence_complete_spec hne G hr i b hI edge hi node v hv hc1 hc2 with
            ⟨h, hconn⟩ | ⟨s1, e1, h1, st1, hlt, hreg, σ1, hr1, hT1, hL1⟩
          · left
            refine ⟨?_, hconn⟩
            rw [h]
            rfl
          · right; right
            obtain ⟨_, ev, g1, g2, g3⟩ := hreg
            have hne1 : i ≠ e1 := by omega
            cases b with
            | false =>
              refine ⟨s1, i, e1, by rw [h1]; rfl, st1, ⟨hne1, edge, ev, node, hi, g1, hlab, g2,
                hg, g3⟩, ?_⟩
              intro G1 hrep
              exact ⟨σ1, hr1, occ_inv_replaced hI e1 i e1 (Or.inl ⟨rfl, rfl⟩) hrep hT1 hL1⟩
            | true =>
              refine ⟨s1, e1, i, by rw [h1]; rfl, st1, ⟨hne1.symm, ev, edge, node, g1, hi, g2,
                hlab, g3, hg⟩, ?_⟩
              intro G1 hrep
              exact ⟨σ1, hr1, occ_inv_replaced hI e1 e1 i (Or.inr ⟨rfl, rfl⟩) hrep hT1 hL1⟩

/-! ## The search for a digram of two equal adjacency types -/

theorem cmp_adjacency_type_ne (a1 a2 : AdjacencyType) :
    cmp_adjacency_type a1 a2 ≠ 0 ↔ a1 ≠ a2 := by
  unfold cmp_adjacency_type
  constructor
  · intro h heq
    rw [heq] at h
    simp at h
  · intro h
    by_cases h1 : a1.label = a2.label
    · by_cases h2 : a1.conn_type = a2.conn_type
      · exfalso
        apply h
        cases a1
        cases a2
        simp only at h1 h2
        rw [h1, h2]
      · simp only [h1, ne_eq, not_true_eq_false, if_false, h2, not_false_eq_true, if_true]
        split <;> decide
    · simp only [ne_eq, h1, not_false_eq_true, if_true]
      split <;> decide

theorem occ_eq_contains_node {s : OccState} {σ : Nat → Option Nat} (hr : OccRepEq s σ)
    (n : Nat) : occ_state_contains_node s n = (σ n).isSome := by
  unfold occ_state_contains_node
  rw [hashmap_contains_key_get, hr.2 n]
  cases σ n <;> rfl

theorem occ_eq_init_edge {s : OccState} {σ : Nat → Option Nat} (hr : OccRepEq s σ)
    {n : Nat} (hv : σ n = none) (i : Nat) :
    ∃ s1, occ_state_node_init_edge s n i = .ok s1 ∧
      OccRepEq s1 (Function.update σ n (some i)) ∧ s1.start = s.start := by
  unfold occ_state_node_init_edge
  have hg : hashmap_get s.map n = none := by rw [hr.2 n, hv]; rfl
  obtain ⟨m1, r, hp, a1, a2, _, a4⟩ := hashmap_put_spec s.map hr.1 n (OccStateElement.edge i)
  · rw [hg] at a4
    simp only [Option.isSome_none, Bool.false_eq_true, if_false] at a4
    rw [hp, ok_bind, a4]
    refine ⟨_, rfl, ⟨a1, ?_⟩, rfl⟩
    intro n1
    show hashmap_get m1 n1 = _
    rw [a2]
    by_cases hn : n1 = n
    · rw [if_pos hn, hn, Function.update_same]
      rfl
    · rw [if_neg hn, Function.update_noteq hn]
      exact hr.2 n1

theorem occ_eq_edge_get {s : OccState} {σ : Nat → Option Nat} (hr : OccRepEq s σ)
    {n e : Nat} (hv : σ n = some e) : occ_state_node_edge_get s n = .ok e := by
  unfold occ_state_node_edge_get
  rw [hr.2 n, hv]
  rfl

theorem occ_eq_node_del {s : OccState} {σ : Nat → Option Nat} (hr : OccRepEq s σ)
    {n e : Nat} (hv : σ n = some e) :
    ∃ s1, occ_state_node_del s n = .ok s1 ∧ OccRepEq s1 (Function.update σ n none) ∧
      s1.start = s.start := by
  obtain ⟨a1, a2, _⟩ := hashmap_remove_spec s.map hr.1 n
  refine ⟨{ s with map := (hashmap_remove s.map n).1 }, ?_, ⟨a1, ?_⟩, rfl⟩
  · unfold occ_state_node_del
    rw [hr.2 n, hv]
    rfl
  · intro n1
    show hashmap_get (hashmap_remove s.map n).1 n1 = _
    rw [a2]
    by_cases hn : n1 = n
    · rw [if_pos hn, hn, Function.update_same]
      rfl
    · rw [if_neg hn, Function.update_noteq hn]
      exact hr.2 n1

theorem occ_reg_zero {d : Digram} {G : HGraph} {i : Nat} {c : Bool} {e n : Nat}
    (h : OccReg d G i 0 c e n) : e < i := by
  rcases h.1 with h1 | h1
  · exact h1
  · have := h1.2
    revert this
    cases c <;> simp

theorem occ_inv_eq_next {d : Digram} {G : HGraph} {i : Nat} {σ : Nat → Option Nat}
    (hI : OccInvEq d G i σ)
    (hi : ∀ edge, G.edges.get? i = some (some edge) → edge.label ≠ d.adj0.label) :
    OccInvEq d G (i + 1) σ := by
  intro n e
  rw [hI n e]
  unfold OccReg
  constructor
  · intro ⟨hp, ed, h1, h2, h3⟩
    refine ⟨?_, ed, h1, h2, h3⟩
    left
    have := occ_reg_zero (c := false) ⟨hp, ed, h1, h2, h3⟩
    omega
  · intro ⟨hp, ed, h1, h2, h3⟩
    have hlt := occ_reg_zero (c := false) ⟨hp, ed, h1, h2, h3⟩
    refine ⟨?_, ed, h1, h2, h3⟩
    left
    by_cases hei : e = i
    · rw [hei] at h1
      exact absurd h2 (hi ed h1)
    · omega

theorem occ_inv_eq_add {d : Digram} {G : HGraph} {i : Nat} {σ : Nat → Option Nat}
    (hI : OccInvEq d G i σ) (edge : HEdge) (hi : G.edges.get? i = some (some edge))
    (hlab : edge.label = d.adj0.label) (node : Nat)
    (hnode : edge.nodes.get? d.adj0.conn_type = some node) (hv : σ node = none) :
    OccInvEq d G (i + 1) (Function.update σ node (some i)) := by
  intro n e
  unfold OccReg
  constructor
  · intro h
    by_cases hn : n = node
    · rw [hn, Function.update_same] at h
      cases h
      exact ⟨Or.inl (Nat.lt_succ_self _), edge, hi, hlab, by rw [hn]; exact hnode⟩
    · rw [Function.update_noteq hn] at h
      obtain ⟨hp, rest⟩ := (hI n e).mp h
      have := occ_reg_zero (c := false) ⟨hp, rest⟩
      exact ⟨Or.inl (by omega), rest⟩
  · intro ⟨hp, ed, h1, h2, h3⟩
    have hlt := occ_reg_zero (c := false) ⟨hp, ed, h1, h2, h3⟩
    by_cases hei : e = i
    · rw [hei, hi] at h1
      cases h1
      have hnn : n = node := by
        have h3' : edge.nodes.get? d.adj0.conn_type = some n := h3
        rw [hnode] at h3'
        exact (Option.some.inj h3').symm
      rw [hnn, Function.update_same, hei]
    · have hreg : OccReg d G i 0 false e n := ⟨Or.inl (by omega), ed, h1, h2, h3⟩
      have hs := (hI n e).mpr hreg
      have hn : n ≠ node := by
        intro hn
        rw [hn, hv] at hs
        cases hs
      rw [Function.update_noteq hn]
      exact hs

theorem occ_inv_eq_replaced {d : Digram} {G G1 : HGraph} {i : Nat} {σ : Nat → Option Nat}
    (hI : OccInvEq d G i σ) (node e1 : Nat) (hv : σ node = some e1)
    (hrep : OccReplaced d G G1 e1 i) :
    OccInvEq d G1 i (Function.update σ node none) := by
  intro n e
  constructor
  · intro h
    have hn : n ≠ node := by
      intro hn
      rw [hn, Function.update_same] at h
      cases h
    rw [Function.update_noteq hn] at h
    have hreg := (hI n e).mp h
    have hlt := occ_reg_zero hreg
    have hne1 : e ≠ e1 := by
      intro he
      rw [he] at hreg
      exact hn (occ_reg_node hreg ((hI node e1).mp hv))
    obtain ⟨hp, ed, h1, h2, h3⟩ := hreg
    refine ⟨hp, ed, ?_, h2, h3⟩
    rw [hrep.1 e hne1 (by omega)]
    exact h1
  · intro hreg
    have hlt := occ_reg_zero hreg
    obtain ⟨hp, ed, h1, h2, h3⟩ := hreg
    have hne1 : e ≠ e1 := fun he => hrep.2 e ed (Or.inl he) h1 false h2
    have hreg0 : OccReg d G i 0 false e n := by
      refine ⟨hp, ed, ?_, h2, h3⟩
      rw [← hrep.1 e hne1 (by omega)]
      exact h1
    have hs := (hI n e).mpr hreg0
    have hn : n ≠ node := by
      intro hn
      rw [hn, hv] at hs
      exact hne1 (Option.some.inj hs).symm
    rw [Function.update_noteq hn]
    exact hs

/-! ## find_occurrence_of_digram: the occurrences it returns -/

theorem occ_inv_ne_hole {d : Digram} {G : HGraph} {i : Nat}
    {σ : Nat → Option (Bool → Option (List Nat))} (hI : OccInvNe d G i 0 σ)
    (hi : G.edges.get? i = some none) : OccInvNe d G (i + 1) 0 σ := by
  obtain ⟨hT, hN, hS, hM⟩ := hI
  refine ⟨hT, hN, hS, ?_⟩
  intro n c e
  rw [occ_reg_skip hi, hM]

theorem occ_inv_ne_next {d : Digram} {G : HGraph} {i : Nat}
    {σ : Nat → Option (Bool → Option (List Nat))} (hI : OccInvNe d G i 2 σ) :
    OccInvNe d G (i + 1) 0 σ := by
  obtain ⟨hT, hN, hS, hM⟩ := hI
  refine ⟨hT, hN, hS, ?_⟩
  intro n c e
  rw [occ_reg_next, hM]

theorem find_occurrence_at_spec (d : Digram) (G : HGraph) (s : OccState) (i : Nat)
    (hlt : i < hgraph_len G) (hinv : OccInvAt d G i s) :
    (find_occurrence_at d G s i = .error .undefined ∧ ¬OccConn d G) ∨
    (∃ s1, find_occurrence_at d G s i = .ok (s1, none) ∧ s1.start = s.start ∧
      OccInvAt d G (i + 1) s1) ∨
    ∃ s1 a c, find_occurrence_at d G s i = .ok (s1, some (a, c)) ∧ s1.start = i ∧
      OccPair d G a c ∧ ∀ G1, OccReplaced d G G1 a c → OccInvAt d G1 i s1 := by
  have hget : ∃ o, G.edges.get? i = some o := by
    cases h : G.edges.get? i with
    | none =>
      rw [List.get?_eq_none] at h
      unfold hgraph_len at hlt
      omega
    | some o => exact ⟨o, rfl⟩
  obtain ⟨o, ho⟩ := hget
  have hge := hgraph_edge_get_of_get? G i o ho
  unfold find_occurrence_at
  rw [hge, ok_bind]
  cases o with
  | none =>
    right; left
    refine ⟨s, rfl, rfl, ?_⟩
    unfold OccInvAt at hinv ⊢
    by_cases heq : d.adj0 = d.adj1
    · rw [if_pos heq] at hinv ⊢
      obtain ⟨σ, h1, h2⟩ := hinv
      refine ⟨σ, h1, occ_inv_eq_next h2 ?_⟩
      intro edge he
      rw [ho] at he
      cases he
    · rw [if_neg heq] at hinv ⊢
      obtain ⟨σ, h1, h2⟩ := hinv
      exact ⟨σ, h1, occ_inv_ne_hole h2 ho⟩
  | some edge =>
    simp only
    unfold OccInvAt at hinv
    by_cases heq : d.adj0 = d.adj1
    · rw [if_pos heq] at hinv
      obtain ⟨σ, hr, hI⟩ := hinv
      rw [if_neg (fun h => (cmp_adjacency_type_ne _ _).mp h heq)]
      by_cases hlab : edge.label = d.adj0.label
      · rw [if_pos hlab]
        cases hg : edge.nodes.get? d.adj0.conn_type with
        | none =>
          left
          rw [arr_get_of_none _ _ hg]
          exact ⟨rfl, fun hc => occ_conn_get hc i edge ho false hlab hg⟩
        | some node =>
          rw [arr_get_of_get? _ _ _ hg, ok_bind, occ_eq_contains_node hr]
          cases hv : σ node with
          | none =>
            simp only [Option.isSome_none, Bool.not_false, if_true]
            obtain ⟨s1, h1, h2, h3⟩ := occ_eq_init_edge hr hv i
            · right; left
              refine ⟨s1, by rw [h1]; rfl, h3, ?_⟩
              unfold OccInvAt
              rw [if_pos heq]
              exact ⟨_, h2, occ_inv_eq_add hI edge ho hlab node hg hv⟩
          | some e1 =>
            simp only [Option.isSome_some, Bool.not_true, Bool.false_eq_true, if_false]
            obtain ⟨s1, h1, h2, h3⟩ := occ_eq_node_del hr hv
            right; right
            have hreg := (hI node e1).mp hv
            have hlt1 := occ_reg_zero hreg
            obtain ⟨_, ev, g1, g2, g3⟩ := hreg
            refine ⟨{ s1 with start := i }, e1, i, ?_, rfl, ⟨by omega, ev, edge, node, g1, ho,
              g2, by rw [← heq]; exact hlab, g3, by rw [← heq]; exact hg⟩, ?_⟩
            · rw [occ_eq_edge_get hr hv, ok_bind, h1, ok_bind]
              rfl
            · intro G1 hrep
              unfold OccInvAt
              rw [if_pos heq]
              exact ⟨_, h2, occ_inv_eq_replaced hI node e1 hv hrep⟩
      · rw [if_neg hlab]
        right; left
        refine ⟨s, rfl, rfl, ?_⟩
        unfold OccInvAt
        rw [if_pos heq]
        refine ⟨σ, hr, occ_inv_eq_next hI ?_⟩
        intro edge1 he
        rw [ho] at he
        cases he
        exact hlab
    · rw [if_neg heq] at hinv
      obtain ⟨σ, hr, hI⟩ := hinv
      rw [if_pos ((cmp_adjacency_type_ne _ _).mpr heq)]
      have p0 := find_occurrence_pass_spec heq G hr i false hI edge ho
      simp only [Bool.false_eq_true, if_false, Nat.zero_add] at p0
      rcases p0 with ⟨h, hc⟩ | ⟨s1, σ1, h, st1, hr1, hI1⟩ | ⟨s1, a, c, h, st1, hp, hrep⟩
      · left
        rw [h]
        exact ⟨rfl, hc⟩
      · rw [h, ok_bind]
        simp only
        have p1 := find_occurrence_pass_spec heq G hr1 i true hI1 edge ho
        simp only [if_true] at p1
        rcases p1 with ⟨h, hc⟩ | ⟨s2, σ2, h, st2, hr2, hI2⟩ | ⟨s2, a, c, h, st2, hp, hrep⟩
        · left
          exact ⟨h, hc⟩
        · right; left
          refine ⟨s2, h, by rw [st2, st1], ?_⟩
          unfold OccInvAt
          rw [if_neg heq]
          exact ⟨σ2, hr2, occ_inv_ne_next hI2⟩
        · right; right
          refine ⟨s2, a, c, h, st2, hp, ?_⟩
          intro G1 h1
          unfold OccInvAt
          rw [if_neg heq]
          exact hrep G1 h1
      · right; right
        refine ⟨s1, a, c, by rw [h, ok_bind]; rfl, st1, hp, ?_⟩
        intro G1 h1
        unfold OccInvAt
        rw [if_neg heq]
        exact hrep G1 h1

theorem find_occurrence_loop_spec (d : Digram) (G : HGraph) :
    ∀ (fuel i : Nat) (s : OccState), OccInvAt d G i s →
      (find_occurrence_of_digram d G fuel s i = .error .undefined ∧ ¬OccConn d G) ∨
      (∃ s1, find_occurrence_of_digram d G fuel s i = .ok (s1, none)) ∨
      ∃ s1 a c, find_occurrence_of_digram d G fuel s i = .ok (s1, some (a, c)) ∧
        OccPair d G a c ∧ ∀ G1, OccReplaced d G G1 a c → OccInv d G1 s1 := by
  intro fuel
  induction fuel with
  | zero =>
    intro i s _
    exact Or.inr (Or.inl ⟨s, rfl⟩)
  | succ n ih =>
    intro i s hinv
    unfold find_occurrence_of_digram
    by_cases hlt : i < hgraph_len G
    · rw [if_pos hlt]
      rcases find_occurrence_at_spec d G s i hlt hinv with
        ⟨h, hc⟩ | ⟨s1, h, _, hI1⟩ | ⟨s1, a, c, h, st1, hp, hrep⟩
      · left
        rw [h]
        exact ⟨rfl, hc⟩
      · rw [h, ok_bind]
        exact ih (i + 1) s1 hI1
      · right; right
        refine ⟨s1, a, c, by rw [h, ok_bind]; rfl, hp, ?_⟩
        intro G1 h1
        unfold OccInv
        rw [st1]
        exact hrep G1 h1
    · rw [if_neg hlt]
      exact Or.inr (Or.inl ⟨s, rfl⟩)

theorem rule_creator_name_fresh (g : SLHRGrammar) (d : Digram) (c : RuleCreator)
    (h : rule_creator_digram_init g d = .ok c) (b : Bool) :
    c.rule_name ≠ (digram_adj d b).label := by
  unfold rule_creator_digram_init at h
  obtain ⟨r0, h0, h⟩ := bind_ok h
  obtain ⟨r1, h1, h⟩ := bind_ok h
  split at h
  · cases h
  · cases h
    show slhr_grammar_unused_nt g ≠ _
    have key : ∀ l r, slhr_grammar_rank_of_rule g l = .ok r → slhr_grammar_unused_nt g ≠ l := by
      intro l r hr heq
      unfold slhr_grammar_unused_nt at heq
      by_cases hl : l < g.min_nt
      · omega
      · obtain ⟨rule, hrule, _⟩ := rank_of_rule_nt g l r hl hr
        have : l - g.min_nt = slhr_grammar_unused_scan g.rules g.rules.length 0 := by omega
        rw [this] at hrule
        exact unused_scan_spec g.rules g.rules.length 0 (by omega) rule hrule
    cases b with
    | false => exact key _ r0 h0
    | true => exact key _ r1 h1

theorem replace_occurrence_tail_replaced (R : Int) (d : Digram) (g : SLHRGrammar)
    (old0 old1 new_edge : HEdge) (ad : NodeAdjacencyDict) (dc : Hashmap Digram Int)
    (i j : Nat) (st1 : ReplaceState)
    (hfresh : ∀ b, new_edge.label ≠ (digram_adj d b).label)
    (h : (do
      let (adj_dict, digram_count) ← update_digram_count g R old0 old1 new_edge ad dc
      let start_rule ← hgraph_edge_replace g.start_symbol i new_edge
      let start_rule ← hgraph_edge_free start_rule j
      pure ({ g := { g with start_symbol := start_rule }, adj_dict := adj_dict,
              digram_count := digram_count } : ReplaceState)) = .ok st1) :
    OccReplaced d g.start_symbol st1.g.start_symbol i j := by
  obtain ⟨adc, _, h⟩ := bind_ok h
  obtain ⟨ad1, dc1⟩ := adc
  simp only at h
  obtain ⟨sr1, hs1, h⟩ := bind_ok h
  obtain ⟨sr2, hs2, h⟩ := bind_ok h
  cases h
  unfold hgraph_edge_replace hgraph_edge_set at hs1
  unfold hgraph_edge_free hgraph_edge_set at hs2
  by_cases hi : i < g.start_symbol.edges.length
  swap
  · rw [if_neg hi] at hs1
    cases hs1
  rw [if_pos hi] at hs1
  cases hs1
  by_cases hj : j < (g.start_symbol.edges.set i (some new_edge)).length
  swap
  · rw [if_neg hj] at hs2
    cases hs2
  rw [if_pos hj] at hs2
  cases hs2
  constructor
  · intro e h1 h2
    show ((g.start_symbol.edges.set i (some new_edge)).set j none).get? e = _
    rw [List.get?_eq_getElem?, List.get?_eq_getElem?, List.getElem?_set_ne (Ne.symm h2),
      List.getElem?_set_ne (Ne.symm h1)]
  · intro e edge he hget b hl
    have hget1 : ((g.start_symbol.edges.set i (some new_edge)).set j none).get? e =
        some (some edge) := hget
    rw [List.get?_eq_getElem?] at hget1
    by_cases h2 : e = j
    · rw [h2, List.getElem?_set_self hj] at hget1
      cases hget1
    · rcases he with he | he
      · rw [List.getElem?_set_ne (Ne.symm h2), he, List.getElem?_set_self hi] at hget1
        cases hget1
        exact hfresh b hl
      · exact h2 he

theorem replace_occurrence_replaced (max_rank : Int) (d : Digram) (new_rule : RuleCreator)
    (rule_created : Bool) (st st1 : ReplaceState) (occ : Nat × Nat)
    (hfresh : ∀ b, new_rule.rule_name ≠ (digram_adj d b).label)
    (h : replace_occurrence max_rank new_rule rule_created st occ = .ok st1) :
    OccReplaced d st.g.start_symbol st1.g.start_symbol occ.1 occ.2 := by
  unfold replace_occurrence at h
  obtain ⟨old0, _, h⟩ := bind_ok h
  obtain ⟨old1, _, h⟩ := bind_ok h
  obtain ⟨new_edge, hnew, h⟩ := bind_ok h
  have hlabel : new_edge.label = new_rule.rule_name := by
    unfold rule_creator_digram_new_edge at hnew
    obtain ⟨_, _, hnew⟩ := bind_ok hnew
    obtain ⟨_, _, hnew⟩ := bind_ok hnew
    obtain ⟨_, _, hnew⟩ := bind_ok hnew
    simp only [] at hnew
    split at hnew
    · cases hnew
      rfl
    · cases hnew
  have hfresh1 : ∀ b, new_edge.label ≠ (digram_adj d b).label := by
    intro b
    rw [hlabel]
    exact hfresh b
  simp only [] at h
  split at h
  · simp only [pure_eq_ok, ok_bind] at h
    exact replace_occurrence_tail_replaced max_rank d st.g old0 old1 new_edge _ _ _ _ st1
      hfresh1 h
  · obtain ⟨g, hg, h⟩ := bind_ok h
    rw [← rule_add_start _ _ _ _ hg]
    exact replace_occurrence_tail_replaced max_rank d g old0 old1 new_edge _ _ _ _ st1
      hfresh1 h

theorem occ_inv_init (d : Digram) (G : HGraph) : OccInv d G occ_state_init := by
  unfold OccInv OccInvAt
  have hz : ∀ c e n, ¬OccReg d G 0 0 c e n := by
    intro c e n h
    have := occ_reg_zero h
    omega
  by_cases heq : d.adj0 = d.adj1
  · rw [if_pos heq]
    refine ⟨fun _ => none, ⟨hwf_init, fun n => rfl⟩, ?_⟩
    intro n e
    constructor
    · intro h
      cases h
    · intro h
      exact absurd h (hz _ _ _)
  · rw [if_neg heq]
    refine ⟨fun _ => none, ⟨hwf_init, fun n => rfl⟩, ?_, ?_, ?_, ?_⟩
    · intro n v hv
      cases hv
    · intro n c
      exact List.nodup_nil
    · intro n h
      exact absurd rfl h
    · intro n c e
      constructor
      · intro h
        exact absurd h (List.not_mem_nil _)
      · intro h
        exact absurd h (hz _ _ _)

theorem occ_reached_inv (max_rank : Int) (d : Digram) (new_rule : RuleCreator)
    (rule_created : Bool) (state : OccState) (st : ReplaceState)
    (hreach : OccReached max_rank d new_rule rule_created state st) :
    OccInv d st.g.start_symbol state ∧ ∀ b, new_rule.rule_name ≠ (digram_adj d b).label := by
  induction hreach with
  | first st hnew =>
    exact ⟨occ_inv_init d _, rule_creator_name_fresh st.g d new_rule hnew⟩
  | next rc state state1 st st1 occ _ hfind hrepl ih =>
    obtain ⟨hinv, hfresh⟩ := ih
    refine ⟨?_, hfresh⟩
    have hrep := replace_occurrence_replaced max_rank d new_rule rc st st1 occ hfresh hrepl
    rcases find_occurrence_loop_spec d st.g.start_symbol (hgraph_len st.g.start_symbol)
      state.start state hinv with ⟨h, _⟩ | ⟨s1, h⟩ | ⟨s1, a, c, h, _, hnext⟩
    · rw [h] at hfind
      cases hfind
    · rw [h] at hfind
      cases hfind
    · rw [h] at hfind
      cases hfind
      exact hnext _ hrep

/-- C36 (`find_occurrence_of_digram`, `occ_state_node_adj_pop0`,
`repair_replace_digrams`): for every start rule and search state that the
inner loop of `repair_replace_digrams` passes to `find_occurrence_of_digram`
(`OccReached`: the first call for a digram, and every call after the
replacement of the occurrence found by the call before), the call fails no
assertion, so it pops from no empty list; when every edge with a label of the
digram has a node at the connection type it returns a result; and when it
returns an occurrence `(a, c)`, then `a ≠ c`, both slots hold an edge of the
start rule, the first with the label of `adj0`, the second with the label of
`adj1`, and their nodes at the two connection types are the same node. -/
theorem find_occurrence_of_digram_sound (max_rank : Int) (d : Digram) (new_rule : RuleCreator)
    (rule_created : Bool) (state : OccState) (st : ReplaceState)
    (hreach : OccReached max_rank d new_rule rule_created state st) :
    find_occurrence_of_digram d st.g.start_symbol (hgraph_len st.g.start_symbol) state
      state.start ≠ .error .assertion ∧
    (OccConn d st.g.start_symbol →
      ∃ s1 o, find_occurrence_of_digram d st.g.start_symbol (hgraph_len st.g.start_symbol)
        state state.start = .ok (s1, o)) ∧
    ∀ s1 a c, find_occurrence_of_digram d st.g.start_symbol (hgraph_len st.g.start_symbol)
        state state.start = .ok (s1, some (a, c)) →
      a ≠ c ∧ ∃ e0 e1 n, hgraph_edge_get st.g.start_symbol a = .ok (some e0) ∧
        hgraph_edge_get st.g.start_symbol c = .ok (some e1) ∧
        e0.label = d.adj0.label ∧ e1.label = d.adj1.label ∧
        arr_get e0.nodes d.adj0.conn_type = .ok n ∧
        arr_get e1.nodes d.adj1.conn_type = .ok n := by
  obtain ⟨hinv, _⟩ := occ_reached_inv max_rank d new_rule rule_created state st hreach
  rcases find_occurrence_loop_spec d st.g.start_symbol (hgraph_len st.g.start_symbol)
    state.start state hinv with ⟨h, hc⟩ | ⟨s1, h⟩ | ⟨s1, a, c, h, hp, _⟩
  · rw [h]
    refine ⟨by decide, fun hconn => absurd hconn hc, ?_⟩
    intro s1 a c hx
    cases hx
  · rw [h]
    refine ⟨fun hx => (by cases hx), fun _ => ⟨s1, none, rfl⟩, ?_⟩
    intro s2 a c hx
    cases hx
  · rw [h]
    refine ⟨fun hx => (by cases hx), fun _ => ⟨s1, some (a, c), rfl⟩, ?_⟩
    intro s2 a2 c2 hx
    cases hx
    obtain ⟨hne, e0, e1, n, g0, g1, l0, l1, n0, n1⟩ := hp
    exact ⟨hne, e0, e1, n, hgraph_edge_get_of_get? _ _ _ g0, hgraph_edge_get_of_get? _ _ _ g1,
      l0, l1, arr_get_of_get? _ _ _ n0, arr_get_of_get? _ _ _ n1⟩

theorem find_occurrence_of_digram_sound_witness :
    OccReached 4 occExampleDigram occExampleRule false occ_state_init occExampleState ∧
    find_occurrence_of_digram occExampleDigram occExampleState.g.start_symbol
      (hgraph_len occExampleState.g.start_symbol) occ_state_init occ_state_init.start ≠
        .error .assertion ∧
    (OccConn occExampleDigram occExampleState.g.start_symbol →
      ∃ s1 o, find_occurrence_of_digram occExampleDigram occExampleState.g.start_symbol
        (hgraph_len occExampleState.g.start_symbol) occ_state_init occ_state_init.start =
          .ok (s1, o)) ∧
    ∀ s1 a c, find_occurrence_of_digram occExampleDigram occExampleState.g.start_symbol
        (hgraph_len occExampleState.g.start_symbol) occ_state_init occ_state_init.start =
          .ok (s1, some (a, c)) →
      a ≠ c ∧ ∃ e0 e1 n, hgraph_edge_get occExampleState.g.start_symbol a = .ok (some e0) ∧
        hgraph_edge_get occExampleState.g.start_symbol c = .ok (some e1) ∧
        e0.label = occExampleDigram.adj0.label ∧ e1.label = occExampleDigram.adj1.label ∧
        arr_get e0.nodes occExampleDigram.adj0.conn_type = .ok n ∧
        arr_get e1.nodes occExampleDigram.adj1.conn_type = .ok n :=
  ⟨OccReached.first occExampleState (by decide),
    find_occurrence_of_digram_sound 4 occExampleDigram occExampleRule false occ_state_init
      occExampleState (OccReached.first occExampleState (by decide))⟩

/-- On the example state the first call returns the occurrence `(0, 1)`. -/
theorem find_occurrence_of_digram_example :
    (find_occurrence_of_digram occExampleDigram occExampleState.g.start_symbol
      (hgraph_len occExampleState.g.start_symbol) occ_state_init occ_state_init.start).map
        Prod.snd = .ok (some (0, 1)) := by
  decide

/-! ## fmindex_locate_match at a sampled row -/

end IndexEdge
